import Mathlib

/-! # chx-rbtree: an intrusive red-black tree over an explicit node memory

The C library manipulates node headers through pointers.  The embedding keeps
that shape: a pointer is a natural number (`0` is `NULL`), the node memory is a
function from addresses to headers, and every C function becomes a function on
the program state.  C loops become recursion on a fuel argument and return
`none` when the fuel is exhausted.
-/

set_option linter.unusedVariables false
set_option linter.unreachableTactic false
set_option linter.unusedTactic false
set_option linter.unnecessarySeqFocus false
set_option linter.unnecessarySimpa false
set_option linter.unusedSectionVars false

namespace ChxRb

/-! ## Data model (`rbtree_types.h`) -/

/-- Header `struct chx_rb_node`: the packed parent-and-colour word and the two
child pointers. -/
structure chx_rb_node where
  __rb_parent_color : Nat
  rb_right : Nat
  rb_left : Nat
deriving DecidableEq

/-- Program state seen by the library: the node memory, the root handle
`root->rb_node` of `struct chx_rb_root`, and the caller-owned augmented data,
which only the augmentation callbacks update. -/
structure State (α : Type) where
  mem : Nat → chx_rb_node
  rb_node : Nat
  aug : α

/-- An augmentation hook `void f(struct chx_rb_node*, struct chx_rb_node*)`:
it reads the state and yields the new augmented data. -/
abbrev Callback (α : Type) := Nat → Nat → State α → α

/-- Record `struct chx_rb_augment_callbacks` of `rbtree_augmented.h`. -/
structure chx_rb_augment_callbacks (α : Type) where
  propagate : Callback α
  copy : Callback α
  rotate : Callback α

/-- A `struct chx_rb_node**`: the address of the root handle or of a child
field of a node. -/
inductive Link where
  | root : Link
  | left (a : Nat) : Link
  | right (a : Nat) : Link
deriving DecidableEq

variable {α : Type}

/-- Store to `a->__rb_parent_color`. -/
def State.store_pc (s : State α) (a v : Nat) : State α :=
  { s with mem := fun x => if x = a then { s.mem a with __rb_parent_color := v } else s.mem x }

/-- Store to `a->rb_left` (`WRITE_ONCE`). -/
def State.store_left (s : State α) (a v : Nat) : State α :=
  { s with mem := fun x => if x = a then { s.mem a with rb_left := v } else s.mem x }

/-- Store to `a->rb_right` (`WRITE_ONCE`). -/
def State.store_right (s : State α) (a v : Nat) : State α :=
  { s with mem := fun x => if x = a then { s.mem a with rb_right := v } else s.mem x }

/-- Store to `root->rb_node`. -/
def State.store_root (s : State α) (v : Nat) : State α :=
  { s with rb_node := v }

/-- Run an augmentation hook on the state. -/
def State.call (s : State α) (f : Callback α) (a b : Nat) : State α :=
  { s with aug := f a b s }

/-- Load through a `struct chx_rb_node**`. -/
def State.load_link (s : State α) : Link → Nat
  | .root => s.rb_node
  | .left a => (s.mem a).rb_left
  | .right a => (s.mem a).rb_right

/-- Store through a `struct chx_rb_node**`. -/
def State.store_link (s : State α) : Link → Nat → State α
  | .root, v => s.store_root v
  | .left a, v => s.store_left a v
  | .right a, v => s.store_right a v

/-! ## Link and colour primitives (`rbtree.c`, lines 36-151) -/

def CHX_RB_RED : Nat := 0

def CHX_RB_BLACK : Nat := 1

/-- Macro `__chx_rb_parent(pc)`: `pc & ~3`. -/
def __chx_rb_parent (pc : Nat) : Nat := pc - pc % 4

/-- Macro `__chx_rb_color(pc)`: `pc & 1`. -/
def __chx_rb_color (pc : Nat) : Nat := pc % 2

def __chx_rb_is_black (pc : Nat) : Bool := __chx_rb_color pc != 0

def __chx_rb_is_red (pc : Nat) : Bool := __chx_rb_color pc == 0

def chx_rb_parent (s : State α) (r : Nat) : Nat :=
  __chx_rb_parent (s.mem r).__rb_parent_color

def chx_rb_color (s : State α) (rb : Nat) : Nat :=
  __chx_rb_color (s.mem rb).__rb_parent_color

def chx_rb_is_red (s : State α) (rb : Nat) : Bool :=
  __chx_rb_is_red (s.mem rb).__rb_parent_color

def chx_rb_is_black (s : State α) (rb : Nat) : Bool :=
  __chx_rb_is_black (s.mem rb).__rb_parent_color

def chx_rb_set_parent (s : State α) (rb p : Nat) : State α :=
  s.store_pc rb (chx_rb_color s rb + p)

def chx_rb_set_parent_color (s : State α) (rb p color : Nat) : State α :=
  s.store_pc rb (p + color)

def __chx_rb_change_child (s : State α) (old new_node parent : Nat) : State α :=
  if parent ≠ 0 then
    if (s.mem parent).rb_left = old then s.store_left parent new_node
    else s.store_right parent new_node
  else s.store_root new_node

def chx_rb_set_black (s : State α) (rb : Nat) : State α :=
  s.store_pc rb ((s.mem rb).__rb_parent_color + CHX_RB_BLACK)

def chx_rb_red_parent (s : State α) (red : Nat) : Nat :=
  (s.mem red).__rb_parent_color

def __chx_rb_rotate_set_parents (s : State α) (old new color : Nat) : State α :=
  let parent := chx_rb_parent s old
  let s := s.store_pc new (s.mem old).__rb_parent_color
  let s := chx_rb_set_parent_color s old new color
  __chx_rb_change_child s old new parent

/-! ## Insert fix-up (`rbtree.c`, lines 153-287) -/

/-- Case 2 of the left branch (lines 223-231): left rotate at `parent`.
Yields the state and the new `tmp`; the caller continues with
`parent := node`. -/
def insert_case2_left (augment_rotate : Callback α) (s : State α)
    (node parent : Nat) : State α × Nat :=
  let tmp := (s.mem node).rb_left
  let s := s.store_right parent tmp
  let s := s.store_left node parent
  let s := if tmp ≠ 0 then chx_rb_set_parent_color s tmp parent CHX_RB_BLACK else s
  let s := chx_rb_set_parent_color s parent node CHX_RB_RED
  let s := s.call augment_rotate parent node
  (s, (s.mem node).rb_right)

/-- Case 3 of the left branch (lines 244-249): right rotate at `gparent`. -/
def insert_case3_left (augment_rotate : Callback α) (s : State α)
    (gparent parent tmp : Nat) : State α :=
  let s := s.store_left gparent tmp
  let s := s.store_right parent gparent
  let s := if tmp ≠ 0 then chx_rb_set_parent_color s tmp gparent CHX_RB_BLACK else s
  let s := __chx_rb_rotate_set_parents s gparent parent CHX_RB_RED
  s.call augment_rotate gparent parent

/-- Case 2 of the right branch (lines 266-274): right rotate at `parent`. -/
def insert_case2_right (augment_rotate : Callback α) (s : State α)
    (node parent : Nat) : State α × Nat :=
  let tmp := (s.mem node).rb_right
  let s := s.store_left parent tmp
  let s := s.store_right node parent
  let s := if tmp ≠ 0 then chx_rb_set_parent_color s tmp parent CHX_RB_BLACK else s
  let s := chx_rb_set_parent_color s parent node CHX_RB_RED
  let s := s.call augment_rotate parent node
  (s, (s.mem node).rb_left)

/-- Case 3 of the right branch (lines 278-283): left rotate at `gparent`. -/
def insert_case3_right (augment_rotate : Callback α) (s : State α)
    (gparent parent tmp : Nat) : State α :=
  let s := s.store_right gparent tmp
  let s := s.store_left parent gparent
  let s := if tmp ≠ 0 then chx_rb_set_parent_color s tmp gparent CHX_RB_BLACK else s
  let s := __chx_rb_rotate_set_parents s gparent parent CHX_RB_RED
  s.call augment_rotate gparent parent

/-- Case 1 of either branch (lines 200-204 and 255-259): colour flips.  Yields
the state and the new `parent`; the caller continues with `node := gparent`. -/
def insert_case1 (s : State α) (gparent parent tmp : Nat) : State α × Nat :=
  let s := chx_rb_set_parent_color s tmp gparent CHX_RB_BLACK
  let s := chx_rb_set_parent_color s parent gparent CHX_RB_BLACK
  let node := gparent
  let parent := chx_rb_parent s node
  (chx_rb_set_parent_color s node parent CHX_RB_RED, parent)

/-- The `while (true)` loop of `__chx_rb_insert`; one unit of fuel per
iteration. -/
def __chx_rb_insert_loop (augment_rotate : Callback α) :
    Nat → State α → Nat → Nat → Option (State α)
  | 0, _, _, _ => none
  | fuel + 1, s, node, parent =>
    if parent = 0 then
      some (chx_rb_set_parent_color s node 0 CHX_RB_BLACK)
    else if chx_rb_is_black s parent then
      some s
    else
      let gparent := chx_rb_red_parent s parent
      let tmp := (s.mem gparent).rb_right
      if parent ≠ tmp then
        if tmp ≠ 0 ∧ chx_rb_is_red s tmp then
          let r := insert_case1 s gparent parent tmp
          __chx_rb_insert_loop augment_rotate fuel r.1 gparent r.2
        else
          let tmp := (s.mem parent).rb_right
          if node = tmp then
            let r := insert_case2_left augment_rotate s node parent
            some (insert_case3_left augment_rotate r.1 gparent node r.2)
          else
            some (insert_case3_left augment_rotate s gparent parent tmp)
      else
        let tmp := (s.mem gparent).rb_left
        if tmp ≠ 0 ∧ chx_rb_is_red s tmp then
          let r := insert_case1 s gparent parent tmp
          __chx_rb_insert_loop augment_rotate fuel r.1 gparent r.2
        else
          let tmp := (s.mem parent).rb_left
          if node = tmp then
            let r := insert_case2_right augment_rotate s node parent
            some (insert_case3_right augment_rotate r.1 gparent node r.2)
          else
            some (insert_case3_right augment_rotate s gparent parent tmp)

def __chx_rb_insert (augment_rotate : Callback α) (fuel : Nat) (s : State α)
    (node : Nat) : Option (State α) :=
  __chx_rb_insert_loop augment_rotate fuel s node (chx_rb_red_parent s node)

/-- The no-op hooks `dummy_propagate`, `dummy_copy`, `dummy_rotate`. -/
def dummy_rotate : Callback α := fun _ _ s => s.aug

def dummy_propagate : Callback α := fun _ _ s => s.aug

def dummy_copy : Callback α := fun _ _ s => s.aug

def dummy_callbacks : chx_rb_augment_callbacks α :=
  { propagate := dummy_propagate, copy := dummy_copy, rotate := dummy_rotate }

def chx_rb_insert_color (fuel : Nat) (s : State α) (node : Nat) : Option (State α) :=
  __chx_rb_insert dummy_rotate fuel s node

/-! ## Linking and ordered insertion (`rbtree.h`) -/

def chx_rb_link_node (s : State α) (node parent : Nat) (rb_link : Link) : State α :=
  let s := s.store_pc node parent
  let s := s.store_right node 0
  let s := s.store_left node 0
  s.store_link rb_link node

/-- Function `chx_rb_link_node_rcu` (`rbtree.h`, lines 72-79): in this port the
same plain stores as `chx_rb_link_node`, in the same order. -/
def chx_rb_link_node_rcu (s : State α) (node parent : Nat) (rb_link : Link) : State α :=
  let s := s.store_pc node parent
  let s := s.store_right node 0
  let s := s.store_left node 0
  s.store_link rb_link node

/-- The descent `while (*link)` of `chx_rb_add`: yields the final `parent` and
`link`. -/
def chx_rb_add_descend (less : Nat → Nat → Bool) (s : State α) (node : Nat) :
    Nat → Link → Nat → Option (Nat × Link)
  | 0, _, _ => none
  | fuel + 1, link, parent =>
    if s.load_link link ≠ 0 then
      let parent := s.load_link link
      if less node parent then
        chx_rb_add_descend less s node fuel (.left parent) parent
      else
        chx_rb_add_descend less s node fuel (.right parent) parent
    else some (parent, link)

def chx_rb_add (less : Nat → Nat → Bool) (fuel : Nat) (s : State α) (node : Nat) :
    Option (State α) :=
  match chx_rb_add_descend less s node fuel .root 0 with
  | none => none
  | some (parent, link) =>
    chx_rb_insert_color fuel (chx_rb_link_node s node parent link) node

def chx_rb_find_add_descend (cmp : Nat → Nat → Int) (s : State α) (node : Nat) :
    Nat → Link → Nat → Option (Nat ⊕ (Nat × Link))
  | 0, _, _ => none
  | fuel + 1, link, parent =>
    if s.load_link link ≠ 0 then
      let parent := s.load_link link
      let c := cmp node parent
      if c < 0 then
        chx_rb_find_add_descend cmp s node fuel (.left parent) parent
      else if c > 0 then
        chx_rb_find_add_descend cmp s node fuel (.right parent) parent
      else some (.inl parent)
    else some (.inr (parent, link))

/-- Function `chx_rb_find_add`: yields the state and the returned pointer. -/
def chx_rb_find_add (cmp : Nat → Nat → Int) (fuel : Nat) (s : State α) (node : Nat) :
    Option (State α × Nat) :=
  match chx_rb_find_add_descend cmp s node fuel .root 0 with
  | none => none
  | some (.inl parent) => some (s, parent)
  | some (.inr (parent, link)) =>
    (chx_rb_insert_color fuel (chx_rb_link_node s node parent link) node).map
      fun s => (s, 0)

/-- The loop of `chx_rb_find`, started at `node`. -/
def chx_rb_find_loop {κ : Type} (cmp : κ → Nat → Int) (key : κ) (s : State α) :
    Nat → Nat → Option Nat
  | 0, _ => none
  | fuel + 1, node =>
    if node ≠ 0 then
      let c := cmp key node
      if c < 0 then chx_rb_find_loop cmp key s fuel (s.mem node).rb_left
      else if c > 0 then chx_rb_find_loop cmp key s fuel (s.mem node).rb_right
      else some node
    else some 0

def chx_rb_find {κ : Type} (cmp : κ → Nat → Int) (fuel : Nat) (key : κ) (s : State α) :
    Option Nat :=
  chx_rb_find_loop cmp key s fuel s.rb_node

/-! ## Navigation (`rbtree.c`, lines 525-602) -/

/-- The assignment `root = CHX_RB_ROOT` (`rbtree_types.h`, lines 30-31): the
root handle becomes `NULL`. -/
def CHX_RB_ROOT (s : State α) : State α := s.store_root 0

def CHX_RB_EMPTY_ROOT (s : State α) : Bool := s.rb_node == 0

def CHX_RB_EMPTY_NODE (s : State α) (node : Nat) : Bool :=
  (s.mem node).__rb_parent_color == node

def CHX_RB_CLEAR_NODE (s : State α) (node : Nat) : State α :=
  s.store_pc node node

/-- Loop `while (n->rb_left) n = n->rb_left;`. -/
def leftmost_loop (s : State α) : Nat → Nat → Option Nat
  | 0, _ => none
  | fuel + 1, n =>
    if (s.mem n).rb_left ≠ 0 then leftmost_loop s fuel (s.mem n).rb_left else some n

/-- Loop `while (n->rb_right) n = n->rb_right;`. -/
def rightmost_loop (s : State α) : Nat → Nat → Option Nat
  | 0, _ => none
  | fuel + 1, n =>
    if (s.mem n).rb_right ≠ 0 then rightmost_loop s fuel (s.mem n).rb_right else some n

def chx_rb_first (fuel : Nat) (s : State α) : Option Nat :=
  let n := s.rb_node
  if n = 0 then some 0 else leftmost_loop s fuel n

def chx_rb_last (fuel : Nat) (s : State α) : Option Nat :=
  let n := s.rb_node
  if n = 0 then some 0 else rightmost_loop s fuel n

/-- Loop `while ((parent = chx_rb_parent(node)) && node == parent->rb_right)`
of `chx_rb_next`; yields the final `parent`. -/
def chx_rb_next_ascend (s : State α) : Nat → Nat → Option Nat
  | 0, _ => none
  | fuel + 1, node =>
    let parent := chx_rb_parent s node
    if parent ≠ 0 ∧ node = (s.mem parent).rb_right then chx_rb_next_ascend s fuel parent
    else some parent

def chx_rb_next (fuel : Nat) (s : State α) (node : Nat) : Option Nat :=
  if CHX_RB_EMPTY_NODE s node then some 0
  else if (s.mem node).rb_right ≠ 0 then leftmost_loop s fuel (s.mem node).rb_right
  else chx_rb_next_ascend s fuel node

/-- Loop `while ((parent = chx_rb_parent(node)) && node == parent->rb_left)`
of `chx_rb_prev`; yields the final `parent`. -/
def chx_rb_prev_ascend (s : State α) : Nat → Nat → Option Nat
  | 0, _ => none
  | fuel + 1, node =>
    let parent := chx_rb_parent s node
    if parent ≠ 0 ∧ node = (s.mem parent).rb_left then chx_rb_prev_ascend s fuel parent
    else some parent

def chx_rb_prev (fuel : Nat) (s : State α) (node : Nat) : Option Nat :=
  if CHX_RB_EMPTY_NODE s node then some 0
  else if (s.mem node).rb_left ≠ 0 then rightmost_loop s fuel (s.mem node).rb_left
  else chx_rb_prev_ascend s fuel node

/-- The iteration `for (node = chx_rb_first(root); node; node = chx_rb_next(node))`
continued from `node`: the nodes visited, in order.  The first argument bounds
the number of loop iterations, the second is the fuel of each call. -/
def first_next_walk_from (s : State α) (fuel : Nat) : Nat → Nat → Option (List Nat)
  | 0, _ => none
  | k + 1, node =>
    if node ≠ 0 then
      match chx_rb_next fuel s node with
      | none => none
      | some nxt => (first_next_walk_from s fuel k nxt).map (node :: ·)
    else some []

def first_next_walk (fuel : Nat) (s : State α) : Option (List Nat) :=
  match chx_rb_first fuel s with
  | none => none
  | some n => first_next_walk_from s fuel fuel n

/-! ## Replacement (`rbtree.c`, lines 604-618) -/

/-- Structure assignment `*new_node = *victim`. -/
def State.copy_node (s : State α) (new_node victim : Nat) : State α :=
  { s with mem := fun x => if x = new_node then s.mem victim else s.mem x }

def chx_rb_replace_node (s : State α) (victim new_node : Nat) : State α :=
  let parent := chx_rb_parent s victim
  let s := s.copy_node new_node victim
  let s := if (s.mem victim).rb_left ≠ 0 then
      chx_rb_set_parent s (s.mem victim).rb_left new_node else s
  let s := if (s.mem victim).rb_right ≠ 0 then
      chx_rb_set_parent s (s.mem victim).rb_right new_node else s
  __chx_rb_change_child s victim new_node parent

/-! ## Erase fix-up (`rbtree.c`, lines 293-466) -/

/-- Case 1 of the left branch (lines 319-325): left rotate at `parent`.
Yields the state and the new `sibling`. -/
def erase_case1_left (augment_rotate : Callback α) (s : State α)
    (parent sibling : Nat) : State α × Nat :=
  let tmp1 := (s.mem sibling).rb_left
  let s := s.store_right parent tmp1
  let s := s.store_left sibling parent
  let s := chx_rb_set_parent_color s tmp1 parent CHX_RB_BLACK
  let s := __chx_rb_rotate_set_parents s parent sibling CHX_RB_RED
  let s := s.call augment_rotate parent sibling
  (s, tmp1)

/-- Case 3 of the left branch (lines 384-392): right rotate at `sibling`.
Yields the state; the caller continues with `tmp1 := sibling` and
`sibling := tmp2`. -/
def erase_case3_left (augment_rotate : Callback α) (s : State α)
    (parent sibling tmp2 : Nat) : State α :=
  let tmp1 := (s.mem tmp2).rb_right
  let s := s.store_left sibling tmp1
  let s := s.store_right tmp2 sibling
  let s := s.store_right parent tmp2
  let s := if tmp1 ≠ 0 then chx_rb_set_parent_color s tmp1 sibling CHX_RB_BLACK else s
  s.call augment_rotate sibling tmp2

/-- Case 4 of the left branch (lines 406-413): left rotate at `parent` and
colour flips. -/
def erase_case4_left (augment_rotate : Callback α) (s : State α)
    (parent sibling tmp1 : Nat) : State α :=
  let tmp2 := (s.mem sibling).rb_left
  let s := s.store_right parent tmp2
  let s := s.store_left sibling parent
  let s := chx_rb_set_parent_color s tmp1 sibling CHX_RB_BLACK
  let s := if tmp2 ≠ 0 then chx_rb_set_parent s tmp2 parent else s
  let s := __chx_rb_rotate_set_parents s parent sibling CHX_RB_BLACK
  s.call augment_rotate parent sibling

/-- Case 1 of the right branch (lines 419-425): right rotate at `parent`. -/
def erase_case1_right (augment_rotate : Callback α) (s : State α)
    (parent sibling : Nat) : State α × Nat :=
  let tmp1 := (s.mem sibling).rb_right
  let s := s.store_left parent tmp1
  let s := s.store_right sibling parent
  let s := chx_rb_set_parent_color s tmp1 parent CHX_RB_BLACK
  let s := __chx_rb_rotate_set_parents s parent sibling CHX_RB_RED
  let s := s.call augment_rotate parent sibling
  (s, tmp1)

/-- Case 3 of the right branch (lines 444-452): left rotate at `sibling`. -/
def erase_case3_right (augment_rotate : Callback α) (s : State α)
    (parent sibling tmp2 : Nat) : State α :=
  let tmp1 := (s.mem tmp2).rb_left
  let s := s.store_right sibling tmp1
  let s := s.store_left tmp2 sibling
  let s := s.store_left parent tmp2
  let s := if tmp1 ≠ 0 then chx_rb_set_parent_color s tmp1 sibling CHX_RB_BLACK else s
  s.call augment_rotate sibling tmp2

/-- Case 4 of the right branch (lines 455-462): right rotate at `parent` and
colour flips. -/
def erase_case4_right (augment_rotate : Callback α) (s : State α)
    (parent sibling tmp1 : Nat) : State α :=
  let tmp2 := (s.mem sibling).rb_right
  let s := s.store_left parent tmp2
  let s := s.store_right sibling parent
  let s := chx_rb_set_parent_color s tmp1 sibling CHX_RB_BLACK
  let s := if tmp2 ≠ 0 then chx_rb_set_parent s tmp2 parent else s
  let s := __chx_rb_rotate_set_parents s parent sibling CHX_RB_BLACK
  s.call augment_rotate parent sibling

/-- Lines 346-355 and 432-441: Case 2 of either branch, sibling colour flip.
`loop` is the next iteration of the enclosing `while (true)`. -/
def erase_case2 (loop : State α → Nat → Nat → Option (State α)) (s : State α)
    (parent sibling : Nat) : Option (State α) :=
  let s := chx_rb_set_parent_color s sibling parent CHX_RB_RED
  if chx_rb_is_red s parent then some (chx_rb_set_black s parent)
  else
    let node := parent
    let parent := chx_rb_parent s node
    if parent ≠ 0 then loop s node parent
    else some s

/-- Lines 327-414: the left branch once the sibling is known to be black
(Cases 2, 3 and 4). -/
def erase_color_left_tail (augment_rotate : Callback α)
    (loop : State α → Nat → Nat → Option (State α)) (s : State α)
    (parent sibling : Nat) : Option (State α) :=
  let tmp1 := (s.mem sibling).rb_right
  if tmp1 = 0 ∨ chx_rb_is_black s tmp1 then
    let tmp2 := (s.mem sibling).rb_left
    if tmp2 = 0 ∨ chx_rb_is_black s tmp2 then
      erase_case2 loop s parent sibling
    else
      let s := erase_case3_left augment_rotate s parent sibling tmp2
      some (erase_case4_left augment_rotate s parent tmp2 sibling)
  else
    some (erase_case4_left augment_rotate s parent sibling tmp1)

/-- Lines 427-463: the right branch once the sibling is known to be black
(Cases 2, 3 and 4). -/
def erase_color_right_tail (augment_rotate : Callback α)
    (loop : State α → Nat → Nat → Option (State α)) (s : State α)
    (parent sibling : Nat) : Option (State α) :=
  let tmp1 := (s.mem sibling).rb_left
  if tmp1 = 0 ∨ chx_rb_is_black s tmp1 then
    let tmp2 := (s.mem sibling).rb_right
    if tmp2 = 0 ∨ chx_rb_is_black s tmp2 then
      erase_case2 loop s parent sibling
    else
      let s := erase_case3_right augment_rotate s parent sibling tmp2
      some (erase_case4_right augment_rotate s parent tmp2 sibling)
  else
    some (erase_case4_right augment_rotate s parent sibling tmp1)

/-- The `while (true)` loop of `____chx_rb_erase_color`; one unit of fuel per
iteration. -/
def ____chx_rb_erase_color_loop (augment_rotate : Callback α) :
    Nat → State α → Nat → Nat → Option (State α)
  | 0, _, _, _ => none
  | fuel + 1, s, node, parent =>
    let sibling := (s.mem parent).rb_right
    if node ≠ sibling then
      let r := if chx_rb_is_red s sibling then
          erase_case1_left augment_rotate s parent sibling else (s, sibling)
      erase_color_left_tail augment_rotate
        (____chx_rb_erase_color_loop augment_rotate fuel) r.1 parent r.2
    else
      let sibling := (s.mem parent).rb_left
      let r := if chx_rb_is_red s sibling then
          erase_case1_right augment_rotate s parent sibling else (s, sibling)
      erase_color_right_tail augment_rotate
        (____chx_rb_erase_color_loop augment_rotate fuel) r.1 parent r.2

def ____chx_rb_erase_color (augment_rotate : Callback α) (fuel : Nat) (s : State α)
    (parent : Nat) : Option (State α) :=
  ____chx_rb_erase_color_loop augment_rotate fuel s 0 parent

def __chx_rb_erase_color (augment_rotate : Callback α) (fuel : Nat) (s : State α)
    (parent : Nat) : Option (State α) :=
  ____chx_rb_erase_color augment_rotate fuel s parent

/-! ## Structural splice (`rbtree.c`, lines 677-776) -/

/-- Loop `do { parent = successor; successor = tmp; tmp = tmp->rb_left; } while (tmp)`
(lines 742-746); yields `parent` and `successor`. -/
def erase_successor_loop (s : State α) : Nat → Nat → Nat → Option (Nat × Nat)
  | 0, _, _ => none
  | fuel + 1, successor, tmp =>
    let parent := successor
    let successor := tmp
    let tmp := (s.mem tmp).rb_left
    if tmp ≠ 0 then erase_successor_loop s fuel successor tmp
    else some (parent, successor)

/-- Lines 756-771, common to Case 2 and Case 3: `successor` takes the place of
`node`.  Yields the state, `rebalance` and the final `tmp`. -/
def erase_splice_successor (s : State α) (node successor parent child2 : Nat) :
    State α × Nat × Nat :=
  let tmp := (s.mem node).rb_left
  let s := s.store_left successor tmp
  let s := chx_rb_set_parent s tmp successor
  let pc := (s.mem node).__rb_parent_color
  let tmp := __chx_rb_parent pc
  let s := __chx_rb_change_child s node successor tmp
  let r := if child2 ≠ 0 then
      (chx_rb_set_parent_color s child2 parent CHX_RB_BLACK, 0)
    else (s, if chx_rb_is_black s successor then parent else 0)
  let s := r.1.store_pc successor pc
  (s, r.2, successor)

/-- Function `__chx_rb_erase_augmented`: yields the state and `rebalance`. -/
def __chx_rb_erase_augmented (augment : chx_rb_augment_callbacks α) (fuel : Nat)
    (s : State α) (node : Nat) : Option (State α × Nat) :=
  let child := (s.mem node).rb_right
  let tmp := (s.mem node).rb_left
  if tmp = 0 then
    let pc := (s.mem node).__rb_parent_color
    let parent := __chx_rb_parent pc
    let s := __chx_rb_change_child s node child parent
    let r := if child ≠ 0 then (s.store_pc child pc, 0)
      else (s, if __chx_rb_is_black pc then parent else 0)
    let tmp := parent
    some (r.1.call augment.propagate tmp 0, r.2)
  else if child = 0 then
    let pc := (s.mem node).__rb_parent_color
    let s := s.store_pc tmp pc
    let parent := __chx_rb_parent pc
    let s := __chx_rb_change_child s node tmp parent
    let rebalance := 0
    let tmp := parent
    some (s.call augment.propagate tmp 0, rebalance)
  else
    let successor := child
    let tmp := (s.mem child).rb_left
    if tmp = 0 then
      let parent := successor
      let child2 := (s.mem successor).rb_right
      let s := s.call augment.copy node successor
      let r := erase_splice_successor s node successor parent child2
      some (r.1.call augment.propagate r.2.2 0, r.2.1)
    else
      match erase_successor_loop s fuel successor tmp with
      | none => none
      | some (parent, successor) =>
        let child2 := (s.mem successor).rb_right
        let s := s.store_left parent child2
        let s := s.store_right successor child
        let s := chx_rb_set_parent s child successor
        let s := s.call augment.copy node successor
        let s := s.call augment.propagate parent successor
        let r := erase_splice_successor s node successor parent child2
        some (r.1.call augment.propagate r.2.2 0, r.2.1)

/-- Function `chx_rb_erase_augmented` of `rbtree_augmented.h`. -/
def chx_rb_erase_augmented (augment : chx_rb_augment_callbacks α) (fuel : Nat)
    (s : State α) (node : Nat) : Option (State α) :=
  match __chx_rb_erase_augmented augment fuel s node with
  | none => none
  | some (s, rebalance) =>
    if rebalance ≠ 0 then __chx_rb_erase_color augment.rotate fuel s rebalance
    else some s

def chx_rb_erase (fuel : Nat) (s : State α) (node : Nat) : Option (State α) :=
  match __chx_rb_erase_augmented dummy_callbacks fuel s node with
  | none => none
  | some (s, rebalance) =>
    if rebalance ≠ 0 then ____chx_rb_erase_color dummy_rotate fuel s rebalance
    else some s

/-! ## Iterating the nodes that match a key (`rbtree.h`, lines 377-432) -/

/-- The loop of `chx_rb_find_first`, at `node` with the current `match`. -/
def chx_rb_find_first_loop {κ : Type} (cmp : κ → Nat → Int) (key : κ) (s : State α) :
    Nat → Nat → Nat → Option Nat
  | 0, _, _ => none
  | fuel + 1, node, mtch =>
    if node ≠ 0 then
      let c := cmp key node
      if c ≤ 0 then
        let mtch := if c = 0 then node else mtch
        chx_rb_find_first_loop cmp key s fuel (s.mem node).rb_left mtch
      else if c > 0 then
        chx_rb_find_first_loop cmp key s fuel (s.mem node).rb_right mtch
      else chx_rb_find_first_loop cmp key s fuel node mtch
    else some mtch

def chx_rb_find_first {κ : Type} (cmp : κ → Nat → Int) (fuel : Nat) (key : κ)
    (s : State α) : Option Nat :=
  chx_rb_find_first_loop cmp key s fuel s.rb_node 0

def chx_rb_next_match {κ : Type} (cmp : κ → Nat → Int) (fuel : Nat) (key : κ)
    (s : State α) (node : Nat) : Option Nat :=
  match chx_rb_next fuel s node with
  | none => none
  | some node => some (if node ≠ 0 ∧ cmp key node ≠ 0 then 0 else node)

/-- The iteration `for (node = start; node; node = step(node))` from `node`:
the nodes visited, in order.  The first argument bounds the number of
iterations. -/
def for_each_node (step : Nat → Option Nat) : Nat → Nat → Option (List Nat)
  | 0, _ => none
  | k + 1, node =>
    if node ≠ 0 then
      match step node with
      | none => none
      | some nxt => (for_each_node step k nxt).map (node :: ·)
    else some []

/-- Macro `chx_rb_for_each(node, key, tree, cmp)`: the nodes the loop body
sees, in order. -/
def chx_rb_for_each {κ : Type} (cmp : κ → Nat → Int) (fuel : Nat) (key : κ)
    (s : State α) : Option (List Nat) :=
  match chx_rb_find_first cmp fuel key s with
  | none => none
  | some n => for_each_node (chx_rb_next_match cmp fuel key s) fuel n

/-- The iteration `for (node = chx_rb_last(root); node; node = chx_rb_prev(node))`
of `test_prev`. -/
def last_prev_walk (fuel : Nat) (s : State α) : Option (List Nat) :=
  match chx_rb_last fuel s with
  | none => none
  | some n => for_each_node (chx_rb_prev fuel s) fuel n

/-! ## Post-order iteration (`rbtree.c`, lines 641-675) -/

def chx_rb_left_deepest_node (s : State α) : Nat → Nat → Option Nat
  | 0, _ => none
  | fuel + 1, node =>
    if (s.mem node).rb_left ≠ 0 then chx_rb_left_deepest_node s fuel (s.mem node).rb_left
    else if (s.mem node).rb_right ≠ 0 then
      chx_rb_left_deepest_node s fuel (s.mem node).rb_right
    else some node

def chx_rb_next_postorder (fuel : Nat) (s : State α) (node : Nat) : Option Nat :=
  if node = 0 then some 0
  else
    let parent := chx_rb_parent s node
    if parent ≠ 0 ∧ node = (s.mem parent).rb_left ∧ (s.mem parent).rb_right ≠ 0 then
      chx_rb_left_deepest_node s fuel (s.mem parent).rb_right
    else some parent

def chx_rb_first_postorder (fuel : Nat) (s : State α) : Option Nat :=
  if s.rb_node = 0 then some 0 else chx_rb_left_deepest_node s fuel s.rb_node

/-- The iteration `for (node = chx_rb_first_postorder(root); node;
node = chx_rb_next_postorder(node))` of `test_postorder`. -/
def postorder_walk (fuel : Nat) (s : State α) : Option (List Nat) :=
  match chx_rb_first_postorder fuel s with
  | none => none
  | some n => for_each_node (chx_rb_next_postorder fuel s) fuel n

/-! ## Leftmost-cached roots (`rbtree_types.h`, `rbtree.h` lines 114-190 and 216-245) -/

/-- Program state around a `struct chx_rb_root_cached`: the state with the
embedded `rb_root`, and the cached pointer `rb_leftmost`. -/
structure CachedState (α : Type) where
  rb_root : State α
  rb_leftmost : Nat

/-- Macro `chx_rb_first_cached(root)`. -/
def chx_rb_first_cached (cs : CachedState α) : Nat := cs.rb_leftmost

def chx_rb_insert_color_cached (fuel : Nat) (cs : CachedState α) (node : Nat)
    (leftmost : Bool) : Option (CachedState α) :=
  let cs := if leftmost then { cs with rb_leftmost := node } else cs
  match chx_rb_insert_color fuel cs.rb_root node with
  | none => none
  | some s => some { cs with rb_root := s }

/-- Function `chx_rb_erase_cached`: yields the state and the returned
`leftmost`. -/
def chx_rb_erase_cached (fuel : Nat) (cs : CachedState α) (node : Nat) :
    Option (CachedState α × Nat) :=
  let r : Option (CachedState α × Nat) :=
    if cs.rb_leftmost = node then
      match chx_rb_next fuel cs.rb_root node with
      | none => none
      | some nxt => some ({ cs with rb_leftmost := nxt }, nxt)
    else some (cs, 0)
  match r with
  | none => none
  | some (cs, leftmost) =>
    match chx_rb_erase fuel cs.rb_root node with
    | none => none
    | some s => some ({ cs with rb_root := s }, leftmost)

def chx_rb_replace_node_cached (cs : CachedState α) (victim new_node : Nat) :
    CachedState α :=
  let cs := if cs.rb_leftmost = victim then { cs with rb_leftmost := new_node } else cs
  { cs with rb_root := chx_rb_replace_node cs.rb_root victim new_node }

/-- The descent `while (*link)` of `chx_rb_add_cached`: yields the final
`parent`, `link` and `leftmost`. -/
def chx_rb_add_cached_descend (less : Nat → Nat → Bool) (s : State α) (node : Nat) :
    Nat → Link → Nat → Bool → Option (Nat × Link × Bool)
  | 0, _, _, _ => none
  | fuel + 1, link, parent, leftmost =>
    if s.load_link link ≠ 0 then
      let parent := s.load_link link
      if less node parent then
        chx_rb_add_cached_descend less s node fuel (.left parent) parent leftmost
      else
        chx_rb_add_cached_descend less s node fuel (.right parent) parent false
    else some (parent, link, leftmost)

/-- Function `chx_rb_add_cached`: yields the state and the returned pointer. -/
def chx_rb_add_cached (less : Nat → Nat → Bool) (fuel : Nat) (cs : CachedState α)
    (node : Nat) : Option (CachedState α × Nat) :=
  match chx_rb_add_cached_descend less cs.rb_root node fuel .root 0 true with
  | none => none
  | some (parent, link, leftmost) =>
    let cs := { cs with rb_root := chx_rb_link_node cs.rb_root node parent link }
    match chx_rb_insert_color_cached fuel cs node leftmost with
    | none => none
    | some cs => some (cs, if leftmost then node else 0)

/-- The descent of `chx_rb_find_add_cached`: a matching node, or the final
`parent`, `link` and `leftmost`. -/
def chx_rb_find_add_cached_descend (cmp : Nat → Nat → Int) (s : State α) (node : Nat) :
    Nat → Link → Nat → Bool → Option (Nat ⊕ (Nat × Link × Bool))
  | 0, _, _, _ => none
  | fuel + 1, link, parent, leftmost =>
    if s.load_link link ≠ 0 then
      let parent := s.load_link link
      let c := cmp node parent
      if c < 0 then
        chx_rb_find_add_cached_descend cmp s node fuel (.left parent) parent leftmost
      else if c > 0 then
        chx_rb_find_add_cached_descend cmp s node fuel (.right parent) parent false
      else some (.inl parent)
    else some (.inr (parent, link, leftmost))

/-- Function `chx_rb_find_add_cached`: yields the state and the returned
pointer. -/
def chx_rb_find_add_cached (cmp : Nat → Nat → Int) (fuel : Nat) (cs : CachedState α)
    (node : Nat) : Option (CachedState α × Nat) :=
  match chx_rb_find_add_cached_descend cmp cs.rb_root node fuel .root 0 true with
  | none => none
  | some (.inl parent) => some (cs, parent)
  | some (.inr (parent, link, leftmost)) =>
    let cs := { cs with rb_root := chx_rb_link_node cs.rb_root node parent link }
    match chx_rb_insert_color_cached fuel cs node leftmost with
    | none => none
    | some cs => some (cs, 0)

/-! ## Augmented trees (`rbtree_augmented.h`) -/

/-- Function `__chx_rb_insert_augmented` (`rbtree.c`, lines 515-520). -/
def __chx_rb_insert_augmented (augment_rotate : Callback α) (fuel : Nat) (s : State α)
    (node : Nat) : Option (State α) :=
  __chx_rb_insert augment_rotate fuel s node

def chx_rb_insert_augmented (augment : chx_rb_augment_callbacks α) (fuel : Nat)
    (s : State α) (node : Nat) : Option (State α) :=
  __chx_rb_insert_augmented augment.rotate fuel s node

def chx_rb_insert_augmented_cached (augment : chx_rb_augment_callbacks α) (fuel : Nat)
    (cs : CachedState α) (node : Nat) (newleft : Bool) : Option (CachedState α) :=
  let cs := if newleft then { cs with rb_leftmost := node } else cs
  match chx_rb_insert_augmented augment fuel cs.rb_root node with
  | none => none
  | some s => some { cs with rb_root := s }

/-- Function `chx_rb_add_augmented_cached`: yields the state and the returned
pointer.  Its descent is the loop of `chx_rb_add_cached`. -/
def chx_rb_add_augmented_cached (less : Nat → Nat → Bool)
    (augment : chx_rb_augment_callbacks α) (fuel : Nat) (cs : CachedState α)
    (node : Nat) : Option (CachedState α × Nat) :=
  match chx_rb_add_cached_descend less cs.rb_root node fuel .root 0 true with
  | none => none
  | some (parent, link, leftmost) =>
    let s := chx_rb_link_node cs.rb_root node parent link
    let s := s.call augment.propagate parent 0
    match chx_rb_insert_augmented_cached augment fuel { cs with rb_root := s } node
        leftmost with
    | none => none
    | some cs => some (cs, if leftmost then node else 0)

/-- The data owned by the hooks that `CHX_RB_DECLARE_CALLBACKS` generates: the
field `RBAUGMENTED` of the structure around every node, addressed by the node;
`none` once a hook has failed to return. -/
abbrev Augmented (V : Type) := Option (Nat → V)

section Callbacks

variable {V : Type} [LinearOrder V]

/-- Function `RBNAME##_compute_max` of `CHX_RB_DECLARE_CALLBACKS_MAX`, for the
per-node scalar `RBCOMPUTE`: yields the fields `RBAUGMENTED` and the result. -/
def RBNAME_compute_max (RBCOMPUTE : Nat → V) (mem : Nat → chx_rb_node)
    (RBAUGMENTED : Nat → V) (node : Nat) (exit : Bool) : (Nat → V) × Bool :=
  let max := RBCOMPUTE node
  let max := if (mem node).rb_left ≠ 0 then
      let child := (mem node).rb_left
      if RBAUGMENTED child > max then RBAUGMENTED child else max
    else max
  let max := if (mem node).rb_right ≠ 0 then
      let child := (mem node).rb_right
      if RBAUGMENTED child > max then RBAUGMENTED child else max
    else max
  if exit = true ∧ RBAUGMENTED node = max then (RBAUGMENTED, true)
  else (Function.update RBAUGMENTED node max, false)

/-- The loop `while (rb != stop)` of `RBNAME##_propagate`; one unit of fuel per
iteration. -/
def RBNAME_propagate_loop (RBCOMPUTE : Nat → V) (s : State (Augmented V)) :
    Nat → Nat → Nat → (Nat → V) → Option (Nat → V)
  | 0, _, _, _ => none
  | fuel + 1, rb, stop, RBAUGMENTED =>
    if rb ≠ stop then
      let node := rb
      let r := RBNAME_compute_max RBCOMPUTE s.mem RBAUGMENTED node true
      if r.2 then some r.1
      else RBNAME_propagate_loop RBCOMPUTE s fuel (chx_rb_parent s node) stop r.1
    else some RBAUGMENTED

/-- Hook `RBNAME##_propagate`. -/
def RBNAME_propagate (RBCOMPUTE : Nat → V) (fuel : Nat) : Callback (Augmented V) :=
  fun rb stop s =>
    match s.aug with
    | none => none
    | some RBAUGMENTED => RBNAME_propagate_loop RBCOMPUTE s fuel rb stop RBAUGMENTED

/-- Hook `RBNAME##_copy`: `new->RBAUGMENTED = old->RBAUGMENTED`. -/
def RBNAME_copy : Callback (Augmented V) :=
  fun rb_old rb_new s =>
    match s.aug with
    | none => none
    | some RBAUGMENTED => some (Function.update RBAUGMENTED rb_new (RBAUGMENTED rb_old))

/-- Hook `RBNAME##_rotate`: `new->RBAUGMENTED = old->RBAUGMENTED;
RBCOMPUTE(old, false)`. -/
def RBNAME_rotate (RBCOMPUTE : Nat → V) : Callback (Augmented V) :=
  fun rb_old rb_new s =>
    match s.aug with
    | none => none
    | some RBAUGMENTED =>
      let RBAUGMENTED := Function.update RBAUGMENTED rb_new (RBAUGMENTED rb_old)
      some (RBNAME_compute_max RBCOMPUTE s.mem RBAUGMENTED rb_old false).1

/-- The structure `RBNAME` that `CHX_RB_DECLARE_CALLBACKS_MAX` declares. -/
def RBNAME (RBCOMPUTE : Nat → V) (fuel : Nat) : chx_rb_augment_callbacks (Augmented V) where
  propagate := RBNAME_propagate RBCOMPUTE fuel
  copy := RBNAME_copy
  rotate := RBNAME_rotate RBCOMPUTE

/-- The maximum of the scalar of `node` and the summaries of the children it
has, `left` and `right` being its child links (an absent child is left out). -/
def subtree_max (v : Nat → V) (f : Nat → V) (node left right : Nat) : V :=
  max (max (v node) (if left ≠ 0 then f left else v node))
    (if right ≠ 0 then f right else v node)

/-- The equation of a subtree maximum at `node`: the stored summary is the
maximum of the scalar of the node and the summaries of the children it has. -/
def summary_eq (v : Nat → V) (mem : Nat → chx_rb_node) (f : Nat → V) (node : Nat) : Prop :=
  f node = subtree_max v f node (mem node).rb_left (mem node).rb_right

instance summary_eq.decide (v : Nat → V) (mem : Nat → chx_rb_node) (f : Nat → V)
    (node : Nat) : Decidable (summary_eq v mem f node) :=
  inferInstanceAs (Decidable (_ = _))

/-- The summaries are present and every node of `nodes` satisfies the equation
of a subtree maximum. -/
def MaxSummaries (v : Nat → V) (mem : Nat → chx_rb_node) (nodes : List Nat) :
    Augmented V → Prop
  | none => False
  | some f => ∀ n ∈ nodes, summary_eq v mem f n

instance MaxSummaries.decide (v : Nat → V) (mem : Nat → chx_rb_node) (nodes : List Nat) :
    (a : Augmented V) → Decidable (MaxSummaries v mem nodes a)
  | none => isFalse (fun h => h)
  | some f => inferInstanceAs (Decidable (∀ n ∈ nodes, summary_eq v mem f n))

end Callbacks

/-! ## Abstract trees and the representation relation -/

inductive Color where
  | red : Color
  | black : Color
deriving DecidableEq

/-- The colour bit stored in the header: `CHX_RB_RED = 0`, `CHX_RB_BLACK = 1`. -/
def Color.bit : Color → Nat
  | .red => 0
  | .black => 1

/-- Shape of a tree in memory: every node carries its colour and its address. -/
inductive Tree where
  | nil : Tree
  | node (c : Color) (l : Tree) (a : Nat) (r : Tree) : Tree
deriving DecidableEq

/-- Address of the root node, `NULL` for the empty tree. -/
def Tree.addr : Tree → Nat
  | .nil => 0
  | .node _ _ a _ => a

/-- Colour of the root; a null reference reads as black. -/
def Tree.color : Tree → Color
  | .nil => .black
  | .node c _ _ _ => c

/-- In-order sequence of node addresses. -/
def Tree.inorder : Tree → List Nat
  | .nil => []
  | .node _ l a r => l.inorder ++ a :: r.inorder

def Tree.size : Tree → Nat
  | .nil => 0
  | .node _ l _ r => l.size + 1 + r.size

/-- Number of nodes on the longest root-to-null path. -/
def Tree.height : Tree → Nat
  | .nil => 0
  | .node _ l _ r => max l.height r.height + 1

/-- Memory `m` holds the tree `t` below a node (or root handle) `par`: every
node is a non-null aligned address, its parent-and-colour word is its parent
plus its colour bit, and its child links point to the roots of its subtrees. -/
def Rep (m : Nat → chx_rb_node) : Tree → Nat → Prop
  | .nil, _ => True
  | .node c l a r, par =>
    a ≠ 0 ∧ a % 4 = 0 ∧ (m a).__rb_parent_color = par + c.bit ∧
    (m a).rb_left = l.addr ∧ (m a).rb_right = r.addr ∧ Rep m l a ∧ Rep m r a

instance Rep.decide (m : Nat → chx_rb_node) : (t : Tree) → (par : Nat) → Decidable (Rep m t par)
  | .nil, _ => isTrue trivial
  | .node c l a r, par =>
    have := Rep.decide m l a
    have := Rep.decide m r a
    inferInstanceAs (Decidable (a ≠ 0 ∧ a % 4 = 0 ∧ (m a).__rb_parent_color = par + c.bit ∧
      (m a).rb_left = l.addr ∧ (m a).rb_right = r.addr ∧ Rep m l a ∧ Rep m r a))

/-- The state holds the tree `t`: the root handle points to its root, the
memory represents it with consistent parent links, and no node occurs twice. -/
def WF (s : State α) (t : Tree) : Prop :=
  s.rb_node = t.addr ∧ Rep s.mem t 0 ∧ t.inorder.Nodup

instance WF.decide (s : State α) (t : Tree) : Decidable (WF s t) :=
  inferInstanceAs (Decidable (_ ∧ _ ∧ _))

/-! ## The red-black colour invariants -/

/-- Black nodes on each root-to-null path, one entry per path. -/
def Tree.pathBlacks : Tree → List Nat
  | .nil => [0]
  | .node c l _ r => (l.pathBlacks ++ r.pathBlacks).map (· + c.bit)

/-- Invariant 5: every root-to-null path has the same number of black nodes. -/
def Tree.EqualBlack (t : Tree) : Prop :=
  ∀ x ∈ t.pathBlacks, ∀ y ∈ t.pathBlacks, x = y

instance Tree.EqualBlack.decide (t : Tree) : Decidable t.EqualBlack :=
  inferInstanceAs (Decidable (∀ x ∈ t.pathBlacks, ∀ y ∈ t.pathBlacks, x = y))

/-- Invariant 4: a red node has no red child. -/
def Tree.NoRedRed : Tree → Prop
  | .nil => True
  | .node c l _ r =>
    (c = .red → l.color = .black ∧ r.color = .black) ∧ l.NoRedRed ∧ r.NoRedRed

instance Tree.NoRedRed.decide : (t : Tree) → Decidable t.NoRedRed
  | .nil => isTrue trivial
  | .node c l _ r =>
    have := Tree.NoRedRed.decide l
    have := Tree.NoRedRed.decide r
    inferInstanceAs (Decidable ((c = .red → l.color = .black ∧ r.color = .black) ∧
      l.NoRedRed ∧ r.NoRedRed))

/-- The three colour invariants: the root is black (or the tree is empty), no
red node has a red child, all root-to-null paths have equally many black
nodes. -/
def Tree.RB (t : Tree) : Prop :=
  t.color = .black ∧ t.NoRedRed ∧ t.EqualBlack

instance Tree.RB.decide (t : Tree) : Decidable t.RB :=
  inferInstanceAs (Decidable (_ ∧ _ ∧ _))

/-- Black height read along the leftmost path. -/
def Tree.bh : Tree → Nat
  | .nil => 0
  | .node c l _ _ => l.bh + c.bit

/-- Recursive form of invariant 5: at every node both subtrees have the same
black height. -/
def Tree.Balanced : Tree → Prop
  | .nil => True
  | .node _ l _ r => l.bh = r.bh ∧ l.Balanced ∧ r.Balanced

/-! ## Contexts: a tree with one subtree removed -/

/-- One step of a root-to-hole path, seen from the hole: the hole is the left
child of node `a` (whose right subtree is `r`), or its right child. -/
inductive Frame where
  | left (c : Color) (a : Nat) (r : Tree) : Frame
  | right (c : Color) (l : Tree) (a : Nat) : Frame

def Frame.addr : Frame → Nat
  | .left _ a _ => a
  | .right _ _ a => a

def Frame.color : Frame → Color
  | .left c _ _ => c
  | .right c _ _ => c

/-- A path from a hole up to the root, innermost frame first. -/
abbrev Ctx := List Frame

/-- Fill the hole of a context. -/
def plug : Ctx → Tree → Tree
  | [], t => t
  | .left c a r :: k, t => plug k (.node c t a r)
  | .right c l a :: k, t => plug k (.node c l a t)

/-- Address of the node owning the hole, `par0` for the empty context. -/
def ctxAddr (par0 : Nat) : Ctx → Nat
  | [] => par0
  | f :: _ => f.addr

/-- The `struct chx_rb_node**` of the hole. -/
def ctxLink : Ctx → Link
  | [] => .root
  | .left _ a _ :: _ => .left a
  | .right _ _ a :: _ => .right a

/-- Addresses in order before the hole. -/
def ctxBefore : Ctx → List Nat
  | [] => []
  | .left _ _ _ :: k => ctxBefore k
  | .right _ l a :: k => ctxBefore k ++ (l.inorder ++ [a])

/-- Addresses in order after the hole. -/
def ctxAfter : Ctx → List Nat
  | [] => []
  | .left _ a r :: k => a :: r.inorder ++ ctxAfter k
  | .right _ _ _ :: k => ctxAfter k

/-- Memory `m` holds the context `k` around a hole whose content is at address
`p`; `top` is the pointer stored above the outermost frame and `par0` the
parent of the outermost frame. -/
def RepCtx (m : Nat → chx_rb_node) (top par0 : Nat) : Ctx → Nat → Prop
  | [], p => top = p
  | .left c a r :: k, p =>
    a ≠ 0 ∧ a % 4 = 0 ∧ (m a).__rb_parent_color = ctxAddr par0 k + c.bit ∧
    (m a).rb_left = p ∧ (m a).rb_right = r.addr ∧ Rep m r a ∧ RepCtx m top par0 k a
  | .right c l a :: k, p =>
    a ≠ 0 ∧ a % 4 = 0 ∧ (m a).__rb_parent_color = ctxAddr par0 k + c.bit ∧
    (m a).rb_left = l.addr ∧ (m a).rb_right = p ∧ Rep m l a ∧ RepCtx m top par0 k a

/-- Addresses of all nodes of a context. -/
def ctxNodes (k : Ctx) : List Nat := ctxBefore k ++ ctxAfter k

/-- Validity of a subtree: invariant 4 and the recursive form of invariant 5. -/
def Tree.Valid (t : Tree) : Prop := t.NoRedRed ∧ t.Balanced

/-- A subtree whose root has colour `c` may hang in the hole of `k`: a red root
needs a black parent (in particular it is not the root of the tree). -/
def topColorOK (c : Color) : Ctx → Prop
  | [] => c = .black
  | f :: _ => c = .red → f.color = .black

/-- The context `k` satisfies the colour invariants around a hole that expects
a subtree of black height `h`; the colour of the hole is not constrained. -/
def CtxOK : Ctx → Nat → Prop
  | [], _ => True
  | .left c _ r :: k, h =>
    r.bh = h ∧ r.Valid ∧ (c = .red → r.color = .black) ∧ topColorOK c k ∧ CtxOK k (h + c.bit)
  | .right c l _ :: k, h =>
    l.bh = h ∧ l.Valid ∧ (c = .red → l.color = .black) ∧ topColorOK c k ∧ CtxOK k (h + c.bit)

/-- The pair `(parent, link)` handed to `chx_rb_link_node` designates a null
slot of the tree held by the state: the root handle of an empty tree, or a
null child field of a node of the tree. -/
def NullSlot (s : State α) (t : Tree) (parent : Nat) : Link → Prop
  | .root => parent = 0 ∧ s.rb_node = 0
  | .left a => parent = a ∧ a ∈ t.inorder ∧ (s.mem a).rb_left = 0
  | .right a => parent = a ∧ a ∈ t.inorder ∧ (s.mem a).rb_right = 0


/-- The same tree with its root painted black. -/
def Tree.paintBlack : Tree → Tree
  | .nil => .nil
  | .node _ l a r => .node .black l a r


/-- Every frame of the context is a left frame: the hole is the leftmost
position of the subtree. -/
def AllLeft : Ctx → Prop
  | [] => True
  | .left _ _ _ :: k => AllLeft k
  | .right _ _ _ :: _ => False

/-- Parent-link consistency over the nodes `nodes` of the tree held by the
state: `parent_of(child)` is `n` for every non-null child of every node `n`, and
the parent of the root is null. -/
def ParentLinked (s : State α) (nodes : List Nat) : Prop :=
  (s.rb_node ≠ 0 → chx_rb_parent s s.rb_node = 0) ∧
  ∀ n ∈ nodes, ((s.mem n).rb_left ≠ 0 → chx_rb_parent s (s.mem n).rb_left = n) ∧
    ((s.mem n).rb_right ≠ 0 → chx_rb_parent s (s.mem n).rb_right = n)

instance ParentLinked.decide (s : State α) (nodes : List Nat) :
    Decidable (ParentLinked s nodes) :=
  inferInstanceAs (Decidable (_ ∧ ∀ n ∈ nodes, _))

instance NullSlot.decide (s : State α) (t : Tree) (parent : Nat) :
    (link : Link) → Decidable (NullSlot s t parent link)
  | .root => inferInstanceAs (Decidable (_ ∧ _))
  | .left _ => inferInstanceAs (Decidable (_ ∧ _ ∧ _))
  | .right _ => inferInstanceAs (Decidable (_ ∧ _ ∧ _))


/-- The frames of `k` record a search path: at every node where the path goes
left `goL` holds, at every node where it goes right `goR` holds. -/
def PathOK (goL goR : Nat → Prop) : Ctx → Prop
  | [] => True
  | .left _ a _ :: k => goL a ∧ PathOK goL goR k
  | .right _ _ a :: k => goR a ∧ PathOK goL goR k

/-- Post-order sequence of node addresses: both subtrees before the node. -/
def Tree.postorder : Tree → List Nat
  | .nil => []
  | .node _ l a r => l.postorder ++ r.postorder ++ [a]

/-- Addresses in post-order before the content of the hole. -/
def ctxPostBefore : Ctx → List Nat
  | [] => []
  | .left _ _ _ :: k => ctxPostBefore k
  | .right _ l _ :: k => ctxPostBefore k ++ l.postorder

/-- Addresses in post-order after the content of the hole. -/
def ctxPostAfter : Ctx → List Nat
  | [] => []
  | .left _ a r :: k => r.postorder ++ a :: ctxPostAfter k
  | .right _ _ a :: k => a :: ctxPostAfter k

/-- Boolean form of `AllLeft`, the value of the flag `leftmost` at the end of
a descent along the context. -/
def allLeft : Ctx → Bool
  | [] => true
  | .left _ _ _ :: k => allLeft k
  | .right _ _ _ :: _ => false

/-! ## Subtree maxima on abstract trees -/

section Summaries

variable {V : Type} [LinearOrder V]

/-- The summary stored at the root of a subtree, if the subtree has one. -/
def Tree.summary (f : Nat → V) : Tree → Option V
  | .nil => none
  | .node _ _ a _ => some (f a)

/-- Every node of the tree stores the maximum of its own scalar and the
summaries of its children. -/
def AugOK (v : Nat → V) (f : Nat → V) : Tree → Prop
  | .nil => True
  | .node _ l a r =>
    f a = max (max (v a) ((l.summary f).getD (v a))) ((r.summary f).getD (v a)) ∧
      AugOK v f l ∧ AugOK v f r

/-- Every node of the context stores the maximum of its own scalar and the
summaries of its children, when the subtree in the hole has summary `x`. -/
def CtxAug (v : Nat → V) (f : Nat → V) : Ctx → Option V → Prop
  | [], _ => True
  | .left _ a r :: k, x =>
    f a = max (max (v a) (x.getD (v a))) ((r.summary f).getD (v a)) ∧
      AugOK v f r ∧ CtxAug v f k (some (f a))
  | .right _ l a :: k, x =>
    f a = max (max (v a) ((l.summary f).getD (v a))) (x.getD (v a)) ∧
      AugOK v f l ∧ CtxAug v f k (some (f a))

/-- The part of `CtxAug` that does not depend on the hole: the siblings along
the context are right, and every frame but the innermost one stores its
maximum. -/
def CtxAugUp (v : Nat → V) (f : Nat → V) : Ctx → Prop
  | [] => True
  | .left _ a r :: k => AugOK v f r ∧ CtxAug v f k (some (f a))
  | .right _ l a :: k => AugOK v f l ∧ CtxAug v f k (some (f a))

/-- The summaries are present and right at every node of the tree. -/
def AugInv (v : Nat → V) (s : State (Augmented V)) (t : Tree) : Prop :=
  ∃ f, s.aug = some f ∧ AugOK v f t

/-- The summaries after the hook `rotate(old, new)` has run while the child
links of `old` were `left` and `right`. -/
def rotate_summaries (v : Nat → V) (f : Nat → V) (old new left right : Nat) : Nat → V :=
  Function.update (Function.update f new (f old)) old
    (subtree_max v (Function.update f new (f old)) old left right)

end Summaries

/-! ## Test helpers (`test_rbtree.c`)

A `struct test_node` embeds the tree node next to an `int key`; the key of the
test node around the tree node at address `a` is `key a`. -/

/-- Comparator `less_func`. -/
def less_func (key : Nat → Int) (a b : Nat) : Bool := decide (key a < key b)

/-- Comparator `cmp_func`. -/
def cmp_func (key : Nat → Int) (a b : Nat) : Int :=
  if key a < key b then -1 else if key a > key b then 1 else 0

/-- Comparator `key_cmp_func`. -/
def key_cmp_func (key : Nat → Int) (k : Int) (node : Nat) : Int :=
  if k < key node then -1 else if k > key node then 1 else 0

/-- Helper `create_node`, for the node that `malloc` placed at `node`. -/
def create_node (s : State α) (node : Nat) : State α := CHX_RB_CLEAR_NODE s node

/-- The loop of `test_basic_insert`: each node is created and added in turn. -/
def add_nodes (less : Nat → Nat → Bool) (fuel : Nat) : State α → List Nat → Option (State α)
  | s, [] => some s
  | s, n :: ns =>
    match chx_rb_add less fuel (create_node s n) n with
    | none => none
    | some s' => add_nodes less fuel s' ns

/-- A call that changes the tree: `chx_rb_add(node, tree, less)` or
`chx_rb_erase(node, tree)`. -/
inductive TreeOp where
  | add (node : Nat) : TreeOp
  | erase (node : Nat) : TreeOp

/-- A sequence of calls of `chx_rb_add` and `chx_rb_erase`, run in order. -/
def apply_ops (less : Nat → Nat → Bool) (fuel : Nat) :
    State α → List TreeOp → Option (State α)
  | s, [] => some s
  | s, .add n :: ops =>
    match chx_rb_add less fuel s n with
    | none => none
    | some s' => apply_ops less fuel s' ops
  | s, .erase n :: ops =>
    match chx_rb_erase fuel s n with
    | none => none
    | some s' => apply_ops less fuel s' ops

/-- The calls respect the contract of the library, starting from a tree with
the nodes `cur`: a node that is added is a non-null aligned address that is not
in the tree, a node that is erased is in the tree. -/
def OpsOK : List Nat → List TreeOp → Prop
  | _, [] => True
  | cur, .add n :: ops => n ≠ 0 ∧ n % 4 = 0 ∧ n ∉ cur ∧ OpsOK (n :: cur) ops
  | cur, .erase n :: ops => n ∈ cur ∧ OpsOK (cur.filter (fun x => x != n)) ops

instance OpsOK.decide : (cur : List Nat) → (ops : List TreeOp) → Decidable (OpsOK cur ops)
  | _, [] => isTrue trivial
  | cur, .add n :: ops =>
    have := OpsOK.decide (n :: cur) ops
    inferInstanceAs (Decidable (n ≠ 0 ∧ n % 4 = 0 ∧ n ∉ cur ∧ OpsOK (n :: cur) ops))
  | cur, .erase n :: ops =>
    have := OpsOK.decide (cur.filter (fun x => x != n)) ops
    inferInstanceAs (Decidable (n ∈ cur ∧ OpsOK (cur.filter (fun x => x != n)) ops))

/-! ## Example data

A three-node tree in the layout used for worked examples: a black root at
address 8 with red children at addresses 4 and 12. -/

def demo_state : State Unit where
  mem := fun a =>
    if a = 8 then { __rb_parent_color := 1, rb_right := 12, rb_left := 4 }
    else if a = 4 then { __rb_parent_color := 8, rb_right := 0, rb_left := 0 }
    else if a = 12 then { __rb_parent_color := 8, rb_right := 0, rb_left := 0 }
    else { __rb_parent_color := 0, rb_right := 0, rb_left := 0 }
  rb_node := 8
  aug := ()

def demo_tree : Tree :=
  .node .black (.node .red .nil 4 .nil) 8 (.node .red .nil 12 .nil)

/-- The state of `struct chx_rb_root root = CHX_RB_ROOT` over zeroed memory. -/
def demo_empty : State Unit where
  mem := fun _ => { __rb_parent_color := 0, rb_right := 0, rb_left := 0 }
  rb_node := 0
  aug := ()

/-- Keys for the examples: every node carries its address as key. -/
def demo_key (a : Nat) : Int := a

/-- Keys for the examples with a duplicate: the node at 16 carries key 8. -/
def demo_key_dup (a : Nat) : Int := if a = 16 then 8 else a

/-- The example tree under a leftmost-cached root. -/
def demo_cached : CachedState Unit where
  rb_root := demo_state
  rb_leftmost := 4

/-- The state of `struct chx_rb_root_cached root = CHX_RB_ROOT_CACHED`. -/
def demo_cached_empty : CachedState Unit where
  rb_root := demo_empty
  rb_leftmost := 0

/-- Keys for the examples with a run of equal keys: the nodes at 8 and 12 both
carry key 1, the node at 4 carries key 0. -/
def demo_key_run (a : Nat) : Int := a / 8

/-- A two-node tree: a black root at address 8 with a red right child at
address 12. -/
def demo_pair : State Unit where
  mem := fun a =>
    if a = 8 then { __rb_parent_color := 1, rb_right := 12, rb_left := 0 }
    else if a = 12 then { __rb_parent_color := 8, rb_right := 0, rb_left := 0 }
    else { __rb_parent_color := 0, rb_right := 0, rb_left := 0 }
  rb_node := 8
  aug := ()

def demo_pair_tree : Tree :=
  .node .black .nil 8 (.node .red .nil 12 .nil)

/-- Subtree maxima of the example tree for the scalar `demo_key`: the root
stores 12, every other address stores its own key. -/
def demo_summary (a : Nat) : Int := if a = 8 then 12 else a

/-- The example tree with the summaries `demo_summary`. -/
def demo_aug : State (Augmented Int) where
  mem := demo_state.mem
  rb_node := 8
  aug := some demo_summary

/-- The example tree with summaries under a leftmost-cached root. -/
def demo_aug_cached : CachedState (Augmented Int) where
  rb_root := demo_aug
  rb_leftmost := 4

/-! ## Observers of the rotate hook

Hooks that a caller may pass as `augment_rotate` to count the rotations of a
fix-up. -/

/-- A rotate hook that counts its invocations. -/
def count_rotate : Callback Nat := fun _ _ s => s.aug + 1

/-- Invocations of the rotate hook by call site of `____chx_rb_erase_color`. -/
structure RotateCount where
  case1 : Nat
  case3 : Nat
  case4 : Nat

/-- A rotate hook that counts its invocations by call site of
`____chx_rb_erase_color`.  The three call sites leave `old` in different
states when the hook runs: Case 3 calls `augment_rotate(sibling, tmp2)` before
the parent word of `sibling` is rewritten, so the parent of `old` is not `new`;
Case 1 has run `__chx_rb_rotate_set_parents(parent, sibling, root, CHX_RB_RED)`,
so `old` is a red child of `new`; Case 4 has run the same helper with
`CHX_RB_BLACK`, so `old` is a black child of `new`. -/
def erase_rotate_counter : Callback RotateCount := fun old new s =>
  if chx_rb_parent s old ≠ new then { s.aug with case3 := s.aug.case3 + 1 }
  else if chx_rb_is_red s old then { s.aug with case1 := s.aug.case1 + 1 }
  else { s.aug with case4 := s.aug.case4 + 1 }

/-- The callbacks of an erase that only counts rotations. -/
def erase_counting : chx_rb_augment_callbacks RotateCount :=
  { propagate := dummy_propagate, copy := dummy_copy, rotate := erase_rotate_counter }

/-! ## Erase fix-up with checked dereferences (`rbtree.c`, lines 293-466)

The same code as `____chx_rb_erase_color`, except that every pointer the C
code dereferences without a test is guarded: evaluation stops with `none` at a
null pointer. -/

/-- Guard of a dereference of `p`. -/
def deref {β : Type} (p : Nat) (k : Option β) : Option β :=
  if p ≠ 0 then k else none

/-- Case 1 of the left branch: `tmp1 = sibling->rb_left` is dereferenced by
`chx_rb_set_parent_color(tmp1, parent, CHX_RB_BLACK)` and becomes the new
sibling. -/
def erase_case1_left_checked (augment_rotate : Callback α) (s : State α)
    (parent sibling : Nat) : Option (State α × Nat) :=
  let tmp1 := (s.mem sibling).rb_left
  deref tmp1 (some (erase_case1_left augment_rotate s parent sibling))

/-- Case 1 of the right branch, with `tmp1 = sibling->rb_right`. -/
def erase_case1_right_checked (augment_rotate : Callback α) (s : State α)
    (parent sibling : Nat) : Option (State α × Nat) :=
  let tmp1 := (s.mem sibling).rb_right
  deref tmp1 (some (erase_case1_right augment_rotate s parent sibling))

/-- Case 4 of the left branch: `tmp1`, the far child of the sibling, is
dereferenced by `chx_rb_set_parent_color(tmp1, sibling, CHX_RB_BLACK)`. -/
def erase_case4_left_checked (augment_rotate : Callback α) (s : State α)
    (parent sibling tmp1 : Nat) : Option (State α) :=
  deref tmp1 (some (erase_case4_left augment_rotate s parent sibling tmp1))

/-- Case 4 of the right branch. -/
def erase_case4_right_checked (augment_rotate : Callback α) (s : State α)
    (parent sibling tmp1 : Nat) : Option (State α) :=
  deref tmp1 (some (erase_case4_right augment_rotate s parent sibling tmp1))

/-- The left branch once the sibling is known to be black, with the
dereference of `tmp1` in Case 4 checked. -/
def erase_color_left_tail_checked (augment_rotate : Callback α)
    (loop : State α → Nat → Nat → Option (State α)) (s : State α)
    (parent sibling : Nat) : Option (State α) :=
  let tmp1 := (s.mem sibling).rb_right
  if tmp1 = 0 ∨ chx_rb_is_black s tmp1 then
    let tmp2 := (s.mem sibling).rb_left
    if tmp2 = 0 ∨ chx_rb_is_black s tmp2 then
      erase_case2 loop s parent sibling
    else
      let s := erase_case3_left augment_rotate s parent sibling tmp2
      erase_case4_left_checked augment_rotate s parent tmp2 sibling
  else
    erase_case4_left_checked augment_rotate s parent sibling tmp1

/-- The right branch once the sibling is known to be black, with the
dereference of `tmp1` in Case 4 checked. -/
def erase_color_right_tail_checked (augment_rotate : Callback α)
    (loop : State α → Nat → Nat → Option (State α)) (s : State α)
    (parent sibling : Nat) : Option (State α) :=
  let tmp1 := (s.mem sibling).rb_left
  if tmp1 = 0 ∨ chx_rb_is_black s tmp1 then
    let tmp2 := (s.mem sibling).rb_right
    if tmp2 = 0 ∨ chx_rb_is_black s tmp2 then
      erase_case2 loop s parent sibling
    else
      let s := erase_case3_right augment_rotate s parent sibling tmp2
      erase_case4_right_checked augment_rotate s parent tmp2 sibling
  else
    erase_case4_right_checked augment_rotate s parent sibling tmp1

/-- The `while (true)` loop of `____chx_rb_erase_color` with checked
dereferences: `parent` is read for `parent->rb_right`, the sibling for its
colour, and the sibling handed to the tail (after Case 1 the old `tmp1`) for
its child links. -/
def ____chx_rb_erase_color_loop_checked (augment_rotate : Callback α) :
    Nat → State α → Nat → Nat → Option (State α)
  | 0, _, _, _ => none
  | fuel + 1, s, node, parent =>
    deref parent
      (let sibling := (s.mem parent).rb_right
      if node ≠ sibling then
        deref sibling
          (match (if chx_rb_is_red s sibling then
              erase_case1_left_checked augment_rotate s parent sibling
            else some (s, sibling)) with
          | none => none
          | some r =>
            deref r.2 (erase_color_left_tail_checked augment_rotate
              (____chx_rb_erase_color_loop_checked augment_rotate fuel) r.1 parent r.2))
      else
        let sibling := (s.mem parent).rb_left
        deref sibling
          (match (if chx_rb_is_red s sibling then
              erase_case1_right_checked augment_rotate s parent sibling
            else some (s, sibling)) with
          | none => none
          | some r =>
            deref r.2 (erase_color_right_tail_checked augment_rotate
              (____chx_rb_erase_color_loop_checked augment_rotate fuel) r.1 parent r.2)))

def ____chx_rb_erase_color_checked (augment_rotate : Callback α) (fuel : Nat) (s : State α)
    (parent : Nat) : Option (State α) :=
  ____chx_rb_erase_color_loop_checked augment_rotate fuel s 0 parent

/-- Function `chx_rb_erase` with the fix-up run under checked dereferences. -/
def chx_rb_erase_checked (fuel : Nat) (s : State α) (node : Nat) : Option (State α) :=
  match __chx_rb_erase_augmented dummy_callbacks fuel s node with
  | none => none
  | some (s, rebalance) =>
    if rebalance ≠ 0 then ____chx_rb_erase_color_checked dummy_rotate fuel s rebalance
    else some s

/-! ## More example trees -/

/-- A one-node tree: a black root at address 8. -/
def demo_single : State Unit where
  mem := fun a =>
    if a = 8 then { __rb_parent_color := 1, rb_right := 0, rb_left := 0 }
    else { __rb_parent_color := 0, rb_right := 0, rb_left := 0 }
  rb_node := 8
  aug := ()

def demo_single_tree : Tree := .node .black .nil 8 .nil

/-- A four-node tree: a black root at address 8 with black children at 4 and
12, and a red node at 16 as the right child of 12. -/
def demo_four : State Unit where
  mem := fun a =>
    if a = 8 then { __rb_parent_color := 1, rb_right := 12, rb_left := 4 }
    else if a = 4 then { __rb_parent_color := 9, rb_right := 0, rb_left := 0 }
    else if a = 12 then { __rb_parent_color := 9, rb_right := 16, rb_left := 0 }
    else if a = 16 then { __rb_parent_color := 12, rb_right := 0, rb_left := 0 }
    else { __rb_parent_color := 0, rb_right := 0, rb_left := 0 }
  rb_node := 8
  aug := ()

def demo_four_tree : Tree :=
  .node .black (.node .black .nil 4 .nil) 8 (.node .black .nil 12 (.node .red .nil 16 .nil))

/-- The memory and root of a state under another hook value. -/
def State.with_aug {β : Type} (s : State α) (b : β) : State β :=
  { mem := s.mem, rb_node := s.rb_node, aug := b }

/-! ## Child links only: shape, descent and cycles

A lookup that runs without a lock reads the root and then only child links.
What it can see of a state is the graph of the child links below the root. -/

/-- Memory `m` holds the tree `t` at pointer `a` as far as the child links go:
the parent-and-colour words are not looked at. -/
def Shape (m : Nat → chx_rb_node) : Tree → Nat → Prop
  | .nil, a => a = 0
  | .node _ l x r, a => a = x ∧ x ≠ 0 ∧ Shape m l (m x).rb_left ∧ Shape m r (m x).rb_right

/-- Memory `m` holds the context `k` around a hole whose content is at pointer
`p`, as far as the child links go; `top` is the pointer above the outermost
frame. -/
def ShapeCtx (m : Nat → chx_rb_node) (top : Nat) : Ctx → Nat → Prop
  | [], p => top = p
  | .left _ a r :: k, p =>
    a ≠ 0 ∧ (m a).rb_left = p ∧ Shape m r (m a).rb_right ∧ ShapeCtx m top k a
  | .right _ l a :: k, p =>
    a ≠ 0 ∧ (m a).rb_right = p ∧ Shape m l (m a).rb_left ∧ ShapeCtx m top k a

/-- Every descent from `a` that follows child links, whichever link it takes at
each node, reaches null within `d` steps. -/
def descends (m : Nat → chx_rb_node) : Nat → Nat → Bool
  | 0, a => a == 0
  | d + 1, a => a == 0 || (descends m d (m a).rb_left && descends m d (m a).rb_right)

/-- A path of child links: `Reach m a b` when `b` is `a` or is read from a
child link of a non-null node that is reached from `a`. -/
inductive Reach (m : Nat → chx_rb_node) : Nat → Nat → Prop
  | refl (a : Nat) : Reach m a a
  | left {a b : Nat} : Reach m a b → b ≠ 0 → Reach m a (m b).rb_left
  | right {a b : Nat} : Reach m a b → b ≠ 0 → Reach m a (m b).rb_right

/-- The graph of the child links below the root has no cycle: no node that is
reached from the root is reached again from one of its own child links; and
every descent from the root reaches null within a bounded number of steps. -/
def Acyclic (s : State α) : Prop :=
  (∀ a, a ≠ 0 → Reach s.mem s.rb_node a →
    ¬ Reach s.mem (s.mem a).rb_left a ∧ ¬ Reach s.mem (s.mem a).rb_right a) ∧
  ∃ d, descends s.mem d s.rb_node = true

/-! ## The stores to child links and to the root, in program order

For each function that rewrites links, the list of the states right after each
store to `rb_left`, to `rb_right` or to `root->rb_node`, in program order.
`__chx_rb_change_child` performs one such store; stores to
`__rb_parent_color` and calls of hooks lie between the listed states. -/

/-- Stores of Case 2 of the left branch of the insert fix-up (lines 223-231). -/
def insert_case2_left_stores (s : State α) (node parent : Nat) : List (State α) :=
  let tmp := (s.mem node).rb_left
  let s1 := s.store_right parent tmp
  let s2 := s1.store_left node parent
  [s1, s2]

/-- Stores of Case 3 of the left branch of the insert fix-up (lines 244-249). -/
def insert_case3_left_stores (s : State α) (gparent parent tmp : Nat) : List (State α) :=
  let s1 := s.store_left gparent tmp
  let s2 := s1.store_right parent gparent
  let s3 := if tmp ≠ 0 then chx_rb_set_parent_color s2 tmp gparent CHX_RB_BLACK else s2
  [s1, s2, __chx_rb_rotate_set_parents s3 gparent parent CHX_RB_RED]

def insert_case2_right_stores (s : State α) (node parent : Nat) : List (State α) :=
  let tmp := (s.mem node).rb_right
  let s1 := s.store_left parent tmp
  let s2 := s1.store_right node parent
  [s1, s2]

def insert_case3_right_stores (s : State α) (gparent parent tmp : Nat) : List (State α) :=
  let s1 := s.store_right gparent tmp
  let s2 := s1.store_left parent gparent
  let s3 := if tmp ≠ 0 then chx_rb_set_parent_color s2 tmp gparent CHX_RB_BLACK else s2
  [s1, s2, __chx_rb_rotate_set_parents s3 gparent parent CHX_RB_RED]

/-- Stores of the loop of `__chx_rb_insert`: the control flow of
`__chx_rb_insert_loop`, which yields the stores of the cases it runs; the
recolouring of Case 1 and of the root stores to no link. -/
def __chx_rb_insert_loop_stores (augment_rotate : Callback α) :
    Nat → State α → Nat → Nat → Option (List (State α))
  | 0, _, _, _ => none
  | fuel + 1, s, node, parent =>
    if parent = 0 then
      some []
    else if chx_rb_is_black s parent then
      some []
    else
      let gparent := chx_rb_red_parent s parent
      let tmp := (s.mem gparent).rb_right
      if parent ≠ tmp then
        if tmp ≠ 0 ∧ chx_rb_is_red s tmp then
          let r := insert_case1 s gparent parent tmp
          __chx_rb_insert_loop_stores augment_rotate fuel r.1 gparent r.2
        else
          let tmp := (s.mem parent).rb_right
          if node = tmp then
            let r := insert_case2_left augment_rotate s node parent
            some (insert_case2_left_stores s node parent ++
              insert_case3_left_stores r.1 gparent node r.2)
          else
            some (insert_case3_left_stores s gparent parent tmp)
      else
        let tmp := (s.mem gparent).rb_left
        if tmp ≠ 0 ∧ chx_rb_is_red s tmp then
          let r := insert_case1 s gparent parent tmp
          __chx_rb_insert_loop_stores augment_rotate fuel r.1 gparent r.2
        else
          let tmp := (s.mem parent).rb_left
          if node = tmp then
            let r := insert_case2_right augment_rotate s node parent
            some (insert_case2_right_stores s node parent ++
              insert_case3_right_stores r.1 gparent node r.2)
          else
            some (insert_case3_right_stores s gparent parent tmp)

/-- Stores of `chx_rb_insert_color`. -/
def chx_rb_insert_color_stores (fuel : Nat) (s : State α) (node : Nat) :
    Option (List (State α)) :=
  __chx_rb_insert_loop_stores dummy_rotate fuel s node (chx_rb_red_parent s node)

/-- Stores of Case 1 of the left branch of the erase fix-up (lines 319-325). -/
def erase_case1_left_stores (s : State α) (parent sibling : Nat) : List (State α) :=
  let tmp1 := (s.mem sibling).rb_left
  let s1 := s.store_right parent tmp1
  let s2 := s1.store_left sibling parent
  let s3 := chx_rb_set_parent_color s2 tmp1 parent CHX_RB_BLACK
  [s1, s2, __chx_rb_rotate_set_parents s3 parent sibling CHX_RB_RED]

/-- Stores of Case 3 of the left branch of the erase fix-up (lines 384-392). -/
def erase_case3_left_stores (s : State α) (parent sibling tmp2 : Nat) : List (State α) :=
  let tmp1 := (s.mem tmp2).rb_right
  let s1 := s.store_left sibling tmp1
  let s2 := s1.store_right tmp2 sibling
  let s3 := s2.store_right parent tmp2
  [s1, s2, s3]

/-- Stores of Case 4 of the left branch of the erase fix-up (lines 406-413). -/
def erase_case4_left_stores (s : State α) (parent sibling tmp1 : Nat) : List (State α) :=
  let tmp2 := (s.mem sibling).rb_left
  let s1 := s.store_right parent tmp2
  let s2 := s1.store_left sibling parent
  let s3 := chx_rb_set_parent_color s2 tmp1 sibling CHX_RB_BLACK
  let s4 := if tmp2 ≠ 0 then chx_rb_set_parent s3 tmp2 parent else s3
  [s1, s2, __chx_rb_rotate_set_parents s4 parent sibling CHX_RB_BLACK]

def erase_case1_right_stores (s : State α) (parent sibling : Nat) : List (State α) :=
  let tmp1 := (s.mem sibling).rb_right
  let s1 := s.store_left parent tmp1
  let s2 := s1.store_right sibling parent
  let s3 := chx_rb_set_parent_color s2 tmp1 parent CHX_RB_BLACK
  [s1, s2, __chx_rb_rotate_set_parents s3 parent sibling CHX_RB_RED]

def erase_case3_right_stores (s : State α) (parent sibling tmp2 : Nat) : List (State α) :=
  let tmp1 := (s.mem tmp2).rb_left
  let s1 := s.store_right sibling tmp1
  let s2 := s1.store_left tmp2 sibling
  let s3 := s2.store_left parent tmp2
  [s1, s2, s3]

def erase_case4_right_stores (s : State α) (parent sibling tmp1 : Nat) : List (State α) :=
  let tmp2 := (s.mem sibling).rb_right
  let s1 := s.store_left parent tmp2
  let s2 := s1.store_right sibling parent
  let s3 := chx_rb_set_parent_color s2 tmp1 sibling CHX_RB_BLACK
  let s4 := if tmp2 ≠ 0 then chx_rb_set_parent s3 tmp2 parent else s3
  [s1, s2, __chx_rb_rotate_set_parents s4 parent sibling CHX_RB_BLACK]

/-- Stores of Case 2 of either branch: the colour flip stores to no link;
`loop` yields the stores of the next iteration. -/
def erase_case2_stores (loop : State α → Nat → Nat → Option (List (State α))) (s : State α)
    (parent sibling : Nat) : Option (List (State α)) :=
  let s := chx_rb_set_parent_color s sibling parent CHX_RB_RED
  if chx_rb_is_red s parent then some []
  else
    let node := parent
    let parent := chx_rb_parent s node
    if parent ≠ 0 then loop s node parent
    else some []

/-- Stores of the left branch once the sibling is known to be black. -/
def erase_color_left_tail_stores (augment_rotate : Callback α)
    (loop : State α → Nat → Nat → Option (List (State α))) (s : State α)
    (parent sibling : Nat) : Option (List (State α)) :=
  let tmp1 := (s.mem sibling).rb_right
  if tmp1 = 0 ∨ chx_rb_is_black s tmp1 then
    let tmp2 := (s.mem sibling).rb_left
    if tmp2 = 0 ∨ chx_rb_is_black s tmp2 then
      erase_case2_stores loop s parent sibling
    else
      let s3 := erase_case3_left augment_rotate s parent sibling tmp2
      some (erase_case3_left_stores s parent sibling tmp2 ++
        erase_case4_left_stores s3 parent tmp2 sibling)
  else
    some (erase_case4_left_stores s parent sibling tmp1)

/-- Stores of the right branch once the sibling is known to be black. -/
def erase_color_right_tail_stores (augment_rotate : Callback α)
    (loop : State α → Nat → Nat → Option (List (State α))) (s : State α)
    (parent sibling : Nat) : Option (List (State α)) :=
  let tmp1 := (s.mem sibling).rb_left
  if tmp1 = 0 ∨ chx_rb_is_black s tmp1 then
    let tmp2 := (s.mem sibling).rb_right
    if tmp2 = 0 ∨ chx_rb_is_black s tmp2 then
      erase_case2_stores loop s parent sibling
    else
      let s3 := erase_case3_right augment_rotate s parent sibling tmp2
      some (erase_case3_right_stores s parent sibling tmp2 ++
        erase_case4_right_stores s3 parent tmp2 sibling)
  else
    some (erase_case4_right_stores s parent sibling tmp1)

/-- Stores of the loop of `____chx_rb_erase_color`: the control flow of
`____chx_rb_erase_color_loop`, which yields the stores of the cases it runs. -/
def ____chx_rb_erase_color_loop_stores (augment_rotate : Callback α) :
    Nat → State α → Nat → Nat → Option (List (State α))
  | 0, _, _, _ => none
  | fuel + 1, s, node, parent =>
    let sibling := (s.mem parent).rb_right
    if node ≠ sibling then
      if chx_rb_is_red s sibling then
        let r := erase_case1_left augment_rotate s parent sibling
        (erase_color_left_tail_stores augment_rotate
          (____chx_rb_erase_color_loop_stores augment_rotate fuel) r.1 parent r.2).map
          (erase_case1_left_stores s parent sibling ++ ·)
      else
        erase_color_left_tail_stores augment_rotate
          (____chx_rb_erase_color_loop_stores augment_rotate fuel) s parent sibling
    else
      let sibling := (s.mem parent).rb_left
      if chx_rb_is_red s sibling then
        let r := erase_case1_right augment_rotate s parent sibling
        (erase_color_right_tail_stores augment_rotate
          (____chx_rb_erase_color_loop_stores augment_rotate fuel) r.1 parent r.2).map
          (erase_case1_right_stores s parent sibling ++ ·)
      else
        erase_color_right_tail_stores augment_rotate
          (____chx_rb_erase_color_loop_stores augment_rotate fuel) s parent sibling

/-- Stores of lines 756-771 of the splice: `successor` takes the place of
`node`. -/
def erase_splice_successor_stores (s : State α) (node successor : Nat) : List (State α) :=
  let tmp := (s.mem node).rb_left
  let s1 := s.store_left successor tmp
  let s2 := chx_rb_set_parent s1 tmp successor
  let pc := (s2.mem node).__rb_parent_color
  let tmp := __chx_rb_parent pc
  [s1, __chx_rb_change_child s2 node successor tmp]

/-- Stores of `__chx_rb_erase_augmented`: the control flow of the splice, which
yields the stores of the case it runs. -/
def __chx_rb_erase_augmented_stores (augment : chx_rb_augment_callbacks α) (fuel : Nat)
    (s : State α) (node : Nat) : Option (List (State α)) :=
  let child := (s.mem node).rb_right
  let tmp := (s.mem node).rb_left
  if tmp = 0 then
    let pc := (s.mem node).__rb_parent_color
    let parent := __chx_rb_parent pc
    some [__chx_rb_change_child s node child parent]
  else if child = 0 then
    let pc := (s.mem node).__rb_parent_color
    let s := s.store_pc tmp pc
    let parent := __chx_rb_parent pc
    some [__chx_rb_change_child s node tmp parent]
  else
    let successor := child
    let tmp := (s.mem child).rb_left
    if tmp = 0 then
      let s := s.call augment.copy node successor
      some (erase_splice_successor_stores s node successor)
    else
      match erase_successor_loop s fuel successor tmp with
      | none => none
      | some (parent, successor) =>
        let child2 := (s.mem successor).rb_right
        let s1 := s.store_left parent child2
        let s2 := s1.store_right successor child
        let s3 := chx_rb_set_parent s2 child successor
        let s4 := s3.call augment.copy node successor
        let s5 := s4.call augment.propagate parent successor
        some ([s1, s2] ++ erase_splice_successor_stores s5 node successor)

/-- Stores of `chx_rb_erase`: those of the splice, then those of the fix-up
when the splice asks for it. -/
def chx_rb_erase_stores (fuel : Nat) (s : State α) (node : Nat) : Option (List (State α)) :=
  match __chx_rb_erase_augmented dummy_callbacks fuel s node,
    __chx_rb_erase_augmented_stores dummy_callbacks fuel s node with
  | some (s1, rebalance), some tr =>
    if rebalance ≠ 0 then
      (____chx_rb_erase_color_loop_stores dummy_rotate fuel s1 0 rebalance).map (tr ++ ·)
    else some tr
  | _, _ => none

/-- Stores of `chx_rb_replace_node`: the structure assignment
`*new_node = *victim`, which writes the two links of `new_node`, and the store
of `__chx_rb_change_child`. -/
def chx_rb_replace_node_stores (s : State α) (victim new_node : Nat) : List (State α) :=
  let parent := chx_rb_parent s victim
  let s1 := s.copy_node new_node victim
  let s2 := if (s1.mem victim).rb_left ≠ 0 then
      chx_rb_set_parent s1 (s1.mem victim).rb_left new_node else s1
  let s3 := if (s2.mem victim).rb_right ≠ 0 then
      chx_rb_set_parent s2 (s2.mem victim).rb_right new_node else s2
  [s1, __chx_rb_change_child s3 victim new_node parent]

/-- A state whose root points to itself through its left link. -/
def demo_cycle : State Unit where
  mem := fun a =>
    if a = 8 then { __rb_parent_color := 1, rb_right := 0, rb_left := 8 }
    else { __rb_parent_color := 0, rb_right := 0, rb_left := 0 }
  rb_node := 8
  aug := ()


/-! ## Memory stores -/

@[simp] theorem store_pc_pc (s : State α) (a v x : Nat) :
    ((s.store_pc a v).mem x).__rb_parent_color =
      if x = a then v else (s.mem x).__rb_parent_color := by
  unfold State.store_pc; by_cases h : x = a <;> simp [h]

@[simp] theorem store_pc_left (s : State α) (a v x : Nat) :
    ((s.store_pc a v).mem x).rb_left = (s.mem x).rb_left := by
  unfold State.store_pc; by_cases h : x = a <;> simp [h]

@[simp] theorem store_pc_right (s : State α) (a v x : Nat) :
    ((s.store_pc a v).mem x).rb_right = (s.mem x).rb_right := by
  unfold State.store_pc; by_cases h : x = a <;> simp [h]

@[simp] theorem store_pc_root (s : State α) (a v : Nat) :
    (s.store_pc a v).rb_node = s.rb_node := rfl

@[simp] theorem store_left_pc (s : State α) (a v x : Nat) :
    ((s.store_left a v).mem x).__rb_parent_color = (s.mem x).__rb_parent_color := by
  unfold State.store_left; by_cases h : x = a <;> simp [h]

@[simp] theorem store_left_left (s : State α) (a v x : Nat) :
    ((s.store_left a v).mem x).rb_left = if x = a then v else (s.mem x).rb_left := by
  unfold State.store_left; by_cases h : x = a <;> simp [h]

@[simp] theorem store_left_right (s : State α) (a v x : Nat) :
    ((s.store_left a v).mem x).rb_right = (s.mem x).rb_right := by
  unfold State.store_left; by_cases h : x = a <;> simp [h]

@[simp] theorem store_left_root (s : State α) (a v : Nat) :
    (s.store_left a v).rb_node = s.rb_node := rfl

@[simp] theorem store_right_pc (s : State α) (a v x : Nat) :
    ((s.store_right a v).mem x).__rb_parent_color = (s.mem x).__rb_parent_color := by
  unfold State.store_right; by_cases h : x = a <;> simp [h]

@[simp] theorem store_right_left (s : State α) (a v x : Nat) :
    ((s.store_right a v).mem x).rb_left = (s.mem x).rb_left := by
  unfold State.store_right; by_cases h : x = a <;> simp [h]

@[simp] theorem store_right_right (s : State α) (a v x : Nat) :
    ((s.store_right a v).mem x).rb_right = if x = a then v else (s.mem x).rb_right := by
  unfold State.store_right; by_cases h : x = a <;> simp [h]

@[simp] theorem store_right_root (s : State α) (a v : Nat) :
    (s.store_right a v).rb_node = s.rb_node := rfl

@[simp] theorem store_root_mem (s : State α) (v : Nat) :
    (s.store_root v).mem = s.mem := rfl

@[simp] theorem store_root_root (s : State α) (v : Nat) :
    (s.store_root v).rb_node = v := rfl

@[simp] theorem call_mem (s : State α) (f : Callback α) (a b : Nat) :
    (s.call f a b).mem = s.mem := rfl

@[simp] theorem call_root (s : State α) (f : Callback α) (a b : Nat) :
    (s.call f a b).rb_node = s.rb_node := rfl

/-- Two memories with the same three fields at an address hold the same header. -/
theorem node_ext {x y : chx_rb_node} (h1 : x.__rb_parent_color = y.__rb_parent_color)
    (h2 : x.rb_left = y.rb_left) (h3 : x.rb_right = y.rb_right) : x = y := by
  cases x; cases y; simp_all

/-! ## Representation: frame properties -/

/-- Relation `Rep` only reads the headers of the nodes of the tree. -/
theorem Rep_congr {m m' : Nat → chx_rb_node} :
    ∀ (t : Tree) (par : Nat), (∀ x ∈ t.inorder, m' x = m x) → Rep m t par → Rep m' t par
  | .nil, _, _, _ => trivial
  | .node c l a r, par, h, hr => by
    simp only [Tree.inorder, List.mem_append, List.mem_cons] at h
    obtain ⟨h1, h2, h3, h4, h5, h6, h7⟩ := hr
    have ha : m' a = m a := h a (Or.inr (Or.inl rfl))
    refine ⟨h1, h2, by rw [ha]; exact h3, by rw [ha]; exact h4, by rw [ha]; exact h5,
      Rep_congr l a (fun x hx => h x (Or.inl hx)) h6,
      Rep_congr r a (fun x hx => h x (Or.inr (Or.inr hx))) h7⟩

theorem Rep_addr_ne_zero {m : Nat → chx_rb_node} {c l a r par} (h : Rep m (.node c l a r) par) :
    a ≠ 0 := h.1

theorem Rep_mem_ne_zero {m : Nat → chx_rb_node} :
    ∀ (t : Tree) (par : Nat), Rep m t par → ∀ x ∈ t.inorder, x ≠ 0
  | .nil, _, _, x, hx => by simp [Tree.inorder] at hx
  | .node c l a r, par, hr, x, hx => by
    simp only [Tree.inorder, List.mem_append, List.mem_cons] at hx
    obtain ⟨h1, h2, h3, h4, h5, h6, h7⟩ := hr
    rcases hx with hx | hx | hx
    · exact Rep_mem_ne_zero l a h6 x hx
    · exact hx ▸ h1
    · exact Rep_mem_ne_zero r a h7 x hx

theorem Rep_mem_aligned {m : Nat → chx_rb_node} :
    ∀ (t : Tree) (par : Nat), Rep m t par → ∀ x ∈ t.inorder, x % 4 = 0
  | .nil, _, _, x, hx => by simp [Tree.inorder] at hx
  | .node c l a r, par, hr, x, hx => by
    simp only [Tree.inorder, List.mem_append, List.mem_cons] at hx
    obtain ⟨h1, h2, h3, h4, h5, h6, h7⟩ := hr
    rcases hx with hx | hx | hx
    · exact Rep_mem_aligned l a h6 x hx
    · exact hx ▸ h2
    · exact Rep_mem_aligned r a h7 x hx

theorem addr_mem_inorder : ∀ (t : Tree), t ≠ .nil → t.addr ∈ t.inorder
  | .nil, h => absurd rfl h
  | .node _ _ _ _, _ => by simp [Tree.inorder, Tree.addr]

theorem Rep_addr_eq_zero {m : Nat → chx_rb_node} {t : Tree} {par : Nat} (h : Rep m t par) :
    t.addr = 0 ↔ t = .nil := by
  cases t with
  | nil => simp [Tree.addr]
  | node c l a r => simp [Tree.addr, h.1]

/-- The parent of the root of a represented subtree may be rewritten together
with its stored parent. -/
theorem Rep_reparent {m m' : Nat → chx_rb_node} {c c' l a r par par'}
    (h : Rep m (.node c l a r) par) (hl : a ∉ l.inorder) (hr : a ∉ r.inorder)
    (hpc : (m' a).__rb_parent_color = par' + c'.bit)
    (hleft : (m' a).rb_left = (m a).rb_left) (hright : (m' a).rb_right = (m a).rb_right)
    (hframe : ∀ x, x ≠ a → m' x = m x) :
    Rep m' (.node c' l a r) par' := by
  obtain ⟨h1, h2, h3, h4, h5, h6, h7⟩ := h
  refine ⟨h1, h2, hpc, hleft.trans h4, hright.trans h5, ?_, ?_⟩
  · exact Rep_congr l a (fun x hx => hframe x (fun e => hl (e ▸ hx))) h6
  · exact Rep_congr r a (fun x hx => hframe x (fun e => hr (e ▸ hx))) h7

/-! ## Contexts -/

theorem inorder_plug : ∀ (k : Ctx) (t : Tree),
    (plug k t).inorder = ctxBefore k ++ t.inorder ++ ctxAfter k
  | [], t => by simp [plug, ctxBefore, ctxAfter]
  | .left c a r :: k, t => by
    simp [plug, ctxBefore, ctxAfter, inorder_plug k, Tree.inorder]
  | .right c l a :: k, t => by
    simp [plug, ctxBefore, ctxAfter, inorder_plug k, Tree.inorder]

theorem plug_append : ∀ (k1 k2 : Ctx) (t : Tree), plug (k1 ++ k2) t = plug k2 (plug k1 t)
  | [], _, _ => rfl
  | .left c a r :: k1, k2, t => by simp [plug, plug_append k1]
  | .right c l a :: k1, k2, t => by simp [plug, plug_append k1]

theorem RepCtx_congr {m m' : Nat → chx_rb_node} {top par0 : Nat} :
    ∀ (k : Ctx) (p : Nat), (∀ x ∈ ctxNodes k, m' x = m x) →
      RepCtx m top par0 k p → RepCtx m' top par0 k p
  | [], _, _, h => h
  | .left c a r :: k, p, h, hr => by
    simp only [ctxNodes, ctxBefore, ctxAfter, List.mem_append, List.mem_cons] at h
    obtain ⟨h1, h2, h3, h4, h5, h6, h7⟩ := hr
    have ha : m' a = m a := h a (by simp)
    refine ⟨h1, h2, by rw [ha]; exact h3, by rw [ha]; exact h4, by rw [ha]; exact h5,
      Rep_congr r a (fun x hx => h x (by simp [hx])) h6,
      RepCtx_congr k a (fun x hx => h x ?_) h7⟩
    simp only [ctxNodes, List.mem_append] at hx
    tauto
  | .right c l a :: k, p, h, hr => by
    simp only [ctxNodes, ctxBefore, ctxAfter, List.mem_append, List.mem_cons] at h
    obtain ⟨h1, h2, h3, h4, h5, h6, h7⟩ := hr
    have ha : m' a = m a := h a (by simp)
    refine ⟨h1, h2, by rw [ha]; exact h3, by rw [ha]; exact h4, by rw [ha]; exact h5,
      Rep_congr l a (fun x hx => h x (by simp [hx])) h6,
      RepCtx_congr k a (fun x hx => h x ?_) h7⟩
    simp only [ctxNodes, List.mem_append] at hx
    tauto

theorem plug_addr_ne_nil : ∀ (k : Ctx) (t : Tree), k ≠ [] → plug k t ≠ .nil
  | [], _, h => absurd rfl h
  | [.left c a r], t, _ => by simp [plug]
  | [.right c l a], t, _ => by simp [plug]
  | .left c a r :: f :: k, t, _ => plug_addr_ne_nil (f :: k) _ (by simp)
  | .right c l a :: f :: k, t, _ => plug_addr_ne_nil (f :: k) _ (by simp)

/-- A tree split as context and subtree is represented exactly when both
parts are. -/
theorem Rep_plug {m : Nat → chx_rb_node} {par0 : Nat} :
    ∀ (k : Ctx) (t : Tree), Rep m (plug k t) par0 ↔
      RepCtx m (plug k t).addr par0 k t.addr ∧ Rep m t (ctxAddr par0 k)
  | [], t => by simp [plug, RepCtx, ctxAddr]
  | .left c a r :: k, t => by
    rw [plug, Rep_plug k]
    simp only [RepCtx, Rep, ctxAddr, Frame.addr, Tree.addr]
    tauto
  | .right c l a :: k, t => by
    rw [plug, Rep_plug k]
    simp only [RepCtx, Rep, ctxAddr, Frame.addr, Tree.addr]
    tauto

/-- Zipper form of `WF`. -/
theorem WF_plug {s : State α} {k : Ctx} {t : Tree} :
    WF s (plug k t) ↔ RepCtx s.mem s.rb_node 0 k t.addr ∧ Rep s.mem t (ctxAddr 0 k) ∧
      (ctxBefore k ++ t.inorder ++ ctxAfter k).Nodup := by
  unfold WF
  rw [Rep_plug, inorder_plug]
  constructor
  · rintro ⟨h1, ⟨h2, h3⟩, h4⟩
    exact ⟨h1 ▸ h2, h3, h4⟩
  · rintro ⟨h1, h2, h3⟩
    have : s.rb_node = (plug k t).addr := by
      clear h2 h3
      induction k generalizing t with
      | nil => simpa [RepCtx, plug] using h1
      | cons f k ih =>
        cases f with
        | left c a r => exact ih (t := .node c t a r) h1.2.2.2.2.2.2
        | right c l a => exact ih (t := .node c l a t) h1.2.2.2.2.2.2
    exact ⟨this, ⟨this ▸ h1, h2⟩, h3⟩

theorem RepCtx_ctxAddr_ne_zero {m : Nat → chx_rb_node} {top : Nat} {k : Ctx} {p : Nat}
    (h : RepCtx m top 0 k p) : ctxAddr 0 k = 0 ↔ k = [] := by
  cases k with
  | nil => simp [ctxAddr]
  | cons f k =>
    cases f with
    | left c a r => simp [ctxAddr, Frame.addr, h.1]
    | right c l a => simp [ctxAddr, Frame.addr, h.1]


@[simp] theorem addr_nil : Tree.nil.addr = 0 := rfl

@[simp] theorem addr_node (c : Color) (l : Tree) (a : Nat) (r : Tree) :
    (Tree.node c l a r).addr = a := rfl

@[simp] theorem paintBlack_nil : Tree.nil.paintBlack = .nil := rfl

@[simp] theorem paintBlack_node (c : Color) (l : Tree) (a : Nat) (r : Tree) :
    (Tree.node c l a r).paintBlack = .node .black l a r := rfl

@[simp] theorem bit_red : Color.red.bit = 0 := rfl

@[simp] theorem bit_black : Color.black.bit = 1 := rfl

theorem store_pc_mem_ne {s : State α} {a v x : Nat} (h : x ≠ a) :
    (s.store_pc a v).mem x = s.mem x := by
  simp [State.store_pc, h]

theorem store_left_mem_ne {s : State α} {a v x : Nat} (h : x ≠ a) :
    (s.store_left a v).mem x = s.mem x := by
  simp [State.store_left, h]

theorem store_right_mem_ne {s : State α} {a v x : Nat} (h : x ≠ a) :
    (s.store_right a v).mem x = s.mem x := by
  simp [State.store_right, h]

theorem Rep_store_pc {s : State α} {a v : Nat} {t : Tree} {par : Nat} (h : a ∉ t.inorder) :
    Rep (s.store_pc a v).mem t par ↔ Rep s.mem t par := by
  have e : ∀ x ∈ t.inorder, (s.store_pc a v).mem x = s.mem x :=
    fun x hx => store_pc_mem_ne (fun e => h (e ▸ hx))
  exact ⟨Rep_congr t par (fun x hx => (e x hx).symm), Rep_congr t par e⟩

theorem Rep_store_left {s : State α} {a v : Nat} {t : Tree} {par : Nat} (h : a ∉ t.inorder) :
    Rep (s.store_left a v).mem t par ↔ Rep s.mem t par := by
  have e : ∀ x ∈ t.inorder, (s.store_left a v).mem x = s.mem x :=
    fun x hx => store_left_mem_ne (fun e => h (e ▸ hx))
  exact ⟨Rep_congr t par (fun x hx => (e x hx).symm), Rep_congr t par e⟩

theorem Rep_store_right {s : State α} {a v : Nat} {t : Tree} {par : Nat} (h : a ∉ t.inorder) :
    Rep (s.store_right a v).mem t par ↔ Rep s.mem t par := by
  have e : ∀ x ∈ t.inorder, (s.store_right a v).mem x = s.mem x :=
    fun x hx => store_right_mem_ne (fun e => h (e ▸ hx))
  exact ⟨Rep_congr t par (fun x hx => (e x hx).symm), Rep_congr t par e⟩

theorem RepCtx_store_pc {s : State α} {a v top par0 : Nat} {k : Ctx} {p : Nat}
    (h : a ∉ ctxNodes k) :
    RepCtx (s.store_pc a v).mem top par0 k p ↔ RepCtx s.mem top par0 k p := by
  have e : ∀ x ∈ ctxNodes k, (s.store_pc a v).mem x = s.mem x :=
    fun x hx => store_pc_mem_ne (fun e => h (e ▸ hx))
  exact ⟨RepCtx_congr k p (fun x hx => (e x hx).symm), RepCtx_congr k p e⟩

theorem RepCtx_store_left {s : State α} {a v top par0 : Nat} {k : Ctx} {p : Nat}
    (h : a ∉ ctxNodes k) :
    RepCtx (s.store_left a v).mem top par0 k p ↔ RepCtx s.mem top par0 k p := by
  have e : ∀ x ∈ ctxNodes k, (s.store_left a v).mem x = s.mem x :=
    fun x hx => store_left_mem_ne (fun e => h (e ▸ hx))
  exact ⟨RepCtx_congr k p (fun x hx => (e x hx).symm), RepCtx_congr k p e⟩

theorem RepCtx_store_right {s : State α} {a v top par0 : Nat} {k : Ctx} {p : Nat}
    (h : a ∉ ctxNodes k) :
    RepCtx (s.store_right a v).mem top par0 k p ↔ RepCtx s.mem top par0 k p := by
  have e : ∀ x ∈ ctxNodes k, (s.store_right a v).mem x = s.mem x :=
    fun x hx => store_right_mem_ne (fun e => h (e ▸ hx))
  exact ⟨RepCtx_congr k p (fun x hx => (e x hx).symm), RepCtx_congr k p e⟩

/-- Decoding a well-formed parent-and-colour word. -/
theorem parent_of_word {par : Nat} (c : Color) (h : par % 4 = 0) :
    __chx_rb_parent (par + c.bit) = par := by
  unfold __chx_rb_parent
  cases c <;> simp [Color.bit] <;> omega

theorem color_of_word {par : Nat} (c : Color) (h : par % 4 = 0) :
    __chx_rb_color (par + c.bit) = c.bit := by
  unfold __chx_rb_color
  cases c <;> simp [Color.bit] <;> omega

theorem is_red_word {par : Nat} (c : Color) (h : par % 4 = 0) :
    __chx_rb_is_red (par + c.bit) = decide (c = .red) := by
  unfold __chx_rb_is_red
  rw [color_of_word c h]
  cases c <;> simp [Color.bit]

theorem is_black_word {par : Nat} (c : Color) (h : par % 4 = 0) :
    __chx_rb_is_black (par + c.bit) = decide (c = .black) := by
  unfold __chx_rb_is_black
  rw [color_of_word c h]
  cases c <;> simp [Color.bit]

theorem ctxNodes_nil : ctxNodes [] = [] := rfl

theorem mem_ctxNodes_left {c a r k x} :
    x ∈ ctxNodes (.left c a r :: k) ↔ x = a ∨ x ∈ r.inorder ∨ x ∈ ctxNodes k := by
  simp only [ctxNodes, ctxBefore, ctxAfter, List.mem_append, List.mem_cons]
  tauto

theorem mem_ctxNodes_right {c l a k x} :
    x ∈ ctxNodes (.right c l a :: k) ↔ x = a ∨ x ∈ l.inorder ∨ x ∈ ctxNodes k := by
  simp only [ctxNodes, ctxBefore, ctxAfter, List.mem_append, List.mem_cons]
  tauto

theorem ctxNodes_perm_left (c a r k) :
    (ctxNodes (.left c a r :: k)).Perm (a :: (r.inorder ++ ctxNodes k)) := by
  rw [List.perm_iff_count]
  intro x
  simp only [ctxNodes, ctxBefore, ctxAfter, List.count_append, List.count_cons]
  omega

theorem ctxNodes_perm_right (c l a k) :
    (ctxNodes (.right c l a :: k)).Perm (a :: (l.inorder ++ ctxNodes k)) := by
  rw [List.perm_iff_count]
  intro x
  simp only [ctxNodes, ctxBefore, ctxAfter, List.count_append, List.count_cons, List.count_nil]
  omega

theorem nodup_ctxNodes_left {c a r k} :
    (ctxNodes (.left c a r :: k)).Nodup ↔
      a ∉ r.inorder ∧ a ∉ ctxNodes k ∧ r.inorder.Nodup ∧ (ctxNodes k).Nodup ∧
        r.inorder.Disjoint (ctxNodes k) := by
  rw [(ctxNodes_perm_left c a r k).nodup_iff]
  simp only [List.nodup_cons, List.nodup_append, List.mem_append, not_or]
  tauto

theorem nodup_ctxNodes_right {c l a k} :
    (ctxNodes (.right c l a :: k)).Nodup ↔
      a ∉ l.inorder ∧ a ∉ ctxNodes k ∧ l.inorder.Nodup ∧ (ctxNodes k).Nodup ∧
        l.inorder.Disjoint (ctxNodes k) := by
  rw [(ctxNodes_perm_right c l a k).nodup_iff]
  simp only [List.nodup_cons, List.nodup_append, List.mem_append, not_or]
  tauto

theorem inorder_plug_perm (k : Ctx) (t : Tree) :
    (plug k t).inorder.Perm (t.inorder ++ ctxNodes k) := by
  rw [inorder_plug, List.perm_iff_count]
  intro x
  simp only [ctxNodes, List.count_append]
  omega

/-- Zipper form of `WF`, with the node set split into the subtree and the
context. -/
theorem WF_plug' {s : State α} {k : Ctx} {t : Tree} :
    WF s (plug k t) ↔ RepCtx s.mem s.rb_node 0 k t.addr ∧ Rep s.mem t (ctxAddr 0 k) ∧
      (t.inorder ++ ctxNodes k).Nodup := by
  rw [WF_plug, ← inorder_plug, (inorder_plug_perm k t).nodup_iff]

theorem ctxAddr_mem_ctxNodes : ∀ (k : Ctx), k ≠ [] → ctxAddr 0 k ∈ ctxNodes k
  | [], h => absurd rfl h
  | .left c a r :: k, _ => by simp [ctxAddr, Frame.addr, mem_ctxNodes_left]
  | .right c l a :: k, _ => by simp [ctxAddr, Frame.addr, mem_ctxNodes_right]

theorem change_child_mem_ne {s : State α} {old new parent x : Nat} (h : x ≠ parent) :
    (__chx_rb_change_child s old new parent).mem x = s.mem x := by
  unfold __chx_rb_change_child
  split
  · split
    · exact store_left_mem_ne h
    · exact store_right_mem_ne h
  · rfl

@[simp] theorem change_child_pc (s : State α) (old new parent x : Nat) :
    ((__chx_rb_change_child s old new parent).mem x).__rb_parent_color =
      (s.mem x).__rb_parent_color := by
  unfold __chx_rb_change_child
  split
  · split <;> simp
  · rfl

/-- Redirecting the link above the hole of a context from the old subtree root
to a new one. -/
theorem RepCtx_change_child {s : State α} {k : Ctx} {old new : Nat}
    (hk : RepCtx s.mem s.rb_node 0 k old) (hnd : (ctxNodes k).Nodup)
    (hold0 : old ≠ 0) (hold : old ∉ ctxNodes k) :
    RepCtx (__chx_rb_change_child s old new (ctxAddr 0 k)).mem
      (__chx_rb_change_child s old new (ctxAddr 0 k)).rb_node 0 k new := by
  cases k with
  | nil => simp [__chx_rb_change_child, ctxAddr, RepCtx]
  | cons f k =>
    cases f with
    | left c a r =>
      obtain ⟨h1, h2, h3, h4, h5, h6, h7⟩ := hk
      rw [nodup_ctxNodes_left] at hnd
      obtain ⟨n1, n2, n3, n4, n5⟩ := hnd
      simp only [__chx_rb_change_child, ctxAddr, Frame.addr, ne_eq, h1, not_false_eq_true,
        if_true, h4]
      refine ⟨h1, h2, by simpa using h3, by simp, by simpa using h5, ?_, ?_⟩
      · exact (Rep_store_left n1).2 h6
      · simpa using (RepCtx_store_left n2).2 h7
    | right c l a =>
      obtain ⟨h1, h2, h3, h4, h5, h6, h7⟩ := hk
      rw [nodup_ctxNodes_right] at hnd
      obtain ⟨n1, n2, n3, n4, n5⟩ := hnd
      have hne : (s.mem a).rb_left ≠ old := by
        rw [h4]
        intro e
        cases l with
        | nil => exact hold0 e.symm
        | node cl ll la lr =>
          apply hold
          rw [mem_ctxNodes_right]
          right; left
          rw [← e]
          simp [Tree.inorder]
      simp only [__chx_rb_change_child, ctxAddr, Frame.addr, ne_eq, h1, not_false_eq_true,
        if_true, hne, if_false]
      refine ⟨h1, h2, by simpa using h3, by simpa using h4, by simp, ?_, ?_⟩
      · exact (Rep_store_right n1).2 h6
      · simpa using (RepCtx_store_right n2).2 h7

/-- A block that rewrites the subtree `T` in place into `T'` and then redirects
the link above it keeps the whole tree represented. -/
theorem WF_change_child {s s' : State α} {k : Ctx} {T U : Tree}
    (hk : RepCtx s.mem s.rb_node 0 k T.addr)
    (hnd : (T.inorder ++ ctxNodes k).Nodup) (hT0 : T.addr ≠ 0) (hTn : T ≠ .nil)
    (hroot : s'.rb_node = s.rb_node) (hframe : ∀ x ∈ ctxNodes k, s'.mem x = s.mem x)
    (hT' : Rep s'.mem U (ctxAddr 0 k))
    (hsub : ∀ x ∈ U.inorder, x ∈ T.inorder) (hnd' : U.inorder.Nodup) :
    WF (__chx_rb_change_child s' T.addr U.addr (ctxAddr 0 k)) (plug k U) := by
  rw [List.nodup_append] at hnd
  obtain ⟨n1, n2, n3⟩ := hnd
  have hk' : RepCtx s'.mem s'.rb_node 0 k T.addr := by
    rw [hroot]
    exact RepCtx_congr k _ hframe hk
  have hmem : T.addr ∉ ctxNodes k := fun h => n3 (addr_mem_inorder T hTn) h
  rw [WF_plug']
  refine ⟨RepCtx_change_child hk' n2 hT0 hmem, ?_, ?_⟩
  · refine Rep_congr U _ (fun x hx => change_child_mem_ne ?_) hT'
    intro e
    by_cases hk0 : k = []
    · subst hk0
      have := Rep_mem_ne_zero U _ hT' x hx
      simp [ctxAddr] at e
      exact this e
    · exact n3 (hsub x hx) (e ▸ ctxAddr_mem_ctxNodes k hk0)
  · rw [List.nodup_append]
    exact ⟨hnd', n2, fun x hx hx' => n3 (hsub x hx) hx'⟩

/-- A block that rewrites the subtree `T` in place into `T'` with the same root
keeps the whole tree represented. -/
theorem WF_local {s s' : State α} {k : Ctx} {T U : Tree}
    (hk : RepCtx s.mem s.rb_node 0 k T.addr)
    (hnd : (T.inorder ++ ctxNodes k).Nodup)
    (hroot : s'.rb_node = s.rb_node) (hframe : ∀ x ∈ ctxNodes k, s'.mem x = s.mem x)
    (hT' : Rep s'.mem U (ctxAddr 0 k)) (haddr : U.addr = T.addr)
    (hsub : ∀ x ∈ U.inorder, x ∈ T.inorder) (hnd' : U.inorder.Nodup) :
    WF s' (plug k U) := by
  rw [List.nodup_append] at hnd
  obtain ⟨n1, n2, n3⟩ := hnd
  rw [WF_plug', haddr, hroot]
  refine ⟨RepCtx_congr k _ hframe hk, hT', ?_⟩
  rw [List.nodup_append]
  exact ⟨hnd', n2, fun x hx hx' => n3 (hsub x hx) hx'⟩


theorem WF_change_child_eq {s s' : State α} {k : Ctx} {T U : Tree}
    (hk : RepCtx s.mem s.rb_node 0 k T.addr)
    (hnd : (T.inorder ++ ctxNodes k).Nodup) (hT0 : T.addr ≠ 0) (hTn : T ≠ .nil)
    (hroot : s'.rb_node = s.rb_node) (hframe : ∀ x ∈ ctxNodes k, s'.mem x = s.mem x)
    (hT' : Rep s'.mem U (ctxAddr 0 k)) (hio : U.inorder = T.inorder) :
    WF (__chx_rb_change_child s' T.addr U.addr (ctxAddr 0 k)) (plug k U) :=
  WF_change_child hk hnd hT0 hTn hroot hframe hT' (fun x hx => hio ▸ hx)
    (hio ▸ (List.nodup_append.1 hnd).1)

theorem WF_local_eq {s s' : State α} {k : Ctx} {T U : Tree}
    (hk : RepCtx s.mem s.rb_node 0 k T.addr)
    (hnd : (T.inorder ++ ctxNodes k).Nodup)
    (hroot : s'.rb_node = s.rb_node) (hframe : ∀ x ∈ ctxNodes k, s'.mem x = s.mem x)
    (hT' : Rep s'.mem U (ctxAddr 0 k)) (haddr : U.addr = T.addr)
    (hio : U.inorder = T.inorder) :
    WF s' (plug k U) :=
  WF_local hk hnd hroot hframe hT' haddr (fun x hx => hio ▸ hx)
    (hio ▸ (List.nodup_append.1 hnd).1)

theorem frame_ne {l k : List Nat} (h : (l ++ k).Nodup) {x a : Nat} (hx : x ∈ k)
    (ha : a ∈ l) : x ≠ a := by
  rintro rfl
  exact (List.nodup_append.1 h).2.2 ha hx


theorem erase_mid {n : Nat} : ∀ (A B : List Nat), n ∉ A → (A ++ n :: B).erase n = A ++ B
  | [], B, _ => by simp
  | a :: A, B, h => by
    simp only [List.mem_cons, not_or] at h
    have hne : a ≠ n := fun e => h.1 e.symm
    simp only [List.cons_append]
    rw [List.erase_cons_tail (by simpa using hne), erase_mid A B h.2]

theorem inorder_erase_node {c : Color} {l r : Tree} {n : Nat}
    (h : (Tree.node c l n r).inorder.Nodup) :
    (Tree.node c l n r).inorder.erase n = l.inorder ++ r.inorder := by
  simp only [Tree.inorder, List.nodup_append, List.nodup_cons] at h
  simp only [Tree.inorder]
  exact erase_mid _ _ (fun hx => h.2.2 hx (List.mem_cons_self _ _))

/-- Variant of `WF_change_child` for a block that removes the root `n` of the
subtree. -/
theorem WF_change_child_erase {s s' : State α} {k : Ctx} {T U : Tree} {n : Nat}
    (hk : RepCtx s.mem s.rb_node 0 k T.addr)
    (hnd : (T.inorder ++ ctxNodes k).Nodup) (hT0 : T.addr ≠ 0) (hTn : T ≠ .nil)
    (hroot : s'.rb_node = s.rb_node) (hframe : ∀ x ∈ ctxNodes k, s'.mem x = s.mem x)
    (hT' : Rep s'.mem U (ctxAddr 0 k)) (hio : U.inorder = T.inorder.erase n) :
    WF (__chx_rb_change_child s' T.addr U.addr (ctxAddr 0 k)) (plug k U) :=
  WF_change_child hk hnd hT0 hTn hroot hframe hT'
    (fun x hx => List.mem_of_mem_erase (hio ▸ hx))
    (hio ▸ (List.nodup_append.1 hnd).1.erase n)

theorem state_ext {s t : State α} (h1 : s.mem = t.mem) (h2 : s.rb_node = t.rb_node)
    (h3 : s.aug = t.aug) : s = t := by
  cases s; cases t; simp_all

theorem change_child_store_pc (s : State α) (old new parent a v : Nat) :
    (__chx_rb_change_child s old new parent).store_pc a v =
      __chx_rb_change_child (s.store_pc a v) old new parent := by
  unfold __chx_rb_change_child
  simp only [store_pc_left]
  split
  · split
    · apply state_ext
      · funext x
        apply node_ext <;> simp
      · rfl
      · rfl
    · apply state_ext
      · funext x
        apply node_ext <;> simp
      · rfl
      · rfl
  · rfl


/-! ## Colour invariants: path form and recursive form -/

theorem pathBlacks_ne_nil : ∀ t : Tree, t.pathBlacks ≠ []
  | .nil => by simp [Tree.pathBlacks]
  | .node c l a r => by
    have := pathBlacks_ne_nil l
    simp [Tree.pathBlacks, this]

theorem bh_mem_pathBlacks : ∀ t : Tree, t.bh ∈ t.pathBlacks
  | .nil => by simp [Tree.pathBlacks, Tree.bh]
  | .node c l a r => by
    have := bh_mem_pathBlacks l
    simp only [Tree.pathBlacks, Tree.bh, List.map_append, List.mem_append, List.mem_map]
    exact Or.inl ⟨l.bh, this, rfl⟩

theorem Balanced.pathBlacks : ∀ t : Tree, t.Balanced → ∀ x ∈ t.pathBlacks, x = t.bh
  | .nil, _, x, hx => by simpa [Tree.pathBlacks, Tree.bh] using hx
  | .node c l a r, ⟨h1, h2, h3⟩, x, hx => by
    simp only [Tree.pathBlacks, List.map_append, List.mem_append, List.mem_map] at hx
    rcases hx with ⟨y, hy, rfl⟩ | ⟨y, hy, rfl⟩
    · rw [Balanced.pathBlacks l h2 y hy, Tree.bh]
    · rw [Balanced.pathBlacks r h3 y hy, Tree.bh, h1]

theorem mem_pathBlacks_left {c l a r x} (h : x ∈ l.pathBlacks) :
    x + c.bit ∈ (Tree.node c l a r).pathBlacks := by
  simp only [Tree.pathBlacks, List.map_append, List.mem_append, List.mem_map]
  exact Or.inl ⟨x, h, rfl⟩

theorem mem_pathBlacks_right {c l a r x} (h : x ∈ r.pathBlacks) :
    x + c.bit ∈ (Tree.node c l a r).pathBlacks := by
  simp only [Tree.pathBlacks, List.map_append, List.mem_append, List.mem_map]
  exact Or.inr ⟨x, h, rfl⟩

theorem EqualBlack.balanced : ∀ t : Tree, t.EqualBlack → t.Balanced
  | .nil, _ => trivial
  | .node c l a r, h => by
    have hl : l.EqualBlack := by
      intro x hx y hy
      have := h (x + c.bit) (mem_pathBlacks_left hx) (y + c.bit) (mem_pathBlacks_left hy)
      omega
    have hr : r.EqualBlack := by
      intro x hx y hy
      have := h (x + c.bit) (mem_pathBlacks_right hx) (y + c.bit) (mem_pathBlacks_right hy)
      omega
    refine ⟨?_, EqualBlack.balanced l hl, EqualBlack.balanced r hr⟩
    have := h (l.bh + c.bit) (mem_pathBlacks_left (bh_mem_pathBlacks l))
      (r.bh + c.bit) (mem_pathBlacks_right (bh_mem_pathBlacks r))
    omega

/-- Invariant 5 in path form agrees with its recursive form. -/
theorem equalBlack_iff_balanced (t : Tree) : t.EqualBlack ↔ t.Balanced :=
  ⟨EqualBlack.balanced t, fun h x hx y hy => by
    rw [Balanced.pathBlacks t h x hx, Balanced.pathBlacks t h y hy]⟩

theorem RB_iff (t : Tree) : t.RB ↔ t.color = .black ∧ t.Valid := by
  unfold Tree.RB Tree.Valid
  rw [equalBlack_iff_balanced]

theorem Valid_node {c l a r} :
    (Tree.node c l a r).Valid ↔
      (c = .red → l.color = .black ∧ r.color = .black) ∧ l.bh = r.bh ∧ l.Valid ∧ r.Valid := by
  simp only [Tree.Valid, Tree.NoRedRed, Tree.Balanced]
  tauto

theorem Valid_nil : Tree.nil.Valid := ⟨trivial, trivial⟩

@[simp] theorem bh_nil : Tree.nil.bh = 0 := rfl

@[simp] theorem bh_node (c l a r) : (Tree.node c l a r).bh = l.bh + c.bit := rfl

@[simp] theorem color_nil : Tree.nil.color = .black := rfl

@[simp] theorem color_node (c l a r) : (Tree.node c l a r).color = c := rfl

/-- The colour invariants of a tree split as context and subtree. -/
theorem RB_plug : ∀ (k : Ctx) (T : Tree),
    (plug k T).RB ↔ T.Valid ∧ CtxOK k T.bh ∧ topColorOK T.color k
  | [], T => by
    rw [RB_iff]
    simp only [plug, CtxOK, topColorOK]
    tauto
  | .left c a r :: k, T => by
    rw [plug, RB_plug k, Valid_node]
    simp only [CtxOK, topColorOK, bh_node, color_node, Frame.color]
    constructor
    · rintro ⟨⟨h1, h2, h3, h4⟩, h5, h6⟩
      refine ⟨h3, ⟨h2.symm, h4, fun hc => (h1 hc).2, h6, h5⟩, fun hT => ?_⟩
      cases c
      · have := (h1 rfl).1
        rw [hT] at this
        cases this
      · rfl
    · rintro ⟨h1, ⟨h2, h3, h4, h5, h6⟩, h7⟩
      refine ⟨⟨fun hc => ⟨?_, h4 hc⟩, h2.symm, h1, h3⟩, h6, h5⟩
      cases hT : T.color
      · have := h7 hT
        rw [hc] at this
        cases this
      · rfl
  | .right c l a :: k, T => by
    rw [plug, RB_plug k, Valid_node]
    simp only [CtxOK, topColorOK, bh_node, color_node, Frame.color]
    constructor
    · rintro ⟨⟨h1, h2, h3, h4⟩, h5, h6⟩
      refine ⟨h4, ⟨h2, h3, fun hc => (h1 hc).1, h6, h2 ▸ h5⟩, fun hT => ?_⟩
      cases c
      · have := (h1 rfl).2
        rw [hT] at this
        cases this
      · rfl
    · rintro ⟨h1, ⟨h2, h3, h4, h5, h6⟩, h7⟩
      refine ⟨⟨fun hc => ⟨h4 hc, ?_⟩, h2, h3, h1⟩, h2 ▸ h6, h5⟩
      cases hT : T.color
      · have := h7 hT
        rw [hc] at this
        cases this
      · rfl


theorem RepCtx_ctxAddr_aligned {m : Nat → chx_rb_node} {top : Nat} {k : Ctx} {p : Nat}
    (h : RepCtx m top 0 k p) : ctxAddr 0 k % 4 = 0 := by
  cases k with
  | nil => simp [ctxAddr]
  | cons f k =>
    cases f with
    | left c a r => simpa [ctxAddr, Frame.addr] using h.2.1
    | right c l a => simpa [ctxAddr, Frame.addr] using h.2.1

/-! ## Insert fix-up: the blocks -/

theorem insert_case1_left_spec {s : State α} {k : Ctx} {cg cp cu : Color} {A B Ul Ur : Tree}
    {p g u : Nat}
    (h : WF s (plug k (.node cg (.node cp A p B) g (.node cu Ul u Ur)))) :
    WF (insert_case1 s g p u).1
        (plug k (.node .red (.node .black A p B) g (.node .black Ul u Ur))) ∧
      (insert_case1 s g p u).2 = ctxAddr 0 k := by
  rw [WF_plug'] at h
  obtain ⟨hk, hT, hnd⟩ := h
  have hpar := RepCtx_ctxAddr_aligned hk
  have hnd0 := hnd
  simp only [Tree.inorder, List.nodup_append, List.nodup_cons, List.disjoint_append_left,
    List.disjoint_append_right, List.disjoint_cons_left, List.disjoint_cons_right,
    List.mem_append, List.mem_cons, not_or] at hnd
  simp only [Rep, addr_node] at hT
  have hne : g ≠ p ∧ p ≠ g ∧ g ≠ u ∧ u ≠ g ∧ p ≠ u ∧ u ≠ p := by omega
  have hpw := parent_of_word cg hpar
  refine ⟨WF_local hk hnd0 ?_ ?_ ?_ ?_ ?_ ?_, ?_⟩
  · simp [insert_case1, chx_rb_set_parent_color]
  · intro x hx
    have h1 : x ≠ g := frame_ne hnd0 hx (by simp [Tree.inorder])
    have h2 : x ≠ p := frame_ne hnd0 hx (by simp [Tree.inorder])
    have h3 : x ≠ u := frame_ne hnd0 hx (by simp [Tree.inorder])
    simp [insert_case1, chx_rb_set_parent_color, store_pc_mem_ne, h1, h2, h3]
  · simp [Rep, insert_case1, chx_rb_set_parent_color, chx_rb_parent, Rep_store_pc,
      CHX_RB_RED, CHX_RB_BLACK, hT, hnd, hne, hpw]
  · rfl
  · intro x hx
    simpa [Tree.inorder] using hx
  · simpa [Tree.inorder] using (List.nodup_append.1 hnd0).1
  · simp [insert_case1, chx_rb_set_parent_color, chx_rb_parent, hT, hne, hpw]


theorem insert_case1_right_spec {s : State α} {k : Ctx} {cg cp cu : Color} {A B Ul Ur : Tree}
    {p g u : Nat}
    (h : WF s (plug k (.node cg (.node cu Ul u Ur) g (.node cp A p B)))) :
    WF (insert_case1 s g p u).1
        (plug k (.node .red (.node .black Ul u Ur) g (.node .black A p B))) ∧
      (insert_case1 s g p u).2 = ctxAddr 0 k := by
  rw [WF_plug'] at h
  obtain ⟨hk, hT, hnd⟩ := h
  have hpar := RepCtx_ctxAddr_aligned hk
  have hnd0 := hnd
  simp only [Tree.inorder, List.nodup_append, List.nodup_cons, List.disjoint_append_left,
    List.disjoint_append_right, List.disjoint_cons_left, List.disjoint_cons_right,
    List.mem_append, List.mem_cons, not_or] at hnd
  simp only [Rep, addr_node] at hT
  have hne : g ≠ p ∧ p ≠ g ∧ g ≠ u ∧ u ≠ g ∧ p ≠ u ∧ u ≠ p := by omega
  have hpw := parent_of_word cg hpar
  refine ⟨WF_local hk hnd0 ?_ ?_ ?_ ?_ ?_ ?_, ?_⟩
  · simp [insert_case1, chx_rb_set_parent_color]
  · intro x hx
    have h1 : x ≠ g := frame_ne hnd0 hx (by simp [Tree.inorder])
    have h2 : x ≠ p := frame_ne hnd0 hx (by simp [Tree.inorder])
    have h3 : x ≠ u := frame_ne hnd0 hx (by simp [Tree.inorder])
    simp [insert_case1, chx_rb_set_parent_color, store_pc_mem_ne, h1, h2, h3]
  · simp [Rep, insert_case1, chx_rb_set_parent_color, chx_rb_parent, Rep_store_pc,
      CHX_RB_RED, CHX_RB_BLACK, hT, hnd, hne, hpw]
  · rfl
  · intro x hx
    simpa [Tree.inorder] using hx
  · simpa [Tree.inorder] using (List.nodup_append.1 hnd0).1
  · simp [insert_case1, chx_rb_set_parent_color, chx_rb_parent, hT, hne, hpw]

@[simp] theorem WF_call {s : State α} {f : Callback α} {a b : Nat} {t : Tree} :
    WF (s.call f a b) t ↔ WF s t := Iff.rfl

theorem ne_pair {a b : Nat} (h : ¬a = b) : a ≠ b ∧ b ≠ a := ⟨h, fun e => h e.symm⟩

theorem insert_case3_left_spec (rot : Callback α) {s : State α} {k : Ctx} {cg cp : Color}
    {N B U : Tree} {p g : Nat}
    (h : WF s (plug k (.node cg (.node cp N p B) g U)))
    (hB : B.color = .black) :
    WF (insert_case3_left rot s g p B.addr) (plug k (.node cg N p (.node .red B g U))) := by
  rw [WF_plug'] at h
  obtain ⟨hk, hT, hnd⟩ := h
  have hpar := RepCtx_ctxAddr_aligned hk
  have hnd0 := hnd
  have hpw := parent_of_word cg hpar
  simp only [insert_case3_left, __chx_rb_rotate_set_parents, WF_call]
  cases B with
  | nil =>
    simp only [Tree.inorder, List.nodup_append, List.nodup_cons, List.disjoint_append_left,
          List.disjoint_append_right, List.disjoint_cons_left, List.disjoint_cons_right,
          List.mem_append, List.mem_cons, not_or] at hnd
    simp only [Rep, addr_node, addr_nil, color_node, color_nil] at hT hB
    have h_g_p : g ≠ p ∧ p ≠ g := by
      first
      | exact ne_pair (by simp only [hnd, not_false_eq_true])
      | exact (ne_pair (by simp only [hnd, not_false_eq_true])).symm
    simp only [chx_rb_parent, chx_rb_set_parent_color, chx_rb_set_parent, chx_rb_color, chx_rb_set_black, store_pc_pc, store_left_pc, store_right_pc,
          store_pc_left, store_pc_right, store_left_left, store_left_right, store_right_left,
          store_right_right, call_mem, change_child_pc,
          hT, h_g_p, hpw, ne_eq, not_false_eq_true, not_true_eq_false, if_true, if_false,
          ite_true, ite_false, addr_node, addr_nil]
    refine WF_change_child_eq (T := .node cg (.node cp N p .nil) g U)
      (U := .node cg N p (.node .red .nil g U)) hk hnd0 hT.1 (by simp) ?_ ?_ ?_ ?_
    · simp
    · intro x hx
      have f0 : x ≠ g := frame_ne hnd0 hx (by simp [Tree.inorder])
      have f1 : x ≠ p := frame_ne hnd0 hx (by simp [Tree.inorder])
      simp [store_pc_mem_ne, store_left_mem_ne, store_right_mem_ne, f0, f1]
    · simp [Rep, Rep_store_pc, Rep_store_left, Rep_store_right,
        CHX_RB_RED, CHX_RB_BLACK, hT, hnd, h_g_p, hB]
    · simp [Tree.inorder]
  | node cB Bl b Br =>
    simp only [Tree.inorder, List.nodup_append, List.nodup_cons, List.disjoint_append_left,
          List.disjoint_append_right, List.disjoint_cons_left, List.disjoint_cons_right,
          List.mem_append, List.mem_cons, not_or] at hnd
    simp only [Rep, addr_node, addr_nil, color_node, color_nil] at hT hB
    have h_g_p : g ≠ p ∧ p ≠ g := by
      first
      | exact ne_pair (by simp only [hnd, not_false_eq_true])
      | exact (ne_pair (by simp only [hnd, not_false_eq_true])).symm
    have h_g_b : g ≠ b ∧ b ≠ g := by
      first
      | exact ne_pair (by simp only [hnd, not_false_eq_true])
      | exact (ne_pair (by simp only [hnd, not_false_eq_true])).symm
    have h_p_b : p ≠ b ∧ b ≠ p := by
      first
      | exact ne_pair (by simp only [hnd, not_false_eq_true])
      | exact (ne_pair (by simp only [hnd, not_false_eq_true])).symm
    have h0_b : b ≠ 0 := by simp only [hT, ne_eq, not_false_eq_true]
    simp only [chx_rb_parent, chx_rb_set_parent_color, chx_rb_set_parent, chx_rb_color, chx_rb_set_black, store_pc_pc, store_left_pc, store_right_pc,
          store_pc_left, store_pc_right, store_left_left, store_left_right, store_right_left,
          store_right_right, call_mem, change_child_pc,
          hT, h_g_p, h_g_b, h_p_b, h0_b, hpw, ne_eq, not_false_eq_true, not_true_eq_false, if_true, if_false,
          ite_true, ite_false, addr_node, addr_nil]
    refine WF_change_child_eq (T := .node cg (.node cp N p (.node cB Bl b Br)) g U)
      (U := .node cg N p (.node .red (.node cB Bl b Br) g U)) hk hnd0 hT.1 (by simp) ?_ ?_ ?_ ?_
    · simp
    · intro x hx
      have f0 : x ≠ g := frame_ne hnd0 hx (by simp [Tree.inorder])
      have f1 : x ≠ p := frame_ne hnd0 hx (by simp [Tree.inorder])
      have f2 : x ≠ b := frame_ne hnd0 hx (by simp [Tree.inorder])
      simp [store_pc_mem_ne, store_left_mem_ne, store_right_mem_ne, f0, f1, f2]
    · simp [Rep, Rep_store_pc, Rep_store_left, Rep_store_right,
        CHX_RB_RED, CHX_RB_BLACK, hT, hnd, h_g_p, h_g_b, h_p_b, h0_b, hB]
    · simp [Tree.inorder]

theorem insert_case23_left_spec (rot : Callback α) {s : State α} {k : Ctx} {cg cp cn : Color}
    {A Nl Nr U : Tree} {p g n : Nat}
    (h : WF s (plug k (.node cg (.node cp A p (.node cn Nl n Nr)) g U)))
    (hNl : Nl.color = .black)
    (hNr : Nr.color = .black) :
    WF (insert_case3_left rot (insert_case2_left rot s n p).1 g n
      (insert_case2_left rot s n p).2) (plug k (.node cg (.node .red A p Nl) n (.node .red Nr g U))) := by
  rw [WF_plug'] at h
  obtain ⟨hk, hT, hnd⟩ := h
  have hpar := RepCtx_ctxAddr_aligned hk
  have hnd0 := hnd
  have hpw := parent_of_word cg hpar
  simp only [insert_case3_left, insert_case2_left, __chx_rb_rotate_set_parents, WF_call]
  cases Nl with
  | nil =>
    cases Nr with
    | nil =>
      simp only [Tree.inorder, List.nodup_append, List.nodup_cons, List.disjoint_append_left,
            List.disjoint_append_right, List.disjoint_cons_left, List.disjoint_cons_right,
            List.mem_append, List.mem_cons, not_or] at hnd
      simp only [Rep, addr_node, addr_nil, color_node, color_nil] at hT hNl hNr
      have h_g_p : g ≠ p ∧ p ≠ g := by
        first
        | exact ne_pair (by simp only [hnd, not_false_eq_true])
        | exact (ne_pair (by simp only [hnd, not_false_eq_true])).symm
      have h_g_n : g ≠ n ∧ n ≠ g := by
        first
        | exact ne_pair (by simp only [hnd, not_false_eq_true])
        | exact (ne_pair (by simp only [hnd, not_false_eq_true])).symm
      have h_p_n : p ≠ n ∧ n ≠ p := by
        first
        | exact ne_pair (by simp only [hnd, not_false_eq_true])
        | exact (ne_pair (by simp only [hnd, not_false_eq_true])).symm
      simp only [chx_rb_parent, chx_rb_set_parent_color, chx_rb_set_parent, chx_rb_color, chx_rb_set_black, store_pc_pc, store_left_pc, store_right_pc,
            store_pc_left, store_pc_right, store_left_left, store_left_right, store_right_left,
            store_right_right, call_mem, change_child_pc,
            hT, h_g_p, h_g_n, h_p_n, hpw, ne_eq, not_false_eq_true, not_true_eq_false, if_true, if_false,
            ite_true, ite_false, addr_node, addr_nil]
      refine WF_change_child_eq (T := .node cg (.node cp A p (.node cn .nil n .nil)) g U)
        (U := .node cg (.node .red A p .nil) n (.node .red .nil g U)) hk hnd0 hT.1 (by simp) ?_ ?_ ?_ ?_
      · simp
      · intro x hx
        have f0 : x ≠ g := frame_ne hnd0 hx (by simp [Tree.inorder])
        have f1 : x ≠ p := frame_ne hnd0 hx (by simp [Tree.inorder])
        have f2 : x ≠ n := frame_ne hnd0 hx (by simp [Tree.inorder])
        simp [store_pc_mem_ne, store_left_mem_ne, store_right_mem_ne, f0, f1, f2]
      · simp [Rep, Rep_store_pc, Rep_store_left, Rep_store_right,
          CHX_RB_RED, CHX_RB_BLACK, hT, hnd, h_g_p, h_g_n, h_p_n, hNl, hNr]
      · simp [Tree.inorder]
    | node cNr Nrl nr Nrr =>
      simp only [Tree.inorder, List.nodup_append, List.nodup_cons, List.disjoint_append_left,
            List.disjoint_append_right, List.disjoint_cons_left, List.disjoint_cons_right,
            List.mem_append, List.mem_cons, not_or] at hnd
      simp only [Rep, addr_node, addr_nil, color_node, color_nil] at hT hNl hNr
      have h_g_p : g ≠ p ∧ p ≠ g := by
        first
        | exact ne_pair (by simp only [hnd, not_false_eq_true])
        | exact (ne_pair (by simp only [hnd, not_false_eq_true])).symm
      have h_g_n : g ≠ n ∧ n ≠ g := by
        first
        | exact ne_pair (by simp only [hnd, not_false_eq_true])
        | exact (ne_pair (by simp only [hnd, not_false_eq_true])).symm
      have h_g_nr : g ≠ nr ∧ nr ≠ g := by
        first
        | exact ne_pair (by simp only [hnd, not_false_eq_true])
        | exact (ne_pair (by simp only [hnd, not_false_eq_true])).symm
      have h_p_n : p ≠ n ∧ n ≠ p := by
        first
        | exact ne_pair (by simp only [hnd, not_false_eq_true])
        | exact (ne_pair (by simp only [hnd, not_false_eq_true])).symm
      have h_p_nr : p ≠ nr ∧ nr ≠ p := by
        first
        | exact ne_pair (by simp only [hnd, not_false_eq_true])
        | exact (ne_pair (by simp only [hnd, not_false_eq_true])).symm
      have h_n_nr : n ≠ nr ∧ nr ≠ n := by
        first
        | exact ne_pair (by simp only [hnd, not_false_eq_true])
        | exact (ne_pair (by simp only [hnd, not_false_eq_true])).symm
      have h0_nr : nr ≠ 0 := by simp only [hT, ne_eq, not_false_eq_true]
      simp only [chx_rb_parent, chx_rb_set_parent_color, chx_rb_set_parent, chx_rb_color, chx_rb_set_black, store_pc_pc, store_left_pc, store_right_pc,
            store_pc_left, store_pc_right, store_left_left, store_left_right, store_right_left,
            store_right_right, call_mem, change_child_pc,
            hT, h_g_p, h_g_n, h_g_nr, h_p_n, h_p_nr, h_n_nr, h0_nr, hpw, ne_eq, not_false_eq_true, not_true_eq_false, if_true, if_false,
            ite_true, ite_false, addr_node, addr_nil]
      refine WF_change_child_eq (T := .node cg (.node cp A p (.node cn .nil n (.node cNr Nrl nr Nrr))) g U)
        (U := .node cg (.node .red A p .nil) n (.node .red (.node cNr Nrl nr Nrr) g U)) hk hnd0 hT.1 (by simp) ?_ ?_ ?_ ?_
      · simp
      · intro x hx
        have f0 : x ≠ g := frame_ne hnd0 hx (by simp [Tree.inorder])
        have f1 : x ≠ p := frame_ne hnd0 hx (by simp [Tree.inorder])
        have f2 : x ≠ n := frame_ne hnd0 hx (by simp [Tree.inorder])
        have f3 : x ≠ nr := frame_ne hnd0 hx (by simp [Tree.inorder])
        simp [store_pc_mem_ne, store_left_mem_ne, store_right_mem_ne, f0, f1, f2, f3]
      · simp [Rep, Rep_store_pc, Rep_store_left, Rep_store_right,
          CHX_RB_RED, CHX_RB_BLACK, hT, hnd, h_g_p, h_g_n, h_g_nr, h_p_n, h_p_nr, h_n_nr, h0_nr, hNl, hNr]
      · simp [Tree.inorder]
  | node cNl Nll nl Nlr =>
    cases Nr with
    | nil =>
      simp only [Tree.inorder, List.nodup_append, List.nodup_cons, List.disjoint_append_left,
            List.disjoint_append_right, List.disjoint_cons_left, List.disjoint_cons_right,
            List.mem_append, List.mem_cons, not_or] at hnd
      simp only [Rep, addr_node, addr_nil, color_node, color_nil] at hT hNl hNr
      have h_g_p : g ≠ p ∧ p ≠ g := by
        first
        | exact ne_pair (by simp only [hnd, not_false_eq_true])
        | exact (ne_pair (by simp only [hnd, not_false_eq_true])).symm
      have h_g_n : g ≠ n ∧ n ≠ g := by
        first
        | exact ne_pair (by simp only [hnd, not_false_eq_true])
        | exact (ne_pair (by simp only [hnd, not_false_eq_true])).symm
      have h_g_nl : g ≠ nl ∧ nl ≠ g := by
        first
        | exact ne_pair (by simp only [hnd, not_false_eq_true])
        | exact (ne_pair (by simp only [hnd, not_false_eq_true])).symm
      have h_p_n : p ≠ n ∧ n ≠ p := by
        first
        | exact ne_pair (by simp only [hnd, not_false_eq_true])
        | exact (ne_pair (by simp only [hnd, not_false_eq_true])).symm
      have h_p_nl : p ≠ nl ∧ nl ≠ p := by
        first
        | exact ne_pair (by simp only [hnd, not_false_eq_true])
        | exact (ne_pair (by simp only [hnd, not_false_eq_true])).symm
      have h_n_nl : n ≠ nl ∧ nl ≠ n := by
        first
        | exact ne_pair (by simp only [hnd, not_false_eq_true])
        | exact (ne_pair (by simp only [hnd, not_false_eq_true])).symm
      have h0_nl : nl ≠ 0 := by simp only [hT, ne_eq, not_false_eq_true]
      simp only [chx_rb_parent, chx_rb_set_parent_color, chx_rb_set_parent, chx_rb_color, chx_rb_set_black, store_pc_pc, store_left_pc, store_right_pc,
            store_pc_left, store_pc_right, store_left_left, store_left_right, store_right_left,
            store_right_right, call_mem, change_child_pc,
            hT, h_g_p, h_g_n, h_g_nl, h_p_n, h_p_nl, h_n_nl, h0_nl, hpw, ne_eq, not_false_eq_true, not_true_eq_false, if_true, if_false,
            ite_true, ite_false, addr_node, addr_nil]
      refine WF_change_child_eq (T := .node cg (.node cp A p (.node cn (.node cNl Nll nl Nlr) n .nil)) g U)
        (U := .node cg (.node .red A p (.node cNl Nll nl Nlr)) n (.node .red .nil g U)) hk hnd0 hT.1 (by simp) ?_ ?_ ?_ ?_
      · simp
      · intro x hx
        have f0 : x ≠ g := frame_ne hnd0 hx (by simp [Tree.inorder])
        have f1 : x ≠ p := frame_ne hnd0 hx (by simp [Tree.inorder])
        have f2 : x ≠ n := frame_ne hnd0 hx (by simp [Tree.inorder])
        have f3 : x ≠ nl := frame_ne hnd0 hx (by simp [Tree.inorder])
        simp [store_pc_mem_ne, store_left_mem_ne, store_right_mem_ne, f0, f1, f2, f3]
      · simp [Rep, Rep_store_pc, Rep_store_left, Rep_store_right,
          CHX_RB_RED, CHX_RB_BLACK, hT, hnd, h_g_p, h_g_n, h_g_nl, h_p_n, h_p_nl, h_n_nl, h0_nl, hNl, hNr]
      · simp [Tree.inorder]
    | node cNr Nrl nr Nrr =>
      simp only [Tree.inorder, List.nodup_append, List.nodup_cons, List.disjoint_append_left,
            List.disjoint_append_right, List.disjoint_cons_left, List.disjoint_cons_right,
            List.mem_append, List.mem_cons, not_or] at hnd
      simp only [Rep, addr_node, addr_nil, color_node, color_nil] at hT hNl hNr
      have h_g_p : g ≠ p ∧ p ≠ g := by
        first
        | exact ne_pair (by simp only [hnd, not_false_eq_true])
        | exact (ne_pair (by simp only [hnd, not_false_eq_true])).symm
      have h_g_n : g ≠ n ∧ n ≠ g := by
        first
        | exact ne_pair (by simp only [hnd, not_false_eq_true])
        | exact (ne_pair (by simp only [hnd, not_false_eq_true])).symm
      have h_g_nl : g ≠ nl ∧ nl ≠ g := by
        first
        | exact ne_pair (by simp only [hnd, not_false_eq_true])
        | exact (ne_pair (by simp only [hnd, not_false_eq_true])).symm
      have h_g_nr : g ≠ nr ∧ nr ≠ g := by
        first
        | exact ne_pair (by simp only [hnd, not_false_eq_true])
        | exact (ne_pair (by simp only [hnd, not_false_eq_true])).symm
      have h_p_n : p ≠ n ∧ n ≠ p := by
        first
        | exact ne_pair (by simp only [hnd, not_false_eq_true])
        | exact (ne_pair (by simp only [hnd, not_false_eq_true])).symm
      have h_p_nl : p ≠ nl ∧ nl ≠ p := by
        first
        | exact ne_pair (by simp only [hnd, not_false_eq_true])
        | exact (ne_pair (by simp only [hnd, not_false_eq_true])).symm
      have h_p_nr : p ≠ nr ∧ nr ≠ p := by
        first
        | exact ne_pair (by simp only [hnd, not_false_eq_true])
        | exact (ne_pair (by simp only [hnd, not_false_eq_true])).symm
      have h_n_nl : n ≠ nl ∧ nl ≠ n := by
        first
        | exact ne_pair (by simp only [hnd, not_false_eq_true])
        | exact (ne_pair (by simp only [hnd, not_false_eq_true])).symm
      have h_n_nr : n ≠ nr ∧ nr ≠ n := by
        first
        | exact ne_pair (by simp only [hnd, not_false_eq_true])
        | exact (ne_pair (by simp only [hnd, not_false_eq_true])).symm
      have h_nl_nr : nl ≠ nr ∧ nr ≠ nl := by
        first
        | exact ne_pair (by simp only [hnd, not_false_eq_true])
        | exact (ne_pair (by simp only [hnd, not_false_eq_true])).symm
      have h0_nl : nl ≠ 0 := by simp only [hT, ne_eq, not_false_eq_true]
      have h0_nr : nr ≠ 0 := by simp only [hT, ne_eq, not_false_eq_true]
      simp only [chx_rb_parent, chx_rb_set_parent_color, chx_rb_set_parent, chx_rb_color, chx_rb_set_black, store_pc_pc, store_left_pc, store_right_pc,
            store_pc_left, store_pc_right, store_left_left, store_left_right, store_right_left,
            store_right_right, call_mem, change_child_pc,
            hT, h_g_p, h_g_n, h_g_nl, h_g_nr, h_p_n, h_p_nl, h_p_nr, h_n_nl, h_n_nr, h_nl_nr, h0_nl, h0_nr, hpw, ne_eq, not_false_eq_true, not_true_eq_false, if_true, if_false,
            ite_true, ite_false, addr_node, addr_nil]
      refine WF_change_child_eq (T := .node cg (.node cp A p (.node cn (.node cNl Nll nl Nlr) n (.node cNr Nrl nr Nrr))) g U)
        (U := .node cg (.node .red A p (.node cNl Nll nl Nlr)) n (.node .red (.node cNr Nrl nr Nrr) g U)) hk hnd0 hT.1 (by simp) ?_ ?_ ?_ ?_
      · simp
      · intro x hx
        have f0 : x ≠ g := frame_ne hnd0 hx (by simp [Tree.inorder])
        have f1 : x ≠ p := frame_ne hnd0 hx (by simp [Tree.inorder])
        have f2 : x ≠ n := frame_ne hnd0 hx (by simp [Tree.inorder])
        have f3 : x ≠ nl := frame_ne hnd0 hx (by simp [Tree.inorder])
        have f4 : x ≠ nr := frame_ne hnd0 hx (by simp [Tree.inorder])
        simp [store_pc_mem_ne, store_left_mem_ne, store_right_mem_ne, f0, f1, f2, f3, f4]
      · simp [Rep, Rep_store_pc, Rep_store_left, Rep_store_right,
          CHX_RB_RED, CHX_RB_BLACK, hT, hnd, h_g_p, h_g_n, h_g_nl, h_g_nr, h_p_n, h_p_nl, h_p_nr, h_n_nl, h_n_nr, h_nl_nr, h0_nl, h0_nr, hNl, hNr]
      · simp [Tree.inorder]

theorem insert_case3_right_spec (rot : Callback α) {s : State α} {k : Ctx} {cg cp : Color}
    {N B U : Tree} {p g : Nat}
    (h : WF s (plug k (.node cg U g (.node cp B p N))))
    (hB : B.color = .black) :
    WF (insert_case3_right rot s g p B.addr) (plug k (.node cg (.node .red U g B) p N)) := by
  rw [WF_plug'] at h
  obtain ⟨hk, hT, hnd⟩ := h
  have hpar := RepCtx_ctxAddr_aligned hk
  have hnd0 := hnd
  have hpw := parent_of_word cg hpar
  simp only [insert_case3_right, __chx_rb_rotate_set_parents, WF_call]
  cases B with
  | nil =>
    simp only [Tree.inorder, List.nodup_append, List.nodup_cons, List.disjoint_append_left,
          List.disjoint_append_right, List.disjoint_cons_left, List.disjoint_cons_right,
          List.mem_append, List.mem_cons, not_or] at hnd
    simp only [Rep, addr_node, addr_nil, color_node, color_nil] at hT hB
    have h_g_p : g ≠ p ∧ p ≠ g := by
      first
      | exact ne_pair (by simp only [hnd, not_false_eq_true])
      | exact (ne_pair (by simp only [hnd, not_false_eq_true])).symm
    simp only [chx_rb_parent, chx_rb_set_parent_color, chx_rb_set_parent, chx_rb_color, chx_rb_set_black, store_pc_pc, store_left_pc, store_right_pc,
          store_pc_left, store_pc_right, store_left_left, store_left_right, store_right_left,
          store_right_right, call_mem, change_child_pc,
          hT, h_g_p, hpw, ne_eq, not_false_eq_true, not_true_eq_false, if_true, if_false,
          ite_true, ite_false, addr_node, addr_nil]
    refine WF_change_child_eq (T := .node cg U g (.node cp .nil p N))
      (U := .node cg (.node .red U g .nil) p N) hk hnd0 hT.1 (by simp) ?_ ?_ ?_ ?_
    · simp
    · intro x hx
      have f0 : x ≠ g := frame_ne hnd0 hx (by simp [Tree.inorder])
      have f1 : x ≠ p := frame_ne hnd0 hx (by simp [Tree.inorder])
      simp [store_pc_mem_ne, store_left_mem_ne, store_right_mem_ne, f0, f1]
    · simp [Rep, Rep_store_pc, Rep_store_left, Rep_store_right,
        CHX_RB_RED, CHX_RB_BLACK, hT, hnd, h_g_p, hB]
    · simp [Tree.inorder]
  | node cB Bl b Br =>
    simp only [Tree.inorder, List.nodup_append, List.nodup_cons, List.disjoint_append_left,
          List.disjoint_append_right, List.disjoint_cons_left, List.disjoint_cons_right,
          List.mem_append, List.mem_cons, not_or] at hnd
    simp only [Rep, addr_node, addr_nil, color_node, color_nil] at hT hB
    have h_g_p : g ≠ p ∧ p ≠ g := by
      first
      | exact ne_pair (by simp only [hnd, not_false_eq_true])
      | exact (ne_pair (by simp only [hnd, not_false_eq_true])).symm
    have h_g_b : g ≠ b ∧ b ≠ g := by
      first
      | exact ne_pair (by simp only [hnd, not_false_eq_true])
      | exact (ne_pair (by simp only [hnd, not_false_eq_true])).symm
    have h_p_b : p ≠ b ∧ b ≠ p := by
      first
      | exact ne_pair (by simp only [hnd, not_false_eq_true])
      | exact (ne_pair (by simp only [hnd, not_false_eq_true])).symm
    have h0_b : b ≠ 0 := by simp only [hT, ne_eq, not_false_eq_true]
    simp only [chx_rb_parent, chx_rb_set_parent_color, chx_rb_set_parent, chx_rb_color, chx_rb_set_black, store_pc_pc, store_left_pc, store_right_pc,
          store_pc_left, store_pc_right, store_left_left, store_left_right, store_right_left,
          store_right_right, call_mem, change_child_pc,
          hT, h_g_p, h_g_b, h_p_b, h0_b, hpw, ne_eq, not_false_eq_true, not_true_eq_false, if_true, if_false,
          ite_true, ite_false, addr_node, addr_nil]
    refine WF_change_child_eq (T := .node cg U g (.node cp (.node cB Bl b Br) p N))
      (U := .node cg (.node .red U g (.node cB Bl b Br)) p N) hk hnd0 hT.1 (by simp) ?_ ?_ ?_ ?_
    · simp
    · intro x hx
      have f0 : x ≠ g := frame_ne hnd0 hx (by simp [Tree.inorder])
      have f1 : x ≠ p := frame_ne hnd0 hx (by simp [Tree.inorder])
      have f2 : x ≠ b := frame_ne hnd0 hx (by simp [Tree.inorder])
      simp [store_pc_mem_ne, store_left_mem_ne, store_right_mem_ne, f0, f1, f2]
    · simp [Rep, Rep_store_pc, Rep_store_left, Rep_store_right,
        CHX_RB_RED, CHX_RB_BLACK, hT, hnd, h_g_p, h_g_b, h_p_b, h0_b, hB]
    · simp [Tree.inorder]

theorem insert_case23_right_spec (rot : Callback α) {s : State α} {k : Ctx} {cg cp cn : Color}
    {A Nl Nr U : Tree} {p g n : Nat}
    (h : WF s (plug k (.node cg U g (.node cp (.node cn Nl n Nr) p A))))
    (hNl : Nl.color = .black)
    (hNr : Nr.color = .black) :
    WF (insert_case3_right rot (insert_case2_right rot s n p).1 g n
      (insert_case2_right rot s n p).2) (plug k (.node cg (.node .red U g Nl) n (.node .red Nr p A))) := by
  rw [WF_plug'] at h
  obtain ⟨hk, hT, hnd⟩ := h
  have hpar := RepCtx_ctxAddr_aligned hk
  have hnd0 := hnd
  have hpw := parent_of_word cg hpar
  simp only [insert_case3_right, insert_case2_right, __chx_rb_rotate_set_parents, WF_call]
  cases Nl with
  | nil =>
    cases Nr with
    | nil =>
      simp only [Tree.inorder, List.nodup_append, List.nodup_cons, List.disjoint_append_left,
            List.disjoint_append_right, List.disjoint_cons_left, List.disjoint_cons_right,
            List.mem_append, List.mem_cons, not_or] at hnd
      simp only [Rep, addr_node, addr_nil, color_node, color_nil] at hT hNl hNr
      have h_g_p : g ≠ p ∧ p ≠ g := by
        first
        | exact ne_pair (by simp only [hnd, not_false_eq_true])
        | exact (ne_pair (by simp only [hnd, not_false_eq_true])).symm
      have h_g_n : g ≠ n ∧ n ≠ g := by
        first
        | exact ne_pair (by simp only [hnd, not_false_eq_true])
        | exact (ne_pair (by simp only [hnd, not_false_eq_true])).symm
      have h_p_n : p ≠ n ∧ n ≠ p := by
        first
        | exact ne_pair (by simp only [hnd, not_false_eq_true])
        | exact (ne_pair (by simp only [hnd, not_false_eq_true])).symm
      simp only [chx_rb_parent, chx_rb_set_parent_color, chx_rb_set_parent, chx_rb_color, chx_rb_set_black, store_pc_pc, store_left_pc, store_right_pc,
            store_pc_left, store_pc_right, store_left_left, store_left_right, store_right_left,
            store_right_right, call_mem, change_child_pc,
            hT, h_g_p, h_g_n, h_p_n, hpw, ne_eq, not_false_eq_true, not_true_eq_false, if_true, if_false,
            ite_true, ite_false, addr_node, addr_nil]
      refine WF_change_child_eq (T := .node cg U g (.node cp (.node cn .nil n .nil) p A))
        (U := .node cg (.node .red U g .nil) n (.node .red .nil p A)) hk hnd0 hT.1 (by simp) ?_ ?_ ?_ ?_
      · simp
      · intro x hx
        have f0 : x ≠ g := frame_ne hnd0 hx (by simp [Tree.inorder])
        have f1 : x ≠ p := frame_ne hnd0 hx (by simp [Tree.inorder])
        have f2 : x ≠ n := frame_ne hnd0 hx (by simp [Tree.inorder])
        simp [store_pc_mem_ne, store_left_mem_ne, store_right_mem_ne, f0, f1, f2]
      · simp [Rep, Rep_store_pc, Rep_store_left, Rep_store_right,
          CHX_RB_RED, CHX_RB_BLACK, hT, hnd, h_g_p, h_g_n, h_p_n, hNl, hNr]
      · simp [Tree.inorder]
    | node cNr Nrl nr Nrr =>
      simp only [Tree.inorder, List.nodup_append, List.nodup_cons, List.disjoint_append_left,
            List.disjoint_append_right, List.disjoint_cons_left, List.disjoint_cons_right,
            List.mem_append, List.mem_cons, not_or] at hnd
      simp only [Rep, addr_node, addr_nil, color_node, color_nil] at hT hNl hNr
      have h_g_p : g ≠ p ∧ p ≠ g := by
        first
        | exact ne_pair (by simp only [hnd, not_false_eq_true])
        | exact (ne_pair (by simp only [hnd, not_false_eq_true])).symm
      have h_g_n : g ≠ n ∧ n ≠ g := by
        first
        | exact ne_pair (by simp only [hnd, not_false_eq_true])
        | exact (ne_pair (by simp only [hnd, not_false_eq_true])).symm
      have h_g_nr : g ≠ nr ∧ nr ≠ g := by
        first
        | exact ne_pair (by simp only [hnd, not_false_eq_true])
        | exact (ne_pair (by simp only [hnd, not_false_eq_true])).symm
      have h_p_n : p ≠ n ∧ n ≠ p := by
        first
        | exact ne_pair (by simp only [hnd, not_false_eq_true])
        | exact (ne_pair (by simp only [hnd, not_false_eq_true])).symm
      have h_p_nr : p ≠ nr ∧ nr ≠ p := by
        first
        | exact ne_pair (by simp only [hnd, not_false_eq_true])
        | exact (ne_pair (by simp only [hnd, not_false_eq_true])).symm
      have h_n_nr : n ≠ nr ∧ nr ≠ n := by
        first
        | exact ne_pair (by simp only [hnd, not_false_eq_true])
        | exact (ne_pair (by simp only [hnd, not_false_eq_true])).symm
      have h0_nr : nr ≠ 0 := by simp only [hT, ne_eq, not_false_eq_true]
      simp only [chx_rb_parent, chx_rb_set_parent_color, chx_rb_set_parent, chx_rb_color, chx_rb_set_black, store_pc_pc, store_left_pc, store_right_pc,
            store_pc_left, store_pc_right, store_left_left, store_left_right, store_right_left,
            store_right_right, call_mem, change_child_pc,
            hT, h_g_p, h_g_n, h_g_nr, h_p_n, h_p_nr, h_n_nr, h0_nr, hpw, ne_eq, not_false_eq_true, not_true_eq_false, if_true, if_false,
            ite_true, ite_false, addr_node, addr_nil]
      refine WF_change_child_eq (T := .node cg U g (.node cp (.node cn .nil n (.node cNr Nrl nr Nrr)) p A))
        (U := .node cg (.node .red U g .nil) n (.node .red (.node cNr Nrl nr Nrr) p A)) hk hnd0 hT.1 (by simp) ?_ ?_ ?_ ?_
      · simp
      · intro x hx
        have f0 : x ≠ g := frame_ne hnd0 hx (by simp [Tree.inorder])
        have f1 : x ≠ p := frame_ne hnd0 hx (by simp [Tree.inorder])
        have f2 : x ≠ n := frame_ne hnd0 hx (by simp [Tree.inorder])
        have f3 : x ≠ nr := frame_ne hnd0 hx (by simp [Tree.inorder])
        simp [store_pc_mem_ne, store_left_mem_ne, store_right_mem_ne, f0, f1, f2, f3]
      · simp [Rep, Rep_store_pc, Rep_store_left, Rep_store_right,
          CHX_RB_RED, CHX_RB_BLACK, hT, hnd, h_g_p, h_g_n, h_g_nr, h_p_n, h_p_nr, h_n_nr, h0_nr, hNl, hNr]
      · simp [Tree.inorder]
  | node cNl Nll nl Nlr =>
    cases Nr with
    | nil =>
      simp only [Tree.inorder, List.nodup_append, List.nodup_cons, List.disjoint_append_left,
            List.disjoint_append_right, List.disjoint_cons_left, List.disjoint_cons_right,
            List.mem_append, List.mem_cons, not_or] at hnd
      simp only [Rep, addr_node, addr_nil, color_node, color_nil] at hT hNl hNr
      have h_g_p : g ≠ p ∧ p ≠ g := by
        first
        | exact ne_pair (by simp only [hnd, not_false_eq_true])
        | exact (ne_pair (by simp only [hnd, not_false_eq_true])).symm
      have h_g_n : g ≠ n ∧ n ≠ g := by
        first
        | exact ne_pair (by simp only [hnd, not_false_eq_true])
        | exact (ne_pair (by simp only [hnd, not_false_eq_true])).symm
      have h_g_nl : g ≠ nl ∧ nl ≠ g := by
        first
        | exact ne_pair (by simp only [hnd, not_false_eq_true])
        | exact (ne_pair (by simp only [hnd, not_false_eq_true])).symm
      have h_p_n : p ≠ n ∧ n ≠ p := by
        first
        | exact ne_pair (by simp only [hnd, not_false_eq_true])
        | exact (ne_pair (by simp only [hnd, not_false_eq_true])).symm
      have h_p_nl : p ≠ nl ∧ nl ≠ p := by
        first
        | exact ne_pair (by simp only [hnd, not_false_eq_true])
        | exact (ne_pair (by simp only [hnd, not_false_eq_true])).symm
      have h_n_nl : n ≠ nl ∧ nl ≠ n := by
        first
        | exact ne_pair (by simp only [hnd, not_false_eq_true])
        | exact (ne_pair (by simp only [hnd, not_false_eq_true])).symm
      have h0_nl : nl ≠ 0 := by simp only [hT, ne_eq, not_false_eq_true]
      simp only [chx_rb_parent, chx_rb_set_parent_color, chx_rb_set_parent, chx_rb_color, chx_rb_set_black, store_pc_pc, store_left_pc, store_right_pc,
            store_pc_left, store_pc_right, store_left_left, store_left_right, store_right_left,
            store_right_right, call_mem, change_child_pc,
            hT, h_g_p, h_g_n, h_g_nl, h_p_n, h_p_nl, h_n_nl, h0_nl, hpw, ne_eq, not_false_eq_true, not_true_eq_false, if_true, if_false,
            ite_true, ite_false, addr_node, addr_nil]
      refine WF_change_child_eq (T := .node cg U g (.node cp (.node cn (.node cNl Nll nl Nlr) n .nil) p A))
        (U := .node cg (.node .red U g (.node cNl Nll nl Nlr)) n (.node .red .nil p A)) hk hnd0 hT.1 (by simp) ?_ ?_ ?_ ?_
      · simp
      · intro x hx
        have f0 : x ≠ g := frame_ne hnd0 hx (by simp [Tree.inorder])
        have f1 : x ≠ p := frame_ne hnd0 hx (by simp [Tree.inorder])
        have f2 : x ≠ n := frame_ne hnd0 hx (by simp [Tree.inorder])
        have f3 : x ≠ nl := frame_ne hnd0 hx (by simp [Tree.inorder])
        simp [store_pc_mem_ne, store_left_mem_ne, store_right_mem_ne, f0, f1, f2, f3]
      · simp [Rep, Rep_store_pc, Rep_store_left, Rep_store_right,
          CHX_RB_RED, CHX_RB_BLACK, hT, hnd, h_g_p, h_g_n, h_g_nl, h_p_n, h_p_nl, h_n_nl, h0_nl, hNl, hNr]
      · simp [Tree.inorder]
    | node cNr Nrl nr Nrr =>
      simp only [Tree.inorder, List.nodup_append, List.nodup_cons, List.disjoint_append_left,
            List.disjoint_append_right, List.disjoint_cons_left, List.disjoint_cons_right,
            List.mem_append, List.mem_cons, not_or] at hnd
      simp only [Rep, addr_node, addr_nil, color_node, color_nil] at hT hNl hNr
      have h_g_p : g ≠ p ∧ p ≠ g := by
        first
        | exact ne_pair (by simp only [hnd, not_false_eq_true])
        | exact (ne_pair (by simp only [hnd, not_false_eq_true])).symm
      have h_g_n : g ≠ n ∧ n ≠ g := by
        first
        | exact ne_pair (by simp only [hnd, not_false_eq_true])
        | exact (ne_pair (by simp only [hnd, not_false_eq_true])).symm
      have h_g_nl : g ≠ nl ∧ nl ≠ g := by
        first
        | exact ne_pair (by simp only [hnd, not_false_eq_true])
        | exact (ne_pair (by simp only [hnd, not_false_eq_true])).symm
      have h_g_nr : g ≠ nr ∧ nr ≠ g := by
        first
        | exact ne_pair (by simp only [hnd, not_false_eq_true])
        | exact (ne_pair (by simp only [hnd, not_false_eq_true])).symm
      have h_p_n : p ≠ n ∧ n ≠ p := by
        first
        | exact ne_pair (by simp only [hnd, not_false_eq_true])
        | exact (ne_pair (by simp only [hnd, not_false_eq_true])).symm
      have h_p_nl : p ≠ nl ∧ nl ≠ p := by
        first
        | exact ne_pair (by simp only [hnd, not_false_eq_true])
        | exact (ne_pair (by simp only [hnd, not_false_eq_true])).symm
      have h_p_nr : p ≠ nr ∧ nr ≠ p := by
        first
        | exact ne_pair (by simp only [hnd, not_false_eq_true])
        | exact (ne_pair (by simp only [hnd, not_false_eq_true])).symm
      have h_n_nl : n ≠ nl ∧ nl ≠ n := by
        first
        | exact ne_pair (by simp only [hnd, not_false_eq_true])
        | exact (ne_pair (by simp only [hnd, not_false_eq_true])).symm
      have h_n_nr : n ≠ nr ∧ nr ≠ n := by
        first
        | exact ne_pair (by simp only [hnd, not_false_eq_true])
        | exact (ne_pair (by simp only [hnd, not_false_eq_true])).symm
      have h_nl_nr : nl ≠ nr ∧ nr ≠ nl := by
        first
        | exact ne_pair (by simp only [hnd, not_false_eq_true])
        | exact (ne_pair (by simp only [hnd, not_false_eq_true])).symm
      have h0_nl : nl ≠ 0 := by simp only [hT, ne_eq, not_false_eq_true]
      have h0_nr : nr ≠ 0 := by simp only [hT, ne_eq, not_false_eq_true]
      simp only [chx_rb_parent, chx_rb_set_parent_color, chx_rb_set_parent, chx_rb_color, chx_rb_set_black, store_pc_pc, store_left_pc, store_right_pc,
            store_pc_left, store_pc_right, store_left_left, store_left_right, store_right_left,
            store_right_right, call_mem, change_child_pc,
            hT, h_g_p, h_g_n, h_g_nl, h_g_nr, h_p_n, h_p_nl, h_p_nr, h_n_nl, h_n_nr, h_nl_nr, h0_nl, h0_nr, hpw, ne_eq, not_false_eq_true, not_true_eq_false, if_true, if_false,
            ite_true, ite_false, addr_node, addr_nil]
      refine WF_change_child_eq (T := .node cg U g (.node cp (.node cn (.node cNl Nll nl Nlr) n (.node cNr Nrl nr Nrr)) p A))
        (U := .node cg (.node .red U g (.node cNl Nll nl Nlr)) n (.node .red (.node cNr Nrl nr Nrr) p A)) hk hnd0 hT.1 (by simp) ?_ ?_ ?_ ?_
      · simp
      · intro x hx
        have f0 : x ≠ g := frame_ne hnd0 hx (by simp [Tree.inorder])
        have f1 : x ≠ p := frame_ne hnd0 hx (by simp [Tree.inorder])
        have f2 : x ≠ n := frame_ne hnd0 hx (by simp [Tree.inorder])
        have f3 : x ≠ nl := frame_ne hnd0 hx (by simp [Tree.inorder])
        have f4 : x ≠ nr := frame_ne hnd0 hx (by simp [Tree.inorder])
        simp [store_pc_mem_ne, store_left_mem_ne, store_right_mem_ne, f0, f1, f2, f3, f4]
      · simp [Rep, Rep_store_pc, Rep_store_left, Rep_store_right,
          CHX_RB_RED, CHX_RB_BLACK, hT, hnd, h_g_p, h_g_n, h_g_nl, h_g_nr, h_p_n, h_p_nl, h_p_nr, h_n_nl, h_n_nr, h_nl_nr, h0_nl, h0_nr, hNl, hNr]
      · simp [Tree.inorder]


theorem ne_addr {t : Tree} {a : Nat} (h0 : a ≠ 0) (h : a ∉ t.inorder) : a ≠ t.addr := by
  cases t with
  | nil => simpa using h0
  | node c l b r =>
    simp only [Tree.inorder, List.mem_append, List.mem_cons, not_or] at h
    simpa using h.2.1

theorem topColorOK_black (k : Ctx) : topColorOK .black k := by
  cases k with
  | nil => rfl
  | cons f k => intro h; cases h

theorem is_black_of_word {s : State α} {a par : Nat} {c : Color} (hp : par % 4 = 0)
    (h : (s.mem a).__rb_parent_color = par + c.bit) :
    chx_rb_is_black s a = decide (c = .black) := by
  rw [chx_rb_is_black, h, is_black_word c hp]

theorem is_red_of_word {s : State α} {a par : Nat} {c : Color} (hp : par % 4 = 0)
    (h : (s.mem a).__rb_parent_color = par + c.bit) :
    chx_rb_is_red s a = decide (c = .red) := by
  rw [chx_rb_is_red, h, is_red_word c hp]

theorem color_black_of_ne_red {c : Color} (h : c ≠ .red) : c = .black := by
  cases c
  · exact absurd rfl h
  · rfl

theorem is_red_addr {s : State α} {t : Tree} {par : Nat} (h : Rep s.mem t par)
    (hp : par % 4 = 0) :
    (t.addr ≠ 0 ∧ chx_rb_is_red s t.addr = true) ↔ t.color = .red := by
  cases t with
  | nil => simp
  | node c l a r =>
    simp only [Rep] at h
    simp [is_red_of_word hp h.2.2.1, h.1]

theorem is_black_addr {s : State α} {t : Tree} {par : Nat} (h : Rep s.mem t par)
    (hp : par % 4 = 0) :
    (t.addr = 0 ∨ chx_rb_is_black s t.addr = true) ↔ t.color = .black := by
  cases t with
  | nil => simp
  | node c l a r =>
    simp only [Rep] at h
    simp [is_black_of_word hp h.2.2.1, h.1]

/-! ## Insert fix-up: one iteration of the loop on each shape -/

theorem insert_step_case1_left (rot : Callback α) {s : State α} {k : Ctx} {A B Ul Ur : Tree}
    {n p g u : Nat} (fuel : Nat)
    (h : WF s (plug k (.node .black (.node .red A p B) g (.node .red Ul u Ur)))) :
    __chx_rb_insert_loop rot (fuel + 1) s n p =
      __chx_rb_insert_loop rot fuel (insert_case1 s g p u).1 g (insert_case1 s g p u).2 := by
  obtain ⟨hk, hT, hnd⟩ := WF_plug'.1 h
  simp only [Tree.inorder, List.nodup_append, List.nodup_cons, List.disjoint_append_left,
    List.disjoint_append_right, List.disjoint_cons_left, List.disjoint_cons_right,
    List.mem_append, List.mem_cons, not_or] at hnd
  simp only [Rep, addr_node, bit_red, bit_black, Nat.add_zero] at hT
  have hp0 : p ≠ 0 := by simp only [hT, ne_eq, not_false_eq_true]
  have hu0 : u ≠ 0 := by simp only [hT, ne_eq, not_false_eq_true]
  have hg4 : g % 4 = 0 := hT.2.1
  have h_p_u : p ≠ u ∧ u ≠ p := by
    first
    | exact ne_pair (by simp only [hnd, not_false_eq_true])
    | exact (ne_pair (by simp only [hnd, not_false_eq_true])).symm
  have hpb : chx_rb_is_black s p = false := by
    rw [is_black_of_word (c := .red) hg4 (by simp [hT])]; rfl
  have hur : chx_rb_is_red s u = true := by
    rw [is_red_of_word (c := .red) hg4 (by simp [hT])]; rfl
  rw [__chx_rb_insert_loop]
  simp [hp0, hpb, chx_rb_red_parent, hT, h_p_u, hu0, hur]

theorem insert_step_case3_left (rot : Callback α) {s : State α} {k : Ctx} {L R B U : Tree}
    {n p g : Nat} (fuel : Nat)
    (h : WF s (plug k (.node .black (.node .red (.node .red L n R) p B) g U)))
    (hU : U.color = .black) :
    __chx_rb_insert_loop rot (fuel + 1) s n p =
      some (insert_case3_left rot s g p B.addr) := by
  obtain ⟨hk, hT, hnd⟩ := WF_plug'.1 h
  simp only [Tree.inorder, List.nodup_append, List.nodup_cons, List.disjoint_append_left,
    List.disjoint_append_right, List.disjoint_cons_left, List.disjoint_cons_right,
    List.mem_append, List.mem_cons, not_or] at hnd
  simp only [Rep, addr_node, bit_red, bit_black, Nat.add_zero] at hT
  have hp0 : p ≠ 0 := by simp only [hT, ne_eq, not_false_eq_true]
  have hn0 : n ≠ 0 := by simp only [hT, ne_eq, not_false_eq_true]
  have hg4 : g % 4 = 0 := hT.2.1
  have hpU : p ≠ U.addr := ne_addr hp0 (by simp only [hnd, not_false_eq_true])
  have hnB : n ≠ B.addr := ne_addr hn0 (by simp only [hnd, not_false_eq_true])
  have hpb : chx_rb_is_black s p = false := by
    rw [is_black_of_word (c := .red) hg4 (by simp [hT])]; rfl
  have hUr : ¬(U.addr ≠ 0 ∧ chx_rb_is_red s U.addr = true) := by
    rw [is_red_addr hT.2.2.2.2.2.2 hg4, hU]; simp
  rw [__chx_rb_insert_loop]
  simp only [hp0, hpb, chx_rb_red_parent, hT, if_false, Bool.false_eq_true, ne_eq, hpU,
    not_false_eq_true, if_true, hnB]
  rw [if_neg hUr]

theorem insert_step_case23_left (rot : Callback α) {s : State α} {k : Ctx} {L R A U : Tree}
    {n p g : Nat} (fuel : Nat)
    (h : WF s (plug k (.node .black (.node .red A p (.node .red L n R)) g U)))
    (hU : U.color = .black) :
    __chx_rb_insert_loop rot (fuel + 1) s n p =
      some (insert_case3_left rot (insert_case2_left rot s n p).1 g n
        (insert_case2_left rot s n p).2) := by
  obtain ⟨hk, hT, hnd⟩ := WF_plug'.1 h
  simp only [Tree.inorder, List.nodup_append, List.nodup_cons, List.disjoint_append_left,
    List.disjoint_append_right, List.disjoint_cons_left, List.disjoint_cons_right,
    List.mem_append, List.mem_cons, not_or] at hnd
  simp only [Rep, addr_node, bit_red, bit_black, Nat.add_zero] at hT
  have hp0 : p ≠ 0 := by simp only [hT, ne_eq, not_false_eq_true]
  have hg4 : g % 4 = 0 := hT.2.1
  have hpU : p ≠ U.addr := ne_addr hp0 (by simp only [hnd, not_false_eq_true])
  have hpb : chx_rb_is_black s p = false := by
    rw [is_black_of_word (c := .red) hg4 (by simp [hT])]; rfl
  have hUr : ¬(U.addr ≠ 0 ∧ chx_rb_is_red s U.addr = true) := by
    rw [is_red_addr hT.2.2.2.2.2.2 hg4, hU]; simp
  rw [__chx_rb_insert_loop]
  simp only [hp0, hpb, chx_rb_red_parent, hT, if_false, Bool.false_eq_true, ne_eq, hpU,
    not_false_eq_true, if_true]
  rw [if_neg hUr]

theorem insert_step_case1_right (rot : Callback α) {s : State α} {k : Ctx} {A B Ul Ur : Tree}
    {n p g u : Nat} (fuel : Nat)
    (h : WF s (plug k (.node .black (.node .red Ul u Ur) g (.node .red A p B)))) :
    __chx_rb_insert_loop rot (fuel + 1) s n p =
      __chx_rb_insert_loop rot fuel (insert_case1 s g p u).1 g (insert_case1 s g p u).2 := by
  obtain ⟨hk, hT, hnd⟩ := WF_plug'.1 h
  simp only [Rep, addr_node, bit_red, bit_black, Nat.add_zero] at hT
  have hp0 : p ≠ 0 := by simp only [hT, ne_eq, not_false_eq_true]
  have hu0 : u ≠ 0 := by simp only [hT, ne_eq, not_false_eq_true]
  have hg4 : g % 4 = 0 := hT.2.1
  have hpb : chx_rb_is_black s p = false := by
    rw [is_black_of_word (c := .red) hg4 (by simp [hT])]; rfl
  have hur : chx_rb_is_red s u = true := by
    rw [is_red_of_word (c := .red) hg4 (by simp [hT])]; rfl
  rw [__chx_rb_insert_loop]
  simp [hp0, hpb, chx_rb_red_parent, hT, hu0, hur]

theorem insert_step_case3_right (rot : Callback α) {s : State α} {k : Ctx} {L R B U : Tree}
    {n p g : Nat} (fuel : Nat)
    (h : WF s (plug k (.node .black U g (.node .red B p (.node .red L n R)))))
    (hU : U.color = .black) :
    __chx_rb_insert_loop rot (fuel + 1) s n p =
      some (insert_case3_right rot s g p B.addr) := by
  obtain ⟨hk, hT, hnd⟩ := WF_plug'.1 h
  simp only [Tree.inorder, List.nodup_append, List.nodup_cons, List.disjoint_append_left,
    List.disjoint_append_right, List.disjoint_cons_left, List.disjoint_cons_right,
    List.mem_append, List.mem_cons, not_or] at hnd
  simp only [Rep, addr_node, bit_red, bit_black, Nat.add_zero] at hT
  have hp0 : p ≠ 0 := by simp only [hT, ne_eq, not_false_eq_true]
  have hn0 : n ≠ 0 := by simp only [hT, ne_eq, not_false_eq_true]
  have hg4 : g % 4 = 0 := hT.2.1
  have hnB : n ≠ B.addr := ne_addr hn0 (by simp only [hnd, not_false_eq_true])
  have hpb : chx_rb_is_black s p = false := by
    rw [is_black_of_word (c := .red) hg4 (by simp [hT])]; rfl
  have hUr : ¬(U.addr ≠ 0 ∧ chx_rb_is_red s U.addr = true) := by
    rw [is_red_addr hT.2.2.2.2.2.1 hg4, hU]; simp
  rw [__chx_rb_insert_loop]
  simp only [hp0, hpb, chx_rb_red_parent, hT, if_false, Bool.false_eq_true, ne_eq,
    not_true_eq_false, not_false_eq_true, if_true, hnB]
  rw [if_neg hUr]

theorem insert_step_case23_right (rot : Callback α) {s : State α} {k : Ctx} {L R A U : Tree}
    {n p g : Nat} (fuel : Nat)
    (h : WF s (plug k (.node .black U g (.node .red (.node .red L n R) p A))))
    (hU : U.color = .black) :
    __chx_rb_insert_loop rot (fuel + 1) s n p =
      some (insert_case3_right rot (insert_case2_right rot s n p).1 g n
        (insert_case2_right rot s n p).2) := by
  obtain ⟨hk, hT, hnd⟩ := WF_plug'.1 h
  simp only [Rep, addr_node, bit_red, bit_black, Nat.add_zero] at hT
  have hp0 : p ≠ 0 := by simp only [hT, ne_eq, not_false_eq_true]
  have hg4 : g % 4 = 0 := hT.2.1
  have hpb : chx_rb_is_black s p = false := by
    rw [is_black_of_word (c := .red) hg4 (by simp [hT])]; rfl
  have hUr : ¬(U.addr ≠ 0 ∧ chx_rb_is_red s U.addr = true) := by
    rw [is_red_addr hT.2.2.2.2.2.1 hg4, hU]; simp
  rw [__chx_rb_insert_loop]
  simp only [hp0, hpb, chx_rb_red_parent, hT, if_false, Bool.false_eq_true, ne_eq,
    not_true_eq_false, not_false_eq_true, if_true]
  rw [if_neg hUr]

/-- The insert fix-up loop, started at a red node `n` in a context that
satisfies the colour invariants, terminates and restores them. -/
theorem insert_loop_spec (rot : Callback α) : ∀ (fuel : Nat) (k : Ctx) (L R : Tree) (n : Nat)
    (s : State α), k.length < 2 * fuel → WF s (plug k (.node .red L n R)) →
    (Tree.node .red L n R).Valid → CtxOK k L.bh →
    ∃ s' t', __chx_rb_insert_loop rot fuel s n (ctxAddr 0 k) = some s' ∧ WF s' t' ∧ t'.RB ∧
      t'.inorder = (plug k (.node .red L n R)).inorder := by
  intro fuel
  induction fuel with
  | zero => intro k L R n s hlen; omega
  | succ fuel ih =>
    intro k L R n s hlen h hv hk
    rw [Valid_node] at hv
    obtain ⟨hv1, hv2, hv3, hv4⟩ := hv
    obtain ⟨hLc, hRc⟩ := hv1 rfl
    cases k with
    | nil =>
      refine ⟨chx_rb_set_parent_color s n 0 CHX_RB_BLACK, .node .black L n R, ?_, ?_, ?_, rfl⟩
      · simp [__chx_rb_insert_loop, ctxAddr]
      · obtain ⟨h1, h2, h3⟩ := h
        simp only [plug] at h1 h2 h3
        simp only [Tree.inorder, List.nodup_append, List.nodup_cons] at h3
        refine ⟨h1, ?_, by simpa [plug, Tree.inorder, List.nodup_append] using h3⟩
        exact Rep_reparent h2 (by tauto) (by tauto) (by simp [chx_rb_set_parent_color, CHX_RB_BLACK])
          (by simp [chx_rb_set_parent_color]) (by simp [chx_rb_set_parent_color])
          (fun x hx => by simp [chx_rb_set_parent_color, store_pc_mem_ne hx])
      · rw [RB_iff, Valid_node]
        exact ⟨rfl, by simp, hv2, hv3, hv4⟩
    | cons f k =>
      have hparent : ctxAddr 0 (f :: k) = f.addr := rfl
      have hw := WF_plug'.1 h
      obtain ⟨hwk, hwT, hwnd⟩ := hw
      have hf0 : f.addr ≠ 0 := by cases f <;> exact hwk.1
      have hfpc : (s.mem f.addr).__rb_parent_color = ctxAddr 0 k + f.color.bit := by
        cases f <;> exact hwk.2.2.1
      have hk4 : ctxAddr 0 k % 4 = 0 := by
        cases f
        · exact RepCtx_ctxAddr_aligned hwk.2.2.2.2.2.2
        · exact RepCtx_ctxAddr_aligned hwk.2.2.2.2.2.2
      have hblack := is_black_of_word hk4 hfpc
      by_cases hfc : f.color = .black
      · -- the parent is black: nothing to do
        refine ⟨s, _, ?_, h, ?_, rfl⟩
        · rw [__chx_rb_insert_loop]
          simp [hparent, hf0, hblack, hfc]
        · rw [RB_plug]
          refine ⟨Valid_node.2 ⟨fun _ => ⟨hLc, hRc⟩, hv2, hv3, hv4⟩, by simpa using hk, ?_⟩
          intro _
          exact hfc
      · have hfr : f.color = .red := by
          cases hc : f.color
          · rfl
          · exact absurd hc hfc
        cases k with
        | nil =>
          cases f <;> simp only [CtxOK, topColorOK, Frame.color] at hk hfr <;>
            (subst hfr; exact absurd hk.2.2.2.1 (by simp))
        | cons f2 k2 =>
          have hf2b : f2.color = .black := by
            cases f <;> simp only [CtxOK, topColorOK, Frame.color] at hk hfr <;>
              (subst hfr; exact hk.2.2.2.1 rfl)
          simp only [List.length_cons] at hlen
          clear hwk hwT hwnd hblack hfpc hf0 hk4 hparent
          cases f2 with
          | left cg g U =>
            simp only [Frame.color] at hf2b
            subst hf2b
            cases f with
            | left cp p B =>
              simp only [Frame.color] at hfr
              subst hfr
              simp only [CtxOK, bit_red, bit_black, Nat.add_zero] at hk
              obtain ⟨hB1, hB2, hB3, -, hU1, hU2, -, hU4, hU5⟩ := hk
              have hBc := hB3 trivial
              cases hUcol : U.color with
              | red =>
                cases U with
                | nil => simp at hUcol
                | node cu Ul u Ur =>
                  simp only [color_node] at hUcol
                  subst hUcol
                  rw [Valid_node] at hU2
                  obtain ⟨hU2a, hU2b, hU2c, hU2d⟩ := hU2
                  simp only [bh_node, bit_red, Nat.add_zero] at hU1
                  have h' : WF s (plug k2 (.node .black (.node .red (.node .red L n R) p B) g (.node .red Ul u Ur))) := h
                  obtain ⟨hs1, hs2⟩ := insert_case1_left_spec h'
                  have hio : (plug k2 (.node .red (.node .black (.node .red L n R) p B) g (.node .black Ul u Ur))).inorder = (plug k2 (.node .black (.node .red (.node .red L n R) p B) g (.node .red Ul u Ur))).inorder := by
                    simp [inorder_plug, Tree.inorder]
                  obtain ⟨s', t', e1, e2, e3, e4⟩ := ih k2 (.node .black (.node .red L n R) p B) (.node .black Ul u Ur) g _ (by omega) hs1
                    (by simp [Valid_node, hv3, hv4, hLc, hRc, hB2, hBc, hU2c, hU2d, hU2a] <;> omega)
                    (by simp only [bh_node, bit_red, bit_black, Nat.add_zero]; first | exact hU5 | (rw [hB1]; exact hU5) | (rw [hU1]; exact hU5))
                  refine ⟨s', t', ?_, e2, e3, e4.trans hio⟩
                  simp only [ctxAddr, Frame.addr]
                  rw [insert_step_case1_left rot fuel h', hs2]
                  exact e1
              | black =>
                have hUc := hUcol
                have h' : WF s (plug k2 (.node .black (.node .red (.node .red L n R) p B) g U)) := h
                have hs := insert_case3_left_spec rot h' hBc
                have hio : (plug k2 (.node .black (.node .red L n R) p (.node .red B g U))).inorder = (plug k2 (.node .black (.node .red (.node .red L n R) p B) g U)).inorder := by
                  simp [inorder_plug, Tree.inorder]
                refine ⟨_, _, insert_step_case3_left rot fuel h' hUc, hs, ?_, hio⟩
                rw [RB_plug]
                refine ⟨?_, ?_, topColorOK_black k2⟩
                · simp [Valid_node, hv3, hv4, hLc, hRc, hB2, hBc, hU2, hUc] <;> omega
                · exact (by simp only [bh_node, bit_red, bit_black, Nat.add_zero]; first | exact hU5 | (rw [hB1]; exact hU5) | (rw [hU1]; exact hU5))
            | right cp B p =>
              simp only [Frame.color] at hfr
              subst hfr
              simp only [CtxOK, bit_red, bit_black, Nat.add_zero] at hk
              obtain ⟨hB1, hB2, hB3, -, hU1, hU2, -, hU4, hU5⟩ := hk
              have hBc := hB3 trivial
              cases hUcol : U.color with
              | red =>
                cases U with
                | nil => simp at hUcol
                | node cu Ul u Ur =>
                  simp only [color_node] at hUcol
                  subst hUcol
                  rw [Valid_node] at hU2
                  obtain ⟨hU2a, hU2b, hU2c, hU2d⟩ := hU2
                  simp only [bh_node, bit_red, Nat.add_zero] at hU1
                  have h' : WF s (plug k2 (.node .black (.node .red B p (.node .red L n R)) g (.node .red Ul u Ur))) := h
                  obtain ⟨hs1, hs2⟩ := insert_case1_left_spec h'
                  have hio : (plug k2 (.node .red (.node .black B p (.node .red L n R)) g (.node .black Ul u Ur))).inorder = (plug k2 (.node .black (.node .red B p (.node .red L n R)) g (.node .red Ul u Ur))).inorder := by
                    simp [inorder_plug, Tree.inorder]
                  obtain ⟨s', t', e1, e2, e3, e4⟩ := ih k2 (.node .black B p (.node .red L n R)) (.node .black Ul u Ur) g _ (by omega) hs1
                    (by simp [Valid_node, hv3, hv4, hLc, hRc, hB2, hBc, hU2c, hU2d, hU2a] <;> omega)
                    (by simp only [bh_node, bit_red, bit_black, Nat.add_zero]; first | exact hU5 | (rw [hB1]; exact hU5) | (rw [hU1]; exact hU5))
                  refine ⟨s', t', ?_, e2, e3, e4.trans hio⟩
                  simp only [ctxAddr, Frame.addr]
                  rw [insert_step_case1_left rot fuel h', hs2]
                  exact e1
              | black =>
                have hUc := hUcol
                have h' : WF s (plug k2 (.node .black (.node .red B p (.node .red L n R)) g U)) := h
                have hs := insert_case23_left_spec rot h' hLc hRc
                have hio : (plug k2 (.node .black (.node .red B p L) n (.node .red R g U))).inorder = (plug k2 (.node .black (.node .red B p (.node .red L n R)) g U)).inorder := by
                  simp [inorder_plug, Tree.inorder]
                refine ⟨_, _, insert_step_case23_left rot fuel h' hUc, hs, ?_, hio⟩
                rw [RB_plug]
                refine ⟨?_, ?_, topColorOK_black k2⟩
                · simp [Valid_node, hv3, hv4, hLc, hRc, hB2, hBc, hU2, hUc] <;> omega
                · exact (by simp only [bh_node, bit_red, bit_black, Nat.add_zero]; first | exact hU5 | (rw [hB1]; exact hU5) | (rw [hU1]; exact hU5))
          | right cg U g =>
            simp only [Frame.color] at hf2b
            subst hf2b
            cases f with
            | left cp p B =>
              simp only [Frame.color] at hfr
              subst hfr
              simp only [CtxOK, bit_red, bit_black, Nat.add_zero] at hk
              obtain ⟨hB1, hB2, hB3, -, hU1, hU2, -, hU4, hU5⟩ := hk
              have hBc := hB3 trivial
              cases hUcol : U.color with
              | red =>
                cases U with
                | nil => simp at hUcol
                | node cu Ul u Ur =>
                  simp only [color_node] at hUcol
                  subst hUcol
                  rw [Valid_node] at hU2
                  obtain ⟨hU2a, hU2b, hU2c, hU2d⟩ := hU2
                  simp only [bh_node, bit_red, Nat.add_zero] at hU1
                  have h' : WF s (plug k2 (.node .black (.node .red Ul u Ur) g (.node .red (.node .red L n R) p B))) := h
                  obtain ⟨hs1, hs2⟩ := insert_case1_right_spec h'
                  have hio : (plug k2 (.node .red (.node .black Ul u Ur) g (.node .black (.node .red L n R) p B))).inorder = (plug k2 (.node .black (.node .red Ul u Ur) g (.node .red (.node .red L n R) p B))).inorder := by
                    simp [inorder_plug, Tree.inorder]
                  obtain ⟨s', t', e1, e2, e3, e4⟩ := ih k2 (.node .black Ul u Ur) (.node .black (.node .red L n R) p B) g _ (by omega) hs1
                    (by simp [Valid_node, hv3, hv4, hLc, hRc, hB2, hBc, hU2c, hU2d, hU2a] <;> omega)
                    (by simp only [bh_node, bit_red, bit_black, Nat.add_zero]; first | exact hU5 | (rw [hB1]; exact hU5) | (rw [hU1]; exact hU5))
                  refine ⟨s', t', ?_, e2, e3, e4.trans hio⟩
                  simp only [ctxAddr, Frame.addr]
                  rw [insert_step_case1_right rot fuel h', hs2]
                  exact e1
              | black =>
                have hUc := hUcol
                have h' : WF s (plug k2 (.node .black U g (.node .red (.node .red L n R) p B))) := h
                have hs := insert_case23_right_spec rot h' hLc hRc
                have hio : (plug k2 (.node .black (.node .red U g L) n (.node .red R p B))).inorder = (plug k2 (.node .black U g (.node .red (.node .red L n R) p B))).inorder := by
                  simp [inorder_plug, Tree.inorder]
                refine ⟨_, _, insert_step_case23_right rot fuel h' hUc, hs, ?_, hio⟩
                rw [RB_plug]
                refine ⟨?_, ?_, topColorOK_black k2⟩
                · simp [Valid_node, hv3, hv4, hLc, hRc, hB2, hBc, hU2, hUc] <;> omega
                · exact (by simp only [bh_node, bit_red, bit_black, Nat.add_zero]; first | exact hU5 | (rw [hB1]; exact hU5) | (rw [hU1]; exact hU5))
            | right cp B p =>
              simp only [Frame.color] at hfr
              subst hfr
              simp only [CtxOK, bit_red, bit_black, Nat.add_zero] at hk
              obtain ⟨hB1, hB2, hB3, -, hU1, hU2, -, hU4, hU5⟩ := hk
              have hBc := hB3 trivial
              cases hUcol : U.color with
              | red =>
                cases U with
                | nil => simp at hUcol
                | node cu Ul u Ur =>
                  simp only [color_node] at hUcol
                  subst hUcol
                  rw [Valid_node] at hU2
                  obtain ⟨hU2a, hU2b, hU2c, hU2d⟩ := hU2
                  simp only [bh_node, bit_red, Nat.add_zero] at hU1
                  have h' : WF s (plug k2 (.node .black (.node .red Ul u Ur) g (.node .red B p (.node .red L n R)))) := h
                  obtain ⟨hs1, hs2⟩ := insert_case1_right_spec h'
                  have hio : (plug k2 (.node .red (.node .black Ul u Ur) g (.node .black B p (.node .red L n R)))).inorder = (plug k2 (.node .black (.node .red Ul u Ur) g (.node .red B p (.node .red L n R)))).inorder := by
                    simp [inorder_plug, Tree.inorder]
                  obtain ⟨s', t', e1, e2, e3, e4⟩ := ih k2 (.node .black Ul u Ur) (.node .black B p (.node .red L n R)) g _ (by omega) hs1
                    (by simp [Valid_node, hv3, hv4, hLc, hRc, hB2, hBc, hU2c, hU2d, hU2a] <;> omega)
                    (by simp only [bh_node, bit_red, bit_black, Nat.add_zero]; first | exact hU5 | (rw [hB1]; exact hU5) | (rw [hU1]; exact hU5))
                  refine ⟨s', t', ?_, e2, e3, e4.trans hio⟩
                  simp only [ctxAddr, Frame.addr]
                  rw [insert_step_case1_right rot fuel h', hs2]
                  exact e1
              | black =>
                have hUc := hUcol
                have h' : WF s (plug k2 (.node .black U g (.node .red B p (.node .red L n R)))) := h
                have hs := insert_case3_right_spec rot h' hBc
                have hio : (plug k2 (.node .black (.node .red U g B) p (.node .red L n R))).inorder = (plug k2 (.node .black U g (.node .red B p (.node .red L n R)))).inorder := by
                  simp [inorder_plug, Tree.inorder]
                refine ⟨_, _, insert_step_case3_right rot fuel h' hUc, hs, ?_, hio⟩
                rw [RB_plug]
                refine ⟨?_, ?_, topColorOK_black k2⟩
                · simp [Valid_node, hv3, hv4, hLc, hRc, hB2, hBc, hU2, hUc] <;> omega
                · exact (by simp only [bh_node, bit_red, bit_black, Nat.add_zero]; first | exact hU5 | (rw [hB1]; exact hU5) | (rw [hU1]; exact hU5))


/-! ## Linking a fresh node -/

theorem mem_split_plug : ∀ (t : Tree) (a : Nat), a ∈ t.inorder →
    ∃ k c l r, t = plug k (.node c l a r)
  | .nil, a, h => by simp [Tree.inorder] at h
  | .node c l b r, a, h => by
    simp only [Tree.inorder, List.mem_append, List.mem_cons] at h
    rcases h with h | h | h
    · obtain ⟨k, c', l', r', e⟩ := mem_split_plug l a h
      exact ⟨k ++ [.left c b r], c', l', r', by rw [plug_append, ← e]; rfl⟩
    · subst h
      exact ⟨[], c, l, r, rfl⟩
    · obtain ⟨k, c', l', r', e⟩ := mem_split_plug r a h
      exact ⟨k ++ [.right c l b], c', l', r', by rw [plug_append, ← e]; rfl⟩

theorem ctxLink_load {s : State α} {k : Ctx} {p : Nat}
    (h : RepCtx s.mem s.rb_node 0 k p) : s.load_link (ctxLink k) = p := by
  cases k with
  | nil => exact h
  | cons f k =>
    cases f with
    | left c a r => exact h.2.2.2.1
    | right c l a => exact h.2.2.2.2.1

/-- A null slot of a represented tree is the hole of a context. -/
theorem NullSlot.ctx {s : State α} {t : Tree} {parent : Nat} {link : Link}
    (hwf : WF s t) (h : NullSlot s t parent link) :
    ∃ k, t = plug k .nil ∧ ctxAddr 0 k = parent ∧ ctxLink k = link := by
  cases link with
  | root =>
    obtain ⟨h1, h2⟩ := h
    refine ⟨[], ?_, h1.symm, rfl⟩
    have : t.addr = 0 := hwf.1 ▸ h2
    exact (Rep_addr_eq_zero hwf.2.1).1 this
  | left a =>
    obtain ⟨h1, h2, h3⟩ := h
    obtain ⟨k, c, l, r, e⟩ := mem_split_plug t a h2
    subst e
    obtain ⟨hk, hT, -⟩ := WF_plug'.1 hwf
    have hl : l = .nil := (Rep_addr_eq_zero hT.2.2.2.2.2.1).1 (hT.2.2.2.1 ▸ h3)
    subst hl
    exact ⟨.left c a r :: k, rfl, h1.symm, rfl⟩
  | right a =>
    obtain ⟨h1, h2, h3⟩ := h
    obtain ⟨k, c, l, r, e⟩ := mem_split_plug t a h2
    subst e
    obtain ⟨hk, hT, -⟩ := WF_plug'.1 hwf
    have hr : r = .nil := (Rep_addr_eq_zero hT.2.2.2.2.2.2).1 (hT.2.2.2.2.1 ▸ h3)
    subst hr
    exact ⟨.right c l a :: k, rfl, h1.symm, rfl⟩

/-- Storing through the link above the hole of a context. -/
theorem RepCtx_store_link {s : State α} {k : Ctx} {old new : Nat}
    (hk : RepCtx s.mem s.rb_node 0 k old) (hnd : (ctxNodes k).Nodup) :
    RepCtx (s.store_link (ctxLink k) new).mem (s.store_link (ctxLink k) new).rb_node 0 k new := by
  cases k with
  | nil => simp [State.store_link, ctxLink, RepCtx]
  | cons f k =>
    cases f with
    | left c a r =>
      obtain ⟨h1, h2, h3, h4, h5, h6, h7⟩ := hk
      rw [nodup_ctxNodes_left] at hnd
      obtain ⟨n1, n2, n3, n4, n5⟩ := hnd
      simp only [State.store_link, ctxLink]
      refine ⟨h1, h2, by simpa using h3, by simp, by simpa using h5, ?_, ?_⟩
      · exact (Rep_store_left n1).2 h6
      · simpa using (RepCtx_store_left n2).2 h7
    | right c l a =>
      obtain ⟨h1, h2, h3, h4, h5, h6, h7⟩ := hk
      rw [nodup_ctxNodes_right] at hnd
      obtain ⟨n1, n2, n3, n4, n5⟩ := hnd
      simp only [State.store_link, ctxLink]
      refine ⟨h1, h2, by simpa using h3, by simpa using h4, by simp, ?_, ?_⟩
      · exact (Rep_store_right n1).2 h6
      · simpa using (RepCtx_store_right n2).2 h7

theorem store_link_mem_ne {s : State α} {k : Ctx} {v x : Nat} (h : x ∉ ctxNodes k) :
    (s.store_link (ctxLink k) v).mem x = s.mem x := by
  cases k with
  | nil => rfl
  | cons f k =>
    cases f with
    | left c a r =>
      exact store_left_mem_ne (fun e => h (by rw [mem_ctxNodes_left]; exact Or.inl e))
    | right c l a =>
      exact store_right_mem_ne (fun e => h (by rw [mem_ctxNodes_right]; exact Or.inl e))

/-- Function `chx_rb_link_node` puts a red leaf into the hole. -/
theorem link_node_spec {s : State α} {k : Ctx} {node : Nat}
    (h : WF s (plug k .nil)) (hn0 : node ≠ 0) (hn4 : node % 4 = 0)
    (hfresh : node ∉ (plug k .nil).inorder) :
    WF (chx_rb_link_node s node (ctxAddr 0 k) (ctxLink k))
      (plug k (.node .red .nil node .nil)) := by
  obtain ⟨hk, -, hnd⟩ := WF_plug'.1 h
  simp only [Tree.inorder, List.nil_append] at hnd
  have hfr : node ∉ ctxNodes k := by
    intro hx
    exact hfresh ((inorder_plug_perm k .nil).mem_iff.2 (by simpa [Tree.inorder] using hx))
  rw [WF_plug']
  refine ⟨?_, ?_, ?_⟩
  · simp only [chx_rb_link_node, addr_node]
    have h1 : RepCtx (((s.store_pc node (ctxAddr 0 k)).store_right node 0).store_left node 0).mem
        (((s.store_pc node (ctxAddr 0 k)).store_right node 0).store_left node 0).rb_node 0 k 0 := by
      rw [RepCtx_store_left hfr, RepCtx_store_right hfr, RepCtx_store_pc hfr]
      exact hk
    exact RepCtx_store_link h1 hnd
  · simp only [chx_rb_link_node, Rep, addr_nil, bit_red, Nat.add_zero, and_true]
    rw [store_link_mem_ne hfr]
    simp [hn0, hn4]
  · simpa [Tree.inorder] using ⟨hfr, hnd⟩

theorem plug_height : ∀ (k : Ctx) (t : Tree), k.length + t.height ≤ (plug k t).height
  | [], t => by simp [plug]
  | .left c a r :: k, t => by
    have := plug_height k (.node c t a r)
    simp only [plug, List.length_cons, Tree.height] at this ⊢
    omega
  | .right c l a :: k, t => by
    have := plug_height k (.node c l a t)
    simp only [plug, List.length_cons, Tree.height] at this ⊢
    omega

/-- Linking a fresh node into the hole of a context and running the insert
fix-up: the result is a red-black tree with the node at that position. -/
theorem insert_color_spec {s : State α} {k : Ctx} {node : Nat} (rot : Callback α) (fuel : Nat)
    (h : WF s (plug k .nil)) (hrb : (plug k .nil).RB)
    (hn0 : node ≠ 0) (hn4 : node % 4 = 0) (hfresh : node ∉ (plug k .nil).inorder)
    (hfuel : (plug k .nil).height < fuel) :
    ∃ s' t', __chx_rb_insert rot fuel (chx_rb_link_node s node (ctxAddr 0 k) (ctxLink k)) node
        = some s' ∧ WF s' t' ∧ t'.RB ∧
      t'.inorder = ctxBefore k ++ node :: ctxAfter k := by
  have hl := link_node_spec h hn0 hn4 hfresh
  obtain ⟨hv, hk, -⟩ := (RB_plug k .nil).1 hrb
  have hlen : k.length < 2 * fuel := by
    have := plug_height k .nil
    omega
  obtain ⟨s', t', e1, e2, e3, e4⟩ := insert_loop_spec rot fuel k .nil .nil node _ hlen hl
    (Valid_node.2 ⟨fun _ => ⟨rfl, rfl⟩, rfl, Valid_nil, Valid_nil⟩) hk
  refine ⟨s', t', ?_, e2, e3, by simpa [inorder_plug, Tree.inorder] using e4⟩
  rw [__chx_rb_insert]
  have hpar : chx_rb_red_parent (chx_rb_link_node s node (ctxAddr 0 k) (ctxLink k)) node
      = ctxAddr 0 k := by
    obtain ⟨-, hT, -⟩ := WF_plug'.1 hl
    simpa [chx_rb_red_parent] using hT.2.2.1
  rw [hpar]
  exact e1


/-! ## Erase fix-up: the blocks -/

theorem erase_case1_left_spec (rot : Callback α) {s : State α} {k : Ctx} {cp cs csl : Color}
    {N Sll Slr Sr : Tree} {p sx sl : Nat}
    (h : WF s (plug k (.node cp N p (.node cs (.node csl Sll sl Slr) sx Sr)))) :
    WF ((erase_case1_left rot s p sx).1) (plug k (.node cp (.node .red N p (.node .black Sll sl Slr)) sx Sr)) := by
  rw [WF_plug'] at h
  obtain ⟨hk, hT, hnd⟩ := h
  have hpar := RepCtx_ctxAddr_aligned hk
  have hnd0 := hnd
  have hpw := parent_of_word cp hpar
  try simp only [erase_case1_left, __chx_rb_rotate_set_parents, WF_call]
  simp only [Tree.inorder, List.nodup_append, List.nodup_cons, List.disjoint_append_left,
        List.disjoint_append_right, List.disjoint_cons_left, List.disjoint_cons_right,
        List.mem_append, List.mem_cons, not_or] at hnd
  simp only [Rep, addr_node, addr_nil, color_node, color_nil] at hT
  have h_p_sx : p ≠ sx ∧ sx ≠ p := by
    first
    | exact ne_pair (by simp only [hnd, not_false_eq_true])
    | exact (ne_pair (by simp only [hnd, not_false_eq_true])).symm
  have h_p_sl : p ≠ sl ∧ sl ≠ p := by
    first
    | exact ne_pair (by simp only [hnd, not_false_eq_true])
    | exact (ne_pair (by simp only [hnd, not_false_eq_true])).symm
  have h_sx_sl : sx ≠ sl ∧ sl ≠ sx := by
    first
    | exact ne_pair (by simp only [hnd, not_false_eq_true])
    | exact (ne_pair (by simp only [hnd, not_false_eq_true])).symm
  simp only [chx_rb_parent, chx_rb_set_parent_color, chx_rb_set_parent, chx_rb_color, chx_rb_set_black, store_pc_pc, store_left_pc, store_right_pc,
        store_pc_left, store_pc_right, store_left_left, store_left_right, store_right_left,
        store_right_right, call_mem, change_child_pc,
        hT, h_p_sx, h_p_sl, h_sx_sl, hpw, ne_eq, not_false_eq_true, not_true_eq_false, if_true, if_false,
        ite_true, ite_false, addr_node, addr_nil]
  refine WF_change_child_eq (T := .node cp N p (.node cs (.node csl Sll sl Slr) sx Sr))
    (U := .node cp (.node .red N p (.node .black Sll sl Slr)) sx Sr) hk hnd0 hT.1 (by simp) ?_ ?_ ?_ ?_
  · simp
  · intro x hx
    have f0 : x ≠ p := frame_ne hnd0 hx (by simp [Tree.inorder])
    have f1 : x ≠ sx := frame_ne hnd0 hx (by simp [Tree.inorder])
    have f2 : x ≠ sl := frame_ne hnd0 hx (by simp [Tree.inorder])
    simp [store_pc_mem_ne, store_left_mem_ne, store_right_mem_ne, f0, f1, f2]
  · simp [Rep, Rep_store_pc, Rep_store_left, Rep_store_right,
      CHX_RB_RED, CHX_RB_BLACK, hT, hnd, h_p_sx, h_p_sl, h_sx_sl]
  · simp [Tree.inorder]

theorem erase_case1_right_spec (rot : Callback α) {s : State α} {k : Ctx} {cp cs csr : Color}
    {N Srl Srr Sl : Tree} {p sx sr : Nat}
    (h : WF s (plug k (.node cp (.node cs Sl sx (.node csr Srl sr Srr)) p N))) :
    WF ((erase_case1_right rot s p sx).1) (plug k (.node cp Sl sx (.node .red (.node .black Srl sr Srr) p N))) := by
  rw [WF_plug'] at h
  obtain ⟨hk, hT, hnd⟩ := h
  have hpar := RepCtx_ctxAddr_aligned hk
  have hnd0 := hnd
  have hpw := parent_of_word cp hpar
  try simp only [erase_case1_right, __chx_rb_rotate_set_parents, WF_call]
  simp only [Tree.inorder, List.nodup_append, List.nodup_cons, List.disjoint_append_left,
        List.disjoint_append_right, List.disjoint_cons_left, List.disjoint_cons_right,
        List.mem_append, List.mem_cons, not_or] at hnd
  simp only [Rep, addr_node, addr_nil, color_node, color_nil] at hT
  have h_p_sx : p ≠ sx ∧ sx ≠ p := by
    first
    | exact ne_pair (by simp only [hnd, not_false_eq_true])
    | exact (ne_pair (by simp only [hnd, not_false_eq_true])).symm
  have h_p_sr : p ≠ sr ∧ sr ≠ p := by
    first
    | exact ne_pair (by simp only [hnd, not_false_eq_true])
    | exact (ne_pair (by simp only [hnd, not_false_eq_true])).symm
  have h_sx_sr : sx ≠ sr ∧ sr ≠ sx := by
    first
    | exact ne_pair (by simp only [hnd, not_false_eq_true])
    | exact (ne_pair (by simp only [hnd, not_false_eq_true])).symm
  simp only [chx_rb_parent, chx_rb_set_parent_color, chx_rb_set_parent, chx_rb_color, chx_rb_set_black, store_pc_pc, store_left_pc, store_right_pc,
        store_pc_left, store_pc_right, store_left_left, store_left_right, store_right_left,
        store_right_right, call_mem, change_child_pc,
        hT, h_p_sx, h_p_sr, h_sx_sr, hpw, ne_eq, not_false_eq_true, not_true_eq_false, if_true, if_false,
        ite_true, ite_false, addr_node, addr_nil]
  refine WF_change_child_eq (T := .node cp (.node cs Sl sx (.node csr Srl sr Srr)) p N)
    (U := .node cp Sl sx (.node .red (.node .black Srl sr Srr) p N)) hk hnd0 hT.1 (by simp) ?_ ?_ ?_ ?_
  · simp
  · intro x hx
    have f0 : x ≠ p := frame_ne hnd0 hx (by simp [Tree.inorder])
    have f1 : x ≠ sx := frame_ne hnd0 hx (by simp [Tree.inorder])
    have f2 : x ≠ sr := frame_ne hnd0 hx (by simp [Tree.inorder])
    simp [store_pc_mem_ne, store_left_mem_ne, store_right_mem_ne, f0, f1, f2]
  · simp [Rep, Rep_store_pc, Rep_store_left, Rep_store_right,
      CHX_RB_RED, CHX_RB_BLACK, hT, hnd, h_p_sx, h_p_sr, h_sx_sr]
  · simp [Tree.inorder]

theorem erase_case2_left_spec {s : State α} {k : Ctx} {c cs : Color}
    {N Sl Sr : Tree} {p sx : Nat}
    (h : WF s (plug k (.node c N p (.node cs Sl sx Sr)))) :
    WF (chx_rb_set_parent_color s sx p CHX_RB_RED) (plug k (.node c N p (.node .red Sl sx Sr))) := by
  rw [WF_plug'] at h
  obtain ⟨hk, hT, hnd⟩ := h
  have hpar := RepCtx_ctxAddr_aligned hk
  have hnd0 := hnd
  have hpw := parent_of_word c hpar
  try simp only [__chx_rb_rotate_set_parents, WF_call]
  simp only [Tree.inorder, List.nodup_append, List.nodup_cons, List.disjoint_append_left,
        List.disjoint_append_right, List.disjoint_cons_left, List.disjoint_cons_right,
        List.mem_append, List.mem_cons, not_or] at hnd
  simp only [Rep, addr_node, addr_nil, color_node, color_nil] at hT
  have h_p_sx : p ≠ sx ∧ sx ≠ p := by
    first
    | exact ne_pair (by simp only [hnd, not_false_eq_true])
    | exact (ne_pair (by simp only [hnd, not_false_eq_true])).symm
  simp only [chx_rb_parent, chx_rb_set_parent_color, chx_rb_set_parent, chx_rb_color, chx_rb_set_black, store_pc_pc, store_left_pc, store_right_pc,
        store_pc_left, store_pc_right, store_left_left, store_left_right, store_right_left,
        store_right_right, call_mem, change_child_pc,
        hT, h_p_sx, hpw, ne_eq, not_false_eq_true, not_true_eq_false, if_true, if_false,
        ite_true, ite_false, addr_node, addr_nil]
  refine WF_local_eq (T := .node c N p (.node cs Sl sx Sr))
    (U := .node c N p (.node .red Sl sx Sr)) hk hnd0 ?_ ?_ ?_ ?_ ?_
  · simp
  · intro x hx
    have f0 : x ≠ p := frame_ne hnd0 hx (by simp [Tree.inorder])
    have f1 : x ≠ sx := frame_ne hnd0 hx (by simp [Tree.inorder])
    simp [store_pc_mem_ne, store_left_mem_ne, store_right_mem_ne, f0, f1]
  · simp [Rep, Rep_store_pc, Rep_store_left, Rep_store_right,
      CHX_RB_RED, CHX_RB_BLACK, hT, hnd, h_p_sx]
  · rfl
  · simp [Tree.inorder]

theorem erase_case2_left_red_spec {s : State α} {k : Ctx} {cs : Color}
    {N Sl Sr : Tree} {p sx : Nat}
    (h : WF s (plug k (.node .red N p (.node cs Sl sx Sr)))) :
    WF (chx_rb_set_black (chx_rb_set_parent_color s sx p CHX_RB_RED) p) (plug k (.node .black N p (.node .red Sl sx Sr))) := by
  rw [WF_plug'] at h
  obtain ⟨hk, hT, hnd⟩ := h
  have hpar := RepCtx_ctxAddr_aligned hk
  have hnd0 := hnd
  have hpw := parent_of_word .red hpar
  try simp only [__chx_rb_rotate_set_parents, WF_call]
  simp only [Tree.inorder, List.nodup_append, List.nodup_cons, List.disjoint_append_left,
        List.disjoint_append_right, List.disjoint_cons_left, List.disjoint_cons_right,
        List.mem_append, List.mem_cons, not_or] at hnd
  simp only [Rep, addr_node, addr_nil, color_node, color_nil] at hT
  have h_p_sx : p ≠ sx ∧ sx ≠ p := by
    first
    | exact ne_pair (by simp only [hnd, not_false_eq_true])
    | exact (ne_pair (by simp only [hnd, not_false_eq_true])).symm
  simp only [chx_rb_parent, chx_rb_set_parent_color, chx_rb_set_parent, chx_rb_color, chx_rb_set_black, store_pc_pc, store_left_pc, store_right_pc,
        store_pc_left, store_pc_right, store_left_left, store_left_right, store_right_left,
        store_right_right, call_mem, change_child_pc,
        hT, h_p_sx, hpw, ne_eq, not_false_eq_true, not_true_eq_false, if_true, if_false,
        ite_true, ite_false, addr_node, addr_nil]
  refine WF_local_eq (T := .node .red N p (.node cs Sl sx Sr))
    (U := .node .black N p (.node .red Sl sx Sr)) hk hnd0 ?_ ?_ ?_ ?_ ?_
  · simp
  · intro x hx
    have f0 : x ≠ p := frame_ne hnd0 hx (by simp [Tree.inorder])
    have f1 : x ≠ sx := frame_ne hnd0 hx (by simp [Tree.inorder])
    simp [store_pc_mem_ne, store_left_mem_ne, store_right_mem_ne, f0, f1]
  · simp [Rep, Rep_store_pc, Rep_store_left, Rep_store_right,
      CHX_RB_RED, CHX_RB_BLACK, hT, hnd, h_p_sx]
  · rfl
  · simp [Tree.inorder]

theorem erase_case2_right_spec {s : State α} {k : Ctx} {c cs : Color}
    {N Sl Sr : Tree} {p sx : Nat}
    (h : WF s (plug k (.node c (.node cs Sl sx Sr) p N))) :
    WF (chx_rb_set_parent_color s sx p CHX_RB_RED) (plug k (.node c (.node .red Sl sx Sr) p N)) := by
  rw [WF_plug'] at h
  obtain ⟨hk, hT, hnd⟩ := h
  have hpar := RepCtx_ctxAddr_aligned hk
  have hnd0 := hnd
  have hpw := parent_of_word c hpar
  try simp only [__chx_rb_rotate_set_parents, WF_call]
  simp only [Tree.inorder, List.nodup_append, List.nodup_cons, List.disjoint_append_left,
        List.disjoint_append_right, List.disjoint_cons_left, List.disjoint_cons_right,
        List.mem_append, List.mem_cons, not_or] at hnd
  simp only [Rep, addr_node, addr_nil, color_node, color_nil] at hT
  have h_p_sx : p ≠ sx ∧ sx ≠ p := by
    first
    | exact ne_pair (by simp only [hnd, not_false_eq_true])
    | exact (ne_pair (by simp only [hnd, not_false_eq_true])).symm
  simp only [chx_rb_parent, chx_rb_set_parent_color, chx_rb_set_parent, chx_rb_color, chx_rb_set_black, store_pc_pc, store_left_pc, store_right_pc,
        store_pc_left, store_pc_right, store_left_left, store_left_right, store_right_left,
        store_right_right, call_mem, change_child_pc,
        hT, h_p_sx, hpw, ne_eq, not_false_eq_true, not_true_eq_false, if_true, if_false,
        ite_true, ite_false, addr_node, addr_nil]
  refine WF_local_eq (T := .node c (.node cs Sl sx Sr) p N)
    (U := .node c (.node .red Sl sx Sr) p N) hk hnd0 ?_ ?_ ?_ ?_ ?_
  · simp
  · intro x hx
    have f0 : x ≠ p := frame_ne hnd0 hx (by simp [Tree.inorder])
    have f1 : x ≠ sx := frame_ne hnd0 hx (by simp [Tree.inorder])
    simp [store_pc_mem_ne, store_left_mem_ne, store_right_mem_ne, f0, f1]
  · simp [Rep, Rep_store_pc, Rep_store_left, Rep_store_right,
      CHX_RB_RED, CHX_RB_BLACK, hT, hnd, h_p_sx]
  · rfl
  · simp [Tree.inorder]

theorem erase_case2_right_red_spec {s : State α} {k : Ctx} {cs : Color}
    {N Sl Sr : Tree} {p sx : Nat}
    (h : WF s (plug k (.node .red (.node cs Sl sx Sr) p N))) :
    WF (chx_rb_set_black (chx_rb_set_parent_color s sx p CHX_RB_RED) p) (plug k (.node .black (.node .red Sl sx Sr) p N)) := by
  rw [WF_plug'] at h
  obtain ⟨hk, hT, hnd⟩ := h
  have hpar := RepCtx_ctxAddr_aligned hk
  have hnd0 := hnd
  have hpw := parent_of_word .red hpar
  try simp only [__chx_rb_rotate_set_parents, WF_call]
  simp only [Tree.inorder, List.nodup_append, List.nodup_cons, List.disjoint_append_left,
        List.disjoint_append_right, List.disjoint_cons_left, List.disjoint_cons_right,
        List.mem_append, List.mem_cons, not_or] at hnd
  simp only [Rep, addr_node, addr_nil, color_node, color_nil] at hT
  have h_p_sx : p ≠ sx ∧ sx ≠ p := by
    first
    | exact ne_pair (by simp only [hnd, not_false_eq_true])
    | exact (ne_pair (by simp only [hnd, not_false_eq_true])).symm
  simp only [chx_rb_parent, chx_rb_set_parent_color, chx_rb_set_parent, chx_rb_color, chx_rb_set_black, store_pc_pc, store_left_pc, store_right_pc,
        store_pc_left, store_pc_right, store_left_left, store_left_right, store_right_left,
        store_right_right, call_mem, change_child_pc,
        hT, h_p_sx, hpw, ne_eq, not_false_eq_true, not_true_eq_false, if_true, if_false,
        ite_true, ite_false, addr_node, addr_nil]
  refine WF_local_eq (T := .node .red (.node cs Sl sx Sr) p N)
    (U := .node .black (.node .red Sl sx Sr) p N) hk hnd0 ?_ ?_ ?_ ?_ ?_
  · simp
  · intro x hx
    have f0 : x ≠ p := frame_ne hnd0 hx (by simp [Tree.inorder])
    have f1 : x ≠ sx := frame_ne hnd0 hx (by simp [Tree.inorder])
    simp [store_pc_mem_ne, store_left_mem_ne, store_right_mem_ne, f0, f1]
  · simp [Rep, Rep_store_pc, Rep_store_left, Rep_store_right,
      CHX_RB_RED, CHX_RB_BLACK, hT, hnd, h_p_sx]
  · rfl
  · simp [Tree.inorder]

theorem erase_case4_left_spec (rot : Callback α) {s : State α} {k : Ctx} {c cs csr : Color}
    {N Sl Srl Srr : Tree} {p sx sr : Nat}
    (h : WF s (plug k (.node c N p (.node cs Sl sx (.node csr Srl sr Srr))))) :
    WF (erase_case4_left rot s p sx sr) (plug k (.node c (.node .black N p Sl) sx (.node .black Srl sr Srr))) := by
  rw [WF_plug'] at h
  obtain ⟨hk, hT, hnd⟩ := h
  have hpar := RepCtx_ctxAddr_aligned hk
  have hnd0 := hnd
  have hpw := parent_of_word c hpar
  try simp only [erase_case4_left, __chx_rb_rotate_set_parents, WF_call]
  cases Sl with
  | nil =>
    simp only [Tree.inorder, List.nodup_append, List.nodup_cons, List.disjoint_append_left,
          List.disjoint_append_right, List.disjoint_cons_left, List.disjoint_cons_right,
          List.mem_append, List.mem_cons, not_or] at hnd
    simp only [Rep, addr_node, addr_nil, color_node, color_nil] at hT
    have h_p_sx : p ≠ sx ∧ sx ≠ p := by
      first
      | exact ne_pair (by simp only [hnd, not_false_eq_true])
      | exact (ne_pair (by simp only [hnd, not_false_eq_true])).symm
    have h_p_sr : p ≠ sr ∧ sr ≠ p := by
      first
      | exact ne_pair (by simp only [hnd, not_false_eq_true])
      | exact (ne_pair (by simp only [hnd, not_false_eq_true])).symm
    have h_sx_sr : sx ≠ sr ∧ sr ≠ sx := by
      first
      | exact ne_pair (by simp only [hnd, not_false_eq_true])
      | exact (ne_pair (by simp only [hnd, not_false_eq_true])).symm
    simp only [chx_rb_parent, chx_rb_set_parent_color, chx_rb_set_parent, chx_rb_color, chx_rb_set_black, store_pc_pc, store_left_pc, store_right_pc,
          store_pc_left, store_pc_right, store_left_left, store_left_right, store_right_left,
          store_right_right, call_mem, change_child_pc,
          hT, h_p_sx, h_p_sr, h_sx_sr, hpw, ne_eq, not_false_eq_true, not_true_eq_false, if_true, if_false,
          ite_true, ite_false, addr_node, addr_nil, color_of_word]
    refine WF_change_child_eq (T := .node c N p (.node cs .nil sx (.node csr Srl sr Srr)))
      (U := .node c (.node .black N p .nil) sx (.node .black Srl sr Srr)) hk hnd0 hT.1 (by simp) ?_ ?_ ?_ ?_
    · simp
    · intro x hx
      have f0 : x ≠ p := frame_ne hnd0 hx (by simp [Tree.inorder])
      have f1 : x ≠ sx := frame_ne hnd0 hx (by simp [Tree.inorder])
      have f2 : x ≠ sr := frame_ne hnd0 hx (by simp [Tree.inorder])
      simp [store_pc_mem_ne, store_left_mem_ne, store_right_mem_ne, f0, f1, f2]
    · simp [Rep, Rep_store_pc, Rep_store_left, Rep_store_right,
        CHX_RB_RED, CHX_RB_BLACK, hT, hnd, h_p_sx, h_p_sr, h_sx_sr, color_of_word, Nat.add_comm]
    · simp [Tree.inorder]
  | node cSl Sll sl Slr =>
    simp only [Tree.inorder, List.nodup_append, List.nodup_cons, List.disjoint_append_left,
          List.disjoint_append_right, List.disjoint_cons_left, List.disjoint_cons_right,
          List.mem_append, List.mem_cons, not_or] at hnd
    simp only [Rep, addr_node, addr_nil, color_node, color_nil] at hT
    have h_p_sx : p ≠ sx ∧ sx ≠ p := by
      first
      | exact ne_pair (by simp only [hnd, not_false_eq_true])
      | exact (ne_pair (by simp only [hnd, not_false_eq_true])).symm
    have h_p_sr : p ≠ sr ∧ sr ≠ p := by
      first
      | exact ne_pair (by simp only [hnd, not_false_eq_true])
      | exact (ne_pair (by simp only [hnd, not_false_eq_true])).symm
    have h_p_sl : p ≠ sl ∧ sl ≠ p := by
      first
      | exact ne_pair (by simp only [hnd, not_false_eq_true])
      | exact (ne_pair (by simp only [hnd, not_false_eq_true])).symm
    have h_sx_sr : sx ≠ sr ∧ sr ≠ sx := by
      first
      | exact ne_pair (by simp only [hnd, not_false_eq_true])
      | exact (ne_pair (by simp only [hnd, not_false_eq_true])).symm
    have h_sx_sl : sx ≠ sl ∧ sl ≠ sx := by
      first
      | exact ne_pair (by simp only [hnd, not_false_eq_true])
      | exact (ne_pair (by simp only [hnd, not_false_eq_true])).symm
    have h_sr_sl : sr ≠ sl ∧ sl ≠ sr := by
      first
      | exact ne_pair (by simp only [hnd, not_false_eq_true])
      | exact (ne_pair (by simp only [hnd, not_false_eq_true])).symm
    have h0_sl : sl ≠ 0 := by simp only [hT, ne_eq, not_false_eq_true]
    simp only [chx_rb_parent, chx_rb_set_parent_color, chx_rb_set_parent, chx_rb_color, chx_rb_set_black, store_pc_pc, store_left_pc, store_right_pc,
          store_pc_left, store_pc_right, store_left_left, store_left_right, store_right_left,
          store_right_right, call_mem, change_child_pc,
          hT, h_p_sx, h_p_sr, h_p_sl, h_sx_sr, h_sx_sl, h_sr_sl, h0_sl, hpw, ne_eq, not_false_eq_true, not_true_eq_false, if_true, if_false,
          ite_true, ite_false, addr_node, addr_nil, color_of_word]
    refine WF_change_child_eq (T := .node c N p (.node cs (.node cSl Sll sl Slr) sx (.node csr Srl sr Srr)))
      (U := .node c (.node .black N p (.node cSl Sll sl Slr)) sx (.node .black Srl sr Srr)) hk hnd0 hT.1 (by simp) ?_ ?_ ?_ ?_
    · simp
    · intro x hx
      have f0 : x ≠ p := frame_ne hnd0 hx (by simp [Tree.inorder])
      have f1 : x ≠ sx := frame_ne hnd0 hx (by simp [Tree.inorder])
      have f2 : x ≠ sr := frame_ne hnd0 hx (by simp [Tree.inorder])
      have f3 : x ≠ sl := frame_ne hnd0 hx (by simp [Tree.inorder])
      simp [store_pc_mem_ne, store_left_mem_ne, store_right_mem_ne, f0, f1, f2, f3]
    · simp [Rep, Rep_store_pc, Rep_store_left, Rep_store_right,
        CHX_RB_RED, CHX_RB_BLACK, hT, hnd, h_p_sx, h_p_sr, h_p_sl, h_sx_sr, h_sx_sl, h_sr_sl, h0_sl, color_of_word, Nat.add_comm]
    · simp [Tree.inorder]

theorem erase_case4_right_spec (rot : Callback α) {s : State α} {k : Ctx} {c cs csl : Color}
    {N Sr Sll Slr : Tree} {p sx sl : Nat}
    (h : WF s (plug k (.node c (.node cs (.node csl Sll sl Slr) sx Sr) p N))) :
    WF (erase_case4_right rot s p sx sl) (plug k (.node c (.node .black Sll sl Slr) sx (.node .black Sr p N))) := by
  rw [WF_plug'] at h
  obtain ⟨hk, hT, hnd⟩ := h
  have hpar := RepCtx_ctxAddr_aligned hk
  have hnd0 := hnd
  have hpw := parent_of_word c hpar
  try simp only [erase_case4_right, __chx_rb_rotate_set_parents, WF_call]
  cases Sr with
  | nil =>
    simp only [Tree.inorder, List.nodup_append, List.nodup_cons, List.disjoint_append_left,
          List.disjoint_append_right, List.disjoint_cons_left, List.disjoint_cons_right,
          List.mem_append, List.mem_cons, not_or] at hnd
    simp only [Rep, addr_node, addr_nil, color_node, color_nil] at hT
    have h_p_sx : p ≠ sx ∧ sx ≠ p := by
      first
      | exact ne_pair (by simp only [hnd, not_false_eq_true])
      | exact (ne_pair (by simp only [hnd, not_false_eq_true])).symm
    have h_p_sl : p ≠ sl ∧ sl ≠ p := by
      first
      | exact ne_pair (by simp only [hnd, not_false_eq_true])
      | exact (ne_pair (by simp only [hnd, not_false_eq_true])).symm
    have h_sx_sl : sx ≠ sl ∧ sl ≠ sx := by
      first
      | exact ne_pair (by simp only [hnd, not_false_eq_true])
      | exact (ne_pair (by simp only [hnd, not_false_eq_true])).symm
    simp only [chx_rb_parent, chx_rb_set_parent_color, chx_rb_set_parent, chx_rb_color, chx_rb_set_black, store_pc_pc, store_left_pc, store_right_pc,
          store_pc_left, store_pc_right, store_left_left, store_left_right, store_right_left,
          store_right_right, call_mem, change_child_pc,
          hT, h_p_sx, h_p_sl, h_sx_sl, hpw, ne_eq, not_false_eq_true, not_true_eq_false, if_true, if_false,
          ite_true, ite_false, addr_node, addr_nil, color_of_word]
    refine WF_change_child_eq (T := .node c (.node cs (.node csl Sll sl Slr) sx .nil) p N)
      (U := .node c (.node .black Sll sl Slr) sx (.node .black .nil p N)) hk hnd0 hT.1 (by simp) ?_ ?_ ?_ ?_
    · simp
    · intro x hx
      have f0 : x ≠ p := frame_ne hnd0 hx (by simp [Tree.inorder])
      have f1 : x ≠ sx := frame_ne hnd0 hx (by simp [Tree.inorder])
      have f2 : x ≠ sl := frame_ne hnd0 hx (by simp [Tree.inorder])
      simp [store_pc_mem_ne, store_left_mem_ne, store_right_mem_ne, f0, f1, f2]
    · simp [Rep, Rep_store_pc, Rep_store_left, Rep_store_right,
        CHX_RB_RED, CHX_RB_BLACK, hT, hnd, h_p_sx, h_p_sl, h_sx_sl, color_of_word, Nat.add_comm]
    · simp [Tree.inorder]
  | node cSr Srl sr Srr =>
    simp only [Tree.inorder, List.nodup_append, List.nodup_cons, List.disjoint_append_left,
          List.disjoint_append_right, List.disjoint_cons_left, List.disjoint_cons_right,
          List.mem_append, List.mem_cons, not_or] at hnd
    simp only [Rep, addr_node, addr_nil, color_node, color_nil] at hT
    have h_p_sx : p ≠ sx ∧ sx ≠ p := by
      first
      | exact ne_pair (by simp only [hnd, not_false_eq_true])
      | exact (ne_pair (by simp only [hnd, not_false_eq_true])).symm
    have h_p_sl : p ≠ sl ∧ sl ≠ p := by
      first
      | exact ne_pair (by simp only [hnd, not_false_eq_true])
      | exact (ne_pair (by simp only [hnd, not_false_eq_true])).symm
    have h_p_sr : p ≠ sr ∧ sr ≠ p := by
      first
      | exact ne_pair (by simp only [hnd, not_false_eq_true])
      | exact (ne_pair (by simp only [hnd, not_false_eq_true])).symm
    have h_sx_sl : sx ≠ sl ∧ sl ≠ sx := by
      first
      | exact ne_pair (by simp only [hnd, not_false_eq_true])
      | exact (ne_pair (by simp only [hnd, not_false_eq_true])).symm
    have h_sx_sr : sx ≠ sr ∧ sr ≠ sx := by
      first
      | exact ne_pair (by simp only [hnd, not_false_eq_true])
      | exact (ne_pair (by simp only [hnd, not_false_eq_true])).symm
    have h_sl_sr : sl ≠ sr ∧ sr ≠ sl := by
      first
      | exact ne_pair (by simp only [hnd, not_false_eq_true])
      | exact (ne_pair (by simp only [hnd, not_false_eq_true])).symm
    have h0_sr : sr ≠ 0 := by simp only [hT, ne_eq, not_false_eq_true]
    simp only [chx_rb_parent, chx_rb_set_parent_color, chx_rb_set_parent, chx_rb_color, chx_rb_set_black, store_pc_pc, store_left_pc, store_right_pc,
          store_pc_left, store_pc_right, store_left_left, store_left_right, store_right_left,
          store_right_right, call_mem, change_child_pc,
          hT, h_p_sx, h_p_sl, h_p_sr, h_sx_sl, h_sx_sr, h_sl_sr, h0_sr, hpw, ne_eq, not_false_eq_true, not_true_eq_false, if_true, if_false,
          ite_true, ite_false, addr_node, addr_nil, color_of_word]
    refine WF_change_child_eq (T := .node c (.node cs (.node csl Sll sl Slr) sx (.node cSr Srl sr Srr)) p N)
      (U := .node c (.node .black Sll sl Slr) sx (.node .black (.node cSr Srl sr Srr) p N)) hk hnd0 hT.1 (by simp) ?_ ?_ ?_ ?_
    · simp
    · intro x hx
      have f0 : x ≠ p := frame_ne hnd0 hx (by simp [Tree.inorder])
      have f1 : x ≠ sx := frame_ne hnd0 hx (by simp [Tree.inorder])
      have f2 : x ≠ sl := frame_ne hnd0 hx (by simp [Tree.inorder])
      have f3 : x ≠ sr := frame_ne hnd0 hx (by simp [Tree.inorder])
      simp [store_pc_mem_ne, store_left_mem_ne, store_right_mem_ne, f0, f1, f2, f3]
    · simp [Rep, Rep_store_pc, Rep_store_left, Rep_store_right,
        CHX_RB_RED, CHX_RB_BLACK, hT, hnd, h_p_sx, h_p_sl, h_p_sr, h_sx_sl, h_sx_sr, h_sl_sr, h0_sr, color_of_word, Nat.add_comm]
    · simp [Tree.inorder]

theorem erase_case34_left_spec (rot : Callback α) {s : State α} {k : Ctx} {c cs csl : Color}
    {N Sll Slr Sr : Tree} {p sx sl : Nat}
    (h : WF s (plug k (.node c N p (.node cs (.node csl Sll sl Slr) sx Sr))))
    (hSlr : Slr.color = .black) :
    WF (erase_case4_left rot (erase_case3_left rot s p sx sl) p sl sx) (plug k (.node c (.node .black N p Sll) sl (.node .black Slr sx Sr))) := by
  rw [WF_plug'] at h
  obtain ⟨hk, hT, hnd⟩ := h
  have hpar := RepCtx_ctxAddr_aligned hk
  have hnd0 := hnd
  have hpw := parent_of_word c hpar
  try simp only [erase_case4_left, erase_case3_left, __chx_rb_rotate_set_parents, WF_call]
  cases Sll with
  | nil =>
    cases Slr with
    | nil =>
      simp only [Tree.inorder, List.nodup_append, List.nodup_cons, List.disjoint_append_left,
            List.disjoint_append_right, List.disjoint_cons_left, List.disjoint_cons_right,
            List.mem_append, List.mem_cons, not_or] at hnd
      simp only [Rep, addr_node, addr_nil, color_node, color_nil] at hT hSlr
      have h_p_sx : p ≠ sx ∧ sx ≠ p := by
        first
        | exact ne_pair (by simp only [hnd, not_false_eq_true])
        | exact (ne_pair (by simp only [hnd, not_false_eq_true])).symm
      have h_p_sl : p ≠ sl ∧ sl ≠ p := by
        first
        | exact ne_pair (by simp only [hnd, not_false_eq_true])
        | exact (ne_pair (by simp only [hnd, not_false_eq_true])).symm
      have h_sx_sl : sx ≠ sl ∧ sl ≠ sx := by
        first
        | exact ne_pair (by simp only [hnd, not_false_eq_true])
        | exact (ne_pair (by simp only [hnd, not_false_eq_true])).symm
      simp only [chx_rb_parent, chx_rb_set_parent_color, chx_rb_set_parent, chx_rb_color, chx_rb_set_black, store_pc_pc, store_left_pc, store_right_pc,
            store_pc_left, store_pc_right, store_left_left, store_left_right, store_right_left,
            store_right_right, call_mem, change_child_pc,
            hT, h_p_sx, h_p_sl, h_sx_sl, hpw, ne_eq, not_false_eq_true, not_true_eq_false, if_true, if_false,
            ite_true, ite_false, addr_node, addr_nil, color_of_word]
      refine WF_change_child_eq (T := .node c N p (.node cs (.node csl .nil sl .nil) sx Sr))
        (U := .node c (.node .black N p .nil) sl (.node .black .nil sx Sr)) hk hnd0 hT.1 (by simp) ?_ ?_ ?_ ?_
      · simp
      · intro x hx
        have f0 : x ≠ p := frame_ne hnd0 hx (by simp [Tree.inorder])
        have f1 : x ≠ sx := frame_ne hnd0 hx (by simp [Tree.inorder])
        have f2 : x ≠ sl := frame_ne hnd0 hx (by simp [Tree.inorder])
        simp [store_pc_mem_ne, store_left_mem_ne, store_right_mem_ne, f0, f1, f2]
      · simp [Rep, Rep_store_pc, Rep_store_left, Rep_store_right,
          CHX_RB_RED, CHX_RB_BLACK, hT, hnd, h_p_sx, h_p_sl, h_sx_sl, hSlr, color_of_word, Nat.add_comm]
      · simp [Tree.inorder]
    | node cSlr Slrl slr Slrr =>
      simp only [Tree.inorder, List.nodup_append, List.nodup_cons, List.disjoint_append_left,
            List.disjoint_append_right, List.disjoint_cons_left, List.disjoint_cons_right,
            List.mem_append, List.mem_cons, not_or] at hnd
      simp only [Rep, addr_node, addr_nil, color_node, color_nil] at hT hSlr
      have h_p_sx : p ≠ sx ∧ sx ≠ p := by
        first
        | exact ne_pair (by simp only [hnd, not_false_eq_true])
        | exact (ne_pair (by simp only [hnd, not_false_eq_true])).symm
      have h_p_sl : p ≠ sl ∧ sl ≠ p := by
        first
        | exact ne_pair (by simp only [hnd, not_false_eq_true])
        | exact (ne_pair (by simp only [hnd, not_false_eq_true])).symm
      have h_p_slr : p ≠ slr ∧ slr ≠ p := by
        first
        | exact ne_pair (by simp only [hnd, not_false_eq_true])
        | exact (ne_pair (by simp only [hnd, not_false_eq_true])).symm
      have h_sx_sl : sx ≠ sl ∧ sl ≠ sx := by
        first
        | exact ne_pair (by simp only [hnd, not_false_eq_true])
        | exact (ne_pair (by simp only [hnd, not_false_eq_true])).symm
      have h_sx_slr : sx ≠ slr ∧ slr ≠ sx := by
        first
        | exact ne_pair (by simp only [hnd, not_false_eq_true])
        | exact (ne_pair (by simp only [hnd, not_false_eq_true])).symm
      have h_sl_slr : sl ≠ slr ∧ slr ≠ sl := by
        first
        | exact ne_pair (by simp only [hnd, not_false_eq_true])
        | exact (ne_pair (by simp only [hnd, not_false_eq_true])).symm
      have h0_slr : slr ≠ 0 := by simp only [hT, ne_eq, not_false_eq_true]
      simp only [chx_rb_parent, chx_rb_set_parent_color, chx_rb_set_parent, chx_rb_color, chx_rb_set_black, store_pc_pc, store_left_pc, store_right_pc,
            store_pc_left, store_pc_right, store_left_left, store_left_right, store_right_left,
            store_right_right, call_mem, change_child_pc,
            hT, h_p_sx, h_p_sl, h_p_slr, h_sx_sl, h_sx_slr, h_sl_slr, h0_slr, hpw, ne_eq, not_false_eq_true, not_true_eq_false, if_true, if_false,
            ite_true, ite_false, addr_node, addr_nil, color_of_word]
      refine WF_change_child_eq (T := .node c N p (.node cs (.node csl .nil sl (.node cSlr Slrl slr Slrr)) sx Sr))
        (U := .node c (.node .black N p .nil) sl (.node .black (.node cSlr Slrl slr Slrr) sx Sr)) hk hnd0 hT.1 (by simp) ?_ ?_ ?_ ?_
      · simp
      · intro x hx
        have f0 : x ≠ p := frame_ne hnd0 hx (by simp [Tree.inorder])
        have f1 : x ≠ sx := frame_ne hnd0 hx (by simp [Tree.inorder])
        have f2 : x ≠ sl := frame_ne hnd0 hx (by simp [Tree.inorder])
        have f3 : x ≠ slr := frame_ne hnd0 hx (by simp [Tree.inorder])
        simp [store_pc_mem_ne, store_left_mem_ne, store_right_mem_ne, f0, f1, f2, f3]
      · simp [Rep, Rep_store_pc, Rep_store_left, Rep_store_right,
          CHX_RB_RED, CHX_RB_BLACK, hT, hnd, h_p_sx, h_p_sl, h_p_slr, h_sx_sl, h_sx_slr, h_sl_slr, h0_slr, hSlr, color_of_word, Nat.add_comm]
      · simp [Tree.inorder]
  | node cSll Slll sll Sllr =>
    cases Slr with
    | nil =>
      simp only [Tree.inorder, List.nodup_append, List.nodup_cons, List.disjoint_append_left,
            List.disjoint_append_right, List.disjoint_cons_left, List.disjoint_cons_right,
            List.mem_append, List.mem_cons, not_or] at hnd
      simp only [Rep, addr_node, addr_nil, color_node, color_nil] at hT hSlr
      have h_p_sx : p ≠ sx ∧ sx ≠ p := by
        first
        | exact ne_pair (by simp only [hnd, not_false_eq_true])
        | exact (ne_pair (by simp only [hnd, not_false_eq_true])).symm
      have h_p_sl : p ≠ sl ∧ sl ≠ p := by
        first
        | exact ne_pair (by simp only [hnd, not_false_eq_true])
        | exact (ne_pair (by simp only [hnd, not_false_eq_true])).symm
      have h_p_sll : p ≠ sll ∧ sll ≠ p := by
        first
        | exact ne_pair (by simp only [hnd, not_false_eq_true])
        | exact (ne_pair (by simp only [hnd, not_false_eq_true])).symm
      have h_sx_sl : sx ≠ sl ∧ sl ≠ sx := by
        first
        | exact ne_pair (by simp only [hnd, not_false_eq_true])
        | exact (ne_pair (by simp only [hnd, not_false_eq_true])).symm
      have h_sx_sll : sx ≠ sll ∧ sll ≠ sx := by
        first
        | exact ne_pair (by simp only [hnd, not_false_eq_true])
        | exact (ne_pair (by simp only [hnd, not_false_eq_true])).symm
      have h_sl_sll : sl ≠ sll ∧ sll ≠ sl := by
        first
        | exact ne_pair (by simp only [hnd, not_false_eq_true])
        | exact (ne_pair (by simp only [hnd, not_false_eq_true])).symm
      have h0_sll : sll ≠ 0 := by simp only [hT, ne_eq, not_false_eq_true]
      simp only [chx_rb_parent, chx_rb_set_parent_color, chx_rb_set_parent, chx_rb_color, chx_rb_set_black, store_pc_pc, store_left_pc, store_right_pc,
            store_pc_left, store_pc_right, store_left_left, store_left_right, store_right_left,
            store_right_right, call_mem, change_child_pc,
            hT, h_p_sx, h_p_sl, h_p_sll, h_sx_sl, h_sx_sll, h_sl_sll, h0_sll, hpw, ne_eq, not_false_eq_true, not_true_eq_false, if_true, if_false,
            ite_true, ite_false, addr_node, addr_nil, color_of_word]
      refine WF_change_child_eq (T := .node c N p (.node cs (.node csl (.node cSll Slll sll Sllr) sl .nil) sx Sr))
        (U := .node c (.node .black N p (.node cSll Slll sll Sllr)) sl (.node .black .nil sx Sr)) hk hnd0 hT.1 (by simp) ?_ ?_ ?_ ?_
      · simp
      · intro x hx
        have f0 : x ≠ p := frame_ne hnd0 hx (by simp [Tree.inorder])
        have f1 : x ≠ sx := frame_ne hnd0 hx (by simp [Tree.inorder])
        have f2 : x ≠ sl := frame_ne hnd0 hx (by simp [Tree.inorder])
        have f3 : x ≠ sll := frame_ne hnd0 hx (by simp [Tree.inorder])
        simp [store_pc_mem_ne, store_left_mem_ne, store_right_mem_ne, f0, f1, f2, f3]
      · simp [Rep, Rep_store_pc, Rep_store_left, Rep_store_right,
          CHX_RB_RED, CHX_RB_BLACK, hT, hnd, h_p_sx, h_p_sl, h_p_sll, h_sx_sl, h_sx_sll, h_sl_sll, h0_sll, hSlr, color_of_word, Nat.add_comm]
      · simp [Tree.inorder]
    | node cSlr Slrl slr Slrr =>
      simp only [Tree.inorder, List.nodup_append, List.nodup_cons, List.disjoint_append_left,
            List.disjoint_append_right, List.disjoint_cons_left, List.disjoint_cons_right,
            List.mem_append, List.mem_cons, not_or] at hnd
      simp only [Rep, addr_node, addr_nil, color_node, color_nil] at hT hSlr
      have h_p_sx : p ≠ sx ∧ sx ≠ p := by
        first
        | exact ne_pair (by simp only [hnd, not_false_eq_true])
        | exact (ne_pair (by simp only [hnd, not_false_eq_true])).symm
      have h_p_sl : p ≠ sl ∧ sl ≠ p := by
        first
        | exact ne_pair (by simp only [hnd, not_false_eq_true])
        | exact (ne_pair (by simp only [hnd, not_false_eq_true])).symm
      have h_p_sll : p ≠ sll ∧ sll ≠ p := by
        first
        | exact ne_pair (by simp only [hnd, not_false_eq_true])
        | exact (ne_pair (by simp only [hnd, not_false_eq_true])).symm
      have h_p_slr : p ≠ slr ∧ slr ≠ p := by
        first
        | exact ne_pair (by simp only [hnd, not_false_eq_true])
        | exact (ne_pair (by simp only [hnd, not_false_eq_true])).symm
      have h_sx_sl : sx ≠ sl ∧ sl ≠ sx := by
        first
        | exact ne_pair (by simp only [hnd, not_false_eq_true])
        | exact (ne_pair (by simp only [hnd, not_false_eq_true])).symm
      have h_sx_sll : sx ≠ sll ∧ sll ≠ sx := by
        first
        | exact ne_pair (by simp only [hnd, not_false_eq_true])
        | exact (ne_pair (by simp only [hnd, not_false_eq_true])).symm
      have h_sx_slr : sx ≠ slr ∧ slr ≠ sx := by
        first
        | exact ne_pair (by simp only [hnd, not_false_eq_true])
        | exact (ne_pair (by simp only [hnd, not_false_eq_true])).symm
      have h_sl_sll : sl ≠ sll ∧ sll ≠ sl := by
        first
        | exact ne_pair (by simp only [hnd, not_false_eq_true])
        | exact (ne_pair (by simp only [hnd, not_false_eq_true])).symm
      have h_sl_slr : sl ≠ slr ∧ slr ≠ sl := by
        first
        | exact ne_pair (by simp only [hnd, not_false_eq_true])
        | exact (ne_pair (by simp only [hnd, not_false_eq_true])).symm
      have h_sll_slr : sll ≠ slr ∧ slr ≠ sll := by
        first
        | exact ne_pair (by simp only [hnd, not_false_eq_true])
        | exact (ne_pair (by simp only [hnd, not_false_eq_true])).symm
      have h0_sll : sll ≠ 0 := by simp only [hT, ne_eq, not_false_eq_true]
      have h0_slr : slr ≠ 0 := by simp only [hT, ne_eq, not_false_eq_true]
      simp only [chx_rb_parent, chx_rb_set_parent_color, chx_rb_set_parent, chx_rb_color, chx_rb_set_black, store_pc_pc, store_left_pc, store_right_pc,
            store_pc_left, store_pc_right, store_left_left, store_left_right, store_right_left,
            store_right_right, call_mem, change_child_pc,
            hT, h_p_sx, h_p_sl, h_p_sll, h_p_slr, h_sx_sl, h_sx_sll, h_sx_slr, h_sl_sll, h_sl_slr, h_sll_slr, h0_sll, h0_slr, hpw, ne_eq, not_false_eq_true, not_true_eq_false, if_true, if_false,
            ite_true, ite_false, addr_node, addr_nil, color_of_word]
      refine WF_change_child_eq (T := .node c N p (.node cs (.node csl (.node cSll Slll sll Sllr) sl (.node cSlr Slrl slr Slrr)) sx Sr))
        (U := .node c (.node .black N p (.node cSll Slll sll Sllr)) sl (.node .black (.node cSlr Slrl slr Slrr) sx Sr)) hk hnd0 hT.1 (by simp) ?_ ?_ ?_ ?_
      · simp
      · intro x hx
        have f0 : x ≠ p := frame_ne hnd0 hx (by simp [Tree.inorder])
        have f1 : x ≠ sx := frame_ne hnd0 hx (by simp [Tree.inorder])
        have f2 : x ≠ sl := frame_ne hnd0 hx (by simp [Tree.inorder])
        have f3 : x ≠ sll := frame_ne hnd0 hx (by simp [Tree.inorder])
        have f4 : x ≠ slr := frame_ne hnd0 hx (by simp [Tree.inorder])
        simp [store_pc_mem_ne, store_left_mem_ne, store_right_mem_ne, f0, f1, f2, f3, f4]
      · simp [Rep, Rep_store_pc, Rep_store_left, Rep_store_right,
          CHX_RB_RED, CHX_RB_BLACK, hT, hnd, h_p_sx, h_p_sl, h_p_sll, h_p_slr, h_sx_sl, h_sx_sll, h_sx_slr, h_sl_sll, h_sl_slr, h_sll_slr, h0_sll, h0_slr, hSlr, color_of_word, Nat.add_comm]
      · simp [Tree.inorder]

theorem erase_case34_right_spec (rot : Callback α) {s : State α} {k : Ctx} {c cs csr : Color}
    {N Sl Srl Srr : Tree} {p sx sr : Nat}
    (h : WF s (plug k (.node c (.node cs Sl sx (.node csr Srl sr Srr)) p N)))
    (hSrl : Srl.color = .black) :
    WF (erase_case4_right rot (erase_case3_right rot s p sx sr) p sr sx) (plug k (.node c (.node .black Sl sx Srl) sr (.node .black Srr p N))) := by
  rw [WF_plug'] at h
  obtain ⟨hk, hT, hnd⟩ := h
  have hpar := RepCtx_ctxAddr_aligned hk
  have hnd0 := hnd
  have hpw := parent_of_word c hpar
  try simp only [erase_case4_right, erase_case3_right, __chx_rb_rotate_set_parents, WF_call]
  cases Srl with
  | nil =>
    cases Srr with
    | nil =>
      simp only [Tree.inorder, List.nodup_append, List.nodup_cons, List.disjoint_append_left,
            List.disjoint_append_right, List.disjoint_cons_left, List.disjoint_cons_right,
            List.mem_append, List.mem_cons, not_or] at hnd
      simp only [Rep, addr_node, addr_nil, color_node, color_nil] at hT hSrl
      have h_p_sx : p ≠ sx ∧ sx ≠ p := by
        first
        | exact ne_pair (by simp only [hnd, not_false_eq_true])
        | exact (ne_pair (by simp only [hnd, not_false_eq_true])).symm
      have h_p_sr : p ≠ sr ∧ sr ≠ p := by
        first
        | exact ne_pair (by simp only [hnd, not_false_eq_true])
        | exact (ne_pair (by simp only [hnd, not_false_eq_true])).symm
      have h_sx_sr : sx ≠ sr ∧ sr ≠ sx := by
        first
        | exact ne_pair (by simp only [hnd, not_false_eq_true])
        | exact (ne_pair (by simp only [hnd, not_false_eq_true])).symm
      simp only [chx_rb_parent, chx_rb_set_parent_color, chx_rb_set_parent, chx_rb_color, chx_rb_set_black, store_pc_pc, store_left_pc, store_right_pc,
            store_pc_left, store_pc_right, store_left_left, store_left_right, store_right_left,
            store_right_right, call_mem, change_child_pc,
            hT, h_p_sx, h_p_sr, h_sx_sr, hpw, ne_eq, not_false_eq_true, not_true_eq_false, if_true, if_false,
            ite_true, ite_false, addr_node, addr_nil, color_of_word]
      refine WF_change_child_eq (T := .node c (.node cs Sl sx (.node csr .nil sr .nil)) p N)
        (U := .node c (.node .black Sl sx .nil) sr (.node .black .nil p N)) hk hnd0 hT.1 (by simp) ?_ ?_ ?_ ?_
      · simp
      · intro x hx
        have f0 : x ≠ p := frame_ne hnd0 hx (by simp [Tree.inorder])
        have f1 : x ≠ sx := frame_ne hnd0 hx (by simp [Tree.inorder])
        have f2 : x ≠ sr := frame_ne hnd0 hx (by simp [Tree.inorder])
        simp [store_pc_mem_ne, store_left_mem_ne, store_right_mem_ne, f0, f1, f2]
      · simp [Rep, Rep_store_pc, Rep_store_left, Rep_store_right,
          CHX_RB_RED, CHX_RB_BLACK, hT, hnd, h_p_sx, h_p_sr, h_sx_sr, hSrl, color_of_word, Nat.add_comm]
      · simp [Tree.inorder]
    | node cSrr Srrl srr Srrr =>
      simp only [Tree.inorder, List.nodup_append, List.nodup_cons, List.disjoint_append_left,
            List.disjoint_append_right, List.disjoint_cons_left, List.disjoint_cons_right,
            List.mem_append, List.mem_cons, not_or] at hnd
      simp only [Rep, addr_node, addr_nil, color_node, color_nil] at hT hSrl
      have h_p_sx : p ≠ sx ∧ sx ≠ p := by
        first
        | exact ne_pair (by simp only [hnd, not_false_eq_true])
        | exact (ne_pair (by simp only [hnd, not_false_eq_true])).symm
      have h_p_sr : p ≠ sr ∧ sr ≠ p := by
        first
        | exact ne_pair (by simp only [hnd, not_false_eq_true])
        | exact (ne_pair (by simp only [hnd, not_false_eq_true])).symm
      have h_p_srr : p ≠ srr ∧ srr ≠ p := by
        first
        | exact ne_pair (by simp only [hnd, not_false_eq_true])
        | exact (ne_pair (by simp only [hnd, not_false_eq_true])).symm
      have h_sx_sr : sx ≠ sr ∧ sr ≠ sx := by
        first
        | exact ne_pair (by simp only [hnd, not_false_eq_true])
        | exact (ne_pair (by simp only [hnd, not_false_eq_true])).symm
      have h_sx_srr : sx ≠ srr ∧ srr ≠ sx := by
        first
        | exact ne_pair (by simp only [hnd, not_false_eq_true])
        | exact (ne_pair (by simp only [hnd, not_false_eq_true])).symm
      have h_sr_srr : sr ≠ srr ∧ srr ≠ sr := by
        first
        | exact ne_pair (by simp only [hnd, not_false_eq_true])
        | exact (ne_pair (by simp only [hnd, not_false_eq_true])).symm
      have h0_srr : srr ≠ 0 := by simp only [hT, ne_eq, not_false_eq_true]
      simp only [chx_rb_parent, chx_rb_set_parent_color, chx_rb_set_parent, chx_rb_color, chx_rb_set_black, store_pc_pc, store_left_pc, store_right_pc,
            store_pc_left, store_pc_right, store_left_left, store_left_right, store_right_left,
            store_right_right, call_mem, change_child_pc,
            hT, h_p_sx, h_p_sr, h_p_srr, h_sx_sr, h_sx_srr, h_sr_srr, h0_srr, hpw, ne_eq, not_false_eq_true, not_true_eq_false, if_true, if_false,
            ite_true, ite_false, addr_node, addr_nil, color_of_word]
      refine WF_change_child_eq (T := .node c (.node cs Sl sx (.node csr .nil sr (.node cSrr Srrl srr Srrr))) p N)
        (U := .node c (.node .black Sl sx .nil) sr (.node .black (.node cSrr Srrl srr Srrr) p N)) hk hnd0 hT.1 (by simp) ?_ ?_ ?_ ?_
      · simp
      · intro x hx
        have f0 : x ≠ p := frame_ne hnd0 hx (by simp [Tree.inorder])
        have f1 : x ≠ sx := frame_ne hnd0 hx (by simp [Tree.inorder])
        have f2 : x ≠ sr := frame_ne hnd0 hx (by simp [Tree.inorder])
        have f3 : x ≠ srr := frame_ne hnd0 hx (by simp [Tree.inorder])
        simp [store_pc_mem_ne, store_left_mem_ne, store_right_mem_ne, f0, f1, f2, f3]
      · simp [Rep, Rep_store_pc, Rep_store_left, Rep_store_right,
          CHX_RB_RED, CHX_RB_BLACK, hT, hnd, h_p_sx, h_p_sr, h_p_srr, h_sx_sr, h_sx_srr, h_sr_srr, h0_srr, hSrl, color_of_word, Nat.add_comm]
      · simp [Tree.inorder]
  | node cSrl Srll srl Srlr =>
    cases Srr with
    | nil =>
      simp only [Tree.inorder, List.nodup_append, List.nodup_cons, List.disjoint_append_left,
            List.disjoint_append_right, List.disjoint_cons_left, List.disjoint_cons_right,
            List.mem_append, List.mem_cons, not_or] at hnd
      simp only [Rep, addr_node, addr_nil, color_node, color_nil] at hT hSrl
      have h_p_sx : p ≠ sx ∧ sx ≠ p := by
        first
        | exact ne_pair (by simp only [hnd, not_false_eq_true])
        | exact (ne_pair (by simp only [hnd, not_false_eq_true])).symm
      have h_p_sr : p ≠ sr ∧ sr ≠ p := by
        first
        | exact ne_pair (by simp only [hnd, not_false_eq_true])
        | exact (ne_pair (by simp only [hnd, not_false_eq_true])).symm
      have h_p_srl : p ≠ srl ∧ srl ≠ p := by
        first
        | exact ne_pair (by simp only [hnd, not_false_eq_true])
        | exact (ne_pair (by simp only [hnd, not_false_eq_true])).symm
      have h_sx_sr : sx ≠ sr ∧ sr ≠ sx := by
        first
        | exact ne_pair (by simp only [hnd, not_false_eq_true])
        | exact (ne_pair (by simp only [hnd, not_false_eq_true])).symm
      have h_sx_srl : sx ≠ srl ∧ srl ≠ sx := by
        first
        | exact ne_pair (by simp only [hnd, not_false_eq_true])
        | exact (ne_pair (by simp only [hnd, not_false_eq_true])).symm
      have h_sr_srl : sr ≠ srl ∧ srl ≠ sr := by
        first
        | exact ne_pair (by simp only [hnd, not_false_eq_true])
        | exact (ne_pair (by simp only [hnd, not_false_eq_true])).symm
      have h0_srl : srl ≠ 0 := by simp only [hT, ne_eq, not_false_eq_true]
      simp only [chx_rb_parent, chx_rb_set_parent_color, chx_rb_set_parent, chx_rb_color, chx_rb_set_black, store_pc_pc, store_left_pc, store_right_pc,
            store_pc_left, store_pc_right, store_left_left, store_left_right, store_right_left,
            store_right_right, call_mem, change_child_pc,
            hT, h_p_sx, h_p_sr, h_p_srl, h_sx_sr, h_sx_srl, h_sr_srl, h0_srl, hpw, ne_eq, not_false_eq_true, not_true_eq_false, if_true, if_false,
            ite_true, ite_false, addr_node, addr_nil, color_of_word]
      refine WF_change_child_eq (T := .node c (.node cs Sl sx (.node csr (.node cSrl Srll srl Srlr) sr .nil)) p N)
        (U := .node c (.node .black Sl sx (.node cSrl Srll srl Srlr)) sr (.node .black .nil p N)) hk hnd0 hT.1 (by simp) ?_ ?_ ?_ ?_
      · simp
      · intro x hx
        have f0 : x ≠ p := frame_ne hnd0 hx (by simp [Tree.inorder])
        have f1 : x ≠ sx := frame_ne hnd0 hx (by simp [Tree.inorder])
        have f2 : x ≠ sr := frame_ne hnd0 hx (by simp [Tree.inorder])
        have f3 : x ≠ srl := frame_ne hnd0 hx (by simp [Tree.inorder])
        simp [store_pc_mem_ne, store_left_mem_ne, store_right_mem_ne, f0, f1, f2, f3]
      · simp [Rep, Rep_store_pc, Rep_store_left, Rep_store_right,
          CHX_RB_RED, CHX_RB_BLACK, hT, hnd, h_p_sx, h_p_sr, h_p_srl, h_sx_sr, h_sx_srl, h_sr_srl, h0_srl, hSrl, color_of_word, Nat.add_comm]
      · simp [Tree.inorder]
    | node cSrr Srrl srr Srrr =>
      simp only [Tree.inorder, List.nodup_append, List.nodup_cons, List.disjoint_append_left,
            List.disjoint_append_right, List.disjoint_cons_left, List.disjoint_cons_right,
            List.mem_append, List.mem_cons, not_or] at hnd
      simp only [Rep, addr_node, addr_nil, color_node, color_nil] at hT hSrl
      have h_p_sx : p ≠ sx ∧ sx ≠ p := by
        first
        | exact ne_pair (by simp only [hnd, not_false_eq_true])
        | exact (ne_pair (by simp only [hnd, not_false_eq_true])).symm
      have h_p_sr : p ≠ sr ∧ sr ≠ p := by
        first
        | exact ne_pair (by simp only [hnd, not_false_eq_true])
        | exact (ne_pair (by simp only [hnd, not_false_eq_true])).symm
      have h_p_srl : p ≠ srl ∧ srl ≠ p := by
        first
        | exact ne_pair (by simp only [hnd, not_false_eq_true])
        | exact (ne_pair (by simp only [hnd, not_false_eq_true])).symm
      have h_p_srr : p ≠ srr ∧ srr ≠ p := by
        first
        | exact ne_pair (by simp only [hnd, not_false_eq_true])
        | exact (ne_pair (by simp only [hnd, not_false_eq_true])).symm
      have h_sx_sr : sx ≠ sr ∧ sr ≠ sx := by
        first
        | exact ne_pair (by simp only [hnd, not_false_eq_true])
        | exact (ne_pair (by simp only [hnd, not_false_eq_true])).symm
      have h_sx_srl : sx ≠ srl ∧ srl ≠ sx := by
        first
        | exact ne_pair (by simp only [hnd, not_false_eq_true])
        | exact (ne_pair (by simp only [hnd, not_false_eq_true])).symm
      have h_sx_srr : sx ≠ srr ∧ srr ≠ sx := by
        first
        | exact ne_pair (by simp only [hnd, not_false_eq_true])
        | exact (ne_pair (by simp only [hnd, not_false_eq_true])).symm
      have h_sr_srl : sr ≠ srl ∧ srl ≠ sr := by
        first
        | exact ne_pair (by simp only [hnd, not_false_eq_true])
        | exact (ne_pair (by simp only [hnd, not_false_eq_true])).symm
      have h_sr_srr : sr ≠ srr ∧ srr ≠ sr := by
        first
        | exact ne_pair (by simp only [hnd, not_false_eq_true])
        | exact (ne_pair (by simp only [hnd, not_false_eq_true])).symm
      have h_srl_srr : srl ≠ srr ∧ srr ≠ srl := by
        first
        | exact ne_pair (by simp only [hnd, not_false_eq_true])
        | exact (ne_pair (by simp only [hnd, not_false_eq_true])).symm
      have h0_srl : srl ≠ 0 := by simp only [hT, ne_eq, not_false_eq_true]
      have h0_srr : srr ≠ 0 := by simp only [hT, ne_eq, not_false_eq_true]
      simp only [chx_rb_parent, chx_rb_set_parent_color, chx_rb_set_parent, chx_rb_color, chx_rb_set_black, store_pc_pc, store_left_pc, store_right_pc,
            store_pc_left, store_pc_right, store_left_left, store_left_right, store_right_left,
            store_right_right, call_mem, change_child_pc,
            hT, h_p_sx, h_p_sr, h_p_srl, h_p_srr, h_sx_sr, h_sx_srl, h_sx_srr, h_sr_srl, h_sr_srr, h_srl_srr, h0_srl, h0_srr, hpw, ne_eq, not_false_eq_true, not_true_eq_false, if_true, if_false,
            ite_true, ite_false, addr_node, addr_nil, color_of_word]
      refine WF_change_child_eq (T := .node c (.node cs Sl sx (.node csr (.node cSrl Srll srl Srlr) sr (.node cSrr Srrl srr Srrr))) p N)
        (U := .node c (.node .black Sl sx (.node cSrl Srll srl Srlr)) sr (.node .black (.node cSrr Srrl srr Srrr) p N)) hk hnd0 hT.1 (by simp) ?_ ?_ ?_ ?_
      · simp
      · intro x hx
        have f0 : x ≠ p := frame_ne hnd0 hx (by simp [Tree.inorder])
        have f1 : x ≠ sx := frame_ne hnd0 hx (by simp [Tree.inorder])
        have f2 : x ≠ sr := frame_ne hnd0 hx (by simp [Tree.inorder])
        have f3 : x ≠ srl := frame_ne hnd0 hx (by simp [Tree.inorder])
        have f4 : x ≠ srr := frame_ne hnd0 hx (by simp [Tree.inorder])
        simp [store_pc_mem_ne, store_left_mem_ne, store_right_mem_ne, f0, f1, f2, f3, f4]
      · simp [Rep, Rep_store_pc, Rep_store_left, Rep_store_right,
          CHX_RB_RED, CHX_RB_BLACK, hT, hnd, h_p_sx, h_p_sr, h_p_srl, h_p_srr, h_sx_sr, h_sx_srl, h_sx_srr, h_sr_srl, h_sr_srr, h_srl_srr, h0_srl, h0_srr, hSrl, color_of_word, Nat.add_comm]
      · simp [Tree.inorder]


/-! ## Erase fix-up: the loop -/

theorem erase_left_tail_spec (rot : Callback α) (loop : State α → Nat → Nat → Option (State α))
    {s : State α} {K : Ctx} {c : Color} {N Sn Sf : Tree} {p sx : Nat}
    (h : WF s (plug K (.node c N p (.node .black Sn sx Sf))))
    (hNv : N.Valid) (hSnv : Sn.Valid) (hSfv : Sf.Valid) (hSn : Sn.bh = N.bh) (hSf : Sf.bh = N.bh)
    (htop : topColorOK c K) (hK : CtxOK K (N.bh + 1 + c.bit))
    (hloop : c = .black → K ≠ [] → ∀ s1 N1, WF s1 (plug K N1) → N1.color = .black → N1.Valid →
      N1.bh = N.bh + 1 →
      ∃ s' t', loop s1 N1.addr (ctxAddr 0 K) = some s' ∧ WF s' t' ∧ t'.RB ∧
        t'.inorder = (plug K N1).inorder) :
    ∃ s' t', erase_color_left_tail rot loop s p sx = some s' ∧ WF s' t' ∧ t'.RB ∧
      t'.inorder = (plug K (.node c N p (.node .black Sn sx Sf))).inorder := by
  obtain ⟨hk, hT, hnd⟩ := WF_plug'.1 h
  have hpar := RepCtx_ctxAddr_aligned hk
  have hRepS : Rep s.mem (.node .black Sn sx Sf) p := by
    simp only [Rep] at hT
    simp only [Rep]
    tauto
  have hsx4 : sx % 4 = 0 := hRepS.2.1
  have hRepSn : Rep s.mem Sn sx := by
    simp only [Rep] at hRepS
    tauto
  have hRepSf : Rep s.mem Sf sx := by
    simp only [Rep] at hRepS
    tauto
  have hfar : (s.mem sx).rb_right = Sf.addr := by
    simp only [Rep] at hRepS
    tauto
  have hnear : (s.mem sx).rb_left = Sn.addr := by
    simp only [Rep] at hRepS
    tauto
  have hppc : (s.mem p).__rb_parent_color = ctxAddr 0 K + c.bit := hT.2.2.1
  have hpsx : p ≠ sx := by
    have hnd' := hnd
    simp only [Tree.inorder, List.nodup_append, List.nodup_cons, List.disjoint_append_left,
      List.disjoint_append_right, List.disjoint_cons_left, List.disjoint_cons_right,
      List.mem_append, List.mem_cons, not_or] at hnd'
    first
    | exact (ne_pair (by simp only [hnd', not_false_eq_true])).1
    | exact (ne_pair (by simp only [hnd', not_false_eq_true])).2
  unfold erase_color_left_tail
  simp only [hfar, hnear]
  cases hSfc : Sf.color with
  | red =>
    -- Case 4
    rw [if_neg (by rw [is_black_addr hRepSf hsx4, hSfc]; simp)]
    cases Sf with
    | nil => simp at hSfc
    | node cf Sfl sf Sfr =>
      simp only [color_node] at hSfc
      subst hSfc
      rw [Valid_node] at hSfv
      obtain ⟨hf1, hf2, hf3, hf4⟩ := hSfv
      obtain ⟨hf1a, hf1b⟩ := hf1 rfl
      simp only [bh_node, bit_red, Nat.add_zero] at hSf
      have hs := erase_case4_left_spec rot h
      refine ⟨_, _, rfl, hs, ?_, by simp [inorder_plug, Tree.inorder]⟩
      rw [RB_plug]
      refine ⟨?_, ?_, htop⟩
      · simp [Valid_node, hNv, hSnv, hf3, hf4] <;> omega
      · simp only [bh_node, bit_black]
        first
        | exact hK
        | (rw [hSn]; exact hK)
        | (rw [hSf]; exact hK)
        | (rw [hf2, hSf]; exact hK)
        | (rw [← hf2, hSf]; exact hK)
  | black =>
    rw [if_pos (by rw [is_black_addr hRepSf hsx4, hSfc])]
    cases hSnc : Sn.color with
    | red =>
      -- Case 3 then Case 4
      rw [if_neg (by rw [is_black_addr hRepSn hsx4, hSnc]; simp)]
      cases Sn with
      | nil => simp at hSnc
      | node cn Snl sn Snr =>
        simp only [color_node] at hSnc
        subst hSnc
        rw [Valid_node] at hSnv
        obtain ⟨hn1, hn2, hn3, hn4⟩ := hSnv
        obtain ⟨hn1a, hn1b⟩ := hn1 rfl
        simp only [bh_node, bit_red, Nat.add_zero] at hSn
        have hs := erase_case34_left_spec rot h (by first | exact hn1a | exact hn1b)
        refine ⟨_, _, rfl, hs, ?_, by simp [inorder_plug, Tree.inorder]⟩
        rw [RB_plug]
        refine ⟨?_, ?_, htop⟩
        · simp [Valid_node, hNv, hSfv, hn3, hn4] <;> omega
        · simp only [bh_node, bit_black]
          first
          | exact hK
          | (rw [hSn]; exact hK)
          | (rw [hSf]; exact hK)
          | (rw [hn2, hSn]; exact hK)
          | (rw [← hn2, hSn]; exact hK)
    | black =>
      -- Case 2
      rw [if_pos (by rw [is_black_addr hRepSn hsx4, hSnc])]
      unfold erase_case2
      have hpc2 : ((chx_rb_set_parent_color s sx p CHX_RB_RED).mem p).__rb_parent_color
          = ctxAddr 0 K + c.bit := by
        simp [chx_rb_set_parent_color, hpsx, hppc]
      have hred := is_red_of_word hpar hpc2
      have hparent : chx_rb_parent (chx_rb_set_parent_color s sx p CHX_RB_RED) p
          = ctxAddr 0 K := by
        rw [chx_rb_parent, hpc2, parent_of_word c hpar]
      simp only [hred, hparent]
      cases c with
      | red =>
        have hs := erase_case2_left_red_spec h
        refine ⟨_, _, by simp, hs, ?_, by simp [inorder_plug, Tree.inorder]⟩
        rw [RB_plug]
        refine ⟨?_, ?_, topColorOK_black K⟩
        · simp [Valid_node, hNv, hSnv, hSfv, hSnc, hSfc] <;> omega
        · simp only [bh_node, bit_black]
          first
          | simpa using hK
          | (rw [hSn]; simpa using hK)
          | (rw [hSf]; simpa using hK)
      | black =>
        have hs := erase_case2_left_spec h
        have hN1v : Tree.Valid (.node .black N p (.node .red Sn sx Sf)) := by
          simp [Valid_node, hNv, hSnv, hSfv, hSnc, hSfc] <;> omega
        have hN1bh : Tree.bh (.node .black N p (.node .red Sn sx Sf)) = N.bh + 1 := by
          simp only [bh_node, bit_black, bit_red, Nat.add_zero] <;> omega
        by_cases hK0 : K = []
        · subst hK0
          refine ⟨_, _, by simp [ctxAddr], hs, ?_, by simp [inorder_plug, Tree.inorder]⟩
          rw [RB_plug]
          exact ⟨hN1v, trivial, rfl⟩
        · have hne : ctxAddr 0 K ≠ 0 := fun e => hK0 ((RepCtx_ctxAddr_ne_zero hk).1 e)
          obtain ⟨s', t', e1, e2, e3, e4⟩ := hloop rfl hK0 _ _ hs rfl hN1v hN1bh
          refine ⟨s', t', ?_, e2, e3, e4.trans (by simp [inorder_plug, Tree.inorder])⟩
          simpa [hne] using e1

theorem erase_right_tail_spec (rot : Callback α) (loop : State α → Nat → Nat → Option (State α))
    {s : State α} {K : Ctx} {c : Color} {N Sn Sf : Tree} {p sx : Nat}
    (h : WF s (plug K (.node c (.node .black Sf sx Sn) p N)))
    (hNv : N.Valid) (hSnv : Sn.Valid) (hSfv : Sf.Valid) (hSn : Sn.bh = N.bh) (hSf : Sf.bh = N.bh)
    (htop : topColorOK c K) (hK : CtxOK K (N.bh + 1 + c.bit))
    (hloop : c = .black → K ≠ [] → ∀ s1 N1, WF s1 (plug K N1) → N1.color = .black → N1.Valid →
      N1.bh = N.bh + 1 →
      ∃ s' t', loop s1 N1.addr (ctxAddr 0 K) = some s' ∧ WF s' t' ∧ t'.RB ∧
        t'.inorder = (plug K N1).inorder) :
    ∃ s' t', erase_color_right_tail rot loop s p sx = some s' ∧ WF s' t' ∧ t'.RB ∧
      t'.inorder = (plug K (.node c (.node .black Sf sx Sn) p N)).inorder := by
  obtain ⟨hk, hT, hnd⟩ := WF_plug'.1 h
  have hpar := RepCtx_ctxAddr_aligned hk
  have hRepS : Rep s.mem (.node .black Sf sx Sn) p := by
    simp only [Rep] at hT
    simp only [Rep]
    tauto
  have hsx4 : sx % 4 = 0 := hRepS.2.1
  have hRepSn : Rep s.mem Sn sx := by
    simp only [Rep] at hRepS
    tauto
  have hRepSf : Rep s.mem Sf sx := by
    simp only [Rep] at hRepS
    tauto
  have hfar : (s.mem sx).rb_left = Sf.addr := by
    simp only [Rep] at hRepS
    tauto
  have hnear : (s.mem sx).rb_right = Sn.addr := by
    simp only [Rep] at hRepS
    tauto
  have hppc : (s.mem p).__rb_parent_color = ctxAddr 0 K + c.bit := hT.2.2.1
  have hpsx : p ≠ sx := by
    have hnd' := hnd
    simp only [Tree.inorder, List.nodup_append, List.nodup_cons, List.disjoint_append_left,
      List.disjoint_append_right, List.disjoint_cons_left, List.disjoint_cons_right,
      List.mem_append, List.mem_cons, not_or] at hnd'
    first
    | exact (ne_pair (by simp only [hnd', not_false_eq_true])).1
    | exact (ne_pair (by simp only [hnd', not_false_eq_true])).2
  unfold erase_color_right_tail
  simp only [hfar, hnear]
  cases hSfc : Sf.color with
  | red =>
    -- Case 4
    rw [if_neg (by rw [is_black_addr hRepSf hsx4, hSfc]; simp)]
    cases Sf with
    | nil => simp at hSfc
    | node cf Sfl sf Sfr =>
      simp only [color_node] at hSfc
      subst hSfc
      rw [Valid_node] at hSfv
      obtain ⟨hf1, hf2, hf3, hf4⟩ := hSfv
      obtain ⟨hf1a, hf1b⟩ := hf1 rfl
      simp only [bh_node, bit_red, Nat.add_zero] at hSf
      have hs := erase_case4_right_spec rot h
      refine ⟨_, _, rfl, hs, ?_, by simp [inorder_plug, Tree.inorder]⟩
      rw [RB_plug]
      refine ⟨?_, ?_, htop⟩
      · simp [Valid_node, hNv, hSnv, hf3, hf4] <;> omega
      · simp only [bh_node, bit_black]
        first
        | exact hK
        | (rw [hSn]; exact hK)
        | (rw [hSf]; exact hK)
        | (rw [hf2, hSf]; exact hK)
        | (rw [← hf2, hSf]; exact hK)
  | black =>
    rw [if_pos (by rw [is_black_addr hRepSf hsx4, hSfc])]
    cases hSnc : Sn.color with
    | red =>
      -- Case 3 then Case 4
      rw [if_neg (by rw [is_black_addr hRepSn hsx4, hSnc]; simp)]
      cases Sn with
      | nil => simp at hSnc
      | node cn Snl sn Snr =>
        simp only [color_node] at hSnc
        subst hSnc
        rw [Valid_node] at hSnv
        obtain ⟨hn1, hn2, hn3, hn4⟩ := hSnv
        obtain ⟨hn1a, hn1b⟩ := hn1 rfl
        simp only [bh_node, bit_red, Nat.add_zero] at hSn
        have hs := erase_case34_right_spec rot h (by first | exact hn1a | exact hn1b)
        refine ⟨_, _, rfl, hs, ?_, by simp [inorder_plug, Tree.inorder]⟩
        rw [RB_plug]
        refine ⟨?_, ?_, htop⟩
        · simp [Valid_node, hNv, hSfv, hn3, hn4] <;> omega
        · simp only [bh_node, bit_black]
          first
          | exact hK
          | (rw [hSn]; exact hK)
          | (rw [hSf]; exact hK)
          | (rw [hn2, hSn]; exact hK)
          | (rw [← hn2, hSn]; exact hK)
    | black =>
      -- Case 2
      rw [if_pos (by rw [is_black_addr hRepSn hsx4, hSnc])]
      unfold erase_case2
      have hpc2 : ((chx_rb_set_parent_color s sx p CHX_RB_RED).mem p).__rb_parent_color
          = ctxAddr 0 K + c.bit := by
        simp [chx_rb_set_parent_color, hpsx, hppc]
      have hred := is_red_of_word hpar hpc2
      have hparent : chx_rb_parent (chx_rb_set_parent_color s sx p CHX_RB_RED) p
          = ctxAddr 0 K := by
        rw [chx_rb_parent, hpc2, parent_of_word c hpar]
      simp only [hred, hparent]
      cases c with
      | red =>
        have hs := erase_case2_right_red_spec h
        refine ⟨_, _, by simp, hs, ?_, by simp [inorder_plug, Tree.inorder]⟩
        rw [RB_plug]
        refine ⟨?_, ?_, topColorOK_black K⟩
        · simp [Valid_node, hNv, hSnv, hSfv, hSnc, hSfc] <;> omega
        · simp only [bh_node, bit_black]
          first
          | simpa using hK
          | (rw [hSn]; simpa using hK)
          | (rw [hSf]; simpa using hK)
      | black =>
        have hs := erase_case2_right_spec h
        have hN1v : Tree.Valid (.node .black (.node .red Sf sx Sn) p N) := by
          simp [Valid_node, hNv, hSnv, hSfv, hSnc, hSfc] <;> omega
        have hN1bh : Tree.bh (.node .black (.node .red Sf sx Sn) p N) = N.bh + 1 := by
          simp only [bh_node, bit_black, bit_red, Nat.add_zero] <;> omega
        by_cases hK0 : K = []
        · subst hK0
          refine ⟨_, _, by simp [ctxAddr], hs, ?_, by simp [inorder_plug, Tree.inorder]⟩
          rw [RB_plug]
          exact ⟨hN1v, trivial, rfl⟩
        · have hne : ctxAddr 0 K ≠ 0 := fun e => hK0 ((RepCtx_ctxAddr_ne_zero hk).1 e)
          obtain ⟨s', t', e1, e2, e3, e4⟩ := hloop rfl hK0 _ _ hs rfl hN1v hN1bh
          refine ⟨s', t', ?_, e2, e3, e4.trans (by simp [inorder_plug, Tree.inorder])⟩
          simpa [hne] using e1


theorem erase_step_left (rot : Callback α) (fuel : Nat) {s : State α} {K : Ctx}
    {c cs : Color} {N Sn Sf : Tree} {p sx : Nat}
    (h : WF s (plug K (.node c N p (.node cs Sn sx Sf)))) :
    ____chx_rb_erase_color_loop rot (fuel + 1) s N.addr p =
      erase_color_left_tail rot (____chx_rb_erase_color_loop rot fuel)
        (if cs = .red then erase_case1_left rot s p sx else (s, sx)).1 p
        (if cs = .red then erase_case1_left rot s p sx else (s, sx)).2 := by
  obtain ⟨hk, hT, hnd⟩ := WF_plug'.1 h
  have hRepS : Rep s.mem (.node cs Sn sx Sf) p := by
    simp only [Rep] at hT
    simp only [Rep]
    tauto
  have hp4 : p % 4 = 0 := hT.2.1
  have hsx0 : sx ≠ 0 := hRepS.1
  have hred : chx_rb_is_red s sx = decide (cs = .red) := is_red_of_word hp4 hRepS.2.2.1
  have hsib : (s.mem p).rb_right = sx := by
    simp only [Rep, addr_node] at hT
    exact hT.2.2.2.2.1
  have hNsx : N.addr ≠ sx := by
    cases N with
    | nil => exact fun e => hsx0 e.symm
    | node cn Nl n Nr =>
      show n ≠ sx
      simp only [Tree.inorder, List.nodup_append, List.nodup_cons, List.disjoint_append_left,
        List.disjoint_append_right, List.disjoint_cons_left, List.disjoint_cons_right,
        List.mem_append, List.mem_cons, not_or] at hnd
      first
      | exact (ne_pair (by simp only [hnd, not_false_eq_true])).1
      | exact (ne_pair (by simp only [hnd, not_false_eq_true])).2
  rw [____chx_rb_erase_color_loop]
  simp only [hsib, ne_eq, hNsx, not_false_eq_true, if_true, hred]
  cases cs <;> simp

theorem erase_step_right (rot : Callback α) (fuel : Nat) {s : State α} {K : Ctx}
    {c cs : Color} {N Sn Sf : Tree} {p sx : Nat}
    (h : WF s (plug K (.node c (.node cs Sf sx Sn) p N))) :
    ____chx_rb_erase_color_loop rot (fuel + 1) s N.addr p =
      erase_color_right_tail rot (____chx_rb_erase_color_loop rot fuel)
        (if cs = .red then erase_case1_right rot s p sx else (s, sx)).1 p
        (if cs = .red then erase_case1_right rot s p sx else (s, sx)).2 := by
  obtain ⟨hk, hT, hnd⟩ := WF_plug'.1 h
  have hRepS : Rep s.mem (.node cs Sf sx Sn) p := by
    simp only [Rep] at hT
    simp only [Rep]
    tauto
  have hp4 : p % 4 = 0 := hT.2.1
  have hsx0 : sx ≠ 0 := hRepS.1
  have hred : chx_rb_is_red s sx = decide (cs = .red) := is_red_of_word hp4 hRepS.2.2.1
  have hsib : (s.mem p).rb_right = N.addr := by
    simp only [Rep, addr_node] at hT
    exact hT.2.2.2.2.1
  have hsib2 : (s.mem p).rb_left = sx := by
    simp only [Rep, addr_node] at hT
    exact hT.2.2.2.1
  rw [____chx_rb_erase_color_loop]
  simp only [hsib, hsib2, ne_eq, not_true_eq_false, if_false, hred]
  cases cs <;> simp

/-- The erase fix-up loop, entered at a subtree `N` whose black height is one
less than its context expects, terminates and restores the invariants. -/
theorem erase_loop_spec (rot : Callback α) : ∀ (fuel : Nat) (K : Ctx) (N : Tree) (s : State α),
    K ≠ [] → K.length ≤ fuel → WF s (plug K N) → N.Valid → CtxOK K (N.bh + 1) →
    ∃ s' t', ____chx_rb_erase_color_loop rot fuel s N.addr (ctxAddr 0 K) = some s' ∧
      WF s' t' ∧ t'.RB ∧ t'.inorder = (plug K N).inorder := by
  intro fuel
  induction fuel with
  | zero =>
    intro K N s hK0 hlen
    cases K with
    | nil => exact absurd rfl hK0
    | cons f K' => simp at hlen
  | succ fuel ih =>
    intro K N s hK0 hlen h hNv hK
    cases K with
    | nil => exact absurd rfl hK0
    | cons f K' =>
      cases f with
      | left c p S =>
        simp only [CtxOK] at hK
        obtain ⟨hS1, hS2, hS3, hS4, hS5⟩ := hK
        cases S with
        | nil => simp at hS1
        | node cs Sn sx Sf =>
          have h' : WF s (plug K' (.node c N p (.node cs Sn sx Sf))) := h
          rw [Valid_node] at hS2
          obtain ⟨hS2a, hS2b, hS2c, hS2d⟩ := hS2
          simp only [bh_node] at hS1
          simp only [ctxAddr, Frame.addr]
          rw [erase_step_left rot fuel h']
          cases cs with
          | red =>
            have hc : c = .black := by
              cases c
              · exact absurd (hS3 rfl) (by simp)
              · rfl
            subst hc
            obtain ⟨hSnc, hSfc⟩ : Sn.color = .black ∧ Sf.color = .black := by
              have := hS2a rfl
              tauto
            simp only [bit_red, Nat.add_zero, bit_black] at hS1 hS5
            cases Sn with
            | nil => exfalso; simp only [bh_nil] at hS1 hS2b; omega
            | node cn Snl sn Snr =>
              simp only [color_node] at hSnc
              subst hSnc
              rw [Valid_node] at hS2c
              obtain ⟨hn1, hn2, hn3, hn4⟩ := hS2c
              simp only [bh_node, bit_black] at hS1 hS2b
              have hs1 := erase_case1_left_spec rot h'
              have hr2 : (erase_case1_left rot s p sx).2 = sn := by
                obtain ⟨-, hT, -⟩ := WF_plug'.1 h'
                simp only [Rep, addr_node] at hT
                simp only [erase_case1_left]
                tauto
              simp only [if_true, hr2]
              have hs1' : WF (erase_case1_left rot s p sx).1
                  (plug (.left .black sx Sf :: K') (.node .red N p (.node .black Snl sn Snr))) := hs1
              obtain ⟨s', t', e1, e2, e3, e4⟩ := erase_left_tail_spec rot
                (____chx_rb_erase_color_loop rot fuel) hs1' hNv
                (by first | exact hn3 | exact hn4) (by first | exact hn4 | exact hn3)
                (by omega) (by omega) (fun _ => rfl)
                (by
                  simp only [CtxOK, bit_red, bit_black, Nat.add_zero]
                  refine ⟨by omega, by first | exact hS2d | exact hS2c, by simp,
                    topColorOK_black K', hS5⟩)
                (fun hcc => by cases hcc)
              exact ⟨s', t', e1, e2, e3, e4.trans (by simp [inorder_plug, Tree.inorder, plug])⟩
          | black =>
            simp only [bit_black] at hS1
            simp only [if_false, reduceCtorEq]
            obtain ⟨s', t', e1, e2, e3, e4⟩ := erase_left_tail_spec rot
              (____chx_rb_erase_color_loop rot fuel) h' hNv
              (by first | exact hS2c | exact hS2d) (by first | exact hS2d | exact hS2c)
              (by omega) (by omega) hS4 hS5
              (fun hcc hKn s1 N1 hw _ hv hb => by
                subst hcc
                exact ih K' N1 s1 hKn (by simp only [List.length_cons] at hlen; omega) hw hv
                  (by rw [hb]; exact hS5))
            exact ⟨s', t', e1, e2, e3, e4.trans (by simp [inorder_plug, Tree.inorder, plug])⟩
      | right c S p =>
        simp only [CtxOK] at hK
        obtain ⟨hS1, hS2, hS3, hS4, hS5⟩ := hK
        cases S with
        | nil => simp at hS1
        | node cs Sf sx Sn =>
          have h' : WF s (plug K' (.node c (.node cs Sf sx Sn) p N)) := h
          rw [Valid_node] at hS2
          obtain ⟨hS2a, hS2b, hS2c, hS2d⟩ := hS2
          simp only [bh_node] at hS1
          simp only [ctxAddr, Frame.addr]
          rw [erase_step_right rot fuel h']
          cases cs with
          | red =>
            have hc : c = .black := by
              cases c
              · exact absurd (hS3 rfl) (by simp)
              · rfl
            subst hc
            obtain ⟨hSnc, hSfc⟩ : Sn.color = .black ∧ Sf.color = .black := by
              have := hS2a rfl
              tauto
            simp only [bit_red, Nat.add_zero, bit_black] at hS1 hS5
            cases Sn with
            | nil => exfalso; simp only [bh_nil] at hS1 hS2b; omega
            | node cn Snl sn Snr =>
              simp only [color_node] at hSnc
              subst hSnc
              rw [Valid_node] at hS2d
              obtain ⟨hn1, hn2, hn3, hn4⟩ := hS2d
              simp only [bh_node, bit_black] at hS1 hS2b
              have hs1 := erase_case1_right_spec rot h'
              have hr2 : (erase_case1_right rot s p sx).2 = sn := by
                obtain ⟨-, hT, -⟩ := WF_plug'.1 h'
                simp only [Rep, addr_node] at hT
                simp only [erase_case1_right]
                tauto
              simp only [if_true, hr2]
              have hs1' : WF (erase_case1_right rot s p sx).1
                  (plug (.right .black Sf sx :: K') (.node .red (.node .black Snl sn Snr) p N)) := hs1
              obtain ⟨s', t', e1, e2, e3, e4⟩ := erase_right_tail_spec rot
                (____chx_rb_erase_color_loop rot fuel) hs1' hNv
                (by first | exact hn3 | exact hn4) (by first | exact hn4 | exact hn3)
                (by omega) (by omega) (fun _ => rfl)
                (by
                  simp only [CtxOK, bit_red, bit_black, Nat.add_zero]
                  refine ⟨by omega, by first | exact hS2d | exact hS2c, by simp,
                    topColorOK_black K', hS5⟩)
                (fun hcc => by cases hcc)
              exact ⟨s', t', e1, e2, e3, e4.trans (by simp [inorder_plug, Tree.inorder, plug])⟩
          | black =>
            simp only [bit_black] at hS1
            simp only [if_false, reduceCtorEq]
            obtain ⟨s', t', e1, e2, e3, e4⟩ := erase_right_tail_spec rot
              (____chx_rb_erase_color_loop rot fuel) h' hNv
              (by first | exact hS2c | exact hS2d) (by first | exact hS2d | exact hS2c)
              (by omega) (by omega) hS4 hS5
              (fun hcc hKn s1 N1 hw _ hv hb => by
                subst hcc
                exact ih K' N1 s1 hKn (by simp only [List.length_cons] at hlen; omega) hw hv
                  (by rw [hb]; exact hS5))
            exact ⟨s', t', e1, e2, e3, e4.trans (by simp [inorder_plug, Tree.inorder, plug])⟩


/-! ## Structural splice: the blocks -/

theorem erase_splice_right_spec {s : State α} {k : Ctx} {c cr : Color}
    {rl rr : Tree} {n ch : Nat}
    (h : WF s (plug k (.node c .nil n (.node cr rl ch rr)))) :
    WF ((__chx_rb_change_child s n ch (__chx_rb_parent (s.mem n).__rb_parent_color)).store_pc ch
      (s.mem n).__rb_parent_color) (plug k (.node c rl ch rr)) := by
  rw [WF_plug'] at h
  obtain ⟨hk, hT, hnd⟩ := h
  have hpar := RepCtx_ctxAddr_aligned hk
  have hnd0 := hnd
  have hpw := parent_of_word c hpar
  try simp only [__chx_rb_rotate_set_parents, WF_call]
  simp only [Tree.inorder, List.nodup_append, List.nodup_cons, List.disjoint_append_left,
        List.disjoint_append_right, List.disjoint_cons_left, List.disjoint_cons_right,
        List.mem_append, List.mem_cons, not_or] at hnd
  simp only [Rep, addr_node, addr_nil, color_node, color_nil] at hT
  simp only [chx_rb_parent, chx_rb_set_parent_color, chx_rb_set_parent, chx_rb_color, chx_rb_set_black, store_pc_pc, store_left_pc, store_right_pc,
        store_pc_left, store_pc_right, store_left_left, store_left_right, store_right_left,
        store_right_right, call_mem, change_child_pc, change_child_store_pc,
        hT, hpw, ne_eq, not_false_eq_true, not_true_eq_false, if_true, if_false,
        ite_true, ite_false, addr_node, addr_nil, paintBlack_nil, paintBlack_node]
  refine WF_change_child_erase (T := .node c .nil n (.node cr rl ch rr))
    (U := .node c rl ch rr) (n := n) hk hnd0 hT.1 (by simp) ?_ ?_ ?_ ?_
  · simp
  · intro x hx
    have f0 : x ≠ ch := frame_ne hnd0 hx (by simp [Tree.inorder])
    simp [store_pc_mem_ne, store_left_mem_ne, store_right_mem_ne, f0]
  · simp [Rep, Rep_store_pc, Rep_store_left, Rep_store_right,
      CHX_RB_RED, CHX_RB_BLACK, hT, hnd]
  · rw [inorder_erase_node (List.nodup_append.1 hnd0).1]
    simp [Tree.inorder]

theorem erase_splice_left_spec {s : State α} {k : Ctx} {c cl : Color}
    {ll lr : Tree} {n ch : Nat}
    (h : WF s (plug k (.node c (.node cl ll ch lr) n .nil))) :
    WF (__chx_rb_change_child (s.store_pc ch (s.mem n).__rb_parent_color) n ch
      (__chx_rb_parent (s.mem n).__rb_parent_color)) (plug k (.node c ll ch lr)) := by
  rw [WF_plug'] at h
  obtain ⟨hk, hT, hnd⟩ := h
  have hpar := RepCtx_ctxAddr_aligned hk
  have hnd0 := hnd
  have hpw := parent_of_word c hpar
  try simp only [__chx_rb_rotate_set_parents, WF_call]
  simp only [Tree.inorder, List.nodup_append, List.nodup_cons, List.disjoint_append_left,
        List.disjoint_append_right, List.disjoint_cons_left, List.disjoint_cons_right,
        List.mem_append, List.mem_cons, not_or] at hnd
  simp only [Rep, addr_node, addr_nil, color_node, color_nil] at hT
  simp only [chx_rb_parent, chx_rb_set_parent_color, chx_rb_set_parent, chx_rb_color, chx_rb_set_black, store_pc_pc, store_left_pc, store_right_pc,
        store_pc_left, store_pc_right, store_left_left, store_left_right, store_right_left,
        store_right_right, call_mem, change_child_pc, change_child_store_pc,
        hT, hpw, ne_eq, not_false_eq_true, not_true_eq_false, if_true, if_false,
        ite_true, ite_false, addr_node, addr_nil, paintBlack_nil, paintBlack_node]
  refine WF_change_child_erase (T := .node c (.node cl ll ch lr) n .nil)
    (U := .node c ll ch lr) (n := n) hk hnd0 hT.1 (by simp) ?_ ?_ ?_ ?_
  · simp
  · intro x hx
    have f0 : x ≠ ch := frame_ne hnd0 hx (by simp [Tree.inorder])
    simp [store_pc_mem_ne, store_left_mem_ne, store_right_mem_ne, f0]
  · simp [Rep, Rep_store_pc, Rep_store_left, Rep_store_right,
      CHX_RB_RED, CHX_RB_BLACK, hT, hnd]
  · rw [inorder_erase_node (List.nodup_append.1 hnd0).1]
    simp [Tree.inorder]

theorem erase_splice_successor_child_spec {s : State α} {k : Ctx} {c cl cs : Color}
    {ll lr C : Tree} {n lx sx : Nat}
    (h : WF s (plug k (.node c (.node cl ll lx lr) n (.node cs .nil sx C)))) :
    WF ((erase_splice_successor s n sx sx C.addr).1) (plug k (.node c (.node cl ll lx lr) sx C.paintBlack)) := by
  rw [WF_plug'] at h
  obtain ⟨hk, hT, hnd⟩ := h
  have hpar := RepCtx_ctxAddr_aligned hk
  have hnd0 := hnd
  have hpw := parent_of_word c hpar
  try simp only [erase_splice_successor, __chx_rb_rotate_set_parents, WF_call]
  cases C with
  | nil =>
    simp only [Tree.inorder, List.nodup_append, List.nodup_cons, List.disjoint_append_left,
          List.disjoint_append_right, List.disjoint_cons_left, List.disjoint_cons_right,
          List.mem_append, List.mem_cons, not_or] at hnd
    simp only [Rep, addr_node, addr_nil, color_node, color_nil] at hT
    have h_n_lx : n ≠ lx ∧ lx ≠ n := by
      first
      | exact ne_pair (by simp only [hnd, not_false_eq_true])
      | exact (ne_pair (by simp only [hnd, not_false_eq_true])).symm
    have h_n_sx : n ≠ sx ∧ sx ≠ n := by
      first
      | exact ne_pair (by simp only [hnd, not_false_eq_true])
      | exact (ne_pair (by simp only [hnd, not_false_eq_true])).symm
    have h_lx_sx : lx ≠ sx ∧ sx ≠ lx := by
      first
      | exact ne_pair (by simp only [hnd, not_false_eq_true])
      | exact (ne_pair (by simp only [hnd, not_false_eq_true])).symm
    simp only [chx_rb_parent, chx_rb_set_parent_color, chx_rb_set_parent, chx_rb_color, chx_rb_set_black, store_pc_pc, store_left_pc, store_right_pc,
          store_pc_left, store_pc_right, store_left_left, store_left_right, store_right_left,
          store_right_right, call_mem, change_child_pc, change_child_store_pc,
          hT, h_n_lx, h_n_sx, h_lx_sx, hpw, ne_eq, not_false_eq_true, not_true_eq_false, if_true, if_false,
          ite_true, ite_false, addr_node, addr_nil, paintBlack_nil, paintBlack_node, color_of_word]
    refine WF_change_child_erase (T := .node c (.node cl ll lx lr) n (.node cs .nil sx .nil))
      (U := .node c (.node cl ll lx lr) sx .nil) (n := n) hk hnd0 hT.1 (by simp) ?_ ?_ ?_ ?_
    · simp
    · intro x hx
      have f0 : x ≠ lx := frame_ne hnd0 hx (by simp [Tree.inorder])
      have f1 : x ≠ sx := frame_ne hnd0 hx (by simp [Tree.inorder])
      simp [store_pc_mem_ne, store_left_mem_ne, store_right_mem_ne, f0, f1]
    · simp [Rep, Rep_store_pc, Rep_store_left, Rep_store_right,
        CHX_RB_RED, CHX_RB_BLACK, hT, hnd, h_n_lx, h_n_sx, h_lx_sx, color_of_word, Nat.add_comm]
    · rw [inorder_erase_node (List.nodup_append.1 hnd0).1]
      simp [Tree.inorder]
  | node cC Cl cx Cr =>
    simp only [Tree.inorder, List.nodup_append, List.nodup_cons, List.disjoint_append_left,
          List.disjoint_append_right, List.disjoint_cons_left, List.disjoint_cons_right,
          List.mem_append, List.mem_cons, not_or] at hnd
    simp only [Rep, addr_node, addr_nil, color_node, color_nil] at hT
    have h_n_lx : n ≠ lx ∧ lx ≠ n := by
      first
      | exact ne_pair (by simp only [hnd, not_false_eq_true])
      | exact (ne_pair (by simp only [hnd, not_false_eq_true])).symm
    have h_n_sx : n ≠ sx ∧ sx ≠ n := by
      first
      | exact ne_pair (by simp only [hnd, not_false_eq_true])
      | exact (ne_pair (by simp only [hnd, not_false_eq_true])).symm
    have h_n_cx : n ≠ cx ∧ cx ≠ n := by
      first
      | exact ne_pair (by simp only [hnd, not_false_eq_true])
      | exact (ne_pair (by simp only [hnd, not_false_eq_true])).symm
    have h_lx_sx : lx ≠ sx ∧ sx ≠ lx := by
      first
      | exact ne_pair (by simp only [hnd, not_false_eq_true])
      | exact (ne_pair (by simp only [hnd, not_false_eq_true])).symm
    have h_lx_cx : lx ≠ cx ∧ cx ≠ lx := by
      first
      | exact ne_pair (by simp only [hnd, not_false_eq_true])
      | exact (ne_pair (by simp only [hnd, not_false_eq_true])).symm
    have h_sx_cx : sx ≠ cx ∧ cx ≠ sx := by
      first
      | exact ne_pair (by simp only [hnd, not_false_eq_true])
      | exact (ne_pair (by simp only [hnd, not_false_eq_true])).symm
    have h0_cx : cx ≠ 0 := by simp only [hT, ne_eq, not_false_eq_true]
    simp only [chx_rb_parent, chx_rb_set_parent_color, chx_rb_set_parent, chx_rb_color, chx_rb_set_black, store_pc_pc, store_left_pc, store_right_pc,
          store_pc_left, store_pc_right, store_left_left, store_left_right, store_right_left,
          store_right_right, call_mem, change_child_pc, change_child_store_pc,
          hT, h_n_lx, h_n_sx, h_n_cx, h_lx_sx, h_lx_cx, h_sx_cx, h0_cx, hpw, ne_eq, not_false_eq_true, not_true_eq_false, if_true, if_false,
          ite_true, ite_false, addr_node, addr_nil, paintBlack_nil, paintBlack_node, color_of_word]
    refine WF_change_child_erase (T := .node c (.node cl ll lx lr) n (.node cs .nil sx (.node cC Cl cx Cr)))
      (U := .node c (.node cl ll lx lr) sx (.node .black Cl cx Cr)) (n := n) hk hnd0 hT.1 (by simp) ?_ ?_ ?_ ?_
    · simp
    · intro x hx
      have f0 : x ≠ lx := frame_ne hnd0 hx (by simp [Tree.inorder])
      have f1 : x ≠ sx := frame_ne hnd0 hx (by simp [Tree.inorder])
      have f2 : x ≠ cx := frame_ne hnd0 hx (by simp [Tree.inorder])
      simp [store_pc_mem_ne, store_left_mem_ne, store_right_mem_ne, f0, f1, f2]
    · simp [Rep, Rep_store_pc, Rep_store_left, Rep_store_right,
        CHX_RB_RED, CHX_RB_BLACK, hT, hnd, h_n_lx, h_n_sx, h_n_cx, h_lx_sx, h_lx_cx, h_sx_cx, h0_cx, color_of_word, Nat.add_comm]
    · rw [inorder_erase_node (List.nodup_append.1 hnd0).1]
      simp [Tree.inorder]


/-! ## Structural splice: successor deep in the right subtree -/

theorem bit_inj {c c' : Color} (h : c.bit = c'.bit) : c = c' := by
  cases c <;> cases c' <;> simp_all [Color.bit]

theorem plug_addr_eq : ∀ (rk : Ctx) (X Y : Tree), rk ≠ [] → (plug rk X).addr = (plug rk Y).addr
  | [], _, _, h => absurd rfl h
  | [.left c a r], X, Y, _ => rfl
  | [.right c l a], X, Y, _ => rfl
  | .left c a r :: f :: k, X, Y, _ => plug_addr_eq (f :: k) _ _ (by simp)
  | .right c l a :: f :: k, X, Y, _ => plug_addr_eq (f :: k) _ _ (by simp)

theorem ctxAddr_cons (par0 par0' : Nat) (f : Frame) (k : Ctx) :
    ctxAddr par0 (f :: k) = ctxAddr par0' (f :: k) := rfl

theorem ctxAddr_mem (par0 : Nat) : ∀ (k : Ctx), k ≠ [] → ctxAddr par0 k ∈ ctxNodes k
  | [], h => absurd rfl h
  | .left c a r :: k, _ => by simp [ctxAddr, Frame.addr, mem_ctxNodes_left]
  | .right c l a :: k, _ => by simp [ctxAddr, Frame.addr, mem_ctxNodes_right]

/-- The outermost frame of a non-empty context is the node `top`. -/
theorem RepCtx_top {m : Nat → chx_rb_node} {top par0 : Nat} :
    ∀ (rk : Ctx) (p : Nat), rk ≠ [] → RepCtx m top par0 rk p →
      top ∈ ctxNodes rk ∧ ∃ ctop : Color, (m top).__rb_parent_color = par0 + ctop.bit
  | [], _, h, _ => absurd rfl h
  | [.left c a r], p, _, h => by
    obtain ⟨h1, h2, h3, h4, h5, h6, h7⟩ := h
    simp only [RepCtx] at h7
    subst h7
    exact ⟨by simp [mem_ctxNodes_left], c, h3⟩
  | [.right c l a], p, _, h => by
    obtain ⟨h1, h2, h3, h4, h5, h6, h7⟩ := h
    simp only [RepCtx] at h7
    subst h7
    exact ⟨by simp [mem_ctxNodes_right], c, h3⟩
  | .left c a r :: f :: k, p, _, h => by
    obtain ⟨ht, hc⟩ := RepCtx_top (f :: k) a (by simp) h.2.2.2.2.2.2
    exact ⟨by rw [mem_ctxNodes_left]; exact Or.inr (Or.inr ht), hc⟩
  | .right c l a :: f :: k, p, _, h => by
    obtain ⟨ht, hc⟩ := RepCtx_top (f :: k) a (by simp) h.2.2.2.2.2.2
    exact ⟨by rw [mem_ctxNodes_right]; exact Or.inr (Or.inr ht), hc⟩

/-- Re-hanging a left spine: the hole pointer of the innermost frame and the
parent of the outermost frame are rewritten, everything else is kept. -/
theorem RepCtx_rehang {m m' : Nat → chx_rb_node} {top par0 par0' : Nat} {τ : Color}
    (hpc0 : (m top).__rb_parent_color = par0 + τ.bit)
    (hpc' : (m' top).__rb_parent_color = par0' + τ.bit)
    (htr : (m' top).rb_right = (m top).rb_right) :
    ∀ (rk : Ctx) (p p' : Nat), rk ≠ [] → AllLeft rk → (ctxNodes rk).Nodup →
      RepCtx m top par0 rk p →
      (∀ x ∈ ctxNodes rk, x ≠ ctxAddr par0 rk → x ≠ top → m' x = m x) →
      (m' (ctxAddr par0 rk)).rb_left = p' →
      (ctxAddr par0 rk ≠ top →
        (m' (ctxAddr par0 rk)).rb_right = (m (ctxAddr par0 rk)).rb_right ∧
        (m' (ctxAddr par0 rk)).__rb_parent_color = (m (ctxAddr par0 rk)).__rb_parent_color) →
      (top ≠ ctxAddr par0 rk → (m' top).rb_left = (m top).rb_left) →
      RepCtx m' top par0' rk p'
  | [], _, _, h, _, _, _, _, _, _, _ => absurd rfl h
  | .right c l a :: k, _, _, _, hal, _, _, _, _, _, _ => absurd hal (by simp [AllLeft])
  | [.left c a r], p, p', _, _, hnd, h, hfr, hl, hne, hne' => by
    obtain ⟨h1, h2, h3, h4, h5, h6, h7⟩ := h
    simp only [RepCtx] at h7
    subst h7
    rw [nodup_ctxNodes_left] at hnd
    simp only [ctxAddr, Frame.addr] at hl hfr h3
    have hc : c = τ := bit_inj (by rw [hpc0] at h3; omega)
    subst hc
    refine ⟨h1, h2, hpc', hl, htr.trans h5, ?_, rfl⟩
    refine Rep_congr r _ (fun x hx => ?_) h6
    have hxa : x ≠ top := fun e => hnd.1 (e ▸ hx)
    exact hfr x (by rw [mem_ctxNodes_left]; exact Or.inr (Or.inl hx)) hxa hxa
  | .left c a r :: f :: k, p, p', _, hal, hnd, h, hfr, hl, hne, hne' => by
    obtain ⟨h1, h2, h3, h4, h5, h6, h7⟩ := h
    rw [nodup_ctxNodes_left] at hnd
    obtain ⟨n1, n2, n3, n4, n5⟩ := hnd
    simp only [ctxAddr, Frame.addr] at hl hfr hne hne' h3
    obtain ⟨htop, -⟩ := RepCtx_top (f :: k) a (by simp) h7
    have hat : a ≠ top := fun e => n2 (e ▸ htop)
    obtain ⟨e1, e2⟩ := hne hat
    have hf : f.addr ∈ ctxNodes (f :: k) := ctxAddr_mem 0 (f :: k) (by simp)
    have haf : f.addr ≠ a := fun e => n2 (e ▸ hf)
    refine ⟨h1, h2, e2.trans h3, hl, e1.trans h5, ?_, ?_⟩
    · refine Rep_congr r _ (fun x hx => ?_) h6
      have hxa : x ≠ a := fun e => n1 (e ▸ hx)
      have hxt : x ≠ top := fun e => n5 hx (e ▸ htop)
      exact hfr x (by rw [mem_ctxNodes_left]; exact Or.inr (Or.inl hx)) hxa hxt
    · have hal' : AllLeft (f :: k) := hal
      have hfl : (m f.addr).rb_left = a := by
        cases f with
        | left c2 a2 r2 => exact h7.2.2.2.1
        | right c2 l2 a2 => exact absurd hal' (by simp [AllLeft])
      refine RepCtx_rehang hpc0 hpc' htr (f :: k) a a (by simp) hal' n4 h7 ?_ ?_ ?_ ?_
      · intro x hx hx1 hx2
        have hxa : x ≠ a := fun e => n2 (e ▸ hx)
        exact hfr x (by rw [mem_ctxNodes_left]; exact Or.inr (Or.inr hx)) hxa hx2
      · show (m' f.addr).rb_left = a
        by_cases hft : f.addr = top
        · rw [hft, hne' (Ne.symm hat), ← hft, hfl]
        · rw [hfr f.addr (by rw [mem_ctxNodes_left]; exact Or.inr (Or.inr hf)) haf hft, hfl]
      · intro hft
        have hft' : f.addr ≠ top := hft
        rw [show ctxAddr par0 (f :: k) = f.addr from rfl,
          hfr f.addr (by rw [mem_ctxNodes_left]; exact Or.inr (Or.inr hf)) haf hft']
        exact ⟨rfl, rfl⟩
      · intro _
        exact hne' (Ne.symm hat)


theorem ctxBefore_allLeft : ∀ (rk : Ctx), AllLeft rk → ctxBefore rk = []
  | [], _ => rfl
  | .left c a r :: k, h => by
    simp only [ctxBefore]
    exact ctxBefore_allLeft k h
  | .right c l a :: k, h => absurd h (by simp [AllLeft])

theorem inorder_paintBlack (t : Tree) : t.paintBlack.inorder = t.inorder := by
  cases t <;> rfl

theorem addr_paintBlack (t : Tree) : t.paintBlack.addr = t.addr := by
  cases t <;> rfl

theorem mem_plug_of_mem_ctx {rk : Ctx} {X : Tree} {x : Nat} (h : x ∈ ctxNodes rk) :
    x ∈ (plug rk X).inorder :=
  (inorder_plug_perm rk X).mem_iff.2 (List.mem_append_right _ h)

theorem ne_of_mem_notMem {x y : Nat} {l : List Nat} (hx : x ∈ l) (hy : y ∉ l) :
    x ≠ y ∧ y ≠ x :=
  ⟨fun e => hy (e ▸ hx), fun e => hy (e ▸ hx)⟩

theorem notMem_of_disjoint {x : Nat} {l l' : List Nat} (hx : x ∈ l') (h : l.Disjoint l') :
    x ∉ l := fun hx' => h hx' hx

theorem notMem_of_disjoint' {x : Nat} {l l' : List Nat} (hx : x ∈ l') (h : l'.Disjoint l) :
    x ∉ l := fun hx' => h hx hx'

theorem ctxAddr_irrel (par0 par0' : Nat) : ∀ (k : Ctx), k ≠ [] → ctxAddr par0 k = ctxAddr par0' k
  | [], h => absurd rfl h
  | _ :: _, _ => rfl

theorem erase_splice_deep_spec (f1 f2 : Callback α) {s : State α} {k rk : Ctx}
    {c cl cs : Color} {ll lr C : Tree} {n lx sx a1 R : Nat}
    (h : WF s (plug k (.node c (.node cl ll lx lr) n (plug rk (.node cs .nil sx C)))))
    (hrk : rk ≠ []) (hal : AllLeft rk) (ha1 : a1 = ctxAddr n rk)
    (hR : R = (plug rk (.node cs .nil sx C)).addr) :
    WF (erase_splice_successor
        (((chx_rb_set_parent ((s.store_left a1 C.addr).store_right sx R) R sx).call
          f1 n sx).call f2 a1 sx) n sx a1 C.addr).1
      (plug k (.node c (.node cl ll lx lr) sx (plug rk C.paintBlack))) := by
  obtain ⟨hk, hT, hnd⟩ := WF_plug'.1 h
  have hpar := RepCtx_ctxAddr_aligned hk
  have hpw := parent_of_word c hpar
  have hnd0 := hnd
  obtain ⟨hn0, hn4, hnpc, hnl, hnr, hL, hTr⟩ := hT
  obtain ⟨hlx0, hlx4, hlxpc, hlxl, hlxr, hll, hlr⟩ := hL
  rw [Rep_plug] at hTr
  obtain ⟨hrkc, hX⟩ := hTr
  rw [← hR] at hrkc hnr
  have hctx : ctxAddr n rk = a1 := ha1.symm
  rw [hctx] at hX
  obtain ⟨hsx0, hsx4, hsxpc, hsxl, hsxr, -, hC⟩ := hX
  simp only [addr_node, addr_nil] at hrkc hsxl hnl
  obtain ⟨hRmem, ctop, hRpc⟩ := RepCtx_top rk sx hrk hrkc
  have ha1mem : a1 ∈ ctxNodes rk := ha1 ▸ ctxAddr_mem n rk hrk
  -- node sets
  have hperm : ((Tree.node c (.node cl ll lx lr) n (plug rk (.node cs .nil sx C))).inorder
      ++ ctxNodes k).Perm
      (((ll.inorder ++ lx :: lr.inorder) ++ n :: ((sx :: C.inorder) ++ ctxNodes rk))
        ++ ctxNodes k) := by
    refine List.Perm.append_right _ ?_
    simp only [Tree.inorder]
    refine List.Perm.append_left _ (List.Perm.cons _ ?_)
    simpa [Tree.inorder] using inorder_plug_perm rk (.node cs .nil sx C)
  have hnd1 := hperm.nodup_iff.1 hnd
  have hrkT : ∀ x ∈ ctxNodes rk,
      x ∈ (Tree.node c (.node cl ll lx lr) n (plug rk (.node cs .nil sx C))).inorder := by
    intro x hx
    simp only [Tree.inorder, List.mem_append, List.mem_cons]
    exact Or.inr (Or.inr (mem_plug_of_mem_ctx hx))
  have hsxT : sx ∈ (Tree.node c (.node cl ll lx lr) n (plug rk (.node cs .nil sx C))).inorder := by
    simp only [Tree.inorder, List.mem_append, List.mem_cons]
    refine Or.inr (Or.inr ((inorder_plug_perm rk _).mem_iff.2 (List.mem_append_left _ ?_)))
    simp [Tree.inorder]
  have hCT : ∀ x ∈ C.inorder,
      x ∈ (Tree.node c (.node cl ll lx lr) n (plug rk (.node cs .nil sx C))).inorder := by
    intro x hx
    simp only [Tree.inorder, List.mem_append, List.mem_cons]
    refine Or.inr (Or.inr ((inorder_plug_perm rk _).mem_iff.2 (List.mem_append_left _ ?_)))
    simp [Tree.inorder, hx]
  have hrknd : (ctxNodes rk).Nodup := by
    have := hnd1
    simp only [List.nodup_append, List.nodup_cons] at this
    tauto
  cases C with
  | nil =>
    simp only [Tree.inorder, List.nodup_append, List.nodup_cons, List.disjoint_append_left,
          List.disjoint_append_right, List.disjoint_cons_left, List.disjoint_cons_right,
          List.mem_append, List.mem_cons, not_or] at hnd1
    have h_n_lx : n ≠ lx ∧ lx ≠ n := by
      first
      | exact ne_pair (by simp only [hnd1, not_false_eq_true])
      | exact (ne_pair (by simp only [hnd1, not_false_eq_true])).symm
    have h_n_sx : n ≠ sx ∧ sx ≠ n := by
      first
      | exact ne_pair (by simp only [hnd1, not_false_eq_true])
      | exact (ne_pair (by simp only [hnd1, not_false_eq_true])).symm
    have h_lx_sx : lx ≠ sx ∧ sx ≠ lx := by
      first
      | exact ne_pair (by simp only [hnd1, not_false_eq_true])
      | exact (ne_pair (by simp only [hnd1, not_false_eq_true])).symm
    have h_a1_n : a1 ≠ n ∧ n ≠ a1 :=
      ne_of_mem_notMem ha1mem (by simp only [hnd1, not_false_eq_true])
    have h_a1_lx : a1 ≠ lx ∧ lx ≠ a1 :=
      ne_of_mem_notMem ha1mem (by simp only [hnd1, not_false_eq_true])
    have h_a1_sx : a1 ≠ sx ∧ sx ≠ a1 :=
      ne_of_mem_notMem ha1mem (by simp only [hnd1, not_false_eq_true])
    have h_R_n : R ≠ n ∧ n ≠ R :=
      ne_of_mem_notMem hRmem (by simp only [hnd1, not_false_eq_true])
    have h_R_lx : R ≠ lx ∧ lx ≠ R :=
      ne_of_mem_notMem hRmem (by simp only [hnd1, not_false_eq_true])
    have h_R_sx : R ≠ sx ∧ sx ≠ R :=
      ne_of_mem_notMem hRmem (by simp only [hnd1, not_false_eq_true])
    have hn_a1_ll : a1 ∉ ll.inorder := by
      first
      | exact notMem_of_disjoint ha1mem (by simp only [hnd1])
      | exact notMem_of_disjoint' ha1mem (by simp only [hnd1])
    have hn_a1_lr : a1 ∉ lr.inorder := by
      first
      | exact notMem_of_disjoint ha1mem (by simp only [hnd1])
      | exact notMem_of_disjoint' ha1mem (by simp only [hnd1])
    have hn_R_ll : R ∉ ll.inorder := by
      first
      | exact notMem_of_disjoint hRmem (by simp only [hnd1])
      | exact notMem_of_disjoint' hRmem (by simp only [hnd1])
    have hn_R_lr : R ∉ lr.inorder := by
      first
      | exact notMem_of_disjoint hRmem (by simp only [hnd1])
      | exact notMem_of_disjoint' hRmem (by simp only [hnd1])
    simp only [erase_splice_successor, chx_rb_parent, chx_rb_set_parent_color, chx_rb_set_parent,
          chx_rb_color, store_pc_pc, store_left_pc, store_right_pc,
          store_pc_left, store_pc_right, store_left_left, store_left_right, store_right_left,
          store_right_right, call_mem, change_child_pc, change_child_store_pc,
          hnl, hnpc, hlxpc, hRpc, hsxpc, hn4, hlx4, hsx4, h_n_lx, h_n_sx, h_lx_sx, h_a1_n, h_a1_lx, h_a1_sx, h_R_n, h_R_lx, h_R_sx, hpw, color_of_word, ne_eq, not_false_eq_true, not_true_eq_false,
          if_true, if_false, ite_true, ite_false, addr_node, addr_nil, paintBlack_nil, paintBlack_node]
    refine WF_change_child_erase
      (T := .node c (.node cl ll lx lr) n (plug rk (.node cs .nil sx .nil)))
      (U := .node c (.node cl ll lx lr) sx (plug rk .nil)) (n := n) hk hnd0 hn0 (by simp) ?_ ?_ ?_ ?_
    · simp
    · intro x hx
      have g1 : x ≠ a1 := frame_ne hnd0 hx (hrkT a1 ha1mem)
      have g2 : x ≠ R := frame_ne hnd0 hx (hrkT R hRmem)
      have g3 : x ≠ sx := frame_ne hnd0 hx hsxT
      have g4 : x ≠ lx := frame_ne hnd0 hx (by simp [Tree.inorder])
      simp [store_pc_mem_ne, store_left_mem_ne, store_right_mem_ne, g1, g2, g3, g4]
    · have hplug : (plug rk .nil).addr = R := by
        rw [hR]; exact plug_addr_eq rk _ _ hrk
      simp only [Rep, addr_node, hplug]
      refine ⟨hsx0, hsx4, ?_, ?_, ?_, ⟨hlx0, hlx4, ?_, ?_, ?_, ?_, ?_⟩, ?_⟩
      · simp [h_n_lx, h_n_sx, h_lx_sx, h_a1_n, h_a1_lx, h_a1_sx, h_R_n, h_R_lx, h_R_sx]
      · simp [h_n_lx, h_n_sx, h_lx_sx, h_a1_n, h_a1_lx, h_a1_sx, h_R_n, h_R_lx, h_R_sx]
      · simp [h_n_lx, h_n_sx, h_lx_sx, h_a1_n, h_a1_lx, h_a1_sx, h_R_n, h_R_lx, h_R_sx]
      · simp [h_n_lx, h_n_sx, h_lx_sx, h_a1_n, h_a1_lx, h_a1_sx, h_R_n, h_R_lx, h_R_sx, Nat.add_comm]
      · simp [h_n_lx, h_n_sx, h_lx_sx, h_a1_n, h_a1_lx, h_a1_sx, h_R_n, h_R_lx, h_R_sx, hlxl]
      · simp [h_n_lx, h_n_sx, h_lx_sx, h_a1_n, h_a1_lx, h_a1_sx, h_R_n, h_R_lx, h_R_sx, hlxr]
      · simp [Rep_store_pc, Rep_store_left, Rep_store_right, hnd1, hn_a1_ll, hn_a1_lr, hn_R_ll, hn_R_lr, hll]
      · simp [Rep_store_pc, Rep_store_left, Rep_store_right, hnd1, hn_a1_ll, hn_a1_lr, hn_R_ll, hn_R_lr, hlr]
      · rw [Rep_plug, hplug]
        refine ⟨?_, ?_⟩
        · refine RepCtx_rehang (τ := ctop) hRpc ?_ ?_ rk sx _ hrk hal hrknd hrkc ?_ ?_ ?_ ?_
          · simp [h_n_lx, h_n_sx, h_lx_sx, h_a1_n, h_a1_lx, h_a1_sx, h_R_n, h_R_lx, h_R_sx, Nat.add_comm]
          · simp [h_n_lx, h_n_sx, h_lx_sx, h_a1_n, h_a1_lx, h_a1_sx, h_R_n, h_R_lx, h_R_sx]
          · intro x hx hx1 hx2
            rw [hctx] at hx1
            have g3 : x ≠ sx := (ne_of_mem_notMem hx (by simp only [hnd1, not_false_eq_true])).1
            have g4 : x ≠ lx := (ne_of_mem_notMem hx (by simp only [hnd1, not_false_eq_true])).1
            skip
            simp [store_pc_mem_ne, store_left_mem_ne, store_right_mem_ne, hx1, hx2, g3, g4]
          · rw [hctx]
            simp [h_n_lx, h_n_sx, h_lx_sx, h_a1_n, h_a1_lx, h_a1_sx, h_R_n, h_R_lx, h_R_sx]
          · rw [hctx]
            intro hne
            simp [h_n_lx, h_n_sx, h_lx_sx, h_a1_n, h_a1_lx, h_a1_sx, h_R_n, h_R_lx, h_R_sx, hne, Ne.symm hne]
          · rw [hctx]
            intro hne
            simp [h_n_lx, h_n_sx, h_lx_sx, h_a1_n, h_a1_lx, h_a1_sx, h_R_n, h_R_lx, h_R_sx, hne, Ne.symm hne]
        · rw [show ctxAddr sx rk = a1 from (ctxAddr_irrel sx n rk hrk).trans hctx]
          trivial
    · rw [inorder_erase_node (List.nodup_append.1 hnd0).1]
      simp [Tree.inorder, inorder_plug, ctxBefore_allLeft rk hal]
  | node cC Cl cx Cr =>
    have hcxT := hCT cx (by simp [Tree.inorder])
    simp only [Tree.inorder, List.nodup_append, List.nodup_cons, List.disjoint_append_left,
          List.disjoint_append_right, List.disjoint_cons_left, List.disjoint_cons_right,
          List.mem_append, List.mem_cons, not_or] at hnd1
    obtain ⟨hcx0, hcx4, hcxpc, hcxl, hcxr, hCl, hCr⟩ := hC
    have h_n_lx : n ≠ lx ∧ lx ≠ n := by
      first
      | exact ne_pair (by simp only [hnd1, not_false_eq_true])
      | exact (ne_pair (by simp only [hnd1, not_false_eq_true])).symm
    have h_n_sx : n ≠ sx ∧ sx ≠ n := by
      first
      | exact ne_pair (by simp only [hnd1, not_false_eq_true])
      | exact (ne_pair (by simp only [hnd1, not_false_eq_true])).symm
    have h_n_cx : n ≠ cx ∧ cx ≠ n := by
      first
      | exact ne_pair (by simp only [hnd1, not_false_eq_true])
      | exact (ne_pair (by simp only [hnd1, not_false_eq_true])).symm
    have h_lx_sx : lx ≠ sx ∧ sx ≠ lx := by
      first
      | exact ne_pair (by simp only [hnd1, not_false_eq_true])
      | exact (ne_pair (by simp only [hnd1, not_false_eq_true])).symm
    have h_lx_cx : lx ≠ cx ∧ cx ≠ lx := by
      first
      | exact ne_pair (by simp only [hnd1, not_false_eq_true])
      | exact (ne_pair (by simp only [hnd1, not_false_eq_true])).symm
    have h_sx_cx : sx ≠ cx ∧ cx ≠ sx := by
      first
      | exact ne_pair (by simp only [hnd1, not_false_eq_true])
      | exact (ne_pair (by simp only [hnd1, not_false_eq_true])).symm
    have h_a1_n : a1 ≠ n ∧ n ≠ a1 :=
      ne_of_mem_notMem ha1mem (by simp only [hnd1, not_false_eq_true])
    have h_a1_lx : a1 ≠ lx ∧ lx ≠ a1 :=
      ne_of_mem_notMem ha1mem (by simp only [hnd1, not_false_eq_true])
    have h_a1_sx : a1 ≠ sx ∧ sx ≠ a1 :=
      ne_of_mem_notMem ha1mem (by simp only [hnd1, not_false_eq_true])
    have h_a1_cx : a1 ≠ cx ∧ cx ≠ a1 :=
      ne_of_mem_notMem ha1mem (by simp only [hnd1, not_false_eq_true])
    have h_R_n : R ≠ n ∧ n ≠ R :=
      ne_of_mem_notMem hRmem (by simp only [hnd1, not_false_eq_true])
    have h_R_lx : R ≠ lx ∧ lx ≠ R :=
      ne_of_mem_notMem hRmem (by simp only [hnd1, not_false_eq_true])
    have h_R_sx : R ≠ sx ∧ sx ≠ R :=
      ne_of_mem_notMem hRmem (by simp only [hnd1, not_false_eq_true])
    have h_R_cx : R ≠ cx ∧ cx ≠ R :=
      ne_of_mem_notMem hRmem (by simp only [hnd1, not_false_eq_true])
    have hn_a1_ll : a1 ∉ ll.inorder := by
      first
      | exact notMem_of_disjoint ha1mem (by simp only [hnd1])
      | exact notMem_of_disjoint' ha1mem (by simp only [hnd1])
    have hn_a1_lr : a1 ∉ lr.inorder := by
      first
      | exact notMem_of_disjoint ha1mem (by simp only [hnd1])
      | exact notMem_of_disjoint' ha1mem (by simp only [hnd1])
    have hn_a1_Cl : a1 ∉ Cl.inorder := by
      first
      | exact notMem_of_disjoint ha1mem (by simp only [hnd1])
      | exact notMem_of_disjoint' ha1mem (by simp only [hnd1])
    have hn_a1_Cr : a1 ∉ Cr.inorder := by
      first
      | exact notMem_of_disjoint ha1mem (by simp only [hnd1])
      | exact notMem_of_disjoint' ha1mem (by simp only [hnd1])
    have hn_R_ll : R ∉ ll.inorder := by
      first
      | exact notMem_of_disjoint hRmem (by simp only [hnd1])
      | exact notMem_of_disjoint' hRmem (by simp only [hnd1])
    have hn_R_lr : R ∉ lr.inorder := by
      first
      | exact notMem_of_disjoint hRmem (by simp only [hnd1])
      | exact notMem_of_disjoint' hRmem (by simp only [hnd1])
    have hn_R_Cl : R ∉ Cl.inorder := by
      first
      | exact notMem_of_disjoint hRmem (by simp only [hnd1])
      | exact notMem_of_disjoint' hRmem (by simp only [hnd1])
    have hn_R_Cr : R ∉ Cr.inorder := by
      first
      | exact notMem_of_disjoint hRmem (by simp only [hnd1])
      | exact notMem_of_disjoint' hRmem (by simp only [hnd1])
    simp only [erase_splice_successor, chx_rb_parent, chx_rb_set_parent_color, chx_rb_set_parent,
          chx_rb_color, store_pc_pc, store_left_pc, store_right_pc,
          store_pc_left, store_pc_right, store_left_left, store_left_right, store_right_left,
          store_right_right, call_mem, change_child_pc, change_child_store_pc,
          hnl, hnpc, hlxpc, hRpc, hsxpc, hn4, hlx4, hsx4, hcxpc, hcx0, h_n_lx, h_n_sx, h_n_cx, h_lx_sx, h_lx_cx, h_sx_cx, h_a1_n, h_a1_lx, h_a1_sx, h_a1_cx, h_R_n, h_R_lx, h_R_sx, h_R_cx, hpw, color_of_word, ne_eq, not_false_eq_true, not_true_eq_false,
          if_true, if_false, ite_true, ite_false, addr_node, addr_nil, paintBlack_nil, paintBlack_node]
    refine WF_change_child_erase
      (T := .node c (.node cl ll lx lr) n (plug rk (.node cs .nil sx (.node cC Cl cx Cr))))
      (U := .node c (.node cl ll lx lr) sx (plug rk (.node .black Cl cx Cr))) (n := n) hk hnd0 hn0 (by simp) ?_ ?_ ?_ ?_
    · simp
    · intro x hx
      have g1 : x ≠ a1 := frame_ne hnd0 hx (hrkT a1 ha1mem)
      have g2 : x ≠ R := frame_ne hnd0 hx (hrkT R hRmem)
      have g3 : x ≠ sx := frame_ne hnd0 hx hsxT
      have g4 : x ≠ lx := frame_ne hnd0 hx (by simp [Tree.inorder])
      have g5 : x ≠ cx := frame_ne hnd0 hx hcxT
      simp [store_pc_mem_ne, store_left_mem_ne, store_right_mem_ne, g1, g2, g3, g4, g5]
    · have hplug : (plug rk (.node .black Cl cx Cr)).addr = R := by
        rw [hR]; exact plug_addr_eq rk _ _ hrk
      simp only [Rep, addr_node, hplug]
      refine ⟨hsx0, hsx4, ?_, ?_, ?_, ⟨hlx0, hlx4, ?_, ?_, ?_, ?_, ?_⟩, ?_⟩
      · simp [h_n_lx, h_n_sx, h_n_cx, h_lx_sx, h_lx_cx, h_sx_cx, h_a1_n, h_a1_lx, h_a1_sx, h_a1_cx, h_R_n, h_R_lx, h_R_sx, h_R_cx]
      · simp [h_n_lx, h_n_sx, h_n_cx, h_lx_sx, h_lx_cx, h_sx_cx, h_a1_n, h_a1_lx, h_a1_sx, h_a1_cx, h_R_n, h_R_lx, h_R_sx, h_R_cx]
      · simp [h_n_lx, h_n_sx, h_n_cx, h_lx_sx, h_lx_cx, h_sx_cx, h_a1_n, h_a1_lx, h_a1_sx, h_a1_cx, h_R_n, h_R_lx, h_R_sx, h_R_cx]
      · simp [h_n_lx, h_n_sx, h_n_cx, h_lx_sx, h_lx_cx, h_sx_cx, h_a1_n, h_a1_lx, h_a1_sx, h_a1_cx, h_R_n, h_R_lx, h_R_sx, h_R_cx, Nat.add_comm]
      · simp [h_n_lx, h_n_sx, h_n_cx, h_lx_sx, h_lx_cx, h_sx_cx, h_a1_n, h_a1_lx, h_a1_sx, h_a1_cx, h_R_n, h_R_lx, h_R_sx, h_R_cx, hlxl]
      · simp [h_n_lx, h_n_sx, h_n_cx, h_lx_sx, h_lx_cx, h_sx_cx, h_a1_n, h_a1_lx, h_a1_sx, h_a1_cx, h_R_n, h_R_lx, h_R_sx, h_R_cx, hlxr]
      · simp [Rep_store_pc, Rep_store_left, Rep_store_right, hnd1, hn_a1_ll, hn_a1_lr, hn_a1_Cl, hn_a1_Cr, hn_R_ll, hn_R_lr, hn_R_Cl, hn_R_Cr, hll]
      · simp [Rep_store_pc, Rep_store_left, Rep_store_right, hnd1, hn_a1_ll, hn_a1_lr, hn_a1_Cl, hn_a1_Cr, hn_R_ll, hn_R_lr, hn_R_Cl, hn_R_Cr, hlr]
      · rw [Rep_plug, hplug]
        refine ⟨?_, ?_⟩
        · refine RepCtx_rehang (τ := ctop) hRpc ?_ ?_ rk sx _ hrk hal hrknd hrkc ?_ ?_ ?_ ?_
          · simp [h_n_lx, h_n_sx, h_n_cx, h_lx_sx, h_lx_cx, h_sx_cx, h_a1_n, h_a1_lx, h_a1_sx, h_a1_cx, h_R_n, h_R_lx, h_R_sx, h_R_cx, Nat.add_comm]
          · simp [h_n_lx, h_n_sx, h_n_cx, h_lx_sx, h_lx_cx, h_sx_cx, h_a1_n, h_a1_lx, h_a1_sx, h_a1_cx, h_R_n, h_R_lx, h_R_sx, h_R_cx]
          · intro x hx hx1 hx2
            rw [hctx] at hx1
            have g3 : x ≠ sx := (ne_of_mem_notMem hx (by simp only [hnd1, not_false_eq_true])).1
            have g4 : x ≠ lx := (ne_of_mem_notMem hx (by simp only [hnd1, not_false_eq_true])).1
            have g5 : x ≠ cx := (ne_of_mem_notMem hx (by simp only [hnd1, not_false_eq_true])).1
            simp [store_pc_mem_ne, store_left_mem_ne, store_right_mem_ne, hx1, hx2, g3, g4, g5]
          · rw [hctx]
            simp [h_n_lx, h_n_sx, h_n_cx, h_lx_sx, h_lx_cx, h_sx_cx, h_a1_n, h_a1_lx, h_a1_sx, h_a1_cx, h_R_n, h_R_lx, h_R_sx, h_R_cx]
          · rw [hctx]
            intro hne
            simp [h_n_lx, h_n_sx, h_n_cx, h_lx_sx, h_lx_cx, h_sx_cx, h_a1_n, h_a1_lx, h_a1_sx, h_a1_cx, h_R_n, h_R_lx, h_R_sx, h_R_cx, hne, Ne.symm hne]
          · rw [hctx]
            intro hne
            simp [h_n_lx, h_n_sx, h_n_cx, h_lx_sx, h_lx_cx, h_sx_cx, h_a1_n, h_a1_lx, h_a1_sx, h_a1_cx, h_R_n, h_R_lx, h_R_sx, h_R_cx, hne, Ne.symm hne]
        · rw [show ctxAddr sx rk = a1 from (ctxAddr_irrel sx n rk hrk).trans hctx]
          simp [Rep, Rep_store_pc, Rep_store_left, Rep_store_right, CHX_RB_BLACK, hnd1, hn_a1_ll, hn_a1_lr, hn_a1_Cl, hn_a1_Cr, hn_R_ll, hn_R_lr, hn_R_Cl, hn_R_Cr, h_n_lx, h_n_sx, h_n_cx, h_lx_sx, h_lx_cx, h_sx_cx, h_a1_n, h_a1_lx, h_a1_sx, h_a1_cx, h_R_n, h_R_lx, h_R_sx, h_R_cx, hcx0, hcx4, hcxl, hcxr, hCl, hCr]
    · rw [inorder_erase_node (List.nodup_append.1 hnd0).1]
      simp [Tree.inorder, inorder_plug, ctxBefore_allLeft rk hal]


/-! ## Structural splice: finding the successor -/

/-- Every non-empty tree is its left spine around its leftmost node. -/
theorem leftmost_split : ∀ (r : Tree), r ≠ .nil →
    ∃ rk cs sx C, AllLeft rk ∧ r = plug rk (.node cs .nil sx C)
  | .nil, h => absurd rfl h
  | .node c .nil a rr, _ => ⟨[], c, a, rr, trivial, rfl⟩
  | .node c (.node cl ll la lr) a rr, _ => by
    obtain ⟨rk, cs, sx, C, h1, h2⟩ := leftmost_split (.node cl ll la lr) (by simp)
    refine ⟨rk ++ [.left c a rr], cs, sx, C, ?_, ?_⟩
    · clear h2
      induction rk with
      | nil => trivial
      | cons f rk ih =>
        cases f with
        | left _ _ _ => exact ih h1
        | right _ _ _ => exact absurd h1 (by simp [AllLeft])
    · rw [plug_append, ← h2]
      rfl

theorem AllLeft_append {k1 k2 : Ctx} : AllLeft (k1 ++ k2) ↔ AllLeft k1 ∧ AllLeft k2 := by
  induction k1 with
  | nil => simp [AllLeft]
  | cons f k1 ih =>
    cases f with
    | left _ _ _ => simpa [AllLeft] using ih
    | right _ _ _ => simp [AllLeft]

/-- The descent of lines 742-746 ends at the leftmost node `sx` of the subtree
at `top` and yields it with its parent. -/
theorem successor_loop_spec {s : State α} {cs : Color} {sx : Nat} {C : Tree} :
    ∀ (rk : Ctx) (par fuel : Nat), rk ≠ [] → AllLeft rk →
      Rep s.mem (plug rk (.node cs .nil sx C)) par → rk.length ≤ fuel →
      erase_successor_loop s fuel (plug rk (.node cs .nil sx C)).addr
        (s.mem (plug rk (.node cs .nil sx C)).addr).rb_left = some (ctxAddr par rk, sx) := by
  intro rk
  induction rk using List.reverseRecOn with
  | nil => intro par fuel h; exact absurd rfl h
  | append_singleton rk f ih =>
    intro par fuel _ hal hrep hlen
    rw [AllLeft_append] at hal
    obtain ⟨hal1, hal2⟩ := hal
    cases f with
    | right _ _ _ => exact absurd hal2 (by simp [AllLeft])
    | left c a r =>
      rw [plug_append] at hrep ⊢
      simp only [plug, addr_node] at hrep ⊢
      obtain ⟨h1, h2, h3, h4, h5, h6, h7⟩ := hrep
      simp only [List.length_append, List.length_singleton] at hlen
      obtain ⟨fuel, rfl⟩ : ∃ f', fuel = f' + 1 := ⟨fuel - 1, by omega⟩
      rw [erase_successor_loop, h4]
      by_cases hrk : rk = []
      · subst hrk
        simp only [plug, addr_node, Rep] at h6 ⊢
        simp [h6.2.2.2.1, ctxAddr, Frame.addr]
      · have ih' := ih a fuel hrk hal1 h6 (by omega)
        have hne : (s.mem (plug rk (.node cs .nil sx C)).addr).rb_left ≠ 0 := by
          obtain ⟨rk', f', e⟩ : ∃ rk' f', rk = rk' ++ [f'] :=
            ⟨rk.dropLast, rk.getLast hrk, (List.dropLast_append_getLast hrk).symm⟩
          subst e
          rw [AllLeft_append] at hal1
          cases f' with
          | right _ _ _ => exact absurd hal1.2 (by simp [AllLeft])
          | left c' a' r' =>
            rw [plug_append] at h6 ⊢
            simp only [plug, addr_node] at h6 ⊢
            rw [h6.2.2.2.1]
            have hsub := h6.2.2.2.2.2.1
            have : plug rk' (.node cs .nil sx C) ≠ .nil := by
              cases rk' with
              | nil => simp [plug]
              | cons g rk'' => exact plug_addr_ne_nil _ _ (by simp)
            exact fun e => this ((Rep_addr_eq_zero hsub).1 e)
        simp only [ne_eq, hne, not_false_eq_true, if_true]
        rw [ih']
        cases rk with
        | nil => exact absurd rfl hrk
        | cons g rk' => rfl


/-! ## Erase: putting splice and fix-up together -/

theorem topColorOK_right_addr (c0 : Color) (c : Color) (l : Tree) (a a' : Nat) (k : Ctx) :
    ∀ rk : Ctx, topColorOK c0 (rk ++ .right c l a :: k) ↔
      topColorOK c0 (rk ++ .right c l a' :: k)
  | [] => Iff.rfl
  | _ :: _ => Iff.rfl

theorem CtxOK_right_addr (c : Color) (l : Tree) (a a' : Nat) (k : Ctx) :
    ∀ (rk : Ctx) (h : Nat), CtxOK (rk ++ .right c l a :: k) h ↔
      CtxOK (rk ++ .right c l a' :: k) h
  | [], h => Iff.rfl
  | .left cf af rf :: rk, h => by
    have e1 := CtxOK_right_addr c l a a' k rk (h + cf.bit)
    have e2 := topColorOK_right_addr cf c l a a' k rk
    show _ ∧ _ ∧ _ ∧ topColorOK cf (rk ++ .right c l a :: k) ∧
      CtxOK (rk ++ .right c l a :: k) (h + cf.bit) ↔ _ ∧ _ ∧ _ ∧
      topColorOK cf (rk ++ .right c l a' :: k) ∧ CtxOK (rk ++ .right c l a' :: k) (h + cf.bit)
    rw [e1, e2]
  | .right cf lf af :: rk, h => by
    have e1 := CtxOK_right_addr c l a a' k rk (h + cf.bit)
    have e2 := topColorOK_right_addr cf c l a a' k rk
    show _ ∧ _ ∧ _ ∧ topColorOK cf (rk ++ .right c l a :: k) ∧
      CtxOK (rk ++ .right c l a :: k) (h + cf.bit) ↔ _ ∧ _ ∧ _ ∧
      topColorOK cf (rk ++ .right c l a' :: k) ∧ CtxOK (rk ++ .right c l a' :: k) (h + cf.bit)
    rw [e1, e2]

/-- After the splice: the hole of `K` held a node of colour `cs` without left
child and with right subtree `C`, and now holds `C` painted black.  Running the
fix-up when `rebalance` asks for it yields a red-black tree. -/
theorem erase_finish (rot : Callback α) (fuel : Nat) {σ : State α} {K : Ctx} {γ : Color}
    {C : Tree} {ξ : Nat}
    (hwf : WF σ (plug K C.paintBlack))
    (hXv : (Tree.node γ .nil ξ C).Valid) (hK : CtxOK K (Tree.node γ .nil ξ C).bh)
    (hlen : K.length ≤ fuel) :
    ∃ s' t', (if (if C.addr ≠ 0 then 0 else if γ = .black then ctxAddr 0 K else 0) ≠ 0 then
        __chx_rb_erase_color rot fuel σ
          (if C.addr ≠ 0 then 0 else if γ = .black then ctxAddr 0 K else 0)
        else some σ) = some s' ∧
      WF s' t' ∧ t'.RB ∧ t'.inorder = (plug K C.paintBlack).inorder := by
  rw [Valid_node] at hXv
  obtain ⟨hc, hb, -, hCv⟩ := hXv
  simp only [bh_node, bh_nil, Nat.zero_add] at hK hb
  cases C with
  | node cC Cl cx Cr =>
    obtain ⟨-, hT, -⟩ := WF_plug'.1 hwf
    have hcx0 : cx ≠ 0 := hT.1
    simp only [addr_node, ne_eq, hcx0, not_false_eq_true, if_true, not_true_eq_false, if_false]
    refine ⟨σ, _, rfl, hwf, ?_, rfl⟩
    rw [RB_plug]
    rw [Valid_node] at hCv
    simp only [bh_node] at hb
    have hcC : cC = .red := by
      cases cC
      · rfl
      · simp at hb
    subst hcC
    have hcs : γ = .black := by
      cases γ
      · have := (hc rfl).2
        simp at this
      · rfl
    subst hcs
    simp only [paintBlack_node, color_node]
    refine ⟨Valid_node.2 ⟨by simp, hCv.2.1, hCv.2.2.1, hCv.2.2.2⟩, ?_, topColorOK_black K⟩
    simp only [bh_node, bit_black, bit_red, Nat.add_zero] at hb ⊢
    rw [← hb]
    exact hK
  | nil =>
    simp only [addr_nil, ne_eq, not_true_eq_false, if_false, paintBlack_nil] at hwf ⊢
    cases γ with
    | red =>
      simp only [reduceCtorEq, if_false, not_true_eq_false]
      refine ⟨σ, _, rfl, hwf, ?_, rfl⟩
      rw [RB_plug]
      exact ⟨Valid_nil, by simpa using hK, topColorOK_black K⟩
    | black =>
      simp only [if_true]
      by_cases hK0 : K = []
      · subst hK0
        simp only [ctxAddr, not_true_eq_false, if_false]
        refine ⟨σ, _, rfl, hwf, ?_, rfl⟩
        rw [RB_plug]
        exact ⟨Valid_nil, trivial, rfl⟩
      · obtain ⟨hk, -, -⟩ := WF_plug'.1 hwf
        have hne : ctxAddr 0 K ≠ 0 := fun e => hK0 ((RepCtx_ctxAddr_ne_zero hk).1 e)
        simp only [hne, not_false_eq_true, if_true]
        obtain ⟨s', t', e1, e2, e3, e4⟩ :=
          erase_loop_spec rot fuel K .nil σ hK0 hlen hwf Valid_nil (by simpa using hK)
        exact ⟨s', t', e1, e2, e3, e4⟩

theorem inorder_plug_erase {k : Ctx} {c : Color} {l r : Tree} {n : Nat}
    (hnd : (plug k (.node c l n r)).inorder.Nodup) :
    (plug k (.node c l n r)).inorder.erase n =
      ctxBefore k ++ (l.inorder ++ r.inorder) ++ ctxAfter k := by
  rw [inorder_plug] at hnd ⊢
  have h1 : n ∉ ctxBefore k := by
    intro hx
    rw [List.append_assoc, List.nodup_append] at hnd
    exact hnd.2.2 hx (by simp [Tree.inorder])
  have h2 : (Tree.node c l n r).inorder.Nodup := by
    rw [List.append_assoc, List.nodup_append, List.nodup_append] at hnd
    exact hnd.2.1.1
  rw [List.append_assoc, List.erase_append_right _ h1,
    List.erase_append_left _ (by simp [Tree.inorder]), inorder_erase_node h2]
  simp


theorem spine_left_ne_zero {m : Nat → chx_rb_node} {cs : Color} {sx : Nat} {C : Tree} :
    ∀ (rk : Ctx) (par : Nat), rk ≠ [] → AllLeft rk →
      Rep m (plug rk (.node cs .nil sx C)) par →
      (m (plug rk (.node cs .nil sx C)).addr).rb_left ≠ 0 := by
  intro rk
  induction rk using List.reverseRecOn with
  | nil => intro par h; exact absurd rfl h
  | append_singleton rk f ih =>
    intro par _ hal hrep
    rw [AllLeft_append] at hal
    cases f with
    | right _ _ _ => exact absurd hal.2 (by simp [AllLeft])
    | left c a r =>
      rw [plug_append] at hrep ⊢
      simp only [plug, addr_node] at hrep ⊢
      rw [hrep.2.2.2.1]
      have hsub := hrep.2.2.2.2.2.1
      have : plug rk (.node cs .nil sx C) ≠ .nil := by
        cases rk with
        | nil => simp [plug]
        | cons g rk'' => exact plug_addr_ne_nil _ _ (by simp)
      exact fun e => this ((Rep_addr_eq_zero hsub).1 e)

theorem splice_rebalance {s : State α} {n ξ p χ : Nat}
    (h : (s.mem n).rb_left ≠ ξ) :
    (erase_splice_successor s n ξ p χ).2.1 =
      if χ ≠ 0 then 0 else if chx_rb_is_black s ξ then p else 0 := by
  unfold erase_splice_successor
  by_cases hc : χ = 0
  · simp [hc, chx_rb_is_black, chx_rb_set_parent, Ne.symm h]
  · simp [hc]

/-- Erasing the node at the hole of `k`: splice and fix-up yield a red-black
tree with the same nodes in the same order, without `n`. -/
theorem erase_at (aug : chx_rb_augment_callbacks α) (fuel : Nat) {s : State α} {k : Ctx}
    {c : Color} {l r : Tree} {n : Nat}
    (h : WF s (plug k (.node c l n r))) (hrb : (plug k (.node c l n r)).RB)
    (hfuel : (plug k (.node c l n r)).height ≤ fuel) :
    ∃ s' t', chx_rb_erase_augmented aug fuel s n = some s' ∧ WF s' t' ∧ t'.RB ∧
      t'.inorder = ctxBefore k ++ (l.inorder ++ r.inorder) ++ ctxAfter k := by
  obtain ⟨hk, hT, hnd⟩ := WF_plug'.1 h
  obtain ⟨hTv, hkOK, htop⟩ := (RB_plug _ _).1 hrb
  have hpar := RepCtx_ctxAddr_aligned hk
  have hpw := parent_of_word c hpar
  have hbw := is_black_word c hpar
  have hlen := plug_height k (.node c l n r)
  obtain ⟨hn0, hn4, hnpc, hnl, hnr, hL, hR⟩ := hT
  unfold chx_rb_erase_augmented __chx_rb_erase_augmented
  simp only [hnl, hnr, hnpc, hpw, hbw]
  cases l with
  | nil =>
    simp only [addr_nil, if_true]
    cases r with
    | nil =>
      have hwf : WF (__chx_rb_change_child s n 0 (ctxAddr 0 k)) (plug k .nil) :=
        WF_change_child_erase (T := .node c .nil n .nil) (U := .nil) (n := n) hk hnd hn0
          (by simp) rfl (fun _ _ => rfl) trivial (by simp [Tree.inorder])
      have hf := erase_finish aug.rotate fuel (C := .nil) (γ := c) (ξ := n)
        (σ := (__chx_rb_change_child s n 0 (ctxAddr 0 k)).call aug.propagate (ctxAddr 0 k) 0)
        (K := k) (by simpa using hwf) hTv hkOK (by simp only [Tree.height] at hlen; omega)
      simpa [inorder_plug, Tree.inorder] using hf
    | node cr rl ch rr =>
      have hch0 : ch ≠ 0 := hR.1
      simp only [addr_node, ne_eq, hch0, not_false_eq_true, if_true, not_true_eq_false, if_false]
      have hs := erase_splice_right_spec h
      rw [hnpc, hpw] at hs
      refine ⟨_, _, rfl, WF_call.2 hs, ?_, by simp [inorder_plug, Tree.inorder]⟩
      rw [Valid_node] at hTv
      obtain ⟨hc, hb, -, hrv⟩ := hTv
      rw [Valid_node] at hrv
      simp only [bh_node, bh_nil] at hb hkOK
      have hcr : cr = .red := by
        cases cr
        · rfl
        · simp at hb
      subst hcr
      have hcb : c = .black := by
        cases c
        · have := (hc rfl).2
          simp at this
        · rfl
      subst hcb
      rw [RB_plug]
      refine ⟨Valid_node.2 ⟨by simp, hrv.2.1, hrv.2.2.1, hrv.2.2.2⟩, ?_, htop⟩
      simp only [bh_node, bit_black, bit_red, Nat.add_zero, Nat.zero_add] at hb hkOK ⊢
      rw [← hb]
      exact hkOK
  | node cl ll lx lr =>
    have hlx0 : lx ≠ 0 := hL.1
    simp only [addr_node, hlx0, if_false]
    by_cases hr : r = .nil
    · subst hr
      simp only [addr_nil, if_true]
      have hs := erase_splice_left_spec h
      rw [hnpc, hpw] at hs
      refine ⟨_, _, rfl, WF_call.2 hs, ?_, by simp [inorder_plug, Tree.inorder]⟩
      rw [Valid_node] at hTv
      obtain ⟨hc, hb, hlv, -⟩ := hTv
      rw [Valid_node] at hlv
      simp only [bh_node, bh_nil] at hb hkOK
      have hcl : cl = .red := by
        cases cl
        · rfl
        · simp at hb
      subst hcl
      have hcb : c = .black := by
        cases c
        · have := (hc rfl).1
          simp at this
        · rfl
      subst hcb
      rw [RB_plug]
      refine ⟨Valid_node.2 ⟨by simp, hlv.2.1, hlv.2.2.1, hlv.2.2.2⟩, ?_, htop⟩
      simpa using hkOK
    · obtain ⟨rk, cs, sx, C, hal, e⟩ := leftmost_split r hr
      subst e
      have hr0 : (plug rk (.node cs .nil sx C)).addr ≠ 0 :=
        fun e0 => hr ((Rep_addr_eq_zero hR).1 e0)
      simp only [hr0, if_false]
      -- abstract facts about the successor position
      have hrb' : (plug (rk ++ .right c (.node cl ll lx lr) n :: k) (.node cs .nil sx C)).RB := by
        rw [plug_append]; exact hrb
      obtain ⟨hXv, hK0, -⟩ := (RB_plug _ _).1 hrb'
      have hK := (CtxOK_right_addr c (.node cl ll lx lr) n sx k rk _).1 hK0
      have hlenK : (rk ++ .right c (.node cl ll lx lr) sx :: k).length ≤ fuel := by
        have := plug_height (rk ++ .right c (.node cl ll lx lr) n :: k) (.node cs .nil sx C)
        rw [plug_append] at this
        simp only [List.length_append, List.length_cons, Tree.height] at this ⊢
        have hfu : (plug k (.node c (.node cl ll lx lr) n (plug rk (.node cs .nil sx C)))).height
            ≤ fuel := hfuel
        simp only [plug] at this
        omega
      have hXrep := ((Rep_plug rk (.node cs .nil sx C)).1 hR).2
      obtain ⟨hsx0, hsx4, hsxpc, hsxl, hsxr, -, hC⟩ := hXrep
      simp only [addr_nil] at hsxl
      have hlxsx : lx ≠ sx := by
        have hm : sx ∈ (plug rk (.node cs .nil sx C)).inorder := by
          rw [inorder_plug]; simp [Tree.inorder]
        have hnd' := (List.nodup_append.1 hnd).1
        simp only [Tree.inorder] at hnd'
        have hd := (List.nodup_append.1 hnd').2.2
        exact fun e => hd (by simp : lx ∈ ll.inorder ++ lx :: lr.inorder)
          (List.mem_cons_of_mem _ (e ▸ hm))
      have ha14 : ctxAddr n rk % 4 = 0 := by
        cases rk with
        | nil => exact hn4
        | cons f rk' =>
          have := ((Rep_plug (f :: rk') (.node cs .nil sx C)).1 hR).1
          cases f with
          | left _ _ _ => exact this.2.1
          | right _ _ _ => exact this.2.1
      have hbsx : ∀ st : State α,
          (st.mem sx).__rb_parent_color = (s.mem sx).__rb_parent_color →
          chx_rb_is_black st sx = decide (cs = .black) := by
        intro st hst
        exact is_black_of_word ha14 (by rw [hst]; exact hsxpc)
      have hio : (plug (rk ++ .right c (.node cl ll lx lr) sx :: k) C.paintBlack).inorder =
          ctxBefore k ++ ((Tree.node cl ll lx lr).inorder ++
            (plug rk (.node cs .nil sx C)).inorder) ++ ctxAfter k := by
        simp [plug_append, plug, inorder_plug, Tree.inorder, ctxBefore_allLeft rk hal,
          inorder_paintBlack]
      cases rk with
      | nil =>
        simp only [plug, addr_node] at hr0 hnr h hR ⊢
        simp only [hsxl, hsxr, if_true]
        have hs := erase_splice_successor_child_spec (s := s.call aug.copy n sx) (WF_call.2 h)
        have hreb := splice_rebalance (s := s.call aug.copy n sx) (n := n) (ξ := sx) (p := sx)
          (χ := C.addr) (by simpa [hnl] using hlxsx)
        rw [hbsx (s.call aug.copy n sx) rfl] at hreb
        have hf := erase_finish aug.rotate fuel (C := C) (γ := cs) (ξ := sx)
          (σ := (erase_splice_successor (s.call aug.copy n sx) n sx sx C.addr).1.call
            aug.propagate (erase_splice_successor (s.call aug.copy n sx) n sx sx C.addr).2.2 0)
          (K := .right c (.node cl ll lx lr) sx :: k) (WF_call.2 hs) hXv hK hlenK
        obtain ⟨s', t', e1, e2, e3, e4⟩ := hf
        refine ⟨s', t', ?_, e2, e3, e4.trans hio⟩
        rw [hreb]
        simpa [ctxAddr, Frame.addr] using e1
      | cons f rk' =>
        have hrk : f :: rk' ≠ [] := by simp
        have hne := spine_left_ne_zero (f :: rk') n hrk hal hR
        have hloop := successor_loop_spec (f :: rk') n fuel hrk hal hR (by
          simp only [List.length_append, List.length_cons] at hlenK ⊢
          omega)
        simp only [hne, if_false, hloop, hsxr]
        have hs := erase_splice_deep_spec aug.copy aug.propagate h hrk hal rfl rfl
        -- distinctness of the nodes read by the splice
        have hmR : ∀ x ∈ ctxNodes (f :: rk'),
            x ∈ (plug (f :: rk') (.node cs .nil sx C)).inorder := fun x hx =>
          mem_plug_of_mem_ctx hx
        have hndT := (List.nodup_append.1 hnd).1
        simp only [Tree.inorder] at hndT
        have hnR : n ∉ (plug (f :: rk') (.node cs .nil sx C)).inorder := by
          have := (List.nodup_append.1 hndT).2.1
          exact (List.nodup_cons.1 this).1
        have ha1mem := ctxAddr_mem n (f :: rk') hrk
        obtain ⟨hRmem, -⟩ := RepCtx_top (f :: rk') _ hrk ((Rep_plug _ _).1 hR).1
        have hna1 : n ≠ ctxAddr n (f :: rk') := fun e => hnR (hmR _ (e ▸ ha1mem))
        have hndR : (plug (f :: rk') (.node cs .nil sx C)).inorder.Nodup :=
          (List.nodup_cons.1 (List.nodup_append.1 hndT).2.1).2
        have hsxR : sx ≠ (plug (f :: rk') (.node cs .nil sx C)).addr := by
          have hp := (inorder_plug_perm (f :: rk') (.node cs .nil sx C)).nodup_iff.1 hndR
          have hd := (List.nodup_append.1 hp).2.2
          exact fun e => hd (by simp [Tree.inorder] : sx ∈ (Tree.node cs .nil sx C).inorder)
            (e ▸ hRmem)
        have hreb := splice_rebalance
          (s := ((chx_rb_set_parent ((s.store_left (ctxAddr n (f :: rk')) C.addr).store_right sx
            (plug (f :: rk') (.node cs .nil sx C)).addr)
            (plug (f :: rk') (.node cs .nil sx C)).addr sx).call aug.copy n sx).call
            aug.propagate (ctxAddr n (f :: rk')) sx)
          (n := n) (ξ := sx) (p := ctxAddr n (f :: rk')) (χ := C.addr)
          (by simpa [chx_rb_set_parent, hna1, hnl] using hlxsx)
        rw [hbsx _ (by simp [chx_rb_set_parent, hsxR])] at hreb
        generalize hs3 : ((chx_rb_set_parent
            ((s.store_left (ctxAddr n (f :: rk')) C.addr).store_right sx
            (plug (f :: rk') (.node cs .nil sx C)).addr)
            (plug (f :: rk') (.node cs .nil sx C)).addr sx).call aug.copy n sx).call
            aug.propagate (ctxAddr n (f :: rk')) sx = s3 at hs hreb ⊢
        have hf := erase_finish aug.rotate fuel (C := C) (γ := cs) (ξ := sx)
          (σ := (erase_splice_successor s3 n sx (ctxAddr n (f :: rk')) C.addr).1.call
            aug.propagate (erase_splice_successor s3 n sx (ctxAddr n (f :: rk')) C.addr).2.2 0)
          (K := (f :: rk') ++ .right c (.node cl ll lx lr) sx :: k)
          (by rw [plug_append]; exact WF_call.2 hs) hXv hK hlenK
        obtain ⟨s', t', e1, e2, e3, e4⟩ := hf
        refine ⟨s', t', ?_, e2, e3, e4.trans hio⟩
        rw [hreb]
        simpa [ctxAddr, Frame.addr] using e1


/-! ## Navigation: `chx_rb_first` and `chx_rb_next` enumerate the in-order sequence -/

theorem headD_append_of_ne_nil {l l' : List Nat} (h : l ≠ []) :
    (l ++ l').headD 0 = l.headD 0 := by
  cases l with
  | nil => exact absurd rfl h
  | cons a l => rfl

theorem inorder_ne_nil {c : Color} {l r : Tree} {a : Nat} : (Tree.node c l a r).inorder ≠ [] := by
  simp [Tree.inorder]

theorem length_inorder : ∀ t : Tree, t.inorder.length = t.size
  | .nil => rfl
  | .node c l a r => by
    simp only [Tree.inorder, Tree.size, List.length_append, List.length_cons,
      length_inorder l, length_inorder r]
    omega

theorem height_le_size : ∀ t : Tree, t.height ≤ t.size
  | .nil => Nat.le_refl _
  | .node c l a r => by
    have h1 := height_le_size l
    have h2 := height_le_size r
    simp only [Tree.height, Tree.size]
    omega

theorem split_unique {n : Nat} : ∀ (A A' B B' : List Nat), (A ++ n :: B).Nodup →
    A ++ n :: B = A' ++ n :: B' → A = A' ∧ B = B'
  | [], [], B, B', _, h => by simpa using h
  | [], a' :: A', B, B', hnd, h => by
    simp only [List.nil_append, List.cons_append, List.cons.injEq] at h
    obtain ⟨rfl, rfl⟩ := h
    simp at hnd
  | a :: A, [], B, B', hnd, h => by
    simp only [List.nil_append, List.cons_append, List.cons.injEq] at h
    obtain ⟨rfl, h⟩ := h
    simp at hnd
  | a :: A, a' :: A', B, B', hnd, h => by
    simp only [List.cons_append, List.cons.injEq] at h
    obtain ⟨rfl, h⟩ := h
    simp only [List.cons_append, List.nodup_cons] at hnd
    obtain ⟨e1, e2⟩ := split_unique A A' B B' hnd.2 h
    exact ⟨by rw [e1], e2⟩

/-- The loop `while (n->rb_left) n = n->rb_left` started at the root of a
subtree ends at its first node in order. -/
theorem leftmost_loop_spec {s : State α} (t : Tree) : ∀ (par fuel : Nat), Rep s.mem t par →
    t ≠ .nil → t.height ≤ fuel → leftmost_loop s fuel t.addr = some (t.inorder.headD 0) := by
  induction t with
  | nil => intro _ _ _ h; exact absurd rfl h
  | node c l a r ihl _ =>
    intro par fuel hr _ hf
    obtain ⟨h1, h2, h3, h4, h5, h6, h7⟩ := hr
    simp only [Tree.height] at hf
    obtain ⟨fuel, rfl⟩ : ∃ f', fuel = f' + 1 := ⟨fuel - 1, by omega⟩
    rw [addr_node, leftmost_loop, h4]
    cases l with
    | nil => simp [Tree.inorder]
    | node cl ll la lr =>
      have := ihl a fuel h6 (by simp) (by omega)
      simp only [addr_node] at this ⊢
      rw [if_pos h6.1, this]
      show _ = some (((Tree.node cl ll la lr).inorder ++ a :: r.inorder).headD 0)
      rw [headD_append_of_ne_nil inorder_ne_nil]

/-- The ascent of `chx_rb_next` from the node in the hole of `k` ends at the
first node after the hole, or at `NULL`. -/
theorem next_ascend_spec {s : State α} {top : Nat} : ∀ (k : Ctx) (p fuel : Nat) (c : Color),
    RepCtx s.mem top 0 k p → (s.mem p).__rb_parent_color = ctxAddr 0 k + c.bit →
    p ≠ 0 → p ∉ ctxNodes k → (ctxNodes k).Nodup → k.length < fuel →
    chx_rb_next_ascend s fuel p = some ((ctxAfter k).headD 0) := by
  intro k
  induction k with
  | nil =>
    intro p fuel c _ hpc _ _ _ hf
    obtain ⟨fuel, rfl⟩ : ∃ f', fuel = f' + 1 := ⟨fuel - 1, by simp at hf; omega⟩
    simp only [ctxAddr] at hpc
    have hp : chx_rb_parent s p = 0 := by
      rw [chx_rb_parent, hpc]
      exact parent_of_word c rfl
    rw [chx_rb_next_ascend]
    simp [hp, ctxAfter]
  | cons f k ih =>
    intro p fuel c hk hpc hp0 hpn hnd hf
    simp only [List.length_cons] at hf
    obtain ⟨fuel, rfl⟩ : ∃ f', fuel = f' + 1 := ⟨fuel - 1, by omega⟩
    cases f with
    | left c' a r =>
      obtain ⟨h1, h2, h3, h4, h5, h6, h7⟩ := hk
      simp only [ctxAddr, Frame.addr] at hpc
      rw [mem_ctxNodes_left] at hpn
      have hne : p ≠ r.addr := ne_addr hp0 (fun e => hpn (Or.inr (Or.inl e)))
      have hp : chx_rb_parent s p = a := by
        rw [chx_rb_parent, hpc]
        exact parent_of_word c h2
      rw [chx_rb_next_ascend]
      simp [hp, h5, hne, ctxAfter]
    | right c' l a =>
      obtain ⟨h1, h2, h3, h4, h5, h6, h7⟩ := hk
      simp only [ctxAddr, Frame.addr] at hpc
      rw [nodup_ctxNodes_right] at hnd
      have := ih a fuel c' h7 h3 h1 hnd.2.1 hnd.2.2.2.1 (by omega)
      have hp : chx_rb_parent s p = a := by
        rw [chx_rb_parent, hpc]
        exact parent_of_word c h2
      rw [chx_rb_next_ascend]
      simp [hp, h5, h1, ctxAfter, this]

/-- Function `chx_rb_next` at the node in the hole of `k` returns the node that
follows it in order, or `NULL` at the last node. -/
theorem next_spec {s : State α} {k : Ctx} {c : Color} {l r : Tree} {n fuel : Nat}
    (h : WF s (plug k (.node c l n r))) (hf : (plug k (.node c l n r)).height < fuel) :
    chx_rb_next fuel s n = some ((r.inorder ++ ctxAfter k).headD 0) := by
  have hh := plug_height k (.node c l n r)
  simp only [Tree.height] at hh
  rw [WF_plug'] at h
  obtain ⟨hk, hT, hnd⟩ := h
  obtain ⟨h1, h2, h3, h4, h5, h6, h7⟩ := hT
  have hal := RepCtx_ctxAddr_aligned hk
  have hnk : n ∉ ctxNodes k := fun hx => frame_ne hnd hx (by simp [Tree.inorder]) rfl
  have hpar : ctxAddr 0 k ≠ n := by
    by_cases hk0 : k = []
    · subst hk0
      exact fun e => h1 e.symm
    · exact fun e => hnk (e ▸ ctxAddr_mem_ctxNodes k hk0)
  have hempty : CHX_RB_EMPTY_NODE s n = false := by
    simp only [CHX_RB_EMPTY_NODE, h3, beq_eq_false_iff_ne, ne_eq]
    intro e
    cases c with
    | red => exact hpar (by simpa using e)
    | black => simp only [bit_black] at e; omega
  rw [chx_rb_next, hempty, h5]
  simp only [Bool.false_eq_true, if_false]
  cases r with
  | nil =>
    simp only [addr_nil, ne_eq, not_true_eq_false, if_false, Tree.inorder, List.nil_append]
    refine next_ascend_spec k n fuel c hk h3 h1 hnk ?_ (by omega)
    exact (List.nodup_append.1 hnd).2.1
  | node cr rl ra rr =>
    simp only [addr_node, ne_eq, h7.1, not_false_eq_true, if_true]
    have := leftmost_loop_spec (.node cr rl ra rr) n fuel h7 (by simp) (by omega)
    simp only [addr_node] at this
    rw [this, headD_append_of_ne_nil inorder_ne_nil]

theorem first_spec {s : State α} {t : Tree} {fuel : Nat} (h : WF s t) (hf : t.height ≤ fuel) :
    chx_rb_first fuel s = some (t.inorder.headD 0) := by
  obtain ⟨h1, h2, -⟩ := h
  cases t with
  | nil => simp [chx_rb_first, h1, Tree.inorder]
  | node c l a r =>
    have := leftmost_loop_spec (.node c l a r) 0 fuel h2 (by simp) hf
    simp only [addr_node] at this h1
    simp [chx_rb_first, h1, h2.1, this]

theorem walk_from_spec {s : State α} {t : Tree} {fuel : Nat} (h : WF s t)
    (hf : t.height < fuel) :
    ∀ (suf pre : List Nat) (n cnt : Nat), t.inorder = pre ++ n :: suf → suf.length + 1 < cnt →
      first_next_walk_from s fuel cnt n = some (n :: suf) := by
  intro suf
  induction suf with
  | nil =>
    intro pre n cnt heq hc
    have hmem : n ∈ t.inorder := by rw [heq]; simp
    have hn0 : n ≠ 0 := Rep_mem_ne_zero t 0 h.2.1 n hmem
    have key : chx_rb_next fuel s n = some 0 := by
      obtain ⟨k, c, l, r, e⟩ := mem_split_plug t n hmem
      subst e
      have := next_spec h hf
      have hnd := h.2.2
      rw [inorder_plug] at heq hnd
      simp only [Tree.inorder, List.append_assoc, List.cons_append] at heq hnd
      rw [← List.append_assoc] at heq hnd
      obtain ⟨-, e2⟩ := split_unique _ _ _ _ hnd heq
      rw [this, e2]
      rfl
    obtain ⟨cnt, rfl⟩ : ∃ c', cnt = c' + 2 := ⟨cnt - 2, by simp at hc; omega⟩
    simp [first_next_walk_from, hn0, key]
  | cons n' suf ih =>
    intro pre n cnt heq hc
    have hmem : n ∈ t.inorder := by rw [heq]; simp
    have hn0 : n ≠ 0 := Rep_mem_ne_zero t 0 h.2.1 n hmem
    have key : chx_rb_next fuel s n = some n' := by
      obtain ⟨k, c, l, r, e⟩ := mem_split_plug t n hmem
      subst e
      have := next_spec h hf
      have hnd := h.2.2
      rw [inorder_plug] at heq hnd
      simp only [Tree.inorder, List.append_assoc, List.cons_append] at heq hnd
      rw [← List.append_assoc] at heq hnd
      obtain ⟨-, e2⟩ := split_unique _ _ _ _ hnd heq
      rw [this, e2]
      rfl
    simp only [List.length_cons] at hc
    obtain ⟨cnt, rfl⟩ : ∃ c', cnt = c' + 1 := ⟨cnt - 1, by omega⟩
    have := ih (pre ++ [n]) n' cnt (by simp [heq]) (by omega)
    simp [first_next_walk_from, hn0, key, this]

/-- The traversal `for (n = chx_rb_first(root); n; n = chx_rb_next(n))` visits
exactly the in-order sequence of the tree. -/
theorem walk_spec {s : State α} {t : Tree} {fuel : Nat} (h : WF s t) (hf : t.size < fuel) :
    first_next_walk fuel s = some t.inorder := by
  have hh := height_le_size t
  have hfirst := first_spec h (by omega : t.height ≤ fuel)
  rw [first_next_walk, hfirst]
  cases hio : t.inorder with
  | nil =>
    obtain ⟨fuel, rfl⟩ : ∃ c', fuel = c' + 1 := ⟨fuel - 1, by omega⟩
    simp [first_next_walk_from]
  | cons n suf =>
    have hl := length_inorder t
    rw [hio] at hl
    simp only [List.length_cons] at hl
    exact walk_from_spec h (by omega) suf [] n fuel (by simpa using hio) (by omega)


/-! ## Search paths -/

theorem rel_of_pairwise {R : Nat → Nat → Prop} {L : List Nat} (h : L.Pairwise R) {x y : Nat}
    (hs : [x, y].Sublist L) : R x y :=
  List.pairwise_iff_forall_sublist.1 h hs

theorem pair_sublist_append {x y : Nat} {A B : List Nat} (hx : x ∈ A) (hy : y ∈ B) :
    [x, y].Sublist (A ++ B) :=
  List.Sublist.append (List.singleton_sublist.2 hx) (List.singleton_sublist.2 hy)

/-- On a search path through a sequence along which the directions are
monotone, everything before the hole lies on the `goR` side and everything
after it on the `goL` side. -/
theorem path_sides {goL goR : Nat → Prop} : ∀ (k : Ctx),
    (ctxBefore k ++ ctxAfter k).Pairwise (fun x y => (goR y → goR x) ∧ (goL x → goL y)) →
    PathOK goL goR k → (∀ x ∈ ctxBefore k, goR x) ∧ (∀ x ∈ ctxAfter k, goL x)
  | [], _, _ => by simp [ctxBefore, ctxAfter]
  | .left c a r :: k, hp, ⟨h1, h2⟩ => by
    simp only [ctxBefore, ctxAfter] at hp ⊢
    have hsub : (ctxBefore k ++ ctxAfter k).Sublist
        (ctxBefore k ++ (a :: r.inorder ++ ctxAfter k)) :=
      List.Sublist.append (List.Sublist.refl _) (List.sublist_append_right _ _)
    obtain ⟨ih1, ih2⟩ := path_sides k (hp.sublist hsub) h2
    refine ⟨ih1, ?_⟩
    intro x hx
    simp only [List.cons_append, List.mem_cons, List.mem_append] at hx
    rcases hx with rfl | hx | hx
    · exact h1
    · have hs : [a, x].Sublist (ctxBefore k ++ (a :: r.inorder ++ ctxAfter k)) :=
        (List.Sublist.cons₂ a (List.singleton_sublist.2
          (List.mem_append_left _ hx))).trans (List.sublist_append_right _ _)
      exact (rel_of_pairwise hp hs).2 h1
    · exact ih2 x hx
  | .right c l a :: k, hp, ⟨h1, h2⟩ => by
    simp only [ctxBefore, ctxAfter] at hp ⊢
    have hsub : (ctxBefore k ++ ctxAfter k).Sublist
        (ctxBefore k ++ (l.inorder ++ [a]) ++ ctxAfter k) :=
      List.Sublist.append (List.sublist_append_left _ _) (List.Sublist.refl _)
    obtain ⟨ih1, ih2⟩ := path_sides k (hp.sublist hsub) h2
    refine ⟨?_, ih2⟩
    intro x hx
    simp only [List.mem_append, List.mem_singleton] at hx
    rcases hx with hx | hx | rfl
    · exact ih1 x hx
    · have hs : [x, a].Sublist (ctxBefore k ++ (l.inorder ++ [a]) ++ ctxAfter k) :=
        ((pair_sublist_append hx (List.mem_singleton_self a)).trans
          (List.sublist_append_right _ _)).trans (List.sublist_append_left _ _)
      exact (rel_of_pairwise hp hs).1 h1
    · exact h1

theorem inorder_plug_nil (k : Ctx) : (plug k .nil).inorder = ctxBefore k ++ ctxAfter k := by
  rw [inorder_plug]
  simp [Tree.inorder]

theorem takeWhile_split {p : Nat → Bool} : ∀ (A B : List Nat), (∀ x ∈ A, p x = true) →
    (∀ x ∈ B, p x = false) → (A ++ B).takeWhile p = A ∧ (A ++ B).dropWhile p = B
  | [], [], _, _ => by simp
  | [], b :: B, _, hB => by
    have := hB b (by simp)
    simp [List.takeWhile, List.dropWhile, this]
  | a :: A, B, hA, hB => by
    have ha := hA a (by simp)
    obtain ⟨e1, e2⟩ := takeWhile_split A B (fun x hx => hA x (by simp [hx])) hB
    simp [List.takeWhile, List.dropWhile, ha, e1, e2]

/-! ## The descent of `chx_rb_add` -/

theorem add_descend_spec (less : Nat → Nat → Bool) {s : State α} {node : Nat} (T : Tree) :
    ∀ (k0 : Ctx) (fuel : Nat), WF s (plug k0 T) → T.height < fuel →
      PathOK (fun x => less node x = true) (fun x => less node x = false) k0 →
      ∃ k, chx_rb_add_descend less s node fuel (ctxLink k0) (ctxAddr 0 k0) =
          some (ctxAddr 0 k, ctxLink k) ∧ plug k .nil = plug k0 T ∧
        PathOK (fun x => less node x = true) (fun x => less node x = false) k := by
  induction T with
  | nil =>
    intro k0 fuel h hf hp
    obtain ⟨fuel, rfl⟩ : ∃ f', fuel = f' + 1 := ⟨fuel - 1, by omega⟩
    have hl := ctxLink_load (WF_plug'.1 h).1
    simp only [addr_nil] at hl
    exact ⟨k0, by simp [chx_rb_add_descend, hl], rfl, hp⟩
  | node c l a r ihl ihr =>
    intro k0 fuel h hf hp
    simp only [Tree.height] at hf
    obtain ⟨fuel, rfl⟩ : ∃ f', fuel = f' + 1 := ⟨fuel - 1, by omega⟩
    have hw := WF_plug'.1 h
    have hl := ctxLink_load hw.1
    simp only [addr_node] at hl
    have ha0 : a ≠ 0 := hw.2.1.1
    rw [chx_rb_add_descend]
    simp only [hl, ne_eq, ha0, not_false_eq_true, if_true]
    by_cases hless : less node a = true
    · obtain ⟨k, e1, e2, e3⟩ := ihl (.left c a r :: k0) fuel h (by omega) ⟨hless, hp⟩
      exact ⟨k, by simpa [hless, ctxLink, ctxAddr, Frame.addr] using e1, e2, e3⟩
    · have hless' : less node a = false := by simpa using hless
      obtain ⟨k, e1, e2, e3⟩ := ihr (.right c l a :: k0) fuel h (by omega) ⟨hless', hp⟩
      exact ⟨k, by simpa [hless', ctxLink, ctxAddr, Frame.addr] using e1, e2, e3⟩

/-- Function `chx_rb_add` on a red-black tree sorted under `less`: the node is
linked between the nodes it is not less than and the nodes it is less than,
and the tree is rebalanced. -/
theorem add_spec (less : Nat → Nat → Bool) {s : State α} {t : Tree} {node fuel : Nat}
    (h : WF s t) (hrb : t.RB)
    (hsorted : t.inorder.Pairwise (fun x y => less y x = false))
    (hneg : ∀ a b c, less a b = false → less b c = false → less a c = false)
    (hn0 : node ≠ 0) (hn4 : node % 4 = 0) (hfresh : node ∉ t.inorder)
    (hfuel : t.height < fuel) :
    ∃ s' t' A B, chx_rb_add less fuel s node = some s' ∧ WF s' t' ∧ t'.RB ∧
      t.inorder = A ++ B ∧ t'.inorder = A ++ node :: B ∧
      (∀ x ∈ A, less node x = false) ∧ (∀ x ∈ B, less node x = true) := by
  obtain ⟨k, e1, e2, e3⟩ := add_descend_spec less t [] fuel h hfuel trivial
  have e2' : t = plug k .nil := e2.symm
  subst e2'
  obtain ⟨s', t', f1, f2, f3, f4⟩ :=
    insert_color_spec dummy_rotate fuel h hrb hn0 hn4 hfresh hfuel
  change chx_rb_add_descend less s node fuel .root 0 = _ at e1
  rw [inorder_plug_nil] at hsorted
  have hp := path_sides k (hsorted.imp (fun {x y} hxy => ?_)) e3
  · refine ⟨s', t', ctxBefore k, ctxAfter k, ?_, f2, f3, inorder_plug_nil k, f4, hp.1, hp.2⟩
    rw [chx_rb_add, e1]
    exact f1
  · refine ⟨fun hy => hneg _ _ _ hy hxy, fun hx => ?_⟩
    by_contra hy
    have hy' : less node y = false := by simpa using hy
    rw [hneg _ _ _ hy' hxy] at hx
    exact absurd hx (by simp)

/-! ## The descents of `chx_rb_find` and `chx_rb_find_add` -/

theorem find_loop_spec {κ : Type} (cmp : κ → Nat → Int) (key : κ) {s : State α} (T : Tree) :
    ∀ (k0 : Ctx) (fuel : Nat), WF s (plug k0 T) → T.height < fuel →
      PathOK (fun x => cmp key x < 0) (fun x => 0 < cmp key x) k0 →
      (∃ a ∈ T.inorder, cmp key a = 0 ∧
        chx_rb_find_loop cmp key s fuel T.addr = some a) ∨
      (∃ k, plug k .nil = plug k0 T ∧
        PathOK (fun x => cmp key x < 0) (fun x => 0 < cmp key x) k ∧
        chx_rb_find_loop cmp key s fuel T.addr = some 0) := by
  induction T with
  | nil =>
    intro k0 fuel h hf hp
    obtain ⟨fuel, rfl⟩ : ∃ f', fuel = f' + 1 := ⟨fuel - 1, by omega⟩
    exact Or.inr ⟨k0, rfl, hp, by simp [chx_rb_find_loop]⟩
  | node c l a r ihl ihr =>
    intro k0 fuel h hf hp
    simp only [Tree.height] at hf
    obtain ⟨fuel, rfl⟩ : ∃ f', fuel = f' + 1 := ⟨fuel - 1, by omega⟩
    have hw := WF_plug'.1 h
    obtain ⟨ha0, -, -, hleft, hright, -, -⟩ := hw.2.1
    rw [addr_node, chx_rb_find_loop]
    simp only [ne_eq, ha0, not_false_eq_true, if_true, hleft, hright]
    by_cases hlt : cmp key a < 0
    · simp only [hlt, if_true]
      rcases ihl (.left c a r :: k0) fuel h (by omega) ⟨hlt, hp⟩ with
        ⟨x, hx, e1, e2⟩ | ⟨k, e1, e2, e3⟩
      · exact Or.inl ⟨x, by simp [Tree.inorder, hx], e1, e2⟩
      · exact Or.inr ⟨k, e1, e2, e3⟩
    · by_cases hgt : 0 < cmp key a
      · simp only [hlt, if_false, gt_iff_lt, hgt, if_true]
        rcases ihr (.right c l a :: k0) fuel h (by omega) ⟨hgt, hp⟩ with
          ⟨x, hx, e1, e2⟩ | ⟨k, e1, e2, e3⟩
        · exact Or.inl ⟨x, by simp [Tree.inorder, hx], e1, e2⟩
        · exact Or.inr ⟨k, e1, e2, e3⟩
      · simp only [hlt, if_false, gt_iff_lt, hgt]
        exact Or.inl ⟨a, by simp [Tree.inorder], by omega, rfl⟩

theorem find_add_descend_spec (cmp : Nat → Nat → Int) {s : State α} {node : Nat} (T : Tree) :
    ∀ (k0 : Ctx) (fuel : Nat), WF s (plug k0 T) → T.height < fuel →
      PathOK (fun x => cmp node x < 0) (fun x => 0 < cmp node x) k0 →
      (∃ a ∈ T.inorder, cmp node a = 0 ∧
        chx_rb_find_add_descend cmp s node fuel (ctxLink k0) (ctxAddr 0 k0) =
          some (.inl a)) ∨
      (∃ k, plug k .nil = plug k0 T ∧
        PathOK (fun x => cmp node x < 0) (fun x => 0 < cmp node x) k ∧
        chx_rb_find_add_descend cmp s node fuel (ctxLink k0) (ctxAddr 0 k0) =
          some (.inr (ctxAddr 0 k, ctxLink k))) := by
  induction T with
  | nil =>
    intro k0 fuel h hf hp
    obtain ⟨fuel, rfl⟩ : ∃ f', fuel = f' + 1 := ⟨fuel - 1, by omega⟩
    have hl := ctxLink_load (WF_plug'.1 h).1
    simp only [addr_nil] at hl
    exact Or.inr ⟨k0, rfl, hp, by simp [chx_rb_find_add_descend, hl]⟩
  | node c l a r ihl ihr =>
    intro k0 fuel h hf hp
    simp only [Tree.height] at hf
    obtain ⟨fuel, rfl⟩ : ∃ f', fuel = f' + 1 := ⟨fuel - 1, by omega⟩
    have hw := WF_plug'.1 h
    have hl := ctxLink_load hw.1
    simp only [addr_node] at hl
    have ha0 : a ≠ 0 := hw.2.1.1
    rw [chx_rb_find_add_descend]
    simp only [hl, ne_eq, ha0, not_false_eq_true, if_true]
    by_cases hlt : cmp node a < 0
    · simp only [hlt, if_true]
      rcases ihl (.left c a r :: k0) fuel h (by omega) ⟨hlt, hp⟩ with
        ⟨x, hx, e1, e2⟩ | ⟨k, e1, e2, e3⟩
      · exact Or.inl ⟨x, by simp [Tree.inorder, hx], e1, e2⟩
      · exact Or.inr ⟨k, e1, e2, e3⟩
    · by_cases hgt : 0 < cmp node a
      · simp only [hlt, if_false, gt_iff_lt, hgt, if_true]
        rcases ihr (.right c l a :: k0) fuel h (by omega) ⟨hgt, hp⟩ with
          ⟨x, hx, e1, e2⟩ | ⟨k, e1, e2, e3⟩
        · exact Or.inl ⟨x, by simp [Tree.inorder, hx], e1, e2⟩
        · exact Or.inr ⟨k, e1, e2, e3⟩
      · simp only [hlt, if_false, gt_iff_lt, hgt]
        exact Or.inl ⟨a, by simp [Tree.inorder], by omega, rfl⟩

/-- Function `chx_rb_find` on a tree along which the sign of `cmp key` is
monotone: it returns a node with `cmp = 0` if there is one, `NULL` otherwise. -/
theorem find_spec {κ : Type} (cmp : κ → Nat → Int) (key : κ) {s : State α} {t : Tree}
    {fuel : Nat} (h : WF s t) (hfuel : t.height < fuel)
    (hmono : t.inorder.Pairwise
      (fun x y => (0 < cmp key y → 0 < cmp key x) ∧ (cmp key x < 0 → cmp key y < 0))) :
    (∃ a ∈ t.inorder, cmp key a = 0 ∧ chx_rb_find cmp fuel key s = some a) ∨
    ((∀ x ∈ t.inorder, cmp key x ≠ 0) ∧ chx_rb_find cmp fuel key s = some 0) := by
  rw [chx_rb_find, h.1]
  rcases find_loop_spec cmp key t [] fuel h hfuel trivial with
    ⟨x, hx, e1, e2⟩ | ⟨k, e1, e2, e3⟩
  · exact Or.inl ⟨x, hx, e1, e2⟩
  · refine Or.inr ⟨?_, e3⟩
    have e1' : t = plug k .nil := e1.symm
    subst e1'
    rw [inorder_plug_nil] at hmono ⊢
    obtain ⟨h1, h2⟩ := path_sides k hmono e2
    intro x hx
    rcases List.mem_append.1 hx with hx | hx
    · have := h1 x hx
      omega
    · have := h2 x hx
      omega

/-- Function `chx_rb_find_add`: on a conflict the existing node is returned and
the state is untouched; otherwise the node is linked at its sorted position,
the tree rebalanced and `NULL` returned. -/
theorem find_add_spec (cmp : Nat → Nat → Int) {s : State α} {t : Tree} {node fuel : Nat}
    (h : WF s t) (hrb : t.RB) (hfuel : t.height < fuel)
    (hmono : t.inorder.Pairwise
      (fun x y => (0 < cmp node y → 0 < cmp node x) ∧ (cmp node x < 0 → cmp node y < 0)))
    (hn0 : node ≠ 0) (hn4 : node % 4 = 0) (hfresh : node ∉ t.inorder) :
    (∃ a ∈ t.inorder, cmp node a = 0 ∧ chx_rb_find_add cmp fuel s node = some (s, a)) ∨
    ((∀ x ∈ t.inorder, cmp node x ≠ 0) ∧
      ∃ s' t' A B, chx_rb_find_add cmp fuel s node = some (s', 0) ∧ WF s' t' ∧ t'.RB ∧
        t.inorder = A ++ B ∧ t'.inorder = A ++ node :: B ∧
        (∀ x ∈ A, 0 < cmp node x) ∧ (∀ x ∈ B, cmp node x < 0)) := by
  rcases find_add_descend_spec cmp t [] fuel h hfuel trivial with
    ⟨x, hx, e1, e2⟩ | ⟨k, e1, e2, e3⟩
  · simp only [ctxLink, ctxAddr] at e2
    exact Or.inl ⟨x, hx, e1, by rw [chx_rb_find_add, e2]⟩
  · have e1' : t = plug k .nil := e1.symm
    subst e1'
    change chx_rb_find_add_descend cmp s node fuel .root 0 = _ at e3
    obtain ⟨s', t', f1, f2, f3, f4⟩ :=
      insert_color_spec dummy_rotate fuel h hrb hn0 hn4 hfresh hfuel
    rw [inorder_plug_nil] at hmono
    obtain ⟨h1, h2⟩ := path_sides k hmono e2
    refine Or.inr ⟨?_, s', t', ctxBefore k, ctxAfter k, ?_, f2, f3, inorder_plug_nil k, f4,
      h1, h2⟩
    · rw [inorder_plug_nil]
      intro x hx
      rcases List.mem_append.1 hx with hx | hx
      · have := h1 x hx
        omega
      · have := h2 x hx
        omega
    · rw [chx_rb_find_add, e3]
      simp only [chx_rb_insert_color]
      rw [f1]
      rfl


/-! ## Height of a red-black tree -/

theorem pow_bh_le_size : ∀ t : Tree, t.Balanced → 2 ^ t.bh ≤ t.size + 1
  | .nil, _ => by simp [Tree.bh, Tree.size]
  | .node c l a r, ⟨h1, h2, h3⟩ => by
    have hl := pow_bh_le_size l h2
    have hr := pow_bh_le_size r h3
    rw [← h1] at hr
    simp only [Tree.bh, Tree.size]
    cases c with
    | red => simp only [bit_red, Nat.add_zero]; omega
    | black =>
      simp only [bit_black, pow_succ]
      omega

theorem height_le_bh : ∀ t : Tree, t.Valid →
    t.height ≤ 2 * t.bh + (if t.color = .red then 1 else 0)
  | .nil, _ => by simp [Tree.height]
  | .node c l a r, h => by
    rw [Valid_node] at h
    obtain ⟨hc, hb, hl, hr⟩ := h
    have il := height_le_bh l hl
    have ir := height_le_bh r hr
    simp only [Tree.height, bh_node, color_node]
    cases c with
    | red =>
      obtain ⟨c1, c2⟩ := hc rfl
      simp only [c1, c2, reduceCtorEq, if_false, Nat.add_zero] at il ir
      simp only [bit_red, if_true]
      omega
    | black =>
      simp only [bit_black, reduceCtorEq, if_false]
      split at il <;> split at ir <;> omega

/-- A red-black tree of black height `b` has height at most `2 b` and at least
`2 ^ b - 1` nodes. -/
theorem rb_height_bound {t : Tree} (h : t.RB) :
    t.height ≤ 2 * t.bh ∧ 2 ^ t.bh ≤ t.size + 1 := by
  rw [RB_iff] at h
  obtain ⟨hc, hv⟩ := h
  have := height_le_bh t hv
  simp only [hc, reduceCtorEq, if_false, Nat.add_zero] at this
  exact ⟨this, pow_bh_le_size t hv.2⟩

theorem rb_pow_height {t : Tree} (h : t.RB) : 2 ^ t.height ≤ (t.size + 1) ^ 2 := by
  obtain ⟨h1, h2⟩ := rb_height_bound h
  calc 2 ^ t.height ≤ 2 ^ (2 * t.bh) := Nat.pow_le_pow_right (by decide) h1
    _ = (2 ^ t.bh) ^ 2 := by rw [Nat.mul_comm, pow_mul]
    _ ≤ (t.size + 1) ^ 2 := Nat.pow_le_pow_left h2 2

theorem rb_height_logb {t : Tree} (h : t.RB) :
    (t.height : ℝ) ≤ 2 * Real.logb 2 ((t.size : ℝ) + 1) := by
  obtain ⟨h1, h2⟩ := rb_height_bound h
  have hb : (t.bh : ℝ) ≤ Real.logb 2 ((t.size : ℝ) + 1) := by
    rw [Real.le_logb_iff_rpow_le (by norm_num) (by positivity), Real.rpow_natCast]
    exact_mod_cast h2
  have h1' : (t.height : ℝ) ≤ 2 * (t.bh : ℝ) := by exact_mod_cast h1
  linarith

/-! ## Erase, top level -/

theorem erase_augmented_spec (aug : chx_rb_augment_callbacks α) {s : State α} {t : Tree}
    {n fuel : Nat} (h : WF s t) (hrb : t.RB) (hn : n ∈ t.inorder) (hfuel : t.height ≤ fuel) :
    ∃ s' t', chx_rb_erase_augmented aug fuel s n = some s' ∧ WF s' t' ∧ t'.RB ∧
      t'.inorder = t.inorder.erase n := by
  obtain ⟨k, c, l, r, e⟩ := mem_split_plug t n hn
  subst e
  obtain ⟨s', t', e1, e2, e3, e4⟩ := erase_at aug fuel h hrb hfuel
  exact ⟨s', t', e1, e2, e3, by rw [e4, inorder_plug_erase h.2.2]⟩

theorem erase_eq_augmented (fuel : Nat) (s : State α) (n : Nat) :
    chx_rb_erase fuel s n = chx_rb_erase_augmented dummy_callbacks fuel s n := rfl

/-- Function `chx_rb_erase` on a node of a red-black tree: the result is a
red-black tree holding the other nodes in their old order. -/
theorem erase_spec {s : State α} {t : Tree} {n fuel : Nat} (h : WF s t) (hrb : t.RB)
    (hn : n ∈ t.inorder) (hfuel : t.height ≤ fuel) :
    ∃ s' t', chx_rb_erase fuel s n = some s' ∧ WF s' t' ∧ t'.RB ∧
      t'.inorder = t.inorder.erase n := by
  rw [erase_eq_augmented]
  exact erase_augmented_spec dummy_callbacks h hrb hn hfuel

/-! ## Insert at a null slot, top level -/

theorem insert_spec {s : State α} {t : Tree} {node parent fuel : Nat} {link : Link}
    (h : WF s t) (hrb : t.RB) (hslot : NullSlot s t parent link)
    (hn0 : node ≠ 0) (hn4 : node % 4 = 0) (hfresh : node ∉ t.inorder)
    (hfuel : t.height < fuel) :
    ∃ s' t', chx_rb_insert_color fuel (chx_rb_link_node s node parent link) node = some s' ∧
      WF s' t' ∧ t'.RB ∧ t'.inorder.Perm (node :: t.inorder) := by
  obtain ⟨k, e1, e2, e3⟩ := NullSlot.ctx h hslot
  subst e1 e2 e3
  obtain ⟨s', t', f1, f2, f3, f4⟩ :=
    insert_color_spec dummy_rotate fuel h hrb hn0 hn4 hfresh hfuel
  refine ⟨s', t', f1, f2, f3, ?_⟩
  rw [f4, inorder_plug_nil]
  exact List.perm_middle

/-! ## Parent links -/

theorem Rep_parentLinked {s : State α} : ∀ (t : Tree) (par : Nat), Rep s.mem t par →
    par % 4 = 0 → (t.addr ≠ 0 → chx_rb_parent s t.addr = par) ∧
      ∀ n ∈ t.inorder, ((s.mem n).rb_left ≠ 0 → chx_rb_parent s (s.mem n).rb_left = n) ∧
        ((s.mem n).rb_right ≠ 0 → chx_rb_parent s (s.mem n).rb_right = n)
  | .nil, _, _, _ => by simp [Tree.inorder]
  | .node c l a r, par, h, hp => by
    obtain ⟨h1, h2, h3, h4, h5, h6, h7⟩ := h
    obtain ⟨l1, l2⟩ := Rep_parentLinked l a h6 h2
    obtain ⟨r1, r2⟩ := Rep_parentLinked r a h7 h2
    refine ⟨fun _ => ?_, ?_⟩
    · rw [addr_node, chx_rb_parent, h3]
      exact parent_of_word c hp
    · intro n hn
      simp only [Tree.inorder, List.mem_append, List.mem_cons] at hn
      rcases hn with hn | rfl | hn
      · exact l2 n hn
      · rw [h4, h5]
        exact ⟨l1, r1⟩
      · exact r2 n hn

/-- A represented tree has consistent parent links. -/
theorem WF.parentLinked {s : State α} {t : Tree} (h : WF s t) : ParentLinked s t.inorder := by
  obtain ⟨h1, h2⟩ := Rep_parentLinked t 0 h.2.1 rfl
  exact ⟨by rw [h.1]; exact h1, h2⟩

/-! ## Replacing a node -/

theorem WF_change_child_fresh {s s' : State α} {k : Ctx} {T U : Tree}
    (hk : RepCtx s.mem s.rb_node 0 k T.addr)
    (hnd : (T.inorder ++ ctxNodes k).Nodup) (hT0 : T.addr ≠ 0) (hTn : T ≠ .nil)
    (hroot : s'.rb_node = s.rb_node) (hframe : ∀ x ∈ ctxNodes k, s'.mem x = s.mem x)
    (hU : Rep s'.mem U (ctxAddr 0 k)) (hnd' : (U.inorder ++ ctxNodes k).Nodup) :
    WF (__chx_rb_change_child s' T.addr U.addr (ctxAddr 0 k)) (plug k U) := by
  rw [List.nodup_append] at hnd hnd'
  obtain ⟨n1, n2, n3⟩ := hnd
  have hk' : RepCtx s'.mem s'.rb_node 0 k T.addr := by
    rw [hroot]
    exact RepCtx_congr k _ hframe hk
  have hmem : T.addr ∉ ctxNodes k := fun h => n3 (addr_mem_inorder T hTn) h
  rw [WF_plug']
  refine ⟨RepCtx_change_child hk' n2 hT0 hmem, ?_, ?_⟩
  · refine Rep_congr U _ (fun x hx => change_child_mem_ne ?_) hU
    intro e
    by_cases hk0 : k = []
    · subst hk0
      have := Rep_mem_ne_zero U _ hU x hx
      simp [ctxAddr] at e
      exact this e
    · exact hnd'.2.2 hx (e ▸ ctxAddr_mem_ctxNodes k hk0)
  · rw [List.nodup_append]
    exact hnd'

/-- The step `if (child) chx_rb_set_parent(child, p)` re-hangs the subtree `t`
below `p`. -/
theorem Rep_set_parent {s : State α} {t : Tree} {par p : Nat} (h : Rep s.mem t par)
    (hnd : t.inorder.Nodup) (hpar : par % 4 = 0) :
    Rep (if t.addr ≠ 0 then chx_rb_set_parent s t.addr p else s).mem t p := by
  cases t with
  | nil => trivial
  | node c l a r =>
    simp only [Tree.inorder, List.nodup_append, List.nodup_cons, List.disjoint_cons_right,
      List.mem_append, List.mem_cons, not_or] at hnd
    have hl : a ∉ l.inorder := hnd.2.2.1
    have hr : a ∉ r.inorder := hnd.2.1.1
    simp only [addr_node, ne_eq, h.1, not_false_eq_true, if_true]
    refine Rep_reparent h hl hr ?_ ?_ ?_ ?_
    · simp only [chx_rb_set_parent, chx_rb_color, store_pc_pc, h.2.2.1, color_of_word c hpar]
      exact Nat.add_comm _ _
    · simp [chx_rb_set_parent]
    · simp [chx_rb_set_parent]
    · intro x hx
      simp [chx_rb_set_parent, store_pc_mem_ne hx]

theorem set_parent_frame {s : State α} {t : Tree} {p x : Nat} (hx : x ∉ t.inorder) :
    (if t.addr ≠ 0 then chx_rb_set_parent s t.addr p else s).mem x = s.mem x := by
  cases t with
  | nil => simp
  | node c l a r =>
    have hne : x ≠ a := fun e => hx (by simp [Tree.inorder, e])
    by_cases ha : a = 0
    · simp [ha]
    · simp [ha, chx_rb_set_parent, store_pc_mem_ne hne]

theorem set_parent_root {s : State α} {a p : Nat} :
    (if a ≠ 0 then chx_rb_set_parent s a p else s).rb_node = s.rb_node := by
  by_cases ha : a = 0 <;> simp [ha, chx_rb_set_parent]

/-- Function `chx_rb_replace_node`: the replacement takes the place of the
victim, with its colour, its children and its parent. -/
theorem replace_node_at {s : State α} {k : Ctx} {c : Color} {l r : Tree} {v new : Nat}
    (h : WF s (plug k (.node c l v r))) (hn0 : new ≠ 0) (hn4 : new % 4 = 0)
    (hfresh : new ∉ (plug k (.node c l v r)).inorder) :
    WF (chx_rb_replace_node s v new) (plug k (.node c l new r)) := by
  have hperm := inorder_plug_perm k (.node c l v r)
  have hfresh' : new ∉ (Tree.node c l v r).inorder ++ ctxNodes k :=
    fun hx => hfresh (hperm.symm.subset hx)
  rw [WF_plug'] at h
  obtain ⟨hk, hT, hnd⟩ := h
  have hal := RepCtx_ctxAddr_aligned hk
  obtain ⟨h1, h2, h3, h4, h5, h6, h7⟩ := hT
  simp only [Tree.inorder, List.mem_append, List.mem_cons, not_or] at hfresh'
  obtain ⟨⟨hfl, hfv, hfr⟩, hfk⟩ := hfresh'
  have hnd0 := hnd
  simp only [Tree.inorder, List.nodup_append, List.nodup_cons, List.disjoint_cons_right,
    List.disjoint_append_left, List.disjoint_cons_left, List.mem_append, List.mem_cons,
    not_or] at hnd
  obtain ⟨⟨ndl, ⟨hvr, ndr⟩, hvl, dlr⟩, ndk, -⟩ := hnd
  have hvl' : v ∉ l.inorder := hvl
  have hpar : chx_rb_parent s v = ctxAddr 0 k := by
    rw [chx_rb_parent, h3]
    exact parent_of_word c hal
  have hvnew : v ≠ new := fun e => hfv e.symm
  -- the state after the copy and the two parent updates
  obtain ⟨s1, hs1⟩ : ∃ s1, s1 = s.copy_node new v := ⟨_, rfl⟩
  obtain ⟨s2, hs2⟩ : ∃ s2, s2 = if l.addr ≠ 0 then chx_rb_set_parent s1 l.addr new else s1 :=
    ⟨_, rfl⟩
  obtain ⟨s3, hs3⟩ : ∃ s3, s3 = if r.addr ≠ 0 then chx_rb_set_parent s2 r.addr new else s2 :=
    ⟨_, rfl⟩
  have m1 : ∀ x, x ≠ new → s1.mem x = s.mem x := fun x hx => by
    simp [hs1, State.copy_node, hx]
  have m1n : s1.mem new = s.mem v := by simp [hs1, State.copy_node]
  have m2 : ∀ x, x ∉ l.inorder → s2.mem x = s1.mem x := fun x hx => by
    rw [hs2]
    exact set_parent_frame hx
  have m3 : ∀ x, x ∉ r.inorder → s3.mem x = s2.mem x := fun x hx => by
    rw [hs3]
    exact set_parent_frame hx
  have e1 : (s1.mem v).rb_left = l.addr := by rw [m1 v hvnew, h4]
  have e2 : (s2.mem v).rb_right = r.addr := by rw [m2 v hvl', m1 v hvnew, h5]
  have hcode : chx_rb_replace_node s v new =
      __chx_rb_change_child s3 (Tree.node c l v r).addr (Tree.node c l new r).addr
        (ctxAddr 0 k) := by
    simp only [chx_rb_replace_node, hpar, addr_node]
    rw [← hs1, e1, ← hs2, e2, ← hs3]
  rw [hcode]
  have hroot : s3.rb_node = s.rb_node := by
    rw [hs3, set_parent_root, hs2, set_parent_root, hs1]
    rfl
  have hdl : ∀ x ∈ l.inorder, x ∉ r.inorder := fun x hx hx' => dlr hx hx'
  have hl2 : Rep s2.mem l new := by
    rw [hs2]
    exact Rep_set_parent (Rep_congr l v (fun x hx => m1 x (fun e => hfl (e ▸ hx))) h6) ndl h2
  have hl3 : Rep s3.mem l new := Rep_congr l new (fun x hx => m3 x (hdl x hx)) hl2
  have hr2 : Rep s2.mem r v := Rep_congr r v (fun x hx => by
    rw [m2 x (fun hx' => dlr hx' hx), m1 x (fun e => hfr (e ▸ hx))]) h7
  have hr3 : Rep s3.mem r new := by
    rw [hs3]
    exact Rep_set_parent hr2 ndr h2
  have hnew3 : s3.mem new = s.mem v := by rw [m3 new hfr, m2 new hfl, m1n]
  refine WF_change_child_fresh (T := .node c l v r) hk hnd0 h1 (by simp) hroot ?_ ?_ ?_
  · intro x hx
    have hxT : ∀ y ∈ (Tree.node c l v r).inorder, x ≠ y := fun y hy => frame_ne hnd0 hx hy
    have hxl : x ∉ l.inorder := fun hx' => hxT x (by simp [Tree.inorder, hx']) rfl
    have hxr : x ∉ r.inorder := fun hx' => hxT x (by simp [Tree.inorder, hx']) rfl
    rw [m3 x hxr, m2 x hxl, m1 x (fun e => hfk (e ▸ hx))]
  · exact ⟨hn0, hn4, by rw [hnew3, h3], by rw [hnew3, h4], by rw [hnew3, h5], hl3, hr3⟩
  · have hsub : ∀ x ∈ (Tree.node c l new r).inorder, x = new ∨ x ∈ (Tree.node c l v r).inorder := by
      intro x hx
      simp only [Tree.inorder, List.mem_append, List.mem_cons] at hx ⊢
      tauto
    rw [List.nodup_append] at hnd0 ⊢
    refine ⟨?_, hnd0.2.1, ?_⟩
    · simp only [Tree.inorder, List.nodup_append, List.nodup_cons, List.disjoint_cons_right]
      exact ⟨ndl, ⟨hfr, ndr⟩, hfl, dlr⟩
    · intro x hx hx'
      rcases hsub x hx with rfl | hx2
      · exact hfk hx'
      · exact hnd0.2.2 hx2 hx'

theorem map_replace_not_mem {v new : Nat} : ∀ (L : List Nat), v ∉ L →
    L.map (fun x => if x = v then new else x) = L
  | [], _ => rfl
  | a :: L, h => by
    simp only [List.mem_cons, not_or] at h
    simp only [List.map_cons, map_replace_not_mem L h.2]
    rw [if_neg (fun e => h.1 e.symm)]

theorem inorder_plug_replace {k : Ctx} {c : Color} {l r : Tree} {v new : Nat}
    (hnd : (plug k (.node c l v r)).inorder.Nodup) :
    (plug k (.node c l new r)).inorder =
      (plug k (.node c l v r)).inorder.map (fun x => if x = v then new else x) := by
  rw [inorder_plug] at hnd ⊢
  rw [inorder_plug]
  simp only [Tree.inorder, List.append_assoc, List.cons_append, List.nodup_append,
    List.nodup_cons, List.mem_append, List.mem_cons, not_or, List.disjoint_append_right,
    List.disjoint_cons_right, List.disjoint_append_left, List.disjoint_cons_left] at hnd
  have hb : v ∉ ctxBefore k := by tauto
  have hl : v ∉ l.inorder := by tauto
  have hr : v ∉ r.inorder := by tauto
  have ha : v ∉ ctxAfter k := by tauto
  simp only [Tree.inorder, List.map_append, List.map_cons, map_replace_not_mem _ hb,
    map_replace_not_mem _ hl, map_replace_not_mem _ hr, map_replace_not_mem _ ha, if_true]

/-- Function `chx_rb_replace_node` on a node of the tree and a fresh node. -/
theorem replace_node_spec {s : State α} {t : Tree} {v new : Nat} (h : WF s t)
    (hv : v ∈ t.inorder) (hn0 : new ≠ 0) (hn4 : new % 4 = 0) (hfresh : new ∉ t.inorder) :
    ∃ t', WF (chx_rb_replace_node s v new) t' ∧
      t'.inorder = t.inorder.map (fun x => if x = v then new else x) ∧ (t.RB → t'.RB) := by
  obtain ⟨k, c, l, r, e⟩ := mem_split_plug t v hv
  subst e
  refine ⟨_, replace_node_at h hn0 hn4 hfresh, inorder_plug_replace h.2.2, ?_⟩
  intro hrb
  rw [RB_plug] at hrb ⊢
  obtain ⟨hv1, hv2, hv3⟩ := hrb
  rw [Valid_node] at hv1
  exact ⟨Valid_node.2 hv1, hv2, hv3⟩

/-! ## Adding a sequence of nodes -/

theorem WF_create_node {s : State α} {t : Tree} {n : Nat} (h : WF s t) (hn : n ∉ t.inorder) :
    WF (create_node s n) t := by
  obtain ⟨h1, h2, h3⟩ := h
  exact ⟨h1, (Rep_store_pc hn).2 h2, h3⟩

theorem size_of_perm {t' : Tree} {L : List Nat} (h : t'.inorder.Perm L) :
    t'.size = L.length := by
  rw [← length_inorder, h.length_eq]

theorem add_nodes_spec (key : Nat → Int) (fuel : Nat) : ∀ (nodes : List Nat) (s : State α)
    (t : Tree), WF s t → t.RB → t.inorder.Pairwise (fun x y => key x ≤ key y) →
    (∀ n ∈ nodes, n ≠ 0 ∧ n % 4 = 0 ∧ n ∉ t.inorder) → nodes.Nodup →
    t.size + nodes.length < fuel →
    ∃ s' t', add_nodes (less_func key) fuel s nodes = some s' ∧ WF s' t' ∧ t'.RB ∧
      t'.inorder.Pairwise (fun x y => key x ≤ key y) ∧ t'.inorder.Perm (t.inorder ++ nodes)
  | [], s, t, h, hrb, hs, _, _, _ => ⟨s, t, rfl, h, hrb, hs, by simp⟩
  | n :: ns, s, t, h, hrb, hs, hn, hnd, hf => by
    obtain ⟨hn0, hn4, hnt⟩ := hn n (by simp)
    simp only [List.length_cons] at hf
    have hh := height_le_size t
    obtain ⟨s1, t1, A, B, e1, e2, e3, e4, e5, e6, e7⟩ :=
      add_spec (less_func key) (WF_create_node h hnt) hrb
        (hs.imp (fun {x y} hxy => by simpa [less_func] using hxy))
        (fun a b c hab hbc => by
          simp only [less_func, decide_eq_false_iff_not, not_lt] at hab hbc ⊢
          omega)
        hn0 hn4 hnt (by omega : t.height < fuel)
    have hperm1 : t1.inorder.Perm (n :: t.inorder) := by
      rw [e5, e4]
      exact List.perm_middle
    have hs1 : t1.inorder.Pairwise (fun x y => key x ≤ key y) := by
      rw [e4] at hs
      rw [e5]
      rw [List.pairwise_append] at hs ⊢
      refine ⟨hs.1, List.pairwise_cons.2 ⟨fun y hy => ?_, hs.2.1⟩, fun x hx y hy => ?_⟩
      · have := e7 y hy
        simp only [less_func, decide_eq_true_eq] at this
        omega
      · rcases List.mem_cons.1 hy with rfl | hy
        · have := e6 x hx
          simpa [less_func] using this
        · exact hs.2.2 x hx y hy
    have hsz : t1.size = t.size + 1 := by
      rw [size_of_perm hperm1, List.length_cons, length_inorder]
    rw [List.nodup_cons] at hnd
    obtain ⟨s2, t2, g1, g2, g3, g4, g5⟩ := add_nodes_spec key fuel ns s1 t1 e2 e3 hs1
      (fun m hm => by
        obtain ⟨a1, a2, a3⟩ := hn m (by simp [hm])
        refine ⟨a1, a2, fun hx => ?_⟩
        rcases List.mem_cons.1 (hperm1.subset hx) with rfl | hx
        · exact hnd.1 hm
        · exact a3 hx)
      hnd.2 (by omega)
    refine ⟨s2, t2, ?_, g2, g3, g4, ?_⟩
    · rw [add_nodes, e1]
      exact g1
    · refine g5.trans ?_
      refine (List.Perm.append_right ns hperm1).trans ?_
      simpa using (@List.perm_middle _ n t.inorder ns).symm

/-! ## Sequences of `chx_rb_add` and `chx_rb_erase` -/

/-- Function `chx_rb_add` keeps a red-black tree a red-black tree, whatever the
predicate `less` is. -/
theorem add_rb (less : Nat → Nat → Bool) {s : State α} {t : Tree} {node fuel : Nat}
    (h : WF s t) (hrb : t.RB) (hn0 : node ≠ 0) (hn4 : node % 4 = 0)
    (hfresh : node ∉ t.inorder) (hfuel : t.height < fuel) :
    ∃ s' t', chx_rb_add less fuel s node = some s' ∧ WF s' t' ∧ t'.RB ∧
      t'.inorder.Perm (node :: t.inorder) := by
  obtain ⟨k, e1, e2, -⟩ := add_descend_spec less t [] fuel h hfuel trivial
  have e2' : t = plug k .nil := e2.symm
  subst e2'
  obtain ⟨s', t', f1, f2, f3, f4⟩ :=
    insert_color_spec dummy_rotate fuel h hrb hn0 hn4 hfresh hfuel
  change chx_rb_add_descend less s node fuel .root 0 = _ at e1
  refine ⟨s', t', ?_, f2, f3, ?_⟩
  · rw [chx_rb_add, e1]
    exact f1
  · rw [f4, inorder_plug_nil]
    exact List.perm_middle

theorem OpsOK_congr : ∀ (ops : List TreeOp) (L L' : List Nat), (∀ x, x ∈ L ↔ x ∈ L') →
    OpsOK L ops → OpsOK L' ops
  | [], _, _, _, _ => trivial
  | .add n :: ops, L, L', h, ⟨h1, h2, h3, h4⟩ =>
    ⟨h1, h2, fun hx => h3 ((h n).2 hx),
      OpsOK_congr ops (n :: L) (n :: L') (fun x => by simp [h x]) h4⟩
  | .erase n :: ops, L, L', h, ⟨h1, h2⟩ =>
    ⟨(h n).1 h1, OpsOK_congr ops _ _ (fun x => by simp [h x]) h2⟩

/-- Any sequence of `chx_rb_add` and `chx_rb_erase` calls that respects the
contract runs to completion and leaves a red-black tree. -/
theorem apply_ops_spec (less : Nat → Nat → Bool) (fuel : Nat) : ∀ (ops : List TreeOp)
    (s : State α) (t : Tree), WF s t → t.RB → OpsOK t.inorder ops →
    t.size + ops.length < fuel →
    ∃ s' t', apply_ops less fuel s ops = some s' ∧ WF s' t' ∧ t'.RB
  | [], s, t, h, hrb, _, _ => ⟨s, t, rfl, h, hrb⟩
  | .add n :: ops, s, t, h, hrb, ⟨h1, h2, h3, h4⟩, hf => by
    simp only [List.length_cons] at hf
    have hh := height_le_size t
    have hf1 : t.height < fuel := by omega
    obtain ⟨s1, t1, e1, e2, e3, e4⟩ := add_rb less h hrb h1 h2 h3 hf1
    have hsz : t1.size = t.size + 1 := by
      rw [size_of_perm e4, List.length_cons, length_inorder]
    obtain ⟨s2, t2, g1, g2, g3⟩ := apply_ops_spec less fuel ops s1 t1 e2 e3
      (OpsOK_congr ops _ _ (fun x => (e4.mem_iff).symm) h4) (by omega)
    exact ⟨s2, t2, by rw [apply_ops, e1]; exact g1, g2, g3⟩
  | .erase n :: ops, s, t, h, hrb, ⟨h1, h2⟩, hf => by
    simp only [List.length_cons] at hf
    have hh := height_le_size t
    have hf1 : t.height ≤ fuel := by omega
    obtain ⟨s1, t1, e1, e2, e3, e4⟩ := erase_spec h hrb h1 hf1
    rw [h.2.2.erase_eq_filter] at e4
    have hsz : t1.size ≤ t.size := by
      rw [← length_inorder, ← length_inorder t, e4]
      exact List.length_filter_le _ _
    obtain ⟨s2, t2, g1, g2, g3⟩ := apply_ops_spec less fuel ops s1 t1 e2 e3
      (by rw [e4]; exact h2) (by omega)
    exact ⟨s2, t2, by rw [apply_ops, e1]; exact g1, g2, g3⟩


/-! ## Comparators and sorted sequences -/

/-- Along a sequence sorted by key, the sign of a comparator that is consistent
with the key order is monotone. -/
theorem mono_of_sorted {K : Type} [LinearOrder K] {keyOf : Nat → K} {f : Nat → Int} {κ : K}
    {L : List Nat} (hs : L.Pairwise (fun x y => keyOf x ≤ keyOf y))
    (hf : ∀ a, (f a < 0 ↔ κ < keyOf a) ∧ (0 < f a ↔ keyOf a < κ)) :
    L.Pairwise (fun x y => (0 < f y → 0 < f x) ∧ (f x < 0 → f y < 0)) := by
  refine hs.imp (fun {x y} hxy => ⟨fun h => ?_, fun h => ?_⟩)
  · exact (hf x).2.2 (lt_of_le_of_lt hxy ((hf y).2.1 h))
  · exact (hf y).1.2 (lt_of_lt_of_le ((hf x).1.1 h) hxy)

theorem key_cmp_func_consistent (key : Nat → Int) (k : Int) (a : Nat) :
    (key_cmp_func key k a < 0 ↔ k < key a) ∧ (0 < key_cmp_func key k a ↔ key a < k) := by
  unfold key_cmp_func
  split_ifs with h1 h2 <;> constructor <;> constructor <;> intro h <;> omega

theorem cmp_func_consistent (key : Nat → Int) (n a : Nat) :
    (cmp_func key n a < 0 ↔ key n < key a) ∧ (0 < cmp_func key n a ↔ key a < key n) :=
  key_cmp_func_consistent key (key n) a

theorem less_func_neg_trans (key : Nat → Int) (a b c : Nat)
    (hab : less_func key a b = false) (hbc : less_func key b c = false) :
    less_func key a c = false := by
  simp only [less_func, decide_eq_false_iff_not, not_lt] at hab hbc ⊢
  omega

theorem WF_nil_of_empty {s : State α} (h : CHX_RB_EMPTY_ROOT s = true) : WF s .nil := by
  simp only [CHX_RB_EMPTY_ROOT, beq_iff_eq] at h
  exact ⟨h, trivial, List.nodup_nil⟩

theorem RB_nil : Tree.nil.RB := by decide

theorem sorted_insert {K : Type} [LinearOrder K] {keyOf : Nat → K} {A B : List Nat} {n : Nat}
    (hs : (A ++ B).Pairwise (fun x y => keyOf x ≤ keyOf y))
    (hA : ∀ x ∈ A, keyOf x ≤ keyOf n) (hB : ∀ x ∈ B, keyOf n ≤ keyOf x) :
    (A ++ n :: B).Pairwise (fun x y => keyOf x ≤ keyOf y) := by
  rw [List.pairwise_append] at hs ⊢
  refine ⟨hs.1, List.pairwise_cons.2 ⟨hB, hs.2.1⟩, fun x hx y hy => ?_⟩
  rcases List.mem_cons.1 hy with rfl | hy
  · exact hA x hx
  · exact hs.2.2 x hx y hy

/-! ## The claims -/

/-- Claim C1.  The state holds a red-black tree `t` (root black, no red node
with a red child, equal black count on every root-to-null path).  A fresh node
is attached as a red leaf at a null slot by `chx_rb_link_node`.  Then
`chx_rb_insert_color` returns, and the state holds a tree that again satisfies
the three colour invariants and consists of the old nodes and the new one. -/
theorem insert_color_restores_rb (s : State α) (t : Tree) (node parent fuel : Nat)
    (link : Link) (hwf : WF s t) (hrb : t.RB) (hslot : NullSlot s t parent link)
    (hn0 : node ≠ 0) (hn4 : node % 4 = 0) (hfresh : node ∉ t.inorder)
    (hfuel : t.height < fuel) :
    ∃ s' t', chx_rb_insert_color fuel (chx_rb_link_node s node parent link) node = some s' ∧
      WF s' t' ∧ t'.RB ∧ t'.inorder.Perm (node :: t.inorder) :=
  insert_spec hwf hrb hslot hn0 hn4 hfresh hfuel

theorem insert_color_restores_rb_witness :
    WF demo_state demo_tree ∧ demo_tree.RB ∧ NullSlot demo_state demo_tree 12 (.right 12) ∧
    ∃ s' t', chx_rb_insert_color 3 (chx_rb_link_node demo_state 16 12 (.right 12)) 16 = some s' ∧
      WF s' t' ∧ t'.RB ∧ t'.inorder.Perm (16 :: demo_tree.inorder) :=
  ⟨by decide, by decide, by decide,
    insert_color_restores_rb demo_state demo_tree 16 12 3 (.right 12) (by decide) (by decide)
      (by decide) (by decide) (by decide) (by decide) (by decide)⟩

/-- Claim C2.  The state holds a red-black tree `t` and `n` is one of its
nodes.  Then `chx_rb_erase(n, root)` returns, and the tree held afterwards
again has a black root, no red node with a red child, and the same number of
black nodes on every root-to-null path. -/
theorem erase_restores_rb (s : State α) (t : Tree) (n fuel : Nat)
    (hwf : WF s t) (hrb : t.RB) (hn : n ∈ t.inorder) (hfuel : t.height ≤ fuel) :
    ∃ s' t', chx_rb_erase fuel s n = some s' ∧ WF s' t' ∧
      t'.color = .black ∧ t'.NoRedRed ∧ t'.EqualBlack := by
  obtain ⟨s', t', e1, e2, e3, -⟩ := erase_spec hwf hrb hn hfuel
  exact ⟨s', t', e1, e2, e3⟩

theorem erase_restores_rb_witness :
    WF demo_state demo_tree ∧ demo_tree.RB ∧
    ∃ s' t', chx_rb_erase 2 demo_state 8 = some s' ∧ WF s' t' ∧
      t'.color = .black ∧ t'.NoRedRed ∧ t'.EqualBlack :=
  ⟨by decide, by decide,
    erase_restores_rb demo_state demo_tree 8 2 (by decide) (by decide) (by decide) (by decide)⟩

/-- Claim C3.  Starting from an empty root, one node per key is created and
added with `chx_rb_add` under the integer less-than predicate `less_func`.
All calls return, and the traversal by `chx_rb_first` and `chx_rb_next` then
visits exactly as many nodes as were added, with non-decreasing keys: the keys
visited are a sorted permutation of the keys added. -/
theorem add_nodes_walk_sorted_perm (key : Nat → Int) (s : State α) (nodes : List Nat)
    (fuel : Nat) (hempty : CHX_RB_EMPTY_ROOT s = true)
    (hnodes : ∀ n ∈ nodes, n ≠ 0 ∧ n % 4 = 0) (hnd : nodes.Nodup)
    (hfuel : nodes.length < fuel) :
    ∃ s' walk, add_nodes (less_func key) fuel s nodes = some s' ∧
      first_next_walk fuel s' = some walk ∧ walk.length = nodes.length ∧
      (walk.map key).Pairwise (fun a b => a ≤ b) ∧ (walk.map key).Perm (nodes.map key) ∧
      walk.Perm nodes := by
  obtain ⟨s', t', e1, e2, e3, e4, e5⟩ :=
    add_nodes_spec key fuel nodes s .nil (WF_nil_of_empty hempty) RB_nil
      (by simp [Tree.inorder])
      (fun n hn => ⟨(hnodes n hn).1, (hnodes n hn).2, by simp [Tree.inorder]⟩) hnd
      (by simpa [Tree.size] using hfuel)
  have e5' : t'.inorder.Perm nodes := by simpa [Tree.inorder] using e5
  have hsz : t'.size = nodes.length := size_of_perm e5'
  refine ⟨s', t'.inorder, e1, walk_spec e2 (by omega), e5'.length_eq, ?_, e5'.map key, e5'⟩
  rw [List.pairwise_map]
  exact e4

theorem add_nodes_walk_sorted_perm_witness :
    ∃ s' walk, add_nodes (less_func demo_key) 4 demo_empty [8, 4, 12] = some s' ∧
      first_next_walk 4 s' = some walk ∧ walk.length = [8, 4, 12].length ∧
      (walk.map demo_key).Pairwise (fun a b => a ≤ b) ∧
      (walk.map demo_key).Perm ([8, 4, 12].map demo_key) ∧ walk.Perm [8, 4, 12] :=
  add_nodes_walk_sorted_perm demo_key demo_empty [8, 4, 12] 4 (by decide) (by decide)
    (by decide) (by decide)

/-- Claim C4.  The state holds a red-black tree `t` and `n` is one of its
nodes.  After `chx_rb_erase(n, root)` the in-order node sequence, also as
enumerated by `chx_rb_first` and `chx_rb_next`, is the sequence before the call
with `n` removed: `n` is gone, every other node is still there, and the other
nodes keep their relative order. -/
theorem erase_removes_only_node (s : State α) (t : Tree) (n fuel : Nat)
    (hwf : WF s t) (hrb : t.RB) (hn : n ∈ t.inorder) (hfuel : t.size < fuel) :
    ∃ s' t', chx_rb_erase fuel s n = some s' ∧ WF s' t' ∧
      t'.inorder = t.inorder.filter (fun x => x != n) ∧ n ∉ t'.inorder ∧
      (∀ x ∈ t.inorder, x ≠ n → x ∈ t'.inorder) ∧
      first_next_walk fuel s = some t.inorder ∧
      first_next_walk fuel s' = some (t.inorder.filter (fun x => x != n)) := by
  have hh := height_le_size t
  obtain ⟨s', t', e1, e2, -, e4⟩ := erase_spec hwf hrb hn (by omega : t.height ≤ fuel)
  have e4' : t'.inorder = t.inorder.filter (fun x => x != n) := by
    rw [e4, hwf.2.2.erase_eq_filter]
  have hsz : t'.size ≤ t.size := by
    rw [← length_inorder, ← length_inorder t, e4']
    exact List.length_filter_le _ _
  refine ⟨s', t', e1, e2, e4', ?_, ?_, walk_spec hwf hfuel, ?_⟩
  · rw [e4']
    simp
  · intro x hx hne
    rw [e4']
    simp [hx, hne]
  · rw [← e4']
    exact walk_spec e2 (by omega)

theorem erase_removes_only_node_witness :
    WF demo_state demo_tree ∧ demo_tree.RB ∧ 4 ∈ demo_tree.inorder ∧
    ∃ s' t', chx_rb_erase 4 demo_state 4 = some s' ∧ WF s' t' ∧
      t'.inorder = demo_tree.inorder.filter (fun x => x != 4) ∧ 4 ∉ t'.inorder ∧
      (∀ x ∈ demo_tree.inorder, x ≠ 4 → x ∈ t'.inorder) ∧
      first_next_walk 4 demo_state = some demo_tree.inorder ∧
      first_next_walk 4 s' = some (demo_tree.inorder.filter (fun x => x != 4)) :=
  ⟨by decide, by decide, by decide,
    erase_removes_only_node demo_state demo_tree 4 4 (by decide) (by decide) (by decide)
      (by decide)⟩

/-- Claim C5.  The state holds a red-black tree, so that `parent_of(c) = n` for
every non-null child `c` of every node `n` and the parent of the root is null.
Then the same holds for the tree held after `chx_rb_link_node` followed by
`chx_rb_insert_color` (for a fresh node at a null slot), after `chx_rb_erase`
(of a node of the tree), and after `chx_rb_replace_node` (of a node of the tree
by a fresh node). -/
theorem parent_links_preserved (s : State α) (t : Tree) (hwf : WF s t) (hrb : t.RB) :
    ParentLinked s t.inorder ∧
    (∀ (node parent fuel : Nat) (link : Link), NullSlot s t parent link → node ≠ 0 →
      node % 4 = 0 → node ∉ t.inorder → t.height < fuel →
      ∃ s' t', chx_rb_insert_color fuel (chx_rb_link_node s node parent link) node = some s' ∧
        WF s' t' ∧ t'.inorder.Perm (node :: t.inorder) ∧ ParentLinked s' t'.inorder) ∧
    (∀ (n fuel : Nat), n ∈ t.inorder → t.height ≤ fuel →
      ∃ s' t', chx_rb_erase fuel s n = some s' ∧ WF s' t' ∧
        t'.inorder = t.inorder.erase n ∧ ParentLinked s' t'.inorder) ∧
    (∀ (victim new_node : Nat), victim ∈ t.inorder → new_node ≠ 0 → new_node % 4 = 0 →
      new_node ∉ t.inorder →
      ∃ t', WF (chx_rb_replace_node s victim new_node) t' ∧
        t'.inorder = t.inorder.map (fun x => if x = victim then new_node else x) ∧
        ParentLinked (chx_rb_replace_node s victim new_node) t'.inorder) := by
  refine ⟨hwf.parentLinked, ?_, ?_, ?_⟩
  · intro node parent fuel link hslot hn0 hn4 hfresh hfuel
    obtain ⟨s', t', e1, e2, -, e4⟩ := insert_spec hwf hrb hslot hn0 hn4 hfresh hfuel
    exact ⟨s', t', e1, e2, e4, e2.parentLinked⟩
  · intro n fuel hn hfuel
    obtain ⟨s', t', e1, e2, -, e4⟩ := erase_spec hwf hrb hn hfuel
    exact ⟨s', t', e1, e2, e4, e2.parentLinked⟩
  · intro victim new_node hv hn0 hn4 hfresh
    obtain ⟨t', e1, e2, -⟩ := replace_node_spec hwf hv hn0 hn4 hfresh
    exact ⟨t', e1, e2, e1.parentLinked⟩

theorem parent_links_preserved_witness :
    WF demo_state demo_tree ∧ demo_tree.RB ∧
    (∃ s' t', chx_rb_insert_color 3 (chx_rb_link_node demo_state 16 4 (.left 4)) 16 = some s' ∧
      WF s' t' ∧ t'.inorder.Perm (16 :: demo_tree.inorder) ∧ ParentLinked s' t'.inorder) ∧
    (∃ s' t', chx_rb_erase 2 demo_state 12 = some s' ∧ WF s' t' ∧
      t'.inorder = demo_tree.inorder.erase 12 ∧ ParentLinked s' t'.inorder) ∧
    (∃ t', WF (chx_rb_replace_node demo_state 8 16) t' ∧
      t'.inorder = demo_tree.inorder.map (fun x => if x = 8 then 16 else x) ∧
      ParentLinked (chx_rb_replace_node demo_state 8 16) t'.inorder) :=
  ⟨by decide, by decide,
    (parent_links_preserved demo_state demo_tree (by decide) (by decide)).2.1 16 4 3 (.left 4)
      (by decide) (by decide) (by decide) (by decide) (by decide),
    (parent_links_preserved demo_state demo_tree (by decide) (by decide)).2.2.1 12 2
      (by decide) (by decide),
    (parent_links_preserved demo_state demo_tree (by decide) (by decide)).2.2.2 8 16
      (by decide) (by decide) (by decide) (by decide)⟩

/-- Claim C6.  A tree with `k` nodes that satisfies the red-black colour
invariants has height `h` (nodes on the longest root-to-null path) at most
`2 * log2 (k + 1)`; equivalently `2 ^ h ≤ (k + 1) ^ 2`.  In particular this
holds for every tree built from it, so from the empty tree, by a sequence of
`chx_rb_add` and `chx_rb_erase` calls. -/
theorem rb_height_le_two_log (t : Tree) (hrb : t.RB) :
    (t.height : ℝ) ≤ 2 * Real.logb 2 ((t.size : ℝ) + 1) ∧
    2 ^ t.height ≤ (t.size + 1) ^ 2 ∧
    ∀ (s : State α) (less : Nat → Nat → Bool) (ops : List TreeOp) (fuel : Nat),
      WF s t → OpsOK t.inorder ops → t.size + ops.length < fuel →
      ∃ s' t', apply_ops less fuel s ops = some s' ∧ WF s' t' ∧ t'.RB ∧
        (t'.height : ℝ) ≤ 2 * Real.logb 2 ((t'.size : ℝ) + 1) ∧
        2 ^ t'.height ≤ (t'.size + 1) ^ 2 := by
  refine ⟨rb_height_logb hrb, rb_pow_height hrb, ?_⟩
  intro s less ops fuel hwf hops hfuel
  obtain ⟨s', t', e1, e2, e3⟩ := apply_ops_spec less fuel ops s t hwf hrb hops hfuel
  exact ⟨s', t', e1, e2, e3, rb_height_logb e3, rb_pow_height e3⟩

theorem rb_height_le_two_log_witness :
    (demo_tree.RB ∧ demo_tree.height = 2 ∧ demo_tree.size = 3 ∧
      (demo_tree.height : ℝ) ≤ 2 * Real.logb 2 ((demo_tree.size : ℝ) + 1) ∧
      2 ^ demo_tree.height ≤ (demo_tree.size + 1) ^ 2) ∧
    ∃ s' t', apply_ops (less_func demo_key) 5 demo_empty
        [.add 8, .add 4, .add 12, .erase 8] = some s' ∧ WF s' t' ∧ t'.RB ∧
      (t'.height : ℝ) ≤ 2 * Real.logb 2 ((t'.size : ℝ) + 1) ∧
      2 ^ t'.height ≤ (t'.size + 1) ^ 2 :=
  ⟨⟨by decide, by decide, by decide,
      (rb_height_le_two_log (α := Unit) demo_tree (by decide)).1,
      (rb_height_le_two_log (α := Unit) demo_tree (by decide)).2.1⟩,
    (rb_height_le_two_log Tree.nil (by decide)).2.2 demo_empty (less_func demo_key)
      [.add 8, .add 4, .add 12, .erase 8] 5 (by decide) (by decide) (by decide)⟩

/-- Claim C7.  The state holds a tree whose in-order sequence is sorted by key
under a total order, and `cmp` compares the search key with a node consistently
with that order.  Then `chx_rb_find` returns; when some node of the tree
compares equal to the key the result is a node of the tree with `cmp = 0`, and
the result is null exactly when no node of the tree compares equal. -/
theorem find_returns_match {K : Type} [LinearOrder K] (keyOf : Nat → K)
    (cmp : K → Nat → Int) (key : K) (s : State α) (t : Tree) (fuel : Nat) (hwf : WF s t)
    (hsorted : t.inorder.Pairwise (fun x y => keyOf x ≤ keyOf y))
    (hcmp : ∀ a, (cmp key a < 0 ↔ key < keyOf a) ∧ (0 < cmp key a ↔ keyOf a < key))
    (hfuel : t.height < fuel) :
    ∃ r, chx_rb_find cmp fuel key s = some r ∧
      ((∃ x ∈ t.inorder, cmp key x = 0) → r ∈ t.inorder ∧ cmp key r = 0) ∧
      (r = 0 ↔ ∀ x ∈ t.inorder, cmp key x ≠ 0) := by
  rcases find_spec cmp key hwf hfuel (mono_of_sorted hsorted hcmp) with
    ⟨a, ha, e1, e2⟩ | ⟨e1, e2⟩
  · refine ⟨a, e2, fun _ => ⟨ha, e1⟩, ?_⟩
    have ha0 : a ≠ 0 := Rep_mem_ne_zero t 0 hwf.2.1 a ha
    exact ⟨fun h => absurd h ha0, fun h => absurd e1 (h a ha)⟩
  · refine ⟨0, e2, fun ⟨x, hx, hx0⟩ => absurd hx0 (e1 x hx), fun _ => e1, fun _ => rfl⟩

theorem find_returns_match_witness :
    WF demo_state demo_tree ∧ (∃ x ∈ demo_tree.inorder, key_cmp_func demo_key 12 x = 0) ∧
    ∃ r, chx_rb_find (key_cmp_func demo_key) 3 12 demo_state = some r ∧
      ((∃ x ∈ demo_tree.inorder, key_cmp_func demo_key 12 x = 0) →
        r ∈ demo_tree.inorder ∧ key_cmp_func demo_key 12 r = 0) ∧
      (r = 0 ↔ ∀ x ∈ demo_tree.inorder, key_cmp_func demo_key 12 x ≠ 0) :=
  ⟨by decide, by decide,
    find_returns_match demo_key (key_cmp_func demo_key) 12 demo_state demo_tree 3 (by decide)
      (by decide) (key_cmp_func_consistent demo_key 12) (by decide)⟩

/-- Claim C8.  The state holds a tree sorted by key and the key of `n` compares
equal (`cmp = 0`) to some node of the tree.  Then `chx_rb_find_add` returns a
node of the tree that compares equal to `n`, and the state after the call is
the state before it: the root, the parent-and-colour word and both child links
of every node are as before, and the header of `n` is not written. -/
theorem find_add_conflict_unchanged {K : Type} [LinearOrder K] (keyOf : Nat → K)
    (cmp : Nat → Nat → Int) (s : State α) (t : Tree) (n fuel : Nat) (hwf : WF s t)
    (hsorted : t.inorder.Pairwise (fun x y => keyOf x ≤ keyOf y))
    (hcmp : ∀ a, (cmp n a < 0 ↔ keyOf n < keyOf a) ∧ (0 < cmp n a ↔ keyOf a < keyOf n))
    (hconf : ∃ e ∈ t.inorder, cmp n e = 0) (hfuel : t.height < fuel) :
    ∃ s' e, chx_rb_find_add cmp fuel s n = some (s', e) ∧ e ∈ t.inorder ∧ cmp n e = 0 ∧
      s'.rb_node = s.rb_node ∧ (∀ x, s'.mem x = s.mem x) ∧ s' = s := by
  rcases find_add_descend_spec cmp t [] fuel hwf hfuel trivial with
    ⟨a, ha, e1, e2⟩ | ⟨k, e1, e2, -⟩
  · change chx_rb_find_add_descend cmp s n fuel .root 0 = _ at e2
    exact ⟨s, a, by rw [chx_rb_find_add, e2], ha, e1, rfl, fun _ => rfl, rfl⟩
  · exfalso
    obtain ⟨e, he, he0⟩ := hconf
    have e1' : t = plug k .nil := e1.symm
    subst e1'
    have hmono := mono_of_sorted hsorted hcmp
    rw [inorder_plug_nil] at hmono he
    obtain ⟨h1, h2⟩ := path_sides k hmono e2
    rcases List.mem_append.1 he with he | he
    · have := h1 e he
      omega
    · have := h2 e he
      omega

theorem find_add_conflict_unchanged_witness :
    WF demo_state demo_tree ∧ (∃ e ∈ demo_tree.inorder, cmp_func demo_key_dup 16 e = 0) ∧
    ∃ s' e, chx_rb_find_add (cmp_func demo_key_dup) 3 demo_state 16 = some (s', e) ∧
      e ∈ demo_tree.inorder ∧ cmp_func demo_key_dup 16 e = 0 ∧
      s'.rb_node = demo_state.rb_node ∧ (∀ x, s'.mem x = demo_state.mem x) ∧
      s' = demo_state :=
  ⟨by decide, by decide,
    find_add_conflict_unchanged demo_key_dup (cmp_func demo_key_dup) demo_state demo_tree 16 3
      (by decide) (by decide) (cmp_func_consistent demo_key_dup 16) (by decide) (by decide)⟩

/-- Claim C9.  The state holds a red-black tree sorted by key and `n` is a
fresh node whose key compares equal to no node of the tree.  Then
`chx_rb_find_add` returns null, `n` is in the tree afterwards, and a subsequent
`chx_rb_find` with the key of `n`, through a key comparator consistent with the
same order, returns `n`. -/
theorem find_add_fresh_then_find {K : Type} [LinearOrder K] (keyOf : Nat → K)
    (cmp : Nat → Nat → Int) (kcmp : K → Nat → Int) (s : State α) (t : Tree)
    (n fuel : Nat) (hwf : WF s t) (hrb : t.RB)
    (hsorted : t.inorder.Pairwise (fun x y => keyOf x ≤ keyOf y))
    (hcmp : ∀ a, (cmp n a < 0 ↔ keyOf n < keyOf a) ∧ (0 < cmp n a ↔ keyOf a < keyOf n))
    (hkcmp : ∀ a, (kcmp (keyOf n) a < 0 ↔ keyOf n < keyOf a) ∧
      (0 < kcmp (keyOf n) a ↔ keyOf a < keyOf n))
    (hn0 : n ≠ 0) (hn4 : n % 4 = 0) (hfresh : n ∉ t.inorder)
    (hnone : ∀ x ∈ t.inorder, cmp n x ≠ 0) (hfuel : t.size + 1 < fuel) :
    ∃ s' t', chx_rb_find_add cmp fuel s n = some (s', 0) ∧ WF s' t' ∧ n ∈ t'.inorder ∧
      chx_rb_find kcmp fuel (keyOf n) s' = some n := by
  have hh := height_le_size t
  have hf : t.height < fuel := by omega
  rcases find_add_spec cmp hwf hrb hf (mono_of_sorted hsorted hcmp) hn0 hn4 hfresh with
    ⟨a, ha, e1, -⟩ | ⟨-, s', t', A, B, e1, e2, e3, e4, e5, e6, e7⟩
  · exact absurd e1 (hnone a ha)
  · have hA : ∀ x ∈ A, keyOf x < keyOf n := fun x hx => (hcmp x).2.1 (e6 x hx)
    have hB : ∀ x ∈ B, keyOf n < keyOf x := fun x hx => (hcmp x).1.1 (e7 x hx)
    have hsorted' : t'.inorder.Pairwise (fun x y => keyOf x ≤ keyOf y) := by
      rw [e5]
      rw [e4] at hsorted
      exact sorted_insert hsorted (fun x hx => le_of_lt (hA x hx))
        (fun x hx => le_of_lt (hB x hx))
    have hsz : t'.size = t.size + 1 := by
      rw [← length_inorder, e5, ← length_inorder t, e4]
      simp only [List.length_append, List.length_cons]
      omega
    have hh' := height_le_size t'
    have hn' : n ∈ t'.inorder := by
      rw [e5]
      simp
    have hk0 : kcmp (keyOf n) n = 0 := by
      have h1 : ¬ kcmp (keyOf n) n < 0 := fun h => lt_irrefl _ ((hkcmp n).1.1 h)
      have h2 : ¬ 0 < kcmp (keyOf n) n := fun h => lt_irrefl _ ((hkcmp n).2.1 h)
      omega
    have hf' : t'.height < fuel := by omega
    rcases find_spec kcmp (keyOf n) e2 hf' (mono_of_sorted hsorted' hkcmp) with
      ⟨a, ha, f1, f2⟩ | ⟨f1, -⟩
    · have han : a = n := by
        rw [e5] at ha
        rcases List.mem_append.1 ha with ha | ha
        · have := (hkcmp a).2.2 (hA a ha)
          omega
        · rcases List.mem_cons.1 ha with rfl | ha
          · rfl
          · have := (hkcmp a).1.2 (hB a ha)
            omega
      subst han
      exact ⟨s', t', e1, e2, hn', f2⟩
    · exact absurd hk0 (f1 n hn')

theorem find_add_fresh_then_find_witness :
    WF demo_state demo_tree ∧ demo_tree.RB ∧
    (∀ x ∈ demo_tree.inorder, cmp_func demo_key 16 x ≠ 0) ∧
    ∃ s' t', chx_rb_find_add (cmp_func demo_key) 5 demo_state 16 = some (s', 0) ∧ WF s' t' ∧
      16 ∈ t'.inorder ∧ chx_rb_find (key_cmp_func demo_key) 5 (demo_key 16) s' = some 16 :=
  ⟨by decide, by decide, by decide,
    find_add_fresh_then_find demo_key (cmp_func demo_key) (key_cmp_func demo_key) demo_state
      demo_tree 16 5 (by decide) (by decide) (by decide) (cmp_func_consistent demo_key 16)
      (key_cmp_func_consistent demo_key (demo_key 16)) (by decide) (by decide) (by decide)
      (by decide) (by decide)⟩

/-- Claim C10.  The state holds a red-black tree sorted under `less`, a strict
weak order (only its negative transitivity is used), and `n` is a fresh node.
After `chx_rb_add` the in-order sequence is the old one with `n` inserted
immediately before the first element `x` with `less n x`, at the end if there
is none; in particular every old node that `n` is not less than, so every node
that compares equal to `n`, comes before `n`. -/
theorem add_inserts_before_first_greater (less : Nat → Nat → Bool) (s : State α) (t : Tree)
    (n fuel : Nat) (hwf : WF s t) (hrb : t.RB)
    (hsorted : t.inorder.Pairwise (fun x y => less y x = false))
    (hneg : ∀ a b c, less a b = false → less b c = false → less a c = false)
    (hn0 : n ≠ 0) (hn4 : n % 4 = 0) (hfresh : n ∉ t.inorder) (hfuel : t.height < fuel) :
    ∃ s' t', chx_rb_add less fuel s n = some s' ∧ WF s' t' ∧
      t'.inorder = t.inorder.takeWhile (fun x => !less n x) ++
        n :: t.inorder.dropWhile (fun x => !less n x) ∧
      ∀ x ∈ t.inorder, less n x = false → x ∈ t.inorder.takeWhile (fun x => !less n x) := by
  obtain ⟨s', t', A, B, e1, e2, -, e4, e5, e6, e7⟩ :=
    add_spec less hwf hrb hsorted hneg hn0 hn4 hfresh hfuel
  obtain ⟨h1, h2⟩ := takeWhile_split (p := fun x => !less n x) A B
    (fun x hx => by simp [e6 x hx]) (fun x hx => by simp [e7 x hx])
  refine ⟨s', t', e1, e2, by rw [e4, h1, h2, e5], ?_⟩
  intro x hx hlt
  rw [e4] at hx ⊢
  rw [h1]
  rcases List.mem_append.1 hx with hx | hx
  · exact hx
  · rw [e7 x hx] at hlt
    exact absurd hlt (by simp)

theorem add_inserts_before_first_greater_witness :
    WF demo_state demo_tree ∧ demo_tree.RB ∧
    ∃ s' t', chx_rb_add (less_func demo_key_dup) 3 demo_state 16 = some s' ∧ WF s' t' ∧
      t'.inorder = demo_tree.inorder.takeWhile (fun x => !less_func demo_key_dup 16 x) ++
        16 :: demo_tree.inorder.dropWhile (fun x => !less_func demo_key_dup 16 x) ∧
      ∀ x ∈ demo_tree.inorder, less_func demo_key_dup 16 x = false →
        x ∈ demo_tree.inorder.takeWhile (fun x => !less_func demo_key_dup 16 x) :=
  ⟨by decide, by decide,
    add_inserts_before_first_greater (less_func demo_key_dup) demo_state demo_tree 16 3
      (by decide) (by decide) (by decide) (less_func_neg_trans demo_key_dup) (by decide)
      (by decide) (by decide) (by decide)⟩


/-! ## Loops of the form `for (node = start; node; node = step(node))` -/

/-- A loop whose step function follows the list `L` visits the rest of `L`. -/
theorem for_each_node_from (step : Nat → Option Nat) (L : List Nat) (hnz : ∀ x ∈ L, x ≠ 0)
    (hstep : ∀ pre n suf, L = pre ++ n :: suf → step n = some (suf.headD 0)) :
    ∀ (suf pre : List Nat) (n cnt : Nat), L = pre ++ n :: suf → suf.length + 1 < cnt →
      for_each_node step cnt n = some (n :: suf) := by
  intro suf
  induction suf with
  | nil =>
    intro pre n cnt heq hc
    have hn0 : n ≠ 0 := hnz n (by rw [heq]; simp)
    have key := hstep pre n [] heq
    obtain ⟨cnt, rfl⟩ : ∃ c', cnt = c' + 2 := ⟨cnt - 2, by simp at hc; omega⟩
    simp [for_each_node, hn0, key]
  | cons n' suf ih =>
    intro pre n cnt heq hc
    have hn0 : n ≠ 0 := hnz n (by rw [heq]; simp)
    have key := hstep pre n (n' :: suf) heq
    simp only [List.length_cons] at hc
    obtain ⟨cnt, rfl⟩ : ∃ c', cnt = c' + 1 := ⟨cnt - 1, by omega⟩
    have := ih (pre ++ [n]) n' cnt (by simp [heq]) (by omega)
    simp [for_each_node, hn0, key, this]

/-- A loop started at the head of `L` whose step function follows `L` visits
exactly `L`. -/
theorem for_each_node_list (step : Nat → Option Nat) (L : List Nat) (hnz : ∀ x ∈ L, x ≠ 0)
    (hstep : ∀ pre n suf, L = pre ++ n :: suf → step n = some (suf.headD 0))
    {cnt : Nat} (hc : L.length < cnt) :
    for_each_node step cnt (L.headD 0) = some L := by
  cases L with
  | nil =>
    obtain ⟨cnt, rfl⟩ : ∃ c', cnt = c' + 1 := ⟨cnt - 1, by simp at hc; omega⟩
    simp [for_each_node]
  | cons n suf =>
    simp only [List.length_cons] at hc
    exact for_each_node_from step (n :: suf) hnz hstep suf [] n cnt rfl (by omega)

theorem first_next_walk_from_eq (s : State α) (fuel : Nat) : ∀ (cnt n : Nat),
    first_next_walk_from s fuel cnt n = for_each_node (chx_rb_next fuel s) cnt n
  | 0, _ => rfl
  | cnt + 1, n => by
    rw [first_next_walk_from, for_each_node]
    by_cases hn : n = 0
    · simp [hn]
    · simp only [ne_eq, hn, not_false_eq_true, if_true]
      cases chx_rb_next fuel s n with
      | none => rfl
      | some nxt => simp only [first_next_walk_from_eq s fuel cnt nxt]

/-- In a tree without repeated nodes, the neighbours of a node in the in-order
sequence are determined by its position in the tree. -/
theorem inorder_split_at {k : Ctx} {c : Color} {l r : Tree} {n : Nat} {pre suf : List Nat}
    (hnd : (plug k (.node c l n r)).inorder.Nodup)
    (heq : (plug k (.node c l n r)).inorder = pre ++ n :: suf) :
    ctxBefore k ++ l.inorder = pre ∧ r.inorder ++ ctxAfter k = suf := by
  rw [inorder_plug] at heq hnd
  simp only [Tree.inorder, List.append_assoc, List.cons_append] at heq hnd
  rw [← List.append_assoc] at heq hnd
  exact split_unique _ _ _ _ hnd heq

/-- Function `chx_rb_next` on a node of the tree: the node that follows it in
the in-order sequence, `NULL` after the last one. -/
theorem next_in_list {s : State α} {t : Tree} {fuel : Nat} (h : WF s t)
    (hf : t.height < fuel) {pre suf : List Nat} {n : Nat} (heq : t.inorder = pre ++ n :: suf) :
    chx_rb_next fuel s n = some (suf.headD 0) := by
  have hmem : n ∈ t.inorder := by rw [heq]; simp
  obtain ⟨k, c, l, r, e⟩ := mem_split_plug t n hmem
  subst e
  rw [next_spec h hf, (inorder_split_at h.2.2 heq).2]

/-! ## `chx_rb_last` and `chx_rb_prev` -/

theorem rightmost_loop_spec {s : State α} (t : Tree) : ∀ (par fuel : Nat), Rep s.mem t par →
    t ≠ .nil → t.height ≤ fuel →
    rightmost_loop s fuel t.addr = some (t.inorder.reverse.headD 0) := by
  induction t with
  | nil => intro _ _ _ h; exact absurd rfl h
  | node c l a r _ ihr =>
    intro par fuel hr _ hf
    obtain ⟨h1, h2, h3, h4, h5, h6, h7⟩ := hr
    simp only [Tree.height] at hf
    obtain ⟨fuel, rfl⟩ : ∃ f', fuel = f' + 1 := ⟨fuel - 1, by omega⟩
    rw [addr_node, rightmost_loop, h5]
    cases r with
    | nil => simp [Tree.inorder]
    | node cr rl ra rr =>
      have := ihr a fuel h7 (by simp) (by omega)
      simp only [addr_node] at this ⊢
      rw [if_pos h7.1, this]
      show _ = some ((l.inorder ++ a :: (Tree.node cr rl ra rr).inorder).reverse.headD 0)
      rw [List.reverse_append, List.reverse_cons, List.append_assoc,
        headD_append_of_ne_nil (by simpa using inorder_ne_nil)]

theorem prev_ascend_spec {s : State α} {top : Nat} : ∀ (k : Ctx) (p fuel : Nat) (c : Color),
    RepCtx s.mem top 0 k p → (s.mem p).__rb_parent_color = ctxAddr 0 k + c.bit →
    p ≠ 0 → p ∉ ctxNodes k → (ctxNodes k).Nodup → k.length < fuel →
    chx_rb_prev_ascend s fuel p = some ((ctxBefore k).reverse.headD 0) := by
  intro k
  induction k with
  | nil =>
    intro p fuel c _ hpc _ _ _ hf
    obtain ⟨fuel, rfl⟩ : ∃ f', fuel = f' + 1 := ⟨fuel - 1, by simp at hf; omega⟩
    simp only [ctxAddr] at hpc
    have hp : chx_rb_parent s p = 0 := by
      rw [chx_rb_parent, hpc]
      exact parent_of_word c rfl
    rw [chx_rb_prev_ascend]
    simp [hp, ctxBefore]
  | cons f k ih =>
    intro p fuel c hk hpc hp0 hpn hnd hf
    simp only [List.length_cons] at hf
    obtain ⟨fuel, rfl⟩ : ∃ f', fuel = f' + 1 := ⟨fuel - 1, by omega⟩
    cases f with
    | right c' l a =>
      obtain ⟨h1, h2, h3, h4, h5, h6, h7⟩ := hk
      simp only [ctxAddr, Frame.addr] at hpc
      rw [mem_ctxNodes_right] at hpn
      have hne : p ≠ l.addr := ne_addr hp0 (fun e => hpn (Or.inr (Or.inl e)))
      have hp : chx_rb_parent s p = a := by
        rw [chx_rb_parent, hpc]
        exact parent_of_word c h2
      rw [chx_rb_prev_ascend]
      simp [hp, h4, hne, ctxBefore]
    | left c' a r =>
      obtain ⟨h1, h2, h3, h4, h5, h6, h7⟩ := hk
      simp only [ctxAddr, Frame.addr] at hpc
      rw [nodup_ctxNodes_left] at hnd
      have := ih a fuel c' h7 h3 h1 hnd.2.1 hnd.2.2.2.1 (by omega)
      have hp : chx_rb_parent s p = a := by
        rw [chx_rb_parent, hpc]
        exact parent_of_word c h2
      rw [chx_rb_prev_ascend]
      simp [hp, h4, h1, ctxBefore, this]

/-- Function `chx_rb_prev` at the node in the hole of `k` returns the node that
precedes it in order, or `NULL` at the first node. -/
theorem prev_spec {s : State α} {k : Ctx} {c : Color} {l r : Tree} {n fuel : Nat}
    (h : WF s (plug k (.node c l n r))) (hf : (plug k (.node c l n r)).height < fuel) :
    chx_rb_prev fuel s n = some ((ctxBefore k ++ l.inorder).reverse.headD 0) := by
  have hh := plug_height k (.node c l n r)
  simp only [Tree.height] at hh
  rw [WF_plug'] at h
  obtain ⟨hk, hT, hnd⟩ := h
  obtain ⟨h1, h2, h3, h4, h5, h6, h7⟩ := hT
  have hal := RepCtx_ctxAddr_aligned hk
  have hnk : n ∉ ctxNodes k := fun hx => frame_ne hnd hx (by simp [Tree.inorder]) rfl
  have hpar : ctxAddr 0 k ≠ n := by
    by_cases hk0 : k = []
    · subst hk0
      exact fun e => h1 e.symm
    · exact fun e => hnk (e ▸ ctxAddr_mem_ctxNodes k hk0)
  have hempty : CHX_RB_EMPTY_NODE s n = false := by
    simp only [CHX_RB_EMPTY_NODE, h3, beq_eq_false_iff_ne, ne_eq]
    intro e
    cases c with
    | red => exact hpar (by simpa using e)
    | black => simp only [bit_black] at e; omega
  rw [chx_rb_prev, hempty, h4]
  simp only [Bool.false_eq_true, if_false]
  cases l with
  | nil =>
    simp only [addr_nil, ne_eq, not_true_eq_false, if_false, Tree.inorder, List.append_nil]
    refine prev_ascend_spec k n fuel c hk h3 h1 hnk ?_ (by omega)
    exact (List.nodup_append.1 hnd).2.1
  | node cl ll la lr =>
    simp only [addr_node, ne_eq, h6.1, not_false_eq_true, if_true]
    have := rightmost_loop_spec (.node cl ll la lr) n fuel h6 (by simp) (by omega)
    simp only [addr_node] at this
    rw [this, List.reverse_append, headD_append_of_ne_nil (by simpa using inorder_ne_nil)]

theorem last_spec {s : State α} {t : Tree} {fuel : Nat} (h : WF s t) (hf : t.height ≤ fuel) :
    chx_rb_last fuel s = some (t.inorder.reverse.headD 0) := by
  obtain ⟨h1, h2, -⟩ := h
  cases t with
  | nil => simp [chx_rb_last, h1, Tree.inorder]
  | node c l a r =>
    have := rightmost_loop_spec (.node c l a r) 0 fuel h2 (by simp) hf
    simp only [addr_node] at this h1
    simp [chx_rb_last, h1, h2.1, this]

/-- Function `chx_rb_prev` on a node of the tree: the node that precedes it in
the in-order sequence, `NULL` before the first one. -/
theorem prev_in_list {s : State α} {t : Tree} {fuel : Nat} (h : WF s t)
    (hf : t.height < fuel) {pre suf : List Nat} {n : Nat} (heq : t.inorder = pre ++ n :: suf) :
    chx_rb_prev fuel s n = some (pre.reverse.headD 0) := by
  have hmem : n ∈ t.inorder := by rw [heq]; simp
  obtain ⟨k, c, l, r, e⟩ := mem_split_plug t n hmem
  subst e
  rw [prev_spec h hf, (inorder_split_at h.2.2 heq).1]

/-- The traversal `for (n = chx_rb_last(root); n; n = chx_rb_prev(n))` visits
the in-order sequence backwards. -/
theorem last_prev_walk_spec {s : State α} {t : Tree} {fuel : Nat} (h : WF s t)
    (hf : t.size < fuel) : last_prev_walk fuel s = some t.inorder.reverse := by
  have hh := height_le_size t
  rw [last_prev_walk, last_spec h (by omega : t.height ≤ fuel)]
  refine for_each_node_list _ _ (fun x hx => ?_) (fun pre n suf heq => ?_) ?_
  · exact Rep_mem_ne_zero t 0 h.2.1 x (List.mem_reverse.1 hx)
  · have heq' : t.inorder = suf.reverse ++ n :: pre.reverse := by
      have := congrArg List.reverse heq
      simpa using this
    have := prev_in_list h (by omega : t.height < fuel) heq'
    simpa using this
  · rw [List.length_reverse, length_inorder]
    exact hf

/-- The first/next traversal as a `for` loop. -/
theorem first_next_loop_spec {s : State α} {t : Tree} {fuel : Nat} (h : WF s t)
    (hf : t.size < fuel) :
    for_each_node (chx_rb_next fuel s) fuel (t.inorder.headD 0) = some t.inorder := by
  have hh := height_le_size t
  refine for_each_node_list _ _ (fun x hx => Rep_mem_ne_zero t 0 h.2.1 x hx)
    (fun pre n suf heq => next_in_list h (by omega) heq) ?_
  rw [length_inorder]
  exact hf


/-! ## `chx_rb_find_first`, `chx_rb_next_match` and `chx_rb_for_each` -/

theorem headD_filter_append {p : Nat → Bool} (A B : List Nat) (a m : Nat) (ha : p a = true) :
    ((A ++ a :: B).filter p).headD m = (A.filter p).headD a := by
  rw [List.filter_append, List.filter_cons_of_pos ha]
  cases A.filter p with
  | nil => rfl
  | cons x xs => rfl

/-- The loop of `chx_rb_find_first` on a subtree along which the sign of
`cmp key` is monotone: the first matching node of the subtree in order, or the
match it was started with. -/
theorem find_first_loop_spec {κ : Type} (cmp : κ → Nat → Int) (key : κ) {s : State α}
    (T : Tree) : ∀ (par fuel m : Nat), Rep s.mem T par → T.height < fuel →
    T.inorder.Pairwise
      (fun x y => (0 < cmp key y → 0 < cmp key x) ∧ (cmp key x < 0 → cmp key y < 0)) →
    chx_rb_find_first_loop cmp key s fuel T.addr m =
      some ((T.inorder.filter (fun x => decide (cmp key x = 0))).headD m) := by
  induction T with
  | nil =>
    intro par fuel m _ hf _
    obtain ⟨fuel, rfl⟩ : ∃ f', fuel = f' + 1 := ⟨fuel - 1, by omega⟩
    simp [chx_rb_find_first_loop, Tree.inorder]
  | node c l a r ihl ihr =>
    intro par fuel m hr hf hmono
    obtain ⟨h1, h2, h3, h4, h5, h6, h7⟩ := hr
    simp only [Tree.height] at hf
    obtain ⟨fuel, rfl⟩ : ∃ f', fuel = f' + 1 := ⟨fuel - 1, by omega⟩
    simp only [Tree.inorder] at hmono ⊢
    rw [List.pairwise_append] at hmono
    obtain ⟨pl, par', plr⟩ := hmono
    rw [List.pairwise_cons] at par'
    obtain ⟨hra, pr⟩ := par'
    rw [addr_node, chx_rb_find_first_loop]
    simp only [ne_eq, h1, not_false_eq_true, if_true, h4, h5]
    by_cases hlt : cmp key a < 0
    · have hle : cmp key a ≤ 0 := by omega
      have hne : ¬ cmp key a = 0 := by omega
      simp only [hle, if_true, hne, if_false]
      rw [ihl a fuel m h6 (by omega) pl, List.filter_append]
      have : (a :: r.inorder).filter (fun x => decide (cmp key x = 0)) = [] := by
        rw [List.filter_eq_nil_iff]
        intro y hy
        rcases List.mem_cons.1 hy with rfl | hy
        · simpa using hne
        · have := (hra y hy).2 hlt
          simp only [decide_eq_true_eq]
          omega
      rw [this, List.append_nil]
    · by_cases heq : cmp key a = 0
      · have hle : cmp key a ≤ 0 := by omega
        simp only [hle, if_true]
        rw [if_pos heq, ihl a fuel a h6 (by omega) pl]
        congr 1
        exact (headD_filter_append (p := fun x => decide (cmp key x = 0)) _ _ a m
          (by simpa using heq)).symm
      · have hgt : 0 < cmp key a := by omega
        have hle : ¬ cmp key a ≤ 0 := by omega
        simp only [hle, if_false, gt_iff_lt, hgt, if_true]
        rw [ihr a fuel m h7 (by omega) pr, List.filter_append]
        have hl : l.inorder.filter (fun x => decide (cmp key x = 0)) = [] := by
          rw [List.filter_eq_nil_iff]
          intro y hy
          have := (plr y hy a (by simp)).1 hgt
          simp only [decide_eq_true_eq]
          omega
        rw [hl, List.nil_append]
        simp [heq]

/-- Function `chx_rb_find_first`: the first node in order that compares equal to
the key, `NULL` when there is none. -/
theorem find_first_spec {κ : Type} (cmp : κ → Nat → Int) (key : κ) {s : State α} {t : Tree}
    {fuel : Nat} (h : WF s t) (hfuel : t.height < fuel)
    (hmono : t.inorder.Pairwise
      (fun x y => (0 < cmp key y → 0 < cmp key x) ∧ (cmp key x < 0 → cmp key y < 0))) :
    chx_rb_find_first cmp fuel key s =
      some ((t.inorder.filter (fun x => decide (cmp key x = 0))).headD 0) := by
  rw [chx_rb_find_first, h.1]
  exact find_first_loop_spec cmp key t 0 fuel 0 h.2.1 hfuel hmono

/-- Function `chx_rb_next_match` on a matching node of a tree along which the
sign of `cmp key` is monotone: the next matching node in order, or `NULL`. -/
theorem next_match_in_list {κ : Type} (cmp : κ → Nat → Int) (key : κ) {s : State α}
    {t : Tree} {fuel : Nat} (h : WF s t) (hfuel : t.height < fuel)
    (hmono : t.inorder.Pairwise
      (fun x y => (0 < cmp key y → 0 < cmp key x) ∧ (cmp key x < 0 → cmp key y < 0)))
    {pre suf : List Nat} {n : Nat}
    (heq : t.inorder.filter (fun x => decide (cmp key x = 0)) = pre ++ n :: suf) :
    chx_rb_next_match cmp fuel key s n = some (suf.headD 0) := by
  have hn : n ∈ t.inorder.filter (fun x => decide (cmp key x = 0)) := by rw [heq]; simp
  rw [List.mem_filter] at hn
  obtain ⟨hmem, hn0⟩ := hn
  have hn0' : cmp key n = 0 := by simpa using hn0
  obtain ⟨P, S, e⟩ := List.append_of_mem hmem
  have hnd : (t.inorder.filter (fun x => decide (cmp key x = 0))).Nodup := h.2.2.filter _
  have hf : t.inorder.filter (fun x => decide (cmp key x = 0)) =
      P.filter (fun x => decide (cmp key x = 0)) ++
        n :: S.filter (fun x => decide (cmp key x = 0)) := by
    rw [e, List.filter_append]
    simp [hn0']
  rw [hf] at heq hnd
  obtain ⟨-, e2⟩ := split_unique _ _ _ _ hnd heq
  rw [chx_rb_next_match, next_in_list h hfuel e, ← e2]
  cases S with
  | nil => simp
  | cons x S' =>
    have hx0 : x ≠ 0 := Rep_mem_ne_zero t 0 h.2.1 x (by rw [e]; simp)
    simp only [List.headD_cons, ne_eq, hx0, not_false_eq_true, true_and]
    by_cases hx : cmp key x = 0
    · simp [hx]
    · rw [e, List.pairwise_append] at hmono
      obtain ⟨hnx, hrest⟩ := List.pairwise_cons.1 hmono.2.1
      obtain ⟨hxy, -⟩ := List.pairwise_cons.1 hrest
      have hxlt : cmp key x < 0 := by
        have := (hnx x (by simp)).1
        omega
      have : (x :: S').filter (fun x => decide (cmp key x = 0)) = [] := by
        rw [List.filter_eq_nil_iff]
        intro y hy
        rcases List.mem_cons.1 hy with rfl | hy
        · simpa using hx
        · have := (hxy y hy).2 hxlt
          simp only [decide_eq_true_eq]
          omega
      rw [this]
      simp [hx]

/-- The loop `chx_rb_for_each` visits exactly the nodes that compare equal to
the key, in order. -/
theorem for_each_spec {κ : Type} (cmp : κ → Nat → Int) (key : κ) {s : State α} {t : Tree}
    {fuel : Nat} (h : WF s t) (hfuel : t.size < fuel)
    (hmono : t.inorder.Pairwise
      (fun x y => (0 < cmp key y → 0 < cmp key x) ∧ (cmp key x < 0 → cmp key y < 0))) :
    chx_rb_for_each cmp fuel key s =
      some (t.inorder.filter (fun x => decide (cmp key x = 0))) := by
  have hh := height_le_size t
  have hf : t.height < fuel := by omega
  rw [chx_rb_for_each, find_first_spec cmp key h hf hmono]
  refine for_each_node_list _ _ (fun x hx => ?_)
    (fun pre n suf heq => next_match_in_list cmp key h hf hmono heq) ?_
  · exact Rep_mem_ne_zero t 0 h.2.1 x (List.mem_filter.1 hx).1
  · have := List.length_filter_le (fun x => decide (cmp key x = 0)) t.inorder
    rw [length_inorder] at this
    omega


/-! ## Post-order iteration -/

theorem postorder_perm : ∀ t : Tree, t.postorder.Perm t.inorder
  | .nil => List.Perm.refl _
  | .node c l a r => by
    have hl := postorder_perm l
    have hr := postorder_perm r
    simp only [Tree.postorder, Tree.inorder]
    refine ((hl.append hr).append_right [a]).trans ?_
    rw [List.append_assoc]
    exact List.Perm.append_left _ (List.perm_append_comm.trans (by simp))

theorem mem_postorder {t : Tree} {x : Nat} : x ∈ t.postorder ↔ x ∈ t.inorder :=
  (postorder_perm t).mem_iff

theorem postorder_ne_nil {c : Color} {l r : Tree} {a : Nat} :
    (Tree.node c l a r).postorder ≠ [] := by
  simp [Tree.postorder]

theorem postorder_plug : ∀ (k : Ctx) (t : Tree),
    (plug k t).postorder = ctxPostBefore k ++ t.postorder ++ ctxPostAfter k
  | [], t => by simp [plug, ctxPostBefore, ctxPostAfter]
  | .left c a r :: k, t => by
    simp [plug, ctxPostBefore, ctxPostAfter, postorder_plug k, Tree.postorder]
  | .right c l a :: k, t => by
    simp [plug, ctxPostBefore, ctxPostAfter, postorder_plug k, Tree.postorder]

/-- Function `chx_rb_left_deepest_node` started at the root of a subtree ends at
its first node in post-order. -/
theorem left_deepest_spec {s : State α} (t : Tree) : ∀ (par fuel : Nat), Rep s.mem t par →
    t ≠ .nil → t.height ≤ fuel →
    chx_rb_left_deepest_node s fuel t.addr = some (t.postorder.headD 0) := by
  induction t with
  | nil => intro _ _ _ h; exact absurd rfl h
  | node c l a r ihl ihr =>
    intro par fuel hr _ hf
    obtain ⟨h1, h2, h3, h4, h5, h6, h7⟩ := hr
    simp only [Tree.height] at hf
    obtain ⟨fuel, rfl⟩ : ∃ f', fuel = f' + 1 := ⟨fuel - 1, by omega⟩
    rw [addr_node, chx_rb_left_deepest_node, h4, h5]
    cases l with
    | node cl ll la lr =>
      have := ihl a fuel h6 (by simp) (by omega)
      simp only [addr_node] at this ⊢
      rw [if_pos h6.1, this]
      show _ = some ((((Tree.node cl ll la lr).postorder ++ r.postorder) ++ [a]).headD 0)
      rw [List.append_assoc, headD_append_of_ne_nil postorder_ne_nil]
    | nil =>
      simp only [addr_nil, ne_eq, not_true_eq_false, if_false]
      cases r with
      | node cr rl ra rr =>
        have := ihr a fuel h7 (by simp) (by omega)
        simp only [addr_node] at this ⊢
        rw [if_pos h7.1, this]
        show _ = some ((([] ++ (Tree.node cr rl ra rr).postorder) ++ [a]).headD 0)
        rw [List.nil_append, headD_append_of_ne_nil postorder_ne_nil]
      | nil => simp [Tree.postorder]

theorem height_frame_le : ∀ (k : Ctx) (f : Frame) (T : Tree),
    (match f with
      | .left _ _ r => r.height
      | .right _ l _ => l.height) < (plug (f :: k) T).height
  | k, .left c a r, T => by
    have := plug_height k (.node c T a r)
    simp only [plug, Tree.height] at this ⊢
    omega
  | k, .right c l a, T => by
    have := plug_height k (.node c l a T)
    simp only [plug, Tree.height] at this ⊢
    omega

/-- Function `chx_rb_next_postorder` at the node in the hole of `k` returns the
node that follows it in post-order, or `NULL` at the root. -/
theorem next_postorder_spec {s : State α} {k : Ctx} {c : Color} {l r : Tree} {n fuel : Nat}
    (h : WF s (plug k (.node c l n r))) (hf : (plug k (.node c l n r)).height ≤ fuel) :
    chx_rb_next_postorder fuel s n = some ((ctxPostAfter k).headD 0) := by
  have hwf := h
  rw [WF_plug'] at h
  obtain ⟨hk, hT, hnd⟩ := h
  obtain ⟨h1, h2, h3, h4, h5, h6, h7⟩ := hT
  have hal := RepCtx_ctxAddr_aligned hk
  have hnk : n ∉ ctxNodes k := fun hx => frame_ne hnd hx (by simp [Tree.inorder]) rfl
  have hp : chx_rb_parent s n = ctxAddr 0 k := by
    rw [chx_rb_parent, h3]
    exact parent_of_word c hal
  rw [chx_rb_next_postorder, if_neg h1]
  simp only [hp]
  cases k with
  | nil => simp [ctxAddr, ctxPostAfter]
  | cons f k =>
    cases f with
    | left c' a r' =>
      have hfr : r'.height < (plug (.left c' a r' :: k) (.node c l n r)).height :=
        height_frame_le k (.left c' a r') (.node c l n r)
      obtain ⟨g1, g2, g3, g4, g5, g6, g7⟩ := hk
      simp only [addr_node] at g4
      simp only [ctxAddr, Frame.addr, ne_eq, g1, not_false_eq_true, g4, true_and, g5,
        ctxPostAfter]
      cases r' with
      | nil => simp [Tree.postorder]
      | node cr rl ra rr =>
        simp only [addr_node, g6.1, not_false_eq_true, if_true]
        have := left_deepest_spec (.node cr rl ra rr) a fuel g6 (by simp) (by omega)
        simp only [addr_node] at this
        rw [this, headD_append_of_ne_nil postorder_ne_nil]
    | right c' l' a =>
      obtain ⟨g1, g2, g3, g4, g5, g6, g7⟩ := hk
      rw [mem_ctxNodes_right] at hnk
      have hne : n ≠ l'.addr := ne_addr h1 (fun e => hnk (Or.inr (Or.inl e)))
      simp [ctxAddr, Frame.addr, g4, hne, ctxPostAfter]

theorem first_postorder_spec {s : State α} {t : Tree} {fuel : Nat} (h : WF s t)
    (hf : t.height ≤ fuel) : chx_rb_first_postorder fuel s = some (t.postorder.headD 0) := by
  obtain ⟨h1, h2, -⟩ := h
  cases t with
  | nil => simp [chx_rb_first_postorder, h1, Tree.postorder]
  | node c l a r =>
    have := left_deepest_spec (.node c l a r) 0 fuel h2 (by simp) hf
    simp only [addr_node] at this h1
    simp [chx_rb_first_postorder, h1, h2.1, this]

theorem next_postorder_in_list {s : State α} {t : Tree} {fuel : Nat} (h : WF s t)
    (hf : t.height ≤ fuel) {pre suf : List Nat} {n : Nat}
    (heq : t.postorder = pre ++ n :: suf) :
    chx_rb_next_postorder fuel s n = some (suf.headD 0) := by
  have hmem : n ∈ t.inorder := by
    rw [← mem_postorder, heq]
    simp
  obtain ⟨k, c, l, r, e⟩ := mem_split_plug t n hmem
  subst e
  have hnd : (plug k (.node c l n r)).postorder.Nodup :=
    (postorder_perm _).nodup_iff.2 h.2.2
  rw [postorder_plug] at heq hnd
  simp only [Tree.postorder, List.append_assoc, List.singleton_append] at heq hnd
  rw [← List.append_assoc, ← List.append_assoc] at heq hnd
  obtain ⟨-, e2⟩ := split_unique _ _ _ _ hnd heq
  rw [next_postorder_spec h hf, e2]

/-- The traversal `for (n = chx_rb_first_postorder(root); n;
n = chx_rb_next_postorder(n))` visits exactly the post-order sequence. -/
theorem postorder_walk_spec {s : State α} {t : Tree} {fuel : Nat} (h : WF s t)
    (hf : t.size < fuel) : postorder_walk fuel s = some t.postorder := by
  have hh := height_le_size t
  rw [postorder_walk, first_postorder_spec h (by omega : t.height ≤ fuel)]
  refine for_each_node_list _ _ (fun x hx => ?_)
    (fun pre n suf heq => next_postorder_in_list h (by omega) heq) ?_
  · exact Rep_mem_ne_zero t 0 h.2.1 x (mem_postorder.1 hx)
  · rw [(postorder_perm t).length_eq, length_inorder]
    exact hf

/-- In post-order every node comes after the nodes of its two subtrees. -/
theorem postorder_children_first {k : Ctx} {c : Color} {l r : Tree} {a x : Nat}
    (hx : x ∈ l.inorder ++ r.inorder) :
    [x, a].Sublist (plug k (.node c l a r)).postorder := by
  rw [postorder_plug]
  have hx' : x ∈ l.postorder ++ r.postorder := by
    simpa [mem_postorder] using hx
  have h1 : [x, a].Sublist ((l.postorder ++ r.postorder) ++ [a]) :=
    pair_sublist_append hx' (List.mem_singleton_self a)
  exact (h1.trans (List.sublist_append_right _ _)).trans (List.sublist_append_left _ _)


/-! ## `chx_rb_replace_node`: the headers after the call -/

theorem Rep_mem_unique {m m' : Nat → chx_rb_node} : ∀ (t : Tree) (par : Nat),
    Rep m t par → Rep m' t par → ∀ x ∈ t.inorder, m' x = m x
  | .nil, _, _, _, x, hx => by simp [Tree.inorder] at hx
  | .node c l a r, par, h, h', x, hx => by
    obtain ⟨h1, h2, h3, h4, h5, h6, h7⟩ := h
    obtain ⟨g1, g2, g3, g4, g5, g6, g7⟩ := h'
    simp only [Tree.inorder, List.mem_append, List.mem_cons] at hx
    rcases hx with hx | rfl | hx
    · exact Rep_mem_unique l a h6 g6 x hx
    · exact node_ext (g3.trans h3.symm) (g4.trans h4.symm) (g5.trans h5.symm)
    · exact Rep_mem_unique r a h7 g7 x hx

theorem set_parent_mem_ne {s : State α} {a p x : Nat} (hx : ¬ (x = a ∧ a ≠ 0)) :
    (if a ≠ 0 then chx_rb_set_parent s a p else s).mem x = s.mem x := by
  by_cases ha : a = 0
  · simp [ha]
  · have hne : x ≠ a := fun e => hx ⟨e, ha⟩
    simp [ha, chx_rb_set_parent, store_pc_mem_ne hne]

theorem set_parent_links {s : State α} {a p x : Nat} :
    ((if a ≠ 0 then chx_rb_set_parent s a p else s).mem x).rb_left = (s.mem x).rb_left ∧
    ((if a ≠ 0 then chx_rb_set_parent s a p else s).mem x).rb_right = (s.mem x).rb_right := by
  by_cases ha : a = 0
  · simp [ha]
  · by_cases hx : x = a
    · subst hx
      simp [ha, chx_rb_set_parent]
    · simp [ha, chx_rb_set_parent, store_pc_mem_ne hx]

theorem change_child_root_ne {s : State α} {old new parent : Nat} (h : parent ≠ 0) :
    (__chx_rb_change_child s old new parent).rb_node = s.rb_node := by
  by_cases hl : (s.mem parent).rb_left = old <;> simp [__chx_rb_change_child, h, hl]

theorem change_child_mem_root {s : State α} {old new x : Nat} :
    (__chx_rb_change_child s old new 0).mem x = s.mem x := by
  simp [__chx_rb_change_child]

/-- The code of `chx_rb_replace_node` on the node in the hole of `k`, with the
loads resolved: a copy, two parent updates and the redirection of the slot. -/
theorem replace_node_code {s : State α} {k : Ctx} {c : Color} {l r : Tree} {v new : Nat}
    (h : WF s (plug k (.node c l v r))) (hnv : new ≠ v) (hvl : v ∉ l.inorder) :
    chx_rb_replace_node s v new =
      __chx_rb_change_child
        (if r.addr ≠ 0 then chx_rb_set_parent
            (if l.addr ≠ 0 then chx_rb_set_parent (s.copy_node new v) l.addr new
              else s.copy_node new v) r.addr new
          else (if l.addr ≠ 0 then chx_rb_set_parent (s.copy_node new v) l.addr new
            else s.copy_node new v))
        v new (ctxAddr 0 k) := by
  rw [WF_plug'] at h
  obtain ⟨hk, hT, hnd⟩ := h
  have hal := RepCtx_ctxAddr_aligned hk
  obtain ⟨h1, h2, h3, h4, h5, h6, h7⟩ := hT
  have hpar : chx_rb_parent s v = ctxAddr 0 k := by
    rw [chx_rb_parent, h3]
    exact parent_of_word c hal
  have hv1 : (s.copy_node new v).mem v = s.mem v := by
    simp [State.copy_node, Ne.symm hnv]
  have e1 : ((s.copy_node new v).mem v).rb_left = l.addr := by rw [hv1, h4]
  have hv2 : (if l.addr ≠ 0 then chx_rb_set_parent (s.copy_node new v) l.addr new
      else s.copy_node new v).mem v = s.mem v := by
    rw [set_parent_frame hvl, hv1]
  simp only [chx_rb_replace_node, hpar]
  rw [e1, hv2, h5]

/-- The headers after `chx_rb_replace_node` of the node in the hole of `k` by a
fresh node. -/
theorem replace_node_mem {s : State α} {k : Ctx} {c : Color} {l r : Tree} {v new : Nat}
    (h : WF s (plug k (.node c l v r))) (hn0 : new ≠ 0) (hn4 : new % 4 = 0)
    (hfresh : new ∉ (plug k (.node c l v r)).inorder) :
    (chx_rb_replace_node s v new).mem new = s.mem v ∧
    (chx_rb_replace_node s v new).load_link (ctxLink k) = new ∧
    (k ≠ [] → (chx_rb_replace_node s v new).rb_node = s.rb_node ∧
      ((chx_rb_replace_node s v new).mem (ctxAddr 0 k)).__rb_parent_color =
        (s.mem (ctxAddr 0 k)).__rb_parent_color ∧
      (((s.mem (ctxAddr 0 k)).rb_left = v ∧
          ((chx_rb_replace_node s v new).mem (ctxAddr 0 k)).rb_left = new ∧
          ((chx_rb_replace_node s v new).mem (ctxAddr 0 k)).rb_right =
            (s.mem (ctxAddr 0 k)).rb_right) ∨
        ((s.mem (ctxAddr 0 k)).rb_left ≠ v ∧ (s.mem (ctxAddr 0 k)).rb_right = v ∧
          ((chx_rb_replace_node s v new).mem (ctxAddr 0 k)).rb_right = new ∧
          ((chx_rb_replace_node s v new).mem (ctxAddr 0 k)).rb_left =
            (s.mem (ctxAddr 0 k)).rb_left))) ∧
    (∀ x, x ≠ new → ¬ (x = ctxAddr 0 k ∧ ctxAddr 0 k ≠ 0) → ¬ (x = l.addr ∧ l.addr ≠ 0) →
      ¬ (x = r.addr ∧ r.addr ≠ 0) → (chx_rb_replace_node s v new).mem x = s.mem x) := by
  have hwf' := replace_node_at h hn0 hn4 hfresh
  have hperm := inorder_plug_perm k (.node c l v r)
  have hfresh' : new ∉ (Tree.node c l v r).inorder ++ ctxNodes k :=
    fun hx => hfresh (hperm.symm.subset hx)
  have hwf := h
  rw [WF_plug'] at h
  obtain ⟨hk, hT, hnd⟩ := h
  simp only [Tree.inorder, List.mem_append, List.mem_cons, not_or] at hfresh'
  obtain ⟨⟨hfl, hfv, hfr⟩, hfk⟩ := hfresh'
  have hnd0 := hnd
  simp only [Tree.inorder, List.nodup_append, List.nodup_cons, List.disjoint_cons_right,
    List.disjoint_append_left, List.disjoint_cons_left, List.mem_append, List.mem_cons,
    not_or] at hnd
  obtain ⟨⟨ndl, ⟨hvr, ndr⟩, hvl, dlr⟩, ndk, -⟩ := hnd
  have hvk : v ∉ ctxNodes k := fun hx => frame_ne hnd0 hx (by simp [Tree.inorder]) rfl
  have hnewP : new ≠ ctxAddr 0 k := by
    by_cases hk0 : k = []
    · subst hk0
      exact hn0
    · exact fun e => hfk (e ▸ ctxAddr_mem_ctxNodes k hk0)
  have hnewl : ¬ (new = l.addr ∧ l.addr ≠ 0) := fun e =>
    hfl (e.1 ▸ addr_mem_inorder l (fun hl => e.2 (by rw [hl]; rfl)))
  have hnewr : ¬ (new = r.addr ∧ r.addr ≠ 0) := fun e =>
    hfr (e.1 ▸ addr_mem_inorder r (fun hr => e.2 (by rw [hr]; rfl)))
  have hcode := replace_node_code hwf hfv hvl
  have hcopy : ∀ x, x ≠ new → (s.copy_node new v).mem x = s.mem x := fun x hx => by
    simp [State.copy_node, hx]
  have hcopyn : (s.copy_node new v).mem new = s.mem v := by simp [State.copy_node]
  -- memory before the redirection of the slot
  have hpre : ∀ x, ¬ (x = l.addr ∧ l.addr ≠ 0) → ¬ (x = r.addr ∧ r.addr ≠ 0) →
      (if r.addr ≠ 0 then chx_rb_set_parent
            (if l.addr ≠ 0 then chx_rb_set_parent (s.copy_node new v) l.addr new
              else s.copy_node new v) r.addr new
          else (if l.addr ≠ 0 then chx_rb_set_parent (s.copy_node new v) l.addr new
            else s.copy_node new v)).mem x = (s.copy_node new v).mem x := fun x hxl hxr => by
    rw [set_parent_mem_ne hxr, set_parent_mem_ne hxl]
  have hlink := ctxLink_load (WF_plug'.1 hwf').1
  simp only [addr_node] at hlink
  have hroot3 : (if r.addr ≠ 0 then chx_rb_set_parent
            (if l.addr ≠ 0 then chx_rb_set_parent (s.copy_node new v) l.addr new
              else s.copy_node new v) r.addr new
          else (if l.addr ≠ 0 then chx_rb_set_parent (s.copy_node new v) l.addr new
            else s.copy_node new v)).rb_node = s.rb_node := by
    rw [set_parent_root, set_parent_root]
    rfl
  generalize hs3 : (if r.addr ≠ 0 then chx_rb_set_parent
            (if l.addr ≠ 0 then chx_rb_set_parent (s.copy_node new v) l.addr new
              else s.copy_node new v) r.addr new
          else (if l.addr ≠ 0 then chx_rb_set_parent (s.copy_node new v) l.addr new
            else s.copy_node new v)) = s3 at hcode hpre hroot3
  refine ⟨?_, hlink, ?_, ?_⟩
  · rw [hcode]
    by_cases hP : ctxAddr 0 k = 0
    · rw [hP, change_child_mem_root, hpre new hnewl hnewr, hcopyn]
    · rw [change_child_mem_ne hnewP, hpre new hnewl hnewr, hcopyn]
  · intro hk0
    have hP0 : ctxAddr 0 k ≠ 0 := fun e => hk0 ((RepCtx_ctxAddr_ne_zero hk).1 e)
    have hPk := ctxAddr_mem_ctxNodes k hk0
    have hPl : ¬ (ctxAddr 0 k = l.addr ∧ l.addr ≠ 0) := fun e =>
      frame_ne hnd0 hPk (by
        have := addr_mem_inorder l (fun hl => e.2 (by rw [hl]; rfl))
        simp [Tree.inorder, this]) e.1
    have hPr : ¬ (ctxAddr 0 k = r.addr ∧ r.addr ≠ 0) := fun e =>
      frame_ne hnd0 hPk (by
        have := addr_mem_inorder r (fun hr => e.2 (by rw [hr]; rfl))
        simp [Tree.inorder, this]) e.1
    have hPmem : s3.mem (ctxAddr 0 k) = s.mem (ctxAddr 0 k) :=
      (hpre (ctxAddr 0 k) hPl hPr).trans (hcopy _ (Ne.symm hnewP))
    rw [hcode]
    refine ⟨?_, ?_, ?_⟩
    · rw [change_child_root_ne hP0, hroot3]
    · simp only [__chx_rb_change_child, ne_eq, hP0, not_false_eq_true, if_true]
      split
      · simp [State.store_left, hPmem]
      · simp [State.store_right, hPmem]
    · simp only [__chx_rb_change_child, ne_eq, hP0, not_false_eq_true, if_true, hPmem]
      cases k with
      | nil => exact absurd rfl hk0
      | cons f k =>
        cases f with
        | left c' a r' =>
          obtain ⟨g1, g2, g3, g4, g5, g6, g7⟩ := hk
          simp only [addr_node] at g4
          simp only [ctxAddr, Frame.addr] at hPmem ⊢
          left
          simp [g4, State.store_left, hPmem]
        | right c' l' a =>
          obtain ⟨g1, g2, g3, g4, g5, g6, g7⟩ := hk
          simp only [addr_node] at g5
          simp only [ctxAddr, Frame.addr] at hPmem ⊢
          rw [mem_ctxNodes_right] at hvk
          have hne : l'.addr ≠ v := fun e =>
            (ne_addr hT.1 (fun hx => hvk (Or.inr (Or.inl hx)))) e.symm
          right
          simp [g4, g5, hne, State.store_right, hPmem]
  · intro x hxn hxP hxl hxr
    rw [hcode]
    by_cases hP : ctxAddr 0 k = 0
    · rw [hP, change_child_mem_root, hpre x hxl hxr, hcopy x hxn]
    · rw [change_child_mem_ne (fun e => hxP ⟨e, hP⟩), hpre x hxl hxr, hcopy x hxn]


/-! ## Leftmost-cached roots -/

theorem allLeft_iff : ∀ k : Ctx, allLeft k = true ↔ ctxBefore k = []
  | [] => by simp [allLeft, ctxBefore]
  | .left c a r :: k => by
    simp only [allLeft, ctxBefore]
    exact allLeft_iff k
  | .right c l a :: k => by simp [allLeft, ctxBefore]

theorem headD_insert_hole (k : Ctx) (node d : Nat) :
    (ctxBefore k ++ node :: ctxAfter k).headD d =
      if allLeft k then node else (ctxBefore k ++ ctxAfter k).headD d := by
  by_cases h : allLeft k = true
  · rw [if_pos h, (allLeft_iff k).1 h]
    rfl
  · rw [if_neg h]
    have hne : ctxBefore k ≠ [] := fun e => h ((allLeft_iff k).2 e)
    cases hb : ctxBefore k with
    | nil => exact absurd hb hne
    | cons x xs => rfl

/-- The descent of `chx_rb_add_cached`: the slot reached and the flag
`leftmost`, which is set exactly when no step went right. -/
theorem add_cached_descend_spec (less : Nat → Nat → Bool) {s : State α} {node : Nat}
    (T : Tree) : ∀ (k0 : Ctx) (fuel : Nat), WF s (plug k0 T) → T.height < fuel →
      PathOK (fun x => less node x = true) (fun x => less node x = false) k0 →
      ∃ k, chx_rb_add_cached_descend less s node fuel (ctxLink k0) (ctxAddr 0 k0)
            (allLeft k0) = some (ctxAddr 0 k, ctxLink k, allLeft k) ∧
        plug k .nil = plug k0 T ∧
        PathOK (fun x => less node x = true) (fun x => less node x = false) k := by
  induction T with
  | nil =>
    intro k0 fuel h hf hp
    obtain ⟨fuel, rfl⟩ : ∃ f', fuel = f' + 1 := ⟨fuel - 1, by omega⟩
    have hl := ctxLink_load (WF_plug'.1 h).1
    simp only [addr_nil] at hl
    exact ⟨k0, by simp [chx_rb_add_cached_descend, hl], rfl, hp⟩
  | node c l a r ihl ihr =>
    intro k0 fuel h hf hp
    simp only [Tree.height] at hf
    obtain ⟨fuel, rfl⟩ : ∃ f', fuel = f' + 1 := ⟨fuel - 1, by omega⟩
    have hw := WF_plug'.1 h
    have hl := ctxLink_load hw.1
    simp only [addr_node] at hl
    have ha0 : a ≠ 0 := hw.2.1.1
    rw [chx_rb_add_cached_descend]
    simp only [hl, ne_eq, ha0, not_false_eq_true, if_true]
    by_cases hless : less node a = true
    · obtain ⟨k, e1, e2, e3⟩ := ihl (.left c a r :: k0) fuel h (by omega) ⟨hless, hp⟩
      exact ⟨k, by simpa [hless, ctxLink, ctxAddr, Frame.addr, allLeft] using e1, e2, e3⟩
    · have hless' : less node a = false := by simpa using hless
      obtain ⟨k, e1, e2, e3⟩ := ihr (.right c l a :: k0) fuel h (by omega) ⟨hless', hp⟩
      exact ⟨k, by simpa [hless', ctxLink, ctxAddr, Frame.addr, allLeft] using e1, e2, e3⟩

/-- Function `chx_rb_add_cached` on a red-black tree: the node is linked at the
slot the descent reaches, the cache follows the flag `leftmost`, and the node
is returned exactly when the flag is set. -/
theorem add_cached_at (less : Nat → Nat → Bool) {cs : CachedState α} {t : Tree}
    {node fuel : Nat} (h : WF cs.rb_root t) (hrb : t.RB) (hn0 : node ≠ 0)
    (hn4 : node % 4 = 0) (hfresh : node ∉ t.inorder) (hfuel : t.height < fuel) :
    ∃ k cs' t', t = plug k .nil ∧
      PathOK (fun x => less node x = true) (fun x => less node x = false) k ∧
      chx_rb_add_cached less fuel cs node = some (cs', if allLeft k then node else 0) ∧
      WF cs'.rb_root t' ∧ t'.RB ∧ t'.inorder = ctxBefore k ++ node :: ctxAfter k ∧
      cs'.rb_leftmost = if allLeft k then node else cs.rb_leftmost := by
  obtain ⟨k, e1, e2, e3⟩ := add_cached_descend_spec less t [] fuel h hfuel trivial
  have e2' : t = plug k .nil := e2.symm
  subst e2'
  obtain ⟨s', t', f1, f2, f3, f4⟩ :=
    insert_color_spec dummy_rotate fuel h hrb hn0 hn4 hfresh hfuel
  change chx_rb_add_cached_descend less cs.rb_root node fuel .root 0 true = _ at e1
  refine ⟨k, ⟨s', if allLeft k then node else cs.rb_leftmost⟩, t', rfl, e3, ?_, f2, f3, f4,
    rfl⟩
  rw [chx_rb_add_cached, e1]
  simp only [chx_rb_insert_color_cached]
  by_cases hal : allLeft k = true
  · simp only [hal, if_true]
    rw [chx_rb_insert_color]
    rw [f1]
  · simp only [hal, if_false, Bool.false_eq_true]
    rw [chx_rb_insert_color]
    rw [f1]

theorem find_add_cached_descend_spec (cmp : Nat → Nat → Int) {s : State α} {node : Nat}
    (T : Tree) : ∀ (k0 : Ctx) (fuel : Nat), WF s (plug k0 T) → T.height < fuel →
      PathOK (fun x => cmp node x < 0) (fun x => 0 < cmp node x) k0 →
      (∃ a ∈ T.inorder, cmp node a = 0 ∧
        chx_rb_find_add_cached_descend cmp s node fuel (ctxLink k0) (ctxAddr 0 k0)
          (allLeft k0) = some (.inl a)) ∨
      (∃ k, plug k .nil = plug k0 T ∧
        PathOK (fun x => cmp node x < 0) (fun x => 0 < cmp node x) k ∧
        chx_rb_find_add_cached_descend cmp s node fuel (ctxLink k0) (ctxAddr 0 k0)
          (allLeft k0) = some (.inr (ctxAddr 0 k, ctxLink k, allLeft k))) := by
  induction T with
  | nil =>
    intro k0 fuel h hf hp
    obtain ⟨fuel, rfl⟩ : ∃ f', fuel = f' + 1 := ⟨fuel - 1, by omega⟩
    have hl := ctxLink_load (WF_plug'.1 h).1
    simp only [addr_nil] at hl
    exact Or.inr ⟨k0, rfl, hp, by simp [chx_rb_find_add_cached_descend, hl]⟩
  | node c l a r ihl ihr =>
    intro k0 fuel h hf hp
    simp only [Tree.height] at hf
    obtain ⟨fuel, rfl⟩ : ∃ f', fuel = f' + 1 := ⟨fuel - 1, by omega⟩
    have hw := WF_plug'.1 h
    have hl := ctxLink_load hw.1
    simp only [addr_node] at hl
    have ha0 : a ≠ 0 := hw.2.1.1
    rw [chx_rb_find_add_cached_descend]
    simp only [hl, ne_eq, ha0, not_false_eq_true, if_true]
    by_cases hlt : cmp node a < 0
    · simp only [hlt, if_true]
      rcases ihl (.left c a r :: k0) fuel h (by omega) ⟨hlt, hp⟩ with
        ⟨x, hx, e1, e2⟩ | ⟨k, e1, e2, e3⟩
      · exact Or.inl ⟨x, by simp [Tree.inorder, hx], e1, e2⟩
      · exact Or.inr ⟨k, e1, e2, e3⟩
    · by_cases hgt : 0 < cmp node a
      · simp only [hlt, if_false, gt_iff_lt, hgt, if_true]
        rcases ihr (.right c l a :: k0) fuel h (by omega) ⟨hgt, hp⟩ with
          ⟨x, hx, e1, e2⟩ | ⟨k, e1, e2, e3⟩
        · exact Or.inl ⟨x, by simp [Tree.inorder, hx], e1, e2⟩
        · exact Or.inr ⟨k, e1, e2, e3⟩
      · simp only [hlt, if_false, gt_iff_lt, hgt]
        exact Or.inl ⟨a, by simp [Tree.inorder], by omega, rfl⟩

/-- Function `chx_rb_find_add_cached` on a red-black tree: on a conflict the
state is untouched, otherwise the node is linked and the cache follows the
flag `leftmost`. -/
theorem find_add_cached_at (cmp : Nat → Nat → Int) {cs : CachedState α} {t : Tree}
    {node fuel : Nat} (h : WF cs.rb_root t) (hrb : t.RB) (hn0 : node ≠ 0)
    (hn4 : node % 4 = 0) (hfresh : node ∉ t.inorder) (hfuel : t.height < fuel) :
    (∃ a ∈ t.inorder, cmp node a = 0 ∧ chx_rb_find_add_cached cmp fuel cs node = some (cs, a)) ∨
    (∃ k cs' t', t = plug k .nil ∧
      chx_rb_find_add_cached cmp fuel cs node = some (cs', 0) ∧
      WF cs'.rb_root t' ∧ t'.RB ∧ t'.inorder = ctxBefore k ++ node :: ctxAfter k ∧
      cs'.rb_leftmost = if allLeft k then node else cs.rb_leftmost) := by
  rcases find_add_cached_descend_spec cmp t [] fuel h hfuel trivial with
    ⟨x, hx, e1, e2⟩ | ⟨k, e1, e2, e3⟩
  · change chx_rb_find_add_cached_descend cmp cs.rb_root node fuel .root 0 true = _ at e2
    exact Or.inl ⟨x, hx, e1, by rw [chx_rb_find_add_cached, e2]⟩
  · have e1' : t = plug k .nil := e1.symm
    subst e1'
    change chx_rb_find_add_cached_descend cmp cs.rb_root node fuel .root 0 true = _ at e3
    obtain ⟨s', t', f1, f2, f3, f4⟩ :=
      insert_color_spec dummy_rotate fuel h hrb hn0 hn4 hfresh hfuel
    refine Or.inr ⟨k, ⟨s', if allLeft k then node else cs.rb_leftmost⟩, t', rfl, ?_, f2, f3,
      f4, rfl⟩
    rw [chx_rb_find_add_cached, e3]
    simp only [chx_rb_insert_color_cached]
    by_cases hal : allLeft k = true
    · simp only [hal, if_true]
      rw [chx_rb_insert_color]
      rw [f1]
    · simp only [hal, if_false, Bool.false_eq_true]
      rw [chx_rb_insert_color]
      rw [f1]

/-- Function `chx_rb_erase_cached` on a node of a red-black tree whose cache
holds the first node. -/
theorem erase_cached_spec {cs : CachedState α} {t : Tree} {n fuel : Nat}
    (h : WF cs.rb_root t) (hrb : t.RB) (hn : n ∈ t.inorder) (hfuel : t.height < fuel)
    (hcache : cs.rb_leftmost = t.inorder.headD 0) :
    ∃ cs' t', chx_rb_erase_cached fuel cs n =
        some (cs', if cs.rb_leftmost = n then t'.inorder.headD 0 else 0) ∧
      WF cs'.rb_root t' ∧ t'.RB ∧ t'.inorder = t.inorder.erase n ∧
      cs'.rb_leftmost = t'.inorder.headD 0 := by
  obtain ⟨s', t', e1, e2, e3, e4⟩ := erase_spec h hrb hn (by omega : t.height ≤ fuel)
  cases hio : t.inorder with
  | nil => rw [hio] at hn; simp at hn
  | cons x rest =>
    rw [hio] at hcache hn e4
    simp only [List.headD_cons] at hcache
    by_cases hx : x = n
    · subst hx
      have heq : t.inorder = [] ++ x :: rest := by simpa using hio
      have hnext := next_in_list h hfuel heq
      have e4' : t'.inorder = rest := by simpa using e4
      refine ⟨⟨s', rest.headD 0⟩, t', ?_, e2, e3, by simpa using e4, by rw [e4']⟩
      simp only [chx_rb_erase_cached, hcache, if_true, hnext, e1, e4']
    · have e4' : t'.inorder = x :: rest.erase n := by
        rw [e4, List.erase_cons_tail (by simpa using hx)]
      refine ⟨⟨s', x⟩, t', ?_, e2, e3, by rw [e4'] ; rw [List.erase_cons_tail (by simpa using hx)],
        by rw [e4']; rfl⟩
      simp only [chx_rb_erase_cached, hcache, hx, if_false, e1]

/-- Function `chx_rb_replace_node_cached` on a node of a tree whose cache holds
the first node. -/
theorem replace_node_cached_spec {cs : CachedState α} {t : Tree} {v new : Nat}
    (h : WF cs.rb_root t) (hv : v ∈ t.inorder) (hn0 : new ≠ 0) (hn4 : new % 4 = 0)
    (hfresh : new ∉ t.inorder) (hcache : cs.rb_leftmost = t.inorder.headD 0) :
    ∃ t', WF (chx_rb_replace_node_cached cs v new).rb_root t' ∧
      t'.inorder = t.inorder.map (fun x => if x = v then new else x) ∧ (t.RB → t'.RB) ∧
      (chx_rb_replace_node_cached cs v new).rb_leftmost = t'.inorder.headD 0 := by
  obtain ⟨t', e1, e2, e3⟩ := replace_node_spec h hv hn0 hn4 hfresh
  have hroot : (chx_rb_replace_node_cached cs v new).rb_root =
      chx_rb_replace_node cs.rb_root v new := by
    unfold chx_rb_replace_node_cached
    split <;> rfl
  refine ⟨t', by rw [hroot]; exact e1, e2, e3, ?_⟩
  rw [e2]
  cases hio : t.inorder with
  | nil => rw [hio] at hv; simp at hv
  | cons x rest =>
    rw [hio] at hcache
    simp only [List.headD_cons] at hcache
    unfold chx_rb_replace_node_cached
    by_cases hx : x = v
    · simp [hcache, hx]
    · simp [hcache, hx]


/-! ## Claims on searching and iterating -/

/-- The head of the matching elements of a list of non-null addresses is the
first matching element. -/
theorem filter_head_split {p : Nat → Bool} : ∀ (L : List Nat), (∀ x ∈ L, x ≠ 0) →
    ((L.filter p).headD 0 = 0 ↔ ∀ x ∈ L, p x = false) ∧
    ((L.filter p).headD 0 ≠ 0 → ∃ pre suf, L = pre ++ (L.filter p).headD 0 :: suf ∧
      p ((L.filter p).headD 0) = true ∧ ∀ x ∈ pre, p x = false)
  | [], _ => by simp
  | a :: L, hnz => by
    have ha0 : a ≠ 0 := hnz a (by simp)
    obtain ⟨ih1, ih2⟩ := filter_head_split (p := p) L (fun x hx => hnz x (by simp [hx]))
    by_cases hp : p a = true
    · rw [List.filter_cons_of_pos hp]
      refine ⟨⟨fun h => absurd h ha0, fun h => ?_⟩, fun _ => ⟨[], L, rfl, hp, by simp⟩⟩
      have := h a (by simp)
      rw [hp] at this
      exact absurd this (by simp)
    · have hp' : p a = false := by simpa using hp
      rw [List.filter_cons_of_neg hp]
      refine ⟨⟨fun h x hx => ?_, fun h => ih1.2 (fun x hx => h x (by simp [hx]))⟩, fun h => ?_⟩
      · rcases List.mem_cons.1 hx with rfl | hx
        · exact hp'
        · exact ih1.1 h x hx
      · obtain ⟨pre, suf, e1, e2, e3⟩ := ih2 h
        refine ⟨a :: pre, suf, by rw [List.cons_append, ← e1], e2, fun x hx => ?_⟩
        rcases List.mem_cons.1 hx with rfl | hx
        · exact hp'
        · exact e3 x hx

/-- Claim C11.  The state holds a tree whose in-order sequence is sorted by key
(equal keys may form runs) and `cmp` compares the search key consistently with
that order.  Then `chx_rb_find_first` returns the first node of the in-order
sequence whose `cmp` against the key is 0, and null when no node compares
equal. -/
theorem find_first_returns_first_match {K : Type} [LinearOrder K] (keyOf : Nat → K)
    (cmp : K → Nat → Int) (key : K) (s : State α) (t : Tree) (fuel : Nat) (hwf : WF s t)
    (hsorted : t.inorder.Pairwise (fun x y => keyOf x ≤ keyOf y))
    (hcmp : ∀ a, (cmp key a < 0 ↔ key < keyOf a) ∧ (0 < cmp key a ↔ keyOf a < key))
    (hfuel : t.height < fuel) :
    ∃ r, chx_rb_find_first cmp fuel key s = some r ∧
      (r = 0 ↔ ∀ x ∈ t.inorder, cmp key x ≠ 0) ∧
      (r ≠ 0 → ∃ pre suf, t.inorder = pre ++ r :: suf ∧ cmp key r = 0 ∧
        ∀ x ∈ pre, cmp key x ≠ 0) := by
  have hnz : ∀ x ∈ t.inorder, x ≠ 0 := Rep_mem_ne_zero t 0 hwf.2.1
  obtain ⟨h1, h2⟩ := filter_head_split (p := fun x => decide (cmp key x = 0)) t.inorder hnz
  refine ⟨_, find_first_spec cmp key hwf hfuel (mono_of_sorted hsorted hcmp), ?_, ?_⟩
  · rw [h1]
    simp
  · intro hr
    obtain ⟨pre, suf, e1, e2, e3⟩ := h2 hr
    exact ⟨pre, suf, e1, by simpa using e2, fun x hx => by simpa using e3 x hx⟩

theorem find_first_returns_first_match_witness :
    WF demo_state demo_tree ∧ demo_tree.inorder.map demo_key_run = [0, 1, 1] ∧
    ∃ r, chx_rb_find_first (key_cmp_func demo_key_run) 3 1 demo_state = some r ∧
      (r = 0 ↔ ∀ x ∈ demo_tree.inorder, key_cmp_func demo_key_run 1 x ≠ 0) ∧
      (r ≠ 0 → ∃ pre suf, demo_tree.inorder = pre ++ r :: suf ∧
        key_cmp_func demo_key_run 1 r = 0 ∧
        ∀ x ∈ pre, key_cmp_func demo_key_run 1 x ≠ 0) :=
  ⟨by decide, by decide,
    find_first_returns_first_match demo_key_run (key_cmp_func demo_key_run) 1 demo_state
      demo_tree 3 (by decide) (by decide) (key_cmp_func_consistent demo_key_run 1)
      (by decide)⟩

/-- Claim C12.  For a node `n` of the tree `chx_rb_next_match` returns
`chx_rb_next(n)` when that node exists and compares equal to the key, and null
otherwise.  On a tree sorted by key, with `cmp` consistent with the order, the
loop `chx_rb_for_each` (from `chx_rb_find_first`, repeating `chx_rb_next_match`
until null) visits exactly the nodes that compare equal to the key, each once,
in in-order. -/
theorem for_each_visits_matches {K : Type} [LinearOrder K] (keyOf : Nat → K)
    (cmp : K → Nat → Int) (key : K) (s : State α) (t : Tree) (fuel : Nat) (hwf : WF s t)
    (hsorted : t.inorder.Pairwise (fun x y => keyOf x ≤ keyOf y))
    (hcmp : ∀ a, (cmp key a < 0 ↔ key < keyOf a) ∧ (0 < cmp key a ↔ keyOf a < key))
    (hfuel : t.size < fuel) :
    (∀ n ∈ t.inorder, ∃ r, chx_rb_next fuel s n = some r ∧
      chx_rb_next_match cmp fuel key s n = some (if r ≠ 0 ∧ cmp key r = 0 then r else 0)) ∧
    ∃ visited, chx_rb_for_each cmp fuel key s = some visited ∧
      visited = t.inorder.filter (fun x => decide (cmp key x = 0)) ∧
      visited.Nodup ∧ visited.Sublist t.inorder ∧
      ∀ x, x ∈ visited ↔ x ∈ t.inorder ∧ cmp key x = 0 := by
  have hh := height_le_size t
  have hf : t.height < fuel := by omega
  refine ⟨fun n hn => ?_, _, for_each_spec cmp key hwf hfuel (mono_of_sorted hsorted hcmp),
    rfl, hwf.2.2.filter _, List.filter_sublist _, fun x => by simp [List.mem_filter]⟩
  obtain ⟨pre, suf, e⟩ := List.append_of_mem hn
  refine ⟨_, next_in_list hwf hf e, ?_⟩
  rw [chx_rb_next_match, next_in_list hwf hf e]
  generalize suf.headD 0 = x
  show some (if x ≠ 0 ∧ cmp key x ≠ 0 then 0 else x) =
    some (if x ≠ 0 ∧ cmp key x = 0 then x else 0)
  by_cases h0 : x = 0 <;> by_cases hc : cmp key x = 0 <;> simp [h0, hc]

theorem for_each_visits_matches_witness :
    WF demo_state demo_tree ∧ demo_tree.inorder.map demo_key_run = [0, 1, 1] ∧
    (∀ n ∈ demo_tree.inorder, ∃ r, chx_rb_next 4 demo_state n = some r ∧
      chx_rb_next_match (key_cmp_func demo_key_run) 4 1 demo_state n =
        some (if r ≠ 0 ∧ key_cmp_func demo_key_run 1 r = 0 then r else 0)) ∧
    ∃ visited, chx_rb_for_each (key_cmp_func demo_key_run) 4 1 demo_state = some visited ∧
      visited = demo_tree.inorder.filter (fun x => decide (key_cmp_func demo_key_run 1 x = 0)) ∧
      visited.Nodup ∧ visited.Sublist demo_tree.inorder ∧
      ∀ x, x ∈ visited ↔ x ∈ demo_tree.inorder ∧ key_cmp_func demo_key_run 1 x = 0 :=
  ⟨by decide, by decide,
    for_each_visits_matches demo_key_run (key_cmp_func demo_key_run) 1 demo_state demo_tree 4
      (by decide) (by decide) (key_cmp_func_consistent demo_key_run 1) (by decide)⟩

/-- Claim C13.  For a non-empty tree `chx_rb_first` returns the first node of
the in-order sequence and `chx_rb_last` the last one; when the sequence is
sorted by key these carry a minimum and a maximum key. -/
theorem first_last_are_ends {K : Type} [LinearOrder K] (keyOf : Nat → K) (s : State α)
    (t : Tree) (fuel : Nat) (hwf : WF s t) (hne : t ≠ .nil) (hfuel : t.height ≤ fuel) :
    ∃ f l, chx_rb_first fuel s = some f ∧ chx_rb_last fuel s = some l ∧
      t.inorder.head? = some f ∧ t.inorder.getLast? = some l ∧
      (t.inorder.Pairwise (fun x y => keyOf x ≤ keyOf y) →
        ∀ x ∈ t.inorder, keyOf f ≤ keyOf x ∧ keyOf x ≤ keyOf l) := by
  have hio : t.inorder ≠ [] := by
    cases t with
    | nil => exact absurd rfl hne
    | node c l a r => exact inorder_ne_nil
  have hrev : t.inorder.reverse ≠ [] := by simpa using hio
  obtain ⟨f, rest, e1⟩ := List.exists_cons_of_ne_nil hio
  obtain ⟨l, rest', e2⟩ := List.exists_cons_of_ne_nil hrev
  refine ⟨f, l, by rw [first_spec hwf hfuel, e1]; rfl, by rw [last_spec hwf hfuel, e2]; rfl,
    by rw [e1]; rfl, ?_, ?_⟩
  · rw [← List.head?_reverse, e2]
    rfl
  · intro hs x hx
    constructor
    · rw [e1] at hs hx
      rcases List.mem_cons.1 hx with rfl | hx
      · exact le_refl _
      · exact (List.pairwise_cons.1 hs).1 x hx
    · have hs' := List.pairwise_reverse.2 hs
      have hx' : x ∈ t.inorder.reverse := List.mem_reverse.2 hx
      rw [e2] at hs' hx'
      rcases List.mem_cons.1 hx' with rfl | hx'
      · exact le_refl _
      · exact (List.pairwise_cons.1 hs').1 x hx'

theorem first_last_are_ends_witness :
    WF demo_state demo_tree ∧
    ∃ f l, chx_rb_first 2 demo_state = some f ∧ chx_rb_last 2 demo_state = some l ∧
      demo_tree.inorder.head? = some f ∧ demo_tree.inorder.getLast? = some l ∧
      (demo_tree.inorder.Pairwise (fun x y => demo_key x ≤ demo_key y) →
        ∀ x ∈ demo_tree.inorder, demo_key f ≤ demo_key x ∧ demo_key x ≤ demo_key l) :=
  ⟨by decide,
    first_last_are_ends demo_key demo_state demo_tree 2 (by decide) (by decide) (by decide)⟩

/-- Claim C14.  For a node `n` of a tree with consistent parent links
`chx_rb_next(n)` is the node immediately following `n` in the in-order
sequence, and null exactly when `n` is the last node.  Iterating from
`chx_rb_first` with `chx_rb_next` until null therefore visits every node of the
tree exactly once, in in-order. -/
theorem next_is_successor (s : State α) (t : Tree) (fuel : Nat) (hwf : WF s t)
    (hfuel : t.size < fuel) :
    (∀ pre n suf, t.inorder = pre ++ n :: suf →
      ∃ r, chx_rb_next fuel s n = some r ∧ suf.head? = (if r = 0 then none else some r) ∧
        (r = 0 ↔ suf = [])) ∧
    ∃ visited, first_next_walk fuel s = some visited ∧ visited = t.inorder ∧
      visited.Nodup := by
  have hh := height_le_size t
  refine ⟨fun pre n suf e => ?_, _, walk_spec hwf hfuel, rfl, hwf.2.2⟩
  refine ⟨_, next_in_list hwf (by omega) e, ?_⟩
  cases suf with
  | nil => simp
  | cons x suf' =>
    have hx0 : x ≠ 0 := Rep_mem_ne_zero t 0 hwf.2.1 x (by rw [e]; simp)
    simp [hx0]

theorem next_is_successor_witness :
    WF demo_state demo_tree ∧
    (∀ pre n suf, demo_tree.inorder = pre ++ n :: suf →
      ∃ r, chx_rb_next 4 demo_state n = some r ∧
        suf.head? = (if r = 0 then none else some r) ∧ (r = 0 ↔ suf = [])) ∧
    ∃ visited, first_next_walk 4 demo_state = some visited ∧ visited = demo_tree.inorder ∧
      visited.Nodup :=
  ⟨by decide, next_is_successor demo_state demo_tree 4 (by decide) (by decide)⟩

/-- Claim C15.  For a node `n` of a tree with consistent parent links
`chx_rb_prev(n)` is the node immediately preceding `n` in the in-order
sequence, and null exactly when `n` is the first node.  Iterating from
`chx_rb_last` with `chx_rb_prev` until null therefore visits every node exactly
once, in the reverse of the first/next order. -/
theorem prev_is_predecessor (s : State α) (t : Tree) (fuel : Nat) (hwf : WF s t)
    (hfuel : t.size < fuel) :
    (∀ pre n suf, t.inorder = pre ++ n :: suf →
      ∃ r, chx_rb_prev fuel s n = some r ∧ pre.getLast? = (if r = 0 then none else some r) ∧
        (r = 0 ↔ pre = [])) ∧
    ∃ back forth, last_prev_walk fuel s = some back ∧ first_next_walk fuel s = some forth ∧
      back = forth.reverse ∧ forth = t.inorder ∧ back.Nodup := by
  have hh := height_le_size t
  refine ⟨fun pre n suf e => ?_, _, _, last_prev_walk_spec hwf hfuel, walk_spec hwf hfuel,
    rfl, rfl, List.nodup_reverse.2 hwf.2.2⟩
  refine ⟨_, prev_in_list hwf (by omega) e, ?_⟩
  rw [← List.head?_reverse]
  cases hp : pre.reverse with
  | nil =>
    have : pre = [] := by simpa using hp
    simp [this]
  | cons x rest =>
    have hxp : x ∈ pre := by
      rw [← List.mem_reverse, hp]
      simp
    have hx0 : x ≠ 0 := Rep_mem_ne_zero t 0 hwf.2.1 x (by rw [e]; simp [hxp])
    have hne : pre ≠ [] := fun e0 => by rw [e0] at hxp; simp at hxp
    simp [hx0, hne]

theorem prev_is_predecessor_witness :
    WF demo_state demo_tree ∧
    (∀ pre n suf, demo_tree.inorder = pre ++ n :: suf →
      ∃ r, chx_rb_prev 4 demo_state n = some r ∧
        pre.getLast? = (if r = 0 then none else some r) ∧ (r = 0 ↔ pre = [])) ∧
    ∃ back forth, last_prev_walk 4 demo_state = some back ∧
      first_next_walk 4 demo_state = some forth ∧
      back = forth.reverse ∧ forth = demo_tree.inorder ∧ back.Nodup :=
  ⟨by decide, prev_is_predecessor demo_state demo_tree 4 (by decide) (by decide)⟩

/-- Claim C16.  For a tree with consistent parent links, starting at
`chx_rb_first_postorder` and applying `chx_rb_next_postorder` until null visits
every node of the tree exactly once, and every node only after all nodes of its
left and right subtrees. -/
theorem postorder_visits_children_first (s : State α) (t : Tree) (fuel : Nat)
    (hwf : WF s t) (hfuel : t.size < fuel) :
    ∃ visited, postorder_walk fuel s = some visited ∧ visited = t.postorder ∧
      visited.Nodup ∧ visited.Perm t.inorder ∧
      ∀ (k : Ctx) (c : Color) (l r : Tree) (a : Nat), t = plug k (.node c l a r) →
        ∀ x ∈ l.inorder ++ r.inorder, [x, a].Sublist visited := by
  refine ⟨_, postorder_walk_spec hwf hfuel, rfl, (postorder_perm t).nodup_iff.2 hwf.2.2,
    postorder_perm t, ?_⟩
  intro k c l r a e x hx
  rw [e]
  exact postorder_children_first hx

theorem postorder_visits_children_first_witness :
    WF demo_state demo_tree ∧
    ∃ visited, postorder_walk 4 demo_state = some visited ∧ visited = demo_tree.postorder ∧
      visited.Nodup ∧ visited.Perm demo_tree.inorder ∧
      ∀ (k : Ctx) (c : Color) (l r : Tree) (a : Nat), demo_tree = plug k (.node c l a r) →
        ∀ x ∈ l.inorder ++ r.inorder, [x, a].Sublist visited :=
  ⟨by decide, postorder_visits_children_first demo_state demo_tree 4 (by decide) (by decide)⟩


/-! ## Claims on cached roots and on replacement -/

theorem cache_of_first {cs : CachedState α} {t : Tree} {fuel : Nat} (hwf : WF cs.rb_root t)
    (hfuel : t.height ≤ fuel)
    (hcache : chx_rb_first fuel cs.rb_root = some (chx_rb_first_cached cs)) :
    cs.rb_leftmost = t.inorder.headD 0 := by
  rw [first_spec hwf hfuel] at hcache
  exact (Option.some.inj hcache).symm

theorem first_of_cache {cs : CachedState α} {t : Tree} {fuel : Nat} (hwf : WF cs.rb_root t)
    (hfuel : t.height ≤ fuel) (hcache : cs.rb_leftmost = t.inorder.headD 0) :
    chx_rb_first fuel cs.rb_root = some (chx_rb_first_cached cs) := by
  rw [first_spec hwf hfuel, chx_rb_first_cached, hcache]

theorem size_insert_hole {t' : Tree} {k : Ctx} {node : Nat}
    (h : t'.inorder = ctxBefore k ++ node :: ctxAfter k) :
    t'.size = (plug k .nil).size + 1 := by
  rw [← length_inorder, h, ← length_inorder (plug k .nil), inorder_plug_nil]
  simp only [List.length_append, List.length_cons]
  omega

/-- Claim C17.  The state holds a red-black tree under a leftmost-cached root
and `rb_leftmost` equals `chx_rb_first(&rb_root)` (both null for an empty
tree).  Then the same holds after `chx_rb_add_cached`, after
`chx_rb_find_add_cached`, after `chx_rb_erase_cached` of a node of the tree, and
after `chx_rb_replace_node_cached`. -/
theorem leftmost_cache_preserved (cs : CachedState α) (t : Tree) (fuel : Nat)
    (hwf : WF cs.rb_root t) (hrb : t.RB) (hfuel : t.size + 1 < fuel)
    (hcache : chx_rb_first fuel cs.rb_root = some (chx_rb_first_cached cs)) :
    (∀ (less : Nat → Nat → Bool) (node : Nat), node ≠ 0 → node % 4 = 0 → node ∉ t.inorder →
      ∃ cs' r t', chx_rb_add_cached less fuel cs node = some (cs', r) ∧
        WF cs'.rb_root t' ∧ t'.RB ∧
        chx_rb_first fuel cs'.rb_root = some (chx_rb_first_cached cs')) ∧
    (∀ (cmp : Nat → Nat → Int) (node : Nat), node ≠ 0 → node % 4 = 0 → node ∉ t.inorder →
      ∃ cs' r t', chx_rb_find_add_cached cmp fuel cs node = some (cs', r) ∧
        WF cs'.rb_root t' ∧ t'.RB ∧
        chx_rb_first fuel cs'.rb_root = some (chx_rb_first_cached cs')) ∧
    (∀ n ∈ t.inorder,
      ∃ cs' r t', chx_rb_erase_cached fuel cs n = some (cs', r) ∧
        WF cs'.rb_root t' ∧ t'.RB ∧
        chx_rb_first fuel cs'.rb_root = some (chx_rb_first_cached cs')) ∧
    (∀ (victim new_node : Nat), victim ∈ t.inorder → new_node ≠ 0 → new_node % 4 = 0 →
      new_node ∉ t.inorder →
      ∃ t', WF (chx_rb_replace_node_cached cs victim new_node).rb_root t' ∧ t'.RB ∧
        chx_rb_first fuel (chx_rb_replace_node_cached cs victim new_node).rb_root =
          some (chx_rb_first_cached (chx_rb_replace_node_cached cs victim new_node))) := by
  have hh := height_le_size t
  have hf : t.height < fuel := by omega
  have hc := cache_of_first hwf (by omega) hcache
  refine ⟨?_, ?_, ?_, ?_⟩
  · intro less node hn0 hn4 hfresh
    obtain ⟨k, cs', t', e0, -, e1, e2, e3, e4, e5⟩ :=
      add_cached_at less hwf hrb hn0 hn4 hfresh hf
    subst e0
    have hsz := size_insert_hole e4
    have hh' := height_le_size t'
    refine ⟨cs', _, t', e1, e2, e3, first_of_cache e2 (by omega) ?_⟩
    rw [e5, e4, headD_insert_hole, hc, inorder_plug_nil]
  · intro cmp node hn0 hn4 hfresh
    rcases find_add_cached_at cmp hwf hrb hn0 hn4 hfresh hf with
      ⟨a, -, -, e1⟩ | ⟨k, cs', t', e0, e1, e2, e3, e4, e5⟩
    · exact ⟨cs, a, t, e1, hwf, hrb, hcache⟩
    · subst e0
      have hsz := size_insert_hole e4
      have hh' := height_le_size t'
      refine ⟨cs', 0, t', e1, e2, e3, first_of_cache e2 (by omega) ?_⟩
      rw [e5, e4, headD_insert_hole, hc, inorder_plug_nil]
  · intro n hn
    obtain ⟨cs', t', e1, e2, e3, e4, e5⟩ := erase_cached_spec hwf hrb hn hf hc
    have hsz : t'.size ≤ t.size := by
      rw [← length_inorder, ← length_inorder t, e4, hwf.2.2.erase_eq_filter]
      exact List.length_filter_le _ _
    have hh' := height_le_size t'
    exact ⟨cs', _, t', e1, e2, e3, first_of_cache e2 (by omega) e5⟩
  · intro victim new_node hv hn0 hn4 hfresh
    obtain ⟨t', e1, e2, e3, e4⟩ := replace_node_cached_spec hwf hv hn0 hn4 hfresh hc
    have hsz : t'.size = t.size := by
      rw [← length_inorder, ← length_inorder t, e2, List.length_map]
    have hh' := height_le_size t'
    exact ⟨t', e1, e3 hrb, first_of_cache e1 (by omega) e4⟩

theorem leftmost_cache_preserved_witness :
    WF demo_cached.rb_root demo_tree ∧ demo_tree.RB ∧
    chx_rb_first 5 demo_cached.rb_root = some (chx_rb_first_cached demo_cached) ∧
    (∃ cs' r t', chx_rb_add_cached (less_func demo_key) 5 demo_cached 16 = some (cs', r) ∧
      WF cs'.rb_root t' ∧ t'.RB ∧
      chx_rb_first 5 cs'.rb_root = some (chx_rb_first_cached cs')) ∧
    (∃ cs' r t', chx_rb_find_add_cached (cmp_func demo_key) 5 demo_cached 16 = some (cs', r) ∧
      WF cs'.rb_root t' ∧ t'.RB ∧
      chx_rb_first 5 cs'.rb_root = some (chx_rb_first_cached cs')) ∧
    (∃ cs' r t', chx_rb_erase_cached 5 demo_cached 4 = some (cs', r) ∧
      WF cs'.rb_root t' ∧ t'.RB ∧
      chx_rb_first 5 cs'.rb_root = some (chx_rb_first_cached cs')) ∧
    (∃ t', WF (chx_rb_replace_node_cached demo_cached 4 16).rb_root t' ∧ t'.RB ∧
      chx_rb_first 5 (chx_rb_replace_node_cached demo_cached 4 16).rb_root =
        some (chx_rb_first_cached (chx_rb_replace_node_cached demo_cached 4 16))) :=
  ⟨by decide, by decide, by decide,
    (leftmost_cache_preserved demo_cached demo_tree 5 (by decide) (by decide) (by decide)
      (by decide)).1 (less_func demo_key) 16 (by decide) (by decide) (by decide),
    (leftmost_cache_preserved demo_cached demo_tree 5 (by decide) (by decide) (by decide)
      (by decide)).2.1 (cmp_func demo_key) 16 (by decide) (by decide) (by decide),
    (leftmost_cache_preserved demo_cached demo_tree 5 (by decide) (by decide) (by decide)
      (by decide)).2.2.1 4 (by decide),
    (leftmost_cache_preserved demo_cached demo_tree 5 (by decide) (by decide) (by decide)
      (by decide)).2.2.2 4 16 (by decide) (by decide) (by decide) (by decide)⟩

/-- Claim C18.  On a red-black tree and a fresh node, `chx_rb_add_cached`
returns the inserted node if and only if that node is the leftmost node of the
tree after the insertion (`chx_rb_first` of the tree is the node), and null
otherwise.  On a tree sorted under `less`, a node that is not less than the
current minimum, in particular one equal to it, is inserted to its right and
the call yields null. -/
theorem add_cached_returns_node_iff_leftmost (less : Nat → Nat → Bool) (cs : CachedState α)
    (t : Tree) (node fuel : Nat) (hwf : WF cs.rb_root t) (hrb : t.RB) (hn0 : node ≠ 0)
    (hn4 : node % 4 = 0) (hfresh : node ∉ t.inorder) (hfuel : t.size + 1 < fuel) :
    ∃ cs' r t', chx_rb_add_cached less fuel cs node = some (cs', r) ∧ WF cs'.rb_root t' ∧
      t'.inorder.Perm (node :: t.inorder) ∧ (r = node ∨ r = 0) ∧
      (r = node ↔ chx_rb_first fuel cs'.rb_root = some node) ∧
      (t.inorder.Pairwise (fun x y => less y x = false) →
        (∀ a b c, less a b = false → less b c = false → less a c = false) →
        ∀ m, t.inorder.head? = some m → less node m = false →
          r = 0 ∧ [m, node].Sublist t'.inorder) := by
  have hh := height_le_size t
  have hf : t.height < fuel := by omega
  obtain ⟨k, cs', t', e0, hpath, e1, e2, e3, e4, e5⟩ :=
    add_cached_at less hwf hrb hn0 hn4 hfresh hf
  subst e0
  have hsz := size_insert_hole e4
  have hh' := height_le_size t'
  have hfirst := first_spec e2 (by omega : t'.height ≤ fuel)
  rw [e4, headD_insert_hole] at hfirst
  rw [inorder_plug_nil] at hfresh
  refine ⟨cs', _, t', e1, e2, ?_, ?_, ?_, ?_⟩
  · rw [e4, inorder_plug_nil]
    exact List.perm_middle
  · by_cases hal : allLeft k = true <;> simp [hal]
  · by_cases hal : allLeft k = true
    · simp [hal, hfirst]
    · have hne : ctxBefore k ≠ [] := fun e => hal ((allLeft_iff k).2 e)
      obtain ⟨x, xs, hb⟩ := List.exists_cons_of_ne_nil hne
      have hx : x ≠ node := fun e => hfresh (by rw [hb, e]; simp)
      simp only [hal, Bool.false_eq_true, if_false] at hfirst ⊢
      rw [hfirst, hb]
      simp [Ne.symm hn0, hx]
  · intro hsorted hneg m hm hlt
    rw [inorder_plug_nil] at hsorted hm
    have hp := path_sides k (hsorted.imp (fun {x y} hxy =>
      (⟨fun hy => hneg _ _ _ hy hxy, fun hx => by
        by_contra hy
        have hy' : less node y = false := by simpa using hy
        rw [hneg _ _ _ hy' hxy] at hx
        exact absurd hx (by simp)⟩ :
        (less node y = false → less node x = false) ∧
          (less node x = true → less node y = true)))) hpath
    have hne : ctxBefore k ≠ [] := by
      intro e
      rw [e, List.nil_append] at hm
      have hmem : m ∈ ctxAfter k := List.mem_of_mem_head? hm
      rw [hp.2 m hmem] at hlt
      exact absurd hlt (by simp)
    have hal : ¬ allLeft k = true := fun h => hne ((allLeft_iff k).1 h)
    obtain ⟨x, xs, hb⟩ := List.exists_cons_of_ne_nil hne
    have hxm : x = m := by
      rw [hb] at hm
      simpa using hm
    subst hxm
    refine ⟨by simp [hal], ?_⟩
    rw [e4, hb]
    exact pair_sublist_append (by simp) (by simp)

theorem add_cached_returns_node_iff_leftmost_witness :
    WF demo_cached.rb_root demo_tree ∧ demo_tree.RB ∧ demo_tree.inorder.head? = some 4 ∧
    less_func (fun a => if a = 16 then 4 else (a : Int)) 16 4 = false ∧
    less_func (fun a => if a = 16 then 4 else (a : Int)) 4 16 = false ∧
    ∃ cs' r t', chx_rb_add_cached (less_func (fun a => if a = 16 then 4 else (a : Int))) 5
        demo_cached 16 = some (cs', r) ∧
      WF cs'.rb_root t' ∧ t'.inorder.Perm (16 :: demo_tree.inorder) ∧ (r = 16 ∨ r = 0) ∧
      (r = 16 ↔ chx_rb_first 5 cs'.rb_root = some 16) ∧
      (demo_tree.inorder.Pairwise
          (fun x y => less_func (fun a => if a = 16 then 4 else (a : Int)) y x = false) →
        (∀ a b c, less_func (fun a => if a = 16 then 4 else (a : Int)) a b = false →
          less_func (fun a => if a = 16 then 4 else (a : Int)) b c = false →
          less_func (fun a => if a = 16 then 4 else (a : Int)) a c = false) →
        ∀ m, demo_tree.inorder.head? = some m →
          less_func (fun a => if a = 16 then 4 else (a : Int)) 16 m = false →
          r = 0 ∧ [m, 16].Sublist t'.inorder) :=
  ⟨by decide, by decide, by decide, by decide, by decide,
    add_cached_returns_node_iff_leftmost (less_func (fun a => if a = 16 then 4 else (a : Int)))
      demo_cached demo_tree 16 5 (by decide) (by decide) (by decide) (by decide) (by decide)
      (by decide)⟩


/-- After `chx_rb_replace_node` a non-null child of the victim has the
replacement as parent, and its colour and child links are as before. -/
theorem replace_node_child {s : State α} {k : Ctx} {c : Color} {l r : Tree} {v new : Nat}
    (h : WF s (plug k (.node c l v r))) (hn0 : new ≠ 0) (hn4 : new % 4 = 0)
    (hfresh : new ∉ (plug k (.node c l v r)).inorder) (ch : Nat)
    (hch : ch = l.addr ∨ ch = r.addr) (hch0 : ch ≠ 0) :
    chx_rb_parent (chx_rb_replace_node s v new) ch = new ∧
    chx_rb_color (chx_rb_replace_node s v new) ch = chx_rb_color s ch ∧
    ((chx_rb_replace_node s v new).mem ch).rb_left = (s.mem ch).rb_left ∧
    ((chx_rb_replace_node s v new).mem ch).rb_right = (s.mem ch).rb_right := by
  have h' := replace_node_at h hn0 hn4 hfresh
  obtain ⟨-, hT, -⟩ := WF_plug'.1 h
  obtain ⟨-, hT', -⟩ := WF_plug'.1 h'
  obtain ⟨h1, h2, h3, h4, h5, h6, h7⟩ := hT
  obtain ⟨g1, g2, g3, g4, g5, g6, g7⟩ := hT'
  have key : ∀ (u : Tree), Rep s.mem u v → Rep (chx_rb_replace_node s v new).mem u new →
      u.addr ≠ 0 →
      chx_rb_parent (chx_rb_replace_node s v new) u.addr = new ∧
      chx_rb_color (chx_rb_replace_node s v new) u.addr = chx_rb_color s u.addr ∧
      ((chx_rb_replace_node s v new).mem u.addr).rb_left = (s.mem u.addr).rb_left ∧
      ((chx_rb_replace_node s v new).mem u.addr).rb_right = (s.mem u.addr).rb_right := by
    intro u hu hu' hu0
    cases u with
    | nil => exact absurd rfl hu0
    | node cu ul ua ur =>
      obtain ⟨a1, a2, a3, a4, a5, -, -⟩ := hu
      obtain ⟨b1, b2, b3, b4, b5, -, -⟩ := hu'
      simp only [addr_node]
      refine ⟨?_, ?_, b4.trans a4.symm, b5.trans a5.symm⟩
      · rw [chx_rb_parent, b3]
        exact parent_of_word cu hn4
      · rw [chx_rb_color, chx_rb_color, b3, a3, color_of_word cu hn4, color_of_word cu h2]
  rcases hch with rfl | rfl
  · exact key l h6 g6 hch0
  · exact key r h7 g7 hch0

/-- Claim C19.  For a victim `v` in the tree and an unattached replacement,
after `chx_rb_replace_node(v, new, root)`: the parent-and-colour word, left
link and right link of `new` equal those of `v` before the call; every non-null
child of `v` has `new` as its parent, with its colour and its own links
unchanged; the slot that pointed to `v` (the left or right link of its parent,
or the root) points to `new`; and no other header is changed. -/
theorem replace_node_headers (s : State α) (t : Tree) (v new_node : Nat) (hwf : WF s t)
    (hv : v ∈ t.inorder) (hn0 : new_node ≠ 0) (hn4 : new_node % 4 = 0)
    (hfresh : new_node ∉ t.inorder) :
    (chx_rb_replace_node s v new_node).mem new_node = s.mem v ∧
    (∀ ch, (ch = (s.mem v).rb_left ∨ ch = (s.mem v).rb_right) → ch ≠ 0 →
      chx_rb_parent (chx_rb_replace_node s v new_node) ch = new_node ∧
      chx_rb_color (chx_rb_replace_node s v new_node) ch = chx_rb_color s ch ∧
      ((chx_rb_replace_node s v new_node).mem ch).rb_left = (s.mem ch).rb_left ∧
      ((chx_rb_replace_node s v new_node).mem ch).rb_right = (s.mem ch).rb_right) ∧
    (chx_rb_parent s v = 0 →
      s.rb_node = v ∧ (chx_rb_replace_node s v new_node).rb_node = new_node) ∧
    (chx_rb_parent s v ≠ 0 →
      (chx_rb_replace_node s v new_node).rb_node = s.rb_node ∧
      ((chx_rb_replace_node s v new_node).mem (chx_rb_parent s v)).__rb_parent_color =
        (s.mem (chx_rb_parent s v)).__rb_parent_color ∧
      (((s.mem (chx_rb_parent s v)).rb_left = v ∧
          ((chx_rb_replace_node s v new_node).mem (chx_rb_parent s v)).rb_left = new_node ∧
          ((chx_rb_replace_node s v new_node).mem (chx_rb_parent s v)).rb_right =
            (s.mem (chx_rb_parent s v)).rb_right) ∨
        ((s.mem (chx_rb_parent s v)).rb_left ≠ v ∧
          (s.mem (chx_rb_parent s v)).rb_right = v ∧
          ((chx_rb_replace_node s v new_node).mem (chx_rb_parent s v)).rb_right = new_node ∧
          ((chx_rb_replace_node s v new_node).mem (chx_rb_parent s v)).rb_left =
            (s.mem (chx_rb_parent s v)).rb_left))) ∧
    (∀ x, x ≠ new_node → ¬ (x = chx_rb_parent s v ∧ chx_rb_parent s v ≠ 0) →
      ¬ (x = (s.mem v).rb_left ∧ (s.mem v).rb_left ≠ 0) →
      ¬ (x = (s.mem v).rb_right ∧ (s.mem v).rb_right ≠ 0) →
      (chx_rb_replace_node s v new_node).mem x = s.mem x) ∧
    (chx_rb_replace_node s v new_node).mem v = s.mem v := by
  obtain ⟨k, c, l, r, e⟩ := mem_split_plug t v hv
  subst e
  obtain ⟨hk, hT, hnd⟩ := WF_plug'.1 hwf
  have hal := RepCtx_ctxAddr_aligned hk
  obtain ⟨h1, h2, h3, h4, h5, h6, h7⟩ := hT
  have hpar : chx_rb_parent s v = ctxAddr 0 k := by
    rw [chx_rb_parent, h3]
    exact parent_of_word c hal
  obtain ⟨m1, m2, m3, m4⟩ := replace_node_mem hwf hn0 hn4 hfresh
  rw [hpar, h4, h5]
  have hvn : v ≠ new_node := fun e => hfresh (by
    rw [← e]
    exact hv)
  have hvk : v ∉ ctxNodes k := fun hx => frame_ne hnd hx (by simp [Tree.inorder]) rfl
  have hvT : (Tree.node c l v r).inorder.Nodup := (List.nodup_append.1 hnd).1
  simp only [Tree.inorder, List.nodup_append, List.nodup_cons, List.disjoint_cons_right]
    at hvT
  refine ⟨m1, fun ch hch hch0 => replace_node_child hwf hn0 hn4 hfresh ch hch hch0, ?_, ?_,
    m4, ?_⟩
  · intro hP
    have hk0 : k = [] := (RepCtx_ctxAddr_ne_zero hk).1 hP
    subst hk0
    exact ⟨hk, m2⟩
  · intro hP
    have hk0 : k ≠ [] := fun e => hP (by rw [e]; rfl)
    exact m3 hk0
  · refine m4 v hvn (fun e => ?_) (fun e => ?_) (fun e => ?_)
    · have hk0 : k ≠ [] := fun e0 => e.2 (by rw [e0]; rfl)
      exact hvk (e.1 ▸ ctxAddr_mem_ctxNodes k hk0)
    · exact hvT.2.2.1 (e.1 ▸ addr_mem_inorder l (fun hl => e.2 (by rw [hl]; rfl)))
    · exact hvT.2.1.1 (e.1 ▸ addr_mem_inorder r (fun hr => e.2 (by rw [hr]; rfl)))

theorem replace_node_headers_witness :
    WF demo_state demo_tree ∧ 8 ∈ demo_tree.inorder ∧ 16 ∉ demo_tree.inorder ∧
    (chx_rb_replace_node demo_state 8 16).mem 16 = demo_state.mem 8 ∧
    (∀ ch, (ch = (demo_state.mem 8).rb_left ∨ ch = (demo_state.mem 8).rb_right) → ch ≠ 0 →
      chx_rb_parent (chx_rb_replace_node demo_state 8 16) ch = 16 ∧
      chx_rb_color (chx_rb_replace_node demo_state 8 16) ch = chx_rb_color demo_state ch ∧
      ((chx_rb_replace_node demo_state 8 16).mem ch).rb_left = (demo_state.mem ch).rb_left ∧
      ((chx_rb_replace_node demo_state 8 16).mem ch).rb_right =
        (demo_state.mem ch).rb_right) ∧
    (chx_rb_parent demo_state 8 = 0 →
      demo_state.rb_node = 8 ∧ (chx_rb_replace_node demo_state 8 16).rb_node = 16) ∧
    (∀ x, x ≠ 16 → ¬ (x = chx_rb_parent demo_state 8 ∧ chx_rb_parent demo_state 8 ≠ 0) →
      ¬ (x = (demo_state.mem 8).rb_left ∧ (demo_state.mem 8).rb_left ≠ 0) →
      ¬ (x = (demo_state.mem 8).rb_right ∧ (demo_state.mem 8).rb_right ≠ 0) →
      (chx_rb_replace_node demo_state 8 16).mem x = demo_state.mem x) ∧
    (chx_rb_replace_node demo_state 8 16).mem 8 = demo_state.mem 8 :=
  ⟨by decide, by decide, by decide,
    (replace_node_headers demo_state demo_tree 8 16 (by decide) (by decide) (by decide)
      (by decide) (by decide)).1,
    (replace_node_headers demo_state demo_tree 8 16 (by decide) (by decide) (by decide)
      (by decide) (by decide)).2.1,
    (replace_node_headers demo_state demo_tree 8 16 (by decide) (by decide) (by decide)
      (by decide) (by decide)).2.2.1,
    (replace_node_headers demo_state demo_tree 8 16 (by decide) (by decide) (by decide)
      (by decide) (by decide)).2.2.2.2.1,
    (replace_node_headers demo_state demo_tree 8 16 (by decide) (by decide) (by decide)
      (by decide) (by decide)).2.2.2.2.2⟩

theorem notMem_replaced {k : Ctx} {c : Color} {l r : Tree} {v w : Nat}
    (hnd : (plug k (.node c l v r)).inorder.Nodup)
    (hw : w ∉ (plug k (.node c l v r)).inorder) :
    v ∉ (plug k (.node c l w r)).inorder := by
  rw [@inorder_plug_replace k c l r v w hnd]
  intro hx
  rw [List.mem_map] at hx
  obtain ⟨y, hy, e⟩ := hx
  by_cases hyv : y = v
  · rw [if_pos hyv] at e
    subst hyv
    rw [e] at hw
    exact hw hy
  · rw [if_neg hyv] at e
    exact hyv e

/-- Claim C20.  For a node `v` of the tree and an unattached node `w`,
`chx_rb_replace_node(v, w, root)` followed by `chx_rb_replace_node(w, v, root)`
restores the original tree: the root and the parent-and-colour word, left link
and right link of `v` and of every other node of the tree, indeed of every
address other than `w`, are exactly as before the first call. -/
theorem replace_node_round_trip (s : State α) (t : Tree) (v w : Nat) (hwf : WF s t)
    (hv : v ∈ t.inorder) (hw0 : w ≠ 0) (hw4 : w % 4 = 0) (hfresh : w ∉ t.inorder) :
    (chx_rb_replace_node (chx_rb_replace_node s v w) w v).rb_node = s.rb_node ∧
    (∀ x ∈ t.inorder, (chx_rb_replace_node (chx_rb_replace_node s v w) w v).mem x = s.mem x) ∧
    (∀ x, x ≠ w → (chx_rb_replace_node (chx_rb_replace_node s v w) w v).mem x = s.mem x) ∧
    WF (chx_rb_replace_node (chx_rb_replace_node s v w) w v) t := by
  have hv0 : v ≠ 0 := Rep_mem_ne_zero t 0 hwf.2.1 v hv
  have hv4 : v % 4 = 0 := Rep_mem_aligned t 0 hwf.2.1 v hv
  obtain ⟨k, c, l, r, e⟩ := mem_split_plug t v hv
  subst e
  have h1 := replace_node_at hwf hw0 hw4 hfresh
  have hvfresh := notMem_replaced hwf.2.2 hfresh
  have h2 := replace_node_at h1 hv0 hv4 hvfresh
  have hin : ∀ x ∈ (plug k (.node c l v r)).inorder,
      (chx_rb_replace_node (chx_rb_replace_node s v w) w v).mem x = s.mem x :=
    Rep_mem_unique _ 0 hwf.2.1 h2.2.1
  refine ⟨h2.1.trans hwf.1.symm, hin, ?_, h2⟩
  intro x hxw
  by_cases hx : x ∈ (plug k (.node c l v r)).inorder
  · exact hin x hx
  · have hperm := inorder_plug_perm k (.node c l v r)
    have hx' : x ∉ (Tree.node c l v r).inorder ++ ctxNodes k :=
      fun hm => hx (hperm.symm.subset hm)
    simp only [Tree.inorder, List.mem_append, List.mem_cons, not_or] at hx'
    obtain ⟨⟨hxl, hxv, hxr⟩, hxk⟩ := hx'
    have hP : ¬ (x = ctxAddr 0 k ∧ ctxAddr 0 k ≠ 0) := by
      intro e
      have hk0 : k ≠ [] := fun e0 => e.2 (by rw [e0]; rfl)
      exact hxk (e.1 ▸ ctxAddr_mem_ctxNodes k hk0)
    have hL : ¬ (x = l.addr ∧ l.addr ≠ 0) := fun e =>
      hxl (e.1 ▸ addr_mem_inorder l (fun hl => e.2 (by rw [hl]; rfl)))
    have hR : ¬ (x = r.addr ∧ r.addr ≠ 0) := fun e =>
      hxr (e.1 ▸ addr_mem_inorder r (fun hr => e.2 (by rw [hr]; rfl)))
    rw [(replace_node_mem h1 hv0 hv4 hvfresh).2.2.2 x hxv hP hL hR,
      (replace_node_mem hwf hw0 hw4 hfresh).2.2.2 x hxw hP hL hR]

theorem replace_node_round_trip_witness :
    WF demo_state demo_tree ∧ 8 ∈ demo_tree.inorder ∧ 16 ∉ demo_tree.inorder ∧
    (chx_rb_replace_node (chx_rb_replace_node demo_state 8 16) 16 8).rb_node =
      demo_state.rb_node ∧
    (∀ x ∈ demo_tree.inorder,
      (chx_rb_replace_node (chx_rb_replace_node demo_state 8 16) 16 8).mem x =
        demo_state.mem x) ∧
    (∀ x, x ≠ 16 →
      (chx_rb_replace_node (chx_rb_replace_node demo_state 8 16) 16 8).mem x =
        demo_state.mem x) ∧
    WF (chx_rb_replace_node (chx_rb_replace_node demo_state 8 16) 16 8) demo_tree :=
  ⟨by decide, by decide, by decide,
    replace_node_round_trip demo_state demo_tree 8 16 (by decide) (by decide) (by decide)
      (by decide) (by decide)⟩


/-! ## Attached and cleared nodes, small trees -/

/-- A node of a represented tree is never "empty": its parent-and-colour word
differs from its own address. -/
theorem empty_node_false {s : State α} {t : Tree} {n : Nat} (h : WF s t)
    (hn : n ∈ t.inorder) : CHX_RB_EMPTY_NODE s n = false := by
  obtain ⟨k, c, l, r, e⟩ := mem_split_plug t n hn
  subst e
  rw [WF_plug'] at h
  obtain ⟨hk, hT, hnd⟩ := h
  obtain ⟨h1, h2, h3, h4, h5, h6, h7⟩ := hT
  have hal := RepCtx_ctxAddr_aligned hk
  have hnk : n ∉ ctxNodes k := fun hx => frame_ne hnd hx (by simp [Tree.inorder]) rfl
  have hpar : ctxAddr 0 k ≠ n := by
    by_cases hk0 : k = []
    · subst hk0
      exact fun e => h1 e.symm
    · exact fun e => hnk (e ▸ ctxAddr_mem_ctxNodes k hk0)
  simp only [CHX_RB_EMPTY_NODE, h3, beq_eq_false_iff_ne, ne_eq]
  intro e
  cases c with
  | red => exact hpar (by simpa using e)
  | black => simp only [bit_black] at e; omega

/-- Function `chx_rb_add` under any predicate links the node somewhere in the
in-order sequence and leaves the rest of the sequence as it was. -/
theorem add_at (less : Nat → Nat → Bool) {s : State α} {t : Tree} {node fuel : Nat}
    (h : WF s t) (hrb : t.RB) (hn0 : node ≠ 0) (hn4 : node % 4 = 0)
    (hfresh : node ∉ t.inorder) (hfuel : t.height < fuel) :
    ∃ s' t' A B, chx_rb_add less fuel s node = some s' ∧ WF s' t' ∧ t'.RB ∧
      t.inorder = A ++ B ∧ t'.inorder = A ++ node :: B := by
  obtain ⟨k, e1, e2, -⟩ := add_descend_spec less t [] fuel h hfuel trivial
  have e2' : t = plug k .nil := e2.symm
  subst e2'
  obtain ⟨s', t', f1, f2, f3, f4⟩ :=
    insert_color_spec dummy_rotate fuel h hrb hn0 hn4 hfresh hfuel
  change chx_rb_add_descend less s node fuel .root 0 = _ at e1
  refine ⟨s', t', ctxBefore k, ctxAfter k, ?_, f2, f3, inorder_plug_nil k, f4⟩
  rw [chx_rb_add, e1]
  exact f1

/-- A sequence of calls that respects the contract keeps every node in the
tree that is in it or is added by a call, and is not erased by a call. -/
theorem apply_ops_mem (less : Nat → Nat → Bool) (fuel n : Nat) : ∀ (ops : List TreeOp)
    (s : State α) (t : Tree), WF s t → t.RB → OpsOK t.inorder ops →
    t.size + ops.length < fuel → (n ∈ t.inorder ∨ TreeOp.add n ∈ ops) →
    TreeOp.erase n ∉ ops →
    ∃ s' t', apply_ops less fuel s ops = some s' ∧ WF s' t' ∧ t'.RB ∧ n ∈ t'.inorder
  | [], s, t, h, hrb, _, _, hin, _ => by
    rcases hin with hin | hin
    · exact ⟨s, t, rfl, h, hrb, hin⟩
    · simp at hin
  | .add x :: ops, s, t, h, hrb, ⟨h1, h2, h3, h4⟩, hf, hin, hne => by
    simp only [List.length_cons] at hf
    have hh := height_le_size t
    have hf1 : t.height < fuel := by omega
    obtain ⟨s1, t1, e1, e2, e3, e4⟩ := add_rb less h hrb h1 h2 h3 hf1
    have hsz : t1.size = t.size + 1 := by
      rw [size_of_perm e4, List.length_cons, length_inorder]
    have hin1 : n ∈ t1.inorder ∨ TreeOp.add n ∈ ops := by
      rcases hin with hin | hin
      · exact Or.inl (e4.mem_iff.2 (List.mem_cons_of_mem _ hin))
      · rcases List.mem_cons.1 hin with e | hin
        · injection e with e
          subst e
          exact Or.inl (e4.mem_iff.2 (List.mem_cons_self _ _))
        · exact Or.inr hin
    obtain ⟨s2, t2, g1, g2, g3, g4⟩ := apply_ops_mem less fuel n ops s1 t1 e2 e3
      (OpsOK_congr ops _ _ (fun x => (e4.mem_iff).symm) h4) (by omega) hin1
      (fun hx => hne (List.mem_cons_of_mem _ hx))
    exact ⟨s2, t2, by rw [apply_ops, e1]; exact g1, g2, g3, g4⟩
  | .erase x :: ops, s, t, h, hrb, ⟨h1, h2⟩, hf, hin, hne => by
    simp only [List.length_cons] at hf
    have hh := height_le_size t
    have hf1 : t.height ≤ fuel := by omega
    obtain ⟨s1, t1, e1, e2, e3, e4⟩ := erase_spec h hrb h1 hf1
    rw [h.2.2.erase_eq_filter] at e4
    have hsz : t1.size ≤ t.size := by
      rw [← length_inorder, ← length_inorder t, e4]
      exact List.length_filter_le _ _
    have hxn : x ≠ n := by
      intro e
      subst e
      exact hne (List.mem_cons_self _ _)
    have hin1 : n ∈ t1.inorder ∨ TreeOp.add n ∈ ops := by
      rcases hin with hin | hin
      · refine Or.inl ?_
        rw [e4, List.mem_filter]
        exact ⟨hin, by simpa using fun e => hxn e.symm⟩
      · rcases List.mem_cons.1 hin with e | hin
        · cases e
        · exact Or.inr hin
    obtain ⟨s2, t2, g1, g2, g3, g4⟩ := apply_ops_mem less fuel n ops s1 t1 e2 e3
      (by rw [e4]; exact h2) (by omega) hin1 (fun hx => hne (List.mem_cons_of_mem _ hx))
    exact ⟨s2, t2, by rw [apply_ops, e1]; exact g1, g2, g3, g4⟩

/-- A tree with a single node in order is a leaf. -/
theorem tree_of_singleton {t : Tree} {c : Nat} (h : t.inorder = [c]) :
    ∃ col, t = .node col .nil c .nil := by
  cases t with
  | nil => simp [Tree.inorder] at h
  | node col l a r =>
    have hlen := congrArg List.length h
    simp only [Tree.inorder, List.length_append, List.length_cons, List.length_nil,
      length_inorder] at hlen
    have hl : l = .nil := by
      cases l with
      | nil => rfl
      | node _ _ _ _ => simp only [Tree.size] at hlen; omega
    have hr : r = .nil := by
      cases r with
      | nil => rfl
      | node _ _ _ _ => simp only [Tree.size] at hlen; omega
    subst hl hr
    simp only [Tree.inorder, List.nil_append, List.cons.injEq, and_true] at h
    subst h
    exact ⟨col, rfl⟩

/-- A red-black tree with two nodes is a black root with one red leaf as its
left or right child. -/
theorem rb_two_nodes {t : Tree} (hrb : t.RB) (hsz : t.size = 2) :
    ∃ r c, t = .node .black .nil r (.node .red .nil c .nil) ∨
      t = .node .black (.node .red .nil c .nil) r .nil := by
  rw [RB_iff] at hrb
  obtain ⟨hc, hv⟩ := hrb
  cases t with
  | nil => simp [Tree.size] at hsz
  | node col l a r =>
    simp only [color_node] at hc
    subst hc
    rw [Valid_node] at hv
    obtain ⟨-, hbh, hlv, hrv⟩ := hv
    simp only [Tree.size] at hsz
    cases l with
    | nil =>
      cases r with
      | nil => simp [Tree.size] at hsz
      | node cr rl c rr =>
        simp only [Tree.size] at hsz
        have hrl : rl = .nil := by
          cases rl with
          | nil => rfl
          | node _ _ _ _ => simp only [Tree.size] at hsz; omega
        have hrr : rr = .nil := by
          cases rr with
          | nil => rfl
          | node _ _ _ _ => simp only [Tree.size] at hsz; omega
        subst hrl hrr
        cases cr with
        | red => exact ⟨a, c, Or.inl rfl⟩
        | black => simp [Tree.bh, Color.bit] at hbh
    | node cl ll c lr =>
      cases r with
      | nil =>
        simp only [Tree.size] at hsz
        have hll : ll = .nil := by
          cases ll with
          | nil => rfl
          | node _ _ _ _ => simp only [Tree.size] at hsz; omega
        have hlr : lr = .nil := by
          cases lr with
          | nil => rfl
          | node _ _ _ _ => simp only [Tree.size] at hsz; omega
        subst hll hlr
        cases cl with
        | red => exact ⟨a, c, Or.inr rfl⟩
        | black => simp [Tree.bh, Color.bit] at hbh
      | node _ _ _ _ => simp only [Tree.size] at hsz; omega

theorem link_node_rcu_eq (s : State α) (node parent : Nat) (rb_link : Link) :
    chx_rb_link_node_rcu s node parent rb_link = chx_rb_link_node s node parent rb_link := rfl


/-! ## Replacement, insert-then-erase, empty nodes and roots -/

/-- Claim C21.  The state holds a red-black tree `t`, `v` is one of its nodes
and `w` is a non-null aligned node outside it.  After
`chx_rb_replace_node(v, w, root)` the state holds a tree that again has a black
root, no red node with a red child and equal black counts on all paths, that
has as many nodes as `t`, and whose in-order sequence is the one of `t` with
`w` in the place of `v`. -/
theorem replace_node_keeps_rb_and_order (s : State α) (t : Tree) (v w : Nat)
    (hwf : WF s t) (hrb : t.RB) (hv : v ∈ t.inorder) (hw0 : w ≠ 0) (hw4 : w % 4 = 0)
    (hfresh : w ∉ t.inorder) :
    ∃ t' A B, WF (chx_rb_replace_node s v w) t' ∧
      t'.color = .black ∧ t'.NoRedRed ∧ t'.EqualBlack ∧ t'.size = t.size ∧
      t.inorder = A ++ v :: B ∧ t'.inorder = A ++ w :: B := by
  obtain ⟨t', e1, e2, e3⟩ := replace_node_spec hwf hv hw0 hw4 hfresh
  obtain ⟨A, B, hAB⟩ := List.append_of_mem hv
  have hnd := hwf.2.2
  rw [hAB] at hnd
  have hvA : v ∉ A := fun hx =>
    (List.nodup_append.1 hnd).2.2 hx (List.mem_cons_self _ _)
  have hvB : v ∉ B := (List.nodup_cons.1 (List.nodup_append.1 hnd).2.1).1
  refine ⟨t', A, B, e1, (e3 hrb).1, (e3 hrb).2.1, (e3 hrb).2.2, ?_, hAB, ?_⟩
  · rw [← length_inorder, ← length_inorder t, e2, List.length_map]
  · rw [e2, hAB, List.map_append, List.map_cons, map_replace_not_mem A hvA,
      map_replace_not_mem B hvB, if_pos rfl]

theorem replace_node_keeps_rb_and_order_witness :
    WF demo_state demo_tree ∧ demo_tree.RB ∧
    ∃ t' A B, WF (chx_rb_replace_node demo_state 4 16) t' ∧
      t'.color = .black ∧ t'.NoRedRed ∧ t'.EqualBlack ∧ t'.size = demo_tree.size ∧
      demo_tree.inorder = A ++ 4 :: B ∧ t'.inorder = A ++ 16 :: B :=
  ⟨by decide, by decide,
    replace_node_keeps_rb_and_order demo_state demo_tree 4 16 (by decide) (by decide)
      (by decide) (by decide) (by decide) (by decide)⟩

/-- Claim C22.  The state holds a red-black tree `t` and `n` is a non-null
aligned node outside it.  Then `chx_rb_add(n, tree, less)` returns,
`chx_rb_erase(n, tree)` on the result returns, and the tree held afterwards has
the same in-order node sequence as `t`. -/
theorem add_then_erase_restores_inorder (less : Nat → Nat → Bool) (s : State α) (t : Tree)
    (n fuel : Nat) (hwf : WF s t) (hrb : t.RB) (hn0 : n ≠ 0) (hn4 : n % 4 = 0)
    (hfresh : n ∉ t.inorder) (hfuel : t.size < fuel) :
    ∃ s1 s2 t2, chx_rb_add less fuel s n = some s1 ∧ chx_rb_erase fuel s1 n = some s2 ∧
      WF s2 t2 ∧ t2.RB ∧ t2.inorder = t.inorder := by
  have hh := height_le_size t
  have hf1 : t.height < fuel := by omega
  obtain ⟨s1, t1, A, B, e1, e2, e3, e4, e5⟩ := add_at less hwf hrb hn0 hn4 hfresh hf1
  have hsz : t1.size = t.size + 1 := by
    rw [← length_inorder, ← length_inorder t, e5, e4]
    simp only [List.length_append, List.length_cons]
    omega
  have hh1 := height_le_size t1
  have hf2 : t1.height ≤ fuel := by omega
  have hn1 : n ∈ t1.inorder := by rw [e5]; simp
  obtain ⟨s2, t2, g1, g2, g3, g4⟩ := erase_spec e2 e3 hn1 hf2
  refine ⟨s1, s2, t2, e1, g1, g2, g3, ?_⟩
  have hnA : n ∉ A := fun hx => hfresh (by rw [e4]; exact List.mem_append_left _ hx)
  rw [g4, e5, erase_mid A B hnA, e4]

theorem add_then_erase_restores_inorder_witness :
    WF demo_state demo_tree ∧ demo_tree.RB ∧
    ∃ s1 s2 t2, chx_rb_add (less_func demo_key) 4 demo_state 16 = some s1 ∧
      chx_rb_erase 4 s1 16 = some s2 ∧ WF s2 t2 ∧ t2.RB ∧ t2.inorder = demo_tree.inorder :=
  ⟨by decide, by decide,
    add_then_erase_restores_inorder (less_func demo_key) demo_state demo_tree 16 4
      (by decide) (by decide) (by decide) (by decide) (by decide) (by decide)⟩

/-- Claim C23.  `CHX_RB_EMPTY_NODE` is true for every node right after
`CHX_RB_CLEAR_NODE`.  It is false for every node that is in a red-black tree,
or is added to it by one of a sequence of `chx_rb_add` and `chx_rb_erase`
calls, after the whole sequence has run, provided no call of the sequence
erases that node. -/
theorem empty_node_separates (less : Nat → Nat → Bool) (fuel : Nat) (s : State α) (t : Tree)
    (n : Nat) (ops : List TreeOp) (hwf : WF s t) (hrb : t.RB)
    (hops : OpsOK t.inorder ops) (hfuel : t.size + ops.length < fuel)
    (hin : n ∈ t.inorder ∨ TreeOp.add n ∈ ops) (hkeep : TreeOp.erase n ∉ ops) :
    (∀ (σ : State α) (x : Nat), CHX_RB_EMPTY_NODE (CHX_RB_CLEAR_NODE σ x) x = true) ∧
    ∃ s', apply_ops less fuel s ops = some s' ∧ CHX_RB_EMPTY_NODE s' n = false := by
  refine ⟨fun σ x => ?_, ?_⟩
  · simp [CHX_RB_EMPTY_NODE, CHX_RB_CLEAR_NODE, State.store_pc]
  · obtain ⟨s', t', e1, e2, -, e4⟩ := apply_ops_mem less fuel n ops s t hwf hrb hops hfuel hin hkeep
    exact ⟨s', e1, empty_node_false e2 e4⟩

theorem empty_node_separates_witness :
    WF demo_state demo_tree ∧ demo_tree.RB ∧
    OpsOK demo_tree.inorder [.add 16, .erase 4, .add 20] ∧
    (∀ (σ : State Unit) (x : Nat), CHX_RB_EMPTY_NODE (CHX_RB_CLEAR_NODE σ x) x = true) ∧
    ∃ s', apply_ops (less_func demo_key) 7 demo_state [.add 16, .erase 4, .add 20] = some s' ∧
      CHX_RB_EMPTY_NODE s' 16 = false :=
  ⟨by decide, by decide, by decide,
    empty_node_separates (less_func demo_key) 7 demo_state demo_tree 16
      [.add 16, .erase 4, .add 20] (by decide) (by decide) (by decide) (by decide)
      (Or.inr (by simp)) (by simp)⟩

/-- Claim C24.  On the root `CHX_RB_ROOT`, over any node memory,
`CHX_RB_EMPTY_ROOT` is true and `chx_rb_first`, `chx_rb_last`,
`chx_rb_first_postorder` and `chx_rb_find` with any key and any comparator
return `NULL`. -/
theorem empty_root_queries {κ : Type} (s : State α) (cmp : κ → Nat → Int) (key : κ)
    (fuel : Nat) :
    CHX_RB_EMPTY_ROOT (CHX_RB_ROOT s) = true ∧
    chx_rb_first fuel (CHX_RB_ROOT s) = some 0 ∧
    chx_rb_last fuel (CHX_RB_ROOT s) = some 0 ∧
    chx_rb_first_postorder fuel (CHX_RB_ROOT s) = some 0 ∧
    chx_rb_find cmp (fuel + 1) key (CHX_RB_ROOT s) = some 0 := by
  refine ⟨?_, ?_, ?_, ?_, ?_⟩
  · simp [CHX_RB_EMPTY_ROOT, CHX_RB_ROOT, State.store_root]
  · simp [chx_rb_first, CHX_RB_ROOT, State.store_root]
  · simp [chx_rb_last, CHX_RB_ROOT, State.store_root]
  · simp [chx_rb_first_postorder, CHX_RB_ROOT, State.store_root]
  · simp [chx_rb_find, chx_rb_find_loop, CHX_RB_ROOT, State.store_root]

/-- Claim C25.  The state holds a red-black tree with two nodes: its root and
one other node `c`, a red child of the root on either side.  Then
`chx_rb_erase` of the root returns, and afterwards the root handle points to
`c`, `c` is black, its parent is null and both its child links are null. -/
theorem erase_root_of_two_nodes (s : State α) (t : Tree) (c fuel : Nat)
    (hwf : WF s t) (hrb : t.RB) (hsz : t.size = 2) (hc : c ∈ t.inorder)
    (hcr : c ≠ s.rb_node) (hfuel : 2 ≤ fuel) :
    ∃ s', chx_rb_erase fuel s s.rb_node = some s' ∧ s'.rb_node = c ∧
      chx_rb_is_black s' c = true ∧ chx_rb_parent s' c = 0 ∧
      (s'.mem c).rb_left = 0 ∧ (s'.mem c).rb_right = 0 := by
  have key : ∀ r, s.rb_node = r → r ∈ t.inorder → t.height ≤ fuel →
      t.inorder.erase r = [c] →
      ∃ s', chx_rb_erase fuel s r = some s' ∧ s'.rb_node = c ∧
        chx_rb_is_black s' c = true ∧ chx_rb_parent s' c = 0 ∧
        (s'.mem c).rb_left = 0 ∧ (s'.mem c).rb_right = 0 := by
    intro r _ hr hh he
    obtain ⟨s', t', e1, e2, e3, e4⟩ := erase_spec hwf hrb hr hh
    rw [he] at e4
    obtain ⟨col, e⟩ := tree_of_singleton e4
    subst e
    have hcol : col = .black := e3.1
    subst hcol
    obtain ⟨h1, h2, -⟩ := e2
    obtain ⟨-, -, h5, h6, h7, -, -⟩ := h2
    refine ⟨s', e1, h1, ?_, ?_, h6, h7⟩
    · rw [is_black_of_word (by decide) h5]; rfl
    · rw [chx_rb_parent, h5]
      exact parent_of_word .black (by decide)
  obtain ⟨r, c', e | e⟩ := rb_two_nodes hrb hsz
  · subst e
    have hr : s.rb_node = r := hwf.1
    have hnd := hwf.2.2
    simp only [Tree.inorder, List.nil_append, List.append_nil, List.mem_cons,
      List.mem_singleton, List.not_mem_nil, or_false, List.nodup_cons, not_false_eq_true,
      List.nodup_nil, and_true] at hc hnd
    have hcc : c = c' := by
      rcases hc with h | h
      · exact absurd (h.trans hr.symm) hcr
      · exact h
    subst hcc
    rw [hr]
    exact key r hr (by simp [Tree.inorder]) (by simpa [Tree.height] using hfuel)
      (by simp [Tree.inorder])
  · subst e
    have hr : s.rb_node = r := hwf.1
    have hnd := hwf.2.2
    simp only [Tree.inorder, List.nil_append, List.append_nil, List.mem_cons,
      List.mem_singleton, List.not_mem_nil, or_false, List.nodup_cons, not_false_eq_true,
      List.nodup_nil, and_true, List.singleton_append] at hc hnd
    have hcc : c = c' := by
      rcases hc with h | h
      · exact h
      · exact absurd (h.trans hr.symm) hcr
    subst hcc
    have hne : c ≠ r := fun e => hnd e
    rw [hr]
    refine key r hr (by simp [Tree.inorder]) (by simpa [Tree.height] using hfuel) ?_
    simp only [Tree.inorder, List.nil_append, List.append_nil, List.singleton_append]
    rw [List.erase_cons_tail (by simpa using hne), List.erase_cons_head]

theorem erase_root_of_two_nodes_witness :
    WF demo_pair demo_pair_tree ∧ demo_pair_tree.RB ∧ demo_pair_tree.size = 2 ∧
    ∃ s', chx_rb_erase 2 demo_pair demo_pair.rb_node = some s' ∧ s'.rb_node = 12 ∧
      chx_rb_is_black s' 12 = true ∧ chx_rb_parent s' 12 = 0 ∧
      (s'.mem 12).rb_left = 0 ∧ (s'.mem 12).rb_right = 0 :=
  ⟨by decide, by decide, by decide,
    erase_root_of_two_nodes demo_pair demo_pair_tree 12 2 (by decide) (by decide) (by decide)
      (by decide) (by decide) (by decide)⟩

/-- Claim C26.  For any predicate `less` at all, if the state holds a
red-black tree `t` with consistent parent links and `n` is a non-null aligned
node outside it, `chx_rb_add(n, tree, less)` returns, and the tree held
afterwards again has a black root, no red node with a red child, equal black
counts on all paths and consistent parent links, and its nodes are `n` and the
nodes of `t`, each once. -/
theorem add_any_predicate_safe (less : Nat → Nat → Bool) (s : State α) (t : Tree)
    (n fuel : Nat) (hwf : WF s t) (hrb : t.RB) (hn0 : n ≠ 0) (hn4 : n % 4 = 0)
    (hfresh : n ∉ t.inorder) (hfuel : t.height < fuel) :
    ∃ s' t', chx_rb_add less fuel s n = some s' ∧ WF s' t' ∧
      t'.color = .black ∧ t'.NoRedRed ∧ t'.EqualBlack ∧ ParentLinked s' t'.inorder ∧
      (∀ x, x ∈ t'.inorder ↔ x = n ∨ x ∈ t.inorder) ∧ t'.inorder.Perm (n :: t.inorder) := by
  obtain ⟨s', t', e1, e2, e3, e4⟩ := add_rb less hwf hrb hn0 hn4 hfresh hfuel
  refine ⟨s', t', e1, e2, e3.1, e3.2.1, e3.2.2, e2.parentLinked, fun x => ?_, e4⟩
  rw [e4.mem_iff, List.mem_cons]

theorem add_any_predicate_safe_witness :
    WF demo_state demo_tree ∧ demo_tree.RB ∧
    ∃ s' t', chx_rb_add (fun a b => decide (a + b = 20)) 3 demo_state 16 = some s' ∧
      WF s' t' ∧ t'.color = .black ∧ t'.NoRedRed ∧ t'.EqualBlack ∧
      ParentLinked s' t'.inorder ∧
      (∀ x, x ∈ t'.inorder ↔ x = 16 ∨ x ∈ demo_tree.inorder) ∧
      t'.inorder.Perm (16 :: demo_tree.inorder) :=
  ⟨by decide, by decide,
    add_any_predicate_safe (fun a b => decide (a + b = 20)) demo_state demo_tree 16 3
      (by decide) (by decide) (by decide) (by decide) (by decide) (by decide)⟩


/-! ## The stores of `chx_rb_link_node` and `chx_rb_set_black` -/

/-- Claim C29.  `chx_rb_link_node(node, parent, slot)` is called with an
aligned `parent` and a `slot` that is not a child field of `node` itself.
Afterwards `node` is red, its parent is `parent`, both its child links are
null and `slot` holds `node`; at every other node the parent-and-colour word is
as before and so is each child field that is not `slot`; the root handle is as
before unless it is `slot`, and the augmented data are as before.
`chx_rb_link_node_rcu` yields the same state. -/
theorem link_node_frame (s : State α) (node parent : Nat) (slot : Link)
    (hp4 : parent % 4 = 0) (hl : slot ≠ .left node) (hr : slot ≠ .right node) :
    chx_rb_is_red (chx_rb_link_node s node parent slot) node = true ∧
    chx_rb_parent (chx_rb_link_node s node parent slot) node = parent ∧
    ((chx_rb_link_node s node parent slot).mem node).rb_left = 0 ∧
    ((chx_rb_link_node s node parent slot).mem node).rb_right = 0 ∧
    (chx_rb_link_node s node parent slot).load_link slot = node ∧
    (∀ x, x ≠ node →
      ((chx_rb_link_node s node parent slot).mem x).__rb_parent_color =
        (s.mem x).__rb_parent_color ∧
      (slot ≠ .left x →
        ((chx_rb_link_node s node parent slot).mem x).rb_left = (s.mem x).rb_left) ∧
      (slot ≠ .right x →
        ((chx_rb_link_node s node parent slot).mem x).rb_right = (s.mem x).rb_right)) ∧
    (slot ≠ .root → (chx_rb_link_node s node parent slot).rb_node = s.rb_node) ∧
    (chx_rb_link_node s node parent slot).aug = s.aug ∧
    chx_rb_link_node_rcu s node parent slot = chx_rb_link_node s node parent slot := by
  have hpar : parent - parent % 4 = parent := by omega
  have hcol : parent % 2 = 0 := by omega
  cases slot with
  | root =>
    refine ⟨?_, ?_, ?_, ?_, ?_, ?_, ?_, ?_, rfl⟩ <;>
      simp [chx_rb_link_node, chx_rb_is_red, chx_rb_parent, __chx_rb_is_red, __chx_rb_color,
        __chx_rb_parent, State.store_link, State.load_link, State.store_root, State.store_pc,
        State.store_left, State.store_right, hpar, hcol]
    intro x hx
    simp [hx]
  | left a =>
    have ha : a ≠ node := fun e => hl (by rw [e])
    refine ⟨?_, ?_, ?_, ?_, ?_, ?_, ?_, ?_, rfl⟩ <;>
      simp [chx_rb_link_node, chx_rb_is_red, chx_rb_parent, __chx_rb_is_red, __chx_rb_color,
        __chx_rb_parent, State.store_link, State.load_link, State.store_root, State.store_pc,
        State.store_left, State.store_right, hpar, hcol, ha, Ne.symm ha]
    intro x hx
    by_cases hxa : x = a
    · subst hxa
      simp [hx]
    · simp [hx, hxa, Ne.symm hxa]
  | right a =>
    have ha : a ≠ node := fun e => hr (by rw [e])
    refine ⟨?_, ?_, ?_, ?_, ?_, ?_, ?_, ?_, rfl⟩ <;>
      simp [chx_rb_link_node, chx_rb_is_red, chx_rb_parent, __chx_rb_is_red, __chx_rb_color,
        __chx_rb_parent, State.store_link, State.load_link, State.store_root, State.store_pc,
        State.store_left, State.store_right, hpar, hcol, ha, Ne.symm ha]
    intro x hx
    by_cases hxa : x = a
    · subst hxa
      simp [hx]
    · simp [hx, hxa, Ne.symm hxa]

theorem link_node_frame_witness :
    chx_rb_is_red (chx_rb_link_node demo_state 16 12 (.right 12)) 16 = true ∧
    chx_rb_parent (chx_rb_link_node demo_state 16 12 (.right 12)) 16 = 12 ∧
    ((chx_rb_link_node demo_state 16 12 (.right 12)).mem 16).rb_left = 0 ∧
    ((chx_rb_link_node demo_state 16 12 (.right 12)).mem 16).rb_right = 0 ∧
    (chx_rb_link_node demo_state 16 12 (.right 12)).load_link (.right 12) = 16 ∧
    (∀ x, x ≠ 16 →
      ((chx_rb_link_node demo_state 16 12 (.right 12)).mem x).__rb_parent_color =
        (demo_state.mem x).__rb_parent_color ∧
      (Link.right 12 ≠ .left x →
        ((chx_rb_link_node demo_state 16 12 (.right 12)).mem x).rb_left =
          (demo_state.mem x).rb_left) ∧
      (Link.right 12 ≠ .right x →
        ((chx_rb_link_node demo_state 16 12 (.right 12)).mem x).rb_right =
          (demo_state.mem x).rb_right)) ∧
    (Link.right 12 ≠ .root →
      (chx_rb_link_node demo_state 16 12 (.right 12)).rb_node = demo_state.rb_node) ∧
    (chx_rb_link_node demo_state 16 12 (.right 12)).aug = demo_state.aug ∧
    chx_rb_link_node_rcu demo_state 16 12 (.right 12) =
      chx_rb_link_node demo_state 16 12 (.right 12) :=
  link_node_frame demo_state 16 12 (.right 12) (by decide) (by decide) (by decide)

/-- Claim C30, as the code has it.  For every node `n` that reads as red,
after `chx_rb_set_black(n)` the colour bit of `n` is 1, `n` reads as black, and
`parent_of(n)` is unchanged. -/
theorem set_black_of_red (s : State α) (n : Nat) (hred : chx_rb_is_red s n = true) :
    chx_rb_color (chx_rb_set_black s n) n = 1 ∧
    chx_rb_is_black (chx_rb_set_black s n) n = true ∧
    chx_rb_parent (chx_rb_set_black s n) n = chx_rb_parent s n := by
  simp only [chx_rb_is_red, __chx_rb_is_red, __chx_rb_color, beq_iff_eq] at hred
  simp only [chx_rb_color, chx_rb_is_black, chx_rb_parent, chx_rb_set_black, __chx_rb_is_black,
    __chx_rb_color, __chx_rb_parent, State.store_pc, CHX_RB_BLACK, if_true, bne_iff_ne, ne_eq]
  generalize (s.mem n).__rb_parent_color = pc at hred
  refine ⟨by omega, by omega, by omega⟩

theorem set_black_of_red_witness :
    chx_rb_is_red demo_state 4 = true ∧
    chx_rb_color (chx_rb_set_black demo_state 4) 4 = 1 ∧
    chx_rb_is_black (chx_rb_set_black demo_state 4) 4 = true ∧
    chx_rb_parent (chx_rb_set_black demo_state 4) 4 = chx_rb_parent demo_state 4 :=
  ⟨by decide, set_black_of_red demo_state 4 (by decide)⟩

/-- Claim C30 as stated fails on a node that is already black: the root of the
example tree reads as black, and after `chx_rb_set_black` its colour bit is 0
and it reads as red. -/
theorem set_black_on_black_reads_red :
    chx_rb_is_black demo_state 8 = true ∧
    chx_rb_color (chx_rb_set_black demo_state 8) 8 = 0 ∧
    chx_rb_is_black (chx_rb_set_black demo_state 8) 8 = false := by
  decide


/-! ## Subtree maxima: the hooks and the invariant on abstract trees -/

section SummaryLemmas

variable {V : Type} [LinearOrder V]

theorem ite_gt_eq_max (a m : V) : (if a > m then a else m) = max m a := by
  rcases lt_trichotomy m a with h | h | h
  · rw [if_pos h, max_eq_right h.le]
  · subst h
    simp
  · rw [if_neg (not_lt.2 h.le), max_eq_left h.le]

/-- The value that `RBNAME##_compute_max` computes is `subtree_max`. -/
theorem compute_max_eq (v : Nat → V) (mem : Nat → chx_rb_node) (f : Nat → V) (node : Nat)
    (exit : Bool) :
    RBNAME_compute_max v mem f node exit =
      if exit = true ∧ f node = subtree_max v f node (mem node).rb_left (mem node).rb_right
      then (f, true)
      else (Function.update f node
        (subtree_max v f node (mem node).rb_left (mem node).rb_right), false) := by
  have key : (if (mem node).rb_right ≠ 0 then
        (if f (mem node).rb_right >
            (if (mem node).rb_left ≠ 0 then
              (if f (mem node).rb_left > v node then f (mem node).rb_left else v node)
            else v node)
          then f (mem node).rb_right
          else (if (mem node).rb_left ≠ 0 then
              (if f (mem node).rb_left > v node then f (mem node).rb_left else v node)
            else v node))
        else (if (mem node).rb_left ≠ 0 then
              (if f (mem node).rb_left > v node then f (mem node).rb_left else v node)
            else v node)) =
      subtree_max v f node (mem node).rb_left (mem node).rb_right := by
    unfold subtree_max
    simp only [ite_gt_eq_max]
    by_cases h1 : (mem node).rb_left = 0 <;> by_cases h2 : (mem node).rb_right = 0 <;>
      simp [h1, h2]
  unfold RBNAME_compute_max
  simp only [key]

theorem rotate_eq (v : Nat → V) {s : State (Augmented V)} {f : Nat → V} (old new : Nat)
    (h : s.aug = some f) :
    RBNAME_rotate v old new s =
      some (rotate_summaries v f old new (s.mem old).rb_left (s.mem old).rb_right) := by
  unfold RBNAME_rotate rotate_summaries
  rw [h]
  simp [compute_max_eq]

theorem copy_eq {s : State (Augmented V)} {f : Nat → V} (old new : Nat)
    (h : s.aug = some f) :
    (RBNAME_copy old new s : Augmented V) = some (Function.update f new (f old)) := by
  unfold RBNAME_copy
  rw [h]

theorem summary_node (f : Nat → V) (c : Color) (l r : Tree) (a : Nat) :
    (Tree.node c l a r).summary f = some (f a) := rfl

theorem summary_nil (f : Nat → V) : Tree.nil.summary f = none := rfl

/-- Reading the summary of a child through its address. -/
theorem summary_getD {m : Nat → chx_rb_node} {t : Tree} {par : Nat} (h : Rep m t par)
    (f : Nat → V) (d : V) :
    (if t.addr ≠ 0 then f t.addr else d) = (t.summary f).getD d := by
  cases t with
  | nil => simp [Tree.summary]
  | node c l a r => simp [Tree.summary, h.1]

theorem subtree_max_rep {m : Nat → chx_rb_node} {l r : Tree} {pl pr : Nat} (hl : Rep m l pl)
    (hr : Rep m r pr) (v f : Nat → V) (a : Nat) :
    subtree_max v f a l.addr r.addr =
      max (max (v a) ((l.summary f).getD (v a))) ((r.summary f).getD (v a)) := by
  unfold subtree_max
  rw [summary_getD hl, summary_getD hr]

/-! ### Frame properties -/

theorem summary_congr {f f' : Nat → V} :
    ∀ (t : Tree), (∀ x ∈ t.inorder, f' x = f x) → t.summary f' = t.summary f
  | .nil, _ => rfl
  | .node c l a r, h => by
    simp only [Tree.summary]
    rw [h a (by simp [Tree.inorder])]

theorem AugOK_congr {v f f' : Nat → V} :
    ∀ (t : Tree), (∀ x ∈ t.inorder, f' x = f x) → (AugOK v f' t ↔ AugOK v f t)
  | .nil, _ => Iff.rfl
  | .node c l a r, h => by
    simp only [Tree.inorder, List.mem_append, List.mem_cons] at h
    have hl : ∀ x ∈ l.inorder, f' x = f x := fun x hx => h x (Or.inl hx)
    have hr : ∀ x ∈ r.inorder, f' x = f x := fun x hx => h x (Or.inr (Or.inr hx))
    simp only [AugOK, AugOK_congr l hl, AugOK_congr r hr, summary_congr l hl,
      summary_congr r hr, h a (Or.inr (Or.inl rfl))]

theorem CtxAug_congr {v f f' : Nat → V} :
    ∀ (k : Ctx) (x : Option V), (∀ y ∈ ctxNodes k, f' y = f y) →
      (CtxAug v f' k x ↔ CtxAug v f k x)
  | [], _, _ => Iff.rfl
  | .left c a r :: k, x, h => by
    have ha : f' a = f a := h a (mem_ctxNodes_left.2 (Or.inl rfl))
    have hr : ∀ y ∈ r.inorder, f' y = f y := fun y hy =>
      h y (mem_ctxNodes_left.2 (Or.inr (Or.inl hy)))
    have hk : ∀ y ∈ ctxNodes k, f' y = f y := fun y hy =>
      h y (mem_ctxNodes_left.2 (Or.inr (Or.inr hy)))
    simp only [CtxAug, ha, AugOK_congr r hr, summary_congr r hr, CtxAug_congr k _ hk]
  | .right c l a :: k, x, h => by
    have ha : f' a = f a := h a (mem_ctxNodes_right.2 (Or.inl rfl))
    have hl : ∀ y ∈ l.inorder, f' y = f y := fun y hy =>
      h y (mem_ctxNodes_right.2 (Or.inr (Or.inl hy)))
    have hk : ∀ y ∈ ctxNodes k, f' y = f y := fun y hy =>
      h y (mem_ctxNodes_right.2 (Or.inr (Or.inr hy)))
    simp only [CtxAug, ha, AugOK_congr l hl, summary_congr l hl, CtxAug_congr k _ hk]

theorem AugOK_plug {v f : Nat → V} :
    ∀ (k : Ctx) (t : Tree), AugOK v f (plug k t) ↔ AugOK v f t ∧ CtxAug v f k (t.summary f)
  | [], t => by simp [plug, CtxAug]
  | .left c a r :: k, t => by
    rw [plug, AugOK_plug k]
    simp only [AugOK, CtxAug, Tree.summary]
    tauto
  | .right c l a :: k, t => by
    rw [plug, AugOK_plug k]
    simp only [AugOK, CtxAug, Tree.summary]
    tauto

theorem CtxAug.up {v f : Nat → V} : ∀ {k : Ctx} {x : Option V}, CtxAug v f k x → CtxAugUp v f k
  | [], _, _ => trivial
  | .left _ _ _ :: _, _, h => ⟨h.2.1, h.2.2⟩
  | .right _ _ _ :: _, _, h => ⟨h.2.1, h.2.2⟩

/-- On a represented tree the invariant on the abstract tree is the equation
of a subtree maximum at every node. -/
theorem AugOK_iff_heap {v f : Nat → V} {m : Nat → chx_rb_node} :
    ∀ (t : Tree) (par : Nat), Rep m t par →
      (AugOK v f t ↔ ∀ n ∈ t.inorder, summary_eq v m f n)
  | .nil, _, _ => by simp [AugOK, Tree.inorder]
  | .node c l a r, par, h => by
    obtain ⟨h1, h2, h3, h4, h5, h6, h7⟩ := h
    simp only [AugOK, Tree.inorder, List.mem_append, List.mem_cons, AugOK_iff_heap l a h6,
      AugOK_iff_heap r a h7]
    have ha : summary_eq v m f a ↔
        f a = max (max (v a) ((l.summary f).getD (v a))) ((r.summary f).getD (v a)) := by
      unfold summary_eq
      rw [h4, h5, subtree_max_rep h6 h7]
    constructor
    · rintro ⟨e1, e2, e3⟩ n (hn | hn | hn)
      · exact e2 n hn
      · subst hn
        exact ha.2 e1
      · exact e3 n hn
    · intro hall
      exact ⟨ha.1 (hall a (Or.inr (Or.inl rfl))), fun n hn => hall n (Or.inl hn),
        fun n hn => hall n (Or.inr (Or.inr hn))⟩

theorem AugInv_iff_heap {v : Nat → V} {s : State (Augmented V)} {t : Tree} (h : WF s t) :
    AugInv v s t ↔ MaxSummaries v s.mem t.inorder s.aug := by
  unfold AugInv
  cases hs : s.aug with
  | none => simp [MaxSummaries]
  | some f =>
    simp only [MaxSummaries, Option.some.injEq, exists_eq_left']
    exact AugOK_iff_heap t 0 h.2.1

end SummaryLemmas


/-! ## Subtree maxima: rotations -/

section RotationLemmas

variable {V : Type} [LinearOrder V]

/-- Replacing the subtree in the hole by one with the same summary, while the
summaries outside the old subtree stay as they are, keeps the invariant. -/
theorem AugOK_replace {v f f' : Nat → V} {k : Ctx} {T U : Tree}
    (hnd : (plug k T).inorder.Nodup) (hok : AugOK v f (plug k T))
    (hfr : ∀ x, x ∉ T.inorder → f' x = f x) (hU : AugOK v f' U)
    (hsum : U.summary f' = T.summary f) : AugOK v f' (plug k U) := by
  rw [AugOK_plug] at hok ⊢
  have hnd' := (inorder_plug_perm k T).nodup_iff.1 hnd
  refine ⟨hU, ?_⟩
  rw [hsum, CtxAug_congr k _
    (fun y hy => hfr y (fun hx => (List.nodup_append.1 hnd').2.2 hx hy))]
  exact hok.2

theorem max_rot_right (vg vp : V) (oa ob ou : Option V) :
    max (max vg (max (max vp (oa.getD vp)) (ob.getD vp))) (ou.getD vg) =
      max (max vp (oa.getD vp)) (max (max vg (ob.getD vg)) (ou.getD vg)) := by
  cases oa <;> cases ob <;> cases ou <;>
    simp only [Option.getD_none, Option.getD_some, max_self, max_assoc, max_comm,
      max_left_comm, sup_left_idem]

theorem max_rot_left (vg vp : V) (oa ob ou : Option V) :
    max (max vg (ou.getD vg)) (max (max vp (ob.getD vp)) (oa.getD vp)) =
      max (max vp (max (max vg (ou.getD vg)) (ob.getD vg))) (oa.getD vp) := by
  cases oa <;> cases ob <;> cases ou <;>
    simp only [Option.getD_none, Option.getD_some, max_self, max_assoc, max_comm,
      max_left_comm, sup_left_idem]

theorem rotate_summaries_ne {v f : Nat → V} {old new l r x : Nat} (h1 : x ≠ new)
    (h2 : x ≠ old) : rotate_summaries v f old new l r x = f x := by
  simp [rotate_summaries, Function.update, h1, h2]

theorem rotate_summaries_new {v f : Nat → V} {old new l r : Nat} (h : new ≠ old) :
    rotate_summaries v f old new l r new = f old := by
  simp [rotate_summaries, Function.update, h]

theorem rotate_summaries_old {v f : Nat → V} {old new l r : Nat} :
    rotate_summaries v f old new l r old =
      subtree_max v (Function.update f new (f old)) old l r := by
  simp [rotate_summaries, Function.update]

/-- A right rotation at `g` followed by the hook `rotate(g, p)` keeps the
invariant and the summary at the root of the rotated subtree. -/
theorem rot_right_aug {v f : Nat → V} {m : Nat → chx_rb_node} {c1 c2 : Color}
    (c3 c4 : Color) {A B U : Tree} {p g pb pu : Nat}
    (hok : AugOK v f (.node c1 (.node c2 A p B) g U))
    (hnd : (Tree.node c1 (.node c2 A p B) g U).inorder.Nodup)
    (hB : Rep m B pb) (hU : Rep m U pu) :
    AugOK v (rotate_summaries v f g p B.addr U.addr) (.node c3 A p (.node c4 B g U)) ∧
    rotate_summaries v f g p B.addr U.addr p = f g := by
  simp only [Tree.inorder, List.nodup_append, List.nodup_cons, List.disjoint_append_left,
    List.disjoint_append_right, List.disjoint_cons_left, List.disjoint_cons_right,
    List.mem_append, List.mem_cons, not_or] at hnd
  have hpg : p ≠ g := by
    first
    | exact (ne_pair (by simp only [hnd, not_false_eq_true])).1
    | exact (ne_pair (by simp only [hnd, not_false_eq_true])).2
  have hA : ∀ x ∈ A.inorder, x ≠ p ∧ x ≠ g := fun x hx =>
    ⟨fun e => by subst e; simp only [hnd, not_true_eq_false] at hx <;> tauto,
     fun e => by subst e; simp only [hnd, not_true_eq_false] at hx <;> tauto⟩
  have hBn : ∀ x ∈ B.inorder, x ≠ p ∧ x ≠ g := fun x hx =>
    ⟨fun e => by subst e; tauto, fun e => by subst e; tauto⟩
  have hUn : ∀ x ∈ U.inorder, x ≠ p ∧ x ≠ g := fun x hx =>
    ⟨fun e => by subst e; tauto, fun e => by subst e; tauto⟩
  obtain ⟨hg, ⟨hp, hAok, hBok⟩, hUok⟩ := hok
  simp only [summary_node, Option.getD_some] at hg
  have e1 : ∀ T : Tree, (∀ x ∈ T.inorder, x ≠ p ∧ x ≠ g) →
      ∀ x ∈ T.inorder, rotate_summaries v f g p B.addr U.addr x = f x := fun T hT x hx =>
    rotate_summaries_ne (hT x hx).1 (hT x hx).2
  have e2 : ∀ T : Tree, (∀ x ∈ T.inorder, x ≠ p ∧ x ≠ g) →
      ∀ x ∈ T.inorder, Function.update f p (f g) x = f x := fun T hT x hx => by
    simp [Function.update, (hT x hx).1]
  have hy : rotate_summaries v f g p B.addr U.addr g =
      max (max (v g) ((B.summary f).getD (v g))) ((U.summary f).getD (v g)) := by
    rw [rotate_summaries_old, subtree_max_rep hB hU, summary_congr B (e2 B hBn),
      summary_congr U (e2 U hUn)]
  refine ⟨⟨?_, (AugOK_congr A (e1 A hA)).2 hAok, ?_, (AugOK_congr B (e1 B hBn)).2 hBok,
    (AugOK_congr U (e1 U hUn)).2 hUok⟩, rotate_summaries_new hpg⟩
  · simp only [summary_node, Option.getD_some]
    rw [rotate_summaries_new hpg, hy, summary_congr A (e1 A hA), hg, hp]
    exact max_rot_right _ _ _ _ _
  · rw [hy, summary_congr B (e1 B hBn), summary_congr U (e1 U hUn)]

/-- A left rotation at `g` followed by the hook `rotate(g, p)` keeps the
invariant and the summary at the root of the rotated subtree. -/
theorem rot_left_aug {v f : Nat → V} {m : Nat → chx_rb_node} {c1 c2 : Color}
    (c3 c4 : Color) {A B U : Tree} {p g pb pu : Nat}
    (hok : AugOK v f (.node c1 U g (.node c2 B p A)))
    (hnd : (Tree.node c1 U g (.node c2 B p A)).inorder.Nodup)
    (hB : Rep m B pb) (hU : Rep m U pu) :
    AugOK v (rotate_summaries v f g p U.addr B.addr) (.node c3 (.node c4 U g B) p A) ∧
    rotate_summaries v f g p U.addr B.addr p = f g := by
  simp only [Tree.inorder, List.nodup_append, List.nodup_cons, List.disjoint_append_left,
    List.disjoint_append_right, List.disjoint_cons_left, List.disjoint_cons_right,
    List.mem_append, List.mem_cons, not_or] at hnd
  have hpg : p ≠ g := by
    first
    | exact (ne_pair (by simp only [hnd, not_false_eq_true])).1
    | exact (ne_pair (by simp only [hnd, not_false_eq_true])).2
  have hA : ∀ x ∈ A.inorder, x ≠ p ∧ x ≠ g := fun x hx =>
    ⟨fun e => by subst e; tauto, fun e => by subst e; tauto⟩
  have hBn : ∀ x ∈ B.inorder, x ≠ p ∧ x ≠ g := fun x hx =>
    ⟨fun e => by subst e; tauto, fun e => by subst e; tauto⟩
  have hUn : ∀ x ∈ U.inorder, x ≠ p ∧ x ≠ g := fun x hx =>
    ⟨fun e => by subst e; tauto, fun e => by subst e; tauto⟩
  obtain ⟨hg, hUok, hp, hBok, hAok⟩ := hok
  simp only [summary_node, Option.getD_some] at hg
  have e1 : ∀ T : Tree, (∀ x ∈ T.inorder, x ≠ p ∧ x ≠ g) →
      ∀ x ∈ T.inorder, rotate_summaries v f g p U.addr B.addr x = f x := fun T hT x hx =>
    rotate_summaries_ne (hT x hx).1 (hT x hx).2
  have e2 : ∀ T : Tree, (∀ x ∈ T.inorder, x ≠ p ∧ x ≠ g) →
      ∀ x ∈ T.inorder, Function.update f p (f g) x = f x := fun T hT x hx => by
    simp [Function.update, (hT x hx).1]
  have hy : rotate_summaries v f g p U.addr B.addr g =
      max (max (v g) ((U.summary f).getD (v g))) ((B.summary f).getD (v g)) := by
    rw [rotate_summaries_old, subtree_max_rep hU hB, summary_congr B (e2 B hBn),
      summary_congr U (e2 U hUn)]
  refine ⟨⟨?_, ⟨?_, (AugOK_congr U (e1 U hUn)).2 hUok, (AugOK_congr B (e1 B hBn)).2 hBok⟩,
    (AugOK_congr A (e1 A hA)).2 hAok⟩, rotate_summaries_new hpg⟩
  · simp only [summary_node, Option.getD_some]
    rw [rotate_summaries_new hpg, hy, summary_congr A (e1 A hA), hg, hp]
    exact max_rot_left _ _ _ _ _
  · rw [hy, summary_congr B (e1 B hBn), summary_congr U (e1 U hUn)]

/-- The right rotation inside a context. -/
theorem rot_right_ctx {v f : Nat → V} {m : Nat → chx_rb_node} {k : Ctx} {c1 c2 : Color}
    (c3 c4 : Color) {A B U : Tree} {p g pb pu : Nat}
    (hok : AugOK v f (plug k (.node c1 (.node c2 A p B) g U)))
    (hnd : (plug k (.node c1 (.node c2 A p B) g U)).inorder.Nodup)
    (hB : Rep m B pb) (hU : Rep m U pu) :
    AugOK v (rotate_summaries v f g p B.addr U.addr)
      (plug k (.node c3 A p (.node c4 B g U))) := by
  have hndT : (Tree.node c1 (.node c2 A p B) g U).inorder.Nodup :=
    (List.nodup_append.1 ((inorder_plug_perm k _).nodup_iff.1 hnd)).1
  obtain ⟨h1, h2⟩ := rot_right_aug c3 c4 ((AugOK_plug k _).1 hok).1 hndT hB hU
  refine AugOK_replace hnd hok (fun x hx => ?_) h1 ?_
  · simp only [Tree.inorder, List.mem_append, List.mem_cons, not_or] at hx
    exact rotate_summaries_ne (by tauto) (by tauto)
  · simp only [summary_node, h2]

/-- The left rotation inside a context. -/
theorem rot_left_ctx {v f : Nat → V} {m : Nat → chx_rb_node} {k : Ctx} {c1 c2 : Color}
    (c3 c4 : Color) {A B U : Tree} {p g pb pu : Nat}
    (hok : AugOK v f (plug k (.node c1 U g (.node c2 B p A))))
    (hnd : (plug k (.node c1 U g (.node c2 B p A))).inorder.Nodup)
    (hB : Rep m B pb) (hU : Rep m U pu) :
    AugOK v (rotate_summaries v f g p U.addr B.addr)
      (plug k (.node c3 (.node c4 U g B) p A)) := by
  have hndT : (Tree.node c1 U g (.node c2 B p A)).inorder.Nodup :=
    (List.nodup_append.1 ((inorder_plug_perm k _).nodup_iff.1 hnd)).1
  obtain ⟨h1, h2⟩ := rot_left_aug c3 c4 ((AugOK_plug k _).1 hok).1 hndT hB hU
  refine AugOK_replace hnd hok (fun x hx => ?_) h1 ?_
  · simp only [Tree.inorder, List.mem_append, List.mem_cons, not_or] at hx
    exact rotate_summaries_ne (by tauto) (by tauto)
  · simp only [summary_node, h2]

/-- The invariant does not read colours. -/
theorem AugOK_recolor {v f : Nat → V} {k : Ctx} {T U : Tree}
    (hok : AugOK v f (plug k T)) (hU : AugOK v f T → AugOK v f U)
    (hsum : U.summary f = T.summary f) : AugOK v f (plug k U) := by
  rw [AugOK_plug] at hok ⊢
  exact ⟨hU hok.1, hsum ▸ hok.2⟩

end RotationLemmas


/-! ## Subtree maxima: the rotation blocks of the fix-up loops -/

/-! ### The stores leave the augmented data alone -/

@[simp] theorem store_pc_aug (s : State α) (a v : Nat) : (s.store_pc a v).aug = s.aug := rfl

@[simp] theorem store_left_aug (s : State α) (a v : Nat) : (s.store_left a v).aug = s.aug := rfl

@[simp] theorem store_right_aug (s : State α) (a v : Nat) :
    (s.store_right a v).aug = s.aug := rfl

@[simp] theorem store_root_aug (s : State α) (v : Nat) : (s.store_root v).aug = s.aug := rfl

@[simp] theorem set_parent_color_aug (s : State α) (rb p c : Nat) :
    (chx_rb_set_parent_color s rb p c).aug = s.aug := rfl

@[simp] theorem set_parent_aug (s : State α) (rb p : Nat) :
    (chx_rb_set_parent s rb p).aug = s.aug := rfl

@[simp] theorem set_black_aug (s : State α) (rb : Nat) : (chx_rb_set_black s rb).aug = s.aug :=
  rfl

@[simp] theorem change_child_aug (s : State α) (old new parent : Nat) :
    (__chx_rb_change_child s old new parent).aug = s.aug := by
  unfold __chx_rb_change_child
  split_ifs <;> rfl

@[simp] theorem rotate_set_parents_aug (s : State α) (old new color : Nat) :
    (__chx_rb_rotate_set_parents s old new color).aug = s.aug := by
  unfold __chx_rb_rotate_set_parents
  simp

@[simp] theorem call_aug (s : State α) (f : Callback α) (a b : Nat) :
    (s.call f a b).aug = f a b s := rfl

theorem call_aug_eq (σ : State α) (rot : Callback α) (a b : Nat) (x : α) (h : σ.aug = x) :
    (σ.call rot a b).aug = rot a b ⟨(σ.call rot a b).mem, (σ.call rot a b).rb_node, x⟩ := by
  subst h
  rfl

/-- The blocks that end with the hook: the augmented data afterwards are what
the hook yields on the final memory. -/
theorem insert_case3_left_aug_eq (rot : Callback α) (s : State α) (g p tmp : Nat) :
    (insert_case3_left rot s g p tmp).aug =
      rot g p ⟨(insert_case3_left rot s g p tmp).mem,
        (insert_case3_left rot s g p tmp).rb_node, s.aug⟩ := by
  unfold insert_case3_left
  exact call_aug_eq _ _ _ _ _ (by split_ifs <;> simp)

theorem insert_case3_right_aug_eq (rot : Callback α) (s : State α) (g p tmp : Nat) :
    (insert_case3_right rot s g p tmp).aug =
      rot g p ⟨(insert_case3_right rot s g p tmp).mem,
        (insert_case3_right rot s g p tmp).rb_node, s.aug⟩ := by
  unfold insert_case3_right
  exact call_aug_eq _ _ _ _ _ (by split_ifs <;> simp)

theorem erase_case1_left_aug_eq (rot : Callback α) (s : State α) (p sx : Nat) :
    (erase_case1_left rot s p sx).1.aug =
      rot p sx ⟨(erase_case1_left rot s p sx).1.mem,
        (erase_case1_left rot s p sx).1.rb_node, s.aug⟩ := by
  unfold erase_case1_left
  exact call_aug_eq _ _ _ _ _ (by simp)

theorem erase_case1_right_aug_eq (rot : Callback α) (s : State α) (p sx : Nat) :
    (erase_case1_right rot s p sx).1.aug =
      rot p sx ⟨(erase_case1_right rot s p sx).1.mem,
        (erase_case1_right rot s p sx).1.rb_node, s.aug⟩ := by
  unfold erase_case1_right
  exact call_aug_eq _ _ _ _ _ (by simp)

theorem erase_case4_left_aug_eq (rot : Callback α) (s : State α) (p sx tmp1 : Nat) :
    (erase_case4_left rot s p sx tmp1).aug =
      rot p sx ⟨(erase_case4_left rot s p sx tmp1).mem,
        (erase_case4_left rot s p sx tmp1).rb_node, s.aug⟩ := by
  unfold erase_case4_left
  exact call_aug_eq _ _ _ _ _ (by split_ifs <;> simp)

theorem erase_case4_right_aug_eq (rot : Callback α) (s : State α) (p sx tmp1 : Nat) :
    (erase_case4_right rot s p sx tmp1).aug =
      rot p sx ⟨(erase_case4_right rot s p sx tmp1).mem,
        (erase_case4_right rot s p sx tmp1).rb_node, s.aug⟩ := by
  unfold erase_case4_right
  exact call_aug_eq _ _ _ _ _ (by split_ifs <;> simp)

section FirstRotations

variable {V : Type} [LinearOrder V]

/-- Case 2 of the insert fix-up runs its hook while the children of `parent`
are its old left child and the old left child of `node`. -/
theorem insert_case2_left_aug_eq (v : Nat → V) {s : State (Augmented V)} {f : Nat → V}
    {n p : Nat} (hf : s.aug = some f) (hnp : n ≠ p) :
    (insert_case2_left (RBNAME_rotate v) s n p).1.aug =
      some (rotate_summaries v f p n (s.mem p).rb_left (s.mem n).rb_left) := by
  unfold insert_case2_left
  simp only [State.call]
  rw [rotate_eq v p n (f := f) (by split_ifs <;> exact hf)]
  congr 2 <;> split_ifs <;>
    simp [chx_rb_set_parent_color, Ne.symm hnp]

theorem insert_case2_right_aug_eq (v : Nat → V) {s : State (Augmented V)} {f : Nat → V}
    {n p : Nat} (hf : s.aug = some f) (hnp : n ≠ p) :
    (insert_case2_right (RBNAME_rotate v) s n p).1.aug =
      some (rotate_summaries v f p n (s.mem n).rb_right (s.mem p).rb_right) := by
  unfold insert_case2_right
  simp only [State.call]
  rw [rotate_eq v p n (f := f) (by split_ifs <;> exact hf)]
  congr 2 <;> split_ifs <;>
    simp [chx_rb_set_parent_color, Ne.symm hnp]

/-- Case 3 of the erase fix-up runs its hook while the children of `sibling`
are the old right child of `tmp2` and its own old right child. -/
theorem erase_case3_left_aug_eq (v : Nat → V) {s : State (Augmented V)} {f : Nat → V}
    {p sx sl : Nat} (hf : s.aug = some f) (h1 : sl ≠ sx) (h2 : p ≠ sx) :
    (erase_case3_left (RBNAME_rotate v) s p sx sl).aug =
      some (rotate_summaries v f sx sl (s.mem sl).rb_right (s.mem sx).rb_right) := by
  unfold erase_case3_left
  simp only [State.call]
  rw [rotate_eq v sx sl (f := f) (by split_ifs <;> exact hf)]
  congr 2 <;> split_ifs <;>
    simp [chx_rb_set_parent_color, Ne.symm h1, Ne.symm h2]

theorem erase_case3_right_aug_eq (v : Nat → V) {s : State (Augmented V)} {f : Nat → V}
    {p sx sr : Nat} (hf : s.aug = some f) (h1 : sr ≠ sx) (h2 : p ≠ sx) :
    (erase_case3_right (RBNAME_rotate v) s p sx sr).aug =
      some (rotate_summaries v f sx sr (s.mem sx).rb_left (s.mem sr).rb_left) := by
  unfold erase_case3_right
  simp only [State.call]
  rw [rotate_eq v sx sr (f := f) (by split_ifs <;> exact hf)]
  congr 2 <;> split_ifs <;>
    simp [chx_rb_set_parent_color, Ne.symm h1, Ne.symm h2]

end FirstRotations

/-- Child links and subtrees of the node in the hole of a context. -/
theorem WF_node_mem {s : State α} {k : Ctx} {c : Color} {l r : Tree} {a : Nat}
    (h : WF s (plug k (.node c l a r))) :
    (s.mem a).rb_left = l.addr ∧ (s.mem a).rb_right = r.addr ∧ Rep s.mem l a ∧
      Rep s.mem r a := by
  obtain ⟨-, hT, -⟩ := WF_plug'.1 h
  exact ⟨hT.2.2.2.1, hT.2.2.2.2.1, hT.2.2.2.2.2.1, hT.2.2.2.2.2.2⟩

section Blocks

variable {V : Type} [LinearOrder V]

theorem rotate_final (v : Nat → V) {σ : State (Augmented V)} {a : Augmented V} {f : Nat → V}
    {old new l r : Nat} (ha : a = some f) (hl : (σ.mem old).rb_left = l)
    (hr : (σ.mem old).rb_right = r) :
    RBNAME_rotate v old new ⟨σ.mem, σ.rb_node, a⟩ = some (rotate_summaries v f old new l r) := by
  subst hl hr
  exact rotate_eq v old new ha

theorem insert_case3_left_aug (v : Nat → V) {s : State (Augmented V)} {k : Ctx}
    {cg cp : Color} {N B U : Tree} {p g : Nat}
    (h : WF s (plug k (.node cg (.node cp N p B) g U)))
    (hB : B.color = .black)
    (hJ : AugInv v s (plug k (.node cg (.node cp N p B) g U))) :
    AugInv v (insert_case3_left (RBNAME_rotate v) s g p B.addr)
      (plug k (.node cg N p (.node .red B g U))) := by
  obtain ⟨f, hf, hok⟩ := hJ
  have hs := insert_case3_left_spec (RBNAME_rotate v) h hB
  obtain ⟨hl, hr, -, -⟩ := WF_node_mem
    (show WF _ (plug (.right cg N p :: k) (.node .red B g U)) from hs)
  obtain ⟨-, -, -, hRB⟩ := WF_node_mem
    (show WF s (plug (.left cg g U :: k) (.node cp N p B)) from h)
  obtain ⟨-, -, -, hRU⟩ := WF_node_mem h
  refine ⟨rotate_summaries v f g p B.addr U.addr, ?_, rot_right_ctx cg .red hok h.2.2 hRB hRU⟩
  rw [insert_case3_left_aug_eq]
  exact rotate_final v hf hl hr

theorem insert_case3_right_aug (v : Nat → V) {s : State (Augmented V)} {k : Ctx}
    {cg cp : Color} {N B U : Tree} {p g : Nat}
    (h : WF s (plug k (.node cg U g (.node cp B p N))))
    (hB : B.color = .black)
    (hJ : AugInv v s (plug k (.node cg U g (.node cp B p N)))) :
    AugInv v (insert_case3_right (RBNAME_rotate v) s g p B.addr)
      (plug k (.node cg (.node .red U g B) p N)) := by
  obtain ⟨f, hf, hok⟩ := hJ
  have hs := insert_case3_right_spec (RBNAME_rotate v) h hB
  obtain ⟨hl, hr, -, -⟩ := WF_node_mem
    (show WF _ (plug (.left cg p N :: k) (.node .red U g B)) from hs)
  obtain ⟨-, -, hRB, -⟩ := WF_node_mem
    (show WF s (plug (.right cg U g :: k) (.node cp B p N)) from h)
  obtain ⟨-, -, hRU, -⟩ := WF_node_mem h
  refine ⟨rotate_summaries v f g p U.addr B.addr, ?_, rot_left_ctx cg .red hok h.2.2 hRB hRU⟩
  rw [insert_case3_right_aug_eq]
  exact rotate_final v hf hl hr

theorem erase_case1_left_aug (v : Nat → V) {s : State (Augmented V)} {k : Ctx}
    {cp cs csl : Color} {N Sll Slr Sr : Tree} {p sx sl : Nat}
    (h : WF s (plug k (.node cp N p (.node cs (.node csl Sll sl Slr) sx Sr))))
    (hJ : AugInv v s (plug k (.node cp N p (.node cs (.node csl Sll sl Slr) sx Sr)))) :
    AugInv v (erase_case1_left (RBNAME_rotate v) s p sx).1
      (plug k (.node cp (.node .red N p (.node .black Sll sl Slr)) sx Sr)) := by
  obtain ⟨f, hf, hok⟩ := hJ
  have hs := erase_case1_left_spec (RBNAME_rotate v) h
  obtain ⟨hl, hr, -, -⟩ := WF_node_mem
    (show WF _ (plug (.left cp sx Sr :: k) (.node .red N p (.node .black Sll sl Slr))) from hs)
  obtain ⟨-, -, hRB, -⟩ := WF_node_mem
    (show WF s (plug (.right cp N p :: k) (.node cs (.node csl Sll sl Slr) sx Sr)) from h)
  obtain ⟨-, -, hRU, -⟩ := WF_node_mem h
  refine ⟨rotate_summaries v f p sx N.addr (Tree.node csl Sll sl Slr).addr, ?_,
    AugOK_recolor (rot_left_ctx cp .red hok h.2.2 hRB hRU) (fun h => h) rfl⟩
  rw [erase_case1_left_aug_eq]
  exact rotate_final v hf hl hr

theorem erase_case1_right_aug (v : Nat → V) {s : State (Augmented V)} {k : Ctx}
    {cp cs csr : Color} {N Srl Srr Sl : Tree} {p sx sr : Nat}
    (h : WF s (plug k (.node cp (.node cs Sl sx (.node csr Srl sr Srr)) p N)))
    (hJ : AugInv v s (plug k (.node cp (.node cs Sl sx (.node csr Srl sr Srr)) p N))) :
    AugInv v (erase_case1_right (RBNAME_rotate v) s p sx).1
      (plug k (.node cp Sl sx (.node .red (.node .black Srl sr Srr) p N))) := by
  obtain ⟨f, hf, hok⟩ := hJ
  have hs := erase_case1_right_spec (RBNAME_rotate v) h
  obtain ⟨hl, hr, -, -⟩ := WF_node_mem
    (show WF _ (plug (.right cp Sl sx :: k) (.node .red (.node .black Srl sr Srr) p N)) from hs)
  obtain ⟨-, -, -, hRB⟩ := WF_node_mem
    (show WF s (plug (.left cp p N :: k) (.node cs Sl sx (.node csr Srl sr Srr))) from h)
  obtain ⟨-, -, -, hRU⟩ := WF_node_mem h
  refine ⟨rotate_summaries v f p sx (Tree.node csr Srl sr Srr).addr N.addr, ?_,
    AugOK_recolor (rot_right_ctx cp .red hok h.2.2 hRB hRU) (fun h => h) rfl⟩
  rw [erase_case1_right_aug_eq]
  exact rotate_final v hf hl hr

theorem erase_case4_left_aug (v : Nat → V) {s : State (Augmented V)} {k : Ctx}
    {c cs csr : Color} {N Sl Srl Srr : Tree} {p sx sr : Nat}
    (h : WF s (plug k (.node c N p (.node cs Sl sx (.node csr Srl sr Srr)))))
    (hJ : AugInv v s (plug k (.node c N p (.node cs Sl sx (.node csr Srl sr Srr))))) :
    AugInv v (erase_case4_left (RBNAME_rotate v) s p sx sr)
      (plug k (.node c (.node .black N p Sl) sx (.node .black Srl sr Srr))) := by
  obtain ⟨f, hf, hok⟩ := hJ
  have hs := erase_case4_left_spec (RBNAME_rotate v) h
  obtain ⟨hl, hr, -, -⟩ := WF_node_mem
    (show WF _ (plug (.left c sx (.node .black Srl sr Srr) :: k) (.node .black N p Sl)) from hs)
  obtain ⟨-, -, hRB, -⟩ := WF_node_mem
    (show WF s (plug (.right c N p :: k) (.node cs Sl sx (.node csr Srl sr Srr))) from h)
  obtain ⟨-, -, hRU, -⟩ := WF_node_mem h
  refine ⟨rotate_summaries v f p sx N.addr Sl.addr, ?_,
    AugOK_recolor (rot_left_ctx c .black hok h.2.2 hRB hRU) (fun h => h) rfl⟩
  rw [erase_case4_left_aug_eq]
  exact rotate_final v hf hl hr

theorem erase_case4_right_aug (v : Nat → V) {s : State (Augmented V)} {k : Ctx}
    {c cs csl : Color} {N Sr Sll Slr : Tree} {p sx sl : Nat}
    (h : WF s (plug k (.node c (.node cs (.node csl Sll sl Slr) sx Sr) p N)))
    (hJ : AugInv v s (plug k (.node c (.node cs (.node csl Sll sl Slr) sx Sr) p N))) :
    AugInv v (erase_case4_right (RBNAME_rotate v) s p sx sl)
      (plug k (.node c (.node .black Sll sl Slr) sx (.node .black Sr p N))) := by
  obtain ⟨f, hf, hok⟩ := hJ
  have hs := erase_case4_right_spec (RBNAME_rotate v) h
  obtain ⟨hl, hr, -, -⟩ := WF_node_mem
    (show WF _ (plug (.right c (.node .black Sll sl Slr) sx :: k) (.node .black Sr p N)) from hs)
  obtain ⟨-, -, -, hRB⟩ := WF_node_mem
    (show WF s (plug (.left c p N :: k) (.node cs (.node csl Sll sl Slr) sx Sr)) from h)
  obtain ⟨-, -, -, hRU⟩ := WF_node_mem h
  refine ⟨rotate_summaries v f p sx Sr.addr N.addr, ?_,
    AugOK_recolor (rot_right_ctx c .black hok h.2.2 hRB hRU) (fun h => h) rfl⟩
  rw [erase_case4_right_aug_eq]
  exact rotate_final v hf hl hr

theorem insert_case23_left_aug (v : Nat → V) {s : State (Augmented V)} {k : Ctx}
    {cg cp cn : Color} {A Nl Nr U : Tree} {p g n : Nat}
    (h : WF s (plug k (.node cg (.node cp A p (.node cn Nl n Nr)) g U)))
    (hNl : Nl.color = .black) (hNr : Nr.color = .black)
    (hJ : AugInv v s (plug k (.node cg (.node cp A p (.node cn Nl n Nr)) g U))) :
    AugInv v (insert_case3_left (RBNAME_rotate v) (insert_case2_left (RBNAME_rotate v) s n p).1
      g n (insert_case2_left (RBNAME_rotate v) s n p).2)
      (plug k (.node cg (.node .red A p Nl) n (.node .red Nr g U))) := by
  obtain ⟨f, hf, hok⟩ := hJ
  have hs := insert_case23_left_spec (RBNAME_rotate v) h hNl hNr
  have hnd0 := (WF_plug'.1 h).2.2
  simp only [Tree.inorder, List.nodup_append, List.nodup_cons, List.disjoint_append_left,
    List.disjoint_append_right, List.disjoint_cons_left, List.disjoint_cons_right,
    List.mem_append, List.mem_cons, not_or] at hnd0
  have hnp : n ≠ p := by
    first
    | exact (ne_pair (by simp only [hnd0, not_false_eq_true])).1
    | exact (ne_pair (by simp only [hnd0, not_false_eq_true])).2
  obtain ⟨hl, hr, -, -⟩ := WF_node_mem
    (show WF _ (plug (.right cg (.node .red A p Nl) n :: k) (.node .red Nr g U)) from hs)
  obtain ⟨hpl, -, hRA, -⟩ := WF_node_mem
    (show WF s (plug (.left cg g U :: k) (.node cp A p (.node cn Nl n Nr))) from h)
  obtain ⟨hnl, -, hRNl, hRNr⟩ := WF_node_mem
    (show WF s (plug (.right cp A p :: .left cg g U :: k) (.node cn Nl n Nr)) from h)
  obtain ⟨-, -, -, hRU⟩ := WF_node_mem h
  have haug1 := insert_case2_left_aug_eq v hf hnp
  rw [hpl, hnl] at haug1
  have hok1 : AugOK v (rotate_summaries v f p n A.addr Nl.addr)
      (plug k (.node cg (.node cn (.node .red A p Nl) n Nr) g U)) :=
    rot_left_ctx (k := .left cg g U :: k) cn .red hok h.2.2 hRNl hRA
  have hnd1 : (plug k (.node cg (.node cn (.node .red A p Nl) n Nr) g U)).inorder.Nodup := by
    simpa [inorder_plug, Tree.inorder] using h.2.2
  refine ⟨rotate_summaries v (rotate_summaries v f p n A.addr Nl.addr) g n Nr.addr U.addr, ?_,
    rot_right_ctx cg .red hok1 hnd1 hRNr hRU⟩
  rw [insert_case3_left_aug_eq]
  exact rotate_final v haug1 hl hr

theorem insert_case23_right_aug (v : Nat → V) {s : State (Augmented V)} {k : Ctx}
    {cg cp cn : Color} {A Nl Nr U : Tree} {p g n : Nat}
    (h : WF s (plug k (.node cg U g (.node cp (.node cn Nl n Nr) p A))))
    (hNl : Nl.color = .black) (hNr : Nr.color = .black)
    (hJ : AugInv v s (plug k (.node cg U g (.node cp (.node cn Nl n Nr) p A)))) :
    AugInv v (insert_case3_right (RBNAME_rotate v)
      (insert_case2_right (RBNAME_rotate v) s n p).1
      g n (insert_case2_right (RBNAME_rotate v) s n p).2)
      (plug k (.node cg (.node .red U g Nl) n (.node .red Nr p A))) := by
  obtain ⟨f, hf, hok⟩ := hJ
  have hs := insert_case23_right_spec (RBNAME_rotate v) h hNl hNr
  have hnd0 := (WF_plug'.1 h).2.2
  simp only [Tree.inorder, List.nodup_append, List.nodup_cons, List.disjoint_append_left,
    List.disjoint_append_right, List.disjoint_cons_left, List.disjoint_cons_right,
    List.mem_append, List.mem_cons, not_or] at hnd0
  have hnp : n ≠ p := by
    first
    | exact (ne_pair (by simp only [hnd0, not_false_eq_true])).1
    | exact (ne_pair (by simp only [hnd0, not_false_eq_true])).2
  obtain ⟨hl, hr, -, -⟩ := WF_node_mem
    (show WF _ (plug (.left cg n (.node .red Nr p A) :: k) (.node .red U g Nl)) from hs)
  obtain ⟨-, hpr, -, hRA⟩ := WF_node_mem
    (show WF s (plug (.right cg U g :: k) (.node cp (.node cn Nl n Nr) p A)) from h)
  obtain ⟨-, hnr, hRNl, hRNr⟩ := WF_node_mem
    (show WF s (plug (.left cp p A :: .right cg U g :: k) (.node cn Nl n Nr)) from h)
  obtain ⟨-, -, hRU, -⟩ := WF_node_mem h
  have haug1 := insert_case2_right_aug_eq v hf hnp
  rw [hpr, hnr] at haug1
  have hok1 : AugOK v (rotate_summaries v f p n Nr.addr A.addr)
      (plug k (.node cg U g (.node cn Nl n (.node .red Nr p A)))) :=
    rot_right_ctx (k := .right cg U g :: k) cn .red hok h.2.2 hRNr hRA
  have hnd1 : (plug k (.node cg U g (.node cn Nl n (.node .red Nr p A)))).inorder.Nodup := by
    simpa [inorder_plug, Tree.inorder] using h.2.2
  refine ⟨rotate_summaries v (rotate_summaries v f p n Nr.addr A.addr) g n U.addr Nl.addr, ?_,
    rot_left_ctx cg .red hok1 hnd1 hRNl hRU⟩
  rw [insert_case3_right_aug_eq]
  exact rotate_final v haug1 hl hr

theorem erase_case34_left_aug (v : Nat → V) {s : State (Augmented V)} {k : Ctx}
    {c cs csl : Color} {N Sll Slr Sr : Tree} {p sx sl : Nat}
    (h : WF s (plug k (.node c N p (.node cs (.node csl Sll sl Slr) sx Sr))))
    (hSlr : Slr.color = .black)
    (hJ : AugInv v s (plug k (.node c N p (.node cs (.node csl Sll sl Slr) sx Sr)))) :
    AugInv v (erase_case4_left (RBNAME_rotate v)
      (erase_case3_left (RBNAME_rotate v) s p sx sl) p sl sx)
      (plug k (.node c (.node .black N p Sll) sl (.node .black Slr sx Sr))) := by
  obtain ⟨f, hf, hok⟩ := hJ
  have hs := erase_case34_left_spec (RBNAME_rotate v) h hSlr
  have hnd0 := (WF_plug'.1 h).2.2
  simp only [Tree.inorder, List.nodup_append, List.nodup_cons, List.disjoint_append_left,
    List.disjoint_append_right, List.disjoint_cons_left, List.disjoint_cons_right,
    List.mem_append, List.mem_cons, not_or] at hnd0
  have h1 : sl ≠ sx := by
    first
    | exact (ne_pair (by simp only [hnd0, not_false_eq_true])).1
    | exact (ne_pair (by simp only [hnd0, not_false_eq_true])).2
  have h2 : p ≠ sx := by
    first
    | exact (ne_pair (by simp only [hnd0, not_false_eq_true])).1
    | exact (ne_pair (by simp only [hnd0, not_false_eq_true])).2
  obtain ⟨hl, hr, -, -⟩ := WF_node_mem
    (show WF _ (plug (.left c sl (.node .black Slr sx Sr) :: k) (.node .black N p Sll)) from hs)
  obtain ⟨-, hsxr, -, hRSr⟩ := WF_node_mem
    (show WF s (plug (.right c N p :: k) (.node cs (.node csl Sll sl Slr) sx Sr)) from h)
  obtain ⟨-, hslr, hRSll, hRSlr⟩ := WF_node_mem
    (show WF s (plug (.left cs sx Sr :: .right c N p :: k) (.node csl Sll sl Slr)) from h)
  obtain ⟨-, -, hRN, -⟩ := WF_node_mem h
  have haug1 := erase_case3_left_aug_eq v hf h1 h2
  rw [hsxr, hslr] at haug1
  have hok1 : AugOK v (rotate_summaries v f sx sl Slr.addr Sr.addr)
      (plug k (.node c N p (.node csl Sll sl (.node .black Slr sx Sr)))) :=
    rot_right_ctx (k := .right c N p :: k) csl .black hok h.2.2 hRSlr hRSr
  have hnd1 : (plug k (.node c N p (.node csl Sll sl (.node .black Slr sx Sr)))).inorder.Nodup := by
    simpa [inorder_plug, Tree.inorder] using h.2.2
  refine ⟨rotate_summaries v (rotate_summaries v f sx sl Slr.addr Sr.addr) p sl N.addr Sll.addr,
    ?_, rot_left_ctx c .black hok1 hnd1 hRSll hRN⟩
  rw [erase_case4_left_aug_eq]
  exact rotate_final v haug1 hl hr

theorem erase_case34_right_aug (v : Nat → V) {s : State (Augmented V)} {k : Ctx}
    {c cs csr : Color} {N Sl Srl Srr : Tree} {p sx sr : Nat}
    (h : WF s (plug k (.node c (.node cs Sl sx (.node csr Srl sr Srr)) p N)))
    (hSrl : Srl.color = .black)
    (hJ : AugInv v s (plug k (.node c (.node cs Sl sx (.node csr Srl sr Srr)) p N))) :
    AugInv v (erase_case4_right (RBNAME_rotate v)
      (erase_case3_right (RBNAME_rotate v) s p sx sr) p sr sx)
      (plug k (.node c (.node .black Sl sx Srl) sr (.node .black Srr p N))) := by
  obtain ⟨f, hf, hok⟩ := hJ
  have hs := erase_case34_right_spec (RBNAME_rotate v) h hSrl
  have hnd0 := (WF_plug'.1 h).2.2
  simp only [Tree.inorder, List.nodup_append, List.nodup_cons, List.disjoint_append_left,
    List.disjoint_append_right, List.disjoint_cons_left, List.disjoint_cons_right,
    List.mem_append, List.mem_cons, not_or] at hnd0
  have h1 : sr ≠ sx := by
    first
    | exact (ne_pair (by simp only [hnd0, not_false_eq_true])).1
    | exact (ne_pair (by simp only [hnd0, not_false_eq_true])).2
  have h2 : p ≠ sx := by
    first
    | exact (ne_pair (by simp only [hnd0, not_false_eq_true])).1
    | exact (ne_pair (by simp only [hnd0, not_false_eq_true])).2
  obtain ⟨hl, hr, -, -⟩ := WF_node_mem
    (show WF _ (plug (.right c (.node .black Sl sx Srl) sr :: k) (.node .black Srr p N)) from hs)
  obtain ⟨hsxl, -, hRSl, -⟩ := WF_node_mem
    (show WF s (plug (.left c p N :: k) (.node cs Sl sx (.node csr Srl sr Srr))) from h)
  obtain ⟨hsrl, -, hRSrl, hRSrr⟩ := WF_node_mem
    (show WF s (plug (.right cs Sl sx :: .left c p N :: k) (.node csr Srl sr Srr)) from h)
  obtain ⟨-, -, -, hRN⟩ := WF_node_mem h
  have haug1 := erase_case3_right_aug_eq v hf h1 h2
  rw [hsxl, hsrl] at haug1
  have hok1 : AugOK v (rotate_summaries v f sx sr Sl.addr Srl.addr)
      (plug k (.node c (.node csr (.node .black Sl sx Srl) sr Srr) p N)) :=
    rot_left_ctx (k := .left c p N :: k) csr .black hok h.2.2 hRSrl hRSl
  have hnd1 : (plug k (.node c (.node csr (.node .black Sl sx Srl) sr Srr) p N)).inorder.Nodup := by
    simpa [inorder_plug, Tree.inorder] using h.2.2
  refine ⟨rotate_summaries v (rotate_summaries v f sx sr Sl.addr Srl.addr) p sr Srr.addr N.addr,
    ?_, rot_right_ctx c .black hok1 hnd1 hRSrr hRN⟩
  rw [erase_case4_right_aug_eq]
  exact rotate_final v haug1 hl hr

/-- Blocks that only repaint nodes keep the invariant. -/
theorem AugInv_recolor {v : Nat → V} {s s' : State (Augmented V)} {k : Ctx} {T U : Tree}
    (hJ : AugInv v s (plug k T)) (haug : s'.aug = s.aug)
    (hU : ∀ f, AugOK v f T → AugOK v f U) (hsum : ∀ f : Nat → V, U.summary f = T.summary f) :
    AugInv v s' (plug k U) := by
  obtain ⟨f, hf, hok⟩ := hJ
  exact ⟨f, haug.trans hf, AugOK_recolor hok (hU f) (hsum f)⟩

end Blocks


/-! ## Subtree maxima: the insert fix-up loop -/

section InsertLoop

variable {V : Type} [LinearOrder V]

/-- The insert fix-up loop with the hook `RBNAME##_rotate` keeps the subtree
maxima right while it restores the colour invariants. -/
theorem insert_loop_aug (v : Nat → V) : ∀ (fuel : Nat) (k : Ctx) (L R : Tree) (n : Nat)
    (s : State (Augmented V)), k.length < 2 * fuel → WF s (plug k (.node .red L n R)) →
    AugInv v s (plug k (.node .red L n R)) →
    (Tree.node .red L n R).Valid → CtxOK k L.bh →
    ∃ s' t', __chx_rb_insert_loop (RBNAME_rotate v) fuel s n (ctxAddr 0 k) = some s' ∧
      WF s' t' ∧ t'.RB ∧ t'.inorder = (plug k (.node .red L n R)).inorder ∧
      AugInv v s' t' := by
  intro fuel
  induction fuel with
  | zero => intro k L R n s hlen; omega
  | succ fuel ih =>
    intro k L R n s hlen h hJ hv hk
    rw [Valid_node] at hv
    obtain ⟨hv1, hv2, hv3, hv4⟩ := hv
    obtain ⟨hLc, hRc⟩ := hv1 rfl
    cases k with
    | nil =>
      refine ⟨chx_rb_set_parent_color s n 0 CHX_RB_BLACK, .node .black L n R, ?_, ?_, ?_, rfl,
        AugInv_recolor (k := []) hJ rfl (fun f h => h) (fun f => rfl)⟩
      · simp [__chx_rb_insert_loop, ctxAddr]
      · obtain ⟨h1, h2, h3⟩ := h
        simp only [plug] at h1 h2 h3
        simp only [Tree.inorder, List.nodup_append, List.nodup_cons] at h3
        refine ⟨h1, ?_, by simpa [plug, Tree.inorder, List.nodup_append] using h3⟩
        exact Rep_reparent h2 (by tauto) (by tauto) (by simp [chx_rb_set_parent_color, CHX_RB_BLACK])
          (by simp [chx_rb_set_parent_color]) (by simp [chx_rb_set_parent_color])
          (fun x hx => by simp [chx_rb_set_parent_color, store_pc_mem_ne hx])
      · rw [RB_iff, Valid_node]
        exact ⟨rfl, by simp, hv2, hv3, hv4⟩
    | cons f k =>
      have hparent : ctxAddr 0 (f :: k) = f.addr := rfl
      have hw := WF_plug'.1 h
      obtain ⟨hwk, hwT, hwnd⟩ := hw
      have hf0 : f.addr ≠ 0 := by cases f <;> exact hwk.1
      have hfpc : (s.mem f.addr).__rb_parent_color = ctxAddr 0 k + f.color.bit := by
        cases f <;> exact hwk.2.2.1
      have hk4 : ctxAddr 0 k % 4 = 0 := by
        cases f
        · exact RepCtx_ctxAddr_aligned hwk.2.2.2.2.2.2
        · exact RepCtx_ctxAddr_aligned hwk.2.2.2.2.2.2
      have hblack := is_black_of_word hk4 hfpc
      by_cases hfc : f.color = .black
      · -- the parent is black: nothing to do
        refine ⟨s, _, ?_, h, ?_, rfl, hJ⟩
        · rw [__chx_rb_insert_loop]
          simp [hparent, hf0, hblack, hfc]
        · rw [RB_plug]
          refine ⟨Valid_node.2 ⟨fun _ => ⟨hLc, hRc⟩, hv2, hv3, hv4⟩, by simpa using hk, ?_⟩
          intro _
          exact hfc
      · have hfr : f.color = .red := by
          cases hc : f.color
          · rfl
          · exact absurd hc hfc
        cases k with
        | nil =>
          cases f <;> simp only [CtxOK, topColorOK, Frame.color] at hk hfr <;>
            (subst hfr; exact absurd hk.2.2.2.1 (by simp))
        | cons f2 k2 =>
          have hf2b : f2.color = .black := by
            cases f <;> simp only [CtxOK, topColorOK, Frame.color] at hk hfr <;>
              (subst hfr; exact hk.2.2.2.1 rfl)
          simp only [List.length_cons] at hlen
          clear hwk hwT hwnd hblack hfpc hf0 hk4 hparent
          cases f2 with
          | left cg g U =>
            simp only [Frame.color] at hf2b
            subst hf2b
            cases f with
            | left cp p B =>
              simp only [Frame.color] at hfr
              subst hfr
              simp only [CtxOK, bit_red, bit_black, Nat.add_zero] at hk
              obtain ⟨hB1, hB2, hB3, -, hU1, hU2, -, hU4, hU5⟩ := hk
              have hBc := hB3 trivial
              cases hUcol : U.color with
              | red =>
                cases U with
                | nil => simp at hUcol
                | node cu Ul u Ur =>
                  simp only [color_node] at hUcol
                  subst hUcol
                  rw [Valid_node] at hU2
                  obtain ⟨hU2a, hU2b, hU2c, hU2d⟩ := hU2
                  simp only [bh_node, bit_red, Nat.add_zero] at hU1
                  have h' : WF s (plug k2 (.node .black (.node .red (.node .red L n R) p B) g (.node .red Ul u Ur))) := h
                  have hJ' : AugInv v s (plug k2 (.node .black (.node .red (.node .red L n R) p B) g (.node .red Ul u Ur))) := hJ
                  obtain ⟨hs1, hs2⟩ := insert_case1_left_spec h'
                  have hio : (plug k2 (.node .red (.node .black (.node .red L n R) p B) g (.node .black Ul u Ur))).inorder = (plug k2 (.node .black (.node .red (.node .red L n R) p B) g (.node .red Ul u Ur))).inorder := by
                    simp [inorder_plug, Tree.inorder]
                  obtain ⟨s', t', e1, e2, e3, e4, e5⟩ := ih k2 (.node .black (.node .red L n R) p B) (.node .black Ul u Ur) g _ (by omega) hs1
                    (AugInv_recolor hJ' rfl (fun f h => h) (fun f => rfl))
                    (by simp [Valid_node, hv3, hv4, hLc, hRc, hB2, hBc, hU2c, hU2d, hU2a] <;> omega)
                    (by simp only [bh_node, bit_red, bit_black, Nat.add_zero]; first | exact hU5 | (rw [hB1]; exact hU5) | (rw [hU1]; exact hU5))
                  refine ⟨s', t', ?_, e2, e3, e4.trans hio, e5⟩
                  simp only [ctxAddr, Frame.addr]
                  rw [insert_step_case1_left (RBNAME_rotate v) fuel h', hs2]
                  exact e1
              | black =>
                have hUc := hUcol
                have h' : WF s (plug k2 (.node .black (.node .red (.node .red L n R) p B) g U)) := h
                have hJ' : AugInv v s (plug k2 (.node .black (.node .red (.node .red L n R) p B) g U)) := hJ
                have hs := insert_case3_left_spec (RBNAME_rotate v) h' hBc
                have hJs := insert_case3_left_aug v h' hBc hJ'
                have hio : (plug k2 (.node .black (.node .red L n R) p (.node .red B g U))).inorder = (plug k2 (.node .black (.node .red (.node .red L n R) p B) g U)).inorder := by
                  simp [inorder_plug, Tree.inorder]
                refine ⟨_, _, insert_step_case3_left (RBNAME_rotate v) fuel h' hUc, hs, ?_, hio, hJs⟩
                rw [RB_plug]
                refine ⟨?_, ?_, topColorOK_black k2⟩
                · simp [Valid_node, hv3, hv4, hLc, hRc, hB2, hBc, hU2, hUc] <;> omega
                · exact (by simp only [bh_node, bit_red, bit_black, Nat.add_zero]; first | exact hU5 | (rw [hB1]; exact hU5) | (rw [hU1]; exact hU5))
            | right cp B p =>
              simp only [Frame.color] at hfr
              subst hfr
              simp only [CtxOK, bit_red, bit_black, Nat.add_zero] at hk
              obtain ⟨hB1, hB2, hB3, -, hU1, hU2, -, hU4, hU5⟩ := hk
              have hBc := hB3 trivial
              cases hUcol : U.color with
              | red =>
                cases U with
                | nil => simp at hUcol
                | node cu Ul u Ur =>
                  simp only [color_node] at hUcol
                  subst hUcol
                  rw [Valid_node] at hU2
                  obtain ⟨hU2a, hU2b, hU2c, hU2d⟩ := hU2
                  simp only [bh_node, bit_red, Nat.add_zero] at hU1
                  have h' : WF s (plug k2 (.node .black (.node .red B p (.node .red L n R)) g (.node .red Ul u Ur))) := h
                  have hJ' : AugInv v s (plug k2 (.node .black (.node .red B p (.node .red L n R)) g (.node .red Ul u Ur))) := hJ
                  obtain ⟨hs1, hs2⟩ := insert_case1_left_spec h'
                  have hio : (plug k2 (.node .red (.node .black B p (.node .red L n R)) g (.node .black Ul u Ur))).inorder = (plug k2 (.node .black (.node .red B p (.node .red L n R)) g (.node .red Ul u Ur))).inorder := by
                    simp [inorder_plug, Tree.inorder]
                  obtain ⟨s', t', e1, e2, e3, e4, e5⟩ := ih k2 (.node .black B p (.node .red L n R)) (.node .black Ul u Ur) g _ (by omega) hs1
                    (AugInv_recolor hJ' rfl (fun f h => h) (fun f => rfl))
                    (by simp [Valid_node, hv3, hv4, hLc, hRc, hB2, hBc, hU2c, hU2d, hU2a] <;> omega)
                    (by simp only [bh_node, bit_red, bit_black, Nat.add_zero]; first | exact hU5 | (rw [hB1]; exact hU5) | (rw [hU1]; exact hU5))
                  refine ⟨s', t', ?_, e2, e3, e4.trans hio, e5⟩
                  simp only [ctxAddr, Frame.addr]
                  rw [insert_step_case1_left (RBNAME_rotate v) fuel h', hs2]
                  exact e1
              | black =>
                have hUc := hUcol
                have h' : WF s (plug k2 (.node .black (.node .red B p (.node .red L n R)) g U)) := h
                have hJ' : AugInv v s (plug k2 (.node .black (.node .red B p (.node .red L n R)) g U)) := hJ
                have hs := insert_case23_left_spec (RBNAME_rotate v) h' hLc hRc
                have hJs := insert_case23_left_aug v h' hLc hRc hJ'
                have hio : (plug k2 (.node .black (.node .red B p L) n (.node .red R g U))).inorder = (plug k2 (.node .black (.node .red B p (.node .red L n R)) g U)).inorder := by
                  simp [inorder_plug, Tree.inorder]
                refine ⟨_, _, insert_step_case23_left (RBNAME_rotate v) fuel h' hUc, hs, ?_, hio, hJs⟩
                rw [RB_plug]
                refine ⟨?_, ?_, topColorOK_black k2⟩
                · simp [Valid_node, hv3, hv4, hLc, hRc, hB2, hBc, hU2, hUc] <;> omega
                · exact (by simp only [bh_node, bit_red, bit_black, Nat.add_zero]; first | exact hU5 | (rw [hB1]; exact hU5) | (rw [hU1]; exact hU5))
          | right cg U g =>
            simp only [Frame.color] at hf2b
            subst hf2b
            cases f with
            | left cp p B =>
              simp only [Frame.color] at hfr
              subst hfr
              simp only [CtxOK, bit_red, bit_black, Nat.add_zero] at hk
              obtain ⟨hB1, hB2, hB3, -, hU1, hU2, -, hU4, hU5⟩ := hk
              have hBc := hB3 trivial
              cases hUcol : U.color with
              | red =>
                cases U with
                | nil => simp at hUcol
                | node cu Ul u Ur =>
                  simp only [color_node] at hUcol
                  subst hUcol
                  rw [Valid_node] at hU2
                  obtain ⟨hU2a, hU2b, hU2c, hU2d⟩ := hU2
                  simp only [bh_node, bit_red, Nat.add_zero] at hU1
                  have h' : WF s (plug k2 (.node .black (.node .red Ul u Ur) g (.node .red (.node .red L n R) p B))) := h
                  have hJ' : AugInv v s (plug k2 (.node .black (.node .red Ul u Ur) g (.node .red (.node .red L n R) p B))) := hJ
                  obtain ⟨hs1, hs2⟩ := insert_case1_right_spec h'
                  have hio : (plug k2 (.node .red (.node .black Ul u Ur) g (.node .black (.node .red L n R) p B))).inorder = (plug k2 (.node .black (.node .red Ul u Ur) g (.node .red (.node .red L n R) p B))).inorder := by
                    simp [inorder_plug, Tree.inorder]
                  obtain ⟨s', t', e1, e2, e3, e4, e5⟩ := ih k2 (.node .black Ul u Ur) (.node .black (.node .red L n R) p B) g _ (by omega) hs1
                    (AugInv_recolor hJ' rfl (fun f h => h) (fun f => rfl))
                    (by simp [Valid_node, hv3, hv4, hLc, hRc, hB2, hBc, hU2c, hU2d, hU2a] <;> omega)
                    (by simp only [bh_node, bit_red, bit_black, Nat.add_zero]; first | exact hU5 | (rw [hB1]; exact hU5) | (rw [hU1]; exact hU5))
                  refine ⟨s', t', ?_, e2, e3, e4.trans hio, e5⟩
                  simp only [ctxAddr, Frame.addr]
                  rw [insert_step_case1_right (RBNAME_rotate v) fuel h', hs2]
                  exact e1
              | black =>
                have hUc := hUcol
                have h' : WF s (plug k2 (.node .black U g (.node .red (.node .red L n R) p B))) := h
                have hJ' : AugInv v s (plug k2 (.node .black U g (.node .red (.node .red L n R) p B))) := hJ
                have hs := insert_case23_right_spec (RBNAME_rotate v) h' hLc hRc
                have hJs := insert_case23_right_aug v h' hLc hRc hJ'
                have hio : (plug k2 (.node .black (.node .red U g L) n (.node .red R p B))).inorder = (plug k2 (.node .black U g (.node .red (.node .red L n R) p B))).inorder := by
                  simp [inorder_plug, Tree.inorder]
                refine ⟨_, _, insert_step_case23_right (RBNAME_rotate v) fuel h' hUc, hs, ?_, hio, hJs⟩
                rw [RB_plug]
                refine ⟨?_, ?_, topColorOK_black k2⟩
                · simp [Valid_node, hv3, hv4, hLc, hRc, hB2, hBc, hU2, hUc] <;> omega
                · exact (by simp only [bh_node, bit_red, bit_black, Nat.add_zero]; first | exact hU5 | (rw [hB1]; exact hU5) | (rw [hU1]; exact hU5))
            | right cp B p =>
              simp only [Frame.color] at hfr
              subst hfr
              simp only [CtxOK, bit_red, bit_black, Nat.add_zero] at hk
              obtain ⟨hB1, hB2, hB3, -, hU1, hU2, -, hU4, hU5⟩ := hk
              have hBc := hB3 trivial
              cases hUcol : U.color with
              | red =>
                cases U with
                | nil => simp at hUcol
                | node cu Ul u Ur =>
                  simp only [color_node] at hUcol
                  subst hUcol
                  rw [Valid_node] at hU2
                  obtain ⟨hU2a, hU2b, hU2c, hU2d⟩ := hU2
                  simp only [bh_node, bit_red, Nat.add_zero] at hU1
                  have h' : WF s (plug k2 (.node .black (.node .red Ul u Ur) g (.node .red B p (.node .red L n R)))) := h
                  have hJ' : AugInv v s (plug k2 (.node .black (.node .red Ul u Ur) g (.node .red B p (.node .red L n R)))) := hJ
                  obtain ⟨hs1, hs2⟩ := insert_case1_right_spec h'
                  have hio : (plug k2 (.node .red (.node .black Ul u Ur) g (.node .black B p (.node .red L n R)))).inorder = (plug k2 (.node .black (.node .red Ul u Ur) g (.node .red B p (.node .red L n R)))).inorder := by
                    simp [inorder_plug, Tree.inorder]
                  obtain ⟨s', t', e1, e2, e3, e4, e5⟩ := ih k2 (.node .black Ul u Ur) (.node .black B p (.node .red L n R)) g _ (by omega) hs1
                    (AugInv_recolor hJ' rfl (fun f h => h) (fun f => rfl))
                    (by simp [Valid_node, hv3, hv4, hLc, hRc, hB2, hBc, hU2c, hU2d, hU2a] <;> omega)
                    (by simp only [bh_node, bit_red, bit_black, Nat.add_zero]; first | exact hU5 | (rw [hB1]; exact hU5) | (rw [hU1]; exact hU5))
                  refine ⟨s', t', ?_, e2, e3, e4.trans hio, e5⟩
                  simp only [ctxAddr, Frame.addr]
                  rw [insert_step_case1_right (RBNAME_rotate v) fuel h', hs2]
                  exact e1
              | black =>
                have hUc := hUcol
                have h' : WF s (plug k2 (.node .black U g (.node .red B p (.node .red L n R)))) := h
                have hJ' : AugInv v s (plug k2 (.node .black U g (.node .red B p (.node .red L n R)))) := hJ
                have hs := insert_case3_right_spec (RBNAME_rotate v) h' hBc
                have hJs := insert_case3_right_aug v h' hBc hJ'
                have hio : (plug k2 (.node .black (.node .red U g B) p (.node .red L n R))).inorder = (plug k2 (.node .black U g (.node .red B p (.node .red L n R)))).inorder := by
                  simp [inorder_plug, Tree.inorder]
                refine ⟨_, _, insert_step_case3_right (RBNAME_rotate v) fuel h' hUc, hs, ?_, hio, hJs⟩
                rw [RB_plug]
                refine ⟨?_, ?_, topColorOK_black k2⟩
                · simp [Valid_node, hv3, hv4, hLc, hRc, hB2, hBc, hU2, hUc] <;> omega
                · exact (by simp only [bh_node, bit_red, bit_black, Nat.add_zero]; first | exact hU5 | (rw [hB1]; exact hU5) | (rw [hU1]; exact hU5))

end InsertLoop


/-! ## Subtree maxima: the hook `propagate` -/

section Propagate

variable {V : Type} [LinearOrder V]

theorem ctxAddr_aligned_of {m : Nat → chx_rb_node} {top par0 : Nat} {k : Ctx} {p : Nat}
    (h : RepCtx m top par0 k p) (h0 : par0 % 4 = 0) : ctxAddr par0 k % 4 = 0 := by
  cases k with
  | nil => simpa [ctxAddr] using h0
  | cons f k =>
    cases f with
    | left c a r => simpa [ctxAddr, Frame.addr] using h.2.1
    | right c l a => simpa [ctxAddr, Frame.addr] using h.2.1

/-- The loop of `propagate`, started at the innermost frame of a context,
returns, and afterwards every frame of the context stores its maximum.  It
stops at the first frame whose stored maximum is already right. -/
theorem propagate_loop_spec (v : Nat → V) {s : State (Augmented V)} {top par0 : Nat}
    (h0 : par0 % 4 = 0) :
    ∀ (k : Ctx) (p : Nat) (f : Nat → V) (fuel : Nat),
      RepCtx s.mem top par0 k p → (ctxNodes k).Nodup → par0 ∉ ctxNodes k →
      CtxAugUp v f k → k.length < fuel →
      ∃ f', RBNAME_propagate_loop v s fuel (ctxAddr par0 k) par0 f = some f' ∧
        CtxAug v f' k (if p ≠ 0 then some (f p) else none) ∧
        ∀ y, y ∉ ctxNodes k → f' y = f y
  | [], p, f, fuel, _, _, _, _, hfuel => by
    obtain ⟨fuel, rfl⟩ : ∃ n, fuel = n + 1 := ⟨fuel - 1, by simp at hfuel; omega⟩
    exact ⟨f, by simp [RBNAME_propagate_loop, ctxAddr], trivial, fun _ _ => rfl⟩
  | .left c a r :: k, p, f, fuel, hk, hnd, hpar, hup, hfuel => by
    obtain ⟨fuel, rfl⟩ : ∃ n, fuel = n + 1 :=
      ⟨fuel - 1, by simp only [List.length_cons] at hfuel; omega⟩
    simp only [List.length_cons] at hfuel
    obtain ⟨h1, h2, h3, h4, h5, h6, h7⟩ := hk
    rw [nodup_ctxNodes_left] at hnd
    obtain ⟨har, hak, hrnd, hknd, hdis⟩ := hnd
    have hapar : a ≠ par0 := fun e => hpar (mem_ctxNodes_left.2 (Or.inl e.symm))
    have hpark : par0 ∉ ctxNodes k := fun hx => hpar (mem_ctxNodes_left.2 (Or.inr (Or.inr hx)))
    have hparent : chx_rb_parent s a = ctxAddr par0 k := by
      rw [chx_rb_parent, h3]
      exact parent_of_word c (ctxAddr_aligned_of h7 h0)
    have hy : subtree_max v f a (s.mem a).rb_left (s.mem a).rb_right =
        max (max (v a) ((if p ≠ 0 then some (f p) else none : Option V).getD (v a)))
          ((r.summary f).getD (v a)) := by
      rw [h4, h5]
      unfold subtree_max
      rw [summary_getD h6]
      by_cases hp : p = 0 <;> simp [hp]
    rw [RBNAME_propagate_loop]
    simp only [ctxAddr, Frame.addr, ne_eq, hapar, not_false_eq_true, if_true, compute_max_eq,
      true_and]
    by_cases heq : f a = subtree_max v f a (s.mem a).rb_left (s.mem a).rb_right
    · simp only [heq, if_true]
      refine ⟨f, ?_, ⟨?_, hup.1, hup.2⟩, fun _ _ => rfl⟩
      · simp [← heq]
      · rw [← hy]
        exact heq
    · simp only [heq, if_false, Bool.false_eq_true, hparent]
      have hfr : ∀ y ∈ ctxNodes k, Function.update f a
          (subtree_max v f a (s.mem a).rb_left (s.mem a).rb_right) y = f y := fun y hy' => by
        have : y ≠ a := fun e => hak (e ▸ hy')
        simp [Function.update, this]
      obtain ⟨f', e1, e2, e3⟩ := propagate_loop_spec v h0 k a
        (Function.update f a (subtree_max v f a (s.mem a).rb_left (s.mem a).rb_right)) fuel
        h7 hknd hpark ((CtxAug_congr k _ hfr).2 hup.2).up (by omega)
      have hfa : f' a = subtree_max v f a (s.mem a).rb_left (s.mem a).rb_right := by
        rw [e3 a hak]
        simp
      have hfr' : ∀ y ∈ r.inorder, f' y = f y := fun y hy' => by
        have hya : y ≠ a := fun e => har (e ▸ hy')
        rw [e3 y (fun hx => hdis hy' hx)]
        simp [Function.update, hya]
      refine ⟨f', e1, ⟨?_, (AugOK_congr r hfr').2 hup.1, ?_⟩, fun y hy' => ?_⟩
      · rw [hfa, hy, summary_congr r hfr']
      · simpa [h1, hfa] using e2
      · rw [mem_ctxNodes_left] at hy'
        have hya : y ≠ a := fun e => hy' (Or.inl e)
        rw [e3 y (fun hx => hy' (Or.inr (Or.inr hx)))]
        simp [Function.update, hya]
  | .right c l a :: k, p, f, fuel, hk, hnd, hpar, hup, hfuel => by
    obtain ⟨fuel, rfl⟩ : ∃ n, fuel = n + 1 :=
      ⟨fuel - 1, by simp only [List.length_cons] at hfuel; omega⟩
    simp only [List.length_cons] at hfuel
    obtain ⟨h1, h2, h3, h4, h5, h6, h7⟩ := hk
    rw [nodup_ctxNodes_right] at hnd
    obtain ⟨har, hak, hrnd, hknd, hdis⟩ := hnd
    have hapar : a ≠ par0 := fun e => hpar (mem_ctxNodes_right.2 (Or.inl e.symm))
    have hpark : par0 ∉ ctxNodes k := fun hx => hpar (mem_ctxNodes_right.2 (Or.inr (Or.inr hx)))
    have hparent : chx_rb_parent s a = ctxAddr par0 k := by
      rw [chx_rb_parent, h3]
      exact parent_of_word c (ctxAddr_aligned_of h7 h0)
    have hy : subtree_max v f a (s.mem a).rb_left (s.mem a).rb_right =
        max (max (v a) ((l.summary f).getD (v a)))
          ((if p ≠ 0 then some (f p) else none : Option V).getD (v a)) := by
      rw [h4, h5]
      unfold subtree_max
      rw [summary_getD h6]
      by_cases hp : p = 0 <;> simp [hp]
    rw [RBNAME_propagate_loop]
    simp only [ctxAddr, Frame.addr, ne_eq, hapar, not_false_eq_true, if_true, compute_max_eq,
      true_and]
    by_cases heq : f a = subtree_max v f a (s.mem a).rb_left (s.mem a).rb_right
    · simp only [heq, if_true]
      refine ⟨f, ?_, ⟨?_, hup.1, hup.2⟩, fun _ _ => rfl⟩
      · simp [← heq]
      · rw [← hy]
        exact heq
    · simp only [heq, if_false, Bool.false_eq_true, hparent]
      have hfr : ∀ y ∈ ctxNodes k, Function.update f a
          (subtree_max v f a (s.mem a).rb_left (s.mem a).rb_right) y = f y := fun y hy' => by
        have : y ≠ a := fun e => hak (e ▸ hy')
        simp [Function.update, this]
      obtain ⟨f', e1, e2, e3⟩ := propagate_loop_spec v h0 k a
        (Function.update f a (subtree_max v f a (s.mem a).rb_left (s.mem a).rb_right)) fuel
        h7 hknd hpark ((CtxAug_congr k _ hfr).2 hup.2).up (by omega)
      have hfa : f' a = subtree_max v f a (s.mem a).rb_left (s.mem a).rb_right := by
        rw [e3 a hak]
        simp
      have hfr' : ∀ y ∈ l.inorder, f' y = f y := fun y hy' => by
        have hya : y ≠ a := fun e => har (e ▸ hy')
        rw [e3 y (fun hx => hdis hy' hx)]
        simp [Function.update, hya]
      refine ⟨f', e1, ⟨?_, (AugOK_congr l hfr').2 hup.1, ?_⟩, fun y hy' => ?_⟩
      · rw [hfa, hy, summary_congr l hfr']
      · simpa [h1, hfa] using e2
      · rw [mem_ctxNodes_right] at hy'
        have hya : y ≠ a := fun e => hy' (Or.inl e)
        rw [e3 y (fun hx => hy' (Or.inr (Or.inr hx)))]
        simp [Function.update, hya]

theorem summary_eq_ite {m : Nat → chx_rb_node} {t : Tree} {par : Nat} (h : Rep m t par)
    (f : Nat → V) : t.summary f = if t.addr ≠ 0 then some (f t.addr) else none := by
  cases t with
  | nil => simp [Tree.summary]
  | node c l a r => simp [Tree.summary, h.1]

theorem propagate_callback (v : Nat → V) (fuel : Nat) {s : State (Augmented V)} {f : Nat → V}
    (rb stop : Nat) (hf : s.aug = some f) :
    (s.call (RBNAME v fuel).propagate rb stop).aug =
      RBNAME_propagate_loop v s fuel rb stop f := by
  simp only [call_aug, RBNAME, RBNAME_propagate, hf]

/-- The hook `propagate(parent, NULL)`, run at the parent of a subtree whose
summaries are right in a context whose summaries were right before the subtree
was changed, makes the summaries of the whole tree right. -/
theorem propagate_spec (v : Nat → V) (fuel : Nat) {s : State (Augmented V)} {k : Ctx}
    {T : Tree} {f : Nat → V} (h : WF s (plug k T)) (hf : s.aug = some f)
    (hT : AugOK v f T) (hup : CtxAugUp v f k) (hfuel : k.length < fuel) :
    AugInv v (s.call (RBNAME v fuel).propagate (ctxAddr 0 k) 0) (plug k T) := by
  obtain ⟨hk, hRT, hnd⟩ := WF_plug'.1 h
  have hknd : (ctxNodes k).Nodup := (List.nodup_append.1 hnd).2.1
  have h0 : (0 : Nat) ∉ ctxNodes k := fun hx =>
    Rep_mem_ne_zero (plug k T) 0 h.2.1 0 (mem_plug_of_mem_ctx hx) rfl
  obtain ⟨f', e1, e2, e3⟩ := propagate_loop_spec v (by decide) k T.addr f fuel hk hknd h0 hup hfuel
  refine ⟨f', ?_, ?_⟩
  · rw [propagate_callback v fuel _ _ hf]
    exact e1
  · have hfT : ∀ x ∈ T.inorder, f' x = f x := fun x hx =>
      e3 x (fun hx' => (List.nodup_append.1 hnd).2.2 hx hx')
    rw [AugOK_plug]
    refine ⟨(AugOK_congr T hfT).2 hT, ?_⟩
    rw [summary_congr T hfT, summary_eq_ite hRT]
    exact e2

theorem AugOK_paintBlack {v f : Nat → V} (t : Tree) : AugOK v f t.paintBlack ↔ AugOK v f t := by
  cases t <;> exact Iff.rfl

theorem summary_paintBlack (f : Nat → V) (t : Tree) : t.paintBlack.summary f = t.summary f := by
  cases t <;> rfl

end Propagate


/-! ## Subtree maxima: the erase fix-up loop -/

section EraseLoop

variable {V : Type} [LinearOrder V]

theorem erase_left_tail_aug (v : Nat → V)
    (loop : State (Augmented V) → Nat → Nat → Option (State (Augmented V)))
    {s : State (Augmented V)} {K : Ctx} {c : Color} {N Sn Sf : Tree} {p sx : Nat}
    (h : WF s (plug K (.node c N p (.node .black Sn sx Sf))))
    (hJ : AugInv v s (plug K (.node c N p (.node .black Sn sx Sf))))
    (hNv : N.Valid) (hSnv : Sn.Valid) (hSfv : Sf.Valid) (hSn : Sn.bh = N.bh) (hSf : Sf.bh = N.bh)
    (htop : topColorOK c K) (hK : CtxOK K (N.bh + 1 + c.bit))
    (hloop : c = .black → K ≠ [] → ∀ s1 N1, WF s1 (plug K N1) → AugInv v s1 (plug K N1) → N1.color = .black → N1.Valid →
      N1.bh = N.bh + 1 →
      ∃ s' t', loop s1 N1.addr (ctxAddr 0 K) = some s' ∧ WF s' t' ∧ t'.RB ∧
        t'.inorder = (plug K N1).inorder ∧ AugInv v s' t') :
    ∃ s' t', erase_color_left_tail (RBNAME_rotate v) loop s p sx = some s' ∧ WF s' t' ∧ t'.RB ∧
      t'.inorder = (plug K (.node c N p (.node .black Sn sx Sf))).inorder ∧
      AugInv v s' t' := by
  obtain ⟨hk, hT, hnd⟩ := WF_plug'.1 h
  have hpar := RepCtx_ctxAddr_aligned hk
  have hRepS : Rep s.mem (.node .black Sn sx Sf) p := by
    simp only [Rep] at hT
    simp only [Rep]
    tauto
  have hsx4 : sx % 4 = 0 := hRepS.2.1
  have hRepSn : Rep s.mem Sn sx := by
    simp only [Rep] at hRepS
    tauto
  have hRepSf : Rep s.mem Sf sx := by
    simp only [Rep] at hRepS
    tauto
  have hfar : (s.mem sx).rb_right = Sf.addr := by
    simp only [Rep] at hRepS
    tauto
  have hnear : (s.mem sx).rb_left = Sn.addr := by
    simp only [Rep] at hRepS
    tauto
  have hppc : (s.mem p).__rb_parent_color = ctxAddr 0 K + c.bit := hT.2.2.1
  have hpsx : p ≠ sx := by
    have hnd' := hnd
    simp only [Tree.inorder, List.nodup_append, List.nodup_cons, List.disjoint_append_left,
      List.disjoint_append_right, List.disjoint_cons_left, List.disjoint_cons_right,
      List.mem_append, List.mem_cons, not_or] at hnd'
    first
    | exact (ne_pair (by simp only [hnd', not_false_eq_true])).1
    | exact (ne_pair (by simp only [hnd', not_false_eq_true])).2
  unfold erase_color_left_tail
  simp only [hfar, hnear]
  cases hSfc : Sf.color with
  | red =>
    -- Case 4
    rw [if_neg (by rw [is_black_addr hRepSf hsx4, hSfc]; simp)]
    cases Sf with
    | nil => simp at hSfc
    | node cf Sfl sf Sfr =>
      simp only [color_node] at hSfc
      subst hSfc
      rw [Valid_node] at hSfv
      obtain ⟨hf1, hf2, hf3, hf4⟩ := hSfv
      obtain ⟨hf1a, hf1b⟩ := hf1 rfl
      simp only [bh_node, bit_red, Nat.add_zero] at hSf
      have hs := erase_case4_left_spec (RBNAME_rotate v) h
      refine ⟨_, _, rfl, hs, ?_, by simp [inorder_plug, Tree.inorder],
        erase_case4_left_aug v h hJ⟩
      rw [RB_plug]
      refine ⟨?_, ?_, htop⟩
      · simp [Valid_node, hNv, hSnv, hf3, hf4] <;> omega
      · simp only [bh_node, bit_black]
        first
        | exact hK
        | (rw [hSn]; exact hK)
        | (rw [hSf]; exact hK)
        | (rw [hf2, hSf]; exact hK)
        | (rw [← hf2, hSf]; exact hK)
  | black =>
    rw [if_pos (by rw [is_black_addr hRepSf hsx4, hSfc])]
    cases hSnc : Sn.color with
    | red =>
      -- Case 3 then Case 4
      rw [if_neg (by rw [is_black_addr hRepSn hsx4, hSnc]; simp)]
      cases Sn with
      | nil => simp at hSnc
      | node cn Snl sn Snr =>
        simp only [color_node] at hSnc
        subst hSnc
        rw [Valid_node] at hSnv
        obtain ⟨hn1, hn2, hn3, hn4⟩ := hSnv
        obtain ⟨hn1a, hn1b⟩ := hn1 rfl
        simp only [bh_node, bit_red, Nat.add_zero] at hSn
        have hs := erase_case34_left_spec (RBNAME_rotate v) h (by first | exact hn1a | exact hn1b)
        refine ⟨_, _, rfl, hs, ?_, by simp [inorder_plug, Tree.inorder],
          erase_case34_left_aug v h (by first | exact hn1a | exact hn1b) hJ⟩
        rw [RB_plug]
        refine ⟨?_, ?_, htop⟩
        · simp [Valid_node, hNv, hSfv, hn3, hn4] <;> omega
        · simp only [bh_node, bit_black]
          first
          | exact hK
          | (rw [hSn]; exact hK)
          | (rw [hSf]; exact hK)
          | (rw [hn2, hSn]; exact hK)
          | (rw [← hn2, hSn]; exact hK)
    | black =>
      -- Case 2
      rw [if_pos (by rw [is_black_addr hRepSn hsx4, hSnc])]
      unfold erase_case2
      have hpc2 : ((chx_rb_set_parent_color s sx p CHX_RB_RED).mem p).__rb_parent_color
          = ctxAddr 0 K + c.bit := by
        simp [chx_rb_set_parent_color, hpsx, hppc]
      have hred := is_red_of_word hpar hpc2
      have hparent : chx_rb_parent (chx_rb_set_parent_color s sx p CHX_RB_RED) p
          = ctxAddr 0 K := by
        rw [chx_rb_parent, hpc2, parent_of_word c hpar]
      simp only [hred, hparent]
      cases c with
      | red =>
        have hs := erase_case2_left_red_spec h
        refine ⟨_, _, by simp, hs, ?_, by simp [inorder_plug, Tree.inorder],
          AugInv_recolor hJ rfl (fun f h => h) (fun f => rfl)⟩
        rw [RB_plug]
        refine ⟨?_, ?_, topColorOK_black K⟩
        · simp [Valid_node, hNv, hSnv, hSfv, hSnc, hSfc] <;> omega
        · simp only [bh_node, bit_black]
          first
          | simpa using hK
          | (rw [hSn]; simpa using hK)
          | (rw [hSf]; simpa using hK)
      | black =>
        have hs := erase_case2_left_spec h
        have hN1v : Tree.Valid (.node .black N p (.node .red Sn sx Sf)) := by
          simp [Valid_node, hNv, hSnv, hSfv, hSnc, hSfc] <;> omega
        have hN1bh : Tree.bh (.node .black N p (.node .red Sn sx Sf)) = N.bh + 1 := by
          simp only [bh_node, bit_black, bit_red, Nat.add_zero] <;> omega
        by_cases hK0 : K = []
        · subst hK0
          refine ⟨_, _, by simp [ctxAddr], hs, ?_, by simp [inorder_plug, Tree.inorder],
            AugInv_recolor hJ rfl (fun f h => h) (fun f => rfl)⟩
          rw [RB_plug]
          exact ⟨hN1v, trivial, rfl⟩
        · have hne : ctxAddr 0 K ≠ 0 := fun e => hK0 ((RepCtx_ctxAddr_ne_zero hk).1 e)
          obtain ⟨s', t', e1, e2, e3, e4, e5⟩ := hloop rfl hK0 _ _ hs
            (AugInv_recolor hJ rfl (fun f h => h) (fun f => rfl)) rfl hN1v hN1bh
          refine ⟨s', t', ?_, e2, e3, e4.trans (by simp [inorder_plug, Tree.inorder]), e5⟩
          simpa [hne] using e1

theorem erase_right_tail_aug (v : Nat → V)
    (loop : State (Augmented V) → Nat → Nat → Option (State (Augmented V)))
    {s : State (Augmented V)} {K : Ctx} {c : Color} {N Sn Sf : Tree} {p sx : Nat}
    (h : WF s (plug K (.node c (.node .black Sf sx Sn) p N)))
    (hJ : AugInv v s (plug K (.node c (.node .black Sf sx Sn) p N)))
    (hNv : N.Valid) (hSnv : Sn.Valid) (hSfv : Sf.Valid) (hSn : Sn.bh = N.bh) (hSf : Sf.bh = N.bh)
    (htop : topColorOK c K) (hK : CtxOK K (N.bh + 1 + c.bit))
    (hloop : c = .black → K ≠ [] → ∀ s1 N1, WF s1 (plug K N1) → AugInv v s1 (plug K N1) → N1.color = .black → N1.Valid →
      N1.bh = N.bh + 1 →
      ∃ s' t', loop s1 N1.addr (ctxAddr 0 K) = some s' ∧ WF s' t' ∧ t'.RB ∧
        t'.inorder = (plug K N1).inorder ∧ AugInv v s' t') :
    ∃ s' t', erase_color_right_tail (RBNAME_rotate v) loop s p sx = some s' ∧ WF s' t' ∧ t'.RB ∧
      t'.inorder = (plug K (.node c (.node .black Sf sx Sn) p N)).inorder ∧
      AugInv v s' t' := by
  obtain ⟨hk, hT, hnd⟩ := WF_plug'.1 h
  have hpar := RepCtx_ctxAddr_aligned hk
  have hRepS : Rep s.mem (.node .black Sf sx Sn) p := by
    simp only [Rep] at hT
    simp only [Rep]
    tauto
  have hsx4 : sx % 4 = 0 := hRepS.2.1
  have hRepSn : Rep s.mem Sn sx := by
    simp only [Rep] at hRepS
    tauto
  have hRepSf : Rep s.mem Sf sx := by
    simp only [Rep] at hRepS
    tauto
  have hfar : (s.mem sx).rb_left = Sf.addr := by
    simp only [Rep] at hRepS
    tauto
  have hnear : (s.mem sx).rb_right = Sn.addr := by
    simp only [Rep] at hRepS
    tauto
  have hppc : (s.mem p).__rb_parent_color = ctxAddr 0 K + c.bit := hT.2.2.1
  have hpsx : p ≠ sx := by
    have hnd' := hnd
    simp only [Tree.inorder, List.nodup_append, List.nodup_cons, List.disjoint_append_left,
      List.disjoint_append_right, List.disjoint_cons_left, List.disjoint_cons_right,
      List.mem_append, List.mem_cons, not_or] at hnd'
    first
    | exact (ne_pair (by simp only [hnd', not_false_eq_true])).1
    | exact (ne_pair (by simp only [hnd', not_false_eq_true])).2
  unfold erase_color_right_tail
  simp only [hfar, hnear]
  cases hSfc : Sf.color with
  | red =>
    -- Case 4
    rw [if_neg (by rw [is_black_addr hRepSf hsx4, hSfc]; simp)]
    cases Sf with
    | nil => simp at hSfc
    | node cf Sfl sf Sfr =>
      simp only [color_node] at hSfc
      subst hSfc
      rw [Valid_node] at hSfv
      obtain ⟨hf1, hf2, hf3, hf4⟩ := hSfv
      obtain ⟨hf1a, hf1b⟩ := hf1 rfl
      simp only [bh_node, bit_red, Nat.add_zero] at hSf
      have hs := erase_case4_right_spec (RBNAME_rotate v) h
      refine ⟨_, _, rfl, hs, ?_, by simp [inorder_plug, Tree.inorder],
        erase_case4_right_aug v h hJ⟩
      rw [RB_plug]
      refine ⟨?_, ?_, htop⟩
      · simp [Valid_node, hNv, hSnv, hf3, hf4] <;> omega
      · simp only [bh_node, bit_black]
        first
        | exact hK
        | (rw [hSn]; exact hK)
        | (rw [hSf]; exact hK)
        | (rw [hf2, hSf]; exact hK)
        | (rw [← hf2, hSf]; exact hK)
  | black =>
    rw [if_pos (by rw [is_black_addr hRepSf hsx4, hSfc])]
    cases hSnc : Sn.color with
    | red =>
      -- Case 3 then Case 4
      rw [if_neg (by rw [is_black_addr hRepSn hsx4, hSnc]; simp)]
      cases Sn with
      | nil => simp at hSnc
      | node cn Snl sn Snr =>
        simp only [color_node] at hSnc
        subst hSnc
        rw [Valid_node] at hSnv
        obtain ⟨hn1, hn2, hn3, hn4⟩ := hSnv
        obtain ⟨hn1a, hn1b⟩ := hn1 rfl
        simp only [bh_node, bit_red, Nat.add_zero] at hSn
        have hs := erase_case34_right_spec (RBNAME_rotate v) h (by first | exact hn1a | exact hn1b)
        refine ⟨_, _, rfl, hs, ?_, by simp [inorder_plug, Tree.inorder],
          erase_case34_right_aug v h (by first | exact hn1a | exact hn1b) hJ⟩
        rw [RB_plug]
        refine ⟨?_, ?_, htop⟩
        · simp [Valid_node, hNv, hSfv, hn3, hn4] <;> omega
        · simp only [bh_node, bit_black]
          first
          | exact hK
          | (rw [hSn]; exact hK)
          | (rw [hSf]; exact hK)
          | (rw [hn2, hSn]; exact hK)
          | (rw [← hn2, hSn]; exact hK)
    | black =>
      -- Case 2
      rw [if_pos (by rw [is_black_addr hRepSn hsx4, hSnc])]
      unfold erase_case2
      have hpc2 : ((chx_rb_set_parent_color s sx p CHX_RB_RED).mem p).__rb_parent_color
          = ctxAddr 0 K + c.bit := by
        simp [chx_rb_set_parent_color, hpsx, hppc]
      have hred := is_red_of_word hpar hpc2
      have hparent : chx_rb_parent (chx_rb_set_parent_color s sx p CHX_RB_RED) p
          = ctxAddr 0 K := by
        rw [chx_rb_parent, hpc2, parent_of_word c hpar]
      simp only [hred, hparent]
      cases c with
      | red =>
        have hs := erase_case2_right_red_spec h
        refine ⟨_, _, by simp, hs, ?_, by simp [inorder_plug, Tree.inorder],
          AugInv_recolor hJ rfl (fun f h => h) (fun f => rfl)⟩
        rw [RB_plug]
        refine ⟨?_, ?_, topColorOK_black K⟩
        · simp [Valid_node, hNv, hSnv, hSfv, hSnc, hSfc] <;> omega
        · simp only [bh_node, bit_black]
          first
          | simpa using hK
          | (rw [hSn]; simpa using hK)
          | (rw [hSf]; simpa using hK)
      | black =>
        have hs := erase_case2_right_spec h
        have hN1v : Tree.Valid (.node .black (.node .red Sf sx Sn) p N) := by
          simp [Valid_node, hNv, hSnv, hSfv, hSnc, hSfc] <;> omega
        have hN1bh : Tree.bh (.node .black (.node .red Sf sx Sn) p N) = N.bh + 1 := by
          simp only [bh_node, bit_black, bit_red, Nat.add_zero] <;> omega
        by_cases hK0 : K = []
        · subst hK0
          refine ⟨_, _, by simp [ctxAddr], hs, ?_, by simp [inorder_plug, Tree.inorder],
            AugInv_recolor hJ rfl (fun f h => h) (fun f => rfl)⟩
          rw [RB_plug]
          exact ⟨hN1v, trivial, rfl⟩
        · have hne : ctxAddr 0 K ≠ 0 := fun e => hK0 ((RepCtx_ctxAddr_ne_zero hk).1 e)
          obtain ⟨s', t', e1, e2, e3, e4, e5⟩ := hloop rfl hK0 _ _ hs
            (AugInv_recolor hJ rfl (fun f h => h) (fun f => rfl)) rfl hN1v hN1bh
          refine ⟨s', t', ?_, e2, e3, e4.trans (by simp [inorder_plug, Tree.inorder]), e5⟩
          simpa [hne] using e1

/-- The erase fix-up loop with the hook `RBNAME##_rotate` keeps the subtree
maxima right while it restores the colour invariants. -/
theorem erase_loop_aug (v : Nat → V) : ∀ (fuel : Nat) (K : Ctx) (N : Tree)
    (s : State (Augmented V)),
    K ≠ [] → K.length ≤ fuel → WF s (plug K N) → AugInv v s (plug K N) → N.Valid →
    CtxOK K (N.bh + 1) →
    ∃ s' t', ____chx_rb_erase_color_loop (RBNAME_rotate v) fuel s N.addr (ctxAddr 0 K) = some s' ∧
      WF s' t' ∧ t'.RB ∧ t'.inorder = (plug K N).inorder ∧ AugInv v s' t' := by
  intro fuel
  induction fuel with
  | zero =>
    intro K N s hK0 hlen
    cases K with
    | nil => exact absurd rfl hK0
    | cons f K' => simp at hlen
  | succ fuel ih =>
    intro K N s hK0 hlen h hJ hNv hK
    cases K with
    | nil => exact absurd rfl hK0
    | cons f K' =>
      cases f with
      | left c p S =>
        simp only [CtxOK] at hK
        obtain ⟨hS1, hS2, hS3, hS4, hS5⟩ := hK
        cases S with
        | nil => simp at hS1
        | node cs Sn sx Sf =>
          have h' : WF s (plug K' (.node c N p (.node cs Sn sx Sf))) := h
          have hJ' : AugInv v s (plug K' (.node c N p (.node cs Sn sx Sf))) := hJ
          rw [Valid_node] at hS2
          obtain ⟨hS2a, hS2b, hS2c, hS2d⟩ := hS2
          simp only [bh_node] at hS1
          simp only [ctxAddr, Frame.addr]
          rw [erase_step_left (RBNAME_rotate v) fuel h']
          cases cs with
          | red =>
            have hc : c = .black := by
              cases c
              · exact absurd (hS3 rfl) (by simp)
              · rfl
            subst hc
            obtain ⟨hSnc, hSfc⟩ : Sn.color = .black ∧ Sf.color = .black := by
              have := hS2a rfl
              tauto
            simp only [bit_red, Nat.add_zero, bit_black] at hS1 hS5
            cases Sn with
            | nil => exfalso; simp only [bh_nil] at hS1 hS2b; omega
            | node cn Snl sn Snr =>
              simp only [color_node] at hSnc
              subst hSnc
              rw [Valid_node] at hS2c
              obtain ⟨hn1, hn2, hn3, hn4⟩ := hS2c
              simp only [bh_node, bit_black] at hS1 hS2b
              have hs1 := erase_case1_left_spec (RBNAME_rotate v) h'
              have hJ1 := erase_case1_left_aug v h' hJ'
              have hr2 : (erase_case1_left (RBNAME_rotate v) s p sx).2 = sn := by
                obtain ⟨-, hT, -⟩ := WF_plug'.1 h'
                simp only [Rep, addr_node] at hT
                simp only [erase_case1_left]
                tauto
              simp only [if_true, hr2]
              have hs1' : WF (erase_case1_left (RBNAME_rotate v) s p sx).1
                  (plug (.left .black sx Sf :: K') (.node .red N p (.node .black Snl sn Snr))) := hs1
              have hJ1' : AugInv v (erase_case1_left (RBNAME_rotate v) s p sx).1
                  (plug (.left .black sx Sf :: K') (.node .red N p (.node .black Snl sn Snr))) := hJ1
              obtain ⟨s', t', e1, e2, e3, e4, e5⟩ := erase_left_tail_aug v
                (____chx_rb_erase_color_loop (RBNAME_rotate v) fuel) hs1' hJ1' hNv
                (by first | exact hn3 | exact hn4) (by first | exact hn4 | exact hn3)
                (by omega) (by omega) (fun _ => rfl)
                (by
                  simp only [CtxOK, bit_red, bit_black, Nat.add_zero]
                  refine ⟨by omega, by first | exact hS2d | exact hS2c, by simp,
                    topColorOK_black K', hS5⟩)
                (fun hcc => by cases hcc)
              exact ⟨s', t', e1, e2, e3, e4.trans (by simp [inorder_plug, Tree.inorder, plug]), e5⟩
          | black =>
            simp only [bit_black] at hS1
            simp only [if_false, reduceCtorEq]
            obtain ⟨s', t', e1, e2, e3, e4, e5⟩ := erase_left_tail_aug v
              (____chx_rb_erase_color_loop (RBNAME_rotate v) fuel) h' hJ' hNv
              (by first | exact hS2c | exact hS2d) (by first | exact hS2d | exact hS2c)
              (by omega) (by omega) hS4 hS5
              (fun hcc hKn s1 N1 hw hj _ hv hb => by
                subst hcc
                exact ih K' N1 s1 hKn (by simp only [List.length_cons] at hlen; omega) hw hj hv
                  (by rw [hb]; exact hS5))
            exact ⟨s', t', e1, e2, e3, e4.trans (by simp [inorder_plug, Tree.inorder, plug]), e5⟩
      | right c S p =>
        simp only [CtxOK] at hK
        obtain ⟨hS1, hS2, hS3, hS4, hS5⟩ := hK
        cases S with
        | nil => simp at hS1
        | node cs Sf sx Sn =>
          have h' : WF s (plug K' (.node c (.node cs Sf sx Sn) p N)) := h
          have hJ' : AugInv v s (plug K' (.node c (.node cs Sf sx Sn) p N)) := hJ
          rw [Valid_node] at hS2
          obtain ⟨hS2a, hS2b, hS2c, hS2d⟩ := hS2
          simp only [bh_node] at hS1
          simp only [ctxAddr, Frame.addr]
          rw [erase_step_right (RBNAME_rotate v) fuel h']
          cases cs with
          | red =>
            have hc : c = .black := by
              cases c
              · exact absurd (hS3 rfl) (by simp)
              · rfl
            subst hc
            obtain ⟨hSnc, hSfc⟩ : Sn.color = .black ∧ Sf.color = .black := by
              have := hS2a rfl
              tauto
            simp only [bit_red, Nat.add_zero, bit_black] at hS1 hS5
            cases Sn with
            | nil => exfalso; simp only [bh_nil] at hS1 hS2b; omega
            | node cn Snl sn Snr =>
              simp only [color_node] at hSnc
              subst hSnc
              rw [Valid_node] at hS2d
              obtain ⟨hn1, hn2, hn3, hn4⟩ := hS2d
              simp only [bh_node, bit_black] at hS1 hS2b
              have hs1 := erase_case1_right_spec (RBNAME_rotate v) h'
              have hJ1 := erase_case1_right_aug v h' hJ'
              have hr2 : (erase_case1_right (RBNAME_rotate v) s p sx).2 = sn := by
                obtain ⟨-, hT, -⟩ := WF_plug'.1 h'
                simp only [Rep, addr_node] at hT
                simp only [erase_case1_right]
                tauto
              simp only [if_true, hr2]
              have hs1' : WF (erase_case1_right (RBNAME_rotate v) s p sx).1
                  (plug (.right .black Sf sx :: K') (.node .red (.node .black Snl sn Snr) p N)) := hs1
              have hJ1' : AugInv v (erase_case1_right (RBNAME_rotate v) s p sx).1
                  (plug (.right .black Sf sx :: K') (.node .red (.node .black Snl sn Snr) p N)) := hJ1
              obtain ⟨s', t', e1, e2, e3, e4, e5⟩ := erase_right_tail_aug v
                (____chx_rb_erase_color_loop (RBNAME_rotate v) fuel) hs1' hJ1' hNv
                (by first | exact hn3 | exact hn4) (by first | exact hn4 | exact hn3)
                (by omega) (by omega) (fun _ => rfl)
                (by
                  simp only [CtxOK, bit_red, bit_black, Nat.add_zero]
                  refine ⟨by omega, by first | exact hS2d | exact hS2c, by simp,
                    topColorOK_black K', hS5⟩)
                (fun hcc => by cases hcc)
              exact ⟨s', t', e1, e2, e3, e4.trans (by simp [inorder_plug, Tree.inorder, plug]), e5⟩
          | black =>
            simp only [bit_black] at hS1
            simp only [if_false, reduceCtorEq]
            obtain ⟨s', t', e1, e2, e3, e4, e5⟩ := erase_right_tail_aug v
              (____chx_rb_erase_color_loop (RBNAME_rotate v) fuel) h' hJ' hNv
              (by first | exact hS2c | exact hS2d) (by first | exact hS2d | exact hS2c)
              (by omega) (by omega) hS4 hS5
              (fun hcc hKn s1 N1 hw hj _ hv hb => by
                subst hcc
                exact ih K' N1 s1 hKn (by simp only [List.length_cons] at hlen; omega) hw hj hv
                  (by rw [hb]; exact hS5))
            exact ⟨s', t', e1, e2, e3, e4.trans (by simp [inorder_plug, Tree.inorder, plug]), e5⟩

end EraseLoop


/-! ## Subtree maxima: `chx_rb_erase_augmented` -/

@[simp] theorem splice_successor_aug (s : State α) (n sx p c2 : Nat) :
    (erase_splice_successor s n sx p c2).1.aug = s.aug := by
  unfold erase_splice_successor
  split_ifs <;> simp

section EraseAug

variable {V : Type} [LinearOrder V]

theorem CtxAugUp_congr {v f f' : Nat → V} :
    ∀ (k : Ctx), (∀ y ∈ ctxNodes k, f' y = f y) → (CtxAugUp v f' k ↔ CtxAugUp v f k)
  | [], _ => Iff.rfl
  | .left c a r :: k, h => by
    have ha : f' a = f a := h a (mem_ctxNodes_left.2 (Or.inl rfl))
    have hr : ∀ y ∈ r.inorder, f' y = f y := fun y hy =>
      h y (mem_ctxNodes_left.2 (Or.inr (Or.inl hy)))
    have hk : ∀ y ∈ ctxNodes k, f' y = f y := fun y hy =>
      h y (mem_ctxNodes_left.2 (Or.inr (Or.inr hy)))
    simp only [CtxAugUp, ha, AugOK_congr r hr, CtxAug_congr k _ hk]
  | .right c l a :: k, h => by
    have ha : f' a = f a := h a (mem_ctxNodes_right.2 (Or.inl rfl))
    have hl : ∀ y ∈ l.inorder, f' y = f y := fun y hy =>
      h y (mem_ctxNodes_right.2 (Or.inr (Or.inl hy)))
    have hk : ∀ y ∈ ctxNodes k, f' y = f y := fun y hy =>
      h y (mem_ctxNodes_right.2 (Or.inr (Or.inr hy)))
    simp only [CtxAugUp, ha, AugOK_congr l hl, CtxAug_congr k _ hk]

theorem RBNAME_rotate_eq (v : Nat → V) (fuel : Nat) :
    (RBNAME v fuel).rotate = RBNAME_rotate v := rfl

/-- The successor is deeper than the right child: after the successor is cut
out of the left spine of the right subtree, the hooks `copy(node, successor)`
and `propagate(parent, successor)` make the summaries of that subtree right,
and leave the summary of the erased node at the successor. -/
theorem deep_propagate_aug (v : Nat → V) (fuel : Nat) {s : State (Augmented V)} {k rk : Ctx}
    {c cl cs : Color} {ll lr C : Tree} {n lx sx : Nat} {f : Nat → V}
    (h : WF s (plug k (.node c (.node cl ll lx lr) n (plug rk (.node cs .nil sx C)))))
    (hrk : rk ≠ []) (hal : AllLeft rk) (hfa : s.aug = some f)
    (hok : AugOK v f (plug rk (.node cs .nil sx C))) (hfuel : rk.length < fuel) :
    ∃ f2, (((chx_rb_set_parent ((s.store_left (ctxAddr n rk) C.addr).store_right sx
          (plug rk (.node cs .nil sx C)).addr) (plug rk (.node cs .nil sx C)).addr sx).call
          (RBNAME v fuel).copy n sx).call (RBNAME v fuel).propagate (ctxAddr n rk) sx).aug
        = some f2 ∧
      AugOK v f2 (plug rk C.paintBlack) ∧ f2 sx = f n ∧
      ∀ y, y ∉ ctxNodes rk → y ≠ sx → f2 y = f y := by
  obtain ⟨hk, hT, hnd⟩ := WF_plug'.1 h
  obtain ⟨hn0, hn4, hnpc, hnl, hnr, hL, hTr⟩ := hT
  rw [Rep_plug] at hTr
  obtain ⟨hrkc, hX⟩ := hTr
  obtain ⟨hsx0, hsx4, hsxpc, hsxl, hsxr, -, hC⟩ := hX
  simp only [addr_node, addr_nil] at hrkc
  generalize hR : (plug rk (.node cs .nil sx C)).addr = R at hrkc hnr ⊢
  obtain ⟨hRmem, ctop, hRpc⟩ := RepCtx_top rk sx hrk hrkc
  have ha1mem : ctxAddr n rk ∈ ctxNodes rk := ctxAddr_mem n rk hrk
  have hndT : (Tree.node c (.node cl ll lx lr) n (plug rk (.node cs .nil sx C))).inorder.Nodup :=
    (List.nodup_append.1 hnd).1
  have hndR : (plug rk (.node cs .nil sx C)).inorder.Nodup := by
    simp only [Tree.inorder] at hndT
    exact (List.nodup_cons.1 (List.nodup_append.1 hndT).2.1).2
  have hndR' := (inorder_plug_perm rk _).nodup_iff.1 hndR
  simp only [Tree.inorder, List.nil_append, List.cons_append, List.nodup_cons, List.nodup_append,
    List.mem_append, not_or] at hndR'
  obtain ⟨⟨hsxC, hsxrk⟩, hCnd, hrknd, hdis⟩ := hndR'
  have ha1sx : ctxAddr n rk ≠ sx := fun e => hsxrk (e ▸ ha1mem)
  have hRsx : R ≠ sx := fun e => hsxrk (e ▸ hRmem)
  have hCol : chx_rb_color ((s.store_left (ctxAddr n rk) C.addr).store_right sx R) R
      = ctop.bit := by
    simp only [chx_rb_color, store_right_pc, store_left_pc, hRpc]
    exact color_of_word ctop hn4
  have hctx2 : RepCtx (chx_rb_set_parent ((s.store_left (ctxAddr n rk) C.addr).store_right sx R)
      R sx).mem R sx rk C.addr := by
    refine RepCtx_rehang (τ := ctop) hRpc ?_ ?_ rk sx _ hrk hal hrknd hrkc ?_ ?_ ?_ ?_
    · simp [chx_rb_set_parent, hCol, Nat.add_comm]
    · simp [chx_rb_set_parent, hRsx]
    · intro x hx hx1 hx2
      have g3 : x ≠ sx := fun e => hsxrk (e ▸ hx)
      simp [chx_rb_set_parent, store_pc_mem_ne, store_left_mem_ne, store_right_mem_ne, hx1, hx2,
        g3]
    · simp [chx_rb_set_parent, ha1sx]
    · intro hne
      simp [chx_rb_set_parent, ha1sx, hne]
    · intro hne
      simp [chx_rb_set_parent, hne, hRsx]
  have hf1 : ∀ y, y ≠ sx → Function.update f sx (f n) y = f y := fun y hy => by
    simp [Function.update, hy]
  have hup1 : CtxAugUp v (Function.update f sx (f n)) rk :=
    (CtxAugUp_congr rk (fun y hy => hf1 y (fun e => hsxrk (e ▸ hy)))).2
      ((AugOK_plug rk _).1 hok).2.up
  obtain ⟨f2, e1, e2, e3⟩ := propagate_loop_spec v hsx4 rk C.addr (Function.update f sx (f n)) fuel
    (s := (chx_rb_set_parent ((s.store_left (ctxAddr n rk) C.addr).store_right sx R) R sx).call
      (RBNAME v fuel).copy n sx) hctx2 hrknd hsxrk hup1 hfuel
  have hCf : ∀ y ∈ C.inorder, f2 y = f y := fun y hy => by
    rw [e3 y (fun hx => hdis hy hx)]
    exact hf1 y (fun e => hsxC (e ▸ hy))
  refine ⟨f2, ?_, ?_, ?_, fun y hy1 hy2 => ?_⟩
  · rw [propagate_callback v fuel _ _ (f := Function.update f sx (f n))
      (copy_eq n sx (by simpa using hfa))]
    rw [ctxAddr_irrel sx n rk hrk] at e1
    exact e1
  · rw [AugOK_plug]
    have hokC : AugOK v f C := ((AugOK_plug rk _).1 hok).1.2.2
    refine ⟨(AugOK_paintBlack C).2 ((AugOK_congr C hCf).2 hokC), ?_⟩
    rw [summary_paintBlack, summary_congr C hCf, summary_eq_ite hC]
    have : (if C.addr ≠ 0 then some (Function.update f sx (f n) C.addr) else none) =
        if C.addr ≠ 0 then some (f C.addr) else none := by
      by_cases hc0 : C.addr = 0
      · simp [hc0]
      · have hcm : C.addr ∈ C.inorder :=
          addr_mem_inorder C (fun e => hc0 ((Rep_addr_eq_zero hC).2 e))
        rw [hf1 _ (fun e => hsxC (e ▸ hcm))]
    rw [← this]
    exact e2
  · rw [e3 sx hsxrk]
    simp
  · rw [e3 y hy1]
    exact hf1 y hy2

/-- After the splice and the hook `propagate`: running the fix-up when
`rebalance` asks for it yields a red-black tree with the subtree maxima right. -/
theorem erase_finish_aug (v : Nat → V) (fuel : Nat) {σ : State (Augmented V)} {K : Ctx}
    {γ : Color} {C : Tree} {ξ : Nat}
    (hwf : WF σ (plug K C.paintBlack)) (hJ : AugInv v σ (plug K C.paintBlack))
    (hXv : (Tree.node γ .nil ξ C).Valid) (hK : CtxOK K (Tree.node γ .nil ξ C).bh)
    (hlen : K.length ≤ fuel) :
    ∃ s' t', (if (if C.addr ≠ 0 then 0 else if γ = .black then ctxAddr 0 K else 0) ≠ 0 then
        __chx_rb_erase_color (RBNAME_rotate v) fuel σ
          (if C.addr ≠ 0 then 0 else if γ = .black then ctxAddr 0 K else 0)
        else some σ) = some s' ∧
      WF s' t' ∧ t'.RB ∧ t'.inorder = (plug K C.paintBlack).inorder ∧ AugInv v s' t' := by
  rw [Valid_node] at hXv
  obtain ⟨hc, hb, -, hCv⟩ := hXv
  simp only [bh_node, bh_nil, Nat.zero_add] at hK hb
  cases C with
  | node cC Cl cx Cr =>
    obtain ⟨-, hT, -⟩ := WF_plug'.1 hwf
    have hcx0 : cx ≠ 0 := hT.1
    simp only [addr_node, ne_eq, hcx0, not_false_eq_true, if_true, not_true_eq_false, if_false]
    refine ⟨σ, _, rfl, hwf, ?_, rfl, hJ⟩
    rw [RB_plug]
    rw [Valid_node] at hCv
    simp only [bh_node] at hb
    have hcC : cC = .red := by
      cases cC
      · rfl
      · simp at hb
    subst hcC
    have hcs : γ = .black := by
      cases γ
      · have := (hc rfl).2
        simp at this
      · rfl
    subst hcs
    simp only [paintBlack_node, color_node]
    refine ⟨Valid_node.2 ⟨by simp, hCv.2.1, hCv.2.2.1, hCv.2.2.2⟩, ?_, topColorOK_black K⟩
    simp only [bh_node, bit_black, bit_red, Nat.add_zero] at hb ⊢
    rw [← hb]
    exact hK
  | nil =>
    simp only [addr_nil, ne_eq, not_true_eq_false, if_false, paintBlack_nil] at hwf hJ ⊢
    cases γ with
    | red =>
      simp only [reduceCtorEq, if_false, not_true_eq_false]
      refine ⟨σ, _, rfl, hwf, ?_, rfl, hJ⟩
      rw [RB_plug]
      exact ⟨Valid_nil, by simpa using hK, topColorOK_black K⟩
    | black =>
      simp only [if_true]
      by_cases hK0 : K = []
      · subst hK0
        simp only [ctxAddr, not_true_eq_false, if_false]
        refine ⟨σ, _, rfl, hwf, ?_, rfl, hJ⟩
        rw [RB_plug]
        exact ⟨Valid_nil, trivial, rfl⟩
      · obtain ⟨hk, -, -⟩ := WF_plug'.1 hwf
        have hne : ctxAddr 0 K ≠ 0 := fun e => hK0 ((RepCtx_ctxAddr_ne_zero hk).1 e)
        simp only [hne, not_false_eq_true, if_true]
        obtain ⟨s', t', e1, e2, e3, e4, e5⟩ :=
          erase_loop_aug v fuel K .nil σ hK0 hlen hwf hJ Valid_nil (by simpa using hK)
        exact ⟨s', t', e1, e2, e3, e4, e5⟩

/-- Erasing the node at the hole of `k` with the hooks of
`CHX_RB_DECLARE_CALLBACKS_MAX`: splice, hooks and fix-up yield a red-black tree
without `n` in which every node stores its subtree maximum. -/
theorem erase_at_aug (v : Nat → V) (fuel : Nat) {s : State (Augmented V)} {k : Ctx}
    {c : Color} {l r : Tree} {n : Nat}
    (h : WF s (plug k (.node c l n r))) (hrb : (plug k (.node c l n r)).RB)
    (hJ : AugInv v s (plug k (.node c l n r)))
    (hfuel : (plug k (.node c l n r)).height ≤ fuel) :
    ∃ s' t', chx_rb_erase_augmented (RBNAME v fuel) fuel s n = some s' ∧ WF s' t' ∧ t'.RB ∧
      t'.inorder = ctxBefore k ++ (l.inorder ++ r.inorder) ++ ctxAfter k ∧
      AugInv v s' t' := by
  obtain ⟨f, hfa, hok⟩ := hJ
  obtain ⟨hokT, hokk⟩ := (AugOK_plug k _).1 hok
  simp only [summary_node] at hokk
  have hup : CtxAugUp v f k := hokk.up
  obtain ⟨hk, hT, hnd⟩ := WF_plug'.1 h
  obtain ⟨hTv, hkOK, htop⟩ := (RB_plug _ _).1 hrb
  have hpar := RepCtx_ctxAddr_aligned hk
  have hpw := parent_of_word c hpar
  have hbw := is_black_word c hpar
  have hlen := plug_height k (.node c l n r)
  have hkl : k.length < fuel := by
    simp only [Tree.height] at hlen
    omega
  obtain ⟨hn0, hn4, hnpc, hnl, hnr, hL, hR⟩ := hT
  unfold chx_rb_erase_augmented __chx_rb_erase_augmented
  simp only [hnl, hnr, hnpc, hpw, hbw, RBNAME_rotate_eq]
  cases l with
  | nil =>
    simp only [addr_nil, if_true]
    cases r with
    | nil =>
      have hwf : WF (__chx_rb_change_child s n 0 (ctxAddr 0 k)) (plug k .nil) :=
        WF_change_child_erase (T := .node c .nil n .nil) (U := .nil) (n := n) hk hnd hn0
          (by simp) rfl (fun _ _ => rfl) trivial (by simp [Tree.inorder])
      have hJσ := propagate_spec v fuel hwf (f := f) (by simpa using hfa) trivial hup hkl
      have hfin := erase_finish_aug v fuel (C := .nil) (γ := c) (ξ := n)
        (σ := (__chx_rb_change_child s n 0 (ctxAddr 0 k)).call (RBNAME v fuel).propagate
          (ctxAddr 0 k) 0)
        (K := k) (by simpa using hwf) hJσ hTv hkOK (by simp only [Tree.height] at hlen; omega)
      simpa [inorder_plug, Tree.inorder] using hfin
    | node cr rl ch rr =>
      have hch0 : ch ≠ 0 := hR.1
      simp only [addr_node, ne_eq, hch0, not_false_eq_true, if_true, not_true_eq_false, if_false]
      have hs := erase_splice_right_spec h
      rw [hnpc, hpw] at hs
      have hJσ := propagate_spec v fuel hs (f := f) (by simpa using hfa)
        (show AugOK v f (.node c rl ch rr) from hokT.2.2) hup hkl
      refine ⟨_, _, rfl, WF_call.2 hs, ?_, by simp [inorder_plug, Tree.inorder], hJσ⟩
      rw [Valid_node] at hTv
      obtain ⟨hc, hb, -, hrv⟩ := hTv
      rw [Valid_node] at hrv
      simp only [bh_node, bh_nil] at hb hkOK
      have hcr : cr = .red := by
        cases cr
        · rfl
        · simp at hb
      subst hcr
      have hcb : c = .black := by
        cases c
        · have := (hc rfl).2
          simp at this
        · rfl
      subst hcb
      rw [RB_plug]
      refine ⟨Valid_node.2 ⟨by simp, hrv.2.1, hrv.2.2.1, hrv.2.2.2⟩, ?_, htop⟩
      simp only [bh_node, bit_black, bit_red, Nat.add_zero, Nat.zero_add] at hb hkOK ⊢
      rw [← hb]
      exact hkOK
  | node cl ll lx lr =>
    have hlx0 : lx ≠ 0 := hL.1
    simp only [addr_node, hlx0, if_false]
    by_cases hr : r = .nil
    · subst hr
      simp only [addr_nil, if_true]
      have hs := erase_splice_left_spec h
      rw [hnpc, hpw] at hs
      have hJσ := propagate_spec v fuel hs (f := f) (by simpa using hfa)
        (show AugOK v f (.node c ll lx lr) from hokT.2.1) hup hkl
      refine ⟨_, _, rfl, WF_call.2 hs, ?_, by simp [inorder_plug, Tree.inorder], hJσ⟩
      rw [Valid_node] at hTv
      obtain ⟨hc, hb, hlv, -⟩ := hTv
      rw [Valid_node] at hlv
      simp only [bh_node, bh_nil] at hb hkOK
      have hcl : cl = .red := by
        cases cl
        · rfl
        · simp at hb
      subst hcl
      have hcb : c = .black := by
        cases c
        · have := (hc rfl).1
          simp at this
        · rfl
      subst hcb
      rw [RB_plug]
      refine ⟨Valid_node.2 ⟨by simp, hlv.2.1, hlv.2.2.1, hlv.2.2.2⟩, ?_, htop⟩
      simpa using hkOK
    · obtain ⟨rk, cs, sx, C, hal, e⟩ := leftmost_split r hr
      subst e
      have hr0 : (plug rk (.node cs .nil sx C)).addr ≠ 0 :=
        fun e0 => hr ((Rep_addr_eq_zero hR).1 e0)
      simp only [hr0, if_false]
      -- abstract facts about the successor position
      have hrb' : (plug (rk ++ .right c (.node cl ll lx lr) n :: k) (.node cs .nil sx C)).RB := by
        rw [plug_append]; exact hrb
      obtain ⟨hXv, hK0, -⟩ := (RB_plug _ _).1 hrb'
      have hK := (CtxOK_right_addr c (.node cl ll lx lr) n sx k rk _).1 hK0
      have hlenK : (rk ++ .right c (.node cl ll lx lr) sx :: k).length < fuel := by
        have := plug_height (rk ++ .right c (.node cl ll lx lr) n :: k) (.node cs .nil sx C)
        rw [plug_append] at this
        simp only [List.length_append, List.length_cons, Tree.height] at this ⊢
        have hfu : (plug k (.node c (.node cl ll lx lr) n (plug rk (.node cs .nil sx C)))).height
            ≤ fuel := hfuel
        simp only [plug] at this
        omega
      have hXrep := ((Rep_plug rk (.node cs .nil sx C)).1 hR).2
      obtain ⟨hsx0, hsx4, hsxpc, hsxl, hsxr, -, hC⟩ := hXrep
      simp only [addr_nil] at hsxl
      have hlxsx : lx ≠ sx := by
        have hm : sx ∈ (plug rk (.node cs .nil sx C)).inorder := by
          rw [inorder_plug]; simp [Tree.inorder]
        have hnd' := (List.nodup_append.1 hnd).1
        simp only [Tree.inorder] at hnd'
        have hd := (List.nodup_append.1 hnd').2.2
        exact fun e => hd (by simp : lx ∈ ll.inorder ++ lx :: lr.inorder)
          (List.mem_cons_of_mem _ (e ▸ hm))
      have ha14 : ctxAddr n rk % 4 = 0 := by
        cases rk with
        | nil => exact hn4
        | cons f rk' =>
          have := ((Rep_plug (f :: rk') (.node cs .nil sx C)).1 hR).1
          cases f with
          | left _ _ _ => exact this.2.1
          | right _ _ _ => exact this.2.1
      have hbsx : ∀ st : State (Augmented V),
          (st.mem sx).__rb_parent_color = (s.mem sx).__rb_parent_color →
          chx_rb_is_black st sx = decide (cs = .black) := by
        intro st hst
        exact is_black_of_word ha14 (by rw [hst]; exact hsxpc)
      have hio : (plug (rk ++ .right c (.node cl ll lx lr) sx :: k) C.paintBlack).inorder =
          ctxBefore k ++ ((Tree.node cl ll lx lr).inorder ++
            (plug rk (.node cs .nil sx C)).inorder) ++ ctxAfter k := by
        simp [plug_append, plug, inorder_plug, Tree.inorder, ctxBefore_allLeft rk hal,
          inorder_paintBlack]
      -- the summaries around the successor
      have hokL : AugOK v f (.node cl ll lx lr) := hokT.2.1
      have hokR : AugOK v f (plug rk (.node cs .nil sx C)) := hokT.2.2
      have hsxR : sx ∈ (plug rk (.node cs .nil sx C)).inorder := by
        rw [inorder_plug]; simp [Tree.inorder]
      have hndT : (Tree.node c (.node cl ll lx lr) n
          (plug rk (.node cs .nil sx C))).inorder.Nodup := (List.nodup_append.1 hnd).1
      have hsxL : sx ∉ (Tree.node cl ll lx lr).inorder := by
        simp only [Tree.inorder] at hndT
        exact fun hx => (List.nodup_append.1 hndT).2.2 hx (List.mem_cons_of_mem _ hsxR)
      have hsxk : sx ∉ ctxNodes k := fun hx =>
        (List.nodup_append.1 hnd).2.2 (by
          simp only [Tree.inorder, List.mem_append, List.mem_cons]
          exact Or.inr (Or.inr hsxR)) hx
      have hrkT : ∀ y ∈ ctxNodes rk, y ∉ (Tree.node cl ll lx lr).inorder ∧ y ∉ ctxNodes k := by
        intro y hy
        have hyR : y ∈ (plug rk (.node cs .nil sx C)).inorder := mem_plug_of_mem_ctx hy
        refine ⟨fun hx => ?_, fun hx => ?_⟩
        · simp only [Tree.inorder] at hndT
          exact (List.nodup_append.1 hndT).2.2 hx (List.mem_cons_of_mem _ hyR)
        · exact (List.nodup_append.1 hnd).2.2 (by
            simp only [Tree.inorder, List.mem_append, List.mem_cons]
            exact Or.inr (Or.inr hyR)) hx
      cases rk with
      | nil =>
        simp only [plug, addr_node] at hr0 hnr h hR hokR ⊢
        simp only [hsxl, hsxr, if_true]
        have hs := erase_splice_successor_child_spec (s := s.call (RBNAME v fuel).copy n sx)
          (WF_call.2 h)
        have hreb := splice_rebalance (s := s.call (RBNAME v fuel).copy n sx) (n := n) (ξ := sx)
          (p := sx) (χ := C.addr) (by simpa [hnl] using hlxsx)
        rw [hbsx (s.call (RBNAME v fuel).copy n sx) rfl] at hreb
        have hf1 : ∀ y, y ≠ sx → Function.update f sx (f n) y = f y := fun y hy => by
          simp [Function.update, hy]
        have hsxC : sx ∉ C.inorder := by
          have := hndT
          simp only [Tree.inorder, List.nil_append, List.nodup_append, List.nodup_cons] at this
          exact this.2.1.2.1
        have haug1 : (erase_splice_successor (s.call (RBNAME v fuel).copy n sx) n sx sx
            C.addr).1.aug = some (Function.update f sx (f n)) := by
          rw [splice_successor_aug, call_aug]
          exact copy_eq n sx hfa
        have hTC : AugOK v (Function.update f sx (f n)) C.paintBlack :=
          (AugOK_paintBlack C).2
            ((AugOK_congr C (fun y hy => hf1 y (fun e => hsxC (e ▸ hy)))).2 hokR.2.2)
        have hup' : CtxAugUp v (Function.update f sx (f n))
            (.right c (.node cl ll lx lr) sx :: k) := by
          refine ⟨(AugOK_congr _ (fun y hy => hf1 y (fun e => hsxL (e ▸ hy)))).2 hokL, ?_⟩
          rw [CtxAug_congr k _ (fun y hy => hf1 y (fun e => hsxk (e ▸ hy)))]
          simpa using hokk
        have hJσ := propagate_spec v fuel (k := .right c (.node cl ll lx lr) sx :: k)
          (T := C.paintBlack) hs haug1 hTC hup' (by simpa using hlenK)
        have hfin := erase_finish_aug v fuel (C := C) (γ := cs) (ξ := sx)
          (σ := (erase_splice_successor (s.call (RBNAME v fuel).copy n sx) n sx sx C.addr).1.call
            (RBNAME v fuel).propagate
            (erase_splice_successor (s.call (RBNAME v fuel).copy n sx) n sx sx C.addr).2.2 0)
          (K := .right c (.node cl ll lx lr) sx :: k) (WF_call.2 hs) hJσ hXv hK
          (by simpa using hlenK.le)
        obtain ⟨s', t', e1, e2, e3, e4, e5⟩ := hfin
        refine ⟨s', t', ?_, e2, e3, e4.trans hio, e5⟩
        rw [hreb]
        simpa [ctxAddr, Frame.addr] using e1
      | cons fr rk' =>
        have hrk : fr :: rk' ≠ [] := by simp
        have hne := spine_left_ne_zero (fr :: rk') n hrk hal hR
        have hloop := successor_loop_spec (fr :: rk') n fuel hrk hal hR (by
          simp only [List.length_append, List.length_cons] at hlenK ⊢
          omega)
        simp only [hne, if_false, hloop, hsxr]
        have hs := erase_splice_deep_spec (RBNAME v fuel).copy (RBNAME v fuel).propagate h hrk hal
          rfl rfl
        -- distinctness of the nodes read by the splice
        have hmR : ∀ x ∈ ctxNodes (fr :: rk'),
            x ∈ (plug (fr :: rk') (.node cs .nil sx C)).inorder := fun x hx =>
          mem_plug_of_mem_ctx hx
        have hndT' := hndT
        simp only [Tree.inorder] at hndT'
        have hnR : n ∉ (plug (fr :: rk') (.node cs .nil sx C)).inorder := by
          have := (List.nodup_append.1 hndT').2.1
          exact (List.nodup_cons.1 this).1
        have ha1mem := ctxAddr_mem n (fr :: rk') hrk
        obtain ⟨hRmem, -⟩ := RepCtx_top (fr :: rk') _ hrk ((Rep_plug _ _).1 hR).1
        have hna1 : n ≠ ctxAddr n (fr :: rk') := fun e => hnR (hmR _ (e ▸ ha1mem))
        have hndR : (plug (fr :: rk') (.node cs .nil sx C)).inorder.Nodup :=
          (List.nodup_cons.1 (List.nodup_append.1 hndT').2.1).2
        have hsxR' : sx ≠ (plug (fr :: rk') (.node cs .nil sx C)).addr := by
          have hp := (inorder_plug_perm (fr :: rk') (.node cs .nil sx C)).nodup_iff.1 hndR
          have hd := (List.nodup_append.1 hp).2.2
          exact fun e => hd (by simp [Tree.inorder] : sx ∈ (Tree.node cs .nil sx C).inorder)
            (e ▸ hRmem)
        have hreb := splice_rebalance
          (s := ((chx_rb_set_parent ((s.store_left (ctxAddr n (fr :: rk')) C.addr).store_right sx
            (plug (fr :: rk') (.node cs .nil sx C)).addr)
            (plug (fr :: rk') (.node cs .nil sx C)).addr sx).call (RBNAME v fuel).copy n sx).call
            (RBNAME v fuel).propagate (ctxAddr n (fr :: rk')) sx)
          (n := n) (ξ := sx) (p := ctxAddr n (fr :: rk')) (χ := C.addr)
          (by simpa [chx_rb_set_parent, hna1, hnl] using hlxsx)
        rw [hbsx _ (by simp [chx_rb_set_parent, hsxR'])] at hreb
        obtain ⟨f2, haug3, hok2, hf2sx, hf2⟩ := deep_propagate_aug v fuel h hrk hal hfa hokR (by
          simp only [List.length_append, List.length_cons] at hlenK ⊢
          omega)
        generalize hs3 : ((chx_rb_set_parent
            ((s.store_left (ctxAddr n (fr :: rk')) C.addr).store_right sx
            (plug (fr :: rk') (.node cs .nil sx C)).addr)
            (plug (fr :: rk') (.node cs .nil sx C)).addr sx).call (RBNAME v fuel).copy n sx).call
            (RBNAME v fuel).propagate (ctxAddr n (fr :: rk')) sx = s3 at hs hreb haug3 ⊢
        have hsxrk : sx ∉ ctxNodes (fr :: rk') := by
          have hp := (inorder_plug_perm (fr :: rk') (.node cs .nil sx C)).nodup_iff.1 hndR
          have hd := (List.nodup_append.1 hp).2.2
          exact fun hx => hd (by simp [Tree.inorder] : sx ∈ (Tree.node cs .nil sx C).inorder) hx
        have hup2 : CtxAugUp v f2 (.right c (.node cl ll lx lr) sx :: k) := by
          refine ⟨(AugOK_congr _ (fun y hy => hf2 y (fun hx => (hrkT y hx).1 hy)
            (fun e => hsxL (e ▸ hy)))).2 hokL, ?_⟩
          rw [CtxAug_congr k _ (fun y hy => hf2 y (fun hx => (hrkT y hx).2 hy)
            (fun e => hsxk (e ▸ hy)))]
          simpa [hf2sx] using hokk
        have hJσ := propagate_spec v fuel (k := .right c (.node cl ll lx lr) sx :: k)
          (T := plug (fr :: rk') C.paintBlack) hs
          (by rw [splice_successor_aug]; exact haug3) hok2 hup2 (by
            simp only [List.length_append, List.length_cons] at hlenK ⊢
            omega)
        have hfin := erase_finish_aug v fuel (C := C) (γ := cs) (ξ := sx)
          (σ := (erase_splice_successor s3 n sx (ctxAddr n (fr :: rk')) C.addr).1.call
            (RBNAME v fuel).propagate
            (erase_splice_successor s3 n sx (ctxAddr n (fr :: rk')) C.addr).2.2 0)
          (K := (fr :: rk') ++ .right c (.node cl ll lx lr) sx :: k)
          (by rw [plug_append]; exact WF_call.2 hs) (by rw [plug_append]; exact hJσ) hXv hK
          hlenK.le
        obtain ⟨s', t', e1, e2, e3, e4, e5⟩ := hfin
        refine ⟨s', t', ?_, e2, e3, e4.trans hio, e5⟩
        rw [hreb]
        simpa [ctxAddr, Frame.addr] using e1

end EraseAug


/-! ## Subtree maxima: `chx_rb_add_augmented_cached` -/

@[simp] theorem store_link_aug (s : State α) (l : Link) (x : Nat) :
    (s.store_link l x).aug = s.aug := by
  cases l <;> rfl

@[simp] theorem link_node_aug (s : State α) (node parent : Nat) (link : Link) :
    (chx_rb_link_node s node parent link).aug = s.aug := by
  simp [chx_rb_link_node]

section InsertAug

variable {V : Type} [LinearOrder V]

/-- Linking a fresh node whose summary is its own scalar into the hole of a
context, running `propagate(parent, NULL)` and then the insert fix-up with the
hook `rotate`: the result is a red-black tree with the node at that position
in which every node stores its subtree maximum. -/
theorem insert_augmented_at (v : Nat → V) (fuel : Nat) {s : State (Augmented V)} {k : Ctx}
    {node : Nat} {f : Nat → V}
    (h : WF s (plug k .nil)) (hrb : (plug k .nil).RB)
    (hn0 : node ≠ 0) (hn4 : node % 4 = 0) (hfresh : node ∉ (plug k .nil).inorder)
    (hfa : s.aug = some f) (hok : AugOK v f (plug k .nil)) (hnew : f node = v node)
    (hfuel : (plug k .nil).height < fuel) :
    ∃ s' t', chx_rb_insert_augmented (RBNAME v fuel) fuel
        ((chx_rb_link_node s node (ctxAddr 0 k) (ctxLink k)).call (RBNAME v fuel).propagate
          (ctxAddr 0 k) 0) node = some s' ∧
      WF s' t' ∧ t'.RB ∧ t'.inorder = ctxBefore k ++ node :: ctxAfter k ∧ AugInv v s' t' := by
  have hl := link_node_spec h hn0 hn4 hfresh
  obtain ⟨hv, hk, -⟩ := (RB_plug k .nil).1 hrb
  have hlen : k.length < fuel := by
    have := plug_height k .nil
    omega
  have hT : AugOK v f (.node .red .nil node .nil) :=
    ⟨by simp [summary_nil, hnew], trivial, trivial⟩
  have hJ1 := propagate_spec v fuel hl (f := f) (by simpa using hfa) hT
    ((AugOK_plug k _).1 hok).2.up hlen
  obtain ⟨s', t', e1, e2, e3, e4, e5⟩ := insert_loop_aug v fuel k .nil .nil node _
    (by omega) (WF_call.2 hl) hJ1
    (Valid_node.2 ⟨fun _ => ⟨rfl, rfl⟩, rfl, Valid_nil, Valid_nil⟩) hk
  refine ⟨s', t', ?_, e2, e3, by simpa [inorder_plug, Tree.inorder] using e4, e5⟩
  rw [chx_rb_insert_augmented, __chx_rb_insert_augmented, __chx_rb_insert, RBNAME_rotate_eq]
  have hpar : chx_rb_red_parent ((chx_rb_link_node s node (ctxAddr 0 k) (ctxLink k)).call
      (RBNAME v fuel).propagate (ctxAddr 0 k) 0) node = ctxAddr 0 k := by
    obtain ⟨-, hT, -⟩ := WF_plug'.1 hl
    simpa [chx_rb_red_parent] using hT.2.2.1
  rw [hpar]
  exact e1

/-- Function `chx_rb_add_augmented_cached` on a red-black tree with right
summaries and a new node that stores its own scalar. -/
theorem add_augmented_cached_at (v : Nat → V) (less : Nat → Nat → Bool) (fuel : Nat)
    {cs : CachedState (Augmented V)} {t : Tree} {node : Nat} {f : Nat → V}
    (h : WF cs.rb_root t) (hrb : t.RB) (hn0 : node ≠ 0) (hn4 : node % 4 = 0)
    (hfresh : node ∉ t.inorder) (hfa : cs.rb_root.aug = some f) (hok : AugOK v f t)
    (hnew : f node = v node) (hfuel : t.height < fuel) :
    ∃ k cs' t', t = plug k .nil ∧
      chx_rb_add_augmented_cached less (RBNAME v fuel) fuel cs node =
        some (cs', if allLeft k then node else 0) ∧
      WF cs'.rb_root t' ∧ t'.RB ∧ t'.inorder = ctxBefore k ++ node :: ctxAfter k ∧
      AugInv v cs'.rb_root t' ∧
      cs'.rb_leftmost = if allLeft k then node else cs.rb_leftmost := by
  obtain ⟨k, e1, e2, e3⟩ := add_cached_descend_spec less t [] fuel h hfuel trivial
  have e2' : t = plug k .nil := e2.symm
  subst e2'
  obtain ⟨s', t', f1, f2, f3, f4, f5⟩ :=
    insert_augmented_at v fuel h hrb hn0 hn4 hfresh hfa hok hnew hfuel
  change chx_rb_add_cached_descend less cs.rb_root node fuel .root 0 true = _ at e1
  refine ⟨k, ⟨s', if allLeft k then node else cs.rb_leftmost⟩, t', rfl, ?_, f2, f3, f4, f5,
    rfl⟩
  rw [chx_rb_add_augmented_cached, e1]
  simp only [chx_rb_insert_augmented_cached]
  by_cases hal : allLeft k = true
  · simp only [hal, if_true]
    rw [f1]
  · simp only [hal, if_false, Bool.false_eq_true]
    rw [f1]

end InsertAug


/-! ## Subtree maxima under erase and insert -/

/-- Claim C27.  The hooks are those that `CHX_RB_DECLARE_CALLBACKS_MAX`
generates for a per-node scalar `v`, and the state holds a red-black tree in
which every node stores the maximum of its own scalar and the summaries of the
children it has.  Then `chx_rb_erase_augmented` of any node of the tree
returns, and in the tree held afterwards, which has the other nodes in their
old order, every node again stores that maximum. -/
theorem erase_augmented_keeps_max {V : Type} [LinearOrder V] (v : Nat → V)
    (s : State (Augmented V)) (t : Tree) (n fuel : Nat)
    (hwf : WF s t) (hrb : t.RB) (hn : n ∈ t.inorder)
    (hmax : MaxSummaries v s.mem t.inorder s.aug) (hfuel : t.height ≤ fuel) :
    ∃ s' t', chx_rb_erase_augmented (RBNAME v fuel) fuel s n = some s' ∧ WF s' t' ∧ t'.RB ∧
      t'.inorder = t.inorder.erase n ∧ MaxSummaries v s'.mem t'.inorder s'.aug := by
  obtain ⟨k, c, l, r, e⟩ := mem_split_plug t n hn
  subst e
  obtain ⟨s', t', e1, e2, e3, e4, e5⟩ :=
    erase_at_aug v fuel hwf hrb ((AugInv_iff_heap hwf).2 hmax) hfuel
  refine ⟨s', t', e1, e2, e3, ?_, (AugInv_iff_heap e2).1 e5⟩
  rw [e4, inorder_plug_erase hwf.2.2]

theorem erase_augmented_keeps_max_witness :
    WF demo_aug demo_tree ∧ demo_tree.RB ∧
    MaxSummaries demo_key demo_aug.mem demo_tree.inorder demo_aug.aug ∧
    ∃ s' t', chx_rb_erase_augmented (RBNAME demo_key 2) 2 demo_aug 8 = some s' ∧ WF s' t' ∧
      t'.RB ∧ t'.inorder = demo_tree.inorder.erase 8 ∧
      MaxSummaries demo_key s'.mem t'.inorder s'.aug :=
  ⟨by decide, by decide, by decide,
    erase_augmented_keeps_max demo_key demo_aug demo_tree 8 2 (by decide) (by decide)
      (by decide) (by decide) (by decide)⟩

/-- Claim C28.  The hooks are those that `CHX_RB_DECLARE_CALLBACKS_MAX`
generates for a per-node scalar `v`.  The state holds a red-black tree in which
every node stores the maximum of its own scalar and the summaries of the
children it has, and the new node `n` stores its own scalar `v n`.  Then
`chx_rb_add_augmented_cached` returns, although `propagate` stops at the first
ancestor whose stored maximum does not change, and in the tree held
afterwards, which has `n` and the old nodes, every node stores that maximum. -/
theorem add_augmented_cached_keeps_max {V : Type} [LinearOrder V] (v : Nat → V)
    (less : Nat → Nat → Bool) (cs : CachedState (Augmented V)) (t : Tree) (n fuel : Nat)
    (hwf : WF cs.rb_root t) (hrb : t.RB) (hn0 : n ≠ 0) (hn4 : n % 4 = 0)
    (hfresh : n ∉ t.inorder)
    (hmax : MaxSummaries v cs.rb_root.mem t.inorder cs.rb_root.aug)
    (hnew : cs.rb_root.aug.map (fun f => f n) = some (v n)) (hfuel : t.height < fuel) :
    ∃ cs' ret t', chx_rb_add_augmented_cached less (RBNAME v fuel) fuel cs n = some (cs', ret) ∧
      WF cs'.rb_root t' ∧ t'.RB ∧ t'.inorder.Perm (n :: t.inorder) ∧
      MaxSummaries v cs'.rb_root.mem t'.inorder cs'.rb_root.aug := by
  obtain ⟨f, hfa, hok⟩ := (AugInv_iff_heap hwf).2 hmax
  have hfn : f n = v n := by simpa [hfa] using hnew
  obtain ⟨k, cs', t', e0, e1, e2, e3, e4, e5, -⟩ :=
    add_augmented_cached_at v less fuel hwf hrb hn0 hn4 hfresh hfa hok hfn hfuel
  refine ⟨cs', _, t', e1, e2, e3, ?_, (AugInv_iff_heap e2).1 e5⟩
  rw [e4, e0, inorder_plug_nil]
  exact List.perm_middle

theorem add_augmented_cached_keeps_max_witness :
    WF demo_aug_cached.rb_root demo_tree ∧ demo_tree.RB ∧
    MaxSummaries demo_key demo_aug_cached.rb_root.mem demo_tree.inorder
      demo_aug_cached.rb_root.aug ∧
    demo_aug_cached.rb_root.aug.map (fun f => f 16) = some (demo_key 16) ∧
    ∃ cs' ret t', chx_rb_add_augmented_cached (less_func demo_key) (RBNAME demo_key 3) 3
        demo_aug_cached 16 = some (cs', ret) ∧
      WF cs'.rb_root t' ∧ t'.RB ∧ t'.inorder.Perm (16 :: demo_tree.inorder) ∧
      MaxSummaries demo_key cs'.rb_root.mem t'.inorder cs'.rb_root.aug :=
  ⟨by decide, by decide, by decide, by decide,
    add_augmented_cached_keeps_max demo_key (less_func demo_key) demo_aug_cached demo_tree 16 3
      (by decide) (by decide) (by decide) (by decide) (by decide) (by decide) (by decide)
      (by decide)⟩


/-! ## The structural splice on its own -/

theorem plug_node_ne_nil (k : Ctx) (c : Color) (l r : Tree) (a : Nat) :
    plug k (.node c l a r) ≠ .nil := by
  intro e
  have h := congrArg Tree.inorder e
  rw [inorder_plug] at h
  have hm : a ∈ ctxBefore k ++ (Tree.node c l a r).inorder ++ ctxAfter k := by
    simp [Tree.inorder]
  rw [h] at hm
  simp [Tree.inorder] at hm

/-- A node of a represented tree has a null parent exactly when it is the
root. -/
theorem parent_zero_iff_root {s : State α} {t : Tree} {n : Nat} (h : WF s t)
    (hn : n ∈ t.inorder) : chx_rb_parent s n = 0 ↔ s.rb_node = n := by
  obtain ⟨k, c, l, r, e⟩ := mem_split_plug t n hn
  subst e
  have hroot := h.1
  obtain ⟨hk, hT, hnd⟩ := WF_plug'.1 h
  have hpar := RepCtx_ctxAddr_aligned hk
  have hpw := parent_of_word c hpar
  have hnk : n ∉ ctxNodes k := fun hx => frame_ne hnd hx (by simp [Tree.inorder]) rfl
  unfold chx_rb_parent
  rw [hT.2.2.1, hpw]
  cases k with
  | nil => simp [ctxAddr, hroot, plug]
  | cons f k' =>
    have hm := ctxAddr_mem_ctxNodes (f :: k') (by simp)
    have h0 : ctxAddr 0 (f :: k') ≠ 0 := by
      intro e0
      have hmem : ctxAddr 0 (f :: k') ∈ (plug (f :: k') (.node c l n r)).inorder :=
        mem_plug_of_mem_ctx hm
      exact Rep_mem_ne_zero _ _ h.2.1 _ hmem e0
    constructor
    · intro e0
      exact absurd e0 h0
    · intro e0
      exfalso
      have hadd := (RepCtx_top (f :: k') _ (by simp) hk).1
      rw [e0] at hadd
      exact hnk hadd

/-- The splice of a node with two children: the successor `sx`, the leftmost
node of the right subtree, takes the place of `n`, the right child `C` of the
successor takes the place of the successor and is painted black, and a fix-up
is asked for at the old position of the successor when the successor was a
black node without a child. -/
theorem splice_two_at (aug : chx_rb_augment_callbacks α) (fuel : Nat) {s : State α}
    {k rk : Ctx} {c cl cs : Color} {ll lr C : Tree} {n lx sx : Nat}
    (h : WF s (plug k (.node c (.node cl ll lx lr) n (plug rk (.node cs .nil sx C)))))
    (hal : AllLeft rk) (hfuel : rk.length ≤ fuel) :
    ∃ σ, __chx_rb_erase_augmented aug fuel s n =
        some (σ, if C.addr ≠ 0 then 0 else if cs = .black then ctxAddr sx rk else 0) ∧
      WF σ (plug k (.node c (.node cl ll lx lr) sx (plug rk C.paintBlack))) := by
  obtain ⟨hk, hT, hnd⟩ := WF_plug'.1 h
  have hpar := RepCtx_ctxAddr_aligned hk
  have hpw := parent_of_word c hpar
  have hbw := is_black_word c hpar
  obtain ⟨hn0, hn4, hnpc, hnl, hnr, hL, hR⟩ := hT
  unfold __chx_rb_erase_augmented
  simp only [hnl, hnr, hnpc, hpw, hbw]
  have hlx0 : lx ≠ 0 := hL.1
  simp only [addr_node, hlx0, if_false]
  have hr0 : (plug rk (.node cs .nil sx C)).addr ≠ 0 :=
    fun e0 => plug_node_ne_nil rk cs .nil C sx ((Rep_addr_eq_zero hR).1 e0)
  simp only [hr0, if_false]
  have hXrep := ((Rep_plug rk (.node cs .nil sx C)).1 hR).2
  obtain ⟨hsx0, hsx4, hsxpc, hsxl, hsxr, -, hC⟩ := hXrep
  simp only [addr_nil] at hsxl
  have hlxsx : lx ≠ sx := by
    have hm : sx ∈ (plug rk (.node cs .nil sx C)).inorder := by
      rw [inorder_plug]; simp [Tree.inorder]
    have hnd' := (List.nodup_append.1 hnd).1
    simp only [Tree.inorder] at hnd'
    have hd := (List.nodup_append.1 hnd').2.2
    exact fun e => hd (by simp : lx ∈ ll.inorder ++ lx :: lr.inorder)
      (List.mem_cons_of_mem _ (e ▸ hm))
  have ha14 : ctxAddr n rk % 4 = 0 := by
    cases rk with
    | nil => exact hn4
    | cons f rk' =>
      have := ((Rep_plug (f :: rk') (.node cs .nil sx C)).1 hR).1
      cases f with
      | left _ _ _ => exact this.2.1
      | right _ _ _ => exact this.2.1
  have hbsx : ∀ st : State α,
      (st.mem sx).__rb_parent_color = (s.mem sx).__rb_parent_color →
      chx_rb_is_black st sx = decide (cs = .black) := by
    intro st hst
    exact is_black_of_word ha14 (by rw [hst]; exact hsxpc)
  cases rk with
  | nil =>
    simp only [plug, addr_node] at hr0 hnr h hR ⊢
    simp only [hsxl, hsxr, if_true]
    have hs := erase_splice_successor_child_spec (s := s.call aug.copy n sx) (WF_call.2 h)
    have hreb := splice_rebalance (s := s.call aug.copy n sx) (n := n) (ξ := sx) (p := sx)
      (χ := C.addr) (by simpa [hnl] using hlxsx)
    rw [hbsx (s.call aug.copy n sx) rfl] at hreb
    refine ⟨(erase_splice_successor (s.call aug.copy n sx) n sx sx C.addr).1.call
      aug.propagate (erase_splice_successor (s.call aug.copy n sx) n sx sx C.addr).2.2 0,
      ?_, WF_call.2 hs⟩
    rw [hreb]
    simp [ctxAddr]
  | cons f rk' =>
    have hrk : f :: rk' ≠ [] := by simp
    have hne := spine_left_ne_zero (f :: rk') n hrk hal hR
    have hloop := successor_loop_spec (f :: rk') n fuel hrk hal hR hfuel
    simp only [hne, if_false, hloop, hsxr]
    have hs := erase_splice_deep_spec aug.copy aug.propagate h hrk hal rfl rfl
    have hmR : ∀ x ∈ ctxNodes (f :: rk'),
        x ∈ (plug (f :: rk') (.node cs .nil sx C)).inorder := fun x hx =>
      mem_plug_of_mem_ctx hx
    have hndT := (List.nodup_append.1 hnd).1
    simp only [Tree.inorder] at hndT
    have hnR : n ∉ (plug (f :: rk') (.node cs .nil sx C)).inorder := by
      have := (List.nodup_append.1 hndT).2.1
      exact (List.nodup_cons.1 this).1
    have ha1mem := ctxAddr_mem n (f :: rk') hrk
    obtain ⟨hRmem, -⟩ := RepCtx_top (f :: rk') _ hrk ((Rep_plug _ _).1 hR).1
    have hna1 : n ≠ ctxAddr n (f :: rk') := fun e => hnR (hmR _ (e ▸ ha1mem))
    have hndR : (plug (f :: rk') (.node cs .nil sx C)).inorder.Nodup :=
      (List.nodup_cons.1 (List.nodup_append.1 hndT).2.1).2
    have hsxR : sx ≠ (plug (f :: rk') (.node cs .nil sx C)).addr := by
      have hp := (inorder_plug_perm (f :: rk') (.node cs .nil sx C)).nodup_iff.1 hndR
      have hd := (List.nodup_append.1 hp).2.2
      exact fun e => hd (by simp [Tree.inorder] : sx ∈ (Tree.node cs .nil sx C).inorder)
        (e ▸ hRmem)
    have hreb := splice_rebalance
      (s := ((chx_rb_set_parent ((s.store_left (ctxAddr n (f :: rk')) C.addr).store_right sx
        (plug (f :: rk') (.node cs .nil sx C)).addr)
        (plug (f :: rk') (.node cs .nil sx C)).addr sx).call aug.copy n sx).call
        aug.propagate (ctxAddr n (f :: rk')) sx)
      (n := n) (ξ := sx) (p := ctxAddr n (f :: rk')) (χ := C.addr)
      (by simpa [chx_rb_set_parent, hna1, hnl] using hlxsx)
    rw [hbsx _ (by simp [chx_rb_set_parent, hsxR])] at hreb
    generalize hs3 : ((chx_rb_set_parent
        ((s.store_left (ctxAddr n (f :: rk')) C.addr).store_right sx
        (plug (f :: rk') (.node cs .nil sx C)).addr)
        (plug (f :: rk') (.node cs .nil sx C)).addr sx).call aug.copy n sx).call
        aug.propagate (ctxAddr n (f :: rk')) sx = s3 at hs hreb ⊢
    refine ⟨(erase_splice_successor s3 n sx (ctxAddr n (f :: rk')) C.addr).1.call
      aug.propagate (erase_splice_successor s3 n sx (ctxAddr n (f :: rk')) C.addr).2.2 0,
      ?_, WF_call.2 hs⟩
    rw [hreb]
    simp [ctxAddr]


/-! ## Claims on the splice, the parent word, the order of nodes and the cache -/

/-- Claim C31, as amended.  Node `n` of the tree held by the state has at most
one child.  Then `__chx_rb_erase_augmented` returns; a non-null child of `n`
receives the parent-and-colour word of `n` and null is returned; when `n` has no
child, the value returned is non-null if and only if `n` was black and is not the
root (its parent is not null), and a non-null value returned is the parent of
`n`. -/
theorem splice_at_most_one_child (aug : chx_rb_augment_callbacks α) (fuel : Nat)
    (s : State α) (t : Tree) (n : Nat) (hwf : WF s t) (hn : n ∈ t.inorder)
    (hone : (s.mem n).rb_left = 0 ∨ (s.mem n).rb_right = 0) :
    ∃ s' reb, __chx_rb_erase_augmented aug fuel s n = some (s', reb) ∧
      (∀ ch, ch ≠ 0 → (ch = (s.mem n).rb_left ∨ ch = (s.mem n).rb_right) →
        (s'.mem ch).__rb_parent_color = (s.mem n).__rb_parent_color ∧ reb = 0) ∧
      ((s.mem n).rb_left = 0 → (s.mem n).rb_right = 0 →
        (reb ≠ 0 ↔ chx_rb_is_black s n = true ∧ s.rb_node ≠ n ∧ chx_rb_parent s n ≠ 0) ∧
        (reb ≠ 0 → reb = chx_rb_parent s n)) := by
  have hp := parent_zero_iff_root hwf hn
  unfold __chx_rb_erase_augmented
  by_cases hl : (s.mem n).rb_left = 0
  · by_cases hr : (s.mem n).rb_right = 0
    · simp only [hl, hr, if_true, ne_eq, not_true_eq_false, if_false]
      refine ⟨_, _, rfl, ?_, ?_⟩
      · rintro ch hch (e | e)
        · exact absurd e hch
        · exact absurd e hch
      · intro _ _
        by_cases hb : __chx_rb_is_black (s.mem n).__rb_parent_color = true
        · simp only [hb, if_true, chx_rb_is_black, chx_rb_parent, true_and] at hp ⊢
          refine ⟨?_, fun _ => trivial⟩
          constructor
          · intro h0
            exact ⟨fun e => h0 (hp.2 e), h0⟩
          · intro h0
            exact h0.2
        · simp only [hb, chx_rb_is_black, if_false]
          simp
    · simp only [hl, if_true, ne_eq, hr, not_false_eq_true]
      refine ⟨_, _, rfl, ?_, ?_⟩
      · rintro ch hch (e | e)
        · exact absurd e hch
        · subst e
          simp [State.call, State.store_pc]
      · intro _ h0
        exact h0.elim
  · have hr : (s.mem n).rb_right = 0 := by
      rcases hone with h | h
      · exact absurd h hl
      · exact h
    simp only [hl, if_false, hr, if_true]
    refine ⟨_, _, rfl, ?_, ?_⟩
    · rintro ch hch (e | e)
      · subst e
        simp [State.call, change_child_pc, State.store_pc]
      · exact absurd e hch
    · intro h0
      exact h0.elim

theorem splice_at_most_one_child_witness :
    WF demo_state demo_tree ∧ 4 ∈ demo_tree.inorder ∧
    ∃ s' reb, __chx_rb_erase_augmented dummy_callbacks 1 demo_state 4 = some (s', reb) ∧
      (∀ ch, ch ≠ 0 → (ch = (demo_state.mem 4).rb_left ∨ ch = (demo_state.mem 4).rb_right) →
        (s'.mem ch).__rb_parent_color = (demo_state.mem 4).__rb_parent_color ∧ reb = 0) ∧
      ((demo_state.mem 4).rb_left = 0 → (demo_state.mem 4).rb_right = 0 →
        (reb ≠ 0 ↔ chx_rb_is_black demo_state 4 = true ∧ demo_state.rb_node ≠ 4 ∧
          chx_rb_parent demo_state 4 ≠ 0) ∧
        (reb ≠ 0 → reb = chx_rb_parent demo_state 4)) :=
  ⟨by decide, by decide,
    splice_at_most_one_child dummy_callbacks 1 demo_state demo_tree 4 (by decide) (by decide)
      (by decide)⟩

/-- Counterexample to claim C31 as stated: the only node of a one-node tree is
black and has no child, and the splice returns null. -/
theorem splice_black_root_leaf_returns_null :
    WF demo_single demo_single_tree ∧ demo_single_tree.RB ∧
    (demo_single.mem 8).rb_left = 0 ∧ (demo_single.mem 8).rb_right = 0 ∧
    chx_rb_is_black demo_single 8 = true ∧
    (__chx_rb_erase_augmented dummy_callbacks 1 demo_single 8).map Prod.snd = some 0 := by
  decide

/-- Claim C32, as amended.  Node `n` of the tree held by the state has two
children; `sx` is the node after `n` in order, the leftmost node of the right
subtree of `n`.  Then `__chx_rb_erase_augmented` returns; the value returned is
non-null if and only if `sx` was black and had no right child, and a non-null
value returned is `sx` when `sx` is the right child of `n` and the old parent of
`sx` otherwise; afterwards `sx` carries the parent-and-colour word and the left
link of `n` and stands in the place of `n` in the order of the tree. -/
theorem splice_two_children (aug : chx_rb_augment_callbacks α) (fuel : Nat)
    (s : State α) (t : Tree) (n : Nat) (hwf : WF s t) (hn : n ∈ t.inorder)
    (hl : (s.mem n).rb_left ≠ 0) (hr : (s.mem n).rb_right ≠ 0) (hfuel : t.height ≤ fuel) :
    ∃ σ reb sx A B t', t.inorder = A ++ n :: sx :: B ∧
      leftmost_loop s fuel (s.mem n).rb_right = some sx ∧
      __chx_rb_erase_augmented aug fuel s n = some (σ, reb) ∧
      (reb ≠ 0 ↔ chx_rb_is_black s sx = true ∧ (s.mem sx).rb_right = 0) ∧
      (reb ≠ 0 → reb = if (s.mem n).rb_right = sx then sx else chx_rb_parent s sx) ∧
      (σ.mem sx).__rb_parent_color = (s.mem n).__rb_parent_color ∧
      (σ.mem sx).rb_left = (s.mem n).rb_left ∧
      WF σ t' ∧ t'.inorder = A ++ sx :: B := by
  obtain ⟨k, c, l, r, e⟩ := mem_split_plug t n hn
  subst e
  obtain ⟨hk, hT, hnd⟩ := WF_plug'.1 hwf
  obtain ⟨hn0, hn4, hnpc, hnl, hnr, hL, hR⟩ := hT
  cases l with
  | nil => exact absurd hnl hl
  | node cl ll lx lr =>
    have hrn : r ≠ .nil := fun e => hr (by rw [hnr, e]; rfl)
    obtain ⟨rk, cs, sx, C, hal, e⟩ := leftmost_split r hrn
    subst e
    have hh := plug_height k (.node c (.node cl ll lx lr) n (plug rk (.node cs .nil sx C)))
    have hh2 := plug_height rk (.node cs .nil sx C)
    simp only [Tree.height] at hh
    have hfr : rk.length ≤ fuel := by omega
    obtain ⟨σ, e1, hσ⟩ := splice_two_at aug fuel hwf hal hfr
    obtain ⟨hrkc, hX⟩ := (Rep_plug rk (.node cs .nil sx C)).1 hR
    obtain ⟨hsx0, hsx4, hsxpc, hsxl, hsxr, -, hC⟩ := hX
    have ha14 : ctxAddr n rk % 4 = 0 := by
      cases rk with
      | nil => exact hn4
      | cons f rk' =>
        cases f with
        | left _ _ _ => exact hrkc.2.1
        | right _ _ _ => exact hrkc.2.1
    have hbl : chx_rb_is_black s sx = decide (cs = .black) := is_black_of_word ha14 hsxpc
    have hparsx : chx_rb_parent s sx = ctxAddr n rk := by
      unfold chx_rb_parent
      rw [hsxpc, parent_of_word cs ha14]
    have hent0 : ctxAddr sx rk ≠ 0 := by
      cases rk with
      | nil => exact hsx0
      | cons f rk' =>
        have hm := ctxAddr_mem sx (f :: rk') (by simp)
        exact Rep_mem_ne_zero _ _ hR _ (mem_plug_of_mem_ctx hm)
    have hsel : (if (s.mem n).rb_right = sx then sx else chx_rb_parent s sx) =
        ctxAddr sx rk := by
      cases rk with
      | nil =>
        have : (s.mem n).rb_right = sx := hnr
        simp [this, ctxAddr]
      | cons f rk' =>
        have hndT := (List.nodup_append.1 hnd).1
        simp only [Tree.inorder] at hndT
        have hndR : (plug (f :: rk') (.node cs .nil sx C)).inorder.Nodup :=
          (List.nodup_cons.1 (List.nodup_append.1 hndT).2.1).2
        obtain ⟨hRmem, -⟩ := RepCtx_top (f :: rk') _ (by simp) hrkc
        have hsxR : (plug (f :: rk') (.node cs .nil sx C)).addr ≠ sx := by
          have hp := (inorder_plug_perm (f :: rk') (.node cs .nil sx C)).nodup_iff.1 hndR
          have hd := (List.nodup_append.1 hp).2.2
          exact fun e => hd (by simp [Tree.inorder] : sx ∈ (Tree.node cs .nil sx C).inorder)
            (e ▸ hRmem)
        rw [hnr, if_neg hsxR, hparsx]
        rfl
    obtain ⟨hk', hT', hnd'⟩ := WF_plug'.1 hσ
    refine ⟨σ, _, sx, ctxBefore k ++ (Tree.node cl ll lx lr).inorder,
      C.inorder ++ ctxAfter rk ++ ctxAfter k, _, ?_, ?_, e1, ?_, ?_, ?_, ?_, hσ, ?_⟩
    · simp [inorder_plug, Tree.inorder, ctxBefore_allLeft rk hal]
    · rw [hnr, leftmost_loop_spec (plug rk (.node cs .nil sx C)) n fuel hR
        (plug_node_ne_nil rk cs .nil C sx) (by omega)]
      simp [inorder_plug, Tree.inorder, ctxBefore_allLeft rk hal]
    · rw [hbl, hsxr]
      by_cases hc0 : C.addr = 0 <;> cases cs <;> simp [hc0, hent0]
    · rw [hsel]
      intro h0
      by_cases hc0 : C.addr = 0 <;> cases cs <;> simp [hc0] at h0 ⊢
    · exact hT'.2.2.1.trans hnpc.symm
    · exact hT'.2.2.2.1.trans hnl.symm
    · simp [inorder_plug, Tree.inorder, ctxBefore_allLeft rk hal, inorder_paintBlack]

theorem splice_two_children_witness :
    WF demo_state demo_tree ∧ 8 ∈ demo_tree.inorder ∧
    ∃ σ reb sx A B t', demo_tree.inorder = A ++ 8 :: sx :: B ∧
      leftmost_loop demo_state 2 (demo_state.mem 8).rb_right = some sx ∧
      __chx_rb_erase_augmented dummy_callbacks 2 demo_state 8 = some (σ, reb) ∧
      (reb ≠ 0 ↔ chx_rb_is_black demo_state sx = true ∧ (demo_state.mem sx).rb_right = 0) ∧
      (reb ≠ 0 → reb = if (demo_state.mem 8).rb_right = sx then sx
        else chx_rb_parent demo_state sx) ∧
      (σ.mem sx).__rb_parent_color = (demo_state.mem 8).__rb_parent_color ∧
      (σ.mem sx).rb_left = (demo_state.mem 8).rb_left ∧
      WF σ t' ∧ t'.inorder = A ++ sx :: B :=
  ⟨by decide, by decide,
    splice_two_children dummy_callbacks 2 demo_state demo_tree 8 (by decide) (by decide)
      (by decide) (by decide) (by decide)⟩

/-- Counterexample to claim C32 as stated: in the four-node example the node
after the root in order is the black node 12, which has the red right child 16;
the splice of the root paints 16 black and returns null. -/
theorem splice_black_successor_with_child_returns_null :
    WF demo_four demo_four_tree ∧ demo_four_tree.RB ∧
    demo_four_tree.inorder = [4, 8, 12, 16] ∧
    (demo_four.mem 8).rb_left ≠ 0 ∧ (demo_four.mem 8).rb_right = 12 ∧
    (demo_four.mem 12).rb_left = 0 ∧
    chx_rb_is_black demo_four 12 = true ∧
    (__chx_rb_erase_augmented dummy_callbacks 3 demo_four 8).map Prod.snd = some 0 := by
  decide

/-- Claim C33.  For a parent address `p` whose two low bits are zero (null
included) and a colour `c` that is red (0) or black (1): after
`chx_rb_set_parent_color(n, p, c)` the parent of `n` reads `p` and its colour
reads `c`; after `chx_rb_set_parent(n, p)` the parent of `n` reads `p` and its
colour reads as before the call. -/
theorem set_parent_color_fields (s : State α) (n p c : Nat) (hp : p % 4 = 0)
    (hc : c = CHX_RB_RED ∨ c = CHX_RB_BLACK) :
    chx_rb_parent (chx_rb_set_parent_color s n p c) n = p ∧
    chx_rb_color (chx_rb_set_parent_color s n p c) n = c ∧
    chx_rb_parent (chx_rb_set_parent s n p) n = p ∧
    chx_rb_color (chx_rb_set_parent s n p) n = chx_rb_color s n := by
  have hc' : c = 0 ∨ c = 1 := hc
  have h2 := Nat.mod_lt (s.mem n).__rb_parent_color (by decide : 0 < 2)
  simp only [chx_rb_parent, chx_rb_color, chx_rb_set_parent_color, chx_rb_set_parent,
    State.store_pc, if_true, __chx_rb_parent, __chx_rb_color]
  refine ⟨?_, ?_, ?_, ?_⟩ <;> omega

theorem set_parent_color_fields_witness :
    12 % 4 = 0 ∧
    chx_rb_parent (chx_rb_set_parent_color demo_state 4 12 1) 4 = 12 ∧
    chx_rb_color (chx_rb_set_parent_color demo_state 4 12 1) 4 = 1 ∧
    chx_rb_parent (chx_rb_set_parent demo_state 4 12) 4 = 12 ∧
    chx_rb_color (chx_rb_set_parent demo_state 4 12) 4 = chx_rb_color demo_state 4 :=
  ⟨by decide, set_parent_color_fields demo_state 4 12 1 (by decide) (Or.inr rfl)⟩

/-- Claim C37.  The state holds a red-black tree and a fresh node is attached
at a null slot by `chx_rb_link_node`, which gives the tree `t1`.  Then
`chx_rb_insert_color` returns a red-black tree whose nodes in order are those of
`t1` in the same order; the walk with `chx_rb_first` and `chx_rb_next` visits the
same sequence before and after the call, and a sequence that was sorted by a key
after the link is sorted after the call. -/
theorem insert_color_keeps_order (s : State α) (t : Tree) (node parent fuel : Nat)
    (link : Link) (hwf : WF s t) (hrb : t.RB) (hslot : NullSlot s t parent link)
    (hn0 : node ≠ 0) (hn4 : node % 4 = 0) (hfresh : node ∉ t.inorder)
    (hfuel : t.size + 1 < fuel) :
    ∃ t1 s' t', WF (chx_rb_link_node s node parent link) t1 ∧
      first_next_walk fuel (chx_rb_link_node s node parent link) = some t1.inorder ∧
      chx_rb_insert_color fuel (chx_rb_link_node s node parent link) node = some s' ∧
      WF s' t' ∧ t'.RB ∧ t'.inorder = t1.inorder ∧
      first_next_walk fuel s' = some t1.inorder ∧
      ∀ key : Nat → Int, t1.inorder.Pairwise (fun x y => key x ≤ key y) →
        t'.inorder.Pairwise (fun x y => key x ≤ key y) := by
  obtain ⟨k, e1, e2, e3⟩ := NullSlot.ctx hwf hslot
  subst e1 e2 e3
  have hl := link_node_spec hwf hn0 hn4 hfresh
  have hh := height_le_size (plug k .nil)
  obtain ⟨s', t', f1, f2, f3, f4⟩ :=
    insert_color_spec dummy_rotate fuel hwf hrb hn0 hn4 hfresh (by omega)
  have hio : (plug k (.node .red .nil node .nil)).inorder = ctxBefore k ++ node :: ctxAfter k := by
    simp [inorder_plug, Tree.inorder]
  have hio0 : (plug k .nil).inorder = ctxBefore k ++ ctxAfter k := inorder_plug_nil k
  have hsz1 : (plug k (.node .red .nil node .nil)).size = (plug k .nil).size + 1 := by
    rw [← length_inorder, ← length_inorder, hio, hio0]
    simp only [List.length_append, List.length_cons]
    omega
  have hsz' : t'.size = (plug k .nil).size + 1 := by
    rw [← hsz1, ← length_inorder, ← length_inorder, f4, hio]
  refine ⟨_, s', t', hl, walk_spec hl (by omega), f1, f2, f3, by rw [f4, hio], ?_, ?_⟩
  · rw [walk_spec f2 (by omega), f4, hio]
  · intro key hs
    rw [f4, ← hio]
    exact hs

theorem insert_color_keeps_order_witness :
    WF demo_state demo_tree ∧ demo_tree.RB ∧ NullSlot demo_state demo_tree 12 (.right 12) ∧
    ∃ t1 s' t', WF (chx_rb_link_node demo_state 16 12 (.right 12)) t1 ∧
      first_next_walk 5 (chx_rb_link_node demo_state 16 12 (.right 12)) = some t1.inorder ∧
      chx_rb_insert_color 5 (chx_rb_link_node demo_state 16 12 (.right 12)) 16 = some s' ∧
      WF s' t' ∧ t'.RB ∧ t'.inorder = t1.inorder ∧
      first_next_walk 5 s' = some t1.inorder ∧
      ∀ key : Nat → Int, t1.inorder.Pairwise (fun x y => key x ≤ key y) →
        t'.inorder.Pairwise (fun x y => key x ≤ key y) :=
  ⟨by decide, by decide, by decide,
    insert_color_keeps_order demo_state demo_tree 16 12 5 (.right 12) (by decide) (by decide)
      (by decide) (by decide) (by decide) (by decide) (by decide)⟩

/-- Claim C40.  The cached root holds a red-black tree and its cache holds the
first node.  Then `chx_rb_erase_cached` on a node `n` of the tree returns; it
returns null when `n` is not the cached leftmost node; when `n` is the cached
leftmost node it returns the node that `chx_rb_next(n)` gives before the erase
(null when `n` was the only node), stores it in the cache, and the node returned
is what `chx_rb_first` gives on the tree after the erase. -/
theorem erase_cached_returns_new_leftmost (cs : CachedState α) (t : Tree) (n fuel : Nat)
    (hwf : WF cs.rb_root t) (hrb : t.RB) (hn : n ∈ t.inorder) (hfuel : t.size < fuel)
    (hcache : cs.rb_leftmost = t.inorder.headD 0) :
    ∃ cs' ret, chx_rb_erase_cached fuel cs n = some (cs', ret) ∧
      (cs.rb_leftmost ≠ n → ret = 0) ∧
      (cs.rb_leftmost = n →
        chx_rb_next fuel cs.rb_root n = some ret ∧ cs'.rb_leftmost = ret ∧
        chx_rb_first fuel cs'.rb_root = some ret ∧ (t.inorder = [n] → ret = 0)) := by
  have hh := height_le_size t
  obtain ⟨cs', t', e1, e2, e3, e4, e5⟩ :=
    erase_cached_spec hwf hrb hn (by omega : t.height < fuel) hcache
  refine ⟨cs', _, e1, ?_, ?_⟩
  · intro hne
    rw [if_neg hne]
  · intro heq
    rw [if_pos heq]
    cases hio : t.inorder with
    | nil => rw [hio] at hn; simp at hn
    | cons x rest =>
      rw [hio] at hcache e4
      simp only [List.headD_cons] at hcache
      have hx : x = n := hcache.symm.trans heq
      subst hx
      have e4' : t'.inorder = rest := by simpa using e4
      have hsz : t'.size ≤ t.size := by
        rw [← length_inorder, ← length_inorder t, e4', hio]
        simp
      have hh' := height_le_size t'
      refine ⟨?_, e5, first_spec e2 (by omega), ?_⟩
      · have heq : t.inorder = [] ++ x :: rest := by simpa using hio
        rw [next_in_list hwf (by omega : t.height < fuel) heq, e4']
      · intro h1
        have : rest = [] := by simpa using h1
        rw [e4', this]
        rfl

theorem erase_cached_returns_new_leftmost_witness :
    WF demo_cached.rb_root demo_tree ∧ demo_tree.RB ∧ 4 ∈ demo_tree.inorder ∧
    demo_cached.rb_leftmost = demo_tree.inorder.headD 0 ∧
    ∃ cs' ret, chx_rb_erase_cached 4 demo_cached 4 = some (cs', ret) ∧
      (demo_cached.rb_leftmost ≠ 4 → ret = 0) ∧
      (demo_cached.rb_leftmost = 4 →
        chx_rb_next 4 demo_cached.rb_root 4 = some ret ∧ cs'.rb_leftmost = ret ∧
        chx_rb_first 4 cs'.rb_root = some ret ∧ (demo_tree.inorder = [4] → ret = 0)) :=
  ⟨by decide, by decide, by decide, by decide,
    erase_cached_returns_new_leftmost demo_cached demo_tree 4 4 (by decide) (by decide)
      (by decide) (by decide) (by decide)⟩


/-! ## Counting the rotations of the insert fix-up -/

theorem insert_case3_left_count (s : State Nat) (g p tmp : Nat) :
    (insert_case3_left count_rotate s g p tmp).aug = s.aug + 1 := by
  rw [insert_case3_left_aug_eq]
  rfl

theorem insert_case3_right_count (s : State Nat) (g p tmp : Nat) :
    (insert_case3_right count_rotate s g p tmp).aug = s.aug + 1 := by
  rw [insert_case3_right_aug_eq]
  rfl

theorem insert_case2_left_count (s : State Nat) (n p : Nat) :
    (insert_case2_left count_rotate s n p).1.aug = s.aug + 1 := by
  unfold insert_case2_left
  simp only [call_aug, count_rotate]
  split_ifs <;> simp

theorem insert_case2_right_count (s : State Nat) (n p : Nat) :
    (insert_case2_right count_rotate s n p).1.aug = s.aug + 1 := by
  unfold insert_case2_right
  simp only [call_aug, count_rotate]
  split_ifs <;> simp

/-- The insert fix-up loop run with the counting hook: it returns within one
iteration per two levels of depth of the red node, and the hook is invoked at
most twice. -/
theorem insert_loop_count : ∀ (fuel : Nat) (k : Ctx) (L R : Tree) (n : Nat)
    (s : State Nat), k.length < 2 * fuel → WF s (plug k (.node .red L n R)) →
    (Tree.node .red L n R).Valid → CtxOK k L.bh →
    ∃ s' t', __chx_rb_insert_loop count_rotate fuel s n (ctxAddr 0 k) = some s' ∧
      WF s' t' ∧ t'.RB ∧ t'.inorder = (plug k (.node .red L n R)).inorder ∧
      s'.aug ≤ s.aug + 2 := by
  intro fuel
  induction fuel with
  | zero => intro k L R n s hlen; omega
  | succ fuel ih =>
    intro k L R n s hlen h hv hk
    rw [Valid_node] at hv
    obtain ⟨hv1, hv2, hv3, hv4⟩ := hv
    obtain ⟨hLc, hRc⟩ := hv1 rfl
    cases k with
    | nil =>
      refine ⟨chx_rb_set_parent_color s n 0 CHX_RB_BLACK, .node .black L n R, ?_, ?_, ?_, rfl,
        Nat.le_add_right _ _⟩
      · simp [__chx_rb_insert_loop, ctxAddr]
      · obtain ⟨h1, h2, h3⟩ := h
        simp only [plug] at h1 h2 h3
        simp only [Tree.inorder, List.nodup_append, List.nodup_cons] at h3
        refine ⟨h1, ?_, by simpa [plug, Tree.inorder, List.nodup_append] using h3⟩
        exact Rep_reparent h2 (by tauto) (by tauto) (by simp [chx_rb_set_parent_color, CHX_RB_BLACK])
          (by simp [chx_rb_set_parent_color]) (by simp [chx_rb_set_parent_color])
          (fun x hx => by simp [chx_rb_set_parent_color, store_pc_mem_ne hx])
      · rw [RB_iff, Valid_node]
        exact ⟨rfl, by simp, hv2, hv3, hv4⟩
    | cons f k =>
      have hparent : ctxAddr 0 (f :: k) = f.addr := rfl
      have hw := WF_plug'.1 h
      obtain ⟨hwk, hwT, hwnd⟩ := hw
      have hf0 : f.addr ≠ 0 := by cases f <;> exact hwk.1
      have hfpc : (s.mem f.addr).__rb_parent_color = ctxAddr 0 k + f.color.bit := by
        cases f <;> exact hwk.2.2.1
      have hk4 : ctxAddr 0 k % 4 = 0 := by
        cases f
        · exact RepCtx_ctxAddr_aligned hwk.2.2.2.2.2.2
        · exact RepCtx_ctxAddr_aligned hwk.2.2.2.2.2.2
      have hblack := is_black_of_word hk4 hfpc
      by_cases hfc : f.color = .black
      · -- the parent is black: nothing to do
        refine ⟨s, _, ?_, h, ?_, rfl, Nat.le_add_right _ _⟩
        · rw [__chx_rb_insert_loop]
          simp [hparent, hf0, hblack, hfc]
        · rw [RB_plug]
          refine ⟨Valid_node.2 ⟨fun _ => ⟨hLc, hRc⟩, hv2, hv3, hv4⟩, by simpa using hk, ?_⟩
          intro _
          exact hfc
      · have hfr : f.color = .red := by
          cases hc : f.color
          · rfl
          · exact absurd hc hfc
        cases k with
        | nil =>
          cases f <;> simp only [CtxOK, topColorOK, Frame.color] at hk hfr <;>
            (subst hfr; exact absurd hk.2.2.2.1 (by simp))
        | cons f2 k2 =>
          have hf2b : f2.color = .black := by
            cases f <;> simp only [CtxOK, topColorOK, Frame.color] at hk hfr <;>
              (subst hfr; exact hk.2.2.2.1 rfl)
          simp only [List.length_cons] at hlen
          clear hwk hwT hwnd hblack hfpc hf0 hk4 hparent
          cases f2 with
          | left cg g U =>
            simp only [Frame.color] at hf2b
            subst hf2b
            cases f with
            | left cp p B =>
              simp only [Frame.color] at hfr
              subst hfr
              simp only [CtxOK, bit_red, bit_black, Nat.add_zero] at hk
              obtain ⟨hB1, hB2, hB3, -, hU1, hU2, -, hU4, hU5⟩ := hk
              have hBc := hB3 trivial
              cases hUcol : U.color with
              | red =>
                cases U with
                | nil => simp at hUcol
                | node cu Ul u Ur =>
                  simp only [color_node] at hUcol
                  subst hUcol
                  rw [Valid_node] at hU2
                  obtain ⟨hU2a, hU2b, hU2c, hU2d⟩ := hU2
                  simp only [bh_node, bit_red, Nat.add_zero] at hU1
                  have h' : WF s (plug k2 (.node .black (.node .red (.node .red L n R) p B) g (.node .red Ul u Ur))) := h
                  obtain ⟨hs1, hs2⟩ := insert_case1_left_spec h'
                  have hio : (plug k2 (.node .red (.node .black (.node .red L n R) p B) g (.node .black Ul u Ur))).inorder = (plug k2 (.node .black (.node .red (.node .red L n R) p B) g (.node .red Ul u Ur))).inorder := by
                    simp [inorder_plug, Tree.inorder]
                  obtain ⟨s', t', e1, e2, e3, e4, e5⟩ := ih k2 (.node .black (.node .red L n R) p B) (.node .black Ul u Ur) g _ (by omega) hs1
                    (by simp [Valid_node, hv3, hv4, hLc, hRc, hB2, hBc, hU2c, hU2d, hU2a] <;> omega)
                    (by simp only [bh_node, bit_red, bit_black, Nat.add_zero]; first | exact hU5 | (rw [hB1]; exact hU5) | (rw [hU1]; exact hU5))
                  refine ⟨s', t', ?_, e2, e3, e4.trans hio, e5⟩
                  simp only [ctxAddr, Frame.addr]
                  rw [insert_step_case1_left count_rotate fuel h', hs2]
                  exact e1
              | black =>
                have hUc := hUcol
                have h' : WF s (plug k2 (.node .black (.node .red (.node .red L n R) p B) g U)) := h
                have hs := insert_case3_left_spec count_rotate h' hBc
                have hio : (plug k2 (.node .black (.node .red L n R) p (.node .red B g U))).inorder = (plug k2 (.node .black (.node .red (.node .red L n R) p B) g U)).inorder := by
                  simp [inorder_plug, Tree.inorder]
                refine ⟨_, _, insert_step_case3_left count_rotate fuel h' hUc, hs, ?_, hio, by simp only [insert_case3_left_count, insert_case3_right_count, insert_case2_left_count, insert_case2_right_count]; omega⟩
                rw [RB_plug]
                refine ⟨?_, ?_, topColorOK_black k2⟩
                · simp [Valid_node, hv3, hv4, hLc, hRc, hB2, hBc, hU2, hUc] <;> omega
                · exact (by simp only [bh_node, bit_red, bit_black, Nat.add_zero]; first | exact hU5 | (rw [hB1]; exact hU5) | (rw [hU1]; exact hU5))
            | right cp B p =>
              simp only [Frame.color] at hfr
              subst hfr
              simp only [CtxOK, bit_red, bit_black, Nat.add_zero] at hk
              obtain ⟨hB1, hB2, hB3, -, hU1, hU2, -, hU4, hU5⟩ := hk
              have hBc := hB3 trivial
              cases hUcol : U.color with
              | red =>
                cases U with
                | nil => simp at hUcol
                | node cu Ul u Ur =>
                  simp only [color_node] at hUcol
                  subst hUcol
                  rw [Valid_node] at hU2
                  obtain ⟨hU2a, hU2b, hU2c, hU2d⟩ := hU2
                  simp only [bh_node, bit_red, Nat.add_zero] at hU1
                  have h' : WF s (plug k2 (.node .black (.node .red B p (.node .red L n R)) g (.node .red Ul u Ur))) := h
                  obtain ⟨hs1, hs2⟩ := insert_case1_left_spec h'
                  have hio : (plug k2 (.node .red (.node .black B p (.node .red L n R)) g (.node .black Ul u Ur))).inorder = (plug k2 (.node .black (.node .red B p (.node .red L n R)) g (.node .red Ul u Ur))).inorder := by
                    simp [inorder_plug, Tree.inorder]
                  obtain ⟨s', t', e1, e2, e3, e4, e5⟩ := ih k2 (.node .black B p (.node .red L n R)) (.node .black Ul u Ur) g _ (by omega) hs1
                    (by simp [Valid_node, hv3, hv4, hLc, hRc, hB2, hBc, hU2c, hU2d, hU2a] <;> omega)
                    (by simp only [bh_node, bit_red, bit_black, Nat.add_zero]; first | exact hU5 | (rw [hB1]; exact hU5) | (rw [hU1]; exact hU5))
                  refine ⟨s', t', ?_, e2, e3, e4.trans hio, e5⟩
                  simp only [ctxAddr, Frame.addr]
                  rw [insert_step_case1_left count_rotate fuel h', hs2]
                  exact e1
              | black =>
                have hUc := hUcol
                have h' : WF s (plug k2 (.node .black (.node .red B p (.node .red L n R)) g U)) := h
                have hs := insert_case23_left_spec count_rotate h' hLc hRc
                have hio : (plug k2 (.node .black (.node .red B p L) n (.node .red R g U))).inorder = (plug k2 (.node .black (.node .red B p (.node .red L n R)) g U)).inorder := by
                  simp [inorder_plug, Tree.inorder]
                refine ⟨_, _, insert_step_case23_left count_rotate fuel h' hUc, hs, ?_, hio, by simp only [insert_case3_left_count, insert_case3_right_count, insert_case2_left_count, insert_case2_right_count]; omega⟩
                rw [RB_plug]
                refine ⟨?_, ?_, topColorOK_black k2⟩
                · simp [Valid_node, hv3, hv4, hLc, hRc, hB2, hBc, hU2, hUc] <;> omega
                · exact (by simp only [bh_node, bit_red, bit_black, Nat.add_zero]; first | exact hU5 | (rw [hB1]; exact hU5) | (rw [hU1]; exact hU5))
          | right cg U g =>
            simp only [Frame.color] at hf2b
            subst hf2b
            cases f with
            | left cp p B =>
              simp only [Frame.color] at hfr
              subst hfr
              simp only [CtxOK, bit_red, bit_black, Nat.add_zero] at hk
              obtain ⟨hB1, hB2, hB3, -, hU1, hU2, -, hU4, hU5⟩ := hk
              have hBc := hB3 trivial
              cases hUcol : U.color with
              | red =>
                cases U with
                | nil => simp at hUcol
                | node cu Ul u Ur =>
                  simp only [color_node] at hUcol
                  subst hUcol
                  rw [Valid_node] at hU2
                  obtain ⟨hU2a, hU2b, hU2c, hU2d⟩ := hU2
                  simp only [bh_node, bit_red, Nat.add_zero] at hU1
                  have h' : WF s (plug k2 (.node .black (.node .red Ul u Ur) g (.node .red (.node .red L n R) p B))) := h
                  obtain ⟨hs1, hs2⟩ := insert_case1_right_spec h'
                  have hio : (plug k2 (.node .red (.node .black Ul u Ur) g (.node .black (.node .red L n R) p B))).inorder = (plug k2 (.node .black (.node .red Ul u Ur) g (.node .red (.node .red L n R) p B))).inorder := by
                    simp [inorder_plug, Tree.inorder]
                  obtain ⟨s', t', e1, e2, e3, e4, e5⟩ := ih k2 (.node .black Ul u Ur) (.node .black (.node .red L n R) p B) g _ (by omega) hs1
                    (by simp [Valid_node, hv3, hv4, hLc, hRc, hB2, hBc, hU2c, hU2d, hU2a] <;> omega)
                    (by simp only [bh_node, bit_red, bit_black, Nat.add_zero]; first | exact hU5 | (rw [hB1]; exact hU5) | (rw [hU1]; exact hU5))
                  refine ⟨s', t', ?_, e2, e3, e4.trans hio, e5⟩
                  simp only [ctxAddr, Frame.addr]
                  rw [insert_step_case1_right count_rotate fuel h', hs2]
                  exact e1
              | black =>
                have hUc := hUcol
                have h' : WF s (plug k2 (.node .black U g (.node .red (.node .red L n R) p B))) := h
                have hs := insert_case23_right_spec count_rotate h' hLc hRc
                have hio : (plug k2 (.node .black (.node .red U g L) n (.node .red R p B))).inorder = (plug k2 (.node .black U g (.node .red (.node .red L n R) p B))).inorder := by
                  simp [inorder_plug, Tree.inorder]
                refine ⟨_, _, insert_step_case23_right count_rotate fuel h' hUc, hs, ?_, hio, by simp only [insert_case3_left_count, insert_case3_right_count, insert_case2_left_count, insert_case2_right_count]; omega⟩
                rw [RB_plug]
                refine ⟨?_, ?_, topColorOK_black k2⟩
                · simp [Valid_node, hv3, hv4, hLc, hRc, hB2, hBc, hU2, hUc] <;> omega
                · exact (by simp only [bh_node, bit_red, bit_black, Nat.add_zero]; first | exact hU5 | (rw [hB1]; exact hU5) | (rw [hU1]; exact hU5))
            | right cp B p =>
              simp only [Frame.color] at hfr
              subst hfr
              simp only [CtxOK, bit_red, bit_black, Nat.add_zero] at hk
              obtain ⟨hB1, hB2, hB3, -, hU1, hU2, -, hU4, hU5⟩ := hk
              have hBc := hB3 trivial
              cases hUcol : U.color with
              | red =>
                cases U with
                | nil => simp at hUcol
                | node cu Ul u Ur =>
                  simp only [color_node] at hUcol
                  subst hUcol
                  rw [Valid_node] at hU2
                  obtain ⟨hU2a, hU2b, hU2c, hU2d⟩ := hU2
                  simp only [bh_node, bit_red, Nat.add_zero] at hU1
                  have h' : WF s (plug k2 (.node .black (.node .red Ul u Ur) g (.node .red B p (.node .red L n R)))) := h
                  obtain ⟨hs1, hs2⟩ := insert_case1_right_spec h'
                  have hio : (plug k2 (.node .red (.node .black Ul u Ur) g (.node .black B p (.node .red L n R)))).inorder = (plug k2 (.node .black (.node .red Ul u Ur) g (.node .red B p (.node .red L n R)))).inorder := by
                    simp [inorder_plug, Tree.inorder]
                  obtain ⟨s', t', e1, e2, e3, e4, e5⟩ := ih k2 (.node .black Ul u Ur) (.node .black B p (.node .red L n R)) g _ (by omega) hs1
                    (by simp [Valid_node, hv3, hv4, hLc, hRc, hB2, hBc, hU2c, hU2d, hU2a] <;> omega)
                    (by simp only [bh_node, bit_red, bit_black, Nat.add_zero]; first | exact hU5 | (rw [hB1]; exact hU5) | (rw [hU1]; exact hU5))
                  refine ⟨s', t', ?_, e2, e3, e4.trans hio, e5⟩
                  simp only [ctxAddr, Frame.addr]
                  rw [insert_step_case1_right count_rotate fuel h', hs2]
                  exact e1
              | black =>
                have hUc := hUcol
                have h' : WF s (plug k2 (.node .black U g (.node .red B p (.node .red L n R)))) := h
                have hs := insert_case3_right_spec count_rotate h' hBc
                have hio : (plug k2 (.node .black (.node .red U g B) p (.node .red L n R))).inorder = (plug k2 (.node .black U g (.node .red B p (.node .red L n R)))).inorder := by
                  simp [inorder_plug, Tree.inorder]
                refine ⟨_, _, insert_step_case3_right count_rotate fuel h' hUc, hs, ?_, hio, by simp only [insert_case3_left_count, insert_case3_right_count, insert_case2_left_count, insert_case2_right_count]; omega⟩
                rw [RB_plug]
                refine ⟨?_, ?_, topColorOK_black k2⟩
                · simp [Valid_node, hv3, hv4, hLc, hRc, hB2, hBc, hU2, hUc] <;> omega
                · exact (by simp only [bh_node, bit_red, bit_black, Nat.add_zero]; first | exact hU5 | (rw [hB1]; exact hU5) | (rw [hU1]; exact hU5))

/-- Claim C34.  The state holds a red-black tree and a fresh node is attached
as a red leaf at a null slot.  Then the insert fix-up run with a hook that counts
its invocations returns a red-black tree, and it does so within one loop
iteration per two levels of the tree (`fuel` bounds the iterations); the hook is
invoked at most twice.  In a Case 1 iteration (red parent `p` and red uncle `u`
below the grandparent `g`) the loop goes on at `g`, the parent of `p`, which
lies two levels above the node, and the hook is not invoked. -/
theorem insert_fixup_terminates (s : State Nat) (t : Tree) (node parent fuel : Nat)
    (link : Link) (hwf : WF s t) (hrb : t.RB) (hslot : NullSlot s t parent link)
    (hn0 : node ≠ 0) (hn4 : node % 4 = 0) (hfresh : node ∉ t.inorder)
    (hfuel : t.height < 2 * fuel) :
    (∃ s' t', __chx_rb_insert count_rotate fuel (chx_rb_link_node s node parent link) node
        = some s' ∧ WF s' t' ∧ t'.RB ∧ s'.aug ≤ s.aug + 2) ∧
    ∀ (σ : State Nat) (k : Ctx) (A B Ul Ur : Tree) (n p g u f : Nat),
      (WF σ (plug k (.node .black (.node .red A p B) g (.node .red Ul u Ur))) ∨
        WF σ (plug k (.node .black (.node .red Ul u Ur) g (.node .red A p B)))) →
      __chx_rb_insert_loop count_rotate (f + 1) σ n p =
        __chx_rb_insert_loop count_rotate f (insert_case1 σ g p u).1 g (ctxAddr 0 k) ∧
      chx_rb_parent σ p = g ∧ chx_rb_parent σ g = ctxAddr 0 k ∧
      (insert_case1 σ g p u).1.aug = σ.aug := by
  constructor
  · obtain ⟨k, e1, e2, e3⟩ := NullSlot.ctx hwf hslot
    subst e1 e2 e3
    have hl := link_node_spec hwf hn0 hn4 hfresh
    obtain ⟨hv, hk, -⟩ := (RB_plug k .nil).1 hrb
    have hlen : k.length < 2 * fuel := by
      have := plug_height k .nil
      omega
    obtain ⟨s', t', e1, e2, e3, e4, e5⟩ := insert_loop_count fuel k .nil .nil node _ hlen hl
      (Valid_node.2 ⟨fun _ => ⟨rfl, rfl⟩, rfl, Valid_nil, Valid_nil⟩) hk
    rw [link_node_aug] at e5
    refine ⟨s', t', ?_, e2, e3, e5⟩
    rw [__chx_rb_insert]
    have hpar : chx_rb_red_parent (chx_rb_link_node s node (ctxAddr 0 k) (ctxLink k)) node
        = ctxAddr 0 k := by
      obtain ⟨-, hT, -⟩ := WF_plug'.1 hl
      simpa [chx_rb_red_parent] using hT.2.2.1
    rw [hpar]
    exact e1
  · intro σ k A B Ul Ur n p g u f h
    rcases h with h | h
    · obtain ⟨hk, hT, -⟩ := WF_plug'.1 h
      have hal := RepCtx_ctxAddr_aligned hk
      refine ⟨?_, ?_, ?_, rfl⟩
      · rw [insert_step_case1_left count_rotate f h, (insert_case1_left_spec h).2]
      · unfold chx_rb_parent
        rw [hT.2.2.2.2.2.1.2.2.1]
        exact parent_of_word .red hT.2.1
      · unfold chx_rb_parent
        rw [hT.2.2.1]
        exact parent_of_word .black hal
    · obtain ⟨hk, hT, -⟩ := WF_plug'.1 h
      have hal := RepCtx_ctxAddr_aligned hk
      refine ⟨?_, ?_, ?_, rfl⟩
      · rw [insert_step_case1_right count_rotate f h, (insert_case1_right_spec h).2]
      · unfold chx_rb_parent
        rw [hT.2.2.2.2.2.2.2.2.1]
        exact parent_of_word .red hT.2.1
      · unfold chx_rb_parent
        rw [hT.2.2.1]
        exact parent_of_word .black hal

theorem insert_fixup_terminates_witness :
    WF (demo_state.with_aug 0) demo_tree ∧ demo_tree.RB ∧
    NullSlot (demo_state.with_aug 0) demo_tree 12 (.right 12) ∧
    ((∃ s' t', __chx_rb_insert count_rotate 2
        (chx_rb_link_node (demo_state.with_aug 0) 16 12 (.right 12)) 16
        = some s' ∧ WF s' t' ∧ t'.RB ∧ s'.aug ≤ (demo_state.with_aug 0).aug + 2) ∧
    ∀ (σ : State Nat) (k : Ctx) (A B Ul Ur : Tree) (n p g u f : Nat),
      (WF σ (plug k (.node .black (.node .red A p B) g (.node .red Ul u Ur))) ∨
        WF σ (plug k (.node .black (.node .red Ul u Ur) g (.node .red A p B)))) →
      __chx_rb_insert_loop count_rotate (f + 1) σ n p =
        __chx_rb_insert_loop count_rotate f (insert_case1 σ g p u).1 g (ctxAddr 0 k) ∧
      chx_rb_parent σ p = g ∧ chx_rb_parent σ g = ctxAddr 0 k ∧
      (insert_case1 σ g p u).1.aug = σ.aug) :=
  ⟨by decide, by decide, by decide,
    insert_fixup_terminates (demo_state.with_aug 0) demo_tree 16 12 2 (.right 12) (by decide)
      (by decide) (by decide) (by decide) (by decide) (by decide) (by decide)⟩


/-! ## Counting the rotations of the erase fix-up by call site -/

theorem WF_node_pc {s : State α} {k : Ctx} {c : Color} {l r : Tree} {a : Nat}
    (h : WF s (plug k (.node c l a r))) :
    (s.mem a).__rb_parent_color = ctxAddr 0 k + c.bit ∧ ctxAddr 0 k % 4 = 0 := by
  obtain ⟨hk, hT, -⟩ := WF_plug'.1 h
  exact ⟨hT.2.2.1, RepCtx_ctxAddr_aligned hk⟩

/-- The hook on a rotation whose `old` is already a child of `new`: Case 1 when
`old` is red, Case 4 when it is black. -/
theorem counter_child {σ : State RotateCount} {old new : Nat} (c : Color)
    (hpc : (σ.mem old).__rb_parent_color = new + c.bit) (h4 : new % 4 = 0) :
    erase_rotate_counter old new σ =
      if c = .red then { σ.aug with case1 := σ.aug.case1 + 1 }
      else { σ.aug with case4 := σ.aug.case4 + 1 } := by
  unfold erase_rotate_counter chx_rb_parent chx_rb_is_red
  simp only [hpc, parent_of_word c h4, is_red_word c h4, ne_eq, not_true_eq_false, if_false]
  cases c <;> simp

/-- The hook on a rotation whose `old` still hangs below another node: Case 3. -/
theorem counter_case3 {σ : State RotateCount} {old new : Nat} (par : Nat) (c : Color)
    (hpc : (σ.mem old).__rb_parent_color = par + c.bit) (h4 : par % 4 = 0) (hne : par ≠ new) :
    erase_rotate_counter old new σ = { σ.aug with case3 := σ.aug.case3 + 1 } := by
  unfold erase_rotate_counter chx_rb_parent
  simp only [hpc, parent_of_word c h4, ne_eq, hne, not_false_eq_true, if_true]

theorem erase_case4_left_count {s : State RotateCount} {k : Ctx} {c cs csr : Color}
    {N Sl Srl Srr : Tree} {p sx sr : Nat}
    (h : WF s (plug k (.node c N p (.node cs Sl sx (.node csr Srl sr Srr))))) :
    (erase_case4_left erase_rotate_counter s p sx sr).aug =
      { s.aug with case4 := s.aug.case4 + 1 } := by
  have hs := erase_case4_left_spec erase_rotate_counter h
  have hpc := WF_node_pc
    (show WF _ (plug (.left c sx (.node .black Srl sr Srr) :: k) (.node .black N p Sl)) from hs)
  have hpc1 : ((erase_case4_left erase_rotate_counter s p sx sr).mem p).__rb_parent_color =
      sx + Color.black.bit := hpc.1
  have h4 : sx % 4 = 0 := hpc.2
  rw [erase_case4_left_aug_eq]
  exact (counter_child (σ := ⟨_, _, s.aug⟩) .black hpc1 h4).trans (by simp)

theorem erase_case4_right_count {s : State RotateCount} {k : Ctx} {c cs csl : Color}
    {N Sr Sll Slr : Tree} {p sx sl : Nat}
    (h : WF s (plug k (.node c (.node cs (.node csl Sll sl Slr) sx Sr) p N))) :
    (erase_case4_right erase_rotate_counter s p sx sl).aug =
      { s.aug with case4 := s.aug.case4 + 1 } := by
  have hs := erase_case4_right_spec erase_rotate_counter h
  have hpc := WF_node_pc
    (show WF _ (plug (.right c (.node .black Sll sl Slr) sx :: k) (.node .black Sr p N)) from hs)
  have hpc1 : ((erase_case4_right erase_rotate_counter s p sx sl).mem p).__rb_parent_color =
      sx + Color.black.bit := hpc.1
  have h4 : sx % 4 = 0 := hpc.2
  rw [erase_case4_right_aug_eq]
  exact (counter_child (σ := ⟨_, _, s.aug⟩) .black hpc1 h4).trans (by simp)

theorem erase_case1_left_count {s : State RotateCount} {k : Ctx} {cp cs csl : Color}
    {N Sll Slr Sr : Tree} {p sx sl : Nat}
    (h : WF s (plug k (.node cp N p (.node cs (.node csl Sll sl Slr) sx Sr)))) :
    (erase_case1_left erase_rotate_counter s p sx).1.aug =
      { s.aug with case1 := s.aug.case1 + 1 } := by
  have hs := erase_case1_left_spec erase_rotate_counter h
  have hpc := WF_node_pc
    (show WF _ (plug (.left cp sx Sr :: k) (.node .red N p (.node .black Sll sl Slr))) from hs)
  have hpc1 : ((erase_case1_left erase_rotate_counter s p sx).1.mem p).__rb_parent_color =
      sx + Color.red.bit := hpc.1
  have h4 : sx % 4 = 0 := hpc.2
  rw [erase_case1_left_aug_eq]
  exact (counter_child (σ := ⟨_, _, s.aug⟩) .red hpc1 h4).trans (by simp)

theorem erase_case1_right_count {s : State RotateCount} {k : Ctx} {cp cs csr : Color}
    {N Srl Srr Sl : Tree} {p sx sr : Nat}
    (h : WF s (plug k (.node cp (.node cs Sl sx (.node csr Srl sr Srr)) p N))) :
    (erase_case1_right erase_rotate_counter s p sx).1.aug =
      { s.aug with case1 := s.aug.case1 + 1 } := by
  have hs := erase_case1_right_spec erase_rotate_counter h
  have hpc := WF_node_pc
    (show WF _ (plug (.right cp Sl sx :: k) (.node .red (.node .black Srl sr Srr) p N)) from hs)
  have hpc1 : ((erase_case1_right erase_rotate_counter s p sx).1.mem p).__rb_parent_color =
      sx + Color.red.bit := hpc.1
  have h4 : sx % 4 = 0 := hpc.2
  rw [erase_case1_right_aug_eq]
  exact (counter_child (σ := ⟨_, _, s.aug⟩) .red hpc1 h4).trans (by simp)

theorem erase_case3_left_count {s : State RotateCount} {k : Ctx} {c cs csl : Color}
    {N Sll Slr Sr : Tree} {p sx sl : Nat}
    (h : WF s (plug k (.node c N p (.node cs (.node csl Sll sl Slr) sx Sr)))) :
    (erase_case3_left erase_rotate_counter s p sx sl).aug =
      { s.aug with case3 := s.aug.case3 + 1 } := by
  obtain ⟨hk, hT, hnd⟩ := WF_plug'.1 h
  simp only [Tree.inorder, List.nodup_append, List.nodup_cons, List.disjoint_append_left,
    List.disjoint_append_right, List.disjoint_cons_left, List.disjoint_cons_right,
    List.mem_append, List.mem_cons, not_or] at hnd
  have hp4 : p % 4 = 0 := hT.2.1
  have hpsl : p ≠ sl := by
    first
    | exact (ne_pair (by simp only [hnd, not_false_eq_true])).1
    | exact (ne_pair (by simp only [hnd, not_false_eq_true])).2
  have hslsx : sl ≠ sx := by
    first
    | exact (ne_pair (by simp only [hnd, not_false_eq_true])).1
    | exact (ne_pair (by simp only [hnd, not_false_eq_true])).2
  have hpsx : p ≠ sx := by
    first
    | exact (ne_pair (by simp only [hnd, not_false_eq_true])).1
    | exact (ne_pair (by simp only [hnd, not_false_eq_true])).2
  have hsxpc : (s.mem sx).__rb_parent_color = p + cs.bit := by
    simp only [Rep, addr_node] at hT
    tauto
  have htmp : (s.mem sl).rb_right = Slr.addr := by
    simp only [Rep, addr_node] at hT
    tauto
  have hslr : Slr.addr ≠ 0 → Slr.addr ≠ sx := by
    cases Slr with
    | nil => intro h0; exact absurd rfl h0
    | node cq Ql q Qr =>
      intro _
      simp only [Tree.inorder, List.mem_append, List.mem_cons, not_or] at hnd
      simp only [addr_node]
      first
      | exact (ne_pair (by simp only [hnd, not_false_eq_true])).1
      | exact (ne_pair (by simp only [hnd, not_false_eq_true])).2
  unfold erase_case3_left
  simp only [call_aug, htmp]
  rw [counter_case3 p cs ?_ hp4 hpsl]
  · split_ifs <;> simp
  · split_ifs with h0
    · have := hslr h0
      simp [chx_rb_set_parent_color, State.store_pc, State.store_left, State.store_right,
        this.symm, hslsx.symm, hpsx.symm, hpsx, hslsx, hsxpc]
    · simp [State.store_left, State.store_right, hslsx.symm, hpsx.symm, hpsx, hslsx, hsxpc]

theorem erase_case3_right_count {s : State RotateCount} {k : Ctx} {c cs csr : Color}
    {N Sl Srl Srr : Tree} {p sx sr : Nat}
    (h : WF s (plug k (.node c (.node cs Sl sx (.node csr Srl sr Srr)) p N))) :
    (erase_case3_right erase_rotate_counter s p sx sr).aug =
      { s.aug with case3 := s.aug.case3 + 1 } := by
  obtain ⟨hk, hT, hnd⟩ := WF_plug'.1 h
  simp only [Tree.inorder, List.nodup_append, List.nodup_cons, List.disjoint_append_left,
    List.disjoint_append_right, List.disjoint_cons_left, List.disjoint_cons_right,
    List.mem_append, List.mem_cons, not_or] at hnd
  have hp4 : p % 4 = 0 := hT.2.1
  have hpsr : p ≠ sr := by
    first
    | exact (ne_pair (by simp only [hnd, not_false_eq_true])).1
    | exact (ne_pair (by simp only [hnd, not_false_eq_true])).2
  have hsrsx : sr ≠ sx := by
    first
    | exact (ne_pair (by simp only [hnd, not_false_eq_true])).1
    | exact (ne_pair (by simp only [hnd, not_false_eq_true])).2
  have hpsx : p ≠ sx := by
    first
    | exact (ne_pair (by simp only [hnd, not_false_eq_true])).1
    | exact (ne_pair (by simp only [hnd, not_false_eq_true])).2
  have hsxpc : (s.mem sx).__rb_parent_color = p + cs.bit := by
    simp only [Rep, addr_node] at hT
    tauto
  have htmp : (s.mem sr).rb_left = Srl.addr := by
    simp only [Rep, addr_node] at hT
    tauto
  have hsrl : Srl.addr ≠ 0 → Srl.addr ≠ sx := by
    cases Srl with
    | nil => intro h0; exact absurd rfl h0
    | node cq Ql q Qr =>
      intro _
      simp only [Tree.inorder, List.mem_append, List.mem_cons, not_or] at hnd
      simp only [addr_node]
      first
      | exact (ne_pair (by simp only [hnd, not_false_eq_true])).1
      | exact (ne_pair (by simp only [hnd, not_false_eq_true])).2
  unfold erase_case3_right
  simp only [call_aug, htmp]
  rw [counter_case3 p cs ?_ hp4 hpsr]
  · split_ifs <;> simp
  · split_ifs with h0
    · have := hsrl h0
      simp [chx_rb_set_parent_color, State.store_pc, State.store_left, State.store_right,
        this.symm, hsrsx.symm, hpsx.symm, hpsx, hsrsx, hsxpc]
    · simp [State.store_left, State.store_right, hsrsx.symm, hpsx.symm, hpsx, hsrsx, hsxpc]

theorem erase_case34_left_count {s : State RotateCount} {k : Ctx} {c cs csl : Color}
    {N Sll Slr Sr : Tree} {p sx sl : Nat}
    (h : WF s (plug k (.node c N p (.node cs (.node csl Sll sl Slr) sx Sr))))
    (hSlr : Slr.color = .black) :
    (erase_case4_left erase_rotate_counter (erase_case3_left erase_rotate_counter s p sx sl)
        p sl sx).aug =
      { s.aug with case3 := s.aug.case3 + 1, case4 := s.aug.case4 + 1 } := by
  have hs := erase_case34_left_spec erase_rotate_counter h hSlr
  have hpc := WF_node_pc
    (show WF _ (plug (.left c sl (.node .black Slr sx Sr) :: k) (.node .black N p Sll)) from hs)
  have hpc1 : ((erase_case4_left erase_rotate_counter
      (erase_case3_left erase_rotate_counter s p sx sl) p sl sx).mem p).__rb_parent_color =
      sl + Color.black.bit := hpc.1
  have h4 : sl % 4 = 0 := hpc.2
  rw [erase_case4_left_aug_eq]
  exact (counter_child (σ := ⟨_, _, (erase_case3_left erase_rotate_counter s p sx sl).aug⟩)
    .black hpc1 h4).trans (by simp [erase_case3_left_count h])

theorem erase_case34_right_count {s : State RotateCount} {k : Ctx} {c cs csr : Color}
    {N Sl Srl Srr : Tree} {p sx sr : Nat}
    (h : WF s (plug k (.node c (.node cs Sl sx (.node csr Srl sr Srr)) p N)))
    (hSrl : Srl.color = .black) :
    (erase_case4_right erase_rotate_counter (erase_case3_right erase_rotate_counter s p sx sr)
        p sr sx).aug =
      { s.aug with case3 := s.aug.case3 + 1, case4 := s.aug.case4 + 1 } := by
  have hs := erase_case34_right_spec erase_rotate_counter h hSrl
  have hpc := WF_node_pc
    (show WF _ (plug (.right c (.node .black Sl sx Srl) sr :: k) (.node .black Srr p N)) from hs)
  have hpc1 : ((erase_case4_right erase_rotate_counter
      (erase_case3_right erase_rotate_counter s p sx sr) p sr sx).mem p).__rb_parent_color =
      sr + Color.black.bit := hpc.1
  have h4 : sr % 4 = 0 := hpc.2
  rw [erase_case4_right_aug_eq]
  exact (counter_child (σ := ⟨_, _, (erase_case3_right erase_rotate_counter s p sx sr).aug⟩)
    .black hpc1 h4).trans (by simp [erase_case3_right_count h])

/-! ### The bounds along the loop -/

theorem count_tail_case4 {a a' c0 : RotateCount} {c : Color}
    (ha : a' = { a with case4 := a.case4 + 1 })
    (hJ : a.case3 = c0.case3 ∧ a.case4 = c0.case4 ∧ a.case1 ≤ c0.case1 + 1 ∧
      (c = .black → a = c0)) :
    a'.case1 ≤ c0.case1 + 1 ∧ a'.case3 ≤ c0.case3 + 1 ∧ a'.case4 ≤ c0.case4 + 1 := by
  subst ha
  obtain ⟨h1, h2, h3, -⟩ := hJ
  refine ⟨h3, ?_, ?_⟩
  · show a.case3 ≤ c0.case3 + 1
    omega
  · show a.case4 + 1 ≤ c0.case4 + 1
    omega

theorem count_tail_case34 {a a' c0 : RotateCount} {c : Color}
    (ha : a' = { a with case3 := a.case3 + 1, case4 := a.case4 + 1 })
    (hJ : a.case3 = c0.case3 ∧ a.case4 = c0.case4 ∧ a.case1 ≤ c0.case1 + 1 ∧
      (c = .black → a = c0)) :
    a'.case1 ≤ c0.case1 + 1 ∧ a'.case3 ≤ c0.case3 + 1 ∧ a'.case4 ≤ c0.case4 + 1 := by
  subst ha
  obtain ⟨h1, h2, h3, -⟩ := hJ
  refine ⟨h3, ?_, ?_⟩
  · show a.case3 + 1 ≤ c0.case3 + 1
    omega
  · show a.case4 + 1 ≤ c0.case4 + 1
    omega

theorem count_tail_same {a c0 : RotateCount} {c : Color}
    (hJ : a.case3 = c0.case3 ∧ a.case4 = c0.case4 ∧ a.case1 ≤ c0.case1 + 1 ∧
      (c = .black → a = c0)) :
    a.case1 ≤ c0.case1 + 1 ∧ a.case3 ≤ c0.case3 + 1 ∧ a.case4 ≤ c0.case4 + 1 := by
  obtain ⟨h1, h2, h3, -⟩ := hJ
  exact ⟨h3, by omega, by omega⟩

theorem count_after_case1 {a a' c0 : RotateCount}
    (ha : a' = { a with case1 := a.case1 + 1 }) (hJ : a = c0) :
    a'.case3 = c0.case3 ∧ a'.case4 = c0.case4 ∧ a'.case1 ≤ c0.case1 + 1 ∧
      (Color.red = .black → a' = c0) := by
  subst ha hJ
  exact ⟨rfl, rfl, Nat.le_refl _, fun h => by cases h⟩

theorem count_entry {a c0 : RotateCount} {c : Color} (hJ : a = c0) :
    a.case3 = c0.case3 ∧ a.case4 = c0.case4 ∧ a.case1 ≤ c0.case1 + 1 ∧
      (c = .black → a = c0) := by
  subst hJ
  exact ⟨rfl, rfl, Nat.le_succ _, fun _ => rfl⟩

theorem erase_left_tail_count
    (loop : State RotateCount → Nat → Nat → Option (State RotateCount)) (c0 : RotateCount)
    {s : State RotateCount} {K : Ctx} {c : Color} {N Sn Sf : Tree} {p sx : Nat}
    (h : WF s (plug K (.node c N p (.node .black Sn sx Sf))))
    (hJ : s.aug.case3 = c0.case3 ∧ s.aug.case4 = c0.case4 ∧ s.aug.case1 ≤ c0.case1 + 1 ∧
      (c = .black → s.aug = c0))
    (hNv : N.Valid) (hSnv : Sn.Valid) (hSfv : Sf.Valid) (hSn : Sn.bh = N.bh) (hSf : Sf.bh = N.bh)
    (htop : topColorOK c K) (hK : CtxOK K (N.bh + 1 + c.bit))
    (hloop : c = .black → K ≠ [] → ∀ s1 N1, WF s1 (plug K N1) → s1.aug = c0 → N1.color = .black → N1.Valid →
      N1.bh = N.bh + 1 →
      ∃ s' t', loop s1 N1.addr (ctxAddr 0 K) = some s' ∧ WF s' t' ∧ t'.RB ∧
        t'.inorder = (plug K N1).inorder ∧
        s'.aug.case1 ≤ c0.case1 + 1 ∧ s'.aug.case3 ≤ c0.case3 + 1 ∧ s'.aug.case4 ≤ c0.case4 + 1) :
    ∃ s' t', erase_color_left_tail erase_rotate_counter loop s p sx = some s' ∧ WF s' t' ∧ t'.RB ∧
      t'.inorder = (plug K (.node c N p (.node .black Sn sx Sf))).inorder ∧
      s'.aug.case1 ≤ c0.case1 + 1 ∧ s'.aug.case3 ≤ c0.case3 + 1 ∧ s'.aug.case4 ≤ c0.case4 + 1 := by
  obtain ⟨hk, hT, hnd⟩ := WF_plug'.1 h
  have hpar := RepCtx_ctxAddr_aligned hk
  have hRepS : Rep s.mem (.node .black Sn sx Sf) p := by
    simp only [Rep] at hT
    simp only [Rep]
    tauto
  have hsx4 : sx % 4 = 0 := hRepS.2.1
  have hRepSn : Rep s.mem Sn sx := by
    simp only [Rep] at hRepS
    tauto
  have hRepSf : Rep s.mem Sf sx := by
    simp only [Rep] at hRepS
    tauto
  have hfar : (s.mem sx).rb_right = Sf.addr := by
    simp only [Rep] at hRepS
    tauto
  have hnear : (s.mem sx).rb_left = Sn.addr := by
    simp only [Rep] at hRepS
    tauto
  have hppc : (s.mem p).__rb_parent_color = ctxAddr 0 K + c.bit := hT.2.2.1
  have hpsx : p ≠ sx := by
    have hnd' := hnd
    simp only [Tree.inorder, List.nodup_append, List.nodup_cons, List.disjoint_append_left,
      List.disjoint_append_right, List.disjoint_cons_left, List.disjoint_cons_right,
      List.mem_append, List.mem_cons, not_or] at hnd'
    first
    | exact (ne_pair (by simp only [hnd', not_false_eq_true])).1
    | exact (ne_pair (by simp only [hnd', not_false_eq_true])).2
  unfold erase_color_left_tail
  simp only [hfar, hnear]
  cases hSfc : Sf.color with
  | red =>
    -- Case 4
    rw [if_neg (by rw [is_black_addr hRepSf hsx4, hSfc]; simp)]
    cases Sf with
    | nil => simp at hSfc
    | node cf Sfl sf Sfr =>
      simp only [color_node] at hSfc
      subst hSfc
      rw [Valid_node] at hSfv
      obtain ⟨hf1, hf2, hf3, hf4⟩ := hSfv
      obtain ⟨hf1a, hf1b⟩ := hf1 rfl
      simp only [bh_node, bit_red, Nat.add_zero] at hSf
      have hs := erase_case4_left_spec erase_rotate_counter h
      refine ⟨_, _, rfl, hs, ?_, by simp [inorder_plug, Tree.inorder],
        count_tail_case4 (erase_case4_left_count h) hJ⟩
      rw [RB_plug]
      refine ⟨?_, ?_, htop⟩
      · simp [Valid_node, hNv, hSnv, hf3, hf4] <;> omega
      · simp only [bh_node, bit_black]
        first
        | exact hK
        | (rw [hSn]; exact hK)
        | (rw [hSf]; exact hK)
        | (rw [hf2, hSf]; exact hK)
        | (rw [← hf2, hSf]; exact hK)
  | black =>
    rw [if_pos (by rw [is_black_addr hRepSf hsx4, hSfc])]
    cases hSnc : Sn.color with
    | red =>
      -- Case 3 then Case 4
      rw [if_neg (by rw [is_black_addr hRepSn hsx4, hSnc]; simp)]
      cases Sn with
      | nil => simp at hSnc
      | node cn Snl sn Snr =>
        simp only [color_node] at hSnc
        subst hSnc
        rw [Valid_node] at hSnv
        obtain ⟨hn1, hn2, hn3, hn4⟩ := hSnv
        obtain ⟨hn1a, hn1b⟩ := hn1 rfl
        simp only [bh_node, bit_red, Nat.add_zero] at hSn
        have hs := erase_case34_left_spec erase_rotate_counter h (by first | exact hn1a | exact hn1b)
        refine ⟨_, _, rfl, hs, ?_, by simp [inorder_plug, Tree.inorder],
          count_tail_case34 (erase_case34_left_count h (by first | exact hn1a | exact hn1b)) hJ⟩
        rw [RB_plug]
        refine ⟨?_, ?_, htop⟩
        · simp [Valid_node, hNv, hSfv, hn3, hn4] <;> omega
        · simp only [bh_node, bit_black]
          first
          | exact hK
          | (rw [hSn]; exact hK)
          | (rw [hSf]; exact hK)
          | (rw [hn2, hSn]; exact hK)
          | (rw [← hn2, hSn]; exact hK)
    | black =>
      -- Case 2
      rw [if_pos (by rw [is_black_addr hRepSn hsx4, hSnc])]
      unfold erase_case2
      have hpc2 : ((chx_rb_set_parent_color s sx p CHX_RB_RED).mem p).__rb_parent_color
          = ctxAddr 0 K + c.bit := by
        simp [chx_rb_set_parent_color, hpsx, hppc]
      have hred := is_red_of_word hpar hpc2
      have hparent : chx_rb_parent (chx_rb_set_parent_color s sx p CHX_RB_RED) p
          = ctxAddr 0 K := by
        rw [chx_rb_parent, hpc2, parent_of_word c hpar]
      simp only [hred, hparent]
      cases c with
      | red =>
        have hs := erase_case2_left_red_spec h
        refine ⟨_, _, by simp, hs, ?_, by simp [inorder_plug, Tree.inorder],
          count_tail_same hJ⟩
        rw [RB_plug]
        refine ⟨?_, ?_, topColorOK_black K⟩
        · simp [Valid_node, hNv, hSnv, hSfv, hSnc, hSfc] <;> omega
        · simp only [bh_node, bit_black]
          first
          | simpa using hK
          | (rw [hSn]; simpa using hK)
          | (rw [hSf]; simpa using hK)
      | black =>
        have hs := erase_case2_left_spec h
        have hN1v : Tree.Valid (.node .black N p (.node .red Sn sx Sf)) := by
          simp [Valid_node, hNv, hSnv, hSfv, hSnc, hSfc] <;> omega
        have hN1bh : Tree.bh (.node .black N p (.node .red Sn sx Sf)) = N.bh + 1 := by
          simp only [bh_node, bit_black, bit_red, Nat.add_zero] <;> omega
        by_cases hK0 : K = []
        · subst hK0
          refine ⟨_, _, by simp [ctxAddr], hs, ?_, by simp [inorder_plug, Tree.inorder],
            count_tail_same hJ⟩
          rw [RB_plug]
          exact ⟨hN1v, trivial, rfl⟩
        · have hne : ctxAddr 0 K ≠ 0 := fun e => hK0 ((RepCtx_ctxAddr_ne_zero hk).1 e)
          obtain ⟨s', t', e1, e2, e3, e4, e5⟩ := hloop rfl hK0 _ _ hs
            (hJ.2.2.2 rfl) rfl hN1v hN1bh
          refine ⟨s', t', ?_, e2, e3, e4.trans (by simp [inorder_plug, Tree.inorder]), e5⟩
          simpa [hne] using e1

theorem erase_right_tail_count
    (loop : State RotateCount → Nat → Nat → Option (State RotateCount)) (c0 : RotateCount)
    {s : State RotateCount} {K : Ctx} {c : Color} {N Sn Sf : Tree} {p sx : Nat}
    (h : WF s (plug K (.node c (.node .black Sf sx Sn) p N)))
    (hJ : s.aug.case3 = c0.case3 ∧ s.aug.case4 = c0.case4 ∧ s.aug.case1 ≤ c0.case1 + 1 ∧
      (c = .black → s.aug = c0))
    (hNv : N.Valid) (hSnv : Sn.Valid) (hSfv : Sf.Valid) (hSn : Sn.bh = N.bh) (hSf : Sf.bh = N.bh)
    (htop : topColorOK c K) (hK : CtxOK K (N.bh + 1 + c.bit))
    (hloop : c = .black → K ≠ [] → ∀ s1 N1, WF s1 (plug K N1) → s1.aug = c0 → N1.color = .black → N1.Valid →
      N1.bh = N.bh + 1 →
      ∃ s' t', loop s1 N1.addr (ctxAddr 0 K) = some s' ∧ WF s' t' ∧ t'.RB ∧
        t'.inorder = (plug K N1).inorder ∧
        s'.aug.case1 ≤ c0.case1 + 1 ∧ s'.aug.case3 ≤ c0.case3 + 1 ∧ s'.aug.case4 ≤ c0.case4 + 1) :
    ∃ s' t', erase_color_right_tail erase_rotate_counter loop s p sx = some s' ∧ WF s' t' ∧ t'.RB ∧
      t'.inorder = (plug K (.node c (.node .black Sf sx Sn) p N)).inorder ∧
      s'.aug.case1 ≤ c0.case1 + 1 ∧ s'.aug.case3 ≤ c0.case3 + 1 ∧ s'.aug.case4 ≤ c0.case4 + 1 := by
  obtain ⟨hk, hT, hnd⟩ := WF_plug'.1 h
  have hpar := RepCtx_ctxAddr_aligned hk
  have hRepS : Rep s.mem (.node .black Sf sx Sn) p := by
    simp only [Rep] at hT
    simp only [Rep]
    tauto
  have hsx4 : sx % 4 = 0 := hRepS.2.1
  have hRepSn : Rep s.mem Sn sx := by
    simp only [Rep] at hRepS
    tauto
  have hRepSf : Rep s.mem Sf sx := by
    simp only [Rep] at hRepS
    tauto
  have hfar : (s.mem sx).rb_left = Sf.addr := by
    simp only [Rep] at hRepS
    tauto
  have hnear : (s.mem sx).rb_right = Sn.addr := by
    simp only [Rep] at hRepS
    tauto
  have hppc : (s.mem p).__rb_parent_color = ctxAddr 0 K + c.bit := hT.2.2.1
  have hpsx : p ≠ sx := by
    have hnd' := hnd
    simp only [Tree.inorder, List.nodup_append, List.nodup_cons, List.disjoint_append_left,
      List.disjoint_append_right, List.disjoint_cons_left, List.disjoint_cons_right,
      List.mem_append, List.mem_cons, not_or] at hnd'
    first
    | exact (ne_pair (by simp only [hnd', not_false_eq_true])).1
    | exact (ne_pair (by simp only [hnd', not_false_eq_true])).2
  unfold erase_color_right_tail
  simp only [hfar, hnear]
  cases hSfc : Sf.color with
  | red =>
    -- Case 4
    rw [if_neg (by rw [is_black_addr hRepSf hsx4, hSfc]; simp)]
    cases Sf with
    | nil => simp at hSfc
    | node cf Sfl sf Sfr =>
      simp only [color_node] at hSfc
      subst hSfc
      rw [Valid_node] at hSfv
      obtain ⟨hf1, hf2, hf3, hf4⟩ := hSfv
      obtain ⟨hf1a, hf1b⟩ := hf1 rfl
      simp only [bh_node, bit_red, Nat.add_zero] at hSf
      have hs := erase_case4_right_spec erase_rotate_counter h
      refine ⟨_, _, rfl, hs, ?_, by simp [inorder_plug, Tree.inorder],
        count_tail_case4 (erase_case4_right_count h) hJ⟩
      rw [RB_plug]
      refine ⟨?_, ?_, htop⟩
      · simp [Valid_node, hNv, hSnv, hf3, hf4] <;> omega
      · simp only [bh_node, bit_black]
        first
        | exact hK
        | (rw [hSn]; exact hK)
        | (rw [hSf]; exact hK)
        | (rw [hf2, hSf]; exact hK)
        | (rw [← hf2, hSf]; exact hK)
  | black =>
    rw [if_pos (by rw [is_black_addr hRepSf hsx4, hSfc])]
    cases hSnc : Sn.color with
    | red =>
      -- Case 3 then Case 4
      rw [if_neg (by rw [is_black_addr hRepSn hsx4, hSnc]; simp)]
      cases Sn with
      | nil => simp at hSnc
      | node cn Snl sn Snr =>
        simp only [color_node] at hSnc
        subst hSnc
        rw [Valid_node] at hSnv
        obtain ⟨hn1, hn2, hn3, hn4⟩ := hSnv
        obtain ⟨hn1a, hn1b⟩ := hn1 rfl
        simp only [bh_node, bit_red, Nat.add_zero] at hSn
        have hs := erase_case34_right_spec erase_rotate_counter h (by first | exact hn1a | exact hn1b)
        refine ⟨_, _, rfl, hs, ?_, by simp [inorder_plug, Tree.inorder],
          count_tail_case34 (erase_case34_right_count h (by first | exact hn1a | exact hn1b)) hJ⟩
        rw [RB_plug]
        refine ⟨?_, ?_, htop⟩
        · simp [Valid_node, hNv, hSfv, hn3, hn4] <;> omega
        · simp only [bh_node, bit_black]
          first
          | exact hK
          | (rw [hSn]; exact hK)
          | (rw [hSf]; exact hK)
          | (rw [hn2, hSn]; exact hK)
          | (rw [← hn2, hSn]; exact hK)
    | black =>
      -- Case 2
      rw [if_pos (by rw [is_black_addr hRepSn hsx4, hSnc])]
      unfold erase_case2
      have hpc2 : ((chx_rb_set_parent_color s sx p CHX_RB_RED).mem p).__rb_parent_color
          = ctxAddr 0 K + c.bit := by
        simp [chx_rb_set_parent_color, hpsx, hppc]
      have hred := is_red_of_word hpar hpc2
      have hparent : chx_rb_parent (chx_rb_set_parent_color s sx p CHX_RB_RED) p
          = ctxAddr 0 K := by
        rw [chx_rb_parent, hpc2, parent_of_word c hpar]
      simp only [hred, hparent]
      cases c with
      | red =>
        have hs := erase_case2_right_red_spec h
        refine ⟨_, _, by simp, hs, ?_, by simp [inorder_plug, Tree.inorder],
          count_tail_same hJ⟩
        rw [RB_plug]
        refine ⟨?_, ?_, topColorOK_black K⟩
        · simp [Valid_node, hNv, hSnv, hSfv, hSnc, hSfc] <;> omega
        · simp only [bh_node, bit_black]
          first
          | simpa using hK
          | (rw [hSn]; simpa using hK)
          | (rw [hSf]; simpa using hK)
      | black =>
        have hs := erase_case2_right_spec h
        have hN1v : Tree.Valid (.node .black (.node .red Sf sx Sn) p N) := by
          simp [Valid_node, hNv, hSnv, hSfv, hSnc, hSfc] <;> omega
        have hN1bh : Tree.bh (.node .black (.node .red Sf sx Sn) p N) = N.bh + 1 := by
          simp only [bh_node, bit_black, bit_red, Nat.add_zero] <;> omega
        by_cases hK0 : K = []
        · subst hK0
          refine ⟨_, _, by simp [ctxAddr], hs, ?_, by simp [inorder_plug, Tree.inorder],
            count_tail_same hJ⟩
          rw [RB_plug]
          exact ⟨hN1v, trivial, rfl⟩
        · have hne : ctxAddr 0 K ≠ 0 := fun e => hK0 ((RepCtx_ctxAddr_ne_zero hk).1 e)
          obtain ⟨s', t', e1, e2, e3, e4, e5⟩ := hloop rfl hK0 _ _ hs
            (hJ.2.2.2 rfl) rfl hN1v hN1bh
          refine ⟨s', t', ?_, e2, e3, e4.trans (by simp [inorder_plug, Tree.inorder]), e5⟩
          simpa [hne] using e1

/-- The erase fix-up loop run with the hook that counts by call site: it
returns within one iteration per level of the position of the hole, and each
call site invokes the hook at most once. -/
theorem erase_loop_count (c0 : RotateCount) : ∀ (fuel : Nat) (K : Ctx) (N : Tree)
    (s : State RotateCount),
    K ≠ [] → K.length ≤ fuel → WF s (plug K N) → s.aug = c0 → N.Valid →
    CtxOK K (N.bh + 1) →
    ∃ s' t', ____chx_rb_erase_color_loop erase_rotate_counter fuel s N.addr (ctxAddr 0 K) =
        some s' ∧
      WF s' t' ∧ t'.RB ∧ t'.inorder = (plug K N).inorder ∧
      s'.aug.case1 ≤ c0.case1 + 1 ∧ s'.aug.case3 ≤ c0.case3 + 1 ∧ s'.aug.case4 ≤ c0.case4 + 1 := by
  intro fuel
  induction fuel with
  | zero =>
    intro K N s hK0 hlen
    cases K with
    | nil => exact absurd rfl hK0
    | cons f K' => simp at hlen
  | succ fuel ih =>
    intro K N s hK0 hlen h hJ hNv hK
    cases K with
    | nil => exact absurd rfl hK0
    | cons f K' =>
      cases f with
      | left c p S =>
        simp only [CtxOK] at hK
        obtain ⟨hS1, hS2, hS3, hS4, hS5⟩ := hK
        cases S with
        | nil => simp at hS1
        | node cs Sn sx Sf =>
          have h' : WF s (plug K' (.node c N p (.node cs Sn sx Sf))) := h
          rw [Valid_node] at hS2
          obtain ⟨hS2a, hS2b, hS2c, hS2d⟩ := hS2
          simp only [bh_node] at hS1
          simp only [ctxAddr, Frame.addr]
          rw [erase_step_left erase_rotate_counter fuel h']
          cases cs with
          | red =>
            have hc : c = .black := by
              cases c
              · exact absurd (hS3 rfl) (by simp)
              · rfl
            subst hc
            obtain ⟨hSnc, hSfc⟩ : Sn.color = .black ∧ Sf.color = .black := by
              have := hS2a rfl
              tauto
            simp only [bit_red, Nat.add_zero, bit_black] at hS1 hS5
            cases Sn with
            | nil => exfalso; simp only [bh_nil] at hS1 hS2b; omega
            | node cn Snl sn Snr =>
              simp only [color_node] at hSnc
              subst hSnc
              rw [Valid_node] at hS2c
              obtain ⟨hn1, hn2, hn3, hn4⟩ := hS2c
              simp only [bh_node, bit_black] at hS1 hS2b
              have hs1 := erase_case1_left_spec erase_rotate_counter h'
              have hJ1 := erase_case1_left_count h'
              have hr2 : (erase_case1_left erase_rotate_counter s p sx).2 = sn := by
                obtain ⟨-, hT, -⟩ := WF_plug'.1 h'
                simp only [Rep, addr_node] at hT
                simp only [erase_case1_left]
                tauto
              simp only [if_true, hr2]
              have hs1' : WF (erase_case1_left erase_rotate_counter s p sx).1
                  (plug (.left .black sx Sf :: K') (.node .red N p (.node .black Snl sn Snr))) := hs1
              obtain ⟨s', t', e1, e2, e3, e4, e5⟩ := erase_left_tail_count
                (____chx_rb_erase_color_loop erase_rotate_counter fuel) c0 hs1'
                (count_after_case1 hJ1 hJ) hNv
                (by first | exact hn3 | exact hn4) (by first | exact hn4 | exact hn3)
                (by omega) (by omega) (fun _ => rfl)
                (by
                  simp only [CtxOK, bit_red, bit_black, Nat.add_zero]
                  refine ⟨by omega, by first | exact hS2d | exact hS2c, by simp,
                    topColorOK_black K', hS5⟩)
                (fun hcc => by cases hcc)
              exact ⟨s', t', e1, e2, e3, e4.trans (by simp [inorder_plug, Tree.inorder, plug]), e5⟩
          | black =>
            simp only [bit_black] at hS1
            simp only [if_false, reduceCtorEq]
            obtain ⟨s', t', e1, e2, e3, e4, e5⟩ := erase_left_tail_count
              (____chx_rb_erase_color_loop erase_rotate_counter fuel) c0 h'
              (count_entry hJ) hNv
              (by first | exact hS2c | exact hS2d) (by first | exact hS2d | exact hS2c)
              (by omega) (by omega) hS4 hS5
              (fun hcc hKn s1 N1 hw hj _ hv hb => by
                subst hcc
                exact ih K' N1 s1 hKn (by simp only [List.length_cons] at hlen; omega) hw hj hv
                  (by rw [hb]; exact hS5))
            exact ⟨s', t', e1, e2, e3, e4.trans (by simp [inorder_plug, Tree.inorder, plug]), e5⟩
      | right c S p =>
        simp only [CtxOK] at hK
        obtain ⟨hS1, hS2, hS3, hS4, hS5⟩ := hK
        cases S with
        | nil => simp at hS1
        | node cs Sf sx Sn =>
          have h' : WF s (plug K' (.node c (.node cs Sf sx Sn) p N)) := h
          rw [Valid_node] at hS2
          obtain ⟨hS2a, hS2b, hS2c, hS2d⟩ := hS2
          simp only [bh_node] at hS1
          simp only [ctxAddr, Frame.addr]
          rw [erase_step_right erase_rotate_counter fuel h']
          cases cs with
          | red =>
            have hc : c = .black := by
              cases c
              · exact absurd (hS3 rfl) (by simp)
              · rfl
            subst hc
            obtain ⟨hSnc, hSfc⟩ : Sn.color = .black ∧ Sf.color = .black := by
              have := hS2a rfl
              tauto
            simp only [bit_red, Nat.add_zero, bit_black] at hS1 hS5
            cases Sn with
            | nil => exfalso; simp only [bh_nil] at hS1 hS2b; omega
            | node cn Snl sn Snr =>
              simp only [color_node] at hSnc
              subst hSnc
              rw [Valid_node] at hS2d
              obtain ⟨hn1, hn2, hn3, hn4⟩ := hS2d
              simp only [bh_node, bit_black] at hS1 hS2b
              have hs1 := erase_case1_right_spec erase_rotate_counter h'
              have hJ1 := erase_case1_right_count h'
              have hr2 : (erase_case1_right erase_rotate_counter s p sx).2 = sn := by
                obtain ⟨-, hT, -⟩ := WF_plug'.1 h'
                simp only [Rep, addr_node] at hT
                simp only [erase_case1_right]
                tauto
              simp only [if_true, hr2]
              have hs1' : WF (erase_case1_right erase_rotate_counter s p sx).1
                  (plug (.right .black Sf sx :: K') (.node .red (.node .black Snl sn Snr) p N)) := hs1
              obtain ⟨s', t', e1, e2, e3, e4, e5⟩ := erase_right_tail_count
                (____chx_rb_erase_color_loop erase_rotate_counter fuel) c0 hs1'
                (count_after_case1 hJ1 hJ) hNv
                (by first | exact hn3 | exact hn4) (by first | exact hn4 | exact hn3)
                (by omega) (by omega) (fun _ => rfl)
                (by
                  simp only [CtxOK, bit_red, bit_black, Nat.add_zero]
                  refine ⟨by omega, by first | exact hS2d | exact hS2c, by simp,
                    topColorOK_black K', hS5⟩)
                (fun hcc => by cases hcc)
              exact ⟨s', t', e1, e2, e3, e4.trans (by simp [inorder_plug, Tree.inorder, plug]), e5⟩
          | black =>
            simp only [bit_black] at hS1
            simp only [if_false, reduceCtorEq]
            obtain ⟨s', t', e1, e2, e3, e4, e5⟩ := erase_right_tail_count
              (____chx_rb_erase_color_loop erase_rotate_counter fuel) c0 h'
              (count_entry hJ) hNv
              (by first | exact hS2c | exact hS2d) (by first | exact hS2d | exact hS2c)
              (by omega) (by omega) hS4 hS5
              (fun hcc hKn s1 N1 hw hj _ hv hb => by
                subst hcc
                exact ih K' N1 s1 hKn (by simp only [List.length_cons] at hlen; omega) hw hj hv
                  (by rw [hb]; exact hS5))
            exact ⟨s', t', e1, e2, e3, e4.trans (by simp [inorder_plug, Tree.inorder, plug]), e5⟩


/-! ## The splice and the entry of the fix-up -/

/-- After the splice the value of `rebalance` is null and the tree is a
red-black tree, or it is the parent of an empty hole that lacks one black
node. -/
theorem finish_cases {σ : State α} {K : Ctx} {γ : Color} {C : Tree} {ξ : Nat}
    (hwf : WF σ (plug K C.paintBlack))
    (hXv : (Tree.node γ .nil ξ C).Valid) (hK : CtxOK K (Tree.node γ .nil ξ C).bh) :
    ((if C.addr ≠ 0 then 0 else if γ = .black then ctxAddr 0 K else 0) = 0 ∧
        (plug K C.paintBlack).RB) ∨
      ((if C.addr ≠ 0 then 0 else if γ = .black then ctxAddr 0 K else 0) = ctxAddr 0 K ∧
        (if C.addr ≠ 0 then 0 else if γ = .black then ctxAddr 0 K else 0) ≠ 0 ∧ C = .nil ∧
        K ≠ [] ∧ CtxOK K (Tree.nil.bh + 1)) := by
  rw [Valid_node] at hXv
  obtain ⟨hc, hb, -, hCv⟩ := hXv
  simp only [bh_node, bh_nil, Nat.zero_add] at hK hb
  cases C with
  | node cC Cl cx Cr =>
    obtain ⟨-, hT, -⟩ := WF_plug'.1 hwf
    have hcx0 : cx ≠ 0 := hT.1
    simp only [addr_node, ne_eq, hcx0, not_false_eq_true, if_true, not_true_eq_false, if_false]
    refine Or.inl ⟨trivial, ?_⟩
    rw [RB_plug]
    rw [Valid_node] at hCv
    simp only [bh_node] at hb
    have hcC : cC = .red := by
      cases cC
      · rfl
      · simp at hb
    subst hcC
    have hcs : γ = .black := by
      cases γ
      · have := (hc rfl).2
        simp at this
      · rfl
    subst hcs
    simp only [paintBlack_node, color_node]
    refine ⟨Valid_node.2 ⟨by simp, hCv.2.1, hCv.2.2.1, hCv.2.2.2⟩, ?_, topColorOK_black K⟩
    simp only [bh_node, bit_black, bit_red, Nat.add_zero] at hb ⊢
    rw [← hb]
    exact hK
  | nil =>
    simp only [addr_nil, ne_eq, not_true_eq_false, if_false, paintBlack_nil] at hwf ⊢
    cases γ with
    | red =>
      simp only [reduceCtorEq, if_false, not_true_eq_false]
      refine Or.inl ⟨trivial, ?_⟩
      rw [RB_plug]
      exact ⟨Valid_nil, by simpa using hK, topColorOK_black K⟩
    | black =>
      simp only [if_true]
      by_cases hK0 : K = []
      · subst hK0
        refine Or.inl ⟨rfl, ?_⟩
        rw [RB_plug]
        exact ⟨Valid_nil, trivial, rfl⟩
      · obtain ⟨hk, -, -⟩ := WF_plug'.1 hwf
        have hne : ctxAddr 0 K ≠ 0 := fun e => hK0 ((RepCtx_ctxAddr_ne_zero hk).1 e)
        exact Or.inr ⟨trivial, hne, trivial, hK0, by simpa using hK⟩

theorem ctxAddr_append_right (c : Color) (l : Tree) (sx : Nat) (k : Ctx) :
    ∀ rk : Ctx, ctxAddr 0 (rk ++ .right c l sx :: k) = ctxAddr sx rk
  | [] => rfl
  | _ :: _ => rfl

/-- The splice of a node of a red-black tree: `__chx_rb_erase_augmented`
returns a state that holds the other nodes in their old order around a hole
`K`, and either `rebalance` is null and the tree is a red-black tree, or
`rebalance` is the parent of the hole, the hole is empty and lacks one black
node. -/
theorem splice_spec (aug : chx_rb_augment_callbacks α) (fuel : Nat) {s : State α} {k : Ctx}
    {c : Color} {l r : Tree} {n : Nat}
    (h : WF s (plug k (.node c l n r))) (hrb : (plug k (.node c l n r)).RB)
    (hfuel : (plug k (.node c l n r)).height ≤ fuel) :
    ∃ σ reb K C, __chx_rb_erase_augmented aug fuel s n = some (σ, reb) ∧
      WF σ (plug K C) ∧ K.length ≤ fuel ∧
      (plug K C).inorder = ctxBefore k ++ (l.inorder ++ r.inorder) ++ ctxAfter k ∧
      ((reb = 0 ∧ (plug K C).RB) ∨
        (reb = ctxAddr 0 K ∧ reb ≠ 0 ∧ C = .nil ∧ K ≠ [] ∧ CtxOK K (Tree.nil.bh + 1))) := by
  obtain ⟨hk, hT, hnd⟩ := WF_plug'.1 h
  obtain ⟨hTv, hkOK, htop⟩ := (RB_plug _ _).1 hrb
  have hpar := RepCtx_ctxAddr_aligned hk
  have hpw := parent_of_word c hpar
  have hbw := is_black_word c hpar
  have hlen := plug_height k (.node c l n r)
  obtain ⟨hn0, hn4, hnpc, hnl, hnr, hL, hR⟩ := hT
  cases l with
  | nil =>
    cases r with
    | nil =>
      have hwf : WF (__chx_rb_change_child s n 0 (ctxAddr 0 k)) (plug k .nil) :=
        WF_change_child_erase (T := .node c .nil n .nil) (U := .nil) (n := n) hk hnd hn0
          (by simp) rfl (fun _ _ => rfl) trivial (by simp [Tree.inorder])
      have hwf' : WF ((__chx_rb_change_child s n 0 (ctxAddr 0 k)).call aug.propagate
          (ctxAddr 0 k) 0) (plug k Tree.nil.paintBlack) := WF_call.2 hwf
      have hf := finish_cases (γ := c) (ξ := n) hwf' hTv hkOK
      refine ⟨(__chx_rb_change_child s n 0 (ctxAddr 0 k)).call aug.propagate (ctxAddr 0 k) 0,
        _, k, .nil, ?_, hwf', by simp only [Tree.height] at hlen; omega,
        by simp [inorder_plug, Tree.inorder], hf⟩
      unfold __chx_rb_erase_augmented
      simp only [hnl, hnr, hnpc, hpw, hbw, addr_nil, if_true, ne_eq, not_true_eq_false,
        if_false, decide_eq_true_eq]
    | node cr rl ch rr =>
      have hch0 : ch ≠ 0 := hR.1
      have hs := erase_splice_right_spec h
      rw [hnpc, hpw] at hs
      rw [Valid_node] at hTv
      obtain ⟨hc, hb, -, hrv⟩ := hTv
      rw [Valid_node] at hrv
      simp only [bh_node, bh_nil] at hb hkOK
      have hcr : cr = .red := by
        cases cr
        · rfl
        · simp at hb
      subst hcr
      have hcb : c = .black := by
        cases c
        · have := (hc rfl).2
          simp at this
        · rfl
      subst hcb
      refine ⟨_, 0, k, .node .black rl ch rr, ?_,
        (WF_call (f := aug.propagate) (a := ctxAddr 0 k) (b := 0)).2 hs,
        by simp only [Tree.height] at hlen; omega, by simp [inorder_plug, Tree.inorder],
        Or.inl ⟨rfl, ?_⟩⟩
      · unfold __chx_rb_erase_augmented
        simp only [hnl, hnr, hnpc, hpw, hbw, addr_nil, if_true, addr_node, ne_eq, hch0,
          not_false_eq_true]
      · rw [RB_plug]
        refine ⟨Valid_node.2 ⟨by simp, hrv.2.1, hrv.2.2.1, hrv.2.2.2⟩, ?_, htop⟩
        simp only [bh_node, bit_black, bit_red, Nat.add_zero, Nat.zero_add] at hb hkOK ⊢
        rw [← hb]
        exact hkOK
  | node cl ll lx lr =>
    have hlx0 : lx ≠ 0 := hL.1
    by_cases hr : r = .nil
    · subst hr
      have hs := erase_splice_left_spec h
      rw [hnpc, hpw] at hs
      rw [Valid_node] at hTv
      obtain ⟨hc, hb, hlv, -⟩ := hTv
      rw [Valid_node] at hlv
      simp only [bh_node, bh_nil] at hb hkOK
      have hcl : cl = .red := by
        cases cl
        · rfl
        · simp at hb
      subst hcl
      have hcb : c = .black := by
        cases c
        · have := (hc rfl).1
          simp at this
        · rfl
      subst hcb
      refine ⟨_, 0, k, .node .black ll lx lr, ?_,
        (WF_call (f := aug.propagate) (a := ctxAddr 0 k) (b := 0)).2 hs,
        by simp only [Tree.height] at hlen; omega, by simp [inorder_plug, Tree.inorder],
        Or.inl ⟨rfl, ?_⟩⟩
      · unfold __chx_rb_erase_augmented
        simp only [hnl, hnr, hnpc, hpw, hbw, addr_nil, if_true, addr_node, hlx0, if_false]
      · rw [RB_plug]
        refine ⟨Valid_node.2 ⟨by simp, hlv.2.1, hlv.2.2.1, hlv.2.2.2⟩, ?_, htop⟩
        simpa using hkOK
    · obtain ⟨rk, cs, sx, C, hal, e⟩ := leftmost_split r hr
      subst e
      have hrb' : (plug (rk ++ .right c (.node cl ll lx lr) n :: k) (.node cs .nil sx C)).RB := by
        rw [plug_append]; exact hrb
      obtain ⟨hXv, hK0, -⟩ := (RB_plug _ _).1 hrb'
      have hK := (CtxOK_right_addr c (.node cl ll lx lr) n sx k rk _).1 hK0
      have hlenK : (rk ++ .right c (.node cl ll lx lr) sx :: k).length ≤ fuel := by
        have := plug_height (rk ++ .right c (.node cl ll lx lr) n :: k) (.node cs .nil sx C)
        rw [plug_append] at this
        simp only [List.length_append, List.length_cons, Tree.height] at this ⊢
        have hfu : (plug k (.node c (.node cl ll lx lr) n (plug rk (.node cs .nil sx C)))).height
            ≤ fuel := hfuel
        simp only [plug] at this
        omega
      have hio : (plug (rk ++ .right c (.node cl ll lx lr) sx :: k) C.paintBlack).inorder =
          ctxBefore k ++ ((Tree.node cl ll lx lr).inorder ++
            (plug rk (.node cs .nil sx C)).inorder) ++ ctxAfter k := by
        simp [plug_append, plug, inorder_plug, Tree.inorder, ctxBefore_allLeft rk hal,
          inorder_paintBlack]
      obtain ⟨σ, e1, hσ⟩ := splice_two_at aug fuel h hal (by
        simp only [List.length_append, List.length_cons] at hlenK
        omega)
      have hσ' : WF σ (plug (rk ++ .right c (.node cl ll lx lr) sx :: k) C.paintBlack) := by
        rw [plug_append]
        exact hσ
      have hf := finish_cases (γ := cs) (ξ := sx) hσ' hXv hK
      rw [ctxAddr_append_right] at hf
      refine ⟨σ, _, rk ++ .right c (.node cl ll lx lr) sx :: k, C.paintBlack, e1, hσ', hlenK,
        hio, ?_⟩
      rcases hf with ⟨f1, f2⟩ | ⟨f1, f2, f3, f4, f5⟩
      · exact Or.inl ⟨f1, f2⟩
      · subst f3
        exact Or.inr ⟨by rw [ctxAddr_append_right]; exact f1, f2, rfl, f4, f5⟩


/-! ## The rotations of an erase -/

/-- With hooks `propagate` and `copy` that do nothing the splice leaves the
hook data as they are. -/
theorem splice_aug_dummy (aug : chx_rb_augment_callbacks α) (hp : aug.propagate = dummy_propagate)
    (hc : aug.copy = dummy_copy) {fuel : Nat} {s σ : State α} {n reb : Nat}
    (h : __chx_rb_erase_augmented aug fuel s n = some (σ, reb)) : σ.aug = s.aug := by
  unfold __chx_rb_erase_augmented at h
  simp only [hp, hc] at h
  split_ifs at h
  all_goals first
    | (simp only [Option.some.injEq, Prod.mk.injEq] at h
       obtain ⟨rfl, -⟩ := h
       simp [State.call, dummy_propagate, dummy_copy, erase_splice_successor]
       try split_ifs <;> simp)
    | (split at h
       · cases h
       · simp only [Option.some.injEq, Prod.mk.injEq] at h
         obtain ⟨rfl, -⟩ := h
         simp [State.call, dummy_propagate, dummy_copy, erase_splice_successor]
         try split_ifs <;> simp)

/-- A Case 2 iteration of the left branch below a black parent that is not the
root: the sibling is painted red and the loop goes on one level up, at the
parent. -/
theorem erase_step_case2_left (rot : Callback α) (fuel : Nat) {s : State α} {K : Ctx}
    {N Sn Sf : Tree} {p sx : Nat}
    (h : WF s (plug K (.node .black N p (.node .black Sn sx Sf))))
    (hSn : Sn.color = .black) (hSf : Sf.color = .black) (hK0 : K ≠ []) :
    ____chx_rb_erase_color_loop rot (fuel + 1) s N.addr p =
      ____chx_rb_erase_color_loop rot fuel (chx_rb_set_parent_color s sx p CHX_RB_RED) p
        (ctxAddr 0 K) := by
  rw [erase_step_left rot fuel h]
  simp only [reduceCtorEq, if_false]
  obtain ⟨hk, hT, hnd⟩ := WF_plug'.1 h
  have hpar := RepCtx_ctxAddr_aligned hk
  have hRepS : Rep s.mem (.node .black Sn sx Sf) p := by
    simp only [Rep] at hT
    simp only [Rep]
    tauto
  have hsx4 : sx % 4 = 0 := hRepS.2.1
  have hRepSn : Rep s.mem Sn sx := by
    simp only [Rep] at hRepS
    tauto
  have hRepSf : Rep s.mem Sf sx := by
    simp only [Rep] at hRepS
    tauto
  have hfar : (s.mem sx).rb_right = Sf.addr := by
    simp only [Rep] at hRepS
    tauto
  have hnear : (s.mem sx).rb_left = Sn.addr := by
    simp only [Rep] at hRepS
    tauto
  have hppc : (s.mem p).__rb_parent_color = ctxAddr 0 K + Color.black.bit := hT.2.2.1
  have hpsx : p ≠ sx := by
    have hnd' := hnd
    simp only [Tree.inorder, List.nodup_append, List.nodup_cons, List.disjoint_append_left,
      List.disjoint_append_right, List.disjoint_cons_left, List.disjoint_cons_right,
      List.mem_append, List.mem_cons, not_or] at hnd'
    first
    | exact (ne_pair (by simp only [hnd', not_false_eq_true])).1
    | exact (ne_pair (by simp only [hnd', not_false_eq_true])).2
  unfold erase_color_left_tail
  simp only [hfar, hnear]
  rw [if_pos (by rw [is_black_addr hRepSf hsx4, hSf])]
  rw [if_pos (by rw [is_black_addr hRepSn hsx4, hSn])]
  unfold erase_case2
  have hpc2 : ((chx_rb_set_parent_color s sx p CHX_RB_RED).mem p).__rb_parent_color
      = ctxAddr 0 K + Color.black.bit := by
    simp [chx_rb_set_parent_color, hpsx, hppc]
  have hred := is_red_of_word hpar hpc2
  have hparent : chx_rb_parent (chx_rb_set_parent_color s sx p CHX_RB_RED) p
      = ctxAddr 0 K := by
    rw [chx_rb_parent, hpc2, parent_of_word .black hpar]
  simp only [hred, hparent]
  have hne : ctxAddr 0 K ≠ 0 := fun e => hK0 ((RepCtx_ctxAddr_ne_zero hk).1 e)
  simp [hne]

/-- A Case 2 iteration of the right branch below a black parent that is not the
root: the sibling is painted red and the loop goes on one level up, at the
parent. -/
theorem erase_step_case2_right (rot : Callback α) (fuel : Nat) {s : State α} {K : Ctx}
    {N Sn Sf : Tree} {p sx : Nat}
    (h : WF s (plug K (.node .black (.node .black Sf sx Sn) p N)))
    (hSn : Sn.color = .black) (hSf : Sf.color = .black) (hK0 : K ≠ []) :
    ____chx_rb_erase_color_loop rot (fuel + 1) s N.addr p =
      ____chx_rb_erase_color_loop rot fuel (chx_rb_set_parent_color s sx p CHX_RB_RED) p
        (ctxAddr 0 K) := by
  rw [erase_step_right rot fuel h]
  simp only [reduceCtorEq, if_false]
  obtain ⟨hk, hT, hnd⟩ := WF_plug'.1 h
  have hpar := RepCtx_ctxAddr_aligned hk
  have hRepS : Rep s.mem (.node .black Sf sx Sn) p := by
    simp only [Rep] at hT
    simp only [Rep]
    tauto
  have hsx4 : sx % 4 = 0 := hRepS.2.1
  have hRepSn : Rep s.mem Sn sx := by
    simp only [Rep] at hRepS
    tauto
  have hRepSf : Rep s.mem Sf sx := by
    simp only [Rep] at hRepS
    tauto
  have hfar : (s.mem sx).rb_left = Sf.addr := by
    simp only [Rep] at hRepS
    tauto
  have hnear : (s.mem sx).rb_right = Sn.addr := by
    simp only [Rep] at hRepS
    tauto
  have hppc : (s.mem p).__rb_parent_color = ctxAddr 0 K + Color.black.bit := hT.2.2.1
  have hpsx : p ≠ sx := by
    have hnd' := hnd
    simp only [Tree.inorder, List.nodup_append, List.nodup_cons, List.disjoint_append_left,
      List.disjoint_append_right, List.disjoint_cons_left, List.disjoint_cons_right,
      List.mem_append, List.mem_cons, not_or] at hnd'
    first
    | exact (ne_pair (by simp only [hnd', not_false_eq_true])).1
    | exact (ne_pair (by simp only [hnd', not_false_eq_true])).2
  unfold erase_color_right_tail
  simp only [hfar, hnear]
  rw [if_pos (by rw [is_black_addr hRepSf hsx4, hSf])]
  rw [if_pos (by rw [is_black_addr hRepSn hsx4, hSn])]
  unfold erase_case2
  have hpc2 : ((chx_rb_set_parent_color s sx p CHX_RB_RED).mem p).__rb_parent_color
      = ctxAddr 0 K + Color.black.bit := by
    simp [chx_rb_set_parent_color, hpsx, hppc]
  have hred := is_red_of_word hpar hpc2
  have hparent : chx_rb_parent (chx_rb_set_parent_color s sx p CHX_RB_RED) p
      = ctxAddr 0 K := by
    rw [chx_rb_parent, hpc2, parent_of_word .black hpar]
  simp only [hred, hparent]
  have hne : ctxAddr 0 K ≠ 0 := fun e => hK0 ((RepCtx_ctxAddr_ne_zero hk).1 e)
  simp [hne]

/-- Claim C35.  The state holds a red-black tree and `n` is one of its nodes.
Then the erase run with a rotate hook that counts its invocations by call site
returns a red-black tree within `fuel` loop iterations, where `fuel` is the
height of the tree, and the hook is invoked at most once from each of Case 1,
Case 3 and Case 4, so at most three times in all.  In a Case 2 iteration that
goes on (black parent `p` that is not the root, black sibling `sx` with black
children) the loop goes on at `p` with the parent of `p` as the new parent, one
level closer to the root, and the hook is not invoked. -/
theorem erase_fixup_terminates (s : State RotateCount) (t : Tree) (n fuel : Nat)
    (hwf : WF s t) (hrb : t.RB) (hn : n ∈ t.inorder) (hfuel : t.height ≤ fuel) :
    (∃ s' t', chx_rb_erase_augmented erase_counting fuel s n = some s' ∧ WF s' t' ∧ t'.RB ∧
      s'.aug.case1 ≤ s.aug.case1 + 1 ∧ s'.aug.case3 ≤ s.aug.case3 + 1 ∧
      s'.aug.case4 ≤ s.aug.case4 + 1 ∧
      s'.aug.case1 + s'.aug.case3 + s'.aug.case4 ≤ s.aug.case1 + s.aug.case3 + s.aug.case4 + 3) ∧
    ∀ (σ : State RotateCount) (K : Ctx) (N Sn Sf : Tree) (p sx f : Nat), K ≠ [] →
      Sn.color = .black → Sf.color = .black →
      (WF σ (plug K (.node .black N p (.node .black Sn sx Sf))) ∨
        WF σ (plug K (.node .black (.node .black Sf sx Sn) p N))) →
      ____chx_rb_erase_color_loop erase_rotate_counter (f + 1) σ N.addr p =
        ____chx_rb_erase_color_loop erase_rotate_counter f
          (chx_rb_set_parent_color σ sx p CHX_RB_RED) p (ctxAddr 0 K) ∧
      chx_rb_parent σ p = ctxAddr 0 K ∧
      (chx_rb_set_parent_color σ sx p CHX_RB_RED).aug = σ.aug := by
  constructor
  · obtain ⟨k, c, l, r, e⟩ := mem_split_plug t n hn
    subst e
    obtain ⟨σ, reb, K, C, e1, hσ, hlenK, hio, hcase⟩ :=
      splice_spec erase_counting fuel hwf hrb hfuel
    have haug := splice_aug_dummy erase_counting rfl rfl e1
    unfold chx_rb_erase_augmented
    rw [e1]
    rcases hcase with ⟨h0, hRB⟩ | ⟨h1, h2, h3, h4, h5⟩
    · subst h0
      refine ⟨σ, _, by simp, hσ, hRB, ?_, ?_, ?_, ?_⟩ <;> rw [haug] <;> omega
    · subst h3
      obtain ⟨s', t', f1, f2, f3, -, f5, f6, f7⟩ :=
        erase_loop_count s.aug fuel K .nil σ h4 hlenK hσ haug Valid_nil h5
      refine ⟨s', t', ?_, f2, f3, f5, f6, f7, by omega⟩
      simp only [ne_eq, h2, not_false_eq_true, if_true]
      rw [h1]
      exact f1
  · intro σ K N Sn Sf p sx f hK0 hSn hSf h
    rcases h with h | h
    · refine ⟨erase_step_case2_left erase_rotate_counter f h hSn hSf hK0, ?_, rfl⟩
      obtain ⟨hk, hT, -⟩ := WF_plug'.1 h
      unfold chx_rb_parent
      rw [hT.2.2.1]
      exact parent_of_word .black (RepCtx_ctxAddr_aligned hk)
    · refine ⟨erase_step_case2_right erase_rotate_counter f h hSn hSf hK0, ?_, rfl⟩
      obtain ⟨hk, hT, -⟩ := WF_plug'.1 h
      unfold chx_rb_parent
      rw [hT.2.2.1]
      exact parent_of_word .black (RepCtx_ctxAddr_aligned hk)

theorem erase_fixup_terminates_witness :
    WF (demo_four.with_aug (RotateCount.mk 0 0 0)) demo_four_tree ∧ demo_four_tree.RB ∧
    4 ∈ demo_four_tree.inorder ∧
    ((∃ s' t', chx_rb_erase_augmented erase_counting 3
        (demo_four.with_aug (RotateCount.mk 0 0 0)) 4 = some s' ∧ WF s' t' ∧ t'.RB ∧
      s'.aug.case1 ≤ (demo_four.with_aug (RotateCount.mk 0 0 0)).aug.case1 + 1 ∧
      s'.aug.case3 ≤ (demo_four.with_aug (RotateCount.mk 0 0 0)).aug.case3 + 1 ∧
      s'.aug.case4 ≤ (demo_four.with_aug (RotateCount.mk 0 0 0)).aug.case4 + 1 ∧
      s'.aug.case1 + s'.aug.case3 + s'.aug.case4 ≤
        (demo_four.with_aug (RotateCount.mk 0 0 0)).aug.case1 +
        (demo_four.with_aug (RotateCount.mk 0 0 0)).aug.case3 +
        (demo_four.with_aug (RotateCount.mk 0 0 0)).aug.case4 + 3) ∧
    ∀ (σ : State RotateCount) (K : Ctx) (N Sn Sf : Tree) (p sx f : Nat), K ≠ [] →
      Sn.color = .black → Sf.color = .black →
      (WF σ (plug K (.node .black N p (.node .black Sn sx Sf))) ∨
        WF σ (plug K (.node .black (.node .black Sf sx Sn) p N))) →
      ____chx_rb_erase_color_loop erase_rotate_counter (f + 1) σ N.addr p =
        ____chx_rb_erase_color_loop erase_rotate_counter f
          (chx_rb_set_parent_color σ sx p CHX_RB_RED) p (ctxAddr 0 K) ∧
      chx_rb_parent σ p = ctxAddr 0 K ∧
      (chx_rb_set_parent_color σ sx p CHX_RB_RED).aug = σ.aug) :=
  ⟨by decide, by decide, by decide,
    erase_fixup_terminates (demo_four.with_aug (RotateCount.mk 0 0 0)) demo_four_tree 4 3
      (by decide) (by decide) (by decide) (by decide)⟩


/-! ## Erase fix-up: the blocks leave the memory outside the tree alone -/

theorem change_child_mem_frame {s : State α} {old new parent x : Nat}
    (h : parent ≠ 0 → x ≠ parent) :
    (__chx_rb_change_child s old new parent).mem x = s.mem x := by
  by_cases hp : parent = 0
  · subst hp
    simp [__chx_rb_change_child, State.store_root]
  · exact change_child_mem_ne (h hp)

theorem erase_case1_left_frame (rot : Callback α) {s : State α} {k : Ctx} {cp cs csl : Color}
    {N Sll Slr Sr : Tree} {p sx sl : Nat} {x : Nat}
    (h : WF s (plug k (.node cp N p (.node cs (.node csl Sll sl Slr) sx Sr))))
    (hx : x ∉ (plug k (.node cp N p (.node cs (.node csl Sll sl Slr) sx Sr))).inorder) :
    ((erase_case1_left rot s p sx).1).mem x = s.mem x := by
  have hxm0 : x ∉ ((.node cp N p (.node cs (.node csl Sll sl Slr) sx Sr) : Tree)).inorder ++ ctxNodes k :=
    fun hm => hx ((inorder_plug_perm k _).mem_iff.2 hm)
  rw [WF_plug'] at h
  obtain ⟨hk, hT, hnd⟩ := h
  have hpar := RepCtx_ctxAddr_aligned hk
  have hnd0 := hnd
  have hpw := parent_of_word cp hpar
  have hxk : ctxAddr 0 k ≠ 0 → x ≠ ctxAddr 0 k := by
    intro h0 e
    have hk0 : k ≠ [] := fun e0 => h0 (by rw [e0]; rfl)
    exact hxm0 (List.mem_append_right _ (e ▸ ctxAddr_mem_ctxNodes k hk0))
  have hxm : x ∉ ((.node cp N p (.node cs (.node csl Sll sl Slr) sx Sr) : Tree)).inorder := fun hm => hxm0 (List.mem_append_left _ hm)
  try simp only [erase_case1_left, __chx_rb_rotate_set_parents, call_mem]
  simp only [Tree.inorder, List.nodup_append, List.nodup_cons, List.disjoint_append_left,
        List.disjoint_append_right, List.disjoint_cons_left, List.disjoint_cons_right,
        List.mem_append, List.mem_cons, not_or] at hnd
  simp only [Rep, addr_node, addr_nil, color_node, color_nil] at hT
  have h_p_sx : p ≠ sx ∧ sx ≠ p := by
    first
    | exact ne_pair (by simp only [hnd, not_false_eq_true])
    | exact (ne_pair (by simp only [hnd, not_false_eq_true])).symm
  have h_p_sl : p ≠ sl ∧ sl ≠ p := by
    first
    | exact ne_pair (by simp only [hnd, not_false_eq_true])
    | exact (ne_pair (by simp only [hnd, not_false_eq_true])).symm
  have h_sx_sl : sx ≠ sl ∧ sl ≠ sx := by
    first
    | exact ne_pair (by simp only [hnd, not_false_eq_true])
    | exact (ne_pair (by simp only [hnd, not_false_eq_true])).symm
  simp only [chx_rb_parent, chx_rb_set_parent_color, chx_rb_set_parent, chx_rb_color, chx_rb_set_black, store_pc_pc, store_left_pc, store_right_pc,
        store_pc_left, store_pc_right, store_left_left, store_left_right, store_right_left,
        store_right_right, call_mem, change_child_pc, change_child_store_pc,
        hT, h_p_sx, h_p_sl, h_sx_sl, hpw, ne_eq, not_false_eq_true, not_true_eq_false, if_true, if_false,
        ite_true, ite_false, addr_node, addr_nil, paintBlack_nil, paintBlack_node]
  simp only [Tree.inorder, List.mem_append, List.mem_cons, not_or] at hxm
  have f0 : x ≠ p := by simp only [hxm, ne_eq, not_false_eq_true]
  have f1 : x ≠ sx := by simp only [hxm, ne_eq, not_false_eq_true]
  have f2 : x ≠ sl := by simp only [hxm, ne_eq, not_false_eq_true]
  first
  | (rw [change_child_mem_frame hxk]
     simp [store_pc_mem_ne, store_left_mem_ne, store_right_mem_ne, f0, f1, f2])
  | simp [store_pc_mem_ne, store_left_mem_ne, store_right_mem_ne, f0, f1, f2]

theorem erase_case1_right_frame (rot : Callback α) {s : State α} {k : Ctx} {cp cs csr : Color}
    {N Srl Srr Sl : Tree} {p sx sr : Nat} {x : Nat}
    (h : WF s (plug k (.node cp (.node cs Sl sx (.node csr Srl sr Srr)) p N)))
    (hx : x ∉ (plug k (.node cp (.node cs Sl sx (.node csr Srl sr Srr)) p N)).inorder) :
    ((erase_case1_right rot s p sx).1).mem x = s.mem x := by
  have hxm0 : x ∉ ((.node cp (.node cs Sl sx (.node csr Srl sr Srr)) p N : Tree)).inorder ++ ctxNodes k :=
    fun hm => hx ((inorder_plug_perm k _).mem_iff.2 hm)
  rw [WF_plug'] at h
  obtain ⟨hk, hT, hnd⟩ := h
  have hpar := RepCtx_ctxAddr_aligned hk
  have hnd0 := hnd
  have hpw := parent_of_word cp hpar
  have hxk : ctxAddr 0 k ≠ 0 → x ≠ ctxAddr 0 k := by
    intro h0 e
    have hk0 : k ≠ [] := fun e0 => h0 (by rw [e0]; rfl)
    exact hxm0 (List.mem_append_right _ (e ▸ ctxAddr_mem_ctxNodes k hk0))
  have hxm : x ∉ ((.node cp (.node cs Sl sx (.node csr Srl sr Srr)) p N : Tree)).inorder := fun hm => hxm0 (List.mem_append_left _ hm)
  try simp only [erase_case1_right, __chx_rb_rotate_set_parents, call_mem]
  simp only [Tree.inorder, List.nodup_append, List.nodup_cons, List.disjoint_append_left,
        List.disjoint_append_right, List.disjoint_cons_left, List.disjoint_cons_right,
        List.mem_append, List.mem_cons, not_or] at hnd
  simp only [Rep, addr_node, addr_nil, color_node, color_nil] at hT
  have h_p_sx : p ≠ sx ∧ sx ≠ p := by
    first
    | exact ne_pair (by simp only [hnd, not_false_eq_true])
    | exact (ne_pair (by simp only [hnd, not_false_eq_true])).symm
  have h_p_sr : p ≠ sr ∧ sr ≠ p := by
    first
    | exact ne_pair (by simp only [hnd, not_false_eq_true])
    | exact (ne_pair (by simp only [hnd, not_false_eq_true])).symm
  have h_sx_sr : sx ≠ sr ∧ sr ≠ sx := by
    first
    | exact ne_pair (by simp only [hnd, not_false_eq_true])
    | exact (ne_pair (by simp only [hnd, not_false_eq_true])).symm
  simp only [chx_rb_parent, chx_rb_set_parent_color, chx_rb_set_parent, chx_rb_color, chx_rb_set_black, store_pc_pc, store_left_pc, store_right_pc,
        store_pc_left, store_pc_right, store_left_left, store_left_right, store_right_left,
        store_right_right, call_mem, change_child_pc, change_child_store_pc,
        hT, h_p_sx, h_p_sr, h_sx_sr, hpw, ne_eq, not_false_eq_true, not_true_eq_false, if_true, if_false,
        ite_true, ite_false, addr_node, addr_nil, paintBlack_nil, paintBlack_node]
  simp only [Tree.inorder, List.mem_append, List.mem_cons, not_or] at hxm
  have f0 : x ≠ p := by simp only [hxm, ne_eq, not_false_eq_true]
  have f1 : x ≠ sx := by simp only [hxm, ne_eq, not_false_eq_true]
  have f2 : x ≠ sr := by simp only [hxm, ne_eq, not_false_eq_true]
  first
  | (rw [change_child_mem_frame hxk]
     simp [store_pc_mem_ne, store_left_mem_ne, store_right_mem_ne, f0, f1, f2])
  | simp [store_pc_mem_ne, store_left_mem_ne, store_right_mem_ne, f0, f1, f2]

theorem erase_case2_left_frame {s : State α} {k : Ctx} {c cs : Color}
    {N Sl Sr : Tree} {p sx : Nat} {x : Nat}
    (h : WF s (plug k (.node c N p (.node cs Sl sx Sr))))
    (hx : x ∉ (plug k (.node c N p (.node cs Sl sx Sr))).inorder) :
    (chx_rb_set_parent_color s sx p CHX_RB_RED).mem x = s.mem x := by
  have hxm0 : x ∉ ((.node c N p (.node cs Sl sx Sr) : Tree)).inorder ++ ctxNodes k :=
    fun hm => hx ((inorder_plug_perm k _).mem_iff.2 hm)
  rw [WF_plug'] at h
  obtain ⟨hk, hT, hnd⟩ := h
  have hpar := RepCtx_ctxAddr_aligned hk
  have hnd0 := hnd
  have hpw := parent_of_word c hpar
  have hxk : ctxAddr 0 k ≠ 0 → x ≠ ctxAddr 0 k := by
    intro h0 e
    have hk0 : k ≠ [] := fun e0 => h0 (by rw [e0]; rfl)
    exact hxm0 (List.mem_append_right _ (e ▸ ctxAddr_mem_ctxNodes k hk0))
  have hxm : x ∉ ((.node c N p (.node cs Sl sx Sr) : Tree)).inorder := fun hm => hxm0 (List.mem_append_left _ hm)
  try simp only [__chx_rb_rotate_set_parents, call_mem]
  simp only [Tree.inorder, List.nodup_append, List.nodup_cons, List.disjoint_append_left,
        List.disjoint_append_right, List.disjoint_cons_left, List.disjoint_cons_right,
        List.mem_append, List.mem_cons, not_or] at hnd
  simp only [Rep, addr_node, addr_nil, color_node, color_nil] at hT
  have h_p_sx : p ≠ sx ∧ sx ≠ p := by
    first
    | exact ne_pair (by simp only [hnd, not_false_eq_true])
    | exact (ne_pair (by simp only [hnd, not_false_eq_true])).symm
  simp only [chx_rb_parent, chx_rb_set_parent_color, chx_rb_set_parent, chx_rb_color, chx_rb_set_black, store_pc_pc, store_left_pc, store_right_pc,
        store_pc_left, store_pc_right, store_left_left, store_left_right, store_right_left,
        store_right_right, call_mem, change_child_pc, change_child_store_pc,
        hT, h_p_sx, hpw, ne_eq, not_false_eq_true, not_true_eq_false, if_true, if_false,
        ite_true, ite_false, addr_node, addr_nil, paintBlack_nil, paintBlack_node]
  simp only [Tree.inorder, List.mem_append, List.mem_cons, not_or] at hxm
  have f0 : x ≠ p := by simp only [hxm, ne_eq, not_false_eq_true]
  have f1 : x ≠ sx := by simp only [hxm, ne_eq, not_false_eq_true]
  first
  | (rw [change_child_mem_frame hxk]
     simp [store_pc_mem_ne, store_left_mem_ne, store_right_mem_ne, f0, f1])
  | simp [store_pc_mem_ne, store_left_mem_ne, store_right_mem_ne, f0, f1]

theorem erase_case2_left_red_frame {s : State α} {k : Ctx} {cs : Color}
    {N Sl Sr : Tree} {p sx : Nat} {x : Nat}
    (h : WF s (plug k (.node .red N p (.node cs Sl sx Sr))))
    (hx : x ∉ (plug k (.node .red N p (.node cs Sl sx Sr))).inorder) :
    (chx_rb_set_black (chx_rb_set_parent_color s sx p CHX_RB_RED) p).mem x = s.mem x := by
  have hxm0 : x ∉ ((.node .red N p (.node cs Sl sx Sr) : Tree)).inorder ++ ctxNodes k :=
    fun hm => hx ((inorder_plug_perm k _).mem_iff.2 hm)
  rw [WF_plug'] at h
  obtain ⟨hk, hT, hnd⟩ := h
  have hpar := RepCtx_ctxAddr_aligned hk
  have hnd0 := hnd
  have hpw := parent_of_word .red hpar
  have hxk : ctxAddr 0 k ≠ 0 → x ≠ ctxAddr 0 k := by
    intro h0 e
    have hk0 : k ≠ [] := fun e0 => h0 (by rw [e0]; rfl)
    exact hxm0 (List.mem_append_right _ (e ▸ ctxAddr_mem_ctxNodes k hk0))
  have hxm : x ∉ ((.node .red N p (.node cs Sl sx Sr) : Tree)).inorder := fun hm => hxm0 (List.mem_append_left _ hm)
  try simp only [__chx_rb_rotate_set_parents, call_mem]
  simp only [Tree.inorder, List.nodup_append, List.nodup_cons, List.disjoint_append_left,
        List.disjoint_append_right, List.disjoint_cons_left, List.disjoint_cons_right,
        List.mem_append, List.mem_cons, not_or] at hnd
  simp only [Rep, addr_node, addr_nil, color_node, color_nil] at hT
  have h_p_sx : p ≠ sx ∧ sx ≠ p := by
    first
    | exact ne_pair (by simp only [hnd, not_false_eq_true])
    | exact (ne_pair (by simp only [hnd, not_false_eq_true])).symm
  simp only [chx_rb_parent, chx_rb_set_parent_color, chx_rb_set_parent, chx_rb_color, chx_rb_set_black, store_pc_pc, store_left_pc, store_right_pc,
        store_pc_left, store_pc_right, store_left_left, store_left_right, store_right_left,
        store_right_right, call_mem, change_child_pc, change_child_store_pc,
        hT, h_p_sx, hpw, ne_eq, not_false_eq_true, not_true_eq_false, if_true, if_false,
        ite_true, ite_false, addr_node, addr_nil, paintBlack_nil, paintBlack_node]
  simp only [Tree.inorder, List.mem_append, List.mem_cons, not_or] at hxm
  have f0 : x ≠ p := by simp only [hxm, ne_eq, not_false_eq_true]
  have f1 : x ≠ sx := by simp only [hxm, ne_eq, not_false_eq_true]
  first
  | (rw [change_child_mem_frame hxk]
     simp [store_pc_mem_ne, store_left_mem_ne, store_right_mem_ne, f0, f1])
  | simp [store_pc_mem_ne, store_left_mem_ne, store_right_mem_ne, f0, f1]

theorem erase_case2_right_frame {s : State α} {k : Ctx} {c cs : Color}
    {N Sl Sr : Tree} {p sx : Nat} {x : Nat}
    (h : WF s (plug k (.node c (.node cs Sl sx Sr) p N)))
    (hx : x ∉ (plug k (.node c (.node cs Sl sx Sr) p N)).inorder) :
    (chx_rb_set_parent_color s sx p CHX_RB_RED).mem x = s.mem x := by
  have hxm0 : x ∉ ((.node c (.node cs Sl sx Sr) p N : Tree)).inorder ++ ctxNodes k :=
    fun hm => hx ((inorder_plug_perm k _).mem_iff.2 hm)
  rw [WF_plug'] at h
  obtain ⟨hk, hT, hnd⟩ := h
  have hpar := RepCtx_ctxAddr_aligned hk
  have hnd0 := hnd
  have hpw := parent_of_word c hpar
  have hxk : ctxAddr 0 k ≠ 0 → x ≠ ctxAddr 0 k := by
    intro h0 e
    have hk0 : k ≠ [] := fun e0 => h0 (by rw [e0]; rfl)
    exact hxm0 (List.mem_append_right _ (e ▸ ctxAddr_mem_ctxNodes k hk0))
  have hxm : x ∉ ((.node c (.node cs Sl sx Sr) p N : Tree)).inorder := fun hm => hxm0 (List.mem_append_left _ hm)
  try simp only [__chx_rb_rotate_set_parents, call_mem]
  simp only [Tree.inorder, List.nodup_append, List.nodup_cons, List.disjoint_append_left,
        List.disjoint_append_right, List.disjoint_cons_left, List.disjoint_cons_right,
        List.mem_append, List.mem_cons, not_or] at hnd
  simp only [Rep, addr_node, addr_nil, color_node, color_nil] at hT
  have h_p_sx : p ≠ sx ∧ sx ≠ p := by
    first
    | exact ne_pair (by simp only [hnd, not_false_eq_true])
    | exact (ne_pair (by simp only [hnd, not_false_eq_true])).symm
  simp only [chx_rb_parent, chx_rb_set_parent_color, chx_rb_set_parent, chx_rb_color, chx_rb_set_black, store_pc_pc, store_left_pc, store_right_pc,
        store_pc_left, store_pc_right, store_left_left, store_left_right, store_right_left,
        store_right_right, call_mem, change_child_pc, change_child_store_pc,
        hT, h_p_sx, hpw, ne_eq, not_false_eq_true, not_true_eq_false, if_true, if_false,
        ite_true, ite_false, addr_node, addr_nil, paintBlack_nil, paintBlack_node]
  simp only [Tree.inorder, List.mem_append, List.mem_cons, not_or] at hxm
  have f0 : x ≠ p := by simp only [hxm, ne_eq, not_false_eq_true]
  have f1 : x ≠ sx := by simp only [hxm, ne_eq, not_false_eq_true]
  first
  | (rw [change_child_mem_frame hxk]
     simp [store_pc_mem_ne, store_left_mem_ne, store_right_mem_ne, f0, f1])
  | simp [store_pc_mem_ne, store_left_mem_ne, store_right_mem_ne, f0, f1]

theorem erase_case2_right_red_frame {s : State α} {k : Ctx} {cs : Color}
    {N Sl Sr : Tree} {p sx : Nat} {x : Nat}
    (h : WF s (plug k (.node .red (.node cs Sl sx Sr) p N)))
    (hx : x ∉ (plug k (.node .red (.node cs Sl sx Sr) p N)).inorder) :
    (chx_rb_set_black (chx_rb_set_parent_color s sx p CHX_RB_RED) p).mem x = s.mem x := by
  have hxm0 : x ∉ ((.node .red (.node cs Sl sx Sr) p N : Tree)).inorder ++ ctxNodes k :=
    fun hm => hx ((inorder_plug_perm k _).mem_iff.2 hm)
  rw [WF_plug'] at h
  obtain ⟨hk, hT, hnd⟩ := h
  have hpar := RepCtx_ctxAddr_aligned hk
  have hnd0 := hnd
  have hpw := parent_of_word .red hpar
  have hxk : ctxAddr 0 k ≠ 0 → x ≠ ctxAddr 0 k := by
    intro h0 e
    have hk0 : k ≠ [] := fun e0 => h0 (by rw [e0]; rfl)
    exact hxm0 (List.mem_append_right _ (e ▸ ctxAddr_mem_ctxNodes k hk0))
  have hxm : x ∉ ((.node .red (.node cs Sl sx Sr) p N : Tree)).inorder := fun hm => hxm0 (List.mem_append_left _ hm)
  try simp only [__chx_rb_rotate_set_parents, call_mem]
  simp only [Tree.inorder, List.nodup_append, List.nodup_cons, List.disjoint_append_left,
        List.disjoint_append_right, List.disjoint_cons_left, List.disjoint_cons_right,
        List.mem_append, List.mem_cons, not_or] at hnd
  simp only [Rep, addr_node, addr_nil, color_node, color_nil] at hT
  have h_p_sx : p ≠ sx ∧ sx ≠ p := by
    first
    | exact ne_pair (by simp only [hnd, not_false_eq_true])
    | exact (ne_pair (by simp only [hnd, not_false_eq_true])).symm
  simp only [chx_rb_parent, chx_rb_set_parent_color, chx_rb_set_parent, chx_rb_color, chx_rb_set_black, store_pc_pc, store_left_pc, store_right_pc,
        store_pc_left, store_pc_right, store_left_left, store_left_right, store_right_left,
        store_right_right, call_mem, change_child_pc, change_child_store_pc,
        hT, h_p_sx, hpw, ne_eq, not_false_eq_true, not_true_eq_false, if_true, if_false,
        ite_true, ite_false, addr_node, addr_nil, paintBlack_nil, paintBlack_node]
  simp only [Tree.inorder, List.mem_append, List.mem_cons, not_or] at hxm
  have f0 : x ≠ p := by simp only [hxm, ne_eq, not_false_eq_true]
  have f1 : x ≠ sx := by simp only [hxm, ne_eq, not_false_eq_true]
  first
  | (rw [change_child_mem_frame hxk]
     simp [store_pc_mem_ne, store_left_mem_ne, store_right_mem_ne, f0, f1])
  | simp [store_pc_mem_ne, store_left_mem_ne, store_right_mem_ne, f0, f1]

theorem erase_case4_left_frame (rot : Callback α) {s : State α} {k : Ctx} {c cs csr : Color}
    {N Sl Srl Srr : Tree} {p sx sr : Nat} {x : Nat}
    (h : WF s (plug k (.node c N p (.node cs Sl sx (.node csr Srl sr Srr)))))
    (hx : x ∉ (plug k (.node c N p (.node cs Sl sx (.node csr Srl sr Srr)))).inorder) :
    (erase_case4_left rot s p sx sr).mem x = s.mem x := by
  have hxm0 : x ∉ ((.node c N p (.node cs Sl sx (.node csr Srl sr Srr)) : Tree)).inorder ++ ctxNodes k :=
    fun hm => hx ((inorder_plug_perm k _).mem_iff.2 hm)
  rw [WF_plug'] at h
  obtain ⟨hk, hT, hnd⟩ := h
  have hpar := RepCtx_ctxAddr_aligned hk
  have hnd0 := hnd
  have hpw := parent_of_word c hpar
  have hxk : ctxAddr 0 k ≠ 0 → x ≠ ctxAddr 0 k := by
    intro h0 e
    have hk0 : k ≠ [] := fun e0 => h0 (by rw [e0]; rfl)
    exact hxm0 (List.mem_append_right _ (e ▸ ctxAddr_mem_ctxNodes k hk0))
  have hxm : x ∉ ((.node c N p (.node cs Sl sx (.node csr Srl sr Srr)) : Tree)).inorder := fun hm => hxm0 (List.mem_append_left _ hm)
  try simp only [erase_case4_left, __chx_rb_rotate_set_parents, call_mem]
  cases Sl with
  | nil =>
    simp only [Tree.inorder, List.nodup_append, List.nodup_cons, List.disjoint_append_left,
          List.disjoint_append_right, List.disjoint_cons_left, List.disjoint_cons_right,
          List.mem_append, List.mem_cons, not_or] at hnd
    simp only [Rep, addr_node, addr_nil, color_node, color_nil] at hT
    have h_p_sx : p ≠ sx ∧ sx ≠ p := by
      first
      | exact ne_pair (by simp only [hnd, not_false_eq_true])
      | exact (ne_pair (by simp only [hnd, not_false_eq_true])).symm
    have h_p_sr : p ≠ sr ∧ sr ≠ p := by
      first
      | exact ne_pair (by simp only [hnd, not_false_eq_true])
      | exact (ne_pair (by simp only [hnd, not_false_eq_true])).symm
    have h_sx_sr : sx ≠ sr ∧ sr ≠ sx := by
      first
      | exact ne_pair (by simp only [hnd, not_false_eq_true])
      | exact (ne_pair (by simp only [hnd, not_false_eq_true])).symm
    simp only [chx_rb_parent, chx_rb_set_parent_color, chx_rb_set_parent, chx_rb_color, chx_rb_set_black, store_pc_pc, store_left_pc, store_right_pc,
          store_pc_left, store_pc_right, store_left_left, store_left_right, store_right_left,
          store_right_right, call_mem, change_child_pc, change_child_store_pc,
          hT, h_p_sx, h_p_sr, h_sx_sr, hpw, ne_eq, not_false_eq_true, not_true_eq_false, if_true, if_false,
          ite_true, ite_false, addr_node, addr_nil, paintBlack_nil, paintBlack_node, color_of_word]
    simp only [Tree.inorder, List.mem_append, List.mem_cons, not_or] at hxm
    have f0 : x ≠ p := by simp only [hxm, ne_eq, not_false_eq_true]
    have f1 : x ≠ sx := by simp only [hxm, ne_eq, not_false_eq_true]
    have f2 : x ≠ sr := by simp only [hxm, ne_eq, not_false_eq_true]
    first
    | (rw [change_child_mem_frame hxk]
       simp [store_pc_mem_ne, store_left_mem_ne, store_right_mem_ne, f0, f1, f2])
    | simp [store_pc_mem_ne, store_left_mem_ne, store_right_mem_ne, f0, f1, f2]
  | node cSl Sll sl Slr =>
    simp only [Tree.inorder, List.nodup_append, List.nodup_cons, List.disjoint_append_left,
          List.disjoint_append_right, List.disjoint_cons_left, List.disjoint_cons_right,
          List.mem_append, List.mem_cons, not_or] at hnd
    simp only [Rep, addr_node, addr_nil, color_node, color_nil] at hT
    have h_p_sx : p ≠ sx ∧ sx ≠ p := by
      first
      | exact ne_pair (by simp only [hnd, not_false_eq_true])
      | exact (ne_pair (by simp only [hnd, not_false_eq_true])).symm
    have h_p_sr : p ≠ sr ∧ sr ≠ p := by
      first
      | exact ne_pair (by simp only [hnd, not_false_eq_true])
      | exact (ne_pair (by simp only [hnd, not_false_eq_true])).symm
    have h_p_sl : p ≠ sl ∧ sl ≠ p := by
      first
      | exact ne_pair (by simp only [hnd, not_false_eq_true])
      | exact (ne_pair (by simp only [hnd, not_false_eq_true])).symm
    have h_sx_sr : sx ≠ sr ∧ sr ≠ sx := by
      first
      | exact ne_pair (by simp only [hnd, not_false_eq_true])
      | exact (ne_pair (by simp only [hnd, not_false_eq_true])).symm
    have h_sx_sl : sx ≠ sl ∧ sl ≠ sx := by
      first
      | exact ne_pair (by simp only [hnd, not_false_eq_true])
      | exact (ne_pair (by simp only [hnd, not_false_eq_true])).symm
    have h_sr_sl : sr ≠ sl ∧ sl ≠ sr := by
      first
      | exact ne_pair (by simp only [hnd, not_false_eq_true])
      | exact (ne_pair (by simp only [hnd, not_false_eq_true])).symm
    have h0_sl : sl ≠ 0 := by simp only [hT, ne_eq, not_false_eq_true]
    simp only [chx_rb_parent, chx_rb_set_parent_color, chx_rb_set_parent, chx_rb_color, chx_rb_set_black, store_pc_pc, store_left_pc, store_right_pc,
          store_pc_left, store_pc_right, store_left_left, store_left_right, store_right_left,
          store_right_right, call_mem, change_child_pc, change_child_store_pc,
          hT, h_p_sx, h_p_sr, h_p_sl, h_sx_sr, h_sx_sl, h_sr_sl, h0_sl, hpw, ne_eq, not_false_eq_true, not_true_eq_false, if_true, if_false,
          ite_true, ite_false, addr_node, addr_nil, paintBlack_nil, paintBlack_node, color_of_word]
    simp only [Tree.inorder, List.mem_append, List.mem_cons, not_or] at hxm
    have f0 : x ≠ p := by simp only [hxm, ne_eq, not_false_eq_true]
    have f1 : x ≠ sx := by simp only [hxm, ne_eq, not_false_eq_true]
    have f2 : x ≠ sr := by simp only [hxm, ne_eq, not_false_eq_true]
    have f3 : x ≠ sl := by simp only [hxm, ne_eq, not_false_eq_true]
    first
    | (rw [change_child_mem_frame hxk]
       simp [store_pc_mem_ne, store_left_mem_ne, store_right_mem_ne, f0, f1, f2, f3])
    | simp [store_pc_mem_ne, store_left_mem_ne, store_right_mem_ne, f0, f1, f2, f3]

theorem erase_case4_right_frame (rot : Callback α) {s : State α} {k : Ctx} {c cs csl : Color}
    {N Sr Sll Slr : Tree} {p sx sl : Nat} {x : Nat}
    (h : WF s (plug k (.node c (.node cs (.node csl Sll sl Slr) sx Sr) p N)))
    (hx : x ∉ (plug k (.node c (.node cs (.node csl Sll sl Slr) sx Sr) p N)).inorder) :
    (erase_case4_right rot s p sx sl).mem x = s.mem x := by
  have hxm0 : x ∉ ((.node c (.node cs (.node csl Sll sl Slr) sx Sr) p N : Tree)).inorder ++ ctxNodes k :=
    fun hm => hx ((inorder_plug_perm k _).mem_iff.2 hm)
  rw [WF_plug'] at h
  obtain ⟨hk, hT, hnd⟩ := h
  have hpar := RepCtx_ctxAddr_aligned hk
  have hnd0 := hnd
  have hpw := parent_of_word c hpar
  have hxk : ctxAddr 0 k ≠ 0 → x ≠ ctxAddr 0 k := by
    intro h0 e
    have hk0 : k ≠ [] := fun e0 => h0 (by rw [e0]; rfl)
    exact hxm0 (List.mem_append_right _ (e ▸ ctxAddr_mem_ctxNodes k hk0))
  have hxm : x ∉ ((.node c (.node cs (.node csl Sll sl Slr) sx Sr) p N : Tree)).inorder := fun hm => hxm0 (List.mem_append_left _ hm)
  try simp only [erase_case4_right, __chx_rb_rotate_set_parents, call_mem]
  cases Sr with
  | nil =>
    simp only [Tree.inorder, List.nodup_append, List.nodup_cons, List.disjoint_append_left,
          List.disjoint_append_right, List.disjoint_cons_left, List.disjoint_cons_right,
          List.mem_append, List.mem_cons, not_or] at hnd
    simp only [Rep, addr_node, addr_nil, color_node, color_nil] at hT
    have h_p_sx : p ≠ sx ∧ sx ≠ p := by
      first
      | exact ne_pair (by simp only [hnd, not_false_eq_true])
      | exact (ne_pair (by simp only [hnd, not_false_eq_true])).symm
    have h_p_sl : p ≠ sl ∧ sl ≠ p := by
      first
      | exact ne_pair (by simp only [hnd, not_false_eq_true])
      | exact (ne_pair (by simp only [hnd, not_false_eq_true])).symm
    have h_sx_sl : sx ≠ sl ∧ sl ≠ sx := by
      first
      | exact ne_pair (by simp only [hnd, not_false_eq_true])
      | exact (ne_pair (by simp only [hnd, not_false_eq_true])).symm
    simp only [chx_rb_parent, chx_rb_set_parent_color, chx_rb_set_parent, chx_rb_color, chx_rb_set_black, store_pc_pc, store_left_pc, store_right_pc,
          store_pc_left, store_pc_right, store_left_left, store_left_right, store_right_left,
          store_right_right, call_mem, change_child_pc, change_child_store_pc,
          hT, h_p_sx, h_p_sl, h_sx_sl, hpw, ne_eq, not_false_eq_true, not_true_eq_false, if_true, if_false,
          ite_true, ite_false, addr_node, addr_nil, paintBlack_nil, paintBlack_node, color_of_word]
    simp only [Tree.inorder, List.mem_append, List.mem_cons, not_or] at hxm
    have f0 : x ≠ p := by simp only [hxm, ne_eq, not_false_eq_true]
    have f1 : x ≠ sx := by simp only [hxm, ne_eq, not_false_eq_true]
    have f2 : x ≠ sl := by simp only [hxm, ne_eq, not_false_eq_true]
    first
    | (rw [change_child_mem_frame hxk]
       simp [store_pc_mem_ne, store_left_mem_ne, store_right_mem_ne, f0, f1, f2])
    | simp [store_pc_mem_ne, store_left_mem_ne, store_right_mem_ne, f0, f1, f2]
  | node cSr Srl sr Srr =>
    simp only [Tree.inorder, List.nodup_append, List.nodup_cons, List.disjoint_append_left,
          List.disjoint_append_right, List.disjoint_cons_left, List.disjoint_cons_right,
          List.mem_append, List.mem_cons, not_or] at hnd
    simp only [Rep, addr_node, addr_nil, color_node, color_nil] at hT
    have h_p_sx : p ≠ sx ∧ sx ≠ p := by
      first
      | exact ne_pair (by simp only [hnd, not_false_eq_true])
      | exact (ne_pair (by simp only [hnd, not_false_eq_true])).symm
    have h_p_sl : p ≠ sl ∧ sl ≠ p := by
      first
      | exact ne_pair (by simp only [hnd, not_false_eq_true])
      | exact (ne_pair (by simp only [hnd, not_false_eq_true])).symm
    have h_p_sr : p ≠ sr ∧ sr ≠ p := by
      first
      | exact ne_pair (by simp only [hnd, not_false_eq_true])
      | exact (ne_pair (by simp only [hnd, not_false_eq_true])).symm
    have h_sx_sl : sx ≠ sl ∧ sl ≠ sx := by
      first
      | exact ne_pair (by simp only [hnd, not_false_eq_true])
      | exact (ne_pair (by simp only [hnd, not_false_eq_true])).symm
    have h_sx_sr : sx ≠ sr ∧ sr ≠ sx := by
      first
      | exact ne_pair (by simp only [hnd, not_false_eq_true])
      | exact (ne_pair (by simp only [hnd, not_false_eq_true])).symm
    have h_sl_sr : sl ≠ sr ∧ sr ≠ sl := by
      first
      | exact ne_pair (by simp only [hnd, not_false_eq_true])
      | exact (ne_pair (by simp only [hnd, not_false_eq_true])).symm
    have h0_sr : sr ≠ 0 := by simp only [hT, ne_eq, not_false_eq_true]
    simp only [chx_rb_parent, chx_rb_set_parent_color, chx_rb_set_parent, chx_rb_color, chx_rb_set_black, store_pc_pc, store_left_pc, store_right_pc,
          store_pc_left, store_pc_right, store_left_left, store_left_right, store_right_left,
          store_right_right, call_mem, change_child_pc, change_child_store_pc,
          hT, h_p_sx, h_p_sl, h_p_sr, h_sx_sl, h_sx_sr, h_sl_sr, h0_sr, hpw, ne_eq, not_false_eq_true, not_true_eq_false, if_true, if_false,
          ite_true, ite_false, addr_node, addr_nil, paintBlack_nil, paintBlack_node, color_of_word]
    simp only [Tree.inorder, List.mem_append, List.mem_cons, not_or] at hxm
    have f0 : x ≠ p := by simp only [hxm, ne_eq, not_false_eq_true]
    have f1 : x ≠ sx := by simp only [hxm, ne_eq, not_false_eq_true]
    have f2 : x ≠ sl := by simp only [hxm, ne_eq, not_false_eq_true]
    have f3 : x ≠ sr := by simp only [hxm, ne_eq, not_false_eq_true]
    first
    | (rw [change_child_mem_frame hxk]
       simp [store_pc_mem_ne, store_left_mem_ne, store_right_mem_ne, f0, f1, f2, f3])
    | simp [store_pc_mem_ne, store_left_mem_ne, store_right_mem_ne, f0, f1, f2, f3]

theorem erase_case34_left_frame (rot : Callback α) {s : State α} {k : Ctx} {c cs csl : Color}
    {N Sll Slr Sr : Tree} {p sx sl : Nat} {x : Nat}
    (h : WF s (plug k (.node c N p (.node cs (.node csl Sll sl Slr) sx Sr))))
    (hSlr : Slr.color = .black)
    (hx : x ∉ (plug k (.node c N p (.node cs (.node csl Sll sl Slr) sx Sr))).inorder) :
    (erase_case4_left rot (erase_case3_left rot s p sx sl) p sl sx).mem x = s.mem x := by
  have hxm0 : x ∉ ((.node c N p (.node cs (.node csl Sll sl Slr) sx Sr) : Tree)).inorder ++ ctxNodes k :=
    fun hm => hx ((inorder_plug_perm k _).mem_iff.2 hm)
  rw [WF_plug'] at h
  obtain ⟨hk, hT, hnd⟩ := h
  have hpar := RepCtx_ctxAddr_aligned hk
  have hnd0 := hnd
  have hpw := parent_of_word c hpar
  have hxk : ctxAddr 0 k ≠ 0 → x ≠ ctxAddr 0 k := by
    intro h0 e
    have hk0 : k ≠ [] := fun e0 => h0 (by rw [e0]; rfl)
    exact hxm0 (List.mem_append_right _ (e ▸ ctxAddr_mem_ctxNodes k hk0))
  have hxm : x ∉ ((.node c N p (.node cs (.node csl Sll sl Slr) sx Sr) : Tree)).inorder := fun hm => hxm0 (List.mem_append_left _ hm)
  try simp only [erase_case4_left, erase_case3_left, __chx_rb_rotate_set_parents, call_mem]
  cases Sll with
  | nil =>
    cases Slr with
    | nil =>
      simp only [Tree.inorder, List.nodup_append, List.nodup_cons, List.disjoint_append_left,
            List.disjoint_append_right, List.disjoint_cons_left, List.disjoint_cons_right,
            List.mem_append, List.mem_cons, not_or] at hnd
      simp only [Rep, addr_node, addr_nil, color_node, color_nil] at hT hSlr
      have h_p_sx : p ≠ sx ∧ sx ≠ p := by
        first
        | exact ne_pair (by simp only [hnd, not_false_eq_true])
        | exact (ne_pair (by simp only [hnd, not_false_eq_true])).symm
      have h_p_sl : p ≠ sl ∧ sl ≠ p := by
        first
        | exact ne_pair (by simp only [hnd, not_false_eq_true])
        | exact (ne_pair (by simp only [hnd, not_false_eq_true])).symm
      have h_sx_sl : sx ≠ sl ∧ sl ≠ sx := by
        first
        | exact ne_pair (by simp only [hnd, not_false_eq_true])
        | exact (ne_pair (by simp only [hnd, not_false_eq_true])).symm
      simp only [chx_rb_parent, chx_rb_set_parent_color, chx_rb_set_parent, chx_rb_color, chx_rb_set_black, store_pc_pc, store_left_pc, store_right_pc,
            store_pc_left, store_pc_right, store_left_left, store_left_right, store_right_left,
            store_right_right, call_mem, change_child_pc, change_child_store_pc,
            hT, h_p_sx, h_p_sl, h_sx_sl, hpw, ne_eq, not_false_eq_true, not_true_eq_false, if_true, if_false,
            ite_true, ite_false, addr_node, addr_nil, paintBlack_nil, paintBlack_node, color_of_word]
      simp only [Tree.inorder, List.mem_append, List.mem_cons, not_or] at hxm
      have f0 : x ≠ p := by simp only [hxm, ne_eq, not_false_eq_true]
      have f1 : x ≠ sx := by simp only [hxm, ne_eq, not_false_eq_true]
      have f2 : x ≠ sl := by simp only [hxm, ne_eq, not_false_eq_true]
      first
      | (rw [change_child_mem_frame hxk]
         simp [store_pc_mem_ne, store_left_mem_ne, store_right_mem_ne, f0, f1, f2])
      | simp [store_pc_mem_ne, store_left_mem_ne, store_right_mem_ne, f0, f1, f2]
    | node cSlr Slrl slr Slrr =>
      simp only [Tree.inorder, List.nodup_append, List.nodup_cons, List.disjoint_append_left,
            List.disjoint_append_right, List.disjoint_cons_left, List.disjoint_cons_right,
            List.mem_append, List.mem_cons, not_or] at hnd
      simp only [Rep, addr_node, addr_nil, color_node, color_nil] at hT hSlr
      have h_p_sx : p ≠ sx ∧ sx ≠ p := by
        first
        | exact ne_pair (by simp only [hnd, not_false_eq_true])
        | exact (ne_pair (by simp only [hnd, not_false_eq_true])).symm
      have h_p_sl : p ≠ sl ∧ sl ≠ p := by
        first
        | exact ne_pair (by simp only [hnd, not_false_eq_true])
        | exact (ne_pair (by simp only [hnd, not_false_eq_true])).symm
      have h_p_slr : p ≠ slr ∧ slr ≠ p := by
        first
        | exact ne_pair (by simp only [hnd, not_false_eq_true])
        | exact (ne_pair (by simp only [hnd, not_false_eq_true])).symm
      have h_sx_sl : sx ≠ sl ∧ sl ≠ sx := by
        first
        | exact ne_pair (by simp only [hnd, not_false_eq_true])
        | exact (ne_pair (by simp only [hnd, not_false_eq_true])).symm
      have h_sx_slr : sx ≠ slr ∧ slr ≠ sx := by
        first
        | exact ne_pair (by simp only [hnd, not_false_eq_true])
        | exact (ne_pair (by simp only [hnd, not_false_eq_true])).symm
      have h_sl_slr : sl ≠ slr ∧ slr ≠ sl := by
        first
        | exact ne_pair (by simp only [hnd, not_false_eq_true])
        | exact (ne_pair (by simp only [hnd, not_false_eq_true])).symm
      have h0_slr : slr ≠ 0 := by simp only [hT, ne_eq, not_false_eq_true]
      simp only [chx_rb_parent, chx_rb_set_parent_color, chx_rb_set_parent, chx_rb_color, chx_rb_set_black, store_pc_pc, store_left_pc, store_right_pc,
            store_pc_left, store_pc_right, store_left_left, store_left_right, store_right_left,
            store_right_right, call_mem, change_child_pc, change_child_store_pc,
            hT, h_p_sx, h_p_sl, h_p_slr, h_sx_sl, h_sx_slr, h_sl_slr, h0_slr, hpw, ne_eq, not_false_eq_true, not_true_eq_false, if_true, if_false,
            ite_true, ite_false, addr_node, addr_nil, paintBlack_nil, paintBlack_node, color_of_word]
      simp only [Tree.inorder, List.mem_append, List.mem_cons, not_or] at hxm
      have f0 : x ≠ p := by simp only [hxm, ne_eq, not_false_eq_true]
      have f1 : x ≠ sx := by simp only [hxm, ne_eq, not_false_eq_true]
      have f2 : x ≠ sl := by simp only [hxm, ne_eq, not_false_eq_true]
      have f3 : x ≠ slr := by simp only [hxm, ne_eq, not_false_eq_true]
      first
      | (rw [change_child_mem_frame hxk]
         simp [store_pc_mem_ne, store_left_mem_ne, store_right_mem_ne, f0, f1, f2, f3])
      | simp [store_pc_mem_ne, store_left_mem_ne, store_right_mem_ne, f0, f1, f2, f3]
  | node cSll Slll sll Sllr =>
    cases Slr with
    | nil =>
      simp only [Tree.inorder, List.nodup_append, List.nodup_cons, List.disjoint_append_left,
            List.disjoint_append_right, List.disjoint_cons_left, List.disjoint_cons_right,
            List.mem_append, List.mem_cons, not_or] at hnd
      simp only [Rep, addr_node, addr_nil, color_node, color_nil] at hT hSlr
      have h_p_sx : p ≠ sx ∧ sx ≠ p := by
        first
        | exact ne_pair (by simp only [hnd, not_false_eq_true])
        | exact (ne_pair (by simp only [hnd, not_false_eq_true])).symm
      have h_p_sl : p ≠ sl ∧ sl ≠ p := by
        first
        | exact ne_pair (by simp only [hnd, not_false_eq_true])
        | exact (ne_pair (by simp only [hnd, not_false_eq_true])).symm
      have h_p_sll : p ≠ sll ∧ sll ≠ p := by
        first
        | exact ne_pair (by simp only [hnd, not_false_eq_true])
        | exact (ne_pair (by simp only [hnd, not_false_eq_true])).symm
      have h_sx_sl : sx ≠ sl ∧ sl ≠ sx := by
        first
        | exact ne_pair (by simp only [hnd, not_false_eq_true])
        | exact (ne_pair (by simp only [hnd, not_false_eq_true])).symm
      have h_sx_sll : sx ≠ sll ∧ sll ≠ sx := by
        first
        | exact ne_pair (by simp only [hnd, not_false_eq_true])
        | exact (ne_pair (by simp only [hnd, not_false_eq_true])).symm
      have h_sl_sll : sl ≠ sll ∧ sll ≠ sl := by
        first
        | exact ne_pair (by simp only [hnd, not_false_eq_true])
        | exact (ne_pair (by simp only [hnd, not_false_eq_true])).symm
      have h0_sll : sll ≠ 0 := by simp only [hT, ne_eq, not_false_eq_true]
      simp only [chx_rb_parent, chx_rb_set_parent_color, chx_rb_set_parent, chx_rb_color, chx_rb_set_black, store_pc_pc, store_left_pc, store_right_pc,
            store_pc_left, store_pc_right, store_left_left, store_left_right, store_right_left,
            store_right_right, call_mem, change_child_pc, change_child_store_pc,
            hT, h_p_sx, h_p_sl, h_p_sll, h_sx_sl, h_sx_sll, h_sl_sll, h0_sll, hpw, ne_eq, not_false_eq_true, not_true_eq_false, if_true, if_false,
            ite_true, ite_false, addr_node, addr_nil, paintBlack_nil, paintBlack_node, color_of_word]
      simp only [Tree.inorder, List.mem_append, List.mem_cons, not_or] at hxm
      have f0 : x ≠ p := by simp only [hxm, ne_eq, not_false_eq_true]
      have f1 : x ≠ sx := by simp only [hxm, ne_eq, not_false_eq_true]
      have f2 : x ≠ sl := by simp only [hxm, ne_eq, not_false_eq_true]
      have f3 : x ≠ sll := by simp only [hxm, ne_eq, not_false_eq_true]
      first
      | (rw [change_child_mem_frame hxk]
         simp [store_pc_mem_ne, store_left_mem_ne, store_right_mem_ne, f0, f1, f2, f3])
      | simp [store_pc_mem_ne, store_left_mem_ne, store_right_mem_ne, f0, f1, f2, f3]
    | node cSlr Slrl slr Slrr =>
      simp only [Tree.inorder, List.nodup_append, List.nodup_cons, List.disjoint_append_left,
            List.disjoint_append_right, List.disjoint_cons_left, List.disjoint_cons_right,
            List.mem_append, List.mem_cons, not_or] at hnd
      simp only [Rep, addr_node, addr_nil, color_node, color_nil] at hT hSlr
      have h_p_sx : p ≠ sx ∧ sx ≠ p := by
        first
        | exact ne_pair (by simp only [hnd, not_false_eq_true])
        | exact (ne_pair (by simp only [hnd, not_false_eq_true])).symm
      have h_p_sl : p ≠ sl ∧ sl ≠ p := by
        first
        | exact ne_pair (by simp only [hnd, not_false_eq_true])
        | exact (ne_pair (by simp only [hnd, not_false_eq_true])).symm
      have h_p_sll : p ≠ sll ∧ sll ≠ p := by
        first
        | exact ne_pair (by simp only [hnd, not_false_eq_true])
        | exact (ne_pair (by simp only [hnd, not_false_eq_true])).symm
      have h_p_slr : p ≠ slr ∧ slr ≠ p := by
        first
        | exact ne_pair (by simp only [hnd, not_false_eq_true])
        | exact (ne_pair (by simp only [hnd, not_false_eq_true])).symm
      have h_sx_sl : sx ≠ sl ∧ sl ≠ sx := by
        first
        | exact ne_pair (by simp only [hnd, not_false_eq_true])
        | exact (ne_pair (by simp only [hnd, not_false_eq_true])).symm
      have h_sx_sll : sx ≠ sll ∧ sll ≠ sx := by
        first
        | exact ne_pair (by simp only [hnd, not_false_eq_true])
        | exact (ne_pair (by simp only [hnd, not_false_eq_true])).symm
      have h_sx_slr : sx ≠ slr ∧ slr ≠ sx := by
        first
        | exact ne_pair (by simp only [hnd, not_false_eq_true])
        | exact (ne_pair (by simp only [hnd, not_false_eq_true])).symm
      have h_sl_sll : sl ≠ sll ∧ sll ≠ sl := by
        first
        | exact ne_pair (by simp only [hnd, not_false_eq_true])
        | exact (ne_pair (by simp only [hnd, not_false_eq_true])).symm
      have h_sl_slr : sl ≠ slr ∧ slr ≠ sl := by
        first
        | exact ne_pair (by simp only [hnd, not_false_eq_true])
        | exact (ne_pair (by simp only [hnd, not_false_eq_true])).symm
      have h_sll_slr : sll ≠ slr ∧ slr ≠ sll := by
        first
        | exact ne_pair (by simp only [hnd, not_false_eq_true])
        | exact (ne_pair (by simp only [hnd, not_false_eq_true])).symm
      have h0_sll : sll ≠ 0 := by simp only [hT, ne_eq, not_false_eq_true]
      have h0_slr : slr ≠ 0 := by simp only [hT, ne_eq, not_false_eq_true]
      simp only [chx_rb_parent, chx_rb_set_parent_color, chx_rb_set_parent, chx_rb_color, chx_rb_set_black, store_pc_pc, store_left_pc, store_right_pc,
            store_pc_left, store_pc_right, store_left_left, store_left_right, store_right_left,
            store_right_right, call_mem, change_child_pc, change_child_store_pc,
            hT, h_p_sx, h_p_sl, h_p_sll, h_p_slr, h_sx_sl, h_sx_sll, h_sx_slr, h_sl_sll, h_sl_slr, h_sll_slr, h0_sll, h0_slr, hpw, ne_eq, not_false_eq_true, not_true_eq_false, if_true, if_false,
            ite_true, ite_false, addr_node, addr_nil, paintBlack_nil, paintBlack_node, color_of_word]
      simp only [Tree.inorder, List.mem_append, List.mem_cons, not_or] at hxm
      have f0 : x ≠ p := by simp only [hxm, ne_eq, not_false_eq_true]
      have f1 : x ≠ sx := by simp only [hxm, ne_eq, not_false_eq_true]
      have f2 : x ≠ sl := by simp only [hxm, ne_eq, not_false_eq_true]
      have f3 : x ≠ sll := by simp only [hxm, ne_eq, not_false_eq_true]
      have f4 : x ≠ slr := by simp only [hxm, ne_eq, not_false_eq_true]
      first
      | (rw [change_child_mem_frame hxk]
         simp [store_pc_mem_ne, store_left_mem_ne, store_right_mem_ne, f0, f1, f2, f3, f4])
      | simp [store_pc_mem_ne, store_left_mem_ne, store_right_mem_ne, f0, f1, f2, f3, f4]

theorem erase_case34_right_frame (rot : Callback α) {s : State α} {k : Ctx} {c cs csr : Color}
    {N Sl Srl Srr : Tree} {p sx sr : Nat} {x : Nat}
    (h : WF s (plug k (.node c (.node cs Sl sx (.node csr Srl sr Srr)) p N)))
    (hSrl : Srl.color = .black)
    (hx : x ∉ (plug k (.node c (.node cs Sl sx (.node csr Srl sr Srr)) p N)).inorder) :
    (erase_case4_right rot (erase_case3_right rot s p sx sr) p sr sx).mem x = s.mem x := by
  have hxm0 : x ∉ ((.node c (.node cs Sl sx (.node csr Srl sr Srr)) p N : Tree)).inorder ++ ctxNodes k :=
    fun hm => hx ((inorder_plug_perm k _).mem_iff.2 hm)
  rw [WF_plug'] at h
  obtain ⟨hk, hT, hnd⟩ := h
  have hpar := RepCtx_ctxAddr_aligned hk
  have hnd0 := hnd
  have hpw := parent_of_word c hpar
  have hxk : ctxAddr 0 k ≠ 0 → x ≠ ctxAddr 0 k := by
    intro h0 e
    have hk0 : k ≠ [] := fun e0 => h0 (by rw [e0]; rfl)
    exact hxm0 (List.mem_append_right _ (e ▸ ctxAddr_mem_ctxNodes k hk0))
  have hxm : x ∉ ((.node c (.node cs Sl sx (.node csr Srl sr Srr)) p N : Tree)).inorder := fun hm => hxm0 (List.mem_append_left _ hm)
  try simp only [erase_case4_right, erase_case3_right, __chx_rb_rotate_set_parents, call_mem]
  cases Srl with
  | nil =>
    cases Srr with
    | nil =>
      simp only [Tree.inorder, List.nodup_append, List.nodup_cons, List.disjoint_append_left,
            List.disjoint_append_right, List.disjoint_cons_left, List.disjoint_cons_right,
            List.mem_append, List.mem_cons, not_or] at hnd
      simp only [Rep, addr_node, addr_nil, color_node, color_nil] at hT hSrl
      have h_p_sx : p ≠ sx ∧ sx ≠ p := by
        first
        | exact ne_pair (by simp only [hnd, not_false_eq_true])
        | exact (ne_pair (by simp only [hnd, not_false_eq_true])).symm
      have h_p_sr : p ≠ sr ∧ sr ≠ p := by
        first
        | exact ne_pair (by simp only [hnd, not_false_eq_true])
        | exact (ne_pair (by simp only [hnd, not_false_eq_true])).symm
      have h_sx_sr : sx ≠ sr ∧ sr ≠ sx := by
        first
        | exact ne_pair (by simp only [hnd, not_false_eq_true])
        | exact (ne_pair (by simp only [hnd, not_false_eq_true])).symm
      simp only [chx_rb_parent, chx_rb_set_parent_color, chx_rb_set_parent, chx_rb_color, chx_rb_set_black, store_pc_pc, store_left_pc, store_right_pc,
            store_pc_left, store_pc_right, store_left_left, store_left_right, store_right_left,
            store_right_right, call_mem, change_child_pc, change_child_store_pc,
            hT, h_p_sx, h_p_sr, h_sx_sr, hpw, ne_eq, not_false_eq_true, not_true_eq_false, if_true, if_false,
            ite_true, ite_false, addr_node, addr_nil, paintBlack_nil, paintBlack_node, color_of_word]
      simp only [Tree.inorder, List.mem_append, List.mem_cons, not_or] at hxm
      have f0 : x ≠ p := by simp only [hxm, ne_eq, not_false_eq_true]
      have f1 : x ≠ sx := by simp only [hxm, ne_eq, not_false_eq_true]
      have f2 : x ≠ sr := by simp only [hxm, ne_eq, not_false_eq_true]
      first
      | (rw [change_child_mem_frame hxk]
         simp [store_pc_mem_ne, store_left_mem_ne, store_right_mem_ne, f0, f1, f2])
      | simp [store_pc_mem_ne, store_left_mem_ne, store_right_mem_ne, f0, f1, f2]
    | node cSrr Srrl srr Srrr =>
      simp only [Tree.inorder, List.nodup_append, List.nodup_cons, List.disjoint_append_left,
            List.disjoint_append_right, List.disjoint_cons_left, List.disjoint_cons_right,
            List.mem_append, List.mem_cons, not_or] at hnd
      simp only [Rep, addr_node, addr_nil, color_node, color_nil] at hT hSrl
      have h_p_sx : p ≠ sx ∧ sx ≠ p := by
        first
        | exact ne_pair (by simp only [hnd, not_false_eq_true])
        | exact (ne_pair (by simp only [hnd, not_false_eq_true])).symm
      have h_p_sr : p ≠ sr ∧ sr ≠ p := by
        first
        | exact ne_pair (by simp only [hnd, not_false_eq_true])
        | exact (ne_pair (by simp only [hnd, not_false_eq_true])).symm
      have h_p_srr : p ≠ srr ∧ srr ≠ p := by
        first
        | exact ne_pair (by simp only [hnd, not_false_eq_true])
        | exact (ne_pair (by simp only [hnd, not_false_eq_true])).symm
      have h_sx_sr : sx ≠ sr ∧ sr ≠ sx := by
        first
        | exact ne_pair (by simp only [hnd, not_false_eq_true])
        | exact (ne_pair (by simp only [hnd, not_false_eq_true])).symm
      have h_sx_srr : sx ≠ srr ∧ srr ≠ sx := by
        first
        | exact ne_pair (by simp only [hnd, not_false_eq_true])
        | exact (ne_pair (by simp only [hnd, not_false_eq_true])).symm
      have h_sr_srr : sr ≠ srr ∧ srr ≠ sr := by
        first
        | exact ne_pair (by simp only [hnd, not_false_eq_true])
        | exact (ne_pair (by simp only [hnd, not_false_eq_true])).symm
      have h0_srr : srr ≠ 0 := by simp only [hT, ne_eq, not_false_eq_true]
      simp only [chx_rb_parent, chx_rb_set_parent_color, chx_rb_set_parent, chx_rb_color, chx_rb_set_black, store_pc_pc, store_left_pc, store_right_pc,
            store_pc_left, store_pc_right, store_left_left, store_left_right, store_right_left,
            store_right_right, call_mem, change_child_pc, change_child_store_pc,
            hT, h_p_sx, h_p_sr, h_p_srr, h_sx_sr, h_sx_srr, h_sr_srr, h0_srr, hpw, ne_eq, not_false_eq_true, not_true_eq_false, if_true, if_false,
            ite_true, ite_false, addr_node, addr_nil, paintBlack_nil, paintBlack_node, color_of_word]
      simp only [Tree.inorder, List.mem_append, List.mem_cons, not_or] at hxm
      have f0 : x ≠ p := by simp only [hxm, ne_eq, not_false_eq_true]
      have f1 : x ≠ sx := by simp only [hxm, ne_eq, not_false_eq_true]
      have f2 : x ≠ sr := by simp only [hxm, ne_eq, not_false_eq_true]
      have f3 : x ≠ srr := by simp only [hxm, ne_eq, not_false_eq_true]
      first
      | (rw [change_child_mem_frame hxk]
         simp [store_pc_mem_ne, store_left_mem_ne, store_right_mem_ne, f0, f1, f2, f3])
      | simp [store_pc_mem_ne, store_left_mem_ne, store_right_mem_ne, f0, f1, f2, f3]
  | node cSrl Srll srl Srlr =>
    cases Srr with
    | nil =>
      simp only [Tree.inorder, List.nodup_append, List.nodup_cons, List.disjoint_append_left,
            List.disjoint_append_right, List.disjoint_cons_left, List.disjoint_cons_right,
            List.mem_append, List.mem_cons, not_or] at hnd
      simp only [Rep, addr_node, addr_nil, color_node, color_nil] at hT hSrl
      have h_p_sx : p ≠ sx ∧ sx ≠ p := by
        first
        | exact ne_pair (by simp only [hnd, not_false_eq_true])
        | exact (ne_pair (by simp only [hnd, not_false_eq_true])).symm
      have h_p_sr : p ≠ sr ∧ sr ≠ p := by
        first
        | exact ne_pair (by simp only [hnd, not_false_eq_true])
        | exact (ne_pair (by simp only [hnd, not_false_eq_true])).symm
      have h_p_srl : p ≠ srl ∧ srl ≠ p := by
        first
        | exact ne_pair (by simp only [hnd, not_false_eq_true])
        | exact (ne_pair (by simp only [hnd, not_false_eq_true])).symm
      have h_sx_sr : sx ≠ sr ∧ sr ≠ sx := by
        first
        | exact ne_pair (by simp only [hnd, not_false_eq_true])
        | exact (ne_pair (by simp only [hnd, not_false_eq_true])).symm
      have h_sx_srl : sx ≠ srl ∧ srl ≠ sx := by
        first
        | exact ne_pair (by simp only [hnd, not_false_eq_true])
        | exact (ne_pair (by simp only [hnd, not_false_eq_true])).symm
      have h_sr_srl : sr ≠ srl ∧ srl ≠ sr := by
        first
        | exact ne_pair (by simp only [hnd, not_false_eq_true])
        | exact (ne_pair (by simp only [hnd, not_false_eq_true])).symm
      have h0_srl : srl ≠ 0 := by simp only [hT, ne_eq, not_false_eq_true]
      simp only [chx_rb_parent, chx_rb_set_parent_color, chx_rb_set_parent, chx_rb_color, chx_rb_set_black, store_pc_pc, store_left_pc, store_right_pc,
            store_pc_left, store_pc_right, store_left_left, store_left_right, store_right_left,
            store_right_right, call_mem, change_child_pc, change_child_store_pc,
            hT, h_p_sx, h_p_sr, h_p_srl, h_sx_sr, h_sx_srl, h_sr_srl, h0_srl, hpw, ne_eq, not_false_eq_true, not_true_eq_false, if_true, if_false,
            ite_true, ite_false, addr_node, addr_nil, paintBlack_nil, paintBlack_node, color_of_word]
      simp only [Tree.inorder, List.mem_append, List.mem_cons, not_or] at hxm
      have f0 : x ≠ p := by simp only [hxm, ne_eq, not_false_eq_true]
      have f1 : x ≠ sx := by simp only [hxm, ne_eq, not_false_eq_true]
      have f2 : x ≠ sr := by simp only [hxm, ne_eq, not_false_eq_true]
      have f3 : x ≠ srl := by simp only [hxm, ne_eq, not_false_eq_true]
      first
      | (rw [change_child_mem_frame hxk]
         simp [store_pc_mem_ne, store_left_mem_ne, store_right_mem_ne, f0, f1, f2, f3])
      | simp [store_pc_mem_ne, store_left_mem_ne, store_right_mem_ne, f0, f1, f2, f3]
    | node cSrr Srrl srr Srrr =>
      simp only [Tree.inorder, List.nodup_append, List.nodup_cons, List.disjoint_append_left,
            List.disjoint_append_right, List.disjoint_cons_left, List.disjoint_cons_right,
            List.mem_append, List.mem_cons, not_or] at hnd
      simp only [Rep, addr_node, addr_nil, color_node, color_nil] at hT hSrl
      have h_p_sx : p ≠ sx ∧ sx ≠ p := by
        first
        | exact ne_pair (by simp only [hnd, not_false_eq_true])
        | exact (ne_pair (by simp only [hnd, not_false_eq_true])).symm
      have h_p_sr : p ≠ sr ∧ sr ≠ p := by
        first
        | exact ne_pair (by simp only [hnd, not_false_eq_true])
        | exact (ne_pair (by simp only [hnd, not_false_eq_true])).symm
      have h_p_srl : p ≠ srl ∧ srl ≠ p := by
        first
        | exact ne_pair (by simp only [hnd, not_false_eq_true])
        | exact (ne_pair (by simp only [hnd, not_false_eq_true])).symm
      have h_p_srr : p ≠ srr ∧ srr ≠ p := by
        first
        | exact ne_pair (by simp only [hnd, not_false_eq_true])
        | exact (ne_pair (by simp only [hnd, not_false_eq_true])).symm
      have h_sx_sr : sx ≠ sr ∧ sr ≠ sx := by
        first
        | exact ne_pair (by simp only [hnd, not_false_eq_true])
        | exact (ne_pair (by simp only [hnd, not_false_eq_true])).symm
      have h_sx_srl : sx ≠ srl ∧ srl ≠ sx := by
        first
        | exact ne_pair (by simp only [hnd, not_false_eq_true])
        | exact (ne_pair (by simp only [hnd, not_false_eq_true])).symm
      have h_sx_srr : sx ≠ srr ∧ srr ≠ sx := by
        first
        | exact ne_pair (by simp only [hnd, not_false_eq_true])
        | exact (ne_pair (by simp only [hnd, not_false_eq_true])).symm
      have h_sr_srl : sr ≠ srl ∧ srl ≠ sr := by
        first
        | exact ne_pair (by simp only [hnd, not_false_eq_true])
        | exact (ne_pair (by simp only [hnd, not_false_eq_true])).symm
      have h_sr_srr : sr ≠ srr ∧ srr ≠ sr := by
        first
        | exact ne_pair (by simp only [hnd, not_false_eq_true])
        | exact (ne_pair (by simp only [hnd, not_false_eq_true])).symm
      have h_srl_srr : srl ≠ srr ∧ srr ≠ srl := by
        first
        | exact ne_pair (by simp only [hnd, not_false_eq_true])
        | exact (ne_pair (by simp only [hnd, not_false_eq_true])).symm
      have h0_srl : srl ≠ 0 := by simp only [hT, ne_eq, not_false_eq_true]
      have h0_srr : srr ≠ 0 := by simp only [hT, ne_eq, not_false_eq_true]
      simp only [chx_rb_parent, chx_rb_set_parent_color, chx_rb_set_parent, chx_rb_color, chx_rb_set_black, store_pc_pc, store_left_pc, store_right_pc,
            store_pc_left, store_pc_right, store_left_left, store_left_right, store_right_left,
            store_right_right, call_mem, change_child_pc, change_child_store_pc,
            hT, h_p_sx, h_p_sr, h_p_srl, h_p_srr, h_sx_sr, h_sx_srl, h_sx_srr, h_sr_srl, h_sr_srr, h_srl_srr, h0_srl, h0_srr, hpw, ne_eq, not_false_eq_true, not_true_eq_false, if_true, if_false,
            ite_true, ite_false, addr_node, addr_nil, paintBlack_nil, paintBlack_node, color_of_word]
      simp only [Tree.inorder, List.mem_append, List.mem_cons, not_or] at hxm
      have f0 : x ≠ p := by simp only [hxm, ne_eq, not_false_eq_true]
      have f1 : x ≠ sx := by simp only [hxm, ne_eq, not_false_eq_true]
      have f2 : x ≠ sr := by simp only [hxm, ne_eq, not_false_eq_true]
      have f3 : x ≠ srl := by simp only [hxm, ne_eq, not_false_eq_true]
      have f4 : x ≠ srr := by simp only [hxm, ne_eq, not_false_eq_true]
      first
      | (rw [change_child_mem_frame hxk]
         simp [store_pc_mem_ne, store_left_mem_ne, store_right_mem_ne, f0, f1, f2, f3, f4])
      | simp [store_pc_mem_ne, store_left_mem_ne, store_right_mem_ne, f0, f1, f2, f3, f4]


/-! ## Erase fix-up: the loop leaves the memory outside the tree alone -/

theorem erase_left_tail_frame (rot : Callback α) (x : Nat) (m : chx_rb_node)
    (loop : State α → Nat → Nat → Option (State α))
    {s : State α} {K : Ctx} {c : Color} {N Sn Sf : Tree} {p sx : Nat}
    (h : WF s (plug K (.node c N p (.node .black Sn sx Sf))))
    (hJ : x ∉ (plug K (.node c N p (.node .black Sn sx Sf))).inorder ∧ s.mem x = m)
    (hNv : N.Valid) (hSnv : Sn.Valid) (hSfv : Sf.Valid) (hSn : Sn.bh = N.bh) (hSf : Sf.bh = N.bh)
    (htop : topColorOK c K) (hK : CtxOK K (N.bh + 1 + c.bit))
    (hloop : c = .black → K ≠ [] → ∀ s1 N1, WF s1 (plug K N1) → (x ∉ (plug K N1).inorder ∧ s1.mem x = m) → N1.color = .black → N1.Valid →
      N1.bh = N.bh + 1 →
      ∃ s' t', loop s1 N1.addr (ctxAddr 0 K) = some s' ∧ WF s' t' ∧ t'.RB ∧
        t'.inorder = (plug K N1).inorder ∧ s'.mem x = m) :
    ∃ s' t', erase_color_left_tail rot loop s p sx = some s' ∧ WF s' t' ∧ t'.RB ∧
      t'.inorder = (plug K (.node c N p (.node .black Sn sx Sf))).inorder ∧
      s'.mem x = m := by
  obtain ⟨hk, hT, hnd⟩ := WF_plug'.1 h
  have hpar := RepCtx_ctxAddr_aligned hk
  have hRepS : Rep s.mem (.node .black Sn sx Sf) p := by
    simp only [Rep] at hT
    simp only [Rep]
    tauto
  have hsx4 : sx % 4 = 0 := hRepS.2.1
  have hRepSn : Rep s.mem Sn sx := by
    simp only [Rep] at hRepS
    tauto
  have hRepSf : Rep s.mem Sf sx := by
    simp only [Rep] at hRepS
    tauto
  have hfar : (s.mem sx).rb_right = Sf.addr := by
    simp only [Rep] at hRepS
    tauto
  have hnear : (s.mem sx).rb_left = Sn.addr := by
    simp only [Rep] at hRepS
    tauto
  have hppc : (s.mem p).__rb_parent_color = ctxAddr 0 K + c.bit := hT.2.2.1
  have hpsx : p ≠ sx := by
    have hnd' := hnd
    simp only [Tree.inorder, List.nodup_append, List.nodup_cons, List.disjoint_append_left,
      List.disjoint_append_right, List.disjoint_cons_left, List.disjoint_cons_right,
      List.mem_append, List.mem_cons, not_or] at hnd'
    first
    | exact (ne_pair (by simp only [hnd', not_false_eq_true])).1
    | exact (ne_pair (by simp only [hnd', not_false_eq_true])).2
  unfold erase_color_left_tail
  simp only [hfar, hnear]
  cases hSfc : Sf.color with
  | red =>
    -- Case 4
    rw [if_neg (by rw [is_black_addr hRepSf hsx4, hSfc]; simp)]
    cases Sf with
    | nil => simp at hSfc
    | node cf Sfl sf Sfr =>
      simp only [color_node] at hSfc
      subst hSfc
      rw [Valid_node] at hSfv
      obtain ⟨hf1, hf2, hf3, hf4⟩ := hSfv
      obtain ⟨hf1a, hf1b⟩ := hf1 rfl
      simp only [bh_node, bit_red, Nat.add_zero] at hSf
      have hs := erase_case4_left_spec rot h
      refine ⟨_, _, rfl, hs, ?_, by simp [inorder_plug, Tree.inorder],
        (erase_case4_left_frame rot h hJ.1).trans hJ.2⟩
      rw [RB_plug]
      refine ⟨?_, ?_, htop⟩
      · simp [Valid_node, hNv, hSnv, hf3, hf4] <;> omega
      · simp only [bh_node, bit_black]
        first
        | exact hK
        | (rw [hSn]; exact hK)
        | (rw [hSf]; exact hK)
        | (rw [hf2, hSf]; exact hK)
        | (rw [← hf2, hSf]; exact hK)
  | black =>
    rw [if_pos (by rw [is_black_addr hRepSf hsx4, hSfc])]
    cases hSnc : Sn.color with
    | red =>
      -- Case 3 then Case 4
      rw [if_neg (by rw [is_black_addr hRepSn hsx4, hSnc]; simp)]
      cases Sn with
      | nil => simp at hSnc
      | node cn Snl sn Snr =>
        simp only [color_node] at hSnc
        subst hSnc
        rw [Valid_node] at hSnv
        obtain ⟨hn1, hn2, hn3, hn4⟩ := hSnv
        obtain ⟨hn1a, hn1b⟩ := hn1 rfl
        simp only [bh_node, bit_red, Nat.add_zero] at hSn
        have hs := erase_case34_left_spec rot h (by first | exact hn1a | exact hn1b)
        refine ⟨_, _, rfl, hs, ?_, by simp [inorder_plug, Tree.inorder],
          (erase_case34_left_frame rot h (by first | exact hn1a | exact hn1b) hJ.1).trans hJ.2⟩
        rw [RB_plug]
        refine ⟨?_, ?_, htop⟩
        · simp [Valid_node, hNv, hSfv, hn3, hn4] <;> omega
        · simp only [bh_node, bit_black]
          first
          | exact hK
          | (rw [hSn]; exact hK)
          | (rw [hSf]; exact hK)
          | (rw [hn2, hSn]; exact hK)
          | (rw [← hn2, hSn]; exact hK)
    | black =>
      -- Case 2
      rw [if_pos (by rw [is_black_addr hRepSn hsx4, hSnc])]
      unfold erase_case2
      have hpc2 : ((chx_rb_set_parent_color s sx p CHX_RB_RED).mem p).__rb_parent_color
          = ctxAddr 0 K + c.bit := by
        simp [chx_rb_set_parent_color, hpsx, hppc]
      have hred := is_red_of_word hpar hpc2
      have hparent : chx_rb_parent (chx_rb_set_parent_color s sx p CHX_RB_RED) p
          = ctxAddr 0 K := by
        rw [chx_rb_parent, hpc2, parent_of_word c hpar]
      simp only [hred, hparent]
      cases c with
      | red =>
        have hs := erase_case2_left_red_spec h
        refine ⟨_, _, by simp, hs, ?_, by simp [inorder_plug, Tree.inorder],
          (erase_case2_left_red_frame h hJ.1).trans hJ.2⟩
        rw [RB_plug]
        refine ⟨?_, ?_, topColorOK_black K⟩
        · simp [Valid_node, hNv, hSnv, hSfv, hSnc, hSfc] <;> omega
        · simp only [bh_node, bit_black]
          first
          | simpa using hK
          | (rw [hSn]; simpa using hK)
          | (rw [hSf]; simpa using hK)
      | black =>
        have hs := erase_case2_left_spec h
        have hN1v : Tree.Valid (.node .black N p (.node .red Sn sx Sf)) := by
          simp [Valid_node, hNv, hSnv, hSfv, hSnc, hSfc] <;> omega
        have hN1bh : Tree.bh (.node .black N p (.node .red Sn sx Sf)) = N.bh + 1 := by
          simp only [bh_node, bit_black, bit_red, Nat.add_zero] <;> omega
        by_cases hK0 : K = []
        · subst hK0
          refine ⟨_, _, by simp [ctxAddr], hs, ?_, by simp [inorder_plug, Tree.inorder],
            (erase_case2_left_frame h hJ.1).trans hJ.2⟩
          rw [RB_plug]
          exact ⟨hN1v, trivial, rfl⟩
        · have hne : ctxAddr 0 K ≠ 0 := fun e => hK0 ((RepCtx_ctxAddr_ne_zero hk).1 e)
          obtain ⟨s', t', e1, e2, e3, e4, e5⟩ := hloop rfl hK0 _ _ hs
            ⟨(by
              have hx0 := hJ.1
              simp only [inorder_plug, Tree.inorder, plug, ctxBefore, ctxAfter, List.mem_append,
                List.mem_cons, List.mem_nil_iff, not_or, List.append_assoc, List.nil_append, List.append_nil] at hx0 ⊢
              tauto),
              (erase_case2_left_frame h hJ.1).trans hJ.2⟩ rfl hN1v hN1bh
          refine ⟨s', t', ?_, e2, e3, e4.trans (by simp [inorder_plug, Tree.inorder]), e5⟩
          simpa [hne] using e1

theorem erase_right_tail_frame (rot : Callback α) (x : Nat) (m : chx_rb_node)
    (loop : State α → Nat → Nat → Option (State α))
    {s : State α} {K : Ctx} {c : Color} {N Sn Sf : Tree} {p sx : Nat}
    (h : WF s (plug K (.node c (.node .black Sf sx Sn) p N)))
    (hJ : x ∉ (plug K (.node c (.node .black Sf sx Sn) p N)).inorder ∧ s.mem x = m)
    (hNv : N.Valid) (hSnv : Sn.Valid) (hSfv : Sf.Valid) (hSn : Sn.bh = N.bh) (hSf : Sf.bh = N.bh)
    (htop : topColorOK c K) (hK : CtxOK K (N.bh + 1 + c.bit))
    (hloop : c = .black → K ≠ [] → ∀ s1 N1, WF s1 (plug K N1) → (x ∉ (plug K N1).inorder ∧ s1.mem x = m) → N1.color = .black → N1.Valid →
      N1.bh = N.bh + 1 →
      ∃ s' t', loop s1 N1.addr (ctxAddr 0 K) = some s' ∧ WF s' t' ∧ t'.RB ∧
        t'.inorder = (plug K N1).inorder ∧ s'.mem x = m) :
    ∃ s' t', erase_color_right_tail rot loop s p sx = some s' ∧ WF s' t' ∧ t'.RB ∧
      t'.inorder = (plug K (.node c (.node .black Sf sx Sn) p N)).inorder ∧
      s'.mem x = m := by
  obtain ⟨hk, hT, hnd⟩ := WF_plug'.1 h
  have hpar := RepCtx_ctxAddr_aligned hk
  have hRepS : Rep s.mem (.node .black Sf sx Sn) p := by
    simp only [Rep] at hT
    simp only [Rep]
    tauto
  have hsx4 : sx % 4 = 0 := hRepS.2.1
  have hRepSn : Rep s.mem Sn sx := by
    simp only [Rep] at hRepS
    tauto
  have hRepSf : Rep s.mem Sf sx := by
    simp only [Rep] at hRepS
    tauto
  have hfar : (s.mem sx).rb_left = Sf.addr := by
    simp only [Rep] at hRepS
    tauto
  have hnear : (s.mem sx).rb_right = Sn.addr := by
    simp only [Rep] at hRepS
    tauto
  have hppc : (s.mem p).__rb_parent_color = ctxAddr 0 K + c.bit := hT.2.2.1
  have hpsx : p ≠ sx := by
    have hnd' := hnd
    simp only [Tree.inorder, List.nodup_append, List.nodup_cons, List.disjoint_append_left,
      List.disjoint_append_right, List.disjoint_cons_left, List.disjoint_cons_right,
      List.mem_append, List.mem_cons, not_or] at hnd'
    first
    | exact (ne_pair (by simp only [hnd', not_false_eq_true])).1
    | exact (ne_pair (by simp only [hnd', not_false_eq_true])).2
  unfold erase_color_right_tail
  simp only [hfar, hnear]
  cases hSfc : Sf.color with
  | red =>
    -- Case 4
    rw [if_neg (by rw [is_black_addr hRepSf hsx4, hSfc]; simp)]
    cases Sf with
    | nil => simp at hSfc
    | node cf Sfl sf Sfr =>
      simp only [color_node] at hSfc
      subst hSfc
      rw [Valid_node] at hSfv
      obtain ⟨hf1, hf2, hf3, hf4⟩ := hSfv
      obtain ⟨hf1a, hf1b⟩ := hf1 rfl
      simp only [bh_node, bit_red, Nat.add_zero] at hSf
      have hs := erase_case4_right_spec rot h
      refine ⟨_, _, rfl, hs, ?_, by simp [inorder_plug, Tree.inorder],
        (erase_case4_right_frame rot h hJ.1).trans hJ.2⟩
      rw [RB_plug]
      refine ⟨?_, ?_, htop⟩
      · simp [Valid_node, hNv, hSnv, hf3, hf4] <;> omega
      · simp only [bh_node, bit_black]
        first
        | exact hK
        | (rw [hSn]; exact hK)
        | (rw [hSf]; exact hK)
        | (rw [hf2, hSf]; exact hK)
        | (rw [← hf2, hSf]; exact hK)
  | black =>
    rw [if_pos (by rw [is_black_addr hRepSf hsx4, hSfc])]
    cases hSnc : Sn.color with
    | red =>
      -- Case 3 then Case 4
      rw [if_neg (by rw [is_black_addr hRepSn hsx4, hSnc]; simp)]
      cases Sn with
      | nil => simp at hSnc
      | node cn Snl sn Snr =>
        simp only [color_node] at hSnc
        subst hSnc
        rw [Valid_node] at hSnv
        obtain ⟨hn1, hn2, hn3, hn4⟩ := hSnv
        obtain ⟨hn1a, hn1b⟩ := hn1 rfl
        simp only [bh_node, bit_red, Nat.add_zero] at hSn
        have hs := erase_case34_right_spec rot h (by first | exact hn1a | exact hn1b)
        refine ⟨_, _, rfl, hs, ?_, by simp [inorder_plug, Tree.inorder],
          (erase_case34_right_frame rot h (by first | exact hn1a | exact hn1b) hJ.1).trans hJ.2⟩
        rw [RB_plug]
        refine ⟨?_, ?_, htop⟩
        · simp [Valid_node, hNv, hSfv, hn3, hn4] <;> omega
        · simp only [bh_node, bit_black]
          first
          | exact hK
          | (rw [hSn]; exact hK)
          | (rw [hSf]; exact hK)
          | (rw [hn2, hSn]; exact hK)
          | (rw [← hn2, hSn]; exact hK)
    | black =>
      -- Case 2
      rw [if_pos (by rw [is_black_addr hRepSn hsx4, hSnc])]
      unfold erase_case2
      have hpc2 : ((chx_rb_set_parent_color s sx p CHX_RB_RED).mem p).__rb_parent_color
          = ctxAddr 0 K + c.bit := by
        simp [chx_rb_set_parent_color, hpsx, hppc]
      have hred := is_red_of_word hpar hpc2
      have hparent : chx_rb_parent (chx_rb_set_parent_color s sx p CHX_RB_RED) p
          = ctxAddr 0 K := by
        rw [chx_rb_parent, hpc2, parent_of_word c hpar]
      simp only [hred, hparent]
      cases c with
      | red =>
        have hs := erase_case2_right_red_spec h
        refine ⟨_, _, by simp, hs, ?_, by simp [inorder_plug, Tree.inorder],
          (erase_case2_right_red_frame h hJ.1).trans hJ.2⟩
        rw [RB_plug]
        refine ⟨?_, ?_, topColorOK_black K⟩
        · simp [Valid_node, hNv, hSnv, hSfv, hSnc, hSfc] <;> omega
        · simp only [bh_node, bit_black]
          first
          | simpa using hK
          | (rw [hSn]; simpa using hK)
          | (rw [hSf]; simpa using hK)
      | black =>
        have hs := erase_case2_right_spec h
        have hN1v : Tree.Valid (.node .black (.node .red Sf sx Sn) p N) := by
          simp [Valid_node, hNv, hSnv, hSfv, hSnc, hSfc] <;> omega
        have hN1bh : Tree.bh (.node .black (.node .red Sf sx Sn) p N) = N.bh + 1 := by
          simp only [bh_node, bit_black, bit_red, Nat.add_zero] <;> omega
        by_cases hK0 : K = []
        · subst hK0
          refine ⟨_, _, by simp [ctxAddr], hs, ?_, by simp [inorder_plug, Tree.inorder],
            (erase_case2_right_frame h hJ.1).trans hJ.2⟩
          rw [RB_plug]
          exact ⟨hN1v, trivial, rfl⟩
        · have hne : ctxAddr 0 K ≠ 0 := fun e => hK0 ((RepCtx_ctxAddr_ne_zero hk).1 e)
          obtain ⟨s', t', e1, e2, e3, e4, e5⟩ := hloop rfl hK0 _ _ hs
            ⟨(by
              have hx0 := hJ.1
              simp only [inorder_plug, Tree.inorder, plug, ctxBefore, ctxAfter, List.mem_append,
                List.mem_cons, List.mem_nil_iff, not_or, List.append_assoc, List.nil_append, List.append_nil] at hx0 ⊢
              tauto),
              (erase_case2_right_frame h hJ.1).trans hJ.2⟩ rfl hN1v hN1bh
          refine ⟨s', t', ?_, e2, e3, e4.trans (by simp [inorder_plug, Tree.inorder]), e5⟩
          simpa [hne] using e1

/-- The erase fix-up loop writes to no address outside the tree. -/
theorem erase_loop_frame (rot : Callback α) (x : Nat) (m : chx_rb_node) :
    ∀ (fuel : Nat) (K : Ctx) (N : Tree) (s : State α),
    K ≠ [] → K.length ≤ fuel → WF s (plug K N) → (x ∉ (plug K N).inorder ∧ s.mem x = m) →
    N.Valid → CtxOK K (N.bh + 1) →
    ∃ s' t', ____chx_rb_erase_color_loop rot fuel s N.addr (ctxAddr 0 K) = some s' ∧
      WF s' t' ∧ t'.RB ∧ t'.inorder = (plug K N).inorder ∧ s'.mem x = m := by
  intro fuel
  induction fuel with
  | zero =>
    intro K N s hK0 hlen
    cases K with
    | nil => exact absurd rfl hK0
    | cons f K' => simp at hlen
  | succ fuel ih =>
    intro K N s hK0 hlen h hJ hNv hK
    cases K with
    | nil => exact absurd rfl hK0
    | cons f K' =>
      cases f with
      | left c p S =>
        simp only [CtxOK] at hK
        obtain ⟨hS1, hS2, hS3, hS4, hS5⟩ := hK
        cases S with
        | nil => simp at hS1
        | node cs Sn sx Sf =>
          have h' : WF s (plug K' (.node c N p (.node cs Sn sx Sf))) := h
          have hJ' : x ∉ (plug K' (.node c N p (.node cs Sn sx Sf))).inorder ∧ s.mem x = m := hJ
          rw [Valid_node] at hS2
          obtain ⟨hS2a, hS2b, hS2c, hS2d⟩ := hS2
          simp only [bh_node] at hS1
          simp only [ctxAddr, Frame.addr]
          rw [erase_step_left rot fuel h']
          cases cs with
          | red =>
            have hc : c = .black := by
              cases c
              · exact absurd (hS3 rfl) (by simp)
              · rfl
            subst hc
            obtain ⟨hSnc, hSfc⟩ : Sn.color = .black ∧ Sf.color = .black := by
              have := hS2a rfl
              tauto
            simp only [bit_red, Nat.add_zero, bit_black] at hS1 hS5
            cases Sn with
            | nil => exfalso; simp only [bh_nil] at hS1 hS2b; omega
            | node cn Snl sn Snr =>
              simp only [color_node] at hSnc
              subst hSnc
              rw [Valid_node] at hS2c
              obtain ⟨hn1, hn2, hn3, hn4⟩ := hS2c
              simp only [bh_node, bit_black] at hS1 hS2b
              have hs1 := erase_case1_left_spec rot h'
              have hJ1 := erase_case1_left_frame rot h' hJ'.1
              have hr2 : (erase_case1_left rot s p sx).2 = sn := by
                obtain ⟨-, hT, -⟩ := WF_plug'.1 h'
                simp only [Rep, addr_node] at hT
                simp only [erase_case1_left]
                tauto
              simp only [if_true, hr2]
              have hs1' : WF (erase_case1_left rot s p sx).1
                  (plug (.left .black sx Sf :: K') (.node .red N p (.node .black Snl sn Snr))) := hs1
              have hJ1' : x ∉ (plug (.left .black sx Sf :: K') (.node .red N p (.node .black Snl sn Snr))).inorder ∧
                  (erase_case1_left rot s p sx).1.mem x = m :=
                ⟨(by
                    have hx0 := hJ'.1
                    simp only [inorder_plug, Tree.inorder, plug, ctxBefore, ctxAfter, List.mem_append,
                      List.mem_cons, List.mem_nil_iff, not_or, List.append_assoc, List.nil_append, List.append_nil] at hx0 ⊢
                    tauto),
                  hJ1.trans hJ'.2⟩
              obtain ⟨s', t', e1, e2, e3, e4, e5⟩ := erase_left_tail_frame rot x m
                (____chx_rb_erase_color_loop rot fuel) hs1' hJ1' hNv
                (by first | exact hn3 | exact hn4) (by first | exact hn4 | exact hn3)
                (by omega) (by omega) (fun _ => rfl)
                (by
                  simp only [CtxOK, bit_red, bit_black, Nat.add_zero]
                  refine ⟨by omega, by first | exact hS2d | exact hS2c, by simp,
                    topColorOK_black K', hS5⟩)
                (fun hcc => by cases hcc)
              exact ⟨s', t', e1, e2, e3, e4.trans (by simp [inorder_plug, Tree.inorder, plug]), e5⟩
          | black =>
            simp only [bit_black] at hS1
            simp only [if_false, reduceCtorEq]
            obtain ⟨s', t', e1, e2, e3, e4, e5⟩ := erase_left_tail_frame rot x m
              (____chx_rb_erase_color_loop rot fuel) h' hJ' hNv
              (by first | exact hS2c | exact hS2d) (by first | exact hS2d | exact hS2c)
              (by omega) (by omega) hS4 hS5
              (fun hcc hKn s1 N1 hw hj _ hv hb => by
                subst hcc
                exact ih K' N1 s1 hKn (by simp only [List.length_cons] at hlen; omega) hw hj hv
                  (by rw [hb]; exact hS5))
            exact ⟨s', t', e1, e2, e3, e4.trans (by simp [inorder_plug, Tree.inorder, plug]), e5⟩
      | right c S p =>
        simp only [CtxOK] at hK
        obtain ⟨hS1, hS2, hS3, hS4, hS5⟩ := hK
        cases S with
        | nil => simp at hS1
        | node cs Sf sx Sn =>
          have h' : WF s (plug K' (.node c (.node cs Sf sx Sn) p N)) := h
          have hJ' : x ∉ (plug K' (.node c (.node cs Sf sx Sn) p N)).inorder ∧ s.mem x = m := hJ
          rw [Valid_node] at hS2
          obtain ⟨hS2a, hS2b, hS2c, hS2d⟩ := hS2
          simp only [bh_node] at hS1
          simp only [ctxAddr, Frame.addr]
          rw [erase_step_right rot fuel h']
          cases cs with
          | red =>
            have hc : c = .black := by
              cases c
              · exact absurd (hS3 rfl) (by simp)
              · rfl
            subst hc
            obtain ⟨hSnc, hSfc⟩ : Sn.color = .black ∧ Sf.color = .black := by
              have := hS2a rfl
              tauto
            simp only [bit_red, Nat.add_zero, bit_black] at hS1 hS5
            cases Sn with
            | nil => exfalso; simp only [bh_nil] at hS1 hS2b; omega
            | node cn Snl sn Snr =>
              simp only [color_node] at hSnc
              subst hSnc
              rw [Valid_node] at hS2d
              obtain ⟨hn1, hn2, hn3, hn4⟩ := hS2d
              simp only [bh_node, bit_black] at hS1 hS2b
              have hs1 := erase_case1_right_spec rot h'
              have hJ1 := erase_case1_right_frame rot h' hJ'.1
              have hr2 : (erase_case1_right rot s p sx).2 = sn := by
                obtain ⟨-, hT, -⟩ := WF_plug'.1 h'
                simp only [Rep, addr_node] at hT
                simp only [erase_case1_right]
                tauto
              simp only [if_true, hr2]
              have hs1' : WF (erase_case1_right rot s p sx).1
                  (plug (.right .black Sf sx :: K') (.node .red (.node .black Snl sn Snr) p N)) := hs1
              have hJ1' : x ∉ (plug (.right .black Sf sx :: K') (.node .red (.node .black Snl sn Snr) p N)).inorder ∧
                  (erase_case1_right rot s p sx).1.mem x = m :=
                ⟨(by
                    have hx0 := hJ'.1
                    simp only [inorder_plug, Tree.inorder, plug, ctxBefore, ctxAfter, List.mem_append,
                      List.mem_cons, List.mem_nil_iff, not_or, List.append_assoc, List.nil_append, List.append_nil] at hx0 ⊢
                    tauto),
                  hJ1.trans hJ'.2⟩
              obtain ⟨s', t', e1, e2, e3, e4, e5⟩ := erase_right_tail_frame rot x m
                (____chx_rb_erase_color_loop rot fuel) hs1' hJ1' hNv
                (by first | exact hn3 | exact hn4) (by first | exact hn4 | exact hn3)
                (by omega) (by omega) (fun _ => rfl)
                (by
                  simp only [CtxOK, bit_red, bit_black, Nat.add_zero]
                  refine ⟨by omega, by first | exact hS2d | exact hS2c, by simp,
                    topColorOK_black K', hS5⟩)
                (fun hcc => by cases hcc)
              exact ⟨s', t', e1, e2, e3, e4.trans (by simp [inorder_plug, Tree.inorder, plug]), e5⟩
          | black =>
            simp only [bit_black] at hS1
            simp only [if_false, reduceCtorEq]
            obtain ⟨s', t', e1, e2, e3, e4, e5⟩ := erase_right_tail_frame rot x m
              (____chx_rb_erase_color_loop rot fuel) h' hJ' hNv
              (by first | exact hS2c | exact hS2d) (by first | exact hS2d | exact hS2c)
              (by omega) (by omega) hS4 hS5
              (fun hcc hKn s1 N1 hw hj _ hv hb => by
                subst hcc
                exact ih K' N1 s1 hKn (by simp only [List.length_cons] at hlen; omega) hw hj hv
                  (by rw [hb]; exact hS5))
            exact ⟨s', t', e1, e2, e3, e4.trans (by simp [inorder_plug, Tree.inorder, plug]), e5⟩


/-! ## The erased node is not written -/

theorem splice_successor_mem_self (s : State α) (n sx p ch2 : Nat) (hsx : n ≠ sx)
    (hl : n ≠ (s.mem n).rb_left) (h3 : ch2 ≠ 0 → n ≠ ch2)
    (h4 : __chx_rb_parent (s.mem n).__rb_parent_color ≠ 0 →
      n ≠ __chx_rb_parent (s.mem n).__rb_parent_color) :
    (erase_splice_successor s n sx p ch2).1.mem n = s.mem n := by
  unfold erase_splice_successor
  have e1 : ((chx_rb_set_parent (s.store_left sx (s.mem n).rb_left) (s.mem n).rb_left sx).mem n)
      = s.mem n := by
    simp [chx_rb_set_parent, store_pc_mem_ne hl, store_left_mem_ne hsx]
  simp only [e1]
  by_cases hc : ch2 = 0
  · simp [hc, store_pc_mem_ne hsx, change_child_mem_frame h4, e1]
  · simp [hc, store_pc_mem_ne hsx, chx_rb_set_parent_color, store_pc_mem_ne (h3 hc),
      change_child_mem_frame h4, e1]

/-- The splice does not write to the node that it takes out of the tree. -/
theorem splice_mem_erased (aug : chx_rb_augment_callbacks α) (fuel : Nat) {s σ : State α}
    {k : Ctx} {c : Color} {l r : Tree} {n reb : Nat}
    (h : WF s (plug k (.node c l n r))) (hfuel : (plug k (.node c l n r)).height ≤ fuel)
    (e : __chx_rb_erase_augmented aug fuel s n = some (σ, reb)) : σ.mem n = s.mem n := by
  obtain ⟨hk, hT, hnd⟩ := WF_plug'.1 h
  have hpar := RepCtx_ctxAddr_aligned hk
  have hpw := parent_of_word c hpar
  obtain ⟨hn0, hn4, hnpc, hnl, hnr, hL, hR⟩ := hT
  have hnk : n ∉ ctxNodes k := fun hx => frame_ne hnd hx (by simp [Tree.inorder]) rfl
  have hxk : ctxAddr 0 k ≠ 0 → n ≠ ctxAddr 0 k := by
    intro h0 e0
    have hk0 : k ≠ [] := fun e1 => h0 (by rw [e1]; rfl)
    exact hnk (e0 ▸ ctxAddr_mem_ctxNodes k hk0)
  have hndT := (List.nodup_append.1 hnd).1
  simp only [Tree.inorder] at hndT
  have hnL : n ∉ l.inorder := fun hx =>
    (List.nodup_append.1 hndT).2.2 hx (List.mem_cons_self _ _)
  have hnR : n ∉ r.inorder := (List.nodup_cons.1 (List.nodup_append.1 hndT).2.1).1
  have haddr : ∀ (T : Tree), n ∉ T.inorder → T.addr ≠ 0 → n ≠ T.addr := by
    intro T hT h0 e0
    cases T with
    | nil => exact h0 rfl
    | node _ _ a _ => exact hT (by rw [e0]; simp [Tree.inorder])
  unfold __chx_rb_erase_augmented at e
  simp only [hnl, hnr, hnpc, hpw] at e
  by_cases hl0 : l.addr = 0
  · simp only [hl0, if_true] at e
    by_cases hr0 : r.addr = 0
    · simp only [hr0, ne_eq, not_true_eq_false, if_false, Option.some.injEq, Prod.mk.injEq] at e
      obtain ⟨rfl, -⟩ := e
      simp [change_child_mem_frame hxk]
    · simp only [ne_eq, hr0, not_false_eq_true, if_true, Option.some.injEq, Prod.mk.injEq] at e
      obtain ⟨rfl, -⟩ := e
      simp [change_child_mem_frame hxk, store_pc_mem_ne (haddr r hnR hr0)]
  · simp only [hl0, if_false] at e
    by_cases hr0 : r.addr = 0
    · simp only [hr0, if_true, Option.some.injEq, Prod.mk.injEq] at e
      obtain ⟨rfl, -⟩ := e
      simp [change_child_mem_frame hxk, store_pc_mem_ne (haddr l hnL hl0)]
    · simp only [hr0, if_false] at e
      have hrn : r ≠ .nil := fun e0 => hr0 (by rw [e0]; rfl)
      obtain ⟨rk, cs, sx, C, hal, er⟩ := leftmost_split r hrn
      subst er
      have hXrep := ((Rep_plug rk (.node cs .nil sx C)).1 hR).2
      obtain ⟨hsx0, hsx4, hsxpc, hsxl, hsxr, -, hC⟩ := hXrep
      simp only [addr_nil] at hsxl
      have hsxm : sx ∈ (plug rk (.node cs .nil sx C)).inorder := by
        rw [inorder_plug]; simp [Tree.inorder]
      have hnsx : n ≠ sx := fun e0 => hnR (e0 ▸ hsxm)
      have hnC : n ∉ C.inorder := fun hx => hnR (by
        rw [inorder_plug]; simp [Tree.inorder, hx])
      have hself : ∀ (st : State α) (p : Nat), st.mem n = s.mem n →
          (erase_splice_successor st n sx p C.addr).1.mem n = s.mem n := by
        intro st p hst
        rw [splice_successor_mem_self st n sx p C.addr hnsx
          (by rw [hst, hnl]; exact haddr l hnL hl0) (haddr C hnC)
          (by rw [hst, hnpc, hpw]; exact hxk)]
        exact hst
      cases rk with
      | nil =>
        simp only [plug, addr_node] at e hnr hR
        simp only [hsxl, if_true, Option.some.injEq, Prod.mk.injEq, hsxr] at e
        obtain ⟨rfl, -⟩ := e
        simp only [call_mem]
        exact hself _ _ rfl
      | cons f rk' =>
        have hrk : f :: rk' ≠ [] := by simp
        have hne := spine_left_ne_zero (f :: rk') n hrk hal hR
        have hh := plug_height k (.node c l n (plug (f :: rk') (.node cs .nil sx C)))
        have hh2 := plug_height (f :: rk') (.node cs .nil sx C)
        simp only [Tree.height] at hh
        have hloop := successor_loop_spec (f :: rk') n fuel hrk hal hR (by omega)
        simp only [hne, if_false, hloop, hsxr, Option.some.injEq, Prod.mk.injEq] at e
        obtain ⟨rfl, -⟩ := e
        simp only [call_mem]
        have ha1mem := ctxAddr_mem n (f :: rk') hrk
        have hna1 : n ≠ ctxAddr n (f :: rk') := fun e0 =>
          hnR (mem_plug_of_mem_ctx (e0 ▸ ha1mem))
        obtain ⟨hRmem, -⟩ := RepCtx_top (f :: rk') _ hrk ((Rep_plug _ _).1 hR).1
        have hnRa : n ≠ (plug (f :: rk') (.node cs .nil sx C)).addr := fun e0 =>
          hnR (e0 ▸ addr_mem_inorder _ (plug_node_ne_nil _ _ _ _ _))
        apply hself
        simp [chx_rb_set_parent, store_pc_mem_ne hnRa, store_right_mem_ne hnsx,
          store_left_mem_ne hna1]

/-- Claim C39.  The state holds a red-black tree and `n` is one of its nodes.
Then `chx_rb_erase` returns a red-black tree with the other nodes in their old
order, and the header of `n` in memory is what it was before the call: its
parent-and-colour word, its left link and its right link are unchanged.  In
particular `CHX_RB_EMPTY_NODE(n)` is still false after the call. -/
theorem erase_leaves_erased_node (s : State α) (t : Tree) (n fuel : Nat)
    (hwf : WF s t) (hrb : t.RB) (hn : n ∈ t.inorder) (hfuel : t.height ≤ fuel) :
    ∃ s' t', chx_rb_erase fuel s n = some s' ∧ WF s' t' ∧ t'.RB ∧
      t'.inorder = t.inorder.erase n ∧ n ∉ t'.inorder ∧
      s'.mem n = s.mem n ∧
      (s'.mem n).__rb_parent_color = (s.mem n).__rb_parent_color ∧
      (s'.mem n).rb_left = (s.mem n).rb_left ∧ (s'.mem n).rb_right = (s.mem n).rb_right ∧
      CHX_RB_EMPTY_NODE s n = false ∧ CHX_RB_EMPTY_NODE s' n = false := by
  have hempty := empty_node_false hwf hn
  obtain ⟨k, c, l, r, e⟩ := mem_split_plug t n hn
  subst e
  obtain ⟨σ, reb, K, C, e1, hσ, hlenK, hio, hcase⟩ :=
    splice_spec dummy_callbacks fuel hwf hrb hfuel
  have hmem := splice_mem_erased dummy_callbacks fuel hwf hfuel e1
  have hio' : (plug K C).inorder = (plug k (.node c l n r)).inorder.erase n := by
    rw [hio, inorder_plug_erase hwf.2.2]
  have hnot : n ∉ (plug K C).inorder := by
    rw [hio']
    exact fun hx => (List.Nodup.mem_erase_iff hwf.2.2).1 hx |>.1 rfl
  have key : ∃ s' t', chx_rb_erase fuel s n = some s' ∧ WF s' t' ∧ t'.RB ∧
      t'.inorder = (plug K C).inorder ∧ s'.mem n = s.mem n := by
    unfold chx_rb_erase
    rw [e1]
    rcases hcase with ⟨h0, hRB⟩ | ⟨h1, h2, h3, h4, h5⟩
    · subst h0
      exact ⟨σ, _, by simp, hσ, hRB, rfl, hmem⟩
    · subst h3
      obtain ⟨s', t', f1, f2, f3, f4, f5⟩ :=
        erase_loop_frame dummy_rotate n (s.mem n) fuel K .nil σ h4 hlenK hσ ⟨hnot, hmem⟩
          Valid_nil h5
      refine ⟨s', t', ?_, f2, f3, f4, f5⟩
      simp only [ne_eq, h2, not_false_eq_true, if_true]
      rw [h1]
      exact f1
  obtain ⟨s', t', g1, g2, g3, g4, g5⟩ := key
  refine ⟨s', t', g1, g2, g3, g4.trans hio', by rw [g4]; exact hnot, g5, by rw [g5], by rw [g5],
    by rw [g5], hempty, ?_⟩
  unfold CHX_RB_EMPTY_NODE at hempty ⊢
  rw [g5]
  exact hempty

theorem erase_leaves_erased_node_witness :
    WF demo_four demo_four_tree ∧ demo_four_tree.RB ∧ 4 ∈ demo_four_tree.inorder ∧
    ∃ s' t', chx_rb_erase 3 demo_four 4 = some s' ∧ WF s' t' ∧ t'.RB ∧
      t'.inorder = demo_four_tree.inorder.erase 4 ∧ 4 ∉ t'.inorder ∧
      s'.mem 4 = demo_four.mem 4 ∧
      (s'.mem 4).__rb_parent_color = (demo_four.mem 4).__rb_parent_color ∧
      (s'.mem 4).rb_left = (demo_four.mem 4).rb_left ∧
      (s'.mem 4).rb_right = (demo_four.mem 4).rb_right ∧
      CHX_RB_EMPTY_NODE demo_four 4 = false ∧ CHX_RB_EMPTY_NODE s' 4 = false :=
  ⟨by decide, by decide, by decide,
    erase_leaves_erased_node demo_four demo_four_tree 4 3 (by decide) (by decide) (by decide)
      (by decide)⟩


/-! ## Erase fix-up with checked dereferences -/

theorem erase_step_left_checked_black (rot : Callback α) (fuel : Nat) {s : State α} {K : Ctx}
    {c : Color} {N Sn Sf : Tree} {p sx : Nat}
    (h : WF s (plug K (.node c N p (.node .black Sn sx Sf)))) :
    ____chx_rb_erase_color_loop_checked rot (fuel + 1) s N.addr p =
      erase_color_left_tail_checked rot (____chx_rb_erase_color_loop_checked rot fuel) s p sx := by
  have hstep := erase_step_left rot fuel h
  obtain ⟨hk, hT, hnd⟩ := WF_plug'.1 h
  have hRepS : Rep s.mem (.node .black Sn sx Sf) p := by
    simp only [Rep] at hT
    simp only [Rep]
    tauto
  have hp0 : p ≠ 0 := hT.1
  have hp4 : p % 4 = 0 := hT.2.1
  have hsx0 : sx ≠ 0 := hRepS.1
  have hred : chx_rb_is_red s sx = false := by
    rw [is_red_of_word hp4 hRepS.2.2.1]
    rfl
  have hl : (s.mem p).rb_left = N.addr := by
    simp only [Rep, addr_node] at hT
    exact hT.2.2.2.1
  have hr : (s.mem p).rb_right = sx := by
    simp only [Rep, addr_node] at hT
    exact hT.2.2.2.2.1
  have hNsx : N.addr ≠ sx := by
    cases N with
    | nil => exact fun e => hsx0 e.symm
    | node cn Nl n Nr =>
      show n ≠ sx
      simp only [Tree.inorder, List.nodup_append, List.nodup_cons, List.disjoint_append_left,
        List.disjoint_append_right, List.disjoint_cons_left, List.disjoint_cons_right,
        List.mem_append, List.mem_cons, not_or] at hnd
      first
      | exact (ne_pair (by simp only [hnd, not_false_eq_true])).1
      | exact (ne_pair (by simp only [hnd, not_false_eq_true])).2
  rw [____chx_rb_erase_color_loop_checked]
  simp [deref, hp0, hl, hr, hNsx, hsx0, hred]

theorem erase_step_left_checked_red (rot : Callback α) (fuel : Nat) {s : State α} {K : Ctx}
    {c cn : Color} {N Snl Snr Sf : Tree} {p sx sn : Nat}
    (h : WF s (plug K (.node c N p (.node .red (.node cn Snl sn Snr) sx Sf)))) :
    ____chx_rb_erase_color_loop_checked rot (fuel + 1) s N.addr p =
      erase_color_left_tail_checked rot (____chx_rb_erase_color_loop_checked rot fuel)
        (erase_case1_left rot s p sx).1 p sn := by
  obtain ⟨hk, hT, hnd⟩ := WF_plug'.1 h
  have hRepS : Rep s.mem (.node .red (.node cn Snl sn Snr) sx Sf) p := by
    simp only [Rep] at hT
    simp only [Rep]
    tauto
  have hp0 : p ≠ 0 := hT.1
  have hp4 : p % 4 = 0 := hT.2.1
  have hsx0 : sx ≠ 0 := hRepS.1
  have hred : chx_rb_is_red s sx = true := by
    rw [is_red_of_word hp4 hRepS.2.2.1]
    rfl
  have hl : (s.mem p).rb_left = N.addr := by
    simp only [Rep, addr_node] at hT
    exact hT.2.2.2.1
  have hr : (s.mem p).rb_right = sx := by
    simp only [Rep, addr_node] at hT
    exact hT.2.2.2.2.1
  have hnear : (s.mem sx).rb_left = sn := by
    simp only [Rep, addr_node] at hRepS
    tauto
  have hsn0 : sn ≠ 0 := by
    simp only [Rep, addr_node] at hRepS
    tauto
  have hr2 : (erase_case1_left rot s p sx).2 = sn := by
    simp only [erase_case1_left]
    exact hnear
  have hNsx : N.addr ≠ sx := by
    cases N with
    | nil => exact fun e => hsx0 e.symm
    | node cq Nl n Nr =>
      show n ≠ sx
      simp only [Tree.inorder, List.nodup_append, List.nodup_cons, List.disjoint_append_left,
        List.disjoint_append_right, List.disjoint_cons_left, List.disjoint_cons_right,
        List.mem_append, List.mem_cons, not_or] at hnd
      first
      | exact (ne_pair (by simp only [hnd, not_false_eq_true])).1
      | exact (ne_pair (by simp only [hnd, not_false_eq_true])).2
  rw [____chx_rb_erase_color_loop_checked]
  simp [deref, hp0, hl, hr, hNsx, hsx0, hred, erase_case1_left_checked, hnear, hsn0, hr2]

theorem case4_left_checked_eq (rot : Callback α) (s : State α) (p sx tmp1 : Nat)
    (h : tmp1 ≠ 0) :
    erase_case4_left_checked rot s p sx tmp1 = some (erase_case4_left rot s p sx tmp1) := by
  simp [erase_case4_left_checked, deref, h]

theorem erase_step_right_checked_black (rot : Callback α) (fuel : Nat) {s : State α} {K : Ctx}
    {c : Color} {N Sn Sf : Tree} {p sx : Nat}
    (h : WF s (plug K (.node c (.node .black Sf sx Sn) p N))) :
    ____chx_rb_erase_color_loop_checked rot (fuel + 1) s N.addr p =
      erase_color_right_tail_checked rot (____chx_rb_erase_color_loop_checked rot fuel) s p sx := by
  have hstep := erase_step_right rot fuel h
  obtain ⟨hk, hT, hnd⟩ := WF_plug'.1 h
  have hRepS : Rep s.mem (.node .black Sf sx Sn) p := by
    simp only [Rep] at hT
    simp only [Rep]
    tauto
  have hp0 : p ≠ 0 := hT.1
  have hp4 : p % 4 = 0 := hT.2.1
  have hsx0 : sx ≠ 0 := hRepS.1
  have hred : chx_rb_is_red s sx = false := by
    rw [is_red_of_word hp4 hRepS.2.2.1]
    rfl
  have hl : (s.mem p).rb_left = sx := by
    simp only [Rep, addr_node] at hT
    exact hT.2.2.2.1
  have hr : (s.mem p).rb_right = N.addr := by
    simp only [Rep, addr_node] at hT
    exact hT.2.2.2.2.1
  have hNsx : N.addr ≠ sx := by
    cases N with
    | nil => exact fun e => hsx0 e.symm
    | node cn Nl n Nr =>
      show n ≠ sx
      simp only [Tree.inorder, List.nodup_append, List.nodup_cons, List.disjoint_append_left,
        List.disjoint_append_right, List.disjoint_cons_left, List.disjoint_cons_right,
        List.mem_append, List.mem_cons, not_or] at hnd
      first
      | exact (ne_pair (by simp only [hnd, not_false_eq_true])).1
      | exact (ne_pair (by simp only [hnd, not_false_eq_true])).2
  rw [____chx_rb_erase_color_loop_checked]
  simp [deref, hp0, hl, hr, hNsx, hsx0, hred]

theorem erase_step_right_checked_red (rot : Callback α) (fuel : Nat) {s : State α} {K : Ctx}
    {c cn : Color} {N Snl Snr Sf : Tree} {p sx sn : Nat}
    (h : WF s (plug K (.node c (.node .red Sf sx (.node cn Snl sn Snr)) p N))) :
    ____chx_rb_erase_color_loop_checked rot (fuel + 1) s N.addr p =
      erase_color_right_tail_checked rot (____chx_rb_erase_color_loop_checked rot fuel)
        (erase_case1_right rot s p sx).1 p sn := by
  obtain ⟨hk, hT, hnd⟩ := WF_plug'.1 h
  have hRepS : Rep s.mem (.node .red Sf sx (.node cn Snl sn Snr)) p := by
    simp only [Rep] at hT
    simp only [Rep]
    tauto
  have hp0 : p ≠ 0 := hT.1
  have hp4 : p % 4 = 0 := hT.2.1
  have hsx0 : sx ≠ 0 := hRepS.1
  have hred : chx_rb_is_red s sx = true := by
    rw [is_red_of_word hp4 hRepS.2.2.1]
    rfl
  have hl : (s.mem p).rb_left = sx := by
    simp only [Rep, addr_node] at hT
    exact hT.2.2.2.1
  have hr : (s.mem p).rb_right = N.addr := by
    simp only [Rep, addr_node] at hT
    exact hT.2.2.2.2.1
  have hnear : (s.mem sx).rb_right = sn := by
    simp only [Rep, addr_node] at hRepS
    tauto
  have hsn0 : sn ≠ 0 := by
    simp only [Rep, addr_node] at hRepS
    tauto
  have hr2 : (erase_case1_right rot s p sx).2 = sn := by
    simp only [erase_case1_right]
    exact hnear
  have hNsx : N.addr ≠ sx := by
    cases N with
    | nil => exact fun e => hsx0 e.symm
    | node cq Nl n Nr =>
      show n ≠ sx
      simp only [Tree.inorder, List.nodup_append, List.nodup_cons, List.disjoint_append_left,
        List.disjoint_append_right, List.disjoint_cons_left, List.disjoint_cons_right,
        List.mem_append, List.mem_cons, not_or] at hnd
      first
      | exact (ne_pair (by simp only [hnd, not_false_eq_true])).1
      | exact (ne_pair (by simp only [hnd, not_false_eq_true])).2
  rw [____chx_rb_erase_color_loop_checked]
  simp [deref, hp0, hl, hr, hNsx, hsx0, hred, erase_case1_right_checked, hnear, hsn0, hr2]

theorem case4_right_checked_eq (rot : Callback α) (s : State α) (p sx tmp1 : Nat)
    (h : tmp1 ≠ 0) :
    erase_case4_right_checked rot s p sx tmp1 = some (erase_case4_right rot s p sx tmp1) := by
  simp [erase_case4_right_checked, deref, h]

theorem erase_left_tail_checked_spec (rot : Callback α) (loop : State α → Nat → Nat → Option (State α))
    {s : State α} {K : Ctx} {c : Color} {N Sn Sf : Tree} {p sx : Nat}
    (h : WF s (plug K (.node c N p (.node .black Sn sx Sf))))
    (hNv : N.Valid) (hSnv : Sn.Valid) (hSfv : Sf.Valid) (hSn : Sn.bh = N.bh) (hSf : Sf.bh = N.bh)
    (htop : topColorOK c K) (hK : CtxOK K (N.bh + 1 + c.bit))
    (hloop : c = .black → K ≠ [] → ∀ s1 N1, WF s1 (plug K N1) → N1.color = .black → N1.Valid →
      N1.bh = N.bh + 1 →
      ∃ s' t', loop s1 N1.addr (ctxAddr 0 K) = some s' ∧ WF s' t' ∧ t'.RB ∧
        t'.inorder = (plug K N1).inorder) :
    ∃ s' t', erase_color_left_tail_checked rot loop s p sx = some s' ∧ WF s' t' ∧ t'.RB ∧
      t'.inorder = (plug K (.node c N p (.node .black Sn sx Sf))).inorder := by
  obtain ⟨hk, hT, hnd⟩ := WF_plug'.1 h
  have hpar := RepCtx_ctxAddr_aligned hk
  have hRepS : Rep s.mem (.node .black Sn sx Sf) p := by
    simp only [Rep] at hT
    simp only [Rep]
    tauto
  have hsx4 : sx % 4 = 0 := hRepS.2.1
  have hRepSn : Rep s.mem Sn sx := by
    simp only [Rep] at hRepS
    tauto
  have hRepSf : Rep s.mem Sf sx := by
    simp only [Rep] at hRepS
    tauto
  have hfar : (s.mem sx).rb_right = Sf.addr := by
    simp only [Rep] at hRepS
    tauto
  have hnear : (s.mem sx).rb_left = Sn.addr := by
    simp only [Rep] at hRepS
    tauto
  have hppc : (s.mem p).__rb_parent_color = ctxAddr 0 K + c.bit := hT.2.2.1
  have hpsx : p ≠ sx := by
    have hnd' := hnd
    simp only [Tree.inorder, List.nodup_append, List.nodup_cons, List.disjoint_append_left,
      List.disjoint_append_right, List.disjoint_cons_left, List.disjoint_cons_right,
      List.mem_append, List.mem_cons, not_or] at hnd'
    first
    | exact (ne_pair (by simp only [hnd', not_false_eq_true])).1
    | exact (ne_pair (by simp only [hnd', not_false_eq_true])).2
  unfold erase_color_left_tail_checked
  simp only [hfar, hnear]
  cases hSfc : Sf.color with
  | red =>
    -- Case 4
    rw [if_neg (by rw [is_black_addr hRepSf hsx4, hSfc]; simp)]
    cases Sf with
    | nil => simp at hSfc
    | node cf Sfl sf Sfr =>
      simp only [color_node] at hSfc
      subst hSfc
      rw [Valid_node] at hSfv
      obtain ⟨hf1, hf2, hf3, hf4⟩ := hSfv
      obtain ⟨hf1a, hf1b⟩ := hf1 rfl
      simp only [bh_node, bit_red, Nat.add_zero] at hSf
      have hs := erase_case4_left_spec rot h
      refine ⟨_, _, case4_left_checked_eq rot _ _ _ _ hRepSf.1, hs, ?_,
        by simp [inorder_plug, Tree.inorder]⟩
      rw [RB_plug]
      refine ⟨?_, ?_, htop⟩
      · simp [Valid_node, hNv, hSnv, hf3, hf4] <;> omega
      · simp only [bh_node, bit_black]
        first
        | exact hK
        | (rw [hSn]; exact hK)
        | (rw [hSf]; exact hK)
        | (rw [hf2, hSf]; exact hK)
        | (rw [← hf2, hSf]; exact hK)
  | black =>
    rw [if_pos (by rw [is_black_addr hRepSf hsx4, hSfc])]
    cases hSnc : Sn.color with
    | red =>
      -- Case 3 then Case 4
      rw [if_neg (by rw [is_black_addr hRepSn hsx4, hSnc]; simp)]
      cases Sn with
      | nil => simp at hSnc
      | node cn Snl sn Snr =>
        simp only [color_node] at hSnc
        subst hSnc
        rw [Valid_node] at hSnv
        obtain ⟨hn1, hn2, hn3, hn4⟩ := hSnv
        obtain ⟨hn1a, hn1b⟩ := hn1 rfl
        simp only [bh_node, bit_red, Nat.add_zero] at hSn
        have hs := erase_case34_left_spec rot h (by first | exact hn1a | exact hn1b)
        refine ⟨_, _, case4_left_checked_eq rot _ _ _ _ hRepS.1, hs, ?_,
          by simp [inorder_plug, Tree.inorder]⟩
        rw [RB_plug]
        refine ⟨?_, ?_, htop⟩
        · simp [Valid_node, hNv, hSfv, hn3, hn4] <;> omega
        · simp only [bh_node, bit_black]
          first
          | exact hK
          | (rw [hSn]; exact hK)
          | (rw [hSf]; exact hK)
          | (rw [hn2, hSn]; exact hK)
          | (rw [← hn2, hSn]; exact hK)
    | black =>
      -- Case 2
      rw [if_pos (by rw [is_black_addr hRepSn hsx4, hSnc])]
      unfold erase_case2
      have hpc2 : ((chx_rb_set_parent_color s sx p CHX_RB_RED).mem p).__rb_parent_color
          = ctxAddr 0 K + c.bit := by
        simp [chx_rb_set_parent_color, hpsx, hppc]
      have hred := is_red_of_word hpar hpc2
      have hparent : chx_rb_parent (chx_rb_set_parent_color s sx p CHX_RB_RED) p
          = ctxAddr 0 K := by
        rw [chx_rb_parent, hpc2, parent_of_word c hpar]
      simp only [hred, hparent]
      cases c with
      | red =>
        have hs := erase_case2_left_red_spec h
        refine ⟨_, _, by simp, hs, ?_, by simp [inorder_plug, Tree.inorder]⟩
        rw [RB_plug]
        refine ⟨?_, ?_, topColorOK_black K⟩
        · simp [Valid_node, hNv, hSnv, hSfv, hSnc, hSfc] <;> omega
        · simp only [bh_node, bit_black]
          first
          | simpa using hK
          | (rw [hSn]; simpa using hK)
          | (rw [hSf]; simpa using hK)
      | black =>
        have hs := erase_case2_left_spec h
        have hN1v : Tree.Valid (.node .black N p (.node .red Sn sx Sf)) := by
          simp [Valid_node, hNv, hSnv, hSfv, hSnc, hSfc] <;> omega
        have hN1bh : Tree.bh (.node .black N p (.node .red Sn sx Sf)) = N.bh + 1 := by
          simp only [bh_node, bit_black, bit_red, Nat.add_zero] <;> omega
        by_cases hK0 : K = []
        · subst hK0
          refine ⟨_, _, by simp [ctxAddr], hs, ?_, by simp [inorder_plug, Tree.inorder]⟩
          rw [RB_plug]
          exact ⟨hN1v, trivial, rfl⟩
        · have hne : ctxAddr 0 K ≠ 0 := fun e => hK0 ((RepCtx_ctxAddr_ne_zero hk).1 e)
          obtain ⟨s', t', e1, e2, e3, e4⟩ := hloop rfl hK0 _ _ hs rfl hN1v hN1bh
          refine ⟨s', t', ?_, e2, e3, e4.trans (by simp [inorder_plug, Tree.inorder])⟩
          simpa [hne] using e1

theorem erase_right_tail_checked_spec (rot : Callback α) (loop : State α → Nat → Nat → Option (State α))
    {s : State α} {K : Ctx} {c : Color} {N Sn Sf : Tree} {p sx : Nat}
    (h : WF s (plug K (.node c (.node .black Sf sx Sn) p N)))
    (hNv : N.Valid) (hSnv : Sn.Valid) (hSfv : Sf.Valid) (hSn : Sn.bh = N.bh) (hSf : Sf.bh = N.bh)
    (htop : topColorOK c K) (hK : CtxOK K (N.bh + 1 + c.bit))
    (hloop : c = .black → K ≠ [] → ∀ s1 N1, WF s1 (plug K N1) → N1.color = .black → N1.Valid →
      N1.bh = N.bh + 1 →
      ∃ s' t', loop s1 N1.addr (ctxAddr 0 K) = some s' ∧ WF s' t' ∧ t'.RB ∧
        t'.inorder = (plug K N1).inorder) :
    ∃ s' t', erase_color_right_tail_checked rot loop s p sx = some s' ∧ WF s' t' ∧ t'.RB ∧
      t'.inorder = (plug K (.node c (.node .black Sf sx Sn) p N)).inorder := by
  obtain ⟨hk, hT, hnd⟩ := WF_plug'.1 h
  have hpar := RepCtx_ctxAddr_aligned hk
  have hRepS : Rep s.mem (.node .black Sf sx Sn) p := by
    simp only [Rep] at hT
    simp only [Rep]
    tauto
  have hsx4 : sx % 4 = 0 := hRepS.2.1
  have hRepSn : Rep s.mem Sn sx := by
    simp only [Rep] at hRepS
    tauto
  have hRepSf : Rep s.mem Sf sx := by
    simp only [Rep] at hRepS
    tauto
  have hfar : (s.mem sx).rb_left = Sf.addr := by
    simp only [Rep] at hRepS
    tauto
  have hnear : (s.mem sx).rb_right = Sn.addr := by
    simp only [Rep] at hRepS
    tauto
  have hppc : (s.mem p).__rb_parent_color = ctxAddr 0 K + c.bit := hT.2.2.1
  have hpsx : p ≠ sx := by
    have hnd' := hnd
    simp only [Tree.inorder, List.nodup_append, List.nodup_cons, List.disjoint_append_left,
      List.disjoint_append_right, List.disjoint_cons_left, List.disjoint_cons_right,
      List.mem_append, List.mem_cons, not_or] at hnd'
    first
    | exact (ne_pair (by simp only [hnd', not_false_eq_true])).1
    | exact (ne_pair (by simp only [hnd', not_false_eq_true])).2
  unfold erase_color_right_tail_checked
  simp only [hfar, hnear]
  cases hSfc : Sf.color with
  | red =>
    -- Case 4
    rw [if_neg (by rw [is_black_addr hRepSf hsx4, hSfc]; simp)]
    cases Sf with
    | nil => simp at hSfc
    | node cf Sfl sf Sfr =>
      simp only [color_node] at hSfc
      subst hSfc
      rw [Valid_node] at hSfv
      obtain ⟨hf1, hf2, hf3, hf4⟩ := hSfv
      obtain ⟨hf1a, hf1b⟩ := hf1 rfl
      simp only [bh_node, bit_red, Nat.add_zero] at hSf
      have hs := erase_case4_right_spec rot h
      refine ⟨_, _, case4_right_checked_eq rot _ _ _ _ hRepSf.1, hs, ?_,
        by simp [inorder_plug, Tree.inorder]⟩
      rw [RB_plug]
      refine ⟨?_, ?_, htop⟩
      · simp [Valid_node, hNv, hSnv, hf3, hf4] <;> omega
      · simp only [bh_node, bit_black]
        first
        | exact hK
        | (rw [hSn]; exact hK)
        | (rw [hSf]; exact hK)
        | (rw [hf2, hSf]; exact hK)
        | (rw [← hf2, hSf]; exact hK)
  | black =>
    rw [if_pos (by rw [is_black_addr hRepSf hsx4, hSfc])]
    cases hSnc : Sn.color with
    | red =>
      -- Case 3 then Case 4
      rw [if_neg (by rw [is_black_addr hRepSn hsx4, hSnc]; simp)]
      cases Sn with
      | nil => simp at hSnc
      | node cn Snl sn Snr =>
        simp only [color_node] at hSnc
        subst hSnc
        rw [Valid_node] at hSnv
        obtain ⟨hn1, hn2, hn3, hn4⟩ := hSnv
        obtain ⟨hn1a, hn1b⟩ := hn1 rfl
        simp only [bh_node, bit_red, Nat.add_zero] at hSn
        have hs := erase_case34_right_spec rot h (by first | exact hn1a | exact hn1b)
        refine ⟨_, _, case4_right_checked_eq rot _ _ _ _ hRepS.1, hs, ?_,
          by simp [inorder_plug, Tree.inorder]⟩
        rw [RB_plug]
        refine ⟨?_, ?_, htop⟩
        · simp [Valid_node, hNv, hSfv, hn3, hn4] <;> omega
        · simp only [bh_node, bit_black]
          first
          | exact hK
          | (rw [hSn]; exact hK)
          | (rw [hSf]; exact hK)
          | (rw [hn2, hSn]; exact hK)
          | (rw [← hn2, hSn]; exact hK)
    | black =>
      -- Case 2
      rw [if_pos (by rw [is_black_addr hRepSn hsx4, hSnc])]
      unfold erase_case2
      have hpc2 : ((chx_rb_set_parent_color s sx p CHX_RB_RED).mem p).__rb_parent_color
          = ctxAddr 0 K + c.bit := by
        simp [chx_rb_set_parent_color, hpsx, hppc]
      have hred := is_red_of_word hpar hpc2
      have hparent : chx_rb_parent (chx_rb_set_parent_color s sx p CHX_RB_RED) p
          = ctxAddr 0 K := by
        rw [chx_rb_parent, hpc2, parent_of_word c hpar]
      simp only [hred, hparent]
      cases c with
      | red =>
        have hs := erase_case2_right_red_spec h
        refine ⟨_, _, by simp, hs, ?_, by simp [inorder_plug, Tree.inorder]⟩
        rw [RB_plug]
        refine ⟨?_, ?_, topColorOK_black K⟩
        · simp [Valid_node, hNv, hSnv, hSfv, hSnc, hSfc] <;> omega
        · simp only [bh_node, bit_black]
          first
          | simpa using hK
          | (rw [hSn]; simpa using hK)
          | (rw [hSf]; simpa using hK)
      | black =>
        have hs := erase_case2_right_spec h
        have hN1v : Tree.Valid (.node .black (.node .red Sf sx Sn) p N) := by
          simp [Valid_node, hNv, hSnv, hSfv, hSnc, hSfc] <;> omega
        have hN1bh : Tree.bh (.node .black (.node .red Sf sx Sn) p N) = N.bh + 1 := by
          simp only [bh_node, bit_black, bit_red, Nat.add_zero] <;> omega
        by_cases hK0 : K = []
        · subst hK0
          refine ⟨_, _, by simp [ctxAddr], hs, ?_, by simp [inorder_plug, Tree.inorder]⟩
          rw [RB_plug]
          exact ⟨hN1v, trivial, rfl⟩
        · have hne : ctxAddr 0 K ≠ 0 := fun e => hK0 ((RepCtx_ctxAddr_ne_zero hk).1 e)
          obtain ⟨s', t', e1, e2, e3, e4⟩ := hloop rfl hK0 _ _ hs rfl hN1v hN1bh
          refine ⟨s', t', ?_, e2, e3, e4.trans (by simp [inorder_plug, Tree.inorder])⟩
          simpa [hne] using e1

/-- The erase fix-up loop with checked dereferences, entered at a subtree `N`
whose black height is one less than its context expects, terminates, meets no
null pointer and restores the invariants. -/
theorem erase_loop_checked_spec (rot : Callback α) : ∀ (fuel : Nat) (K : Ctx) (N : Tree) (s : State α),
    K ≠ [] → K.length ≤ fuel → WF s (plug K N) → N.Valid → CtxOK K (N.bh + 1) →
    ∃ s' t', ____chx_rb_erase_color_loop_checked rot fuel s N.addr (ctxAddr 0 K) = some s' ∧
      WF s' t' ∧ t'.RB ∧ t'.inorder = (plug K N).inorder := by
  intro fuel
  induction fuel with
  | zero =>
    intro K N s hK0 hlen
    cases K with
    | nil => exact absurd rfl hK0
    | cons f K' => simp at hlen
  | succ fuel ih =>
    intro K N s hK0 hlen h hNv hK
    cases K with
    | nil => exact absurd rfl hK0
    | cons f K' =>
      cases f with
      | left c p S =>
        simp only [CtxOK] at hK
        obtain ⟨hS1, hS2, hS3, hS4, hS5⟩ := hK
        cases S with
        | nil => simp at hS1
        | node cs Sn sx Sf =>
          have h' : WF s (plug K' (.node c N p (.node cs Sn sx Sf))) := h
          rw [Valid_node] at hS2
          obtain ⟨hS2a, hS2b, hS2c, hS2d⟩ := hS2
          simp only [bh_node] at hS1
          simp only [ctxAddr, Frame.addr]
          cases cs with
          | red =>
            have hc : c = .black := by
              cases c
              · exact absurd (hS3 rfl) (by simp)
              · rfl
            subst hc
            obtain ⟨hSnc, hSfc⟩ : Sn.color = .black ∧ Sf.color = .black := by
              have := hS2a rfl
              tauto
            simp only [bit_red, Nat.add_zero, bit_black] at hS1 hS5
            cases Sn with
            | nil => exfalso; simp only [bh_nil] at hS1 hS2b; omega
            | node cn Snl sn Snr =>
              simp only [color_node] at hSnc
              subst hSnc
              rw [Valid_node] at hS2c
              obtain ⟨hn1, hn2, hn3, hn4⟩ := hS2c
              simp only [bh_node, bit_black] at hS1 hS2b
              have hs1 := erase_case1_left_spec rot h'
              have hr2 : (erase_case1_left rot s p sx).2 = sn := by
                obtain ⟨-, hT, -⟩ := WF_plug'.1 h'
                simp only [Rep, addr_node] at hT
                simp only [erase_case1_left]
                tauto
              rw [erase_step_left_checked_red rot fuel h']
              have hs1' : WF (erase_case1_left rot s p sx).1
                  (plug (.left .black sx Sf :: K') (.node .red N p (.node .black Snl sn Snr))) := hs1
              obtain ⟨s', t', e1, e2, e3, e4⟩ := erase_left_tail_checked_spec rot
                (____chx_rb_erase_color_loop_checked rot fuel) hs1' hNv
                (by first | exact hn3 | exact hn4) (by first | exact hn4 | exact hn3)
                (by omega) (by omega) (fun _ => rfl)
                (by
                  simp only [CtxOK, bit_red, bit_black, Nat.add_zero]
                  refine ⟨by omega, by first | exact hS2d | exact hS2c, by simp,
                    topColorOK_black K', hS5⟩)
                (fun hcc => by cases hcc)
              exact ⟨s', t', e1, e2, e3, e4.trans (by simp [inorder_plug, Tree.inorder, plug])⟩
          | black =>
            simp only [bit_black] at hS1
            rw [erase_step_left_checked_black rot fuel h']
            obtain ⟨s', t', e1, e2, e3, e4⟩ := erase_left_tail_checked_spec rot
              (____chx_rb_erase_color_loop_checked rot fuel) h' hNv
              (by first | exact hS2c | exact hS2d) (by first | exact hS2d | exact hS2c)
              (by omega) (by omega) hS4 hS5
              (fun hcc hKn s1 N1 hw _ hv hb => by
                subst hcc
                exact ih K' N1 s1 hKn (by simp only [List.length_cons] at hlen; omega) hw hv
                  (by rw [hb]; exact hS5))
            exact ⟨s', t', e1, e2, e3, e4.trans (by simp [inorder_plug, Tree.inorder, plug])⟩
      | right c S p =>
        simp only [CtxOK] at hK
        obtain ⟨hS1, hS2, hS3, hS4, hS5⟩ := hK
        cases S with
        | nil => simp at hS1
        | node cs Sf sx Sn =>
          have h' : WF s (plug K' (.node c (.node cs Sf sx Sn) p N)) := h
          rw [Valid_node] at hS2
          obtain ⟨hS2a, hS2b, hS2c, hS2d⟩ := hS2
          simp only [bh_node] at hS1
          simp only [ctxAddr, Frame.addr]
          cases cs with
          | red =>
            have hc : c = .black := by
              cases c
              · exact absurd (hS3 rfl) (by simp)
              · rfl
            subst hc
            obtain ⟨hSnc, hSfc⟩ : Sn.color = .black ∧ Sf.color = .black := by
              have := hS2a rfl
              tauto
            simp only [bit_red, Nat.add_zero, bit_black] at hS1 hS5
            cases Sn with
            | nil => exfalso; simp only [bh_nil] at hS1 hS2b; omega
            | node cn Snl sn Snr =>
              simp only [color_node] at hSnc
              subst hSnc
              rw [Valid_node] at hS2d
              obtain ⟨hn1, hn2, hn3, hn4⟩ := hS2d
              simp only [bh_node, bit_black] at hS1 hS2b
              have hs1 := erase_case1_right_spec rot h'
              have hr2 : (erase_case1_right rot s p sx).2 = sn := by
                obtain ⟨-, hT, -⟩ := WF_plug'.1 h'
                simp only [Rep, addr_node] at hT
                simp only [erase_case1_right]
                tauto
              rw [erase_step_right_checked_red rot fuel h']
              have hs1' : WF (erase_case1_right rot s p sx).1
                  (plug (.right .black Sf sx :: K') (.node .red (.node .black Snl sn Snr) p N)) := hs1
              obtain ⟨s', t', e1, e2, e3, e4⟩ := erase_right_tail_checked_spec rot
                (____chx_rb_erase_color_loop_checked rot fuel) hs1' hNv
                (by first | exact hn3 | exact hn4) (by first | exact hn4 | exact hn3)
                (by omega) (by omega) (fun _ => rfl)
                (by
                  simp only [CtxOK, bit_red, bit_black, Nat.add_zero]
                  refine ⟨by omega, by first | exact hS2d | exact hS2c, by simp,
                    topColorOK_black K', hS5⟩)
                (fun hcc => by cases hcc)
              exact ⟨s', t', e1, e2, e3, e4.trans (by simp [inorder_plug, Tree.inorder, plug])⟩
          | black =>
            simp only [bit_black] at hS1
            rw [erase_step_right_checked_black rot fuel h']
            obtain ⟨s', t', e1, e2, e3, e4⟩ := erase_right_tail_checked_spec rot
              (____chx_rb_erase_color_loop_checked rot fuel) h' hNv
              (by first | exact hS2c | exact hS2d) (by first | exact hS2d | exact hS2c)
              (by omega) (by omega) hS4 hS5
              (fun hcc hKn s1 N1 hw _ hv hb => by
                subst hcc
                exact ih K' N1 s1 hKn (by simp only [List.length_cons] at hlen; omega) hw hv
                  (by rw [hb]; exact hS5))
            exact ⟨s', t', e1, e2, e3, e4.trans (by simp [inorder_plug, Tree.inorder, plug])⟩


/-! ## The checked fix-up agrees with the fix-up -/

theorem deref_eq_some {β : Type} {p : Nat} {k : Option β} {r : β} (h : deref p k = some r) :
    p ≠ 0 ∧ k = some r := by
  unfold deref at h
  split_ifs at h with hp
  exact ⟨hp, h⟩

theorem erase_case2_sound {lc lu : State α → Nat → Nat → Option (State α)}
    (hl : ∀ s a b r, lc s a b = some r → lu s a b = some r) {s : State α} {p sx : Nat}
    {r : State α} (h : erase_case2 lc s p sx = some r) : erase_case2 lu s p sx = some r := by
  unfold erase_case2 at h ⊢
  simp only at h ⊢
  split_ifs at h ⊢
  · exact h
  · exact hl _ _ _ _ h
  · exact h

theorem left_tail_checked_sound (rot : Callback α)
    {lc lu : State α → Nat → Nat → Option (State α)}
    (hl : ∀ s a b r, lc s a b = some r → lu s a b = some r) {s : State α} {p sx : Nat}
    {r : State α} (h : erase_color_left_tail_checked rot lc s p sx = some r) :
    erase_color_left_tail rot lu s p sx = some r := by
  unfold erase_color_left_tail_checked at h
  unfold erase_color_left_tail
  simp only at h ⊢
  split_ifs at h ⊢
  · exact erase_case2_sound hl h
  · exact (deref_eq_some h).2
  · exact (deref_eq_some h).2

theorem right_tail_checked_sound (rot : Callback α)
    {lc lu : State α → Nat → Nat → Option (State α)}
    (hl : ∀ s a b r, lc s a b = some r → lu s a b = some r) {s : State α} {p sx : Nat}
    {r : State α} (h : erase_color_right_tail_checked rot lc s p sx = some r) :
    erase_color_right_tail rot lu s p sx = some r := by
  unfold erase_color_right_tail_checked at h
  unfold erase_color_right_tail
  simp only at h ⊢
  split_ifs at h ⊢
  · exact erase_case2_sound hl h
  · exact (deref_eq_some h).2
  · exact (deref_eq_some h).2

/-- A run of the checked loop that returns is a run of the loop with the same
result. -/
theorem loop_checked_sound (rot : Callback α) : ∀ (fuel : Nat) (s : State α) (node parent : Nat)
    (r : State α), ____chx_rb_erase_color_loop_checked rot fuel s node parent = some r →
    ____chx_rb_erase_color_loop rot fuel s node parent = some r := by
  intro fuel
  induction fuel with
  | zero =>
    intro s node parent r h
    simp [____chx_rb_erase_color_loop_checked] at h
  | succ fuel ih =>
    intro s node parent r h
    rw [____chx_rb_erase_color_loop_checked] at h
    rw [____chx_rb_erase_color_loop]
    obtain ⟨-, h⟩ := deref_eq_some h
    by_cases hns : node = (s.mem parent).rb_right
    · simp only [ne_eq, hns, not_true_eq_false, if_false] at h ⊢
      obtain ⟨-, h⟩ := deref_eq_some h
      by_cases hred : chx_rb_is_red s (s.mem parent).rb_left = true
      · simp only [hred, if_true] at h ⊢
        cases hd : erase_case1_right_checked rot s parent (s.mem parent).rb_left with
        | none => rw [hd] at h; cases h
        | some q =>
          rw [hd] at h
          unfold erase_case1_right_checked at hd
          obtain ⟨-, hq⟩ := deref_eq_some hd
          cases hq
          obtain ⟨-, h⟩ := deref_eq_some h
          exact right_tail_checked_sound rot (ih) h
      · simp only [hred, if_false] at h ⊢
        obtain ⟨-, h⟩ := deref_eq_some h
        exact right_tail_checked_sound rot (ih) h
    · simp only [ne_eq, hns, not_false_eq_true, if_true] at h ⊢
      obtain ⟨-, h⟩ := deref_eq_some h
      by_cases hred : chx_rb_is_red s (s.mem parent).rb_right = true
      · simp only [hred, if_true] at h ⊢
        cases hd : erase_case1_left_checked rot s parent (s.mem parent).rb_right with
        | none => rw [hd] at h; cases h
        | some q =>
          rw [hd] at h
          unfold erase_case1_left_checked at hd
          obtain ⟨-, hq⟩ := deref_eq_some hd
          cases hq
          obtain ⟨-, h⟩ := deref_eq_some h
          exact left_tail_checked_sound rot (ih) h
      · simp only [hred, if_false] at h ⊢
        obtain ⟨-, h⟩ := deref_eq_some h
        exact left_tail_checked_sound rot (ih) h

/-- The guards of the checked loop are real: entered at a leaf, where the
parent has no other child, the checked loop stops at the null sibling while
the loop without checks reads through it. -/
theorem checked_loop_stops_at_null :
    (____chx_rb_erase_color_loop_checked dummy_rotate 1 demo_pair 0 12).isSome = false ∧
    (____chx_rb_erase_color_loop dummy_rotate 1 demo_pair 0 12).isSome = true := by
  decide

/-- Claim C38.  The state holds a red-black tree and `n` is one of its nodes.
The erase whose fix-up runs with checked dereferences stops with no result at a
null `parent`, at a null sibling whose colour is read, at a null near child of a
red sibling whose parent-and-colour word is written in Case 1, and at a null far
child that is painted black in Case 4.  It returns a result, the result of
`chx_rb_erase`: none of these pointers is null when the fix-up is entered from
`chx_rb_erase`. -/
theorem erase_fixup_dereferences (s : State α) (t : Tree) (n fuel : Nat)
    (hwf : WF s t) (hrb : t.RB) (hn : n ∈ t.inorder) (hfuel : t.height ≤ fuel) :
    ∃ s' t', chx_rb_erase_checked fuel s n = some s' ∧ chx_rb_erase fuel s n = some s' ∧
      WF s' t' ∧ t'.RB := by
  obtain ⟨k, c, l, r, e⟩ := mem_split_plug t n hn
  subst e
  obtain ⟨σ, reb, K, C, e1, hσ, hlenK, hio, hcase⟩ :=
    splice_spec dummy_callbacks fuel hwf hrb hfuel
  unfold chx_rb_erase_checked chx_rb_erase
  rw [e1]
  rcases hcase with ⟨h0, hRB⟩ | ⟨h1, h2, h3, h4, h5⟩
  · subst h0
    exact ⟨σ, _, by simp, by simp, hσ, hRB⟩
  · subst h3
    obtain ⟨s', t', f1, f2, f3, -⟩ :=
      erase_loop_checked_spec dummy_rotate fuel K .nil σ h4 hlenK hσ Valid_nil h5
    have f1' := loop_checked_sound dummy_rotate fuel σ _ _ s' f1
    refine ⟨s', t', ?_, ?_, f2, f3⟩
    · simp only [ne_eq, h2, not_false_eq_true, if_true]
      rw [h1]
      exact f1
    · simp only [ne_eq, h2, not_false_eq_true, if_true]
      rw [h1]
      exact f1'

theorem erase_fixup_dereferences_witness :
    WF demo_four demo_four_tree ∧ demo_four_tree.RB ∧ 4 ∈ demo_four_tree.inorder ∧
    ∃ s' t', chx_rb_erase_checked 3 demo_four 4 = some s' ∧ chx_rb_erase 3 demo_four 4 = some s' ∧
      WF s' t' ∧ t'.RB :=
  ⟨by decide, by decide, by decide,
    erase_fixup_dereferences demo_four demo_four_tree 4 3 (by decide) (by decide) (by decide)
      (by decide)⟩


/-! ## Child links only: shape, descent and cycles -/

theorem Shape_addr {m : Nat → chx_rb_node} : ∀ {t : Tree} {a : Nat}, Shape m t a → a = t.addr
  | .nil, _, h => h
  | .node _ _ _ _, _, h => h.1

theorem Rep_Shape {m : Nat → chx_rb_node} : ∀ (t : Tree) (par : Nat), Rep m t par →
    Shape m t t.addr
  | .nil, _, _ => rfl
  | .node c l a r, par, h => by
    obtain ⟨h1, h2, h3, h4, h5, h6, h7⟩ := h
    refine ⟨rfl, h1, ?_, ?_⟩
    · rw [h4]
      exact Rep_Shape l a h6
    · rw [h5]
      exact Rep_Shape r a h7

theorem WF.shape {s : State α} {t : Tree} (h : WF s t) : Shape s.mem t s.rb_node := by
  rw [h.1]
  exact Rep_Shape t 0 h.2.1

theorem Shape_congr {m m' : Nat → chx_rb_node} : ∀ (t : Tree) (a : Nat),
    (∀ x ∈ t.inorder, (m' x).rb_left = (m x).rb_left ∧ (m' x).rb_right = (m x).rb_right) →
    Shape m t a → Shape m' t a
  | .nil, _, _, h => h
  | .node c l x r, a, hx, h => by
    obtain ⟨h1, h2, h3, h4⟩ := h
    have e := hx x (by simp [Tree.inorder])
    refine ⟨h1, h2, ?_, ?_⟩
    · rw [e.1]
      exact Shape_congr l _ (fun y hy => hx y (by simp [Tree.inorder, hy])) h3
    · rw [e.2]
      exact Shape_congr r _ (fun y hy => hx y (by simp [Tree.inorder, hy])) h4

theorem Shape_mem_congr {m m' : Nat → chx_rb_node} (t : Tree) (a : Nat)
    (h : ∀ x ∈ t.inorder, m' x = m x) : Shape m' t a ↔ Shape m t a :=
  ⟨Shape_congr t a (fun x hx => by rw [h x hx]; exact ⟨rfl, rfl⟩),
    Shape_congr t a (fun x hx => by rw [h x hx]; exact ⟨rfl, rfl⟩)⟩

@[simp] theorem Shape_store_pc {s : State α} {a v : Nat} {t : Tree} {p : Nat} :
    Shape (s.store_pc a v).mem t p ↔ Shape s.mem t p := by
  have e : ∀ x, ((s.store_pc a v).mem x).rb_left = (s.mem x).rb_left ∧
      ((s.store_pc a v).mem x).rb_right = (s.mem x).rb_right := by
    intro x
    simp only [State.store_pc]
    split_ifs with hx
    · subst hx
      exact ⟨rfl, rfl⟩
    · exact ⟨rfl, rfl⟩
  exact ⟨Shape_congr t p (fun x _ => ⟨(e x).1.symm, (e x).2.symm⟩), Shape_congr t p (fun x _ => e x)⟩

theorem Shape_store_left {s : State α} {a v : Nat} {t : Tree} {p : Nat} (h : a ∉ t.inorder) :
    Shape (s.store_left a v).mem t p ↔ Shape s.mem t p :=
  Shape_mem_congr t p (fun x hx => store_left_mem_ne (fun e => h (e ▸ hx)))

theorem Shape_store_right {s : State α} {a v : Nat} {t : Tree} {p : Nat} (h : a ∉ t.inorder) :
    Shape (s.store_right a v).mem t p ↔ Shape s.mem t p :=
  Shape_mem_congr t p (fun x hx => store_right_mem_ne (fun e => h (e ▸ hx)))

theorem Shape_copy_node {s : State α} {a v : Nat} {t : Tree} {p : Nat} (h : a ∉ t.inorder) :
    Shape (s.copy_node a v).mem t p ↔ Shape s.mem t p :=
  Shape_mem_congr t p (fun x hx => by
    have : x ≠ a := fun e => h (e ▸ hx)
    simp [State.copy_node, this])

theorem ShapeCtx_congr {m m' : Nat → chx_rb_node} {top : Nat} : ∀ (k : Ctx) (p : Nat),
    (∀ x ∈ ctxNodes k, (m' x).rb_left = (m x).rb_left ∧ (m' x).rb_right = (m x).rb_right) →
    ShapeCtx m top k p → ShapeCtx m' top k p
  | [], _, _, h => h
  | .left c a r :: k, p, hx, h => by
    obtain ⟨h1, h2, h3, h4⟩ := h
    have e := hx a (mem_ctxNodes_left.2 (Or.inl rfl))
    refine ⟨h1, by rw [e.1]; exact h2, ?_, ?_⟩
    · rw [e.2]
      exact Shape_congr r _ (fun y hy => hx y (mem_ctxNodes_left.2 (Or.inr (Or.inl hy)))) h3
    · exact ShapeCtx_congr k a (fun y hy => hx y (mem_ctxNodes_left.2 (Or.inr (Or.inr hy)))) h4
  | .right c l a :: k, p, hx, h => by
    obtain ⟨h1, h2, h3, h4⟩ := h
    have e := hx a (mem_ctxNodes_right.2 (Or.inl rfl))
    refine ⟨h1, by rw [e.2]; exact h2, ?_, ?_⟩
    · rw [e.1]
      exact Shape_congr l _ (fun y hy => hx y (mem_ctxNodes_right.2 (Or.inr (Or.inl hy)))) h3
    · exact ShapeCtx_congr k a (fun y hy => hx y (mem_ctxNodes_right.2 (Or.inr (Or.inr hy)))) h4

theorem RepCtx_ShapeCtx {m : Nat → chx_rb_node} {top par0 : Nat} : ∀ (k : Ctx) (p : Nat),
    RepCtx m top par0 k p → ShapeCtx m top k p
  | [], _, h => h
  | .left c a r :: k, p, h => by
    obtain ⟨h1, h2, h3, h4, h5, h6, h7⟩ := h
    exact ⟨h1, h4, by rw [h5]; exact Rep_Shape r a h6, RepCtx_ShapeCtx k a h7⟩
  | .right c l a :: k, p, h => by
    obtain ⟨h1, h2, h3, h4, h5, h6, h7⟩ := h
    exact ⟨h1, h5, by rw [h4]; exact Rep_Shape l a h6, RepCtx_ShapeCtx k a h7⟩

theorem Shape_plug {m : Nat → chx_rb_node} {top : Nat} : ∀ (k : Ctx) (t : Tree) (p : Nat),
    ShapeCtx m top k p → Shape m t p → Shape m (plug k t) top
  | [], t, p, hk, ht => by
    have e : top = p := hk
    subst e
    exact ht
  | .left c a r :: k, t, p, hk, ht =>
    Shape_plug k (.node c t a r) a hk.2.2.2 ⟨rfl, hk.1, by rw [hk.2.1]; exact ht, hk.2.2.1⟩
  | .right c l a :: k, t, p, hk, ht =>
    Shape_plug k (.node c l a t) a hk.2.2.2 ⟨rfl, hk.1, hk.2.2.1, by rw [hk.2.1]; exact ht⟩

/-- A state that differs from `s` only inside the subtree in the hole of `k`
holds, as far as the child links go, the context `k` around whatever shape it
holds at the pointer of the hole. -/
theorem Shape_local {s s' : State α} {k : Ctx} {p : Nat} {U : Tree}
    (hk : RepCtx s.mem s.rb_node 0 k p)
    (hroot : s'.rb_node = s.rb_node) (hframe : ∀ x ∈ ctxNodes k, s'.mem x = s.mem x)
    (hU : Shape s'.mem U p) : Shape s'.mem (plug k U) s'.rb_node := by
  rw [hroot]
  refine Shape_plug k U p ?_ hU
  exact ShapeCtx_congr k p (fun x hx => by rw [hframe x hx]; exact ⟨rfl, rfl⟩)
    (RepCtx_ShapeCtx k p hk)

/-- A state with the child links and the root of a state that holds a tree. -/
theorem Shape_of_WF {s σ : State α} {t : Tree} (h : WF s t) (hroot : σ.rb_node = s.rb_node)
    (hl : ∀ x, (σ.mem x).rb_left = (s.mem x).rb_left ∧ (σ.mem x).rb_right = (s.mem x).rb_right) :
    Shape σ.mem t σ.rb_node := by
  rw [hroot]
  exact Shape_congr t _ (fun x _ => hl x) h.shape

/-! ### Descents -/

theorem descends_succ {m : Nat → chx_rb_node} : ∀ (d a : Nat), descends m d a = true →
    descends m (d + 1) a = true
  | 0, a, h => by
    simp only [descends] at h ⊢
    simp [h]
  | d + 1, a, h => by
    rw [descends] at h ⊢
    simp only [Bool.or_eq_true, Bool.and_eq_true] at h ⊢
    rcases h with h | ⟨h1, h2⟩
    · exact Or.inl h
    · exact Or.inr ⟨descends_succ d _ h1, descends_succ d _ h2⟩

theorem descends_mono {m : Nat → chx_rb_node} {d e a : Nat} (hde : d ≤ e)
    (h : descends m d a = true) : descends m e a = true := by
  induction hde with
  | refl => exact h
  | step _ ih => exact descends_succ _ _ ih

theorem Shape_descends {m : Nat → chx_rb_node} : ∀ (t : Tree) (a : Nat), Shape m t a →
    descends m t.height a = true
  | .nil, a, h => by
    have e : a = 0 := h
    subst e
    rfl
  | .node c l x r, a, h => by
    obtain ⟨h1, h2, h3, h4⟩ := h
    subst h1
    simp only [Tree.height, descends, Bool.or_eq_true, Bool.and_eq_true]
    exact Or.inr ⟨descends_mono (Nat.le_max_left _ _) (Shape_descends l _ h3),
      descends_mono (Nat.le_max_right _ _) (Shape_descends r _ h4)⟩

theorem descends_child {m : Nat → chx_rb_node} {d a : Nat} (h : descends m d a = true)
    (ha : a ≠ 0) : ∃ e, d = e + 1 ∧ descends m e (m a).rb_left = true ∧
      descends m e (m a).rb_right = true := by
  cases d with
  | zero =>
    simp only [descends, beq_iff_eq] at h
    exact absurd h ha
  | succ e =>
    rw [descends] at h
    simp only [Bool.or_eq_true, Bool.and_eq_true, beq_iff_eq] at h
    rcases h with h | h
    · exact absurd h ha
    · exact ⟨e, rfl, h⟩

theorem descends_reach {m : Nat → chx_rb_node} {a b : Nat} (hr : Reach m a b) :
    ∀ d, descends m d a = true → b ≠ 0 → ∃ e, e ≤ d ∧ descends m e b = true := by
  induction hr with
  | refl => intro d h _; exact ⟨d, Nat.le_refl _, h⟩
  | left hab hb ih =>
    intro d h hc
    obtain ⟨e, he, hd⟩ := ih d h hb
    obtain ⟨e', rfl, h1, -⟩ := descends_child hd hb
    exact ⟨e', by omega, h1⟩
  | right hab hb ih =>
    intro d h hc
    obtain ⟨e, he, hd⟩ := ih d h hb
    obtain ⟨e', rfl, -, h2⟩ := descends_child hd hb
    exact ⟨e', by omega, h2⟩

theorem reach_zero {m : Nat → chx_rb_node} {a b : Nat} (hr : Reach m a b) : a = 0 → b ≠ 0 →
    False := by
  induction hr with
  | refl => intro h0 hb; exact hb h0
  | left hab hb ih => intro h0 _; exact ih h0 hb
  | right hab hb ih => intro h0 _; exact ih h0 hb

/-- A node from which every descent ends is not reached again from one of its
own child links. -/
theorem descends_no_cycle {m : Nat → chx_rb_node} : ∀ (d a : Nat), descends m d a = true →
    a ≠ 0 → ¬ Reach m (m a).rb_left a ∧ ¬ Reach m (m a).rb_right a := by
  intro d
  induction d using Nat.strong_induction_on with
  | _ d ih =>
    intro a h ha
    obtain ⟨e, rfl, h1, h2⟩ := descends_child h ha
    constructor
    · intro hr
      obtain ⟨e', he', hd⟩ := descends_reach hr e h1 ha
      exact (ih e' (by omega) a hd ha).1 hr
    · intro hr
      obtain ⟨e', he', hd⟩ := descends_reach hr e h2 ha
      exact (ih e' (by omega) a hd ha).2 hr

/-- A state whose child links below the root have the shape of a tree has no
cycle below the root, and every descent from the root ends within the height
of the tree. -/
theorem Acyclic_of_Shape {s : State α} {t : Tree} (h : Shape s.mem t s.rb_node) : Acyclic s := by
  have hd := Shape_descends t _ h
  refine ⟨?_, t.height, hd⟩
  intro a ha hr
  obtain ⟨e, -, he⟩ := descends_reach hr _ hd ha
  exact descends_no_cycle e a he ha

/-- The predicate is not trivial: a root that is its own left child is a
cycle. -/
theorem demo_cycle_not_acyclic : ¬ Acyclic demo_cycle := by
  intro h
  exact (h.1 8 (by decide) (Reach.refl 8)).1 (Reach.refl 8)


/-! ## Stores inside a subtree and redirections of the link above it -/

theorem Shape_mem_ne_zero {m : Nat → chx_rb_node} : ∀ (t : Tree) (a : Nat), Shape m t a →
    ∀ x ∈ t.inorder, x ≠ 0
  | .nil, _, _, x, hx => by simp [Tree.inorder] at hx
  | .node c l y r, a, h, x, hx => by
    obtain ⟨h1, h2, h3, h4⟩ := h
    simp only [Tree.inorder, List.mem_append, List.mem_cons] at hx
    rcases hx with hx | rfl | hx
    · exact Shape_mem_ne_zero l _ h3 x hx
    · exact h2
    · exact Shape_mem_ne_zero r _ h4 x hx

/-- A state that differs from `s` only inside the subtree `T` below the context
`k`, and whose child links hold the shape `U` at the address of `T`, has no
cycle below the root. -/
theorem Acyclic_local {s s' : State α} {k : Ctx} {T U : Tree}
    (hk : RepCtx s.mem s.rb_node 0 k T.addr)
    (hroot : s'.rb_node = s.rb_node) (hframe : ∀ x ∈ ctxNodes k, s'.mem x = s.mem x)
    (hU : Shape s'.mem U T.addr) : Acyclic s' :=
  Acyclic_of_Shape (t := plug k U) (Shape_local hk hroot hframe hU)

/-- A state that differs from `s` only inside the subtree `T` below the context
`k`, whose child links hold the shape `U` somewhere, and in which the link above
`T` is then redirected to `U`, has no cycle below the root. -/
theorem Acyclic_change_child {s s' : State α} {k : Ctx} {T U : Tree}
    (hk : RepCtx s.mem s.rb_node 0 k T.addr)
    (hnd : (T.inorder ++ ctxNodes k).Nodup) (hT0 : T.addr ≠ 0) (hTn : T ≠ .nil)
    (hroot : s'.rb_node = s.rb_node) (hframe : ∀ x ∈ ctxNodes k, s'.mem x = s.mem x)
    (hU : Shape s'.mem U U.addr)
    (hsub : ∀ x ∈ U.inorder, x ∈ T.inorder) :
    Acyclic (__chx_rb_change_child s' T.addr U.addr (ctxAddr 0 k)) := by
  rw [List.nodup_append] at hnd
  obtain ⟨n1, n2, n3⟩ := hnd
  have hk' : RepCtx s'.mem s'.rb_node 0 k T.addr := by
    rw [hroot]
    exact RepCtx_congr k _ hframe hk
  have hmem : T.addr ∉ ctxNodes k := fun h => n3 (addr_mem_inorder T hTn) h
  refine Acyclic_of_Shape (t := plug k U) ?_
  refine Shape_plug k U U.addr (RepCtx_ShapeCtx k _ (RepCtx_change_child hk' n2 hT0 hmem)) ?_
  refine (Shape_mem_congr U _ (fun x hx => change_child_mem_ne ?_)).2 hU
  intro e
  by_cases hk0 : k = []
  · subst hk0
    have := Shape_mem_ne_zero U _ hU x hx
    simp [ctxAddr] at e
    exact this e
  · exact n3 (hsub x hx) (e ▸ ctxAddr_mem_ctxNodes k hk0)

theorem Acyclic_change_child_eq {s s' : State α} {k : Ctx} {T U : Tree}
    (hk : RepCtx s.mem s.rb_node 0 k T.addr)
    (hnd : (T.inorder ++ ctxNodes k).Nodup) (hT0 : T.addr ≠ 0) (hTn : T ≠ .nil)
    (hroot : s'.rb_node = s.rb_node) (hframe : ∀ x ∈ ctxNodes k, s'.mem x = s.mem x)
    (hU : Shape s'.mem U U.addr) (hio : U.inorder = T.inorder) :
    Acyclic (__chx_rb_change_child s' T.addr U.addr (ctxAddr 0 k)) :=
  Acyclic_change_child hk hnd hT0 hTn hroot hframe hU (fun x hx => hio ▸ hx)

theorem insert_case3_left_acyclic {s : State α} {k : Ctx} {cg cp : Color}
    {N B U : Tree} {p g : Nat}
    (h : WF s (plug k (.node cg (.node cp N p B) g U))) :
    ∀ σ ∈ insert_case3_left_stores s g p B.addr, Acyclic σ := by
  rw [WF_plug'] at h
  obtain ⟨hk, hT, hnd⟩ := h
  have hpar := RepCtx_ctxAddr_aligned hk
  have hnd0 := hnd
  have hpw := parent_of_word cg hpar
  have hS := Rep_Shape _ _ hT
  intro σ hσ
  simp only [insert_case3_left_stores, List.mem_cons, List.mem_append, List.mem_singleton, List.not_mem_nil, or_false, false_or, or_assoc] at hσ
  cases B with
  | nil =>
    simp only [Tree.inorder, List.nodup_append, List.nodup_cons, List.disjoint_append_left,
          List.disjoint_append_right, List.disjoint_cons_left, List.disjoint_cons_right,
          List.mem_append, List.mem_cons, not_or] at hnd
    simp only [Rep, addr_node, addr_nil, color_node, color_nil] at hT
    simp only [Shape, addr_node, addr_nil, hT] at hS
    have h_g_p : g ≠ p ∧ p ≠ g := by
      first
      | exact ne_pair (by simp only [hnd, not_false_eq_true])
      | exact (ne_pair (by simp only [hnd, not_false_eq_true])).symm
    simp only [__chx_rb_rotate_set_parents, chx_rb_parent, chx_rb_set_parent_color, chx_rb_set_parent, chx_rb_color, chx_rb_set_black, store_pc_pc, store_left_pc, store_right_pc,
          store_pc_left, store_pc_right, store_left_left, store_left_right, store_right_left,
          store_right_right, call_mem, change_child_pc,
          hT, h_g_p, hpw, ne_eq, not_false_eq_true, not_true_eq_false, if_true, if_false,
          ite_true, ite_false, addr_node, addr_nil] at hσ
    rcases hσ with rfl | rfl | rfl
    · refine Acyclic_local (T := .node cg (.node cp N p .nil) g U)
        (U := .node cg .nil g U) hk ?_ ?_ ?_
      · simp
      · intro x hx
        have f0 : x ≠ g := frame_ne hnd0 hx (by simp [Tree.inorder])
        have f1 : x ≠ p := frame_ne hnd0 hx (by simp [Tree.inorder])
        simp [store_pc_mem_ne, store_left_mem_ne, store_right_mem_ne, f0, f1]
      · simp [Shape, Shape_store_left, Shape_store_right, hT, hS, hnd, h_g_p]
    · refine Acyclic_local (T := .node cg (.node cp N p .nil) g U)
        (U := .node cg .nil g U) hk ?_ ?_ ?_
      · simp
      · intro x hx
        have f0 : x ≠ g := frame_ne hnd0 hx (by simp [Tree.inorder])
        have f1 : x ≠ p := frame_ne hnd0 hx (by simp [Tree.inorder])
        simp [store_pc_mem_ne, store_left_mem_ne, store_right_mem_ne, f0, f1]
      · simp [Shape, Shape_store_left, Shape_store_right, hT, hS, hnd, h_g_p]
    · refine Acyclic_change_child_eq (T := .node cg (.node cp N p .nil) g U)
        (U := .node cg N p (.node .red .nil g U)) hk hnd0 hT.1 (by simp) ?_ ?_ ?_ ?_
      · simp
      · intro x hx
        have f0 : x ≠ g := frame_ne hnd0 hx (by simp [Tree.inorder])
        have f1 : x ≠ p := frame_ne hnd0 hx (by simp [Tree.inorder])
        simp [store_pc_mem_ne, store_left_mem_ne, store_right_mem_ne, f0, f1]
      · simp [Shape, Shape_store_left, Shape_store_right, hT, hS, hnd, h_g_p]
      · simp [Tree.inorder]
  | node cB Bl b Br =>
    simp only [Tree.inorder, List.nodup_append, List.nodup_cons, List.disjoint_append_left,
          List.disjoint_append_right, List.disjoint_cons_left, List.disjoint_cons_right,
          List.mem_append, List.mem_cons, not_or] at hnd
    simp only [Rep, addr_node, addr_nil, color_node, color_nil] at hT
    simp only [Shape, addr_node, addr_nil, hT] at hS
    have h_g_p : g ≠ p ∧ p ≠ g := by
      first
      | exact ne_pair (by simp only [hnd, not_false_eq_true])
      | exact (ne_pair (by simp only [hnd, not_false_eq_true])).symm
    have h_g_b : g ≠ b ∧ b ≠ g := by
      first
      | exact ne_pair (by simp only [hnd, not_false_eq_true])
      | exact (ne_pair (by simp only [hnd, not_false_eq_true])).symm
    have h_p_b : p ≠ b ∧ b ≠ p := by
      first
      | exact ne_pair (by simp only [hnd, not_false_eq_true])
      | exact (ne_pair (by simp only [hnd, not_false_eq_true])).symm
    have h0_b : b ≠ 0 := by simp only [hT, ne_eq, not_false_eq_true]
    simp only [__chx_rb_rotate_set_parents, chx_rb_parent, chx_rb_set_parent_color, chx_rb_set_parent, chx_rb_color, chx_rb_set_black, store_pc_pc, store_left_pc, store_right_pc,
          store_pc_left, store_pc_right, store_left_left, store_left_right, store_right_left,
          store_right_right, call_mem, change_child_pc,
          hT, h_g_p, h_g_b, h_p_b, h0_b, hpw, ne_eq, not_false_eq_true, not_true_eq_false, if_true, if_false,
          ite_true, ite_false, addr_node, addr_nil] at hσ
    rcases hσ with rfl | rfl | rfl
    · refine Acyclic_local (T := .node cg (.node cp N p (.node cB Bl b Br)) g U)
        (U := .node cg (.node cB Bl b Br) g U) hk ?_ ?_ ?_
      · simp
      · intro x hx
        have f0 : x ≠ g := frame_ne hnd0 hx (by simp [Tree.inorder])
        have f1 : x ≠ p := frame_ne hnd0 hx (by simp [Tree.inorder])
        have f2 : x ≠ b := frame_ne hnd0 hx (by simp [Tree.inorder])
        simp [store_pc_mem_ne, store_left_mem_ne, store_right_mem_ne, f0, f1, f2]
      · simp [Shape, Shape_store_left, Shape_store_right, hT, hS, hnd, h_g_p, h_g_b, h_p_b, h0_b]
    · refine Acyclic_local (T := .node cg (.node cp N p (.node cB Bl b Br)) g U)
        (U := .node cg (.node cB Bl b Br) g U) hk ?_ ?_ ?_
      · simp
      · intro x hx
        have f0 : x ≠ g := frame_ne hnd0 hx (by simp [Tree.inorder])
        have f1 : x ≠ p := frame_ne hnd0 hx (by simp [Tree.inorder])
        have f2 : x ≠ b := frame_ne hnd0 hx (by simp [Tree.inorder])
        simp [store_pc_mem_ne, store_left_mem_ne, store_right_mem_ne, f0, f1, f2]
      · simp [Shape, Shape_store_left, Shape_store_right, hT, hS, hnd, h_g_p, h_g_b, h_p_b, h0_b]
    · refine Acyclic_change_child_eq (T := .node cg (.node cp N p (.node cB Bl b Br)) g U)
        (U := .node cg N p (.node .red (.node cB Bl b Br) g U)) hk hnd0 hT.1 (by simp) ?_ ?_ ?_ ?_
      · simp
      · intro x hx
        have f0 : x ≠ g := frame_ne hnd0 hx (by simp [Tree.inorder])
        have f1 : x ≠ p := frame_ne hnd0 hx (by simp [Tree.inorder])
        have f2 : x ≠ b := frame_ne hnd0 hx (by simp [Tree.inorder])
        simp [store_pc_mem_ne, store_left_mem_ne, store_right_mem_ne, f0, f1, f2]
      · simp [Shape, Shape_store_left, Shape_store_right, hT, hS, hnd, h_g_p, h_g_b, h_p_b, h0_b]
      · simp [Tree.inorder]

theorem insert_case3_right_acyclic {s : State α} {k : Ctx} {cg cp : Color}
    {N B U : Tree} {p g : Nat}
    (h : WF s (plug k (.node cg U g (.node cp B p N)))) :
    ∀ σ ∈ insert_case3_right_stores s g p B.addr, Acyclic σ := by
  rw [WF_plug'] at h
  obtain ⟨hk, hT, hnd⟩ := h
  have hpar := RepCtx_ctxAddr_aligned hk
  have hnd0 := hnd
  have hpw := parent_of_word cg hpar
  have hS := Rep_Shape _ _ hT
  intro σ hσ
  simp only [insert_case3_right_stores, List.mem_cons, List.mem_append, List.mem_singleton, List.not_mem_nil, or_false, false_or, or_assoc] at hσ
  cases B with
  | nil =>
    simp only [Tree.inorder, List.nodup_append, List.nodup_cons, List.disjoint_append_left,
          List.disjoint_append_right, List.disjoint_cons_left, List.disjoint_cons_right,
          List.mem_append, List.mem_cons, not_or] at hnd
    simp only [Rep, addr_node, addr_nil, color_node, color_nil] at hT
    simp only [Shape, addr_node, addr_nil, hT] at hS
    have h_g_p : g ≠ p ∧ p ≠ g := by
      first
      | exact ne_pair (by simp only [hnd, not_false_eq_true])
      | exact (ne_pair (by simp only [hnd, not_false_eq_true])).symm
    simp only [__chx_rb_rotate_set_parents, chx_rb_parent, chx_rb_set_parent_color, chx_rb_set_parent, chx_rb_color, chx_rb_set_black, store_pc_pc, store_left_pc, store_right_pc,
          store_pc_left, store_pc_right, store_left_left, store_left_right, store_right_left,
          store_right_right, call_mem, change_child_pc,
          hT, h_g_p, hpw, ne_eq, not_false_eq_true, not_true_eq_false, if_true, if_false,
          ite_true, ite_false, addr_node, addr_nil] at hσ
    rcases hσ with rfl | rfl | rfl
    · refine Acyclic_local (T := .node cg U g (.node cp .nil p N))
        (U := .node cg U g .nil) hk ?_ ?_ ?_
      · simp
      · intro x hx
        have f0 : x ≠ g := frame_ne hnd0 hx (by simp [Tree.inorder])
        have f1 : x ≠ p := frame_ne hnd0 hx (by simp [Tree.inorder])
        simp [store_pc_mem_ne, store_left_mem_ne, store_right_mem_ne, f0, f1]
      · simp [Shape, Shape_store_left, Shape_store_right, hT, hS, hnd, h_g_p]
    · refine Acyclic_local (T := .node cg U g (.node cp .nil p N))
        (U := .node cg U g .nil) hk ?_ ?_ ?_
      · simp
      · intro x hx
        have f0 : x ≠ g := frame_ne hnd0 hx (by simp [Tree.inorder])
        have f1 : x ≠ p := frame_ne hnd0 hx (by simp [Tree.inorder])
        simp [store_pc_mem_ne, store_left_mem_ne, store_right_mem_ne, f0, f1]
      · simp [Shape, Shape_store_left, Shape_store_right, hT, hS, hnd, h_g_p]
    · refine Acyclic_change_child_eq (T := .node cg U g (.node cp .nil p N))
        (U := .node cg (.node .red U g .nil) p N) hk hnd0 hT.1 (by simp) ?_ ?_ ?_ ?_
      · simp
      · intro x hx
        have f0 : x ≠ g := frame_ne hnd0 hx (by simp [Tree.inorder])
        have f1 : x ≠ p := frame_ne hnd0 hx (by simp [Tree.inorder])
        simp [store_pc_mem_ne, store_left_mem_ne, store_right_mem_ne, f0, f1]
      · simp [Shape, Shape_store_left, Shape_store_right, hT, hS, hnd, h_g_p]
      · simp [Tree.inorder]
  | node cB Bl b Br =>
    simp only [Tree.inorder, List.nodup_append, List.nodup_cons, List.disjoint_append_left,
          List.disjoint_append_right, List.disjoint_cons_left, List.disjoint_cons_right,
          List.mem_append, List.mem_cons, not_or] at hnd
    simp only [Rep, addr_node, addr_nil, color_node, color_nil] at hT
    simp only [Shape, addr_node, addr_nil, hT] at hS
    have h_g_p : g ≠ p ∧ p ≠ g := by
      first
      | exact ne_pair (by simp only [hnd, not_false_eq_true])
      | exact (ne_pair (by simp only [hnd, not_false_eq_true])).symm
    have h_g_b : g ≠ b ∧ b ≠ g := by
      first
      | exact ne_pair (by simp only [hnd, not_false_eq_true])
      | exact (ne_pair (by simp only [hnd, not_false_eq_true])).symm
    have h_p_b : p ≠ b ∧ b ≠ p := by
      first
      | exact ne_pair (by simp only [hnd, not_false_eq_true])
      | exact (ne_pair (by simp only [hnd, not_false_eq_true])).symm
    have h0_b : b ≠ 0 := by simp only [hT, ne_eq, not_false_eq_true]
    simp only [__chx_rb_rotate_set_parents, chx_rb_parent, chx_rb_set_parent_color, chx_rb_set_parent, chx_rb_color, chx_rb_set_black, store_pc_pc, store_left_pc, store_right_pc,
          store_pc_left, store_pc_right, store_left_left, store_left_right, store_right_left,
          store_right_right, call_mem, change_child_pc,
          hT, h_g_p, h_g_b, h_p_b, h0_b, hpw, ne_eq, not_false_eq_true, not_true_eq_false, if_true, if_false,
          ite_true, ite_false, addr_node, addr_nil] at hσ
    rcases hσ with rfl | rfl | rfl
    · refine Acyclic_local (T := .node cg U g (.node cp (.node cB Bl b Br) p N))
        (U := .node cg U g (.node cB Bl b Br)) hk ?_ ?_ ?_
      · simp
      · intro x hx
        have f0 : x ≠ g := frame_ne hnd0 hx (by simp [Tree.inorder])
        have f1 : x ≠ p := frame_ne hnd0 hx (by simp [Tree.inorder])
        have f2 : x ≠ b := frame_ne hnd0 hx (by simp [Tree.inorder])
        simp [store_pc_mem_ne, store_left_mem_ne, store_right_mem_ne, f0, f1, f2]
      · simp [Shape, Shape_store_left, Shape_store_right, hT, hS, hnd, h_g_p, h_g_b, h_p_b, h0_b]
    · refine Acyclic_local (T := .node cg U g (.node cp (.node cB Bl b Br) p N))
        (U := .node cg U g (.node cB Bl b Br)) hk ?_ ?_ ?_
      · simp
      · intro x hx
        have f0 : x ≠ g := frame_ne hnd0 hx (by simp [Tree.inorder])
        have f1 : x ≠ p := frame_ne hnd0 hx (by simp [Tree.inorder])
        have f2 : x ≠ b := frame_ne hnd0 hx (by simp [Tree.inorder])
        simp [store_pc_mem_ne, store_left_mem_ne, store_right_mem_ne, f0, f1, f2]
      · simp [Shape, Shape_store_left, Shape_store_right, hT, hS, hnd, h_g_p, h_g_b, h_p_b, h0_b]
    · refine Acyclic_change_child_eq (T := .node cg U g (.node cp (.node cB Bl b Br) p N))
        (U := .node cg (.node .red U g (.node cB Bl b Br)) p N) hk hnd0 hT.1 (by simp) ?_ ?_ ?_ ?_
      · simp
      · intro x hx
        have f0 : x ≠ g := frame_ne hnd0 hx (by simp [Tree.inorder])
        have f1 : x ≠ p := frame_ne hnd0 hx (by simp [Tree.inorder])
        have f2 : x ≠ b := frame_ne hnd0 hx (by simp [Tree.inorder])
        simp [store_pc_mem_ne, store_left_mem_ne, store_right_mem_ne, f0, f1, f2]
      · simp [Shape, Shape_store_left, Shape_store_right, hT, hS, hnd, h_g_p, h_g_b, h_p_b, h0_b]
      · simp [Tree.inorder]

theorem insert_case23_left_acyclic (rot : Callback α) {s : State α} {k : Ctx} {cg cp cn : Color}
    {A Nl Nr U : Tree} {p g n : Nat}
    (h : WF s (plug k (.node cg (.node cp A p (.node cn Nl n Nr)) g U))) :
    ∀ σ ∈ insert_case2_left_stores s n p ++
      insert_case3_left_stores (insert_case2_left rot s n p).1 g n (insert_case2_left rot s n p).2, Acyclic σ := by
  rw [WF_plug'] at h
  obtain ⟨hk, hT, hnd⟩ := h
  have hpar := RepCtx_ctxAddr_aligned hk
  have hnd0 := hnd
  have hpw := parent_of_word cg hpar
  have hS := Rep_Shape _ _ hT
  intro σ hσ
  simp only [insert_case2_left_stores, insert_case3_left_stores, insert_case2_left, List.mem_cons, List.mem_append, List.mem_singleton, List.not_mem_nil, or_false, false_or, or_assoc] at hσ
  cases Nl with
  | nil =>
    cases Nr with
    | nil =>
      simp only [Tree.inorder, List.nodup_append, List.nodup_cons, List.disjoint_append_left,
            List.disjoint_append_right, List.disjoint_cons_left, List.disjoint_cons_right,
            List.mem_append, List.mem_cons, not_or] at hnd
      simp only [Rep, addr_node, addr_nil, color_node, color_nil] at hT
      simp only [Shape, addr_node, addr_nil, hT] at hS
      have h_g_p : g ≠ p ∧ p ≠ g := by
        first
        | exact ne_pair (by simp only [hnd, not_false_eq_true])
        | exact (ne_pair (by simp only [hnd, not_false_eq_true])).symm
      have h_g_n : g ≠ n ∧ n ≠ g := by
        first
        | exact ne_pair (by simp only [hnd, not_false_eq_true])
        | exact (ne_pair (by simp only [hnd, not_false_eq_true])).symm
      have h_p_n : p ≠ n ∧ n ≠ p := by
        first
        | exact ne_pair (by simp only [hnd, not_false_eq_true])
        | exact (ne_pair (by simp only [hnd, not_false_eq_true])).symm
      simp only [__chx_rb_rotate_set_parents, chx_rb_parent, chx_rb_set_parent_color, chx_rb_set_parent, chx_rb_color, chx_rb_set_black, store_pc_pc, store_left_pc, store_right_pc,
            store_pc_left, store_pc_right, store_left_left, store_left_right, store_right_left,
            store_right_right, call_mem, change_child_pc,
            hT, h_g_p, h_g_n, h_p_n, hpw, ne_eq, not_false_eq_true, not_true_eq_false, if_true, if_false,
            ite_true, ite_false, addr_node, addr_nil] at hσ
      rcases hσ with rfl | rfl | rfl | rfl | rfl
      · refine Acyclic_local (T := .node cg (.node cp A p (.node cn .nil n .nil)) g U)
          (U := .node cg (.node cp A p .nil) g U) hk ?_ ?_ ?_
        · simp
        · intro x hx
          have f0 : x ≠ g := frame_ne hnd0 hx (by simp [Tree.inorder])
          have f1 : x ≠ p := frame_ne hnd0 hx (by simp [Tree.inorder])
          have f2 : x ≠ n := frame_ne hnd0 hx (by simp [Tree.inorder])
          simp [store_pc_mem_ne, store_left_mem_ne, store_right_mem_ne, f0, f1, f2]
        · simp [Shape, Shape_store_left, Shape_store_right, hT, hS, hnd, h_g_p, h_g_n, h_p_n]
      · refine Acyclic_local (T := .node cg (.node cp A p (.node cn .nil n .nil)) g U)
          (U := .node cg (.node cp A p .nil) g U) hk ?_ ?_ ?_
        · simp
        · intro x hx
          have f0 : x ≠ g := frame_ne hnd0 hx (by simp [Tree.inorder])
          have f1 : x ≠ p := frame_ne hnd0 hx (by simp [Tree.inorder])
          have f2 : x ≠ n := frame_ne hnd0 hx (by simp [Tree.inorder])
          simp [store_pc_mem_ne, store_left_mem_ne, store_right_mem_ne, f0, f1, f2]
        · simp [Shape, Shape_store_left, Shape_store_right, hT, hS, hnd, h_g_p, h_g_n, h_p_n]
      · refine Acyclic_local (T := .node cg (.node cp A p (.node cn .nil n .nil)) g U)
          (U := .node cg .nil g U) hk ?_ ?_ ?_
        · simp
        · intro x hx
          have f0 : x ≠ g := frame_ne hnd0 hx (by simp [Tree.inorder])
          have f1 : x ≠ p := frame_ne hnd0 hx (by simp [Tree.inorder])
          have f2 : x ≠ n := frame_ne hnd0 hx (by simp [Tree.inorder])
          simp [store_pc_mem_ne, store_left_mem_ne, store_right_mem_ne, f0, f1, f2]
        · simp [Shape, Shape_store_left, Shape_store_right, hT, hS, hnd, h_g_p, h_g_n, h_p_n]
      · refine Acyclic_local (T := .node cg (.node cp A p (.node cn .nil n .nil)) g U)
          (U := .node cg .nil g U) hk ?_ ?_ ?_
        · simp
        · intro x hx
          have f0 : x ≠ g := frame_ne hnd0 hx (by simp [Tree.inorder])
          have f1 : x ≠ p := frame_ne hnd0 hx (by simp [Tree.inorder])
          have f2 : x ≠ n := frame_ne hnd0 hx (by simp [Tree.inorder])
          simp [store_pc_mem_ne, store_left_mem_ne, store_right_mem_ne, f0, f1, f2]
        · simp [Shape, Shape_store_left, Shape_store_right, hT, hS, hnd, h_g_p, h_g_n, h_p_n]
      · refine Acyclic_change_child_eq (T := .node cg (.node cp A p (.node cn .nil n .nil)) g U)
          (U := .node cg (.node cp A p .nil) n (.node .red .nil g U)) hk hnd0 hT.1 (by simp) ?_ ?_ ?_ ?_
        · simp
        · intro x hx
          have f0 : x ≠ g := frame_ne hnd0 hx (by simp [Tree.inorder])
          have f1 : x ≠ p := frame_ne hnd0 hx (by simp [Tree.inorder])
          have f2 : x ≠ n := frame_ne hnd0 hx (by simp [Tree.inorder])
          simp [store_pc_mem_ne, store_left_mem_ne, store_right_mem_ne, f0, f1, f2]
        · simp [Shape, Shape_store_left, Shape_store_right, hT, hS, hnd, h_g_p, h_g_n, h_p_n]
        · simp [Tree.inorder]
    | node cNr Nrl nr Nrr =>
      simp only [Tree.inorder, List.nodup_append, List.nodup_cons, List.disjoint_append_left,
            List.disjoint_append_right, List.disjoint_cons_left, List.disjoint_cons_right,
            List.mem_append, List.mem_cons, not_or] at hnd
      simp only [Rep, addr_node, addr_nil, color_node, color_nil] at hT
      simp only [Shape, addr_node, addr_nil, hT] at hS
      have h_g_p : g ≠ p ∧ p ≠ g := by
        first
        | exact ne_pair (by simp only [hnd, not_false_eq_true])
        | exact (ne_pair (by simp only [hnd, not_false_eq_true])).symm
      have h_g_n : g ≠ n ∧ n ≠ g := by
        first
        | exact ne_pair (by simp only [hnd, not_false_eq_true])
        | exact (ne_pair (by simp only [hnd, not_false_eq_true])).symm
      have h_g_nr : g ≠ nr ∧ nr ≠ g := by
        first
        | exact ne_pair (by simp only [hnd, not_false_eq_true])
        | exact (ne_pair (by simp only [hnd, not_false_eq_true])).symm
      have h_p_n : p ≠ n ∧ n ≠ p := by
        first
        | exact ne_pair (by simp only [hnd, not_false_eq_true])
        | exact (ne_pair (by simp only [hnd, not_false_eq_true])).symm
      have h_p_nr : p ≠ nr ∧ nr ≠ p := by
        first
        | exact ne_pair (by simp only [hnd, not_false_eq_true])
        | exact (ne_pair (by simp only [hnd, not_false_eq_true])).symm
      have h_n_nr : n ≠ nr ∧ nr ≠ n := by
        first
        | exact ne_pair (by simp only [hnd, not_false_eq_true])
        | exact (ne_pair (by simp only [hnd, not_false_eq_true])).symm
      have h0_nr : nr ≠ 0 := by simp only [hT, ne_eq, not_false_eq_true]
      simp only [__chx_rb_rotate_set_parents, chx_rb_parent, chx_rb_set_parent_color, chx_rb_set_parent, chx_rb_color, chx_rb_set_black, store_pc_pc, store_left_pc, store_right_pc,
            store_pc_left, store_pc_right, store_left_left, store_left_right, store_right_left,
            store_right_right, call_mem, change_child_pc,
            hT, h_g_p, h_g_n, h_g_nr, h_p_n, h_p_nr, h_n_nr, h0_nr, hpw, ne_eq, not_false_eq_true, not_true_eq_false, if_true, if_false,
            ite_true, ite_false, addr_node, addr_nil] at hσ
      rcases hσ with rfl | rfl | rfl | rfl | rfl
      · refine Acyclic_local (T := .node cg (.node cp A p (.node cn .nil n (.node cNr Nrl nr Nrr))) g U)
          (U := .node cg (.node cp A p .nil) g U) hk ?_ ?_ ?_
        · simp
        · intro x hx
          have f0 : x ≠ g := frame_ne hnd0 hx (by simp [Tree.inorder])
          have f1 : x ≠ p := frame_ne hnd0 hx (by simp [Tree.inorder])
          have f2 : x ≠ n := frame_ne hnd0 hx (by simp [Tree.inorder])
          have f3 : x ≠ nr := frame_ne hnd0 hx (by simp [Tree.inorder])
          simp [store_pc_mem_ne, store_left_mem_ne, store_right_mem_ne, f0, f1, f2, f3]
        · simp [Shape, Shape_store_left, Shape_store_right, hT, hS, hnd, h_g_p, h_g_n, h_g_nr, h_p_n, h_p_nr, h_n_nr, h0_nr]
      · refine Acyclic_local (T := .node cg (.node cp A p (.node cn .nil n (.node cNr Nrl nr Nrr))) g U)
          (U := .node cg (.node cp A p .nil) g U) hk ?_ ?_ ?_
        · simp
        · intro x hx
          have f0 : x ≠ g := frame_ne hnd0 hx (by simp [Tree.inorder])
          have f1 : x ≠ p := frame_ne hnd0 hx (by simp [Tree.inorder])
          have f2 : x ≠ n := frame_ne hnd0 hx (by simp [Tree.inorder])
          have f3 : x ≠ nr := frame_ne hnd0 hx (by simp [Tree.inorder])
          simp [store_pc_mem_ne, store_left_mem_ne, store_right_mem_ne, f0, f1, f2, f3]
        · simp [Shape, Shape_store_left, Shape_store_right, hT, hS, hnd, h_g_p, h_g_n, h_g_nr, h_p_n, h_p_nr, h_n_nr, h0_nr]
      · refine Acyclic_local (T := .node cg (.node cp A p (.node cn .nil n (.node cNr Nrl nr Nrr))) g U)
          (U := .node cg (.node cNr Nrl nr Nrr) g U) hk ?_ ?_ ?_
        · simp
        · intro x hx
          have f0 : x ≠ g := frame_ne hnd0 hx (by simp [Tree.inorder])
          have f1 : x ≠ p := frame_ne hnd0 hx (by simp [Tree.inorder])
          have f2 : x ≠ n := frame_ne hnd0 hx (by simp [Tree.inorder])
          have f3 : x ≠ nr := frame_ne hnd0 hx (by simp [Tree.inorder])
          simp [store_pc_mem_ne, store_left_mem_ne, store_right_mem_ne, f0, f1, f2, f3]
        · simp [Shape, Shape_store_left, Shape_store_right, hT, hS, hnd, h_g_p, h_g_n, h_g_nr, h_p_n, h_p_nr, h_n_nr, h0_nr]
      · refine Acyclic_local (T := .node cg (.node cp A p (.node cn .nil n (.node cNr Nrl nr Nrr))) g U)
          (U := .node cg (.node cNr Nrl nr Nrr) g U) hk ?_ ?_ ?_
        · simp
        · intro x hx
          have f0 : x ≠ g := frame_ne hnd0 hx (by simp [Tree.inorder])
          have f1 : x ≠ p := frame_ne hnd0 hx (by simp [Tree.inorder])
          have f2 : x ≠ n := frame_ne hnd0 hx (by simp [Tree.inorder])
          have f3 : x ≠ nr := frame_ne hnd0 hx (by simp [Tree.inorder])
          simp [store_pc_mem_ne, store_left_mem_ne, store_right_mem_ne, f0, f1, f2, f3]
        · simp [Shape, Shape_store_left, Shape_store_right, hT, hS, hnd, h_g_p, h_g_n, h_g_nr, h_p_n, h_p_nr, h_n_nr, h0_nr]
      · refine Acyclic_change_child_eq (T := .node cg (.node cp A p (.node cn .nil n (.node cNr Nrl nr Nrr))) g U)
          (U := .node cg (.node cp A p .nil) n (.node .red (.node cNr Nrl nr Nrr) g U)) hk hnd0 hT.1 (by simp) ?_ ?_ ?_ ?_
        · simp
        · intro x hx
          have f0 : x ≠ g := frame_ne hnd0 hx (by simp [Tree.inorder])
          have f1 : x ≠ p := frame_ne hnd0 hx (by simp [Tree.inorder])
          have f2 : x ≠ n := frame_ne hnd0 hx (by simp [Tree.inorder])
          have f3 : x ≠ nr := frame_ne hnd0 hx (by simp [Tree.inorder])
          simp [store_pc_mem_ne, store_left_mem_ne, store_right_mem_ne, f0, f1, f2, f3]
        · simp [Shape, Shape_store_left, Shape_store_right, hT, hS, hnd, h_g_p, h_g_n, h_g_nr, h_p_n, h_p_nr, h_n_nr, h0_nr]
        · simp [Tree.inorder]
  | node cNl Nll nl Nlr =>
    cases Nr with
    | nil =>
      simp only [Tree.inorder, List.nodup_append, List.nodup_cons, List.disjoint_append_left,
            List.disjoint_append_right, List.disjoint_cons_left, List.disjoint_cons_right,
            List.mem_append, List.mem_cons, not_or] at hnd
      simp only [Rep, addr_node, addr_nil, color_node, color_nil] at hT
      simp only [Shape, addr_node, addr_nil, hT] at hS
      have h_g_p : g ≠ p ∧ p ≠ g := by
        first
        | exact ne_pair (by simp only [hnd, not_false_eq_true])
        | exact (ne_pair (by simp only [hnd, not_false_eq_true])).symm
      have h_g_n : g ≠ n ∧ n ≠ g := by
        first
        | exact ne_pair (by simp only [hnd, not_false_eq_true])
        | exact (ne_pair (by simp only [hnd, not_false_eq_true])).symm
      have h_g_nl : g ≠ nl ∧ nl ≠ g := by
        first
        | exact ne_pair (by simp only [hnd, not_false_eq_true])
        | exact (ne_pair (by simp only [hnd, not_false_eq_true])).symm
      have h_p_n : p ≠ n ∧ n ≠ p := by
        first
        | exact ne_pair (by simp only [hnd, not_false_eq_true])
        | exact (ne_pair (by simp only [hnd, not_false_eq_true])).symm
      have h_p_nl : p ≠ nl ∧ nl ≠ p := by
        first
        | exact ne_pair (by simp only [hnd, not_false_eq_true])
        | exact (ne_pair (by simp only [hnd, not_false_eq_true])).symm
      have h_n_nl : n ≠ nl ∧ nl ≠ n := by
        first
        | exact ne_pair (by simp only [hnd, not_false_eq_true])
        | exact (ne_pair (by simp only [hnd, not_false_eq_true])).symm
      have h0_nl : nl ≠ 0 := by simp only [hT, ne_eq, not_false_eq_true]
      simp only [__chx_rb_rotate_set_parents, chx_rb_parent, chx_rb_set_parent_color, chx_rb_set_parent, chx_rb_color, chx_rb_set_black, store_pc_pc, store_left_pc, store_right_pc,
            store_pc_left, store_pc_right, store_left_left, store_left_right, store_right_left,
            store_right_right, call_mem, change_child_pc,
            hT, h_g_p, h_g_n, h_g_nl, h_p_n, h_p_nl, h_n_nl, h0_nl, hpw, ne_eq, not_false_eq_true, not_true_eq_false, if_true, if_false,
            ite_true, ite_false, addr_node, addr_nil] at hσ
      rcases hσ with rfl | rfl | rfl | rfl | rfl
      · refine Acyclic_local (T := .node cg (.node cp A p (.node cn (.node cNl Nll nl Nlr) n .nil)) g U)
          (U := .node cg (.node cp A p (.node cNl Nll nl Nlr)) g U) hk ?_ ?_ ?_
        · simp
        · intro x hx
          have f0 : x ≠ g := frame_ne hnd0 hx (by simp [Tree.inorder])
          have f1 : x ≠ p := frame_ne hnd0 hx (by simp [Tree.inorder])
          have f2 : x ≠ n := frame_ne hnd0 hx (by simp [Tree.inorder])
          have f3 : x ≠ nl := frame_ne hnd0 hx (by simp [Tree.inorder])
          simp [store_pc_mem_ne, store_left_mem_ne, store_right_mem_ne, f0, f1, f2, f3]
        · simp [Shape, Shape_store_left, Shape_store_right, hT, hS, hnd, h_g_p, h_g_n, h_g_nl, h_p_n, h_p_nl, h_n_nl, h0_nl]
      · refine Acyclic_local (T := .node cg (.node cp A p (.node cn (.node cNl Nll nl Nlr) n .nil)) g U)
          (U := .node cg (.node cp A p (.node cNl Nll nl Nlr)) g U) hk ?_ ?_ ?_
        · simp
        · intro x hx
          have f0 : x ≠ g := frame_ne hnd0 hx (by simp [Tree.inorder])
          have f1 : x ≠ p := frame_ne hnd0 hx (by simp [Tree.inorder])
          have f2 : x ≠ n := frame_ne hnd0 hx (by simp [Tree.inorder])
          have f3 : x ≠ nl := frame_ne hnd0 hx (by simp [Tree.inorder])
          simp [store_pc_mem_ne, store_left_mem_ne, store_right_mem_ne, f0, f1, f2, f3]
        · simp [Shape, Shape_store_left, Shape_store_right, hT, hS, hnd, h_g_p, h_g_n, h_g_nl, h_p_n, h_p_nl, h_n_nl, h0_nl]
      · refine Acyclic_local (T := .node cg (.node cp A p (.node cn (.node cNl Nll nl Nlr) n .nil)) g U)
          (U := .node cg .nil g U) hk ?_ ?_ ?_
        · simp
        · intro x hx
          have f0 : x ≠ g := frame_ne hnd0 hx (by simp [Tree.inorder])
          have f1 : x ≠ p := frame_ne hnd0 hx (by simp [Tree.inorder])
          have f2 : x ≠ n := frame_ne hnd0 hx (by simp [Tree.inorder])
          have f3 : x ≠ nl := frame_ne hnd0 hx (by simp [Tree.inorder])
          simp [store_pc_mem_ne, store_left_mem_ne, store_right_mem_ne, f0, f1, f2, f3]
        · simp [Shape, Shape_store_left, Shape_store_right, hT, hS, hnd, h_g_p, h_g_n, h_g_nl, h_p_n, h_p_nl, h_n_nl, h0_nl]
      · refine Acyclic_local (T := .node cg (.node cp A p (.node cn (.node cNl Nll nl Nlr) n .nil)) g U)
          (U := .node cg .nil g U) hk ?_ ?_ ?_
        · simp
        · intro x hx
          have f0 : x ≠ g := frame_ne hnd0 hx (by simp [Tree.inorder])
          have f1 : x ≠ p := frame_ne hnd0 hx (by simp [Tree.inorder])
          have f2 : x ≠ n := frame_ne hnd0 hx (by simp [Tree.inorder])
          have f3 : x ≠ nl := frame_ne hnd0 hx (by simp [Tree.inorder])
          simp [store_pc_mem_ne, store_left_mem_ne, store_right_mem_ne, f0, f1, f2, f3]
        · simp [Shape, Shape_store_left, Shape_store_right, hT, hS, hnd, h_g_p, h_g_n, h_g_nl, h_p_n, h_p_nl, h_n_nl, h0_nl]
      · refine Acyclic_change_child_eq (T := .node cg (.node cp A p (.node cn (.node cNl Nll nl Nlr) n .nil)) g U)
          (U := .node cg (.node cp A p (.node cNl Nll nl Nlr)) n (.node .red .nil g U)) hk hnd0 hT.1 (by simp) ?_ ?_ ?_ ?_
        · simp
        · intro x hx
          have f0 : x ≠ g := frame_ne hnd0 hx (by simp [Tree.inorder])
          have f1 : x ≠ p := frame_ne hnd0 hx (by simp [Tree.inorder])
          have f2 : x ≠ n := frame_ne hnd0 hx (by simp [Tree.inorder])
          have f3 : x ≠ nl := frame_ne hnd0 hx (by simp [Tree.inorder])
          simp [store_pc_mem_ne, store_left_mem_ne, store_right_mem_ne, f0, f1, f2, f3]
        · simp [Shape, Shape_store_left, Shape_store_right, hT, hS, hnd, h_g_p, h_g_n, h_g_nl, h_p_n, h_p_nl, h_n_nl, h0_nl]
        · simp [Tree.inorder]
    | node cNr Nrl nr Nrr =>
      simp only [Tree.inorder, List.nodup_append, List.nodup_cons, List.disjoint_append_left,
            List.disjoint_append_right, List.disjoint_cons_left, List.disjoint_cons_right,
            List.mem_append, List.mem_cons, not_or] at hnd
      simp only [Rep, addr_node, addr_nil, color_node, color_nil] at hT
      simp only [Shape, addr_node, addr_nil, hT] at hS
      have h_g_p : g ≠ p ∧ p ≠ g := by
        first
        | exact ne_pair (by simp only [hnd, not_false_eq_true])
        | exact (ne_pair (by simp only [hnd, not_false_eq_true])).symm
      have h_g_n : g ≠ n ∧ n ≠ g := by
        first
        | exact ne_pair (by simp only [hnd, not_false_eq_true])
        | exact (ne_pair (by simp only [hnd, not_false_eq_true])).symm
      have h_g_nl : g ≠ nl ∧ nl ≠ g := by
        first
        | exact ne_pair (by simp only [hnd, not_false_eq_true])
        | exact (ne_pair (by simp only [hnd, not_false_eq_true])).symm
      have h_g_nr : g ≠ nr ∧ nr ≠ g := by
        first
        | exact ne_pair (by simp only [hnd, not_false_eq_true])
        | exact (ne_pair (by simp only [hnd, not_false_eq_true])).symm
      have h_p_n : p ≠ n ∧ n ≠ p := by
        first
        | exact ne_pair (by simp only [hnd, not_false_eq_true])
        | exact (ne_pair (by simp only [hnd, not_false_eq_true])).symm
      have h_p_nl : p ≠ nl ∧ nl ≠ p := by
        first
        | exact ne_pair (by simp only [hnd, not_false_eq_true])
        | exact (ne_pair (by simp only [hnd, not_false_eq_true])).symm
      have h_p_nr : p ≠ nr ∧ nr ≠ p := by
        first
        | exact ne_pair (by simp only [hnd, not_false_eq_true])
        | exact (ne_pair (by simp only [hnd, not_false_eq_true])).symm
      have h_n_nl : n ≠ nl ∧ nl ≠ n := by
        first
        | exact ne_pair (by simp only [hnd, not_false_eq_true])
        | exact (ne_pair (by simp only [hnd, not_false_eq_true])).symm
      have h_n_nr : n ≠ nr ∧ nr ≠ n := by
        first
        | exact ne_pair (by simp only [hnd, not_false_eq_true])
        | exact (ne_pair (by simp only [hnd, not_false_eq_true])).symm
      have h_nl_nr : nl ≠ nr ∧ nr ≠ nl := by
        first
        | exact ne_pair (by simp only [hnd, not_false_eq_true])
        | exact (ne_pair (by simp only [hnd, not_false_eq_true])).symm
      have h0_nl : nl ≠ 0 := by simp only [hT, ne_eq, not_false_eq_true]
      have h0_nr : nr ≠ 0 := by simp only [hT, ne_eq, not_false_eq_true]
      simp only [__chx_rb_rotate_set_parents, chx_rb_parent, chx_rb_set_parent_color, chx_rb_set_parent, chx_rb_color, chx_rb_set_black, store_pc_pc, store_left_pc, store_right_pc,
            store_pc_left, store_pc_right, store_left_left, store_left_right, store_right_left,
            store_right_right, call_mem, change_child_pc,
            hT, h_g_p, h_g_n, h_g_nl, h_g_nr, h_p_n, h_p_nl, h_p_nr, h_n_nl, h_n_nr, h_nl_nr, h0_nl, h0_nr, hpw, ne_eq, not_false_eq_true, not_true_eq_false, if_true, if_false,
            ite_true, ite_false, addr_node, addr_nil] at hσ
      rcases hσ with rfl | rfl | rfl | rfl | rfl
      · refine Acyclic_local (T := .node cg (.node cp A p (.node cn (.node cNl Nll nl Nlr) n (.node cNr Nrl nr Nrr))) g U)
          (U := .node cg (.node cp A p (.node cNl Nll nl Nlr)) g U) hk ?_ ?_ ?_
        · simp
        · intro x hx
          have f0 : x ≠ g := frame_ne hnd0 hx (by simp [Tree.inorder])
          have f1 : x ≠ p := frame_ne hnd0 hx (by simp [Tree.inorder])
          have f2 : x ≠ n := frame_ne hnd0 hx (by simp [Tree.inorder])
          have f3 : x ≠ nl := frame_ne hnd0 hx (by simp [Tree.inorder])
          have f4 : x ≠ nr := frame_ne hnd0 hx (by simp [Tree.inorder])
          simp [store_pc_mem_ne, store_left_mem_ne, store_right_mem_ne, f0, f1, f2, f3, f4]
        · simp [Shape, Shape_store_left, Shape_store_right, hT, hS, hnd, h_g_p, h_g_n, h_g_nl, h_g_nr, h_p_n, h_p_nl, h_p_nr, h_n_nl, h_n_nr, h_nl_nr, h0_nl, h0_nr]
      · refine Acyclic_local (T := .node cg (.node cp A p (.node cn (.node cNl Nll nl Nlr) n (.node cNr Nrl nr Nrr))) g U)
          (U := .node cg (.node cp A p (.node cNl Nll nl Nlr)) g U) hk ?_ ?_ ?_
        · simp
        · intro x hx
          have f0 : x ≠ g := frame_ne hnd0 hx (by simp [Tree.inorder])
          have f1 : x ≠ p := frame_ne hnd0 hx (by simp [Tree.inorder])
          have f2 : x ≠ n := frame_ne hnd0 hx (by simp [Tree.inorder])
          have f3 : x ≠ nl := frame_ne hnd0 hx (by simp [Tree.inorder])
          have f4 : x ≠ nr := frame_ne hnd0 hx (by simp [Tree.inorder])
          simp [store_pc_mem_ne, store_left_mem_ne, store_right_mem_ne, f0, f1, f2, f3, f4]
        · simp [Shape, Shape_store_left, Shape_store_right, hT, hS, hnd, h_g_p, h_g_n, h_g_nl, h_g_nr, h_p_n, h_p_nl, h_p_nr, h_n_nl, h_n_nr, h_nl_nr, h0_nl, h0_nr]
      · refine Acyclic_local (T := .node cg (.node cp A p (.node cn (.node cNl Nll nl Nlr) n (.node cNr Nrl nr Nrr))) g U)
          (U := .node cg (.node cNr Nrl nr Nrr) g U) hk ?_ ?_ ?_
        · simp
        · intro x hx
          have f0 : x ≠ g := frame_ne hnd0 hx (by simp [Tree.inorder])
          have f1 : x ≠ p := frame_ne hnd0 hx (by simp [Tree.inorder])
          have f2 : x ≠ n := frame_ne hnd0 hx (by simp [Tree.inorder])
          have f3 : x ≠ nl := frame_ne hnd0 hx (by simp [Tree.inorder])
          have f4 : x ≠ nr := frame_ne hnd0 hx (by simp [Tree.inorder])
          simp [store_pc_mem_ne, store_left_mem_ne, store_right_mem_ne, f0, f1, f2, f3, f4]
        · simp [Shape, Shape_store_left, Shape_store_right, hT, hS, hnd, h_g_p, h_g_n, h_g_nl, h_g_nr, h_p_n, h_p_nl, h_p_nr, h_n_nl, h_n_nr, h_nl_nr, h0_nl, h0_nr]
      · refine Acyclic_local (T := .node cg (.node cp A p (.node cn (.node cNl Nll nl Nlr) n (.node cNr Nrl nr Nrr))) g U)
          (U := .node cg (.node cNr Nrl nr Nrr) g U) hk ?_ ?_ ?_
        · simp
        · intro x hx
          have f0 : x ≠ g := frame_ne hnd0 hx (by simp [Tree.inorder])
          have f1 : x ≠ p := frame_ne hnd0 hx (by simp [Tree.inorder])
          have f2 : x ≠ n := frame_ne hnd0 hx (by simp [Tree.inorder])
          have f3 : x ≠ nl := frame_ne hnd0 hx (by simp [Tree.inorder])
          have f4 : x ≠ nr := frame_ne hnd0 hx (by simp [Tree.inorder])
          simp [store_pc_mem_ne, store_left_mem_ne, store_right_mem_ne, f0, f1, f2, f3, f4]
        · simp [Shape, Shape_store_left, Shape_store_right, hT, hS, hnd, h_g_p, h_g_n, h_g_nl, h_g_nr, h_p_n, h_p_nl, h_p_nr, h_n_nl, h_n_nr, h_nl_nr, h0_nl, h0_nr]
      · refine Acyclic_change_child_eq (T := .node cg (.node cp A p (.node cn (.node cNl Nll nl Nlr) n (.node cNr Nrl nr Nrr))) g U)
          (U := .node cg (.node cp A p (.node cNl Nll nl Nlr)) n (.node .red (.node cNr Nrl nr Nrr) g U)) hk hnd0 hT.1 (by simp) ?_ ?_ ?_ ?_
        · simp
        · intro x hx
          have f0 : x ≠ g := frame_ne hnd0 hx (by simp [Tree.inorder])
          have f1 : x ≠ p := frame_ne hnd0 hx (by simp [Tree.inorder])
          have f2 : x ≠ n := frame_ne hnd0 hx (by simp [Tree.inorder])
          have f3 : x ≠ nl := frame_ne hnd0 hx (by simp [Tree.inorder])
          have f4 : x ≠ nr := frame_ne hnd0 hx (by simp [Tree.inorder])
          simp [store_pc_mem_ne, store_left_mem_ne, store_right_mem_ne, f0, f1, f2, f3, f4]
        · simp [Shape, Shape_store_left, Shape_store_right, hT, hS, hnd, h_g_p, h_g_n, h_g_nl, h_g_nr, h_p_n, h_p_nl, h_p_nr, h_n_nl, h_n_nr, h_nl_nr, h0_nl, h0_nr]
        · simp [Tree.inorder]

theorem insert_case23_right_acyclic (rot : Callback α) {s : State α} {k : Ctx} {cg cp cn : Color}
    {A Nl Nr U : Tree} {p g n : Nat}
    (h : WF s (plug k (.node cg U g (.node cp (.node cn Nl n Nr) p A)))) :
    ∀ σ ∈ insert_case2_right_stores s n p ++
      insert_case3_right_stores (insert_case2_right rot s n p).1 g n (insert_case2_right rot s n p).2, Acyclic σ := by
  rw [WF_plug'] at h
  obtain ⟨hk, hT, hnd⟩ := h
  have hpar := RepCtx_ctxAddr_aligned hk
  have hnd0 := hnd
  have hpw := parent_of_word cg hpar
  have hS := Rep_Shape _ _ hT
  intro σ hσ
  simp only [insert_case2_right_stores, insert_case3_right_stores, insert_case2_right, List.mem_cons, List.mem_append, List.mem_singleton, List.not_mem_nil, or_false, false_or, or_assoc] at hσ
  cases Nl with
  | nil =>
    cases Nr with
    | nil =>
      simp only [Tree.inorder, List.nodup_append, List.nodup_cons, List.disjoint_append_left,
            List.disjoint_append_right, List.disjoint_cons_left, List.disjoint_cons_right,
            List.mem_append, List.mem_cons, not_or] at hnd
      simp only [Rep, addr_node, addr_nil, color_node, color_nil] at hT
      simp only [Shape, addr_node, addr_nil, hT] at hS
      have h_g_p : g ≠ p ∧ p ≠ g := by
        first
        | exact ne_pair (by simp only [hnd, not_false_eq_true])
        | exact (ne_pair (by simp only [hnd, not_false_eq_true])).symm
      have h_g_n : g ≠ n ∧ n ≠ g := by
        first
        | exact ne_pair (by simp only [hnd, not_false_eq_true])
        | exact (ne_pair (by simp only [hnd, not_false_eq_true])).symm
      have h_p_n : p ≠ n ∧ n ≠ p := by
        first
        | exact ne_pair (by simp only [hnd, not_false_eq_true])
        | exact (ne_pair (by simp only [hnd, not_false_eq_true])).symm
      simp only [__chx_rb_rotate_set_parents, chx_rb_parent, chx_rb_set_parent_color, chx_rb_set_parent, chx_rb_color, chx_rb_set_black, store_pc_pc, store_left_pc, store_right_pc,
            store_pc_left, store_pc_right, store_left_left, store_left_right, store_right_left,
            store_right_right, call_mem, change_child_pc,
            hT, h_g_p, h_g_n, h_p_n, hpw, ne_eq, not_false_eq_true, not_true_eq_false, if_true, if_false,
            ite_true, ite_false, addr_node, addr_nil] at hσ
      rcases hσ with rfl | rfl | rfl | rfl | rfl
      · refine Acyclic_local (T := .node cg U g (.node cp (.node cn .nil n .nil) p A))
          (U := .node cg U g (.node cp .nil p A)) hk ?_ ?_ ?_
        · simp
        · intro x hx
          have f0 : x ≠ g := frame_ne hnd0 hx (by simp [Tree.inorder])
          have f1 : x ≠ p := frame_ne hnd0 hx (by simp [Tree.inorder])
          have f2 : x ≠ n := frame_ne hnd0 hx (by simp [Tree.inorder])
          simp [store_pc_mem_ne, store_left_mem_ne, store_right_mem_ne, f0, f1, f2]
        · simp [Shape, Shape_store_left, Shape_store_right, hT, hS, hnd, h_g_p, h_g_n, h_p_n]
      · refine Acyclic_local (T := .node cg U g (.node cp (.node cn .nil n .nil) p A))
          (U := .node cg U g (.node cp .nil p A)) hk ?_ ?_ ?_
        · simp
        · intro x hx
          have f0 : x ≠ g := frame_ne hnd0 hx (by simp [Tree.inorder])
          have f1 : x ≠ p := frame_ne hnd0 hx (by simp [Tree.inorder])
          have f2 : x ≠ n := frame_ne hnd0 hx (by simp [Tree.inorder])
          simp [store_pc_mem_ne, store_left_mem_ne, store_right_mem_ne, f0, f1, f2]
        · simp [Shape, Shape_store_left, Shape_store_right, hT, hS, hnd, h_g_p, h_g_n, h_p_n]
      · refine Acyclic_local (T := .node cg U g (.node cp (.node cn .nil n .nil) p A))
          (U := .node cg U g .nil) hk ?_ ?_ ?_
        · simp
        · intro x hx
          have f0 : x ≠ g := frame_ne hnd0 hx (by simp [Tree.inorder])
          have f1 : x ≠ p := frame_ne hnd0 hx (by simp [Tree.inorder])
          have f2 : x ≠ n := frame_ne hnd0 hx (by simp [Tree.inorder])
          simp [store_pc_mem_ne, store_left_mem_ne, store_right_mem_ne, f0, f1, f2]
        · simp [Shape, Shape_store_left, Shape_store_right, hT, hS, hnd, h_g_p, h_g_n, h_p_n]
      · refine Acyclic_local (T := .node cg U g (.node cp (.node cn .nil n .nil) p A))
          (U := .node cg U g .nil) hk ?_ ?_ ?_
        · simp
        · intro x hx
          have f0 : x ≠ g := frame_ne hnd0 hx (by simp [Tree.inorder])
          have f1 : x ≠ p := frame_ne hnd0 hx (by simp [Tree.inorder])
          have f2 : x ≠ n := frame_ne hnd0 hx (by simp [Tree.inorder])
          simp [store_pc_mem_ne, store_left_mem_ne, store_right_mem_ne, f0, f1, f2]
        · simp [Shape, Shape_store_left, Shape_store_right, hT, hS, hnd, h_g_p, h_g_n, h_p_n]
      · refine Acyclic_change_child_eq (T := .node cg U g (.node cp (.node cn .nil n .nil) p A))
          (U := .node cg (.node .red U g .nil) n (.node cp .nil p A)) hk hnd0 hT.1 (by simp) ?_ ?_ ?_ ?_
        · simp
        · intro x hx
          have f0 : x ≠ g := frame_ne hnd0 hx (by simp [Tree.inorder])
          have f1 : x ≠ p := frame_ne hnd0 hx (by simp [Tree.inorder])
          have f2 : x ≠ n := frame_ne hnd0 hx (by simp [Tree.inorder])
          simp [store_pc_mem_ne, store_left_mem_ne, store_right_mem_ne, f0, f1, f2]
        · simp [Shape, Shape_store_left, Shape_store_right, hT, hS, hnd, h_g_p, h_g_n, h_p_n]
        · simp [Tree.inorder]
    | node cNr Nrl nr Nrr =>
      simp only [Tree.inorder, List.nodup_append, List.nodup_cons, List.disjoint_append_left,
            List.disjoint_append_right, List.disjoint_cons_left, List.disjoint_cons_right,
            List.mem_append, List.mem_cons, not_or] at hnd
      simp only [Rep, addr_node, addr_nil, color_node, color_nil] at hT
      simp only [Shape, addr_node, addr_nil, hT] at hS
      have h_g_p : g ≠ p ∧ p ≠ g := by
        first
        | exact ne_pair (by simp only [hnd, not_false_eq_true])
        | exact (ne_pair (by simp only [hnd, not_false_eq_true])).symm
      have h_g_n : g ≠ n ∧ n ≠ g := by
        first
        | exact ne_pair (by simp only [hnd, not_false_eq_true])
        | exact (ne_pair (by simp only [hnd, not_false_eq_true])).symm
      have h_g_nr : g ≠ nr ∧ nr ≠ g := by
        first
        | exact ne_pair (by simp only [hnd, not_false_eq_true])
        | exact (ne_pair (by simp only [hnd, not_false_eq_true])).symm
      have h_p_n : p ≠ n ∧ n ≠ p := by
        first
        | exact ne_pair (by simp only [hnd, not_false_eq_true])
        | exact (ne_pair (by simp only [hnd, not_false_eq_true])).symm
      have h_p_nr : p ≠ nr ∧ nr ≠ p := by
        first
        | exact ne_pair (by simp only [hnd, not_false_eq_true])
        | exact (ne_pair (by simp only [hnd, not_false_eq_true])).symm
      have h_n_nr : n ≠ nr ∧ nr ≠ n := by
        first
        | exact ne_pair (by simp only [hnd, not_false_eq_true])
        | exact (ne_pair (by simp only [hnd, not_false_eq_true])).symm
      have h0_nr : nr ≠ 0 := by simp only [hT, ne_eq, not_false_eq_true]
      simp only [__chx_rb_rotate_set_parents, chx_rb_parent, chx_rb_set_parent_color, chx_rb_set_parent, chx_rb_color, chx_rb_set_black, store_pc_pc, store_left_pc, store_right_pc,
            store_pc_left, store_pc_right, store_left_left, store_left_right, store_right_left,
            store_right_right, call_mem, change_child_pc,
            hT, h_g_p, h_g_n, h_g_nr, h_p_n, h_p_nr, h_n_nr, h0_nr, hpw, ne_eq, not_false_eq_true, not_true_eq_false, if_true, if_false,
            ite_true, ite_false, addr_node, addr_nil] at hσ
      rcases hσ with rfl | rfl | rfl | rfl | rfl
      · refine Acyclic_local (T := .node cg U g (.node cp (.node cn .nil n (.node cNr Nrl nr Nrr)) p A))
          (U := .node cg U g (.node cp (.node cNr Nrl nr Nrr) p A)) hk ?_ ?_ ?_
        · simp
        · intro x hx
          have f0 : x ≠ g := frame_ne hnd0 hx (by simp [Tree.inorder])
          have f1 : x ≠ p := frame_ne hnd0 hx (by simp [Tree.inorder])
          have f2 : x ≠ n := frame_ne hnd0 hx (by simp [Tree.inorder])
          have f3 : x ≠ nr := frame_ne hnd0 hx (by simp [Tree.inorder])
          simp [store_pc_mem_ne, store_left_mem_ne, store_right_mem_ne, f0, f1, f2, f3]
        · simp [Shape, Shape_store_left, Shape_store_right, hT, hS, hnd, h_g_p, h_g_n, h_g_nr, h_p_n, h_p_nr, h_n_nr, h0_nr]
      · refine Acyclic_local (T := .node cg U g (.node cp (.node cn .nil n (.node cNr Nrl nr Nrr)) p A))
          (U := .node cg U g (.node cp (.node cNr Nrl nr Nrr) p A)) hk ?_ ?_ ?_
        · simp
        · intro x hx
          have f0 : x ≠ g := frame_ne hnd0 hx (by simp [Tree.inorder])
          have f1 : x ≠ p := frame_ne hnd0 hx (by simp [Tree.inorder])
          have f2 : x ≠ n := frame_ne hnd0 hx (by simp [Tree.inorder])
          have f3 : x ≠ nr := frame_ne hnd0 hx (by simp [Tree.inorder])
          simp [store_pc_mem_ne, store_left_mem_ne, store_right_mem_ne, f0, f1, f2, f3]
        · simp [Shape, Shape_store_left, Shape_store_right, hT, hS, hnd, h_g_p, h_g_n, h_g_nr, h_p_n, h_p_nr, h_n_nr, h0_nr]
      · refine Acyclic_local (T := .node cg U g (.node cp (.node cn .nil n (.node cNr Nrl nr Nrr)) p A))
          (U := .node cg U g .nil) hk ?_ ?_ ?_
        · simp
        · intro x hx
          have f0 : x ≠ g := frame_ne hnd0 hx (by simp [Tree.inorder])
          have f1 : x ≠ p := frame_ne hnd0 hx (by simp [Tree.inorder])
          have f2 : x ≠ n := frame_ne hnd0 hx (by simp [Tree.inorder])
          have f3 : x ≠ nr := frame_ne hnd0 hx (by simp [Tree.inorder])
          simp [store_pc_mem_ne, store_left_mem_ne, store_right_mem_ne, f0, f1, f2, f3]
        · simp [Shape, Shape_store_left, Shape_store_right, hT, hS, hnd, h_g_p, h_g_n, h_g_nr, h_p_n, h_p_nr, h_n_nr, h0_nr]
      · refine Acyclic_local (T := .node cg U g (.node cp (.node cn .nil n (.node cNr Nrl nr Nrr)) p A))
          (U := .node cg U g .nil) hk ?_ ?_ ?_
        · simp
        · intro x hx
          have f0 : x ≠ g := frame_ne hnd0 hx (by simp [Tree.inorder])
          have f1 : x ≠ p := frame_ne hnd0 hx (by simp [Tree.inorder])
          have f2 : x ≠ n := frame_ne hnd0 hx (by simp [Tree.inorder])
          have f3 : x ≠ nr := frame_ne hnd0 hx (by simp [Tree.inorder])
          simp [store_pc_mem_ne, store_left_mem_ne, store_right_mem_ne, f0, f1, f2, f3]
        · simp [Shape, Shape_store_left, Shape_store_right, hT, hS, hnd, h_g_p, h_g_n, h_g_nr, h_p_n, h_p_nr, h_n_nr, h0_nr]
      · refine Acyclic_change_child_eq (T := .node cg U g (.node cp (.node cn .nil n (.node cNr Nrl nr Nrr)) p A))
          (U := .node cg (.node .red U g .nil) n (.node cp (.node cNr Nrl nr Nrr) p A)) hk hnd0 hT.1 (by simp) ?_ ?_ ?_ ?_
        · simp
        · intro x hx
          have f0 : x ≠ g := frame_ne hnd0 hx (by simp [Tree.inorder])
          have f1 : x ≠ p := frame_ne hnd0 hx (by simp [Tree.inorder])
          have f2 : x ≠ n := frame_ne hnd0 hx (by simp [Tree.inorder])
          have f3 : x ≠ nr := frame_ne hnd0 hx (by simp [Tree.inorder])
          simp [store_pc_mem_ne, store_left_mem_ne, store_right_mem_ne, f0, f1, f2, f3]
        · simp [Shape, Shape_store_left, Shape_store_right, hT, hS, hnd, h_g_p, h_g_n, h_g_nr, h_p_n, h_p_nr, h_n_nr, h0_nr]
        · simp [Tree.inorder]
  | node cNl Nll nl Nlr =>
    cases Nr with
    | nil =>
      simp only [Tree.inorder, List.nodup_append, List.nodup_cons, List.disjoint_append_left,
            List.disjoint_append_right, List.disjoint_cons_left, List.disjoint_cons_right,
            List.mem_append, List.mem_cons, not_or] at hnd
      simp only [Rep, addr_node, addr_nil, color_node, color_nil] at hT
      simp only [Shape, addr_node, addr_nil, hT] at hS
      have h_g_p : g ≠ p ∧ p ≠ g := by
        first
        | exact ne_pair (by simp only [hnd, not_false_eq_true])
        | exact (ne_pair (by simp only [hnd, not_false_eq_true])).symm
      have h_g_n : g ≠ n ∧ n ≠ g := by
        first
        | exact ne_pair (by simp only [hnd, not_false_eq_true])
        | exact (ne_pair (by simp only [hnd, not_false_eq_true])).symm
      have h_g_nl : g ≠ nl ∧ nl ≠ g := by
        first
        | exact ne_pair (by simp only [hnd, not_false_eq_true])
        | exact (ne_pair (by simp only [hnd, not_false_eq_true])).symm
      have h_p_n : p ≠ n ∧ n ≠ p := by
        first
        | exact ne_pair (by simp only [hnd, not_false_eq_true])
        | exact (ne_pair (by simp only [hnd, not_false_eq_true])).symm
      have h_p_nl : p ≠ nl ∧ nl ≠ p := by
        first
        | exact ne_pair (by simp only [hnd, not_false_eq_true])
        | exact (ne_pair (by simp only [hnd, not_false_eq_true])).symm
      have h_n_nl : n ≠ nl ∧ nl ≠ n := by
        first
        | exact ne_pair (by simp only [hnd, not_false_eq_true])
        | exact (ne_pair (by simp only [hnd, not_false_eq_true])).symm
      have h0_nl : nl ≠ 0 := by simp only [hT, ne_eq, not_false_eq_true]
      simp only [__chx_rb_rotate_set_parents, chx_rb_parent, chx_rb_set_parent_color, chx_rb_set_parent, chx_rb_color, chx_rb_set_black, store_pc_pc, store_left_pc, store_right_pc,
            store_pc_left, store_pc_right, store_left_left, store_left_right, store_right_left,
            store_right_right, call_mem, change_child_pc,
            hT, h_g_p, h_g_n, h_g_nl, h_p_n, h_p_nl, h_n_nl, h0_nl, hpw, ne_eq, not_false_eq_true, not_true_eq_false, if_true, if_false,
            ite_true, ite_false, addr_node, addr_nil] at hσ
      rcases hσ with rfl | rfl | rfl | rfl | rfl
      · refine Acyclic_local (T := .node cg U g (.node cp (.node cn (.node cNl Nll nl Nlr) n .nil) p A))
          (U := .node cg U g (.node cp .nil p A)) hk ?_ ?_ ?_
        · simp
        · intro x hx
          have f0 : x ≠ g := frame_ne hnd0 hx (by simp [Tree.inorder])
          have f1 : x ≠ p := frame_ne hnd0 hx (by simp [Tree.inorder])
          have f2 : x ≠ n := frame_ne hnd0 hx (by simp [Tree.inorder])
          have f3 : x ≠ nl := frame_ne hnd0 hx (by simp [Tree.inorder])
          simp [store_pc_mem_ne, store_left_mem_ne, store_right_mem_ne, f0, f1, f2, f3]
        · simp [Shape, Shape_store_left, Shape_store_right, hT, hS, hnd, h_g_p, h_g_n, h_g_nl, h_p_n, h_p_nl, h_n_nl, h0_nl]
      · refine Acyclic_local (T := .node cg U g (.node cp (.node cn (.node cNl Nll nl Nlr) n .nil) p A))
          (U := .node cg U g (.node cp .nil p A)) hk ?_ ?_ ?_
        · simp
        · intro x hx
          have f0 : x ≠ g := frame_ne hnd0 hx (by simp [Tree.inorder])
          have f1 : x ≠ p := frame_ne hnd0 hx (by simp [Tree.inorder])
          have f2 : x ≠ n := frame_ne hnd0 hx (by simp [Tree.inorder])
          have f3 : x ≠ nl := frame_ne hnd0 hx (by simp [Tree.inorder])
          simp [store_pc_mem_ne, store_left_mem_ne, store_right_mem_ne, f0, f1, f2, f3]
        · simp [Shape, Shape_store_left, Shape_store_right, hT, hS, hnd, h_g_p, h_g_n, h_g_nl, h_p_n, h_p_nl, h_n_nl, h0_nl]
      · refine Acyclic_local (T := .node cg U g (.node cp (.node cn (.node cNl Nll nl Nlr) n .nil) p A))
          (U := .node cg U g (.node cNl Nll nl Nlr)) hk ?_ ?_ ?_
        · simp
        · intro x hx
          have f0 : x ≠ g := frame_ne hnd0 hx (by simp [Tree.inorder])
          have f1 : x ≠ p := frame_ne hnd0 hx (by simp [Tree.inorder])
          have f2 : x ≠ n := frame_ne hnd0 hx (by simp [Tree.inorder])
          have f3 : x ≠ nl := frame_ne hnd0 hx (by simp [Tree.inorder])
          simp [store_pc_mem_ne, store_left_mem_ne, store_right_mem_ne, f0, f1, f2, f3]
        · simp [Shape, Shape_store_left, Shape_store_right, hT, hS, hnd, h_g_p, h_g_n, h_g_nl, h_p_n, h_p_nl, h_n_nl, h0_nl]
      · refine Acyclic_local (T := .node cg U g (.node cp (.node cn (.node cNl Nll nl Nlr) n .nil) p A))
          (U := .node cg U g (.node cNl Nll nl Nlr)) hk ?_ ?_ ?_
        · simp
        · intro x hx
          have f0 : x ≠ g := frame_ne hnd0 hx (by simp [Tree.inorder])
          have f1 : x ≠ p := frame_ne hnd0 hx (by simp [Tree.inorder])
          have f2 : x ≠ n := frame_ne hnd0 hx (by simp [Tree.inorder])
          have f3 : x ≠ nl := frame_ne hnd0 hx (by simp [Tree.inorder])
          simp [store_pc_mem_ne, store_left_mem_ne, store_right_mem_ne, f0, f1, f2, f3]
        · simp [Shape, Shape_store_left, Shape_store_right, hT, hS, hnd, h_g_p, h_g_n, h_g_nl, h_p_n, h_p_nl, h_n_nl, h0_nl]
      · refine Acyclic_change_child_eq (T := .node cg U g (.node cp (.node cn (.node cNl Nll nl Nlr) n .nil) p A))
          (U := .node cg (.node .red U g (.node cNl Nll nl Nlr)) n (.node cp .nil p A)) hk hnd0 hT.1 (by simp) ?_ ?_ ?_ ?_
        · simp
        · intro x hx
          have f0 : x ≠ g := frame_ne hnd0 hx (by simp [Tree.inorder])
          have f1 : x ≠ p := frame_ne hnd0 hx (by simp [Tree.inorder])
          have f2 : x ≠ n := frame_ne hnd0 hx (by simp [Tree.inorder])
          have f3 : x ≠ nl := frame_ne hnd0 hx (by simp [Tree.inorder])
          simp [store_pc_mem_ne, store_left_mem_ne, store_right_mem_ne, f0, f1, f2, f3]
        · simp [Shape, Shape_store_left, Shape_store_right, hT, hS, hnd, h_g_p, h_g_n, h_g_nl, h_p_n, h_p_nl, h_n_nl, h0_nl]
        · simp [Tree.inorder]
    | node cNr Nrl nr Nrr =>
      simp only [Tree.inorder, List.nodup_append, List.nodup_cons, List.disjoint_append_left,
            List.disjoint_append_right, List.disjoint_cons_left, List.disjoint_cons_right,
            List.mem_append, List.mem_cons, not_or] at hnd
      simp only [Rep, addr_node, addr_nil, color_node, color_nil] at hT
      simp only [Shape, addr_node, addr_nil, hT] at hS
      have h_g_p : g ≠ p ∧ p ≠ g := by
        first
        | exact ne_pair (by simp only [hnd, not_false_eq_true])
        | exact (ne_pair (by simp only [hnd, not_false_eq_true])).symm
      have h_g_n : g ≠ n ∧ n ≠ g := by
        first
        | exact ne_pair (by simp only [hnd, not_false_eq_true])
        | exact (ne_pair (by simp only [hnd, not_false_eq_true])).symm
      have h_g_nl : g ≠ nl ∧ nl ≠ g := by
        first
        | exact ne_pair (by simp only [hnd, not_false_eq_true])
        | exact (ne_pair (by simp only [hnd, not_false_eq_true])).symm
      have h_g_nr : g ≠ nr ∧ nr ≠ g := by
        first
        | exact ne_pair (by simp only [hnd, not_false_eq_true])
        | exact (ne_pair (by simp only [hnd, not_false_eq_true])).symm
      have h_p_n : p ≠ n ∧ n ≠ p := by
        first
        | exact ne_pair (by simp only [hnd, not_false_eq_true])
        | exact (ne_pair (by simp only [hnd, not_false_eq_true])).symm
      have h_p_nl : p ≠ nl ∧ nl ≠ p := by
        first
        | exact ne_pair (by simp only [hnd, not_false_eq_true])
        | exact (ne_pair (by simp only [hnd, not_false_eq_true])).symm
      have h_p_nr : p ≠ nr ∧ nr ≠ p := by
        first
        | exact ne_pair (by simp only [hnd, not_false_eq_true])
        | exact (ne_pair (by simp only [hnd, not_false_eq_true])).symm
      have h_n_nl : n ≠ nl ∧ nl ≠ n := by
        first
        | exact ne_pair (by simp only [hnd, not_false_eq_true])
        | exact (ne_pair (by simp only [hnd, not_false_eq_true])).symm
      have h_n_nr : n ≠ nr ∧ nr ≠ n := by
        first
        | exact ne_pair (by simp only [hnd, not_false_eq_true])
        | exact (ne_pair (by simp only [hnd, not_false_eq_true])).symm
      have h_nl_nr : nl ≠ nr ∧ nr ≠ nl := by
        first
        | exact ne_pair (by simp only [hnd, not_false_eq_true])
        | exact (ne_pair (by simp only [hnd, not_false_eq_true])).symm
      have h0_nl : nl ≠ 0 := by simp only [hT, ne_eq, not_false_eq_true]
      have h0_nr : nr ≠ 0 := by simp only [hT, ne_eq, not_false_eq_true]
      simp only [__chx_rb_rotate_set_parents, chx_rb_parent, chx_rb_set_parent_color, chx_rb_set_parent, chx_rb_color, chx_rb_set_black, store_pc_pc, store_left_pc, store_right_pc,
            store_pc_left, store_pc_right, store_left_left, store_left_right, store_right_left,
            store_right_right, call_mem, change_child_pc,
            hT, h_g_p, h_g_n, h_g_nl, h_g_nr, h_p_n, h_p_nl, h_p_nr, h_n_nl, h_n_nr, h_nl_nr, h0_nl, h0_nr, hpw, ne_eq, not_false_eq_true, not_true_eq_false, if_true, if_false,
            ite_true, ite_false, addr_node, addr_nil] at hσ
      rcases hσ with rfl | rfl | rfl | rfl | rfl
      · refine Acyclic_local (T := .node cg U g (.node cp (.node cn (.node cNl Nll nl Nlr) n (.node cNr Nrl nr Nrr)) p A))
          (U := .node cg U g (.node cp (.node cNr Nrl nr Nrr) p A)) hk ?_ ?_ ?_
        · simp
        · intro x hx
          have f0 : x ≠ g := frame_ne hnd0 hx (by simp [Tree.inorder])
          have f1 : x ≠ p := frame_ne hnd0 hx (by simp [Tree.inorder])
          have f2 : x ≠ n := frame_ne hnd0 hx (by simp [Tree.inorder])
          have f3 : x ≠ nl := frame_ne hnd0 hx (by simp [Tree.inorder])
          have f4 : x ≠ nr := frame_ne hnd0 hx (by simp [Tree.inorder])
          simp [store_pc_mem_ne, store_left_mem_ne, store_right_mem_ne, f0, f1, f2, f3, f4]
        · simp [Shape, Shape_store_left, Shape_store_right, hT, hS, hnd, h_g_p, h_g_n, h_g_nl, h_g_nr, h_p_n, h_p_nl, h_p_nr, h_n_nl, h_n_nr, h_nl_nr, h0_nl, h0_nr]
      · refine Acyclic_local (T := .node cg U g (.node cp (.node cn (.node cNl Nll nl Nlr) n (.node cNr Nrl nr Nrr)) p A))
          (U := .node cg U g (.node cp (.node cNr Nrl nr Nrr) p A)) hk ?_ ?_ ?_
        · simp
        · intro x hx
          have f0 : x ≠ g := frame_ne hnd0 hx (by simp [Tree.inorder])
          have f1 : x ≠ p := frame_ne hnd0 hx (by simp [Tree.inorder])
          have f2 : x ≠ n := frame_ne hnd0 hx (by simp [Tree.inorder])
          have f3 : x ≠ nl := frame_ne hnd0 hx (by simp [Tree.inorder])
          have f4 : x ≠ nr := frame_ne hnd0 hx (by simp [Tree.inorder])
          simp [store_pc_mem_ne, store_left_mem_ne, store_right_mem_ne, f0, f1, f2, f3, f4]
        · simp [Shape, Shape_store_left, Shape_store_right, hT, hS, hnd, h_g_p, h_g_n, h_g_nl, h_g_nr, h_p_n, h_p_nl, h_p_nr, h_n_nl, h_n_nr, h_nl_nr, h0_nl, h0_nr]
      · refine Acyclic_local (T := .node cg U g (.node cp (.node cn (.node cNl Nll nl Nlr) n (.node cNr Nrl nr Nrr)) p A))
          (U := .node cg U g (.node cNl Nll nl Nlr)) hk ?_ ?_ ?_
        · simp
        · intro x hx
          have f0 : x ≠ g := frame_ne hnd0 hx (by simp [Tree.inorder])
          have f1 : x ≠ p := frame_ne hnd0 hx (by simp [Tree.inorder])
          have f2 : x ≠ n := frame_ne hnd0 hx (by simp [Tree.inorder])
          have f3 : x ≠ nl := frame_ne hnd0 hx (by simp [Tree.inorder])
          have f4 : x ≠ nr := frame_ne hnd0 hx (by simp [Tree.inorder])
          simp [store_pc_mem_ne, store_left_mem_ne, store_right_mem_ne, f0, f1, f2, f3, f4]
        · simp [Shape, Shape_store_left, Shape_store_right, hT, hS, hnd, h_g_p, h_g_n, h_g_nl, h_g_nr, h_p_n, h_p_nl, h_p_nr, h_n_nl, h_n_nr, h_nl_nr, h0_nl, h0_nr]
      · refine Acyclic_local (T := .node cg U g (.node cp (.node cn (.node cNl Nll nl Nlr) n (.node cNr Nrl nr Nrr)) p A))
          (U := .node cg U g (.node cNl Nll nl Nlr)) hk ?_ ?_ ?_
        · simp
        · intro x hx
          have f0 : x ≠ g := frame_ne hnd0 hx (by simp [Tree.inorder])
          have f1 : x ≠ p := frame_ne hnd0 hx (by simp [Tree.inorder])
          have f2 : x ≠ n := frame_ne hnd0 hx (by simp [Tree.inorder])
          have f3 : x ≠ nl := frame_ne hnd0 hx (by simp [Tree.inorder])
          have f4 : x ≠ nr := frame_ne hnd0 hx (by simp [Tree.inorder])
          simp [store_pc_mem_ne, store_left_mem_ne, store_right_mem_ne, f0, f1, f2, f3, f4]
        · simp [Shape, Shape_store_left, Shape_store_right, hT, hS, hnd, h_g_p, h_g_n, h_g_nl, h_g_nr, h_p_n, h_p_nl, h_p_nr, h_n_nl, h_n_nr, h_nl_nr, h0_nl, h0_nr]
      · refine Acyclic_change_child_eq (T := .node cg U g (.node cp (.node cn (.node cNl Nll nl Nlr) n (.node cNr Nrl nr Nrr)) p A))
          (U := .node cg (.node .red U g (.node cNl Nll nl Nlr)) n (.node cp (.node cNr Nrl nr Nrr) p A)) hk hnd0 hT.1 (by simp) ?_ ?_ ?_ ?_
        · simp
        · intro x hx
          have f0 : x ≠ g := frame_ne hnd0 hx (by simp [Tree.inorder])
          have f1 : x ≠ p := frame_ne hnd0 hx (by simp [Tree.inorder])
          have f2 : x ≠ n := frame_ne hnd0 hx (by simp [Tree.inorder])
          have f3 : x ≠ nl := frame_ne hnd0 hx (by simp [Tree.inorder])
          have f4 : x ≠ nr := frame_ne hnd0 hx (by simp [Tree.inorder])
          simp [store_pc_mem_ne, store_left_mem_ne, store_right_mem_ne, f0, f1, f2, f3, f4]
        · simp [Shape, Shape_store_left, Shape_store_right, hT, hS, hnd, h_g_p, h_g_n, h_g_nl, h_g_nr, h_p_n, h_p_nl, h_p_nr, h_n_nl, h_n_nr, h_nl_nr, h0_nl, h0_nr]
        · simp [Tree.inorder]

theorem erase_case1_left_acyclic {s : State α} {k : Ctx} {cp cs csl : Color}
    {N Sll Slr Sr : Tree} {p sx sl : Nat}
    (h : WF s (plug k (.node cp N p (.node cs (.node csl Sll sl Slr) sx Sr)))) :
    ∀ σ ∈ erase_case1_left_stores s p sx, Acyclic σ := by
  rw [WF_plug'] at h
  obtain ⟨hk, hT, hnd⟩ := h
  have hpar := RepCtx_ctxAddr_aligned hk
  have hnd0 := hnd
  have hpw := parent_of_word cp hpar
  have hS := Rep_Shape _ _ hT
  intro σ hσ
  simp only [erase_case1_left_stores, List.mem_cons, List.mem_append, List.mem_singleton, List.not_mem_nil, or_false, false_or, or_assoc] at hσ
  simp only [Tree.inorder, List.nodup_append, List.nodup_cons, List.disjoint_append_left,
        List.disjoint_append_right, List.disjoint_cons_left, List.disjoint_cons_right,
        List.mem_append, List.mem_cons, not_or] at hnd
  simp only [Rep, addr_node, addr_nil, color_node, color_nil] at hT
  simp only [Shape, addr_node, addr_nil, hT] at hS
  have h_p_sx : p ≠ sx ∧ sx ≠ p := by
    first
    | exact ne_pair (by simp only [hnd, not_false_eq_true])
    | exact (ne_pair (by simp only [hnd, not_false_eq_true])).symm
  have h_p_sl : p ≠ sl ∧ sl ≠ p := by
    first
    | exact ne_pair (by simp only [hnd, not_false_eq_true])
    | exact (ne_pair (by simp only [hnd, not_false_eq_true])).symm
  have h_sx_sl : sx ≠ sl ∧ sl ≠ sx := by
    first
    | exact ne_pair (by simp only [hnd, not_false_eq_true])
    | exact (ne_pair (by simp only [hnd, not_false_eq_true])).symm
  simp only [__chx_rb_rotate_set_parents, chx_rb_parent, chx_rb_set_parent_color, chx_rb_set_parent, chx_rb_color, chx_rb_set_black, store_pc_pc, store_left_pc, store_right_pc,
        store_pc_left, store_pc_right, store_left_left, store_left_right, store_right_left,
        store_right_right, call_mem, change_child_pc,
        hT, h_p_sx, h_p_sl, h_sx_sl, hpw, ne_eq, not_false_eq_true, not_true_eq_false, if_true, if_false,
        ite_true, ite_false, addr_node, addr_nil] at hσ
  rcases hσ with rfl | rfl | rfl
  · refine Acyclic_local (T := .node cp N p (.node cs (.node csl Sll sl Slr) sx Sr))
      (U := .node cp N p (.node csl Sll sl Slr)) hk ?_ ?_ ?_
    · simp
    · intro x hx
      have f0 : x ≠ p := frame_ne hnd0 hx (by simp [Tree.inorder])
      have f1 : x ≠ sx := frame_ne hnd0 hx (by simp [Tree.inorder])
      have f2 : x ≠ sl := frame_ne hnd0 hx (by simp [Tree.inorder])
      simp [store_pc_mem_ne, store_left_mem_ne, store_right_mem_ne, f0, f1, f2]
    · simp [Shape, Shape_store_left, Shape_store_right, hT, hS, hnd, h_p_sx, h_p_sl, h_sx_sl]
  · refine Acyclic_local (T := .node cp N p (.node cs (.node csl Sll sl Slr) sx Sr))
      (U := .node cp N p (.node csl Sll sl Slr)) hk ?_ ?_ ?_
    · simp
    · intro x hx
      have f0 : x ≠ p := frame_ne hnd0 hx (by simp [Tree.inorder])
      have f1 : x ≠ sx := frame_ne hnd0 hx (by simp [Tree.inorder])
      have f2 : x ≠ sl := frame_ne hnd0 hx (by simp [Tree.inorder])
      simp [store_pc_mem_ne, store_left_mem_ne, store_right_mem_ne, f0, f1, f2]
    · simp [Shape, Shape_store_left, Shape_store_right, hT, hS, hnd, h_p_sx, h_p_sl, h_sx_sl]
  · refine Acyclic_change_child_eq (T := .node cp N p (.node cs (.node csl Sll sl Slr) sx Sr))
      (U := .node cp (.node .red N p (.node .black Sll sl Slr)) sx Sr) hk hnd0 hT.1 (by simp) ?_ ?_ ?_ ?_
    · simp
    · intro x hx
      have f0 : x ≠ p := frame_ne hnd0 hx (by simp [Tree.inorder])
      have f1 : x ≠ sx := frame_ne hnd0 hx (by simp [Tree.inorder])
      have f2 : x ≠ sl := frame_ne hnd0 hx (by simp [Tree.inorder])
      simp [store_pc_mem_ne, store_left_mem_ne, store_right_mem_ne, f0, f1, f2]
    · simp [Shape, Shape_store_left, Shape_store_right, hT, hS, hnd, h_p_sx, h_p_sl, h_sx_sl]
    · simp [Tree.inorder]

theorem erase_case1_right_acyclic {s : State α} {k : Ctx} {cp cs csr : Color}
    {N Srl Srr Sl : Tree} {p sx sr : Nat}
    (h : WF s (plug k (.node cp (.node cs Sl sx (.node csr Srl sr Srr)) p N))) :
    ∀ σ ∈ erase_case1_right_stores s p sx, Acyclic σ := by
  rw [WF_plug'] at h
  obtain ⟨hk, hT, hnd⟩ := h
  have hpar := RepCtx_ctxAddr_aligned hk
  have hnd0 := hnd
  have hpw := parent_of_word cp hpar
  have hS := Rep_Shape _ _ hT
  intro σ hσ
  simp only [erase_case1_right_stores, List.mem_cons, List.mem_append, List.mem_singleton, List.not_mem_nil, or_false, false_or, or_assoc] at hσ
  simp only [Tree.inorder, List.nodup_append, List.nodup_cons, List.disjoint_append_left,
        List.disjoint_append_right, List.disjoint_cons_left, List.disjoint_cons_right,
        List.mem_append, List.mem_cons, not_or] at hnd
  simp only [Rep, addr_node, addr_nil, color_node, color_nil] at hT
  simp only [Shape, addr_node, addr_nil, hT] at hS
  have h_p_sx : p ≠ sx ∧ sx ≠ p := by
    first
    | exact ne_pair (by simp only [hnd, not_false_eq_true])
    | exact (ne_pair (by simp only [hnd, not_false_eq_true])).symm
  have h_p_sr : p ≠ sr ∧ sr ≠ p := by
    first
    | exact ne_pair (by simp only [hnd, not_false_eq_true])
    | exact (ne_pair (by simp only [hnd, not_false_eq_true])).symm
  have h_sx_sr : sx ≠ sr ∧ sr ≠ sx := by
    first
    | exact ne_pair (by simp only [hnd, not_false_eq_true])
    | exact (ne_pair (by simp only [hnd, not_false_eq_true])).symm
  simp only [__chx_rb_rotate_set_parents, chx_rb_parent, chx_rb_set_parent_color, chx_rb_set_parent, chx_rb_color, chx_rb_set_black, store_pc_pc, store_left_pc, store_right_pc,
        store_pc_left, store_pc_right, store_left_left, store_left_right, store_right_left,
        store_right_right, call_mem, change_child_pc,
        hT, h_p_sx, h_p_sr, h_sx_sr, hpw, ne_eq, not_false_eq_true, not_true_eq_false, if_true, if_false,
        ite_true, ite_false, addr_node, addr_nil] at hσ
  rcases hσ with rfl | rfl | rfl
  · refine Acyclic_local (T := .node cp (.node cs Sl sx (.node csr Srl sr Srr)) p N)
      (U := .node cp (.node csr Srl sr Srr) p N) hk ?_ ?_ ?_
    · simp
    · intro x hx
      have f0 : x ≠ p := frame_ne hnd0 hx (by simp [Tree.inorder])
      have f1 : x ≠ sx := frame_ne hnd0 hx (by simp [Tree.inorder])
      have f2 : x ≠ sr := frame_ne hnd0 hx (by simp [Tree.inorder])
      simp [store_pc_mem_ne, store_left_mem_ne, store_right_mem_ne, f0, f1, f2]
    · simp [Shape, Shape_store_left, Shape_store_right, hT, hS, hnd, h_p_sx, h_p_sr, h_sx_sr]
  · refine Acyclic_local (T := .node cp (.node cs Sl sx (.node csr Srl sr Srr)) p N)
      (U := .node cp (.node csr Srl sr Srr) p N) hk ?_ ?_ ?_
    · simp
    · intro x hx
      have f0 : x ≠ p := frame_ne hnd0 hx (by simp [Tree.inorder])
      have f1 : x ≠ sx := frame_ne hnd0 hx (by simp [Tree.inorder])
      have f2 : x ≠ sr := frame_ne hnd0 hx (by simp [Tree.inorder])
      simp [store_pc_mem_ne, store_left_mem_ne, store_right_mem_ne, f0, f1, f2]
    · simp [Shape, Shape_store_left, Shape_store_right, hT, hS, hnd, h_p_sx, h_p_sr, h_sx_sr]
  · refine Acyclic_change_child_eq (T := .node cp (.node cs Sl sx (.node csr Srl sr Srr)) p N)
      (U := .node cp Sl sx (.node .red (.node .black Srl sr Srr) p N)) hk hnd0 hT.1 (by simp) ?_ ?_ ?_ ?_
    · simp
    · intro x hx
      have f0 : x ≠ p := frame_ne hnd0 hx (by simp [Tree.inorder])
      have f1 : x ≠ sx := frame_ne hnd0 hx (by simp [Tree.inorder])
      have f2 : x ≠ sr := frame_ne hnd0 hx (by simp [Tree.inorder])
      simp [store_pc_mem_ne, store_left_mem_ne, store_right_mem_ne, f0, f1, f2]
    · simp [Shape, Shape_store_left, Shape_store_right, hT, hS, hnd, h_p_sx, h_p_sr, h_sx_sr]
    · simp [Tree.inorder]

theorem erase_case4_left_acyclic {s : State α} {k : Ctx} {c cs csr : Color}
    {N Sl Srl Srr : Tree} {p sx sr : Nat}
    (h : WF s (plug k (.node c N p (.node cs Sl sx (.node csr Srl sr Srr))))) :
    ∀ σ ∈ erase_case4_left_stores s p sx sr, Acyclic σ := by
  rw [WF_plug'] at h
  obtain ⟨hk, hT, hnd⟩ := h
  have hpar := RepCtx_ctxAddr_aligned hk
  have hnd0 := hnd
  have hpw := parent_of_word c hpar
  have hS := Rep_Shape _ _ hT
  intro σ hσ
  simp only [erase_case4_left_stores, List.mem_cons, List.mem_append, List.mem_singleton, List.not_mem_nil, or_false, false_or, or_assoc] at hσ
  cases Sl with
  | nil =>
    simp only [Tree.inorder, List.nodup_append, List.nodup_cons, List.disjoint_append_left,
          List.disjoint_append_right, List.disjoint_cons_left, List.disjoint_cons_right,
          List.mem_append, List.mem_cons, not_or] at hnd
    simp only [Rep, addr_node, addr_nil, color_node, color_nil] at hT
    simp only [Shape, addr_node, addr_nil, hT] at hS
    have h_p_sx : p ≠ sx ∧ sx ≠ p := by
      first
      | exact ne_pair (by simp only [hnd, not_false_eq_true])
      | exact (ne_pair (by simp only [hnd, not_false_eq_true])).symm
    have h_p_sr : p ≠ sr ∧ sr ≠ p := by
      first
      | exact ne_pair (by simp only [hnd, not_false_eq_true])
      | exact (ne_pair (by simp only [hnd, not_false_eq_true])).symm
    have h_sx_sr : sx ≠ sr ∧ sr ≠ sx := by
      first
      | exact ne_pair (by simp only [hnd, not_false_eq_true])
      | exact (ne_pair (by simp only [hnd, not_false_eq_true])).symm
    simp only [__chx_rb_rotate_set_parents, chx_rb_parent, chx_rb_set_parent_color, chx_rb_set_parent, chx_rb_color, chx_rb_set_black, store_pc_pc, store_left_pc, store_right_pc,
          store_pc_left, store_pc_right, store_left_left, store_left_right, store_right_left,
          store_right_right, call_mem, change_child_pc,
          hT, h_p_sx, h_p_sr, h_sx_sr, hpw, ne_eq, not_false_eq_true, not_true_eq_false, if_true, if_false,
          ite_true, ite_false, addr_node, addr_nil, color_of_word] at hσ
    rcases hσ with rfl | rfl | rfl
    · refine Acyclic_local (T := .node c N p (.node cs .nil sx (.node csr Srl sr Srr)))
        (U := .node c N p .nil) hk ?_ ?_ ?_
      · simp
      · intro x hx
        have f0 : x ≠ p := frame_ne hnd0 hx (by simp [Tree.inorder])
        have f1 : x ≠ sx := frame_ne hnd0 hx (by simp [Tree.inorder])
        have f2 : x ≠ sr := frame_ne hnd0 hx (by simp [Tree.inorder])
        simp [store_pc_mem_ne, store_left_mem_ne, store_right_mem_ne, f0, f1, f2]
      · simp [Shape, Shape_store_left, Shape_store_right, hT, hS, hnd, h_p_sx, h_p_sr, h_sx_sr]
    · refine Acyclic_local (T := .node c N p (.node cs .nil sx (.node csr Srl sr Srr)))
        (U := .node c N p .nil) hk ?_ ?_ ?_
      · simp
      · intro x hx
        have f0 : x ≠ p := frame_ne hnd0 hx (by simp [Tree.inorder])
        have f1 : x ≠ sx := frame_ne hnd0 hx (by simp [Tree.inorder])
        have f2 : x ≠ sr := frame_ne hnd0 hx (by simp [Tree.inorder])
        simp [store_pc_mem_ne, store_left_mem_ne, store_right_mem_ne, f0, f1, f2]
      · simp [Shape, Shape_store_left, Shape_store_right, hT, hS, hnd, h_p_sx, h_p_sr, h_sx_sr]
    · refine Acyclic_change_child_eq (T := .node c N p (.node cs .nil sx (.node csr Srl sr Srr)))
        (U := .node c (.node .black N p .nil) sx (.node .black Srl sr Srr)) hk hnd0 hT.1 (by simp) ?_ ?_ ?_ ?_
      · simp
      · intro x hx
        have f0 : x ≠ p := frame_ne hnd0 hx (by simp [Tree.inorder])
        have f1 : x ≠ sx := frame_ne hnd0 hx (by simp [Tree.inorder])
        have f2 : x ≠ sr := frame_ne hnd0 hx (by simp [Tree.inorder])
        simp [store_pc_mem_ne, store_left_mem_ne, store_right_mem_ne, f0, f1, f2]
      · simp [Shape, Shape_store_left, Shape_store_right, hT, hS, hnd, h_p_sx, h_p_sr, h_sx_sr]
      · simp [Tree.inorder]
  | node cSl Sll sl Slr =>
    simp only [Tree.inorder, List.nodup_append, List.nodup_cons, List.disjoint_append_left,
          List.disjoint_append_right, List.disjoint_cons_left, List.disjoint_cons_right,
          List.mem_append, List.mem_cons, not_or] at hnd
    simp only [Rep, addr_node, addr_nil, color_node, color_nil] at hT
    simp only [Shape, addr_node, addr_nil, hT] at hS
    have h_p_sx : p ≠ sx ∧ sx ≠ p := by
      first
      | exact ne_pair (by simp only [hnd, not_false_eq_true])
      | exact (ne_pair (by simp only [hnd, not_false_eq_true])).symm
    have h_p_sr : p ≠ sr ∧ sr ≠ p := by
      first
      | exact ne_pair (by simp only [hnd, not_false_eq_true])
      | exact (ne_pair (by simp only [hnd, not_false_eq_true])).symm
    have h_p_sl : p ≠ sl ∧ sl ≠ p := by
      first
      | exact ne_pair (by simp only [hnd, not_false_eq_true])
      | exact (ne_pair (by simp only [hnd, not_false_eq_true])).symm
    have h_sx_sr : sx ≠ sr ∧ sr ≠ sx := by
      first
      | exact ne_pair (by simp only [hnd, not_false_eq_true])
      | exact (ne_pair (by simp only [hnd, not_false_eq_true])).symm
    have h_sx_sl : sx ≠ sl ∧ sl ≠ sx := by
      first
      | exact ne_pair (by simp only [hnd, not_false_eq_true])
      | exact (ne_pair (by simp only [hnd, not_false_eq_true])).symm
    have h_sr_sl : sr ≠ sl ∧ sl ≠ sr := by
      first
      | exact ne_pair (by simp only [hnd, not_false_eq_true])
      | exact (ne_pair (by simp only [hnd, not_false_eq_true])).symm
    have h0_sl : sl ≠ 0 := by simp only [hT, ne_eq, not_false_eq_true]
    simp only [__chx_rb_rotate_set_parents, chx_rb_parent, chx_rb_set_parent_color, chx_rb_set_parent, chx_rb_color, chx_rb_set_black, store_pc_pc, store_left_pc, store_right_pc,
          store_pc_left, store_pc_right, store_left_left, store_left_right, store_right_left,
          store_right_right, call_mem, change_child_pc,
          hT, h_p_sx, h_p_sr, h_p_sl, h_sx_sr, h_sx_sl, h_sr_sl, h0_sl, hpw, ne_eq, not_false_eq_true, not_true_eq_false, if_true, if_false,
          ite_true, ite_false, addr_node, addr_nil, color_of_word] at hσ
    rcases hσ with rfl | rfl | rfl
    · refine Acyclic_local (T := .node c N p (.node cs (.node cSl Sll sl Slr) sx (.node csr Srl sr Srr)))
        (U := .node c N p (.node cSl Sll sl Slr)) hk ?_ ?_ ?_
      · simp
      · intro x hx
        have f0 : x ≠ p := frame_ne hnd0 hx (by simp [Tree.inorder])
        have f1 : x ≠ sx := frame_ne hnd0 hx (by simp [Tree.inorder])
        have f2 : x ≠ sr := frame_ne hnd0 hx (by simp [Tree.inorder])
        have f3 : x ≠ sl := frame_ne hnd0 hx (by simp [Tree.inorder])
        simp [store_pc_mem_ne, store_left_mem_ne, store_right_mem_ne, f0, f1, f2, f3]
      · simp [Shape, Shape_store_left, Shape_store_right, hT, hS, hnd, h_p_sx, h_p_sr, h_p_sl, h_sx_sr, h_sx_sl, h_sr_sl, h0_sl]
    · refine Acyclic_local (T := .node c N p (.node cs (.node cSl Sll sl Slr) sx (.node csr Srl sr Srr)))
        (U := .node c N p (.node cSl Sll sl Slr)) hk ?_ ?_ ?_
      · simp
      · intro x hx
        have f0 : x ≠ p := frame_ne hnd0 hx (by simp [Tree.inorder])
        have f1 : x ≠ sx := frame_ne hnd0 hx (by simp [Tree.inorder])
        have f2 : x ≠ sr := frame_ne hnd0 hx (by simp [Tree.inorder])
        have f3 : x ≠ sl := frame_ne hnd0 hx (by simp [Tree.inorder])
        simp [store_pc_mem_ne, store_left_mem_ne, store_right_mem_ne, f0, f1, f2, f3]
      · simp [Shape, Shape_store_left, Shape_store_right, hT, hS, hnd, h_p_sx, h_p_sr, h_p_sl, h_sx_sr, h_sx_sl, h_sr_sl, h0_sl]
    · refine Acyclic_change_child_eq (T := .node c N p (.node cs (.node cSl Sll sl Slr) sx (.node csr Srl sr Srr)))
        (U := .node c (.node .black N p (.node cSl Sll sl Slr)) sx (.node .black Srl sr Srr)) hk hnd0 hT.1 (by simp) ?_ ?_ ?_ ?_
      · simp
      · intro x hx
        have f0 : x ≠ p := frame_ne hnd0 hx (by simp [Tree.inorder])
        have f1 : x ≠ sx := frame_ne hnd0 hx (by simp [Tree.inorder])
        have f2 : x ≠ sr := frame_ne hnd0 hx (by simp [Tree.inorder])
        have f3 : x ≠ sl := frame_ne hnd0 hx (by simp [Tree.inorder])
        simp [store_pc_mem_ne, store_left_mem_ne, store_right_mem_ne, f0, f1, f2, f3]
      · simp [Shape, Shape_store_left, Shape_store_right, hT, hS, hnd, h_p_sx, h_p_sr, h_p_sl, h_sx_sr, h_sx_sl, h_sr_sl, h0_sl]
      · simp [Tree.inorder]

theorem erase_case4_right_acyclic {s : State α} {k : Ctx} {c cs csl : Color}
    {N Sr Sll Slr : Tree} {p sx sl : Nat}
    (h : WF s (plug k (.node c (.node cs (.node csl Sll sl Slr) sx Sr) p N))) :
    ∀ σ ∈ erase_case4_right_stores s p sx sl, Acyclic σ := by
  rw [WF_plug'] at h
  obtain ⟨hk, hT, hnd⟩ := h
  have hpar := RepCtx_ctxAddr_aligned hk
  have hnd0 := hnd
  have hpw := parent_of_word c hpar
  have hS := Rep_Shape _ _ hT
  intro σ hσ
  simp only [erase_case4_right_stores, List.mem_cons, List.mem_append, List.mem_singleton, List.not_mem_nil, or_false, false_or, or_assoc] at hσ
  cases Sr with
  | nil =>
    simp only [Tree.inorder, List.nodup_append, List.nodup_cons, List.disjoint_append_left,
          List.disjoint_append_right, List.disjoint_cons_left, List.disjoint_cons_right,
          List.mem_append, List.mem_cons, not_or] at hnd
    simp only [Rep, addr_node, addr_nil, color_node, color_nil] at hT
    simp only [Shape, addr_node, addr_nil, hT] at hS
    have h_p_sx : p ≠ sx ∧ sx ≠ p := by
      first
      | exact ne_pair (by simp only [hnd, not_false_eq_true])
      | exact (ne_pair (by simp only [hnd, not_false_eq_true])).symm
    have h_p_sl : p ≠ sl ∧ sl ≠ p := by
      first
      | exact ne_pair (by simp only [hnd, not_false_eq_true])
      | exact (ne_pair (by simp only [hnd, not_false_eq_true])).symm
    have h_sx_sl : sx ≠ sl ∧ sl ≠ sx := by
      first
      | exact ne_pair (by simp only [hnd, not_false_eq_true])
      | exact (ne_pair (by simp only [hnd, not_false_eq_true])).symm
    simp only [__chx_rb_rotate_set_parents, chx_rb_parent, chx_rb_set_parent_color, chx_rb_set_parent, chx_rb_color, chx_rb_set_black, store_pc_pc, store_left_pc, store_right_pc,
          store_pc_left, store_pc_right, store_left_left, store_left_right, store_right_left,
          store_right_right, call_mem, change_child_pc,
          hT, h_p_sx, h_p_sl, h_sx_sl, hpw, ne_eq, not_false_eq_true, not_true_eq_false, if_true, if_false,
          ite_true, ite_false, addr_node, addr_nil, color_of_word] at hσ
    rcases hσ with rfl | rfl | rfl
    · refine Acyclic_local (T := .node c (.node cs (.node csl Sll sl Slr) sx .nil) p N)
        (U := .node c .nil p N) hk ?_ ?_ ?_
      · simp
      · intro x hx
        have f0 : x ≠ p := frame_ne hnd0 hx (by simp [Tree.inorder])
        have f1 : x ≠ sx := frame_ne hnd0 hx (by simp [Tree.inorder])
        have f2 : x ≠ sl := frame_ne hnd0 hx (by simp [Tree.inorder])
        simp [store_pc_mem_ne, store_left_mem_ne, store_right_mem_ne, f0, f1, f2]
      · simp [Shape, Shape_store_left, Shape_store_right, hT, hS, hnd, h_p_sx, h_p_sl, h_sx_sl]
    · refine Acyclic_local (T := .node c (.node cs (.node csl Sll sl Slr) sx .nil) p N)
        (U := .node c .nil p N) hk ?_ ?_ ?_
      · simp
      · intro x hx
        have f0 : x ≠ p := frame_ne hnd0 hx (by simp [Tree.inorder])
        have f1 : x ≠ sx := frame_ne hnd0 hx (by simp [Tree.inorder])
        have f2 : x ≠ sl := frame_ne hnd0 hx (by simp [Tree.inorder])
        simp [store_pc_mem_ne, store_left_mem_ne, store_right_mem_ne, f0, f1, f2]
      · simp [Shape, Shape_store_left, Shape_store_right, hT, hS, hnd, h_p_sx, h_p_sl, h_sx_sl]
    · refine Acyclic_change_child_eq (T := .node c (.node cs (.node csl Sll sl Slr) sx .nil) p N)
        (U := .node c (.node .black Sll sl Slr) sx (.node .black .nil p N)) hk hnd0 hT.1 (by simp) ?_ ?_ ?_ ?_
      · simp
      · intro x hx
        have f0 : x ≠ p := frame_ne hnd0 hx (by simp [Tree.inorder])
        have f1 : x ≠ sx := frame_ne hnd0 hx (by simp [Tree.inorder])
        have f2 : x ≠ sl := frame_ne hnd0 hx (by simp [Tree.inorder])
        simp [store_pc_mem_ne, store_left_mem_ne, store_right_mem_ne, f0, f1, f2]
      · simp [Shape, Shape_store_left, Shape_store_right, hT, hS, hnd, h_p_sx, h_p_sl, h_sx_sl]
      · simp [Tree.inorder]
  | node cSr Srl sr Srr =>
    simp only [Tree.inorder, List.nodup_append, List.nodup_cons, List.disjoint_append_left,
          List.disjoint_append_right, List.disjoint_cons_left, List.disjoint_cons_right,
          List.mem_append, List.mem_cons, not_or] at hnd
    simp only [Rep, addr_node, addr_nil, color_node, color_nil] at hT
    simp only [Shape, addr_node, addr_nil, hT] at hS
    have h_p_sx : p ≠ sx ∧ sx ≠ p := by
      first
      | exact ne_pair (by simp only [hnd, not_false_eq_true])
      | exact (ne_pair (by simp only [hnd, not_false_eq_true])).symm
    have h_p_sl : p ≠ sl ∧ sl ≠ p := by
      first
      | exact ne_pair (by simp only [hnd, not_false_eq_true])
      | exact (ne_pair (by simp only [hnd, not_false_eq_true])).symm
    have h_p_sr : p ≠ sr ∧ sr ≠ p := by
      first
      | exact ne_pair (by simp only [hnd, not_false_eq_true])
      | exact (ne_pair (by simp only [hnd, not_false_eq_true])).symm
    have h_sx_sl : sx ≠ sl ∧ sl ≠ sx := by
      first
      | exact ne_pair (by simp only [hnd, not_false_eq_true])
      | exact (ne_pair (by simp only [hnd, not_false_eq_true])).symm
    have h_sx_sr : sx ≠ sr ∧ sr ≠ sx := by
      first
      | exact ne_pair (by simp only [hnd, not_false_eq_true])
      | exact (ne_pair (by simp only [hnd, not_false_eq_true])).symm
    have h_sl_sr : sl ≠ sr ∧ sr ≠ sl := by
      first
      | exact ne_pair (by simp only [hnd, not_false_eq_true])
      | exact (ne_pair (by simp only [hnd, not_false_eq_true])).symm
    have h0_sr : sr ≠ 0 := by simp only [hT, ne_eq, not_false_eq_true]
    simp only [__chx_rb_rotate_set_parents, chx_rb_parent, chx_rb_set_parent_color, chx_rb_set_parent, chx_rb_color, chx_rb_set_black, store_pc_pc, store_left_pc, store_right_pc,
          store_pc_left, store_pc_right, store_left_left, store_left_right, store_right_left,
          store_right_right, call_mem, change_child_pc,
          hT, h_p_sx, h_p_sl, h_p_sr, h_sx_sl, h_sx_sr, h_sl_sr, h0_sr, hpw, ne_eq, not_false_eq_true, not_true_eq_false, if_true, if_false,
          ite_true, ite_false, addr_node, addr_nil, color_of_word] at hσ
    rcases hσ with rfl | rfl | rfl
    · refine Acyclic_local (T := .node c (.node cs (.node csl Sll sl Slr) sx (.node cSr Srl sr Srr)) p N)
        (U := .node c (.node cSr Srl sr Srr) p N) hk ?_ ?_ ?_
      · simp
      · intro x hx
        have f0 : x ≠ p := frame_ne hnd0 hx (by simp [Tree.inorder])
        have f1 : x ≠ sx := frame_ne hnd0 hx (by simp [Tree.inorder])
        have f2 : x ≠ sl := frame_ne hnd0 hx (by simp [Tree.inorder])
        have f3 : x ≠ sr := frame_ne hnd0 hx (by simp [Tree.inorder])
        simp [store_pc_mem_ne, store_left_mem_ne, store_right_mem_ne, f0, f1, f2, f3]
      · simp [Shape, Shape_store_left, Shape_store_right, hT, hS, hnd, h_p_sx, h_p_sl, h_p_sr, h_sx_sl, h_sx_sr, h_sl_sr, h0_sr]
    · refine Acyclic_local (T := .node c (.node cs (.node csl Sll sl Slr) sx (.node cSr Srl sr Srr)) p N)
        (U := .node c (.node cSr Srl sr Srr) p N) hk ?_ ?_ ?_
      · simp
      · intro x hx
        have f0 : x ≠ p := frame_ne hnd0 hx (by simp [Tree.inorder])
        have f1 : x ≠ sx := frame_ne hnd0 hx (by simp [Tree.inorder])
        have f2 : x ≠ sl := frame_ne hnd0 hx (by simp [Tree.inorder])
        have f3 : x ≠ sr := frame_ne hnd0 hx (by simp [Tree.inorder])
        simp [store_pc_mem_ne, store_left_mem_ne, store_right_mem_ne, f0, f1, f2, f3]
      · simp [Shape, Shape_store_left, Shape_store_right, hT, hS, hnd, h_p_sx, h_p_sl, h_p_sr, h_sx_sl, h_sx_sr, h_sl_sr, h0_sr]
    · refine Acyclic_change_child_eq (T := .node c (.node cs (.node csl Sll sl Slr) sx (.node cSr Srl sr Srr)) p N)
        (U := .node c (.node .black Sll sl Slr) sx (.node .black (.node cSr Srl sr Srr) p N)) hk hnd0 hT.1 (by simp) ?_ ?_ ?_ ?_
      · simp
      · intro x hx
        have f0 : x ≠ p := frame_ne hnd0 hx (by simp [Tree.inorder])
        have f1 : x ≠ sx := frame_ne hnd0 hx (by simp [Tree.inorder])
        have f2 : x ≠ sl := frame_ne hnd0 hx (by simp [Tree.inorder])
        have f3 : x ≠ sr := frame_ne hnd0 hx (by simp [Tree.inorder])
        simp [store_pc_mem_ne, store_left_mem_ne, store_right_mem_ne, f0, f1, f2, f3]
      · simp [Shape, Shape_store_left, Shape_store_right, hT, hS, hnd, h_p_sx, h_p_sl, h_p_sr, h_sx_sl, h_sx_sr, h_sl_sr, h0_sr]
      · simp [Tree.inorder]

theorem erase_case34_left_acyclic (rot : Callback α) {s : State α} {k : Ctx} {c cs csl : Color}
    {N Sll Slr Sr : Tree} {p sx sl : Nat}
    (h : WF s (plug k (.node c N p (.node cs (.node csl Sll sl Slr) sx Sr)))) :
    ∀ σ ∈ erase_case3_left_stores s p sx sl ++
      erase_case4_left_stores (erase_case3_left rot s p sx sl) p sl sx, Acyclic σ := by
  rw [WF_plug'] at h
  obtain ⟨hk, hT, hnd⟩ := h
  have hpar := RepCtx_ctxAddr_aligned hk
  have hnd0 := hnd
  have hpw := parent_of_word c hpar
  have hS := Rep_Shape _ _ hT
  intro σ hσ
  simp only [erase_case3_left_stores, erase_case4_left_stores, erase_case3_left, List.mem_cons, List.mem_append, List.mem_singleton, List.not_mem_nil, or_false, false_or, or_assoc] at hσ
  cases Sll with
  | nil =>
    cases Slr with
    | nil =>
      simp only [Tree.inorder, List.nodup_append, List.nodup_cons, List.disjoint_append_left,
            List.disjoint_append_right, List.disjoint_cons_left, List.disjoint_cons_right,
            List.mem_append, List.mem_cons, not_or] at hnd
      simp only [Rep, addr_node, addr_nil, color_node, color_nil] at hT
      simp only [Shape, addr_node, addr_nil, hT] at hS
      have h_p_sx : p ≠ sx ∧ sx ≠ p := by
        first
        | exact ne_pair (by simp only [hnd, not_false_eq_true])
        | exact (ne_pair (by simp only [hnd, not_false_eq_true])).symm
      have h_p_sl : p ≠ sl ∧ sl ≠ p := by
        first
        | exact ne_pair (by simp only [hnd, not_false_eq_true])
        | exact (ne_pair (by simp only [hnd, not_false_eq_true])).symm
      have h_sx_sl : sx ≠ sl ∧ sl ≠ sx := by
        first
        | exact ne_pair (by simp only [hnd, not_false_eq_true])
        | exact (ne_pair (by simp only [hnd, not_false_eq_true])).symm
      simp only [__chx_rb_rotate_set_parents, chx_rb_parent, chx_rb_set_parent_color, chx_rb_set_parent, chx_rb_color, chx_rb_set_black, store_pc_pc, store_left_pc, store_right_pc,
            store_pc_left, store_pc_right, store_left_left, store_left_right, store_right_left,
            store_right_right, call_mem, change_child_pc,
            hT, h_p_sx, h_p_sl, h_sx_sl, hpw, ne_eq, not_false_eq_true, not_true_eq_false, if_true, if_false,
            ite_true, ite_false, addr_node, addr_nil, color_of_word] at hσ
      rcases hσ with rfl | rfl | rfl | rfl | rfl | rfl
      · refine Acyclic_local (T := .node c N p (.node cs (.node csl .nil sl .nil) sx Sr))
          (U := .node c N p (.node cs .nil sx Sr)) hk ?_ ?_ ?_
        · simp
        · intro x hx
          have f0 : x ≠ p := frame_ne hnd0 hx (by simp [Tree.inorder])
          have f1 : x ≠ sx := frame_ne hnd0 hx (by simp [Tree.inorder])
          have f2 : x ≠ sl := frame_ne hnd0 hx (by simp [Tree.inorder])
          simp [store_pc_mem_ne, store_left_mem_ne, store_right_mem_ne, f0, f1, f2]
        · simp [Shape, Shape_store_left, Shape_store_right, hT, hS, hnd, h_p_sx, h_p_sl, h_sx_sl]
      · refine Acyclic_local (T := .node c N p (.node cs (.node csl .nil sl .nil) sx Sr))
          (U := .node c N p (.node cs .nil sx Sr)) hk ?_ ?_ ?_
        · simp
        · intro x hx
          have f0 : x ≠ p := frame_ne hnd0 hx (by simp [Tree.inorder])
          have f1 : x ≠ sx := frame_ne hnd0 hx (by simp [Tree.inorder])
          have f2 : x ≠ sl := frame_ne hnd0 hx (by simp [Tree.inorder])
          simp [store_pc_mem_ne, store_left_mem_ne, store_right_mem_ne, f0, f1, f2]
        · simp [Shape, Shape_store_left, Shape_store_right, hT, hS, hnd, h_p_sx, h_p_sl, h_sx_sl]
      · refine Acyclic_local (T := .node c N p (.node cs (.node csl .nil sl .nil) sx Sr))
          (U := .node c N p (.node csl .nil sl (.node cs .nil sx Sr))) hk ?_ ?_ ?_
        · simp
        · intro x hx
          have f0 : x ≠ p := frame_ne hnd0 hx (by simp [Tree.inorder])
          have f1 : x ≠ sx := frame_ne hnd0 hx (by simp [Tree.inorder])
          have f2 : x ≠ sl := frame_ne hnd0 hx (by simp [Tree.inorder])
          simp [store_pc_mem_ne, store_left_mem_ne, store_right_mem_ne, f0, f1, f2]
        · simp [Shape, Shape_store_left, Shape_store_right, hT, hS, hnd, h_p_sx, h_p_sl, h_sx_sl]
      · refine Acyclic_local (T := .node c N p (.node cs (.node csl .nil sl .nil) sx Sr))
          (U := .node c N p .nil) hk ?_ ?_ ?_
        · simp
        · intro x hx
          have f0 : x ≠ p := frame_ne hnd0 hx (by simp [Tree.inorder])
          have f1 : x ≠ sx := frame_ne hnd0 hx (by simp [Tree.inorder])
          have f2 : x ≠ sl := frame_ne hnd0 hx (by simp [Tree.inorder])
          simp [store_pc_mem_ne, store_left_mem_ne, store_right_mem_ne, f0, f1, f2]
        · simp [Shape, Shape_store_left, Shape_store_right, hT, hS, hnd, h_p_sx, h_p_sl, h_sx_sl]
      · refine Acyclic_local (T := .node c N p (.node cs (.node csl .nil sl .nil) sx Sr))
          (U := .node c N p .nil) hk ?_ ?_ ?_
        · simp
        · intro x hx
          have f0 : x ≠ p := frame_ne hnd0 hx (by simp [Tree.inorder])
          have f1 : x ≠ sx := frame_ne hnd0 hx (by simp [Tree.inorder])
          have f2 : x ≠ sl := frame_ne hnd0 hx (by simp [Tree.inorder])
          simp [store_pc_mem_ne, store_left_mem_ne, store_right_mem_ne, f0, f1, f2]
        · simp [Shape, Shape_store_left, Shape_store_right, hT, hS, hnd, h_p_sx, h_p_sl, h_sx_sl]
      · refine Acyclic_change_child_eq (T := .node c N p (.node cs (.node csl .nil sl .nil) sx Sr))
          (U := .node c (.node .black N p .nil) sl (.node .black .nil sx Sr)) hk hnd0 hT.1 (by simp) ?_ ?_ ?_ ?_
        · simp
        · intro x hx
          have f0 : x ≠ p := frame_ne hnd0 hx (by simp [Tree.inorder])
          have f1 : x ≠ sx := frame_ne hnd0 hx (by simp [Tree.inorder])
          have f2 : x ≠ sl := frame_ne hnd0 hx (by simp [Tree.inorder])
          simp [store_pc_mem_ne, store_left_mem_ne, store_right_mem_ne, f0, f1, f2]
        · simp [Shape, Shape_store_left, Shape_store_right, hT, hS, hnd, h_p_sx, h_p_sl, h_sx_sl]
        · simp [Tree.inorder]
    | node cSlr Slrl slr Slrr =>
      simp only [Tree.inorder, List.nodup_append, List.nodup_cons, List.disjoint_append_left,
            List.disjoint_append_right, List.disjoint_cons_left, List.disjoint_cons_right,
            List.mem_append, List.mem_cons, not_or] at hnd
      simp only [Rep, addr_node, addr_nil, color_node, color_nil] at hT
      simp only [Shape, addr_node, addr_nil, hT] at hS
      have h_p_sx : p ≠ sx ∧ sx ≠ p := by
        first
        | exact ne_pair (by simp only [hnd, not_false_eq_true])
        | exact (ne_pair (by simp only [hnd, not_false_eq_true])).symm
      have h_p_sl : p ≠ sl ∧ sl ≠ p := by
        first
        | exact ne_pair (by simp only [hnd, not_false_eq_true])
        | exact (ne_pair (by simp only [hnd, not_false_eq_true])).symm
      have h_p_slr : p ≠ slr ∧ slr ≠ p := by
        first
        | exact ne_pair (by simp only [hnd, not_false_eq_true])
        | exact (ne_pair (by simp only [hnd, not_false_eq_true])).symm
      have h_sx_sl : sx ≠ sl ∧ sl ≠ sx := by
        first
        | exact ne_pair (by simp only [hnd, not_false_eq_true])
        | exact (ne_pair (by simp only [hnd, not_false_eq_true])).symm
      have h_sx_slr : sx ≠ slr ∧ slr ≠ sx := by
        first
        | exact ne_pair (by simp only [hnd, not_false_eq_true])
        | exact (ne_pair (by simp only [hnd, not_false_eq_true])).symm
      have h_sl_slr : sl ≠ slr ∧ slr ≠ sl := by
        first
        | exact ne_pair (by simp only [hnd, not_false_eq_true])
        | exact (ne_pair (by simp only [hnd, not_false_eq_true])).symm
      have h0_slr : slr ≠ 0 := by simp only [hT, ne_eq, not_false_eq_true]
      simp only [__chx_rb_rotate_set_parents, chx_rb_parent, chx_rb_set_parent_color, chx_rb_set_parent, chx_rb_color, chx_rb_set_black, store_pc_pc, store_left_pc, store_right_pc,
            store_pc_left, store_pc_right, store_left_left, store_left_right, store_right_left,
            store_right_right, call_mem, change_child_pc,
            hT, h_p_sx, h_p_sl, h_p_slr, h_sx_sl, h_sx_slr, h_sl_slr, h0_slr, hpw, ne_eq, not_false_eq_true, not_true_eq_false, if_true, if_false,
            ite_true, ite_false, addr_node, addr_nil, color_of_word] at hσ
      rcases hσ with rfl | rfl | rfl | rfl | rfl | rfl
      · refine Acyclic_local (T := .node c N p (.node cs (.node csl .nil sl (.node cSlr Slrl slr Slrr)) sx Sr))
          (U := .node c N p (.node cs (.node cSlr Slrl slr Slrr) sx Sr)) hk ?_ ?_ ?_
        · simp
        · intro x hx
          have f0 : x ≠ p := frame_ne hnd0 hx (by simp [Tree.inorder])
          have f1 : x ≠ sx := frame_ne hnd0 hx (by simp [Tree.inorder])
          have f2 : x ≠ sl := frame_ne hnd0 hx (by simp [Tree.inorder])
          have f3 : x ≠ slr := frame_ne hnd0 hx (by simp [Tree.inorder])
          simp [store_pc_mem_ne, store_left_mem_ne, store_right_mem_ne, f0, f1, f2, f3]
        · simp [Shape, Shape_store_left, Shape_store_right, hT, hS, hnd, h_p_sx, h_p_sl, h_p_slr, h_sx_sl, h_sx_slr, h_sl_slr, h0_slr]
      · refine Acyclic_local (T := .node c N p (.node cs (.node csl .nil sl (.node cSlr Slrl slr Slrr)) sx Sr))
          (U := .node c N p (.node cs (.node cSlr Slrl slr Slrr) sx Sr)) hk ?_ ?_ ?_
        · simp
        · intro x hx
          have f0 : x ≠ p := frame_ne hnd0 hx (by simp [Tree.inorder])
          have f1 : x ≠ sx := frame_ne hnd0 hx (by simp [Tree.inorder])
          have f2 : x ≠ sl := frame_ne hnd0 hx (by simp [Tree.inorder])
          have f3 : x ≠ slr := frame_ne hnd0 hx (by simp [Tree.inorder])
          simp [store_pc_mem_ne, store_left_mem_ne, store_right_mem_ne, f0, f1, f2, f3]
        · simp [Shape, Shape_store_left, Shape_store_right, hT, hS, hnd, h_p_sx, h_p_sl, h_p_slr, h_sx_sl, h_sx_slr, h_sl_slr, h0_slr]
      · refine Acyclic_local (T := .node c N p (.node cs (.node csl .nil sl (.node cSlr Slrl slr Slrr)) sx Sr))
          (U := .node c N p (.node csl .nil sl (.node cs (.node cSlr Slrl slr Slrr) sx Sr))) hk ?_ ?_ ?_
        · simp
        · intro x hx
          have f0 : x ≠ p := frame_ne hnd0 hx (by simp [Tree.inorder])
          have f1 : x ≠ sx := frame_ne hnd0 hx (by simp [Tree.inorder])
          have f2 : x ≠ sl := frame_ne hnd0 hx (by simp [Tree.inorder])
          have f3 : x ≠ slr := frame_ne hnd0 hx (by simp [Tree.inorder])
          simp [store_pc_mem_ne, store_left_mem_ne, store_right_mem_ne, f0, f1, f2, f3]
        · simp [Shape, Shape_store_left, Shape_store_right, hT, hS, hnd, h_p_sx, h_p_sl, h_p_slr, h_sx_sl, h_sx_slr, h_sl_slr, h0_slr]
      · refine Acyclic_local (T := .node c N p (.node cs (.node csl .nil sl (.node cSlr Slrl slr Slrr)) sx Sr))
          (U := .node c N p .nil) hk ?_ ?_ ?_
        · simp
        · intro x hx
          have f0 : x ≠ p := frame_ne hnd0 hx (by simp [Tree.inorder])
          have f1 : x ≠ sx := frame_ne hnd0 hx (by simp [Tree.inorder])
          have f2 : x ≠ sl := frame_ne hnd0 hx (by simp [Tree.inorder])
          have f3 : x ≠ slr := frame_ne hnd0 hx (by simp [Tree.inorder])
          simp [store_pc_mem_ne, store_left_mem_ne, store_right_mem_ne, f0, f1, f2, f3]
        · simp [Shape, Shape_store_left, Shape_store_right, hT, hS, hnd, h_p_sx, h_p_sl, h_p_slr, h_sx_sl, h_sx_slr, h_sl_slr, h0_slr]
      · refine Acyclic_local (T := .node c N p (.node cs (.node csl .nil sl (.node cSlr Slrl slr Slrr)) sx Sr))
          (U := .node c N p .nil) hk ?_ ?_ ?_
        · simp
        · intro x hx
          have f0 : x ≠ p := frame_ne hnd0 hx (by simp [Tree.inorder])
          have f1 : x ≠ sx := frame_ne hnd0 hx (by simp [Tree.inorder])
          have f2 : x ≠ sl := frame_ne hnd0 hx (by simp [Tree.inorder])
          have f3 : x ≠ slr := frame_ne hnd0 hx (by simp [Tree.inorder])
          simp [store_pc_mem_ne, store_left_mem_ne, store_right_mem_ne, f0, f1, f2, f3]
        · simp [Shape, Shape_store_left, Shape_store_right, hT, hS, hnd, h_p_sx, h_p_sl, h_p_slr, h_sx_sl, h_sx_slr, h_sl_slr, h0_slr]
      · refine Acyclic_change_child_eq (T := .node c N p (.node cs (.node csl .nil sl (.node cSlr Slrl slr Slrr)) sx Sr))
          (U := .node c (.node .black N p .nil) sl (.node .black (.node cSlr Slrl slr Slrr) sx Sr)) hk hnd0 hT.1 (by simp) ?_ ?_ ?_ ?_
        · simp
        · intro x hx
          have f0 : x ≠ p := frame_ne hnd0 hx (by simp [Tree.inorder])
          have f1 : x ≠ sx := frame_ne hnd0 hx (by simp [Tree.inorder])
          have f2 : x ≠ sl := frame_ne hnd0 hx (by simp [Tree.inorder])
          have f3 : x ≠ slr := frame_ne hnd0 hx (by simp [Tree.inorder])
          simp [store_pc_mem_ne, store_left_mem_ne, store_right_mem_ne, f0, f1, f2, f3]
        · simp [Shape, Shape_store_left, Shape_store_right, hT, hS, hnd, h_p_sx, h_p_sl, h_p_slr, h_sx_sl, h_sx_slr, h_sl_slr, h0_slr]
        · simp [Tree.inorder]
  | node cSll Slll sll Sllr =>
    cases Slr with
    | nil =>
      simp only [Tree.inorder, List.nodup_append, List.nodup_cons, List.disjoint_append_left,
            List.disjoint_append_right, List.disjoint_cons_left, List.disjoint_cons_right,
            List.mem_append, List.mem_cons, not_or] at hnd
      simp only [Rep, addr_node, addr_nil, color_node, color_nil] at hT
      simp only [Shape, addr_node, addr_nil, hT] at hS
      have h_p_sx : p ≠ sx ∧ sx ≠ p := by
        first
        | exact ne_pair (by simp only [hnd, not_false_eq_true])
        | exact (ne_pair (by simp only [hnd, not_false_eq_true])).symm
      have h_p_sl : p ≠ sl ∧ sl ≠ p := by
        first
        | exact ne_pair (by simp only [hnd, not_false_eq_true])
        | exact (ne_pair (by simp only [hnd, not_false_eq_true])).symm
      have h_p_sll : p ≠ sll ∧ sll ≠ p := by
        first
        | exact ne_pair (by simp only [hnd, not_false_eq_true])
        | exact (ne_pair (by simp only [hnd, not_false_eq_true])).symm
      have h_sx_sl : sx ≠ sl ∧ sl ≠ sx := by
        first
        | exact ne_pair (by simp only [hnd, not_false_eq_true])
        | exact (ne_pair (by simp only [hnd, not_false_eq_true])).symm
      have h_sx_sll : sx ≠ sll ∧ sll ≠ sx := by
        first
        | exact ne_pair (by simp only [hnd, not_false_eq_true])
        | exact (ne_pair (by simp only [hnd, not_false_eq_true])).symm
      have h_sl_sll : sl ≠ sll ∧ sll ≠ sl := by
        first
        | exact ne_pair (by simp only [hnd, not_false_eq_true])
        | exact (ne_pair (by simp only [hnd, not_false_eq_true])).symm
      have h0_sll : sll ≠ 0 := by simp only [hT, ne_eq, not_false_eq_true]
      simp only [__chx_rb_rotate_set_parents, chx_rb_parent, chx_rb_set_parent_color, chx_rb_set_parent, chx_rb_color, chx_rb_set_black, store_pc_pc, store_left_pc, store_right_pc,
            store_pc_left, store_pc_right, store_left_left, store_left_right, store_right_left,
            store_right_right, call_mem, change_child_pc,
            hT, h_p_sx, h_p_sl, h_p_sll, h_sx_sl, h_sx_sll, h_sl_sll, h0_sll, hpw, ne_eq, not_false_eq_true, not_true_eq_false, if_true, if_false,
            ite_true, ite_false, addr_node, addr_nil, color_of_word] at hσ
      rcases hσ with rfl | rfl | rfl | rfl | rfl | rfl
      · refine Acyclic_local (T := .node c N p (.node cs (.node csl (.node cSll Slll sll Sllr) sl .nil) sx Sr))
          (U := .node c N p (.node cs .nil sx Sr)) hk ?_ ?_ ?_
        · simp
        · intro x hx
          have f0 : x ≠ p := frame_ne hnd0 hx (by simp [Tree.inorder])
          have f1 : x ≠ sx := frame_ne hnd0 hx (by simp [Tree.inorder])
          have f2 : x ≠ sl := frame_ne hnd0 hx (by simp [Tree.inorder])
          have f3 : x ≠ sll := frame_ne hnd0 hx (by simp [Tree.inorder])
          simp [store_pc_mem_ne, store_left_mem_ne, store_right_mem_ne, f0, f1, f2, f3]
        · simp [Shape, Shape_store_left, Shape_store_right, hT, hS, hnd, h_p_sx, h_p_sl, h_p_sll, h_sx_sl, h_sx_sll, h_sl_sll, h0_sll]
      · refine Acyclic_local (T := .node c N p (.node cs (.node csl (.node cSll Slll sll Sllr) sl .nil) sx Sr))
          (U := .node c N p (.node cs .nil sx Sr)) hk ?_ ?_ ?_
        · simp
        · intro x hx
          have f0 : x ≠ p := frame_ne hnd0 hx (by simp [Tree.inorder])
          have f1 : x ≠ sx := frame_ne hnd0 hx (by simp [Tree.inorder])
          have f2 : x ≠ sl := frame_ne hnd0 hx (by simp [Tree.inorder])
          have f3 : x ≠ sll := frame_ne hnd0 hx (by simp [Tree.inorder])
          simp [store_pc_mem_ne, store_left_mem_ne, store_right_mem_ne, f0, f1, f2, f3]
        · simp [Shape, Shape_store_left, Shape_store_right, hT, hS, hnd, h_p_sx, h_p_sl, h_p_sll, h_sx_sl, h_sx_sll, h_sl_sll, h0_sll]
      · refine Acyclic_local (T := .node c N p (.node cs (.node csl (.node cSll Slll sll Sllr) sl .nil) sx Sr))
          (U := .node c N p (.node csl (.node cSll Slll sll Sllr) sl (.node cs .nil sx Sr))) hk ?_ ?_ ?_
        · simp
        · intro x hx
          have f0 : x ≠ p := frame_ne hnd0 hx (by simp [Tree.inorder])
          have f1 : x ≠ sx := frame_ne hnd0 hx (by simp [Tree.inorder])
          have f2 : x ≠ sl := frame_ne hnd0 hx (by simp [Tree.inorder])
          have f3 : x ≠ sll := frame_ne hnd0 hx (by simp [Tree.inorder])
          simp [store_pc_mem_ne, store_left_mem_ne, store_right_mem_ne, f0, f1, f2, f3]
        · simp [Shape, Shape_store_left, Shape_store_right, hT, hS, hnd, h_p_sx, h_p_sl, h_p_sll, h_sx_sl, h_sx_sll, h_sl_sll, h0_sll]
      · refine Acyclic_local (T := .node c N p (.node cs (.node csl (.node cSll Slll sll Sllr) sl .nil) sx Sr))
          (U := .node c N p (.node cSll Slll sll Sllr)) hk ?_ ?_ ?_
        · simp
        · intro x hx
          have f0 : x ≠ p := frame_ne hnd0 hx (by simp [Tree.inorder])
          have f1 : x ≠ sx := frame_ne hnd0 hx (by simp [Tree.inorder])
          have f2 : x ≠ sl := frame_ne hnd0 hx (by simp [Tree.inorder])
          have f3 : x ≠ sll := frame_ne hnd0 hx (by simp [Tree.inorder])
          simp [store_pc_mem_ne, store_left_mem_ne, store_right_mem_ne, f0, f1, f2, f3]
        · simp [Shape, Shape_store_left, Shape_store_right, hT, hS, hnd, h_p_sx, h_p_sl, h_p_sll, h_sx_sl, h_sx_sll, h_sl_sll, h0_sll]
      · refine Acyclic_local (T := .node c N p (.node cs (.node csl (.node cSll Slll sll Sllr) sl .nil) sx Sr))
          (U := .node c N p (.node cSll Slll sll Sllr)) hk ?_ ?_ ?_
        · simp
        · intro x hx
          have f0 : x ≠ p := frame_ne hnd0 hx (by simp [Tree.inorder])
          have f1 : x ≠ sx := frame_ne hnd0 hx (by simp [Tree.inorder])
          have f2 : x ≠ sl := frame_ne hnd0 hx (by simp [Tree.inorder])
          have f3 : x ≠ sll := frame_ne hnd0 hx (by simp [Tree.inorder])
          simp [store_pc_mem_ne, store_left_mem_ne, store_right_mem_ne, f0, f1, f2, f3]
        · simp [Shape, Shape_store_left, Shape_store_right, hT, hS, hnd, h_p_sx, h_p_sl, h_p_sll, h_sx_sl, h_sx_sll, h_sl_sll, h0_sll]
      · refine Acyclic_change_child_eq (T := .node c N p (.node cs (.node csl (.node cSll Slll sll Sllr) sl .nil) sx Sr))
          (U := .node c (.node .black N p (.node cSll Slll sll Sllr)) sl (.node .black .nil sx Sr)) hk hnd0 hT.1 (by simp) ?_ ?_ ?_ ?_
        · simp
        · intro x hx
          have f0 : x ≠ p := frame_ne hnd0 hx (by simp [Tree.inorder])
          have f1 : x ≠ sx := frame_ne hnd0 hx (by simp [Tree.inorder])
          have f2 : x ≠ sl := frame_ne hnd0 hx (by simp [Tree.inorder])
          have f3 : x ≠ sll := frame_ne hnd0 hx (by simp [Tree.inorder])
          simp [store_pc_mem_ne, store_left_mem_ne, store_right_mem_ne, f0, f1, f2, f3]
        · simp [Shape, Shape_store_left, Shape_store_right, hT, hS, hnd, h_p_sx, h_p_sl, h_p_sll, h_sx_sl, h_sx_sll, h_sl_sll, h0_sll]
        · simp [Tree.inorder]
    | node cSlr Slrl slr Slrr =>
      simp only [Tree.inorder, List.nodup_append, List.nodup_cons, List.disjoint_append_left,
            List.disjoint_append_right, List.disjoint_cons_left, List.disjoint_cons_right,
            List.mem_append, List.mem_cons, not_or] at hnd
      simp only [Rep, addr_node, addr_nil, color_node, color_nil] at hT
      simp only [Shape, addr_node, addr_nil, hT] at hS
      have h_p_sx : p ≠ sx ∧ sx ≠ p := by
        first
        | exact ne_pair (by simp only [hnd, not_false_eq_true])
        | exact (ne_pair (by simp only [hnd, not_false_eq_true])).symm
      have h_p_sl : p ≠ sl ∧ sl ≠ p := by
        first
        | exact ne_pair (by simp only [hnd, not_false_eq_true])
        | exact (ne_pair (by simp only [hnd, not_false_eq_true])).symm
      have h_p_sll : p ≠ sll ∧ sll ≠ p := by
        first
        | exact ne_pair (by simp only [hnd, not_false_eq_true])
        | exact (ne_pair (by simp only [hnd, not_false_eq_true])).symm
      have h_p_slr : p ≠ slr ∧ slr ≠ p := by
        first
        | exact ne_pair (by simp only [hnd, not_false_eq_true])
        | exact (ne_pair (by simp only [hnd, not_false_eq_true])).symm
      have h_sx_sl : sx ≠ sl ∧ sl ≠ sx := by
        first
        | exact ne_pair (by simp only [hnd, not_false_eq_true])
        | exact (ne_pair (by simp only [hnd, not_false_eq_true])).symm
      have h_sx_sll : sx ≠ sll ∧ sll ≠ sx := by
        first
        | exact ne_pair (by simp only [hnd, not_false_eq_true])
        | exact (ne_pair (by simp only [hnd, not_false_eq_true])).symm
      have h_sx_slr : sx ≠ slr ∧ slr ≠ sx := by
        first
        | exact ne_pair (by simp only [hnd, not_false_eq_true])
        | exact (ne_pair (by simp only [hnd, not_false_eq_true])).symm
      have h_sl_sll : sl ≠ sll ∧ sll ≠ sl := by
        first
        | exact ne_pair (by simp only [hnd, not_false_eq_true])
        | exact (ne_pair (by simp only [hnd, not_false_eq_true])).symm
      have h_sl_slr : sl ≠ slr ∧ slr ≠ sl := by
        first
        | exact ne_pair (by simp only [hnd, not_false_eq_true])
        | exact (ne_pair (by simp only [hnd, not_false_eq_true])).symm
      have h_sll_slr : sll ≠ slr ∧ slr ≠ sll := by
        first
        | exact ne_pair (by simp only [hnd, not_false_eq_true])
        | exact (ne_pair (by simp only [hnd, not_false_eq_true])).symm
      have h0_sll : sll ≠ 0 := by simp only [hT, ne_eq, not_false_eq_true]
      have h0_slr : slr ≠ 0 := by simp only [hT, ne_eq, not_false_eq_true]
      simp only [__chx_rb_rotate_set_parents, chx_rb_parent, chx_rb_set_parent_color, chx_rb_set_parent, chx_rb_color, chx_rb_set_black, store_pc_pc, store_left_pc, store_right_pc,
            store_pc_left, store_pc_right, store_left_left, store_left_right, store_right_left,
            store_right_right, call_mem, change_child_pc,
            hT, h_p_sx, h_p_sl, h_p_sll, h_p_slr, h_sx_sl, h_sx_sll, h_sx_slr, h_sl_sll, h_sl_slr, h_sll_slr, h0_sll, h0_slr, hpw, ne_eq, not_false_eq_true, not_true_eq_false, if_true, if_false,
            ite_true, ite_false, addr_node, addr_nil, color_of_word] at hσ
      rcases hσ with rfl | rfl | rfl | rfl | rfl | rfl
      · refine Acyclic_local (T := .node c N p (.node cs (.node csl (.node cSll Slll sll Sllr) sl (.node cSlr Slrl slr Slrr)) sx Sr))
          (U := .node c N p (.node cs (.node cSlr Slrl slr Slrr) sx Sr)) hk ?_ ?_ ?_
        · simp
        · intro x hx
          have f0 : x ≠ p := frame_ne hnd0 hx (by simp [Tree.inorder])
          have f1 : x ≠ sx := frame_ne hnd0 hx (by simp [Tree.inorder])
          have f2 : x ≠ sl := frame_ne hnd0 hx (by simp [Tree.inorder])
          have f3 : x ≠ sll := frame_ne hnd0 hx (by simp [Tree.inorder])
          have f4 : x ≠ slr := frame_ne hnd0 hx (by simp [Tree.inorder])
          simp [store_pc_mem_ne, store_left_mem_ne, store_right_mem_ne, f0, f1, f2, f3, f4]
        · simp [Shape, Shape_store_left, Shape_store_right, hT, hS, hnd, h_p_sx, h_p_sl, h_p_sll, h_p_slr, h_sx_sl, h_sx_sll, h_sx_slr, h_sl_sll, h_sl_slr, h_sll_slr, h0_sll, h0_slr]
      · refine Acyclic_local (T := .node c N p (.node cs (.node csl (.node cSll Slll sll Sllr) sl (.node cSlr Slrl slr Slrr)) sx Sr))
          (U := .node c N p (.node cs (.node cSlr Slrl slr Slrr) sx Sr)) hk ?_ ?_ ?_
        · simp
        · intro x hx
          have f0 : x ≠ p := frame_ne hnd0 hx (by simp [Tree.inorder])
          have f1 : x ≠ sx := frame_ne hnd0 hx (by simp [Tree.inorder])
          have f2 : x ≠ sl := frame_ne hnd0 hx (by simp [Tree.inorder])
          have f3 : x ≠ sll := frame_ne hnd0 hx (by simp [Tree.inorder])
          have f4 : x ≠ slr := frame_ne hnd0 hx (by simp [Tree.inorder])
          simp [store_pc_mem_ne, store_left_mem_ne, store_right_mem_ne, f0, f1, f2, f3, f4]
        · simp [Shape, Shape_store_left, Shape_store_right, hT, hS, hnd, h_p_sx, h_p_sl, h_p_sll, h_p_slr, h_sx_sl, h_sx_sll, h_sx_slr, h_sl_sll, h_sl_slr, h_sll_slr, h0_sll, h0_slr]
      · refine Acyclic_local (T := .node c N p (.node cs (.node csl (.node cSll Slll sll Sllr) sl (.node cSlr Slrl slr Slrr)) sx Sr))
          (U := .node c N p (.node csl (.node cSll Slll sll Sllr) sl (.node cs (.node cSlr Slrl slr Slrr) sx Sr))) hk ?_ ?_ ?_
        · simp
        · intro x hx
          have f0 : x ≠ p := frame_ne hnd0 hx (by simp [Tree.inorder])
          have f1 : x ≠ sx := frame_ne hnd0 hx (by simp [Tree.inorder])
          have f2 : x ≠ sl := frame_ne hnd0 hx (by simp [Tree.inorder])
          have f3 : x ≠ sll := frame_ne hnd0 hx (by simp [Tree.inorder])
          have f4 : x ≠ slr := frame_ne hnd0 hx (by simp [Tree.inorder])
          simp [store_pc_mem_ne, store_left_mem_ne, store_right_mem_ne, f0, f1, f2, f3, f4]
        · simp [Shape, Shape_store_left, Shape_store_right, hT, hS, hnd, h_p_sx, h_p_sl, h_p_sll, h_p_slr, h_sx_sl, h_sx_sll, h_sx_slr, h_sl_sll, h_sl_slr, h_sll_slr, h0_sll, h0_slr]
      · refine Acyclic_local (T := .node c N p (.node cs (.node csl (.node cSll Slll sll Sllr) sl (.node cSlr Slrl slr Slrr)) sx Sr))
          (U := .node c N p (.node cSll Slll sll Sllr)) hk ?_ ?_ ?_
        · simp
        · intro x hx
          have f0 : x ≠ p := frame_ne hnd0 hx (by simp [Tree.inorder])
          have f1 : x ≠ sx := frame_ne hnd0 hx (by simp [Tree.inorder])
          have f2 : x ≠ sl := frame_ne hnd0 hx (by simp [Tree.inorder])
          have f3 : x ≠ sll := frame_ne hnd0 hx (by simp [Tree.inorder])
          have f4 : x ≠ slr := frame_ne hnd0 hx (by simp [Tree.inorder])
          simp [store_pc_mem_ne, store_left_mem_ne, store_right_mem_ne, f0, f1, f2, f3, f4]
        · simp [Shape, Shape_store_left, Shape_store_right, hT, hS, hnd, h_p_sx, h_p_sl, h_p_sll, h_p_slr, h_sx_sl, h_sx_sll, h_sx_slr, h_sl_sll, h_sl_slr, h_sll_slr, h0_sll, h0_slr]
      · refine Acyclic_local (T := .node c N p (.node cs (.node csl (.node cSll Slll sll Sllr) sl (.node cSlr Slrl slr Slrr)) sx Sr))
          (U := .node c N p (.node cSll Slll sll Sllr)) hk ?_ ?_ ?_
        · simp
        · intro x hx
          have f0 : x ≠ p := frame_ne hnd0 hx (by simp [Tree.inorder])
          have f1 : x ≠ sx := frame_ne hnd0 hx (by simp [Tree.inorder])
          have f2 : x ≠ sl := frame_ne hnd0 hx (by simp [Tree.inorder])
          have f3 : x ≠ sll := frame_ne hnd0 hx (by simp [Tree.inorder])
          have f4 : x ≠ slr := frame_ne hnd0 hx (by simp [Tree.inorder])
          simp [store_pc_mem_ne, store_left_mem_ne, store_right_mem_ne, f0, f1, f2, f3, f4]
        · simp [Shape, Shape_store_left, Shape_store_right, hT, hS, hnd, h_p_sx, h_p_sl, h_p_sll, h_p_slr, h_sx_sl, h_sx_sll, h_sx_slr, h_sl_sll, h_sl_slr, h_sll_slr, h0_sll, h0_slr]
      · refine Acyclic_change_child_eq (T := .node c N p (.node cs (.node csl (.node cSll Slll sll Sllr) sl (.node cSlr Slrl slr Slrr)) sx Sr))
          (U := .node c (.node .black N p (.node cSll Slll sll Sllr)) sl (.node .black (.node cSlr Slrl slr Slrr) sx Sr)) hk hnd0 hT.1 (by simp) ?_ ?_ ?_ ?_
        · simp
        · intro x hx
          have f0 : x ≠ p := frame_ne hnd0 hx (by simp [Tree.inorder])
          have f1 : x ≠ sx := frame_ne hnd0 hx (by simp [Tree.inorder])
          have f2 : x ≠ sl := frame_ne hnd0 hx (by simp [Tree.inorder])
          have f3 : x ≠ sll := frame_ne hnd0 hx (by simp [Tree.inorder])
          have f4 : x ≠ slr := frame_ne hnd0 hx (by simp [Tree.inorder])
          simp [store_pc_mem_ne, store_left_mem_ne, store_right_mem_ne, f0, f1, f2, f3, f4]
        · simp [Shape, Shape_store_left, Shape_store_right, hT, hS, hnd, h_p_sx, h_p_sl, h_p_sll, h_p_slr, h_sx_sl, h_sx_sll, h_sx_slr, h_sl_sll, h_sl_slr, h_sll_slr, h0_sll, h0_slr]
        · simp [Tree.inorder]

theorem erase_case34_right_acyclic (rot : Callback α) {s : State α} {k : Ctx} {c cs csr : Color}
    {N Sl Srl Srr : Tree} {p sx sr : Nat}
    (h : WF s (plug k (.node c (.node cs Sl sx (.node csr Srl sr Srr)) p N))) :
    ∀ σ ∈ erase_case3_right_stores s p sx sr ++
      erase_case4_right_stores (erase_case3_right rot s p sx sr) p sr sx, Acyclic σ := by
  rw [WF_plug'] at h
  obtain ⟨hk, hT, hnd⟩ := h
  have hpar := RepCtx_ctxAddr_aligned hk
  have hnd0 := hnd
  have hpw := parent_of_word c hpar
  have hS := Rep_Shape _ _ hT
  intro σ hσ
  simp only [erase_case3_right_stores, erase_case4_right_stores, erase_case3_right, List.mem_cons, List.mem_append, List.mem_singleton, List.not_mem_nil, or_false, false_or, or_assoc] at hσ
  cases Srl with
  | nil =>
    cases Srr with
    | nil =>
      simp only [Tree.inorder, List.nodup_append, List.nodup_cons, List.disjoint_append_left,
            List.disjoint_append_right, List.disjoint_cons_left, List.disjoint_cons_right,
            List.mem_append, List.mem_cons, not_or] at hnd
      simp only [Rep, addr_node, addr_nil, color_node, color_nil] at hT
      simp only [Shape, addr_node, addr_nil, hT] at hS
      have h_p_sx : p ≠ sx ∧ sx ≠ p := by
        first
        | exact ne_pair (by simp only [hnd, not_false_eq_true])
        | exact (ne_pair (by simp only [hnd, not_false_eq_true])).symm
      have h_p_sr : p ≠ sr ∧ sr ≠ p := by
        first
        | exact ne_pair (by simp only [hnd, not_false_eq_true])
        | exact (ne_pair (by simp only [hnd, not_false_eq_true])).symm
      have h_sx_sr : sx ≠ sr ∧ sr ≠ sx := by
        first
        | exact ne_pair (by simp only [hnd, not_false_eq_true])
        | exact (ne_pair (by simp only [hnd, not_false_eq_true])).symm
      simp only [__chx_rb_rotate_set_parents, chx_rb_parent, chx_rb_set_parent_color, chx_rb_set_parent, chx_rb_color, chx_rb_set_black, store_pc_pc, store_left_pc, store_right_pc,
            store_pc_left, store_pc_right, store_left_left, store_left_right, store_right_left,
            store_right_right, call_mem, change_child_pc,
            hT, h_p_sx, h_p_sr, h_sx_sr, hpw, ne_eq, not_false_eq_true, not_true_eq_false, if_true, if_false,
            ite_true, ite_false, addr_node, addr_nil, color_of_word] at hσ
      rcases hσ with rfl | rfl | rfl | rfl | rfl | rfl
      · refine Acyclic_local (T := .node c (.node cs Sl sx (.node csr .nil sr .nil)) p N)
          (U := .node c (.node cs Sl sx .nil) p N) hk ?_ ?_ ?_
        · simp
        · intro x hx
          have f0 : x ≠ p := frame_ne hnd0 hx (by simp [Tree.inorder])
          have f1 : x ≠ sx := frame_ne hnd0 hx (by simp [Tree.inorder])
          have f2 : x ≠ sr := frame_ne hnd0 hx (by simp [Tree.inorder])
          simp [store_pc_mem_ne, store_left_mem_ne, store_right_mem_ne, f0, f1, f2]
        · simp [Shape, Shape_store_left, Shape_store_right, hT, hS, hnd, h_p_sx, h_p_sr, h_sx_sr]
      · refine Acyclic_local (T := .node c (.node cs Sl sx (.node csr .nil sr .nil)) p N)
          (U := .node c (.node cs Sl sx .nil) p N) hk ?_ ?_ ?_
        · simp
        · intro x hx
          have f0 : x ≠ p := frame_ne hnd0 hx (by simp [Tree.inorder])
          have f1 : x ≠ sx := frame_ne hnd0 hx (by simp [Tree.inorder])
          have f2 : x ≠ sr := frame_ne hnd0 hx (by simp [Tree.inorder])
          simp [store_pc_mem_ne, store_left_mem_ne, store_right_mem_ne, f0, f1, f2]
        · simp [Shape, Shape_store_left, Shape_store_right, hT, hS, hnd, h_p_sx, h_p_sr, h_sx_sr]
      · refine Acyclic_local (T := .node c (.node cs Sl sx (.node csr .nil sr .nil)) p N)
          (U := .node c (.node csr (.node cs Sl sx .nil) sr .nil) p N) hk ?_ ?_ ?_
        · simp
        · intro x hx
          have f0 : x ≠ p := frame_ne hnd0 hx (by simp [Tree.inorder])
          have f1 : x ≠ sx := frame_ne hnd0 hx (by simp [Tree.inorder])
          have f2 : x ≠ sr := frame_ne hnd0 hx (by simp [Tree.inorder])
          simp [store_pc_mem_ne, store_left_mem_ne, store_right_mem_ne, f0, f1, f2]
        · simp [Shape, Shape_store_left, Shape_store_right, hT, hS, hnd, h_p_sx, h_p_sr, h_sx_sr]
      · refine Acyclic_local (T := .node c (.node cs Sl sx (.node csr .nil sr .nil)) p N)
          (U := .node c .nil p N) hk ?_ ?_ ?_
        · simp
        · intro x hx
          have f0 : x ≠ p := frame_ne hnd0 hx (by simp [Tree.inorder])
          have f1 : x ≠ sx := frame_ne hnd0 hx (by simp [Tree.inorder])
          have f2 : x ≠ sr := frame_ne hnd0 hx (by simp [Tree.inorder])
          simp [store_pc_mem_ne, store_left_mem_ne, store_right_mem_ne, f0, f1, f2]
        · simp [Shape, Shape_store_left, Shape_store_right, hT, hS, hnd, h_p_sx, h_p_sr, h_sx_sr]
      · refine Acyclic_local (T := .node c (.node cs Sl sx (.node csr .nil sr .nil)) p N)
          (U := .node c .nil p N) hk ?_ ?_ ?_
        · simp
        · intro x hx
          have f0 : x ≠ p := frame_ne hnd0 hx (by simp [Tree.inorder])
          have f1 : x ≠ sx := frame_ne hnd0 hx (by simp [Tree.inorder])
          have f2 : x ≠ sr := frame_ne hnd0 hx (by simp [Tree.inorder])
          simp [store_pc_mem_ne, store_left_mem_ne, store_right_mem_ne, f0, f1, f2]
        · simp [Shape, Shape_store_left, Shape_store_right, hT, hS, hnd, h_p_sx, h_p_sr, h_sx_sr]
      · refine Acyclic_change_child_eq (T := .node c (.node cs Sl sx (.node csr .nil sr .nil)) p N)
          (U := .node c (.node .black Sl sx .nil) sr (.node .black .nil p N)) hk hnd0 hT.1 (by simp) ?_ ?_ ?_ ?_
        · simp
        · intro x hx
          have f0 : x ≠ p := frame_ne hnd0 hx (by simp [Tree.inorder])
          have f1 : x ≠ sx := frame_ne hnd0 hx (by simp [Tree.inorder])
          have f2 : x ≠ sr := frame_ne hnd0 hx (by simp [Tree.inorder])
          simp [store_pc_mem_ne, store_left_mem_ne, store_right_mem_ne, f0, f1, f2]
        · simp [Shape, Shape_store_left, Shape_store_right, hT, hS, hnd, h_p_sx, h_p_sr, h_sx_sr]
        · simp [Tree.inorder]
    | node cSrr Srrl srr Srrr =>
      simp only [Tree.inorder, List.nodup_append, List.nodup_cons, List.disjoint_append_left,
            List.disjoint_append_right, List.disjoint_cons_left, List.disjoint_cons_right,
            List.mem_append, List.mem_cons, not_or] at hnd
      simp only [Rep, addr_node, addr_nil, color_node, color_nil] at hT
      simp only [Shape, addr_node, addr_nil, hT] at hS
      have h_p_sx : p ≠ sx ∧ sx ≠ p := by
        first
        | exact ne_pair (by simp only [hnd, not_false_eq_true])
        | exact (ne_pair (by simp only [hnd, not_false_eq_true])).symm
      have h_p_sr : p ≠ sr ∧ sr ≠ p := by
        first
        | exact ne_pair (by simp only [hnd, not_false_eq_true])
        | exact (ne_pair (by simp only [hnd, not_false_eq_true])).symm
      have h_p_srr : p ≠ srr ∧ srr ≠ p := by
        first
        | exact ne_pair (by simp only [hnd, not_false_eq_true])
        | exact (ne_pair (by simp only [hnd, not_false_eq_true])).symm
      have h_sx_sr : sx ≠ sr ∧ sr ≠ sx := by
        first
        | exact ne_pair (by simp only [hnd, not_false_eq_true])
        | exact (ne_pair (by simp only [hnd, not_false_eq_true])).symm
      have h_sx_srr : sx ≠ srr ∧ srr ≠ sx := by
        first
        | exact ne_pair (by simp only [hnd, not_false_eq_true])
        | exact (ne_pair (by simp only [hnd, not_false_eq_true])).symm
      have h_sr_srr : sr ≠ srr ∧ srr ≠ sr := by
        first
        | exact ne_pair (by simp only [hnd, not_false_eq_true])
        | exact (ne_pair (by simp only [hnd, not_false_eq_true])).symm
      have h0_srr : srr ≠ 0 := by simp only [hT, ne_eq, not_false_eq_true]
      simp only [__chx_rb_rotate_set_parents, chx_rb_parent, chx_rb_set_parent_color, chx_rb_set_parent, chx_rb_color, chx_rb_set_black, store_pc_pc, store_left_pc, store_right_pc,
            store_pc_left, store_pc_right, store_left_left, store_left_right, store_right_left,
            store_right_right, call_mem, change_child_pc,
            hT, h_p_sx, h_p_sr, h_p_srr, h_sx_sr, h_sx_srr, h_sr_srr, h0_srr, hpw, ne_eq, not_false_eq_true, not_true_eq_false, if_true, if_false,
            ite_true, ite_false, addr_node, addr_nil, color_of_word] at hσ
      rcases hσ with rfl | rfl | rfl | rfl | rfl | rfl
      · refine Acyclic_local (T := .node c (.node cs Sl sx (.node csr .nil sr (.node cSrr Srrl srr Srrr))) p N)
          (U := .node c (.node cs Sl sx .nil) p N) hk ?_ ?_ ?_
        · simp
        · intro x hx
          have f0 : x ≠ p := frame_ne hnd0 hx (by simp [Tree.inorder])
          have f1 : x ≠ sx := frame_ne hnd0 hx (by simp [Tree.inorder])
          have f2 : x ≠ sr := frame_ne hnd0 hx (by simp [Tree.inorder])
          have f3 : x ≠ srr := frame_ne hnd0 hx (by simp [Tree.inorder])
          simp [store_pc_mem_ne, store_left_mem_ne, store_right_mem_ne, f0, f1, f2, f3]
        · simp [Shape, Shape_store_left, Shape_store_right, hT, hS, hnd, h_p_sx, h_p_sr, h_p_srr, h_sx_sr, h_sx_srr, h_sr_srr, h0_srr]
      · refine Acyclic_local (T := .node c (.node cs Sl sx (.node csr .nil sr (.node cSrr Srrl srr Srrr))) p N)
          (U := .node c (.node cs Sl sx .nil) p N) hk ?_ ?_ ?_
        · simp
        · intro x hx
          have f0 : x ≠ p := frame_ne hnd0 hx (by simp [Tree.inorder])
          have f1 : x ≠ sx := frame_ne hnd0 hx (by simp [Tree.inorder])
          have f2 : x ≠ sr := frame_ne hnd0 hx (by simp [Tree.inorder])
          have f3 : x ≠ srr := frame_ne hnd0 hx (by simp [Tree.inorder])
          simp [store_pc_mem_ne, store_left_mem_ne, store_right_mem_ne, f0, f1, f2, f3]
        · simp [Shape, Shape_store_left, Shape_store_right, hT, hS, hnd, h_p_sx, h_p_sr, h_p_srr, h_sx_sr, h_sx_srr, h_sr_srr, h0_srr]
      · refine Acyclic_local (T := .node c (.node cs Sl sx (.node csr .nil sr (.node cSrr Srrl srr Srrr))) p N)
          (U := .node c (.node csr (.node cs Sl sx .nil) sr (.node cSrr Srrl srr Srrr)) p N) hk ?_ ?_ ?_
        · simp
        · intro x hx
          have f0 : x ≠ p := frame_ne hnd0 hx (by simp [Tree.inorder])
          have f1 : x ≠ sx := frame_ne hnd0 hx (by simp [Tree.inorder])
          have f2 : x ≠ sr := frame_ne hnd0 hx (by simp [Tree.inorder])
          have f3 : x ≠ srr := frame_ne hnd0 hx (by simp [Tree.inorder])
          simp [store_pc_mem_ne, store_left_mem_ne, store_right_mem_ne, f0, f1, f2, f3]
        · simp [Shape, Shape_store_left, Shape_store_right, hT, hS, hnd, h_p_sx, h_p_sr, h_p_srr, h_sx_sr, h_sx_srr, h_sr_srr, h0_srr]
      · refine Acyclic_local (T := .node c (.node cs Sl sx (.node csr .nil sr (.node cSrr Srrl srr Srrr))) p N)
          (U := .node c (.node cSrr Srrl srr Srrr) p N) hk ?_ ?_ ?_
        · simp
        · intro x hx
          have f0 : x ≠ p := frame_ne hnd0 hx (by simp [Tree.inorder])
          have f1 : x ≠ sx := frame_ne hnd0 hx (by simp [Tree.inorder])
          have f2 : x ≠ sr := frame_ne hnd0 hx (by simp [Tree.inorder])
          have f3 : x ≠ srr := frame_ne hnd0 hx (by simp [Tree.inorder])
          simp [store_pc_mem_ne, store_left_mem_ne, store_right_mem_ne, f0, f1, f2, f3]
        · simp [Shape, Shape_store_left, Shape_store_right, hT, hS, hnd, h_p_sx, h_p_sr, h_p_srr, h_sx_sr, h_sx_srr, h_sr_srr, h0_srr]
      · refine Acyclic_local (T := .node c (.node cs Sl sx (.node csr .nil sr (.node cSrr Srrl srr Srrr))) p N)
          (U := .node c (.node cSrr Srrl srr Srrr) p N) hk ?_ ?_ ?_
        · simp
        · intro x hx
          have f0 : x ≠ p := frame_ne hnd0 hx (by simp [Tree.inorder])
          have f1 : x ≠ sx := frame_ne hnd0 hx (by simp [Tree.inorder])
          have f2 : x ≠ sr := frame_ne hnd0 hx (by simp [Tree.inorder])
          have f3 : x ≠ srr := frame_ne hnd0 hx (by simp [Tree.inorder])
          simp [store_pc_mem_ne, store_left_mem_ne, store_right_mem_ne, f0, f1, f2, f3]
        · simp [Shape, Shape_store_left, Shape_store_right, hT, hS, hnd, h_p_sx, h_p_sr, h_p_srr, h_sx_sr, h_sx_srr, h_sr_srr, h0_srr]
      · refine Acyclic_change_child_eq (T := .node c (.node cs Sl sx (.node csr .nil sr (.node cSrr Srrl srr Srrr))) p N)
          (U := .node c (.node .black Sl sx .nil) sr (.node .black (.node cSrr Srrl srr Srrr) p N)) hk hnd0 hT.1 (by simp) ?_ ?_ ?_ ?_
        · simp
        · intro x hx
          have f0 : x ≠ p := frame_ne hnd0 hx (by simp [Tree.inorder])
          have f1 : x ≠ sx := frame_ne hnd0 hx (by simp [Tree.inorder])
          have f2 : x ≠ sr := frame_ne hnd0 hx (by simp [Tree.inorder])
          have f3 : x ≠ srr := frame_ne hnd0 hx (by simp [Tree.inorder])
          simp [store_pc_mem_ne, store_left_mem_ne, store_right_mem_ne, f0, f1, f2, f3]
        · simp [Shape, Shape_store_left, Shape_store_right, hT, hS, hnd, h_p_sx, h_p_sr, h_p_srr, h_sx_sr, h_sx_srr, h_sr_srr, h0_srr]
        · simp [Tree.inorder]
  | node cSrl Srll srl Srlr =>
    cases Srr with
    | nil =>
      simp only [Tree.inorder, List.nodup_append, List.nodup_cons, List.disjoint_append_left,
            List.disjoint_append_right, List.disjoint_cons_left, List.disjoint_cons_right,
            List.mem_append, List.mem_cons, not_or] at hnd
      simp only [Rep, addr_node, addr_nil, color_node, color_nil] at hT
      simp only [Shape, addr_node, addr_nil, hT] at hS
      have h_p_sx : p ≠ sx ∧ sx ≠ p := by
        first
        | exact ne_pair (by simp only [hnd, not_false_eq_true])
        | exact (ne_pair (by simp only [hnd, not_false_eq_true])).symm
      have h_p_sr : p ≠ sr ∧ sr ≠ p := by
        first
        | exact ne_pair (by simp only [hnd, not_false_eq_true])
        | exact (ne_pair (by simp only [hnd, not_false_eq_true])).symm
      have h_p_srl : p ≠ srl ∧ srl ≠ p := by
        first
        | exact ne_pair (by simp only [hnd, not_false_eq_true])
        | exact (ne_pair (by simp only [hnd, not_false_eq_true])).symm
      have h_sx_sr : sx ≠ sr ∧ sr ≠ sx := by
        first
        | exact ne_pair (by simp only [hnd, not_false_eq_true])
        | exact (ne_pair (by simp only [hnd, not_false_eq_true])).symm
      have h_sx_srl : sx ≠ srl ∧ srl ≠ sx := by
        first
        | exact ne_pair (by simp only [hnd, not_false_eq_true])
        | exact (ne_pair (by simp only [hnd, not_false_eq_true])).symm
      have h_sr_srl : sr ≠ srl ∧ srl ≠ sr := by
        first
        | exact ne_pair (by simp only [hnd, not_false_eq_true])
        | exact (ne_pair (by simp only [hnd, not_false_eq_true])).symm
      have h0_srl : srl ≠ 0 := by simp only [hT, ne_eq, not_false_eq_true]
      simp only [__chx_rb_rotate_set_parents, chx_rb_parent, chx_rb_set_parent_color, chx_rb_set_parent, chx_rb_color, chx_rb_set_black, store_pc_pc, store_left_pc, store_right_pc,
            store_pc_left, store_pc_right, store_left_left, store_left_right, store_right_left,
            store_right_right, call_mem, change_child_pc,
            hT, h_p_sx, h_p_sr, h_p_srl, h_sx_sr, h_sx_srl, h_sr_srl, h0_srl, hpw, ne_eq, not_false_eq_true, not_true_eq_false, if_true, if_false,
            ite_true, ite_false, addr_node, addr_nil, color_of_word] at hσ
      rcases hσ with rfl | rfl | rfl | rfl | rfl | rfl
      · refine Acyclic_local (T := .node c (.node cs Sl sx (.node csr (.node cSrl Srll srl Srlr) sr .nil)) p N)
          (U := .node c (.node cs Sl sx (.node cSrl Srll srl Srlr)) p N) hk ?_ ?_ ?_
        · simp
        · intro x hx
          have f0 : x ≠ p := frame_ne hnd0 hx (by simp [Tree.inorder])
          have f1 : x ≠ sx := frame_ne hnd0 hx (by simp [Tree.inorder])
          have f2 : x ≠ sr := frame_ne hnd0 hx (by simp [Tree.inorder])
          have f3 : x ≠ srl := frame_ne hnd0 hx (by simp [Tree.inorder])
          simp [store_pc_mem_ne, store_left_mem_ne, store_right_mem_ne, f0, f1, f2, f3]
        · simp [Shape, Shape_store_left, Shape_store_right, hT, hS, hnd, h_p_sx, h_p_sr, h_p_srl, h_sx_sr, h_sx_srl, h_sr_srl, h0_srl]
      · refine Acyclic_local (T := .node c (.node cs Sl sx (.node csr (.node cSrl Srll srl Srlr) sr .nil)) p N)
          (U := .node c (.node cs Sl sx (.node cSrl Srll srl Srlr)) p N) hk ?_ ?_ ?_
        · simp
        · intro x hx
          have f0 : x ≠ p := frame_ne hnd0 hx (by simp [Tree.inorder])
          have f1 : x ≠ sx := frame_ne hnd0 hx (by simp [Tree.inorder])
          have f2 : x ≠ sr := frame_ne hnd0 hx (by simp [Tree.inorder])
          have f3 : x ≠ srl := frame_ne hnd0 hx (by simp [Tree.inorder])
          simp [store_pc_mem_ne, store_left_mem_ne, store_right_mem_ne, f0, f1, f2, f3]
        · simp [Shape, Shape_store_left, Shape_store_right, hT, hS, hnd, h_p_sx, h_p_sr, h_p_srl, h_sx_sr, h_sx_srl, h_sr_srl, h0_srl]
      · refine Acyclic_local (T := .node c (.node cs Sl sx (.node csr (.node cSrl Srll srl Srlr) sr .nil)) p N)
          (U := .node c (.node csr (.node cs Sl sx (.node cSrl Srll srl Srlr)) sr .nil) p N) hk ?_ ?_ ?_
        · simp
        · intro x hx
          have f0 : x ≠ p := frame_ne hnd0 hx (by simp [Tree.inorder])
          have f1 : x ≠ sx := frame_ne hnd0 hx (by simp [Tree.inorder])
          have f2 : x ≠ sr := frame_ne hnd0 hx (by simp [Tree.inorder])
          have f3 : x ≠ srl := frame_ne hnd0 hx (by simp [Tree.inorder])
          simp [store_pc_mem_ne, store_left_mem_ne, store_right_mem_ne, f0, f1, f2, f3]
        · simp [Shape, Shape_store_left, Shape_store_right, hT, hS, hnd, h_p_sx, h_p_sr, h_p_srl, h_sx_sr, h_sx_srl, h_sr_srl, h0_srl]
      · refine Acyclic_local (T := .node c (.node cs Sl sx (.node csr (.node cSrl Srll srl Srlr) sr .nil)) p N)
          (U := .node c .nil p N) hk ?_ ?_ ?_
        · simp
        · intro x hx
          have f0 : x ≠ p := frame_ne hnd0 hx (by simp [Tree.inorder])
          have f1 : x ≠ sx := frame_ne hnd0 hx (by simp [Tree.inorder])
          have f2 : x ≠ sr := frame_ne hnd0 hx (by simp [Tree.inorder])
          have f3 : x ≠ srl := frame_ne hnd0 hx (by simp [Tree.inorder])
          simp [store_pc_mem_ne, store_left_mem_ne, store_right_mem_ne, f0, f1, f2, f3]
        · simp [Shape, Shape_store_left, Shape_store_right, hT, hS, hnd, h_p_sx, h_p_sr, h_p_srl, h_sx_sr, h_sx_srl, h_sr_srl, h0_srl]
      · refine Acyclic_local (T := .node c (.node cs Sl sx (.node csr (.node cSrl Srll srl Srlr) sr .nil)) p N)
          (U := .node c .nil p N) hk ?_ ?_ ?_
        · simp
        · intro x hx
          have f0 : x ≠ p := frame_ne hnd0 hx (by simp [Tree.inorder])
          have f1 : x ≠ sx := frame_ne hnd0 hx (by simp [Tree.inorder])
          have f2 : x ≠ sr := frame_ne hnd0 hx (by simp [Tree.inorder])
          have f3 : x ≠ srl := frame_ne hnd0 hx (by simp [Tree.inorder])
          simp [store_pc_mem_ne, store_left_mem_ne, store_right_mem_ne, f0, f1, f2, f3]
        · simp [Shape, Shape_store_left, Shape_store_right, hT, hS, hnd, h_p_sx, h_p_sr, h_p_srl, h_sx_sr, h_sx_srl, h_sr_srl, h0_srl]
      · refine Acyclic_change_child_eq (T := .node c (.node cs Sl sx (.node csr (.node cSrl Srll srl Srlr) sr .nil)) p N)
          (U := .node c (.node .black Sl sx (.node cSrl Srll srl Srlr)) sr (.node .black .nil p N)) hk hnd0 hT.1 (by simp) ?_ ?_ ?_ ?_
        · simp
        · intro x hx
          have f0 : x ≠ p := frame_ne hnd0 hx (by simp [Tree.inorder])
          have f1 : x ≠ sx := frame_ne hnd0 hx (by simp [Tree.inorder])
          have f2 : x ≠ sr := frame_ne hnd0 hx (by simp [Tree.inorder])
          have f3 : x ≠ srl := frame_ne hnd0 hx (by simp [Tree.inorder])
          simp [store_pc_mem_ne, store_left_mem_ne, store_right_mem_ne, f0, f1, f2, f3]
        · simp [Shape, Shape_store_left, Shape_store_right, hT, hS, hnd, h_p_sx, h_p_sr, h_p_srl, h_sx_sr, h_sx_srl, h_sr_srl, h0_srl]
        · simp [Tree.inorder]
    | node cSrr Srrl srr Srrr =>
      simp only [Tree.inorder, List.nodup_append, List.nodup_cons, List.disjoint_append_left,
            List.disjoint_append_right, List.disjoint_cons_left, List.disjoint_cons_right,
            List.mem_append, List.mem_cons, not_or] at hnd
      simp only [Rep, addr_node, addr_nil, color_node, color_nil] at hT
      simp only [Shape, addr_node, addr_nil, hT] at hS
      have h_p_sx : p ≠ sx ∧ sx ≠ p := by
        first
        | exact ne_pair (by simp only [hnd, not_false_eq_true])
        | exact (ne_pair (by simp only [hnd, not_false_eq_true])).symm
      have h_p_sr : p ≠ sr ∧ sr ≠ p := by
        first
        | exact ne_pair (by simp only [hnd, not_false_eq_true])
        | exact (ne_pair (by simp only [hnd, not_false_eq_true])).symm
      have h_p_srl : p ≠ srl ∧ srl ≠ p := by
        first
        | exact ne_pair (by simp only [hnd, not_false_eq_true])
        | exact (ne_pair (by simp only [hnd, not_false_eq_true])).symm
      have h_p_srr : p ≠ srr ∧ srr ≠ p := by
        first
        | exact ne_pair (by simp only [hnd, not_false_eq_true])
        | exact (ne_pair (by simp only [hnd, not_false_eq_true])).symm
      have h_sx_sr : sx ≠ sr ∧ sr ≠ sx := by
        first
        | exact ne_pair (by simp only [hnd, not_false_eq_true])
        | exact (ne_pair (by simp only [hnd, not_false_eq_true])).symm
      have h_sx_srl : sx ≠ srl ∧ srl ≠ sx := by
        first
        | exact ne_pair (by simp only [hnd, not_false_eq_true])
        | exact (ne_pair (by simp only [hnd, not_false_eq_true])).symm
      have h_sx_srr : sx ≠ srr ∧ srr ≠ sx := by
        first
        | exact ne_pair (by simp only [hnd, not_false_eq_true])
        | exact (ne_pair (by simp only [hnd, not_false_eq_true])).symm
      have h_sr_srl : sr ≠ srl ∧ srl ≠ sr := by
        first
        | exact ne_pair (by simp only [hnd, not_false_eq_true])
        | exact (ne_pair (by simp only [hnd, not_false_eq_true])).symm
      have h_sr_srr : sr ≠ srr ∧ srr ≠ sr := by
        first
        | exact ne_pair (by simp only [hnd, not_false_eq_true])
        | exact (ne_pair (by simp only [hnd, not_false_eq_true])).symm
      have h_srl_srr : srl ≠ srr ∧ srr ≠ srl := by
        first
        | exact ne_pair (by simp only [hnd, not_false_eq_true])
        | exact (ne_pair (by simp only [hnd, not_false_eq_true])).symm
      have h0_srl : srl ≠ 0 := by simp only [hT, ne_eq, not_false_eq_true]
      have h0_srr : srr ≠ 0 := by simp only [hT, ne_eq, not_false_eq_true]
      simp only [__chx_rb_rotate_set_parents, chx_rb_parent, chx_rb_set_parent_color, chx_rb_set_parent, chx_rb_color, chx_rb_set_black, store_pc_pc, store_left_pc, store_right_pc,
            store_pc_left, store_pc_right, store_left_left, store_left_right, store_right_left,
            store_right_right, call_mem, change_child_pc,
            hT, h_p_sx, h_p_sr, h_p_srl, h_p_srr, h_sx_sr, h_sx_srl, h_sx_srr, h_sr_srl, h_sr_srr, h_srl_srr, h0_srl, h0_srr, hpw, ne_eq, not_false_eq_true, not_true_eq_false, if_true, if_false,
            ite_true, ite_false, addr_node, addr_nil, color_of_word] at hσ
      rcases hσ with rfl | rfl | rfl | rfl | rfl | rfl
      · refine Acyclic_local (T := .node c (.node cs Sl sx (.node csr (.node cSrl Srll srl Srlr) sr (.node cSrr Srrl srr Srrr))) p N)
          (U := .node c (.node cs Sl sx (.node cSrl Srll srl Srlr)) p N) hk ?_ ?_ ?_
        · simp
        · intro x hx
          have f0 : x ≠ p := frame_ne hnd0 hx (by simp [Tree.inorder])
          have f1 : x ≠ sx := frame_ne hnd0 hx (by simp [Tree.inorder])
          have f2 : x ≠ sr := frame_ne hnd0 hx (by simp [Tree.inorder])
          have f3 : x ≠ srl := frame_ne hnd0 hx (by simp [Tree.inorder])
          have f4 : x ≠ srr := frame_ne hnd0 hx (by simp [Tree.inorder])
          simp [store_pc_mem_ne, store_left_mem_ne, store_right_mem_ne, f0, f1, f2, f3, f4]
        · simp [Shape, Shape_store_left, Shape_store_right, hT, hS, hnd, h_p_sx, h_p_sr, h_p_srl, h_p_srr, h_sx_sr, h_sx_srl, h_sx_srr, h_sr_srl, h_sr_srr, h_srl_srr, h0_srl, h0_srr]
      · refine Acyclic_local (T := .node c (.node cs Sl sx (.node csr (.node cSrl Srll srl Srlr) sr (.node cSrr Srrl srr Srrr))) p N)
          (U := .node c (.node cs Sl sx (.node cSrl Srll srl Srlr)) p N) hk ?_ ?_ ?_
        · simp
        · intro x hx
          have f0 : x ≠ p := frame_ne hnd0 hx (by simp [Tree.inorder])
          have f1 : x ≠ sx := frame_ne hnd0 hx (by simp [Tree.inorder])
          have f2 : x ≠ sr := frame_ne hnd0 hx (by simp [Tree.inorder])
          have f3 : x ≠ srl := frame_ne hnd0 hx (by simp [Tree.inorder])
          have f4 : x ≠ srr := frame_ne hnd0 hx (by simp [Tree.inorder])
          simp [store_pc_mem_ne, store_left_mem_ne, store_right_mem_ne, f0, f1, f2, f3, f4]
        · simp [Shape, Shape_store_left, Shape_store_right, hT, hS, hnd, h_p_sx, h_p_sr, h_p_srl, h_p_srr, h_sx_sr, h_sx_srl, h_sx_srr, h_sr_srl, h_sr_srr, h_srl_srr, h0_srl, h0_srr]
      · refine Acyclic_local (T := .node c (.node cs Sl sx (.node csr (.node cSrl Srll srl Srlr) sr (.node cSrr Srrl srr Srrr))) p N)
          (U := .node c (.node csr (.node cs Sl sx (.node cSrl Srll srl Srlr)) sr (.node cSrr Srrl srr Srrr)) p N) hk ?_ ?_ ?_
        · simp
        · intro x hx
          have f0 : x ≠ p := frame_ne hnd0 hx (by simp [Tree.inorder])
          have f1 : x ≠ sx := frame_ne hnd0 hx (by simp [Tree.inorder])
          have f2 : x ≠ sr := frame_ne hnd0 hx (by simp [Tree.inorder])
          have f3 : x ≠ srl := frame_ne hnd0 hx (by simp [Tree.inorder])
          have f4 : x ≠ srr := frame_ne hnd0 hx (by simp [Tree.inorder])
          simp [store_pc_mem_ne, store_left_mem_ne, store_right_mem_ne, f0, f1, f2, f3, f4]
        · simp [Shape, Shape_store_left, Shape_store_right, hT, hS, hnd, h_p_sx, h_p_sr, h_p_srl, h_p_srr, h_sx_sr, h_sx_srl, h_sx_srr, h_sr_srl, h_sr_srr, h_srl_srr, h0_srl, h0_srr]
      · refine Acyclic_local (T := .node c (.node cs Sl sx (.node csr (.node cSrl Srll srl Srlr) sr (.node cSrr Srrl srr Srrr))) p N)
          (U := .node c (.node cSrr Srrl srr Srrr) p N) hk ?_ ?_ ?_
        · simp
        · intro x hx
          have f0 : x ≠ p := frame_ne hnd0 hx (by simp [Tree.inorder])
          have f1 : x ≠ sx := frame_ne hnd0 hx (by simp [Tree.inorder])
          have f2 : x ≠ sr := frame_ne hnd0 hx (by simp [Tree.inorder])
          have f3 : x ≠ srl := frame_ne hnd0 hx (by simp [Tree.inorder])
          have f4 : x ≠ srr := frame_ne hnd0 hx (by simp [Tree.inorder])
          simp [store_pc_mem_ne, store_left_mem_ne, store_right_mem_ne, f0, f1, f2, f3, f4]
        · simp [Shape, Shape_store_left, Shape_store_right, hT, hS, hnd, h_p_sx, h_p_sr, h_p_srl, h_p_srr, h_sx_sr, h_sx_srl, h_sx_srr, h_sr_srl, h_sr_srr, h_srl_srr, h0_srl, h0_srr]
      · refine Acyclic_local (T := .node c (.node cs Sl sx (.node csr (.node cSrl Srll srl Srlr) sr (.node cSrr Srrl srr Srrr))) p N)
          (U := .node c (.node cSrr Srrl srr Srrr) p N) hk ?_ ?_ ?_
        · simp
        · intro x hx
          have f0 : x ≠ p := frame_ne hnd0 hx (by simp [Tree.inorder])
          have f1 : x ≠ sx := frame_ne hnd0 hx (by simp [Tree.inorder])
          have f2 : x ≠ sr := frame_ne hnd0 hx (by simp [Tree.inorder])
          have f3 : x ≠ srl := frame_ne hnd0 hx (by simp [Tree.inorder])
          have f4 : x ≠ srr := frame_ne hnd0 hx (by simp [Tree.inorder])
          simp [store_pc_mem_ne, store_left_mem_ne, store_right_mem_ne, f0, f1, f2, f3, f4]
        · simp [Shape, Shape_store_left, Shape_store_right, hT, hS, hnd, h_p_sx, h_p_sr, h_p_srl, h_p_srr, h_sx_sr, h_sx_srl, h_sx_srr, h_sr_srl, h_sr_srr, h_srl_srr, h0_srl, h0_srr]
      · refine Acyclic_change_child_eq (T := .node c (.node cs Sl sx (.node csr (.node cSrl Srll srl Srlr) sr (.node cSrr Srrl srr Srrr))) p N)
          (U := .node c (.node .black Sl sx (.node cSrl Srll srl Srlr)) sr (.node .black (.node cSrr Srrl srr Srrr) p N)) hk hnd0 hT.1 (by simp) ?_ ?_ ?_ ?_
        · simp
        · intro x hx
          have f0 : x ≠ p := frame_ne hnd0 hx (by simp [Tree.inorder])
          have f1 : x ≠ sx := frame_ne hnd0 hx (by simp [Tree.inorder])
          have f2 : x ≠ sr := frame_ne hnd0 hx (by simp [Tree.inorder])
          have f3 : x ≠ srl := frame_ne hnd0 hx (by simp [Tree.inorder])
          have f4 : x ≠ srr := frame_ne hnd0 hx (by simp [Tree.inorder])
          simp [store_pc_mem_ne, store_left_mem_ne, store_right_mem_ne, f0, f1, f2, f3, f4]
        · simp [Shape, Shape_store_left, Shape_store_right, hT, hS, hnd, h_p_sx, h_p_sr, h_p_srl, h_p_srr, h_sx_sr, h_sx_srl, h_sx_srr, h_sr_srl, h_sr_srr, h_srl_srr, h0_srl, h0_srr]
        · simp [Tree.inorder]


/-! ## The stores of the splice and of `chx_rb_replace_node` -/

theorem sub_splice_child {c cs : Color} {L C : Tree} {n sx : Nat} :
    ∀ x ∈ (Tree.node cs L sx C).inorder, x ∈ (Tree.node c L n (.node cs .nil sx C)).inorder := by
  intro x hx
  simp only [Tree.inorder, List.mem_append, List.mem_cons, List.not_mem_nil] at hx ⊢
  tauto

theorem splice_child_stores_acyclic (f : Callback α) {s : State α} {k : Ctx} {c cl cs : Color}
    {ll lr C : Tree} {n lx sx : Nat}
    (h : WF s (plug k (.node c (.node cl ll lx lr) n (.node cs .nil sx C)))) :
    ∀ σ ∈ erase_splice_successor_stores (s.call f n sx) n sx, Acyclic σ := by
  rw [WF_plug'] at h
  obtain ⟨hk, hT, hnd⟩ := h
  have hpar := RepCtx_ctxAddr_aligned hk
  have hnd0 := hnd
  have hpw := parent_of_word c hpar
  have hS := Rep_Shape _ _ hT
  intro σ hσ
  simp only [erase_splice_successor_stores, List.mem_cons, List.mem_append, List.mem_singleton, List.not_mem_nil, or_false, false_or, or_assoc] at hσ
  cases C with
  | nil =>
    simp only [Tree.inorder, List.nodup_append, List.nodup_cons, List.disjoint_append_left,
          List.disjoint_append_right, List.disjoint_cons_left, List.disjoint_cons_right,
          List.mem_append, List.mem_cons, not_or] at hnd
    simp only [Rep, addr_node, addr_nil, color_node, color_nil] at hT
    simp only [Shape, addr_node, addr_nil, hT] at hS
    have h_n_lx : n ≠ lx ∧ lx ≠ n := by
      first
      | exact ne_pair (by simp only [hnd, not_false_eq_true])
      | exact (ne_pair (by simp only [hnd, not_false_eq_true])).symm
    have h_n_sx : n ≠ sx ∧ sx ≠ n := by
      first
      | exact ne_pair (by simp only [hnd, not_false_eq_true])
      | exact (ne_pair (by simp only [hnd, not_false_eq_true])).symm
    have h_lx_sx : lx ≠ sx ∧ sx ≠ lx := by
      first
      | exact ne_pair (by simp only [hnd, not_false_eq_true])
      | exact (ne_pair (by simp only [hnd, not_false_eq_true])).symm
    simp only [__chx_rb_rotate_set_parents, chx_rb_parent, chx_rb_set_parent_color, chx_rb_set_parent, chx_rb_color, chx_rb_set_black, store_pc_pc, store_left_pc, store_right_pc,
          store_pc_left, store_pc_right, store_left_left, store_left_right, store_right_left,
          store_right_right, call_mem, change_child_pc,
          hT, h_n_lx, h_n_sx, h_lx_sx, hpw, ne_eq, not_false_eq_true, not_true_eq_false, if_true, if_false,
          ite_true, ite_false, addr_node, addr_nil, color_of_word] at hσ
    rcases hσ with rfl | rfl
    · refine Acyclic_local (T := .node c (.node cl ll lx lr) n (.node cs .nil sx .nil))
        (U := .node c (.node cl ll lx lr) n (.node cs (.node cl ll lx lr) sx .nil)) hk ?_ ?_ ?_
      · simp
      · intro x hx
        have f0 : x ≠ n := frame_ne hnd0 hx (by simp [Tree.inorder])
        have f1 : x ≠ lx := frame_ne hnd0 hx (by simp [Tree.inorder])
        have f2 : x ≠ sx := frame_ne hnd0 hx (by simp [Tree.inorder])
        simp [store_pc_mem_ne, store_left_mem_ne, store_right_mem_ne, f0, f1, f2]
      · simp [Shape, Shape_store_left, Shape_store_right, hT, hS, hnd, h_n_lx, h_n_sx, h_lx_sx]
    · refine Acyclic_change_child (T := .node c (.node cl ll lx lr) n (.node cs .nil sx .nil))
        (U := .node cs (.node cl ll lx lr) sx .nil) hk hnd0 hT.1 (by simp) ?_ ?_ ?_ ?_
      · simp
      · intro x hx
        have f0 : x ≠ n := frame_ne hnd0 hx (by simp [Tree.inorder])
        have f1 : x ≠ lx := frame_ne hnd0 hx (by simp [Tree.inorder])
        have f2 : x ≠ sx := frame_ne hnd0 hx (by simp [Tree.inorder])
        simp [store_pc_mem_ne, store_left_mem_ne, store_right_mem_ne, f0, f1, f2]
      · simp [Shape, Shape_store_left, Shape_store_right, hT, hS, hnd, h_n_lx, h_n_sx, h_lx_sx]
      · exact sub_splice_child
  | node cC Cl cx Cr =>
    simp only [Tree.inorder, List.nodup_append, List.nodup_cons, List.disjoint_append_left,
          List.disjoint_append_right, List.disjoint_cons_left, List.disjoint_cons_right,
          List.mem_append, List.mem_cons, not_or] at hnd
    simp only [Rep, addr_node, addr_nil, color_node, color_nil] at hT
    simp only [Shape, addr_node, addr_nil, hT] at hS
    have h_n_lx : n ≠ lx ∧ lx ≠ n := by
      first
      | exact ne_pair (by simp only [hnd, not_false_eq_true])
      | exact (ne_pair (by simp only [hnd, not_false_eq_true])).symm
    have h_n_sx : n ≠ sx ∧ sx ≠ n := by
      first
      | exact ne_pair (by simp only [hnd, not_false_eq_true])
      | exact (ne_pair (by simp only [hnd, not_false_eq_true])).symm
    have h_n_cx : n ≠ cx ∧ cx ≠ n := by
      first
      | exact ne_pair (by simp only [hnd, not_false_eq_true])
      | exact (ne_pair (by simp only [hnd, not_false_eq_true])).symm
    have h_lx_sx : lx ≠ sx ∧ sx ≠ lx := by
      first
      | exact ne_pair (by simp only [hnd, not_false_eq_true])
      | exact (ne_pair (by simp only [hnd, not_false_eq_true])).symm
    have h_lx_cx : lx ≠ cx ∧ cx ≠ lx := by
      first
      | exact ne_pair (by simp only [hnd, not_false_eq_true])
      | exact (ne_pair (by simp only [hnd, not_false_eq_true])).symm
    have h_sx_cx : sx ≠ cx ∧ cx ≠ sx := by
      first
      | exact ne_pair (by simp only [hnd, not_false_eq_true])
      | exact (ne_pair (by simp only [hnd, not_false_eq_true])).symm
    have h0_cx : cx ≠ 0 := by simp only [hT, ne_eq, not_false_eq_true]
    simp only [__chx_rb_rotate_set_parents, chx_rb_parent, chx_rb_set_parent_color, chx_rb_set_parent, chx_rb_color, chx_rb_set_black, store_pc_pc, store_left_pc, store_right_pc,
          store_pc_left, store_pc_right, store_left_left, store_left_right, store_right_left,
          store_right_right, call_mem, change_child_pc,
          hT, h_n_lx, h_n_sx, h_n_cx, h_lx_sx, h_lx_cx, h_sx_cx, h0_cx, hpw, ne_eq, not_false_eq_true, not_true_eq_false, if_true, if_false,
          ite_true, ite_false, addr_node, addr_nil, color_of_word] at hσ
    rcases hσ with rfl | rfl
    · refine Acyclic_local (T := .node c (.node cl ll lx lr) n (.node cs .nil sx (.node cC Cl cx Cr)))
        (U := .node c (.node cl ll lx lr) n (.node cs (.node cl ll lx lr) sx (.node cC Cl cx Cr))) hk ?_ ?_ ?_
      · simp
      · intro x hx
        have f0 : x ≠ n := frame_ne hnd0 hx (by simp [Tree.inorder])
        have f1 : x ≠ lx := frame_ne hnd0 hx (by simp [Tree.inorder])
        have f2 : x ≠ sx := frame_ne hnd0 hx (by simp [Tree.inorder])
        have f3 : x ≠ cx := frame_ne hnd0 hx (by simp [Tree.inorder])
        simp [store_pc_mem_ne, store_left_mem_ne, store_right_mem_ne, f0, f1, f2, f3]
      · simp [Shape, Shape_store_left, Shape_store_right, hT, hS, hnd, h_n_lx, h_n_sx, h_n_cx, h_lx_sx, h_lx_cx, h_sx_cx, h0_cx]
    · refine Acyclic_change_child (T := .node c (.node cl ll lx lr) n (.node cs .nil sx (.node cC Cl cx Cr)))
        (U := .node cs (.node cl ll lx lr) sx (.node cC Cl cx Cr)) hk hnd0 hT.1 (by simp) ?_ ?_ ?_ ?_
      · simp
      · intro x hx
        have f0 : x ≠ n := frame_ne hnd0 hx (by simp [Tree.inorder])
        have f1 : x ≠ lx := frame_ne hnd0 hx (by simp [Tree.inorder])
        have f2 : x ≠ sx := frame_ne hnd0 hx (by simp [Tree.inorder])
        have f3 : x ≠ cx := frame_ne hnd0 hx (by simp [Tree.inorder])
        simp [store_pc_mem_ne, store_left_mem_ne, store_right_mem_ne, f0, f1, f2, f3]
      · simp [Shape, Shape_store_left, Shape_store_right, hT, hS, hnd, h_n_lx, h_n_sx, h_n_cx, h_lx_sx, h_lx_cx, h_sx_cx, h0_cx]
      · exact sub_splice_child


theorem sub_splice_deep {c cs : Color} {L C : Tree} {n sx : Nat} (rk : Ctx) :
    ∀ x ∈ (Tree.node cs L sx (plug rk C)).inorder,
      x ∈ (Tree.node c L n (plug rk (.node cs .nil sx C))).inorder := by
  intro x hx
  simp only [Tree.inorder, inorder_plug, List.mem_append, List.mem_cons, List.not_mem_nil] at hx ⊢
  tauto

theorem sub_splice_right {c : Color} {R : Tree} {n : Nat} :
    ∀ x ∈ R.inorder, x ∈ (Tree.node c .nil n R).inorder := by
  intro x hx
  simp [Tree.inorder, hx]

theorem sub_splice_left {c : Color} {L R : Tree} {n : Nat} :
    ∀ x ∈ L.inorder, x ∈ (Tree.node c L n R).inorder := by
  intro x hx
  simp [Tree.inorder, hx]

theorem ShapeCtx_store_left_head {s : State α} {top : Nat} {c : Color} {a : Nat} {r : Tree}
    {k : Ctx} {p v : Nat} (hnd : (ctxNodes (.left c a r :: k)).Nodup)
    (h : ShapeCtx s.mem top (.left c a r :: k) p) :
    ShapeCtx (s.store_left a v).mem top (.left c a r :: k) v := by
  rw [nodup_ctxNodes_left] at hnd
  obtain ⟨n1, n2, n3, n4, n5⟩ := hnd
  obtain ⟨h1, h2, h3, h4⟩ := h
  refine ⟨h1, by simp, ?_, ?_⟩
  · rw [store_left_right]
    exact (Shape_store_left n1).2 h3
  · refine ShapeCtx_congr k a (fun x hx => ?_) h4
    have hxa : x ≠ a := fun e => n2 (e ▸ hx)
    rw [store_left_mem_ne hxa]
    exact ⟨rfl, rfl⟩

/-- Stores of the splice when the successor lies deeper than the right child
of the node: after each of them the child links below the root have the shape
of a tree. -/
theorem splice_deep_stores_acyclic (f1 f2 : Callback α) {s : State α} {k rk : Ctx}
    {c cs : Color} {L C : Tree} {n sx a1 R : Nat}
    (h : WF s (plug k (.node c L n (plug rk (.node cs .nil sx C)))))
    (hL0 : L.addr ≠ 0)
    (hrk : rk ≠ []) (hal : AllLeft rk) (ha1 : a1 = ctxAddr n rk)
    (hR : R = (plug rk (.node cs .nil sx C)).addr) :
    ∀ σ ∈ [s.store_left a1 C.addr, (s.store_left a1 C.addr).store_right sx R] ++
        erase_splice_successor_stores
          (((chx_rb_set_parent ((s.store_left a1 C.addr).store_right sx R) R sx).call
            f1 n sx).call f2 a1 sx) n sx, Acyclic σ := by
  obtain ⟨hk, hT, hnd⟩ := WF_plug'.1 h
  have hpar := RepCtx_ctxAddr_aligned hk
  have hpw := parent_of_word c hpar
  have hnd0 := hnd
  obtain ⟨hn0, hn4, hnpc, hnl, hnr, hLrep, hTr⟩ := hT
  rw [Rep_plug] at hTr
  obtain ⟨hrkc, hX⟩ := hTr
  rw [← hR] at hrkc hnr
  have hctx : ctxAddr n rk = a1 := ha1.symm
  rw [hctx] at hX
  obtain ⟨hsx0, hsx4, hsxpc, hsxl, hsxr, -, hC⟩ := hX
  simp only [addr_node, addr_nil] at hrkc hsxl
  obtain ⟨hRmem, -⟩ := RepCtx_top rk sx hrk hrkc
  have ha1mem : a1 ∈ ctxNodes rk := ha1 ▸ ctxAddr_mem n rk hrk
  have hLn : L ≠ .nil := fun e => hL0 (by rw [e]; rfl)
  have hLmem : L.addr ∈ L.inorder := addr_mem_inorder L hLn
  -- node sets
  have hTio : (Tree.node c L n (plug rk (.node cs .nil sx C))).inorder =
      L.inorder ++ n :: (plug rk (.node cs .nil sx C)).inorder := rfl
  have hndT := (List.nodup_append.1 hnd).1
  rw [hTio, List.nodup_append, List.nodup_cons] at hndT
  obtain ⟨ndL, ⟨hnP, ndP⟩, dLP⟩ := hndT
  have hnL : n ∉ L.inorder := fun hx => dLP hx (List.mem_cons_self _ _)
  have hLP : ∀ x ∈ L.inorder, x ∉ (plug rk (.node cs .nil sx C)).inorder :=
    fun x hx hx' => dLP hx (List.mem_cons_of_mem _ hx')
  have hpermP := inorder_plug_perm rk (.node cs .nil sx C)
  have ndP' := hpermP.nodup_iff.1 ndP
  simp only [Tree.inorder, List.nil_append, List.cons_append, List.nodup_cons, List.mem_append,
    not_or, List.nodup_append] at ndP'
  obtain ⟨⟨hsxC, hsxrk⟩, ndC, ndrk, dCrk⟩ := ndP'
  have hmemP : ∀ x, x ∈ (plug rk (.node cs .nil sx C)).inorder ↔
      x = sx ∨ x ∈ C.inorder ∨ x ∈ ctxNodes rk := by
    intro x
    rw [hpermP.mem_iff]
    simp [Tree.inorder]
  have hmemPC : ∀ x, x ∈ (plug rk C).inorder ↔ x ∈ C.inorder ∨ x ∈ ctxNodes rk := by
    intro x
    rw [(inorder_plug_perm rk C).mem_iff]
    simp
  have hsxP : sx ∈ (plug rk (.node cs .nil sx C)).inorder := (hmemP sx).2 (Or.inl rfl)
  have ha1P : a1 ∈ (plug rk (.node cs .nil sx C)).inorder := (hmemP a1).2 (Or.inr (Or.inr ha1mem))
  have hRP : R ∈ (plug rk (.node cs .nil sx C)).inorder := (hmemP R).2 (Or.inr (Or.inr hRmem))
  have h_n_sx : n ≠ sx ∧ sx ≠ n := ne_pair (fun e => hnP (e ▸ hsxP))
  have h_n_a1 : n ≠ a1 ∧ a1 ≠ n := ne_pair (fun e => hnP (e ▸ ha1P))
  have h_n_R : n ≠ R ∧ R ≠ n := ne_pair (fun e => hnP (e ▸ hRP))
  have h_n_L : n ≠ L.addr ∧ L.addr ≠ n := ne_pair (fun e => hnL (e ▸ hLmem))
  have h_a1_sx : a1 ≠ sx ∧ sx ≠ a1 := ne_pair (fun e => hsxrk (e ▸ ha1mem))
  have ha1L : a1 ∉ L.inorder := fun hx => hLP a1 hx ha1P
  have hsxL : sx ∉ L.inorder := fun hx => hLP sx hx hsxP
  have ha1C : a1 ∉ C.inorder := fun hx => dCrk hx ha1mem
  have hTmem : ∀ x, x ∈ (Tree.node c L n (plug rk (.node cs .nil sx C))).inorder ↔
      x ∈ L.inorder ∨ x = n ∨ x ∈ (plug rk (.node cs .nil sx C)).inorder := by
    intro x
    rw [hTio]
    simp
  -- the shapes of the parts in a state that differs at `a1` and `sx` only
  have key : ∀ σ : State α,
      (∀ x, x ≠ a1 → x ≠ sx → (σ.mem x).rb_left = (s.mem x).rb_left ∧
        (σ.mem x).rb_right = (s.mem x).rb_right) →
      (σ.mem a1).rb_left = C.addr → (σ.mem a1).rb_right = (s.mem a1).rb_right →
      Shape σ.mem L L.addr ∧ Shape σ.mem (plug rk C) R ∧
        (σ.mem n).rb_left = L.addr ∧ (σ.mem n).rb_right = R := by
    intro σ hA hB1 hB2
    refine ⟨?_, ?_, ?_, ?_⟩
    · exact Shape_congr L _ (fun x hx => hA x (fun e => ha1L (e ▸ hx)) (fun e => hsxL (e ▸ hx)))
        (Rep_Shape L n hLrep)
    · refine Shape_plug rk C C.addr ?_ ?_
      · have hsc := RepCtx_ShapeCtx rk sx hrkc
        cases rk with
        | nil => exact absurd rfl hrk
        | cons f rk' =>
          cases f with
          | right _ _ _ => exact absurd hal (by simp [AllLeft])
          | left c1 a r1 =>
            have ea : a1 = a := ha1
            subst ea
            rw [nodup_ctxNodes_left] at ndrk
            obtain ⟨n1, n2, n3, n4, n5⟩ := ndrk
            obtain ⟨h1, h2, h3, h4⟩ := hsc
            refine ⟨h1, hB1, ?_, ?_⟩
            · rw [hB2]
              refine Shape_congr r1 _ (fun x hx => hA x (fun e => n1 (e ▸ hx)) ?_) h3
              exact fun e => hsxrk (mem_ctxNodes_left.2 (Or.inr (Or.inl (e ▸ hx))))
            · refine ShapeCtx_congr rk' a1 (fun x hx => hA x (fun e => n2 (e ▸ hx)) ?_) h4
              exact fun e => hsxrk (mem_ctxNodes_left.2 (Or.inr (Or.inr (e ▸ hx))))
      · exact Shape_congr C _ (fun x hx => hA x (fun e => ha1C (e ▸ hx))
          (fun e => hsxC (e ▸ hx))) (Rep_Shape C _ hC)
    · rw [(hA n h_n_a1.1 h_n_sx.1).1, hnl]
    · rw [(hA n h_n_a1.1 h_n_sx.1).2, hnr]
  have key1 : ∀ σ : State α,
      (∀ x, x ≠ a1 → x ≠ sx → (σ.mem x).rb_left = (s.mem x).rb_left ∧
        (σ.mem x).rb_right = (s.mem x).rb_right) →
      (σ.mem a1).rb_left = C.addr → (σ.mem a1).rb_right = (s.mem a1).rb_right →
      Shape σ.mem (.node c L n (plug rk C)) n := by
    intro σ hA hB1 hB2
    obtain ⟨k1, k2, k3, k4⟩ := key σ hA hB1 hB2
    exact ⟨rfl, hn0, by rw [k3]; exact k1, by rw [k4]; exact k2⟩
  have key2 : ∀ σ : State α,
      (∀ x, x ≠ a1 → x ≠ sx → (σ.mem x).rb_left = (s.mem x).rb_left ∧
        (σ.mem x).rb_right = (s.mem x).rb_right) →
      (σ.mem a1).rb_left = C.addr → (σ.mem a1).rb_right = (s.mem a1).rb_right →
      (σ.mem sx).rb_left = L.addr → (σ.mem sx).rb_right = R →
      Shape σ.mem (.node cs L sx (plug rk C)) sx := by
    intro σ hA hB1 hB2 e1 e2
    obtain ⟨k1, k2, k3, k4⟩ := key σ hA hB1 hB2
    exact ⟨rfl, hsx0, by rw [e1]; exact k1, by rw [e2]; exact k2⟩
  have hfr : ∀ x ∈ ctxNodes k, x ≠ a1 ∧ x ≠ sx ∧ x ≠ R ∧ x ≠ L.addr := by
    intro x hx
    refine ⟨frame_ne hnd0 hx ?_, frame_ne hnd0 hx ?_, frame_ne hnd0 hx ?_, frame_ne hnd0 hx ?_⟩
    · exact (hTmem _).2 (Or.inr (Or.inr ha1P))
    · exact (hTmem _).2 (Or.inr (Or.inr hsxP))
    · exact (hTmem _).2 (Or.inr (Or.inr hRP))
    · exact (hTmem _).2 (Or.inl hLmem)
  intro σ hσ
  simp only [erase_splice_successor_stores, chx_rb_set_parent, chx_rb_color,
    store_pc_pc, store_left_pc, store_right_pc,
    store_pc_left, store_pc_right, store_left_left, store_left_right, store_right_left,
    store_right_right, call_mem, hnl, hnpc, h_n_sx, h_n_a1, h_n_R, h_n_L, hpw, ne_eq,
    not_false_eq_true, not_true_eq_false, if_true, if_false, ite_true, ite_false,
    List.mem_cons, List.mem_append, List.mem_singleton, List.not_mem_nil, or_false, false_or,
    or_assoc] at hσ
  rcases hσ with rfl | rfl | rfl | rfl
  · refine Acyclic_local (T := .node c L n (plug rk (.node cs .nil sx C)))
      (U := .node c L n (plug rk C)) hk (by simp) ?_ ?_
    · intro x hx
      obtain ⟨g1, g2, g3, g4⟩ := hfr x hx
      simp [store_pc_mem_ne, store_left_mem_ne, store_right_mem_ne, g1, g2, g3, g4]
    · refine key1 _ ?_ ?_ ?_
      · intro x h1 h2
        simp [h1, h2]
      · simp
      · simp
  · refine Acyclic_local (T := .node c L n (plug rk (.node cs .nil sx C)))
      (U := .node c L n (plug rk C)) hk (by simp) ?_ ?_
    · intro x hx
      obtain ⟨g1, g2, g3, g4⟩ := hfr x hx
      simp [store_pc_mem_ne, store_left_mem_ne, store_right_mem_ne, g1, g2, g3, g4]
    · refine key1 _ ?_ ?_ ?_
      · intro x h1 h2
        simp [h1, h2]
      · simp
      · simp [h_a1_sx]
  · refine Acyclic_local (T := .node c L n (plug rk (.node cs .nil sx C)))
      (U := .node c L n (plug rk C)) hk (by simp) ?_ ?_
    · intro x hx
      obtain ⟨g1, g2, g3, g4⟩ := hfr x hx
      simp [store_pc_mem_ne, store_left_mem_ne, store_right_mem_ne, g1, g2, g3, g4]
    · refine key1 _ ?_ ?_ ?_
      · intro x h1 h2
        simp [h1, h2]
      · simp [h_a1_sx]
      · simp [h_a1_sx]
  · refine Acyclic_change_child (T := .node c L n (plug rk (.node cs .nil sx C)))
      (U := .node cs L sx (plug rk C)) hk hnd0 hn0 (by simp) (by simp) ?_ ?_
      (sub_splice_deep rk)
    · intro x hx
      obtain ⟨g1, g2, g3, g4⟩ := hfr x hx
      simp [store_pc_mem_ne, store_left_mem_ne, store_right_mem_ne, g1, g2, g3, g4]
    · refine key2 _ ?_ ?_ ?_ ?_ ?_
      · intro x h1 h2
        simp [h1, h2]
      · simp [h_a1_sx]
      · simp [h_a1_sx]
      · simp
      · simp

/-- Stores of `__chx_rb_erase_augmented` on a node of the tree: the splice
stores to at most four links, and after each store the child links below the
root have no cycle. -/
theorem splice_stores_acyclic (aug : chx_rb_augment_callbacks α) (fuel : Nat) {s : State α}
    {k : Ctx} {c : Color} {l r : Tree} {n : Nat}
    (h : WF s (plug k (.node c l n r))) (hfuel : (plug k (.node c l n r)).height ≤ fuel) :
    ∃ tr, __chx_rb_erase_augmented_stores aug fuel s n = some tr ∧ ∀ σ ∈ tr, Acyclic σ := by
  obtain ⟨hk, hT, hnd⟩ := WF_plug'.1 h
  have hpar := RepCtx_ctxAddr_aligned hk
  have hpw := parent_of_word c hpar
  obtain ⟨hn0, hn4, hnpc, hnl, hnr, hL, hR⟩ := hT
  unfold __chx_rb_erase_augmented_stores
  simp only [hnl, hnr, hnpc, hpw]
  by_cases hl0 : l.addr = 0
  · simp only [hl0, if_true]
    refine ⟨_, rfl, ?_⟩
    intro σ hσ
    rw [List.mem_singleton] at hσ
    subst hσ
    have hl : l = .nil := (Rep_addr_eq_zero hL).1 hl0
    subst hl
    exact Acyclic_change_child (T := .node c .nil n r) (U := r) hk hnd hn0 (by simp) rfl
      (fun _ _ => rfl) (Rep_Shape r n hR) sub_splice_right
  · simp only [hl0, if_false]
    have hln : l ≠ .nil := fun e => hl0 (by rw [e]; rfl)
    by_cases hr0 : r.addr = 0
    · simp only [hr0, if_true]
      refine ⟨_, rfl, ?_⟩
      intro σ hσ
      rw [List.mem_singleton] at hσ
      subst hσ
      refine Acyclic_change_child (T := .node c l n r) (U := l) hk hnd hn0 (by simp) rfl
        ?_ (Shape_store_pc.2 (Rep_Shape l n hL)) sub_splice_left
      intro x hx
      exact store_pc_mem_ne (frame_ne hnd hx (sub_splice_left _ (addr_mem_inorder l hln)))
    · simp only [hr0, if_false]
      have hrn : r ≠ .nil := fun e0 => hr0 (by rw [e0]; rfl)
      obtain ⟨rk, cs, sx, C, hal, er⟩ := leftmost_split r hrn
      subst er
      have hXrep := ((Rep_plug rk (.node cs .nil sx C)).1 hR).2
      obtain ⟨hsx0, hsx4, hsxpc, hsxl, hsxr, -, hC⟩ := hXrep
      simp only [addr_nil] at hsxl
      cases rk with
      | nil =>
        simp only [plug, addr_node] at hnr hR ⊢
        simp only [hsxl, if_true]
        refine ⟨_, rfl, ?_⟩
        cases l with
        | nil => exact absurd rfl hln
        | node cl ll lx lr => exact splice_child_stores_acyclic aug.copy h
      | cons f rk' =>
        have hrk : f :: rk' ≠ [] := by simp
        have hne := spine_left_ne_zero (f :: rk') n hrk hal hR
        have hh := plug_height k (.node c l n (plug (f :: rk') (.node cs .nil sx C)))
        have hh2 := plug_height (f :: rk') (.node cs .nil sx C)
        simp only [Tree.height] at hh
        have hloop := successor_loop_spec (f :: rk') n fuel hrk hal hR (by omega)
        simp only [hne, if_false, hloop, hsxr]
        exact ⟨_, rfl, splice_deep_stores_acyclic aug.copy aug.propagate h hl0 hrk hal rfl rfl⟩

/-- Stores of `chx_rb_replace_node` on a node of the tree and a fresh node. -/
theorem replace_stores_acyclic {s : State α} {t : Tree} {v new : Nat} (h : WF s t)
    (hv : v ∈ t.inorder) (hn0 : new ≠ 0) (hn4 : new % 4 = 0) (hfresh : new ∉ t.inorder) :
    ∀ σ ∈ chx_rb_replace_node_stores s v new, Acyclic σ := by
  intro σ hσ
  simp only [chx_rb_replace_node_stores, List.mem_cons, List.mem_singleton, List.not_mem_nil,
    or_false] at hσ
  rcases hσ with rfl | rfl
  · exact Acyclic_of_Shape (t := t) ((Shape_copy_node hfresh).2 h.shape)
  · obtain ⟨t', ht', -⟩ := replace_node_spec h hv hn0 hn4 hfresh
    exact Acyclic_of_Shape (t := t') ht'.shape


/-! ## Insert fix-up: the stores of one iteration and of the loop -/

theorem insert_stores_step_case1_left (rot : Callback α) {s : State α} {k : Ctx} {A B Ul Ur : Tree}
    {n p g u : Nat} (fuel : Nat)
    (h : WF s (plug k (.node .black (.node .red A p B) g (.node .red Ul u Ur)))) :
    __chx_rb_insert_loop_stores rot (fuel + 1) s n p =
      __chx_rb_insert_loop_stores rot fuel (insert_case1 s g p u).1 g (insert_case1 s g p u).2 := by
  obtain ⟨hk, hT, hnd⟩ := WF_plug'.1 h
  simp only [Tree.inorder, List.nodup_append, List.nodup_cons, List.disjoint_append_left,
    List.disjoint_append_right, List.disjoint_cons_left, List.disjoint_cons_right,
    List.mem_append, List.mem_cons, not_or] at hnd
  simp only [Rep, addr_node, bit_red, bit_black, Nat.add_zero] at hT
  have hp0 : p ≠ 0 := by simp only [hT, ne_eq, not_false_eq_true]
  have hu0 : u ≠ 0 := by simp only [hT, ne_eq, not_false_eq_true]
  have hg4 : g % 4 = 0 := hT.2.1
  have h_p_u : p ≠ u ∧ u ≠ p := by
    first
    | exact ne_pair (by simp only [hnd, not_false_eq_true])
    | exact (ne_pair (by simp only [hnd, not_false_eq_true])).symm
  have hpb : chx_rb_is_black s p = false := by
    rw [is_black_of_word (c := .red) hg4 (by simp [hT])]; rfl
  have hur : chx_rb_is_red s u = true := by
    rw [is_red_of_word (c := .red) hg4 (by simp [hT])]; rfl
  rw [__chx_rb_insert_loop_stores]
  simp [hp0, hpb, chx_rb_red_parent, hT, h_p_u, hu0, hur]

theorem insert_stores_step_case3_left (rot : Callback α) {s : State α} {k : Ctx} {L R B U : Tree}
    {n p g : Nat} (fuel : Nat)
    (h : WF s (plug k (.node .black (.node .red (.node .red L n R) p B) g U)))
    (hU : U.color = .black) :
    __chx_rb_insert_loop_stores rot (fuel + 1) s n p =
      some (insert_case3_left_stores s g p B.addr) := by
  obtain ⟨hk, hT, hnd⟩ := WF_plug'.1 h
  simp only [Tree.inorder, List.nodup_append, List.nodup_cons, List.disjoint_append_left,
    List.disjoint_append_right, List.disjoint_cons_left, List.disjoint_cons_right,
    List.mem_append, List.mem_cons, not_or] at hnd
  simp only [Rep, addr_node, bit_red, bit_black, Nat.add_zero] at hT
  have hp0 : p ≠ 0 := by simp only [hT, ne_eq, not_false_eq_true]
  have hn0 : n ≠ 0 := by simp only [hT, ne_eq, not_false_eq_true]
  have hg4 : g % 4 = 0 := hT.2.1
  have hpU : p ≠ U.addr := ne_addr hp0 (by simp only [hnd, not_false_eq_true])
  have hnB : n ≠ B.addr := ne_addr hn0 (by simp only [hnd, not_false_eq_true])
  have hpb : chx_rb_is_black s p = false := by
    rw [is_black_of_word (c := .red) hg4 (by simp [hT])]; rfl
  have hUr : ¬(U.addr ≠ 0 ∧ chx_rb_is_red s U.addr = true) := by
    rw [is_red_addr hT.2.2.2.2.2.2 hg4, hU]; simp
  rw [__chx_rb_insert_loop_stores]
  simp only [hp0, hpb, chx_rb_red_parent, hT, if_false, Bool.false_eq_true, ne_eq, hpU,
    not_false_eq_true, if_true, hnB]
  rw [if_neg hUr]

theorem insert_stores_step_case23_left (rot : Callback α) {s : State α} {k : Ctx} {L R A U : Tree}
    {n p g : Nat} (fuel : Nat)
    (h : WF s (plug k (.node .black (.node .red A p (.node .red L n R)) g U)))
    (hU : U.color = .black) :
    __chx_rb_insert_loop_stores rot (fuel + 1) s n p =
      some (insert_case2_left_stores s n p ++
        insert_case3_left_stores (insert_case2_left rot s n p).1 g n
          (insert_case2_left rot s n p).2) := by
  obtain ⟨hk, hT, hnd⟩ := WF_plug'.1 h
  simp only [Tree.inorder, List.nodup_append, List.nodup_cons, List.disjoint_append_left,
    List.disjoint_append_right, List.disjoint_cons_left, List.disjoint_cons_right,
    List.mem_append, List.mem_cons, not_or] at hnd
  simp only [Rep, addr_node, bit_red, bit_black, Nat.add_zero] at hT
  have hp0 : p ≠ 0 := by simp only [hT, ne_eq, not_false_eq_true]
  have hg4 : g % 4 = 0 := hT.2.1
  have hpU : p ≠ U.addr := ne_addr hp0 (by simp only [hnd, not_false_eq_true])
  have hpb : chx_rb_is_black s p = false := by
    rw [is_black_of_word (c := .red) hg4 (by simp [hT])]; rfl
  have hUr : ¬(U.addr ≠ 0 ∧ chx_rb_is_red s U.addr = true) := by
    rw [is_red_addr hT.2.2.2.2.2.2 hg4, hU]; simp
  rw [__chx_rb_insert_loop_stores]
  simp only [hp0, hpb, chx_rb_red_parent, hT, if_false, Bool.false_eq_true, ne_eq, hpU,
    not_false_eq_true, if_true]
  rw [if_neg hUr]

theorem insert_stores_step_case1_right (rot : Callback α) {s : State α} {k : Ctx} {A B Ul Ur : Tree}
    {n p g u : Nat} (fuel : Nat)
    (h : WF s (plug k (.node .black (.node .red Ul u Ur) g (.node .red A p B)))) :
    __chx_rb_insert_loop_stores rot (fuel + 1) s n p =
      __chx_rb_insert_loop_stores rot fuel (insert_case1 s g p u).1 g (insert_case1 s g p u).2 := by
  obtain ⟨hk, hT, hnd⟩ := WF_plug'.1 h
  simp only [Rep, addr_node, bit_red, bit_black, Nat.add_zero] at hT
  have hp0 : p ≠ 0 := by simp only [hT, ne_eq, not_false_eq_true]
  have hu0 : u ≠ 0 := by simp only [hT, ne_eq, not_false_eq_true]
  have hg4 : g % 4 = 0 := hT.2.1
  have hpb : chx_rb_is_black s p = false := by
    rw [is_black_of_word (c := .red) hg4 (by simp [hT])]; rfl
  have hur : chx_rb_is_red s u = true := by
    rw [is_red_of_word (c := .red) hg4 (by simp [hT])]; rfl
  rw [__chx_rb_insert_loop_stores]
  simp [hp0, hpb, chx_rb_red_parent, hT, hu0, hur]

theorem insert_stores_step_case3_right (rot : Callback α) {s : State α} {k : Ctx} {L R B U : Tree}
    {n p g : Nat} (fuel : Nat)
    (h : WF s (plug k (.node .black U g (.node .red B p (.node .red L n R)))))
    (hU : U.color = .black) :
    __chx_rb_insert_loop_stores rot (fuel + 1) s n p =
      some (insert_case3_right_stores s g p B.addr) := by
  obtain ⟨hk, hT, hnd⟩ := WF_plug'.1 h
  simp only [Tree.inorder, List.nodup_append, List.nodup_cons, List.disjoint_append_left,
    List.disjoint_append_right, List.disjoint_cons_left, List.disjoint_cons_right,
    List.mem_append, List.mem_cons, not_or] at hnd
  simp only [Rep, addr_node, bit_red, bit_black, Nat.add_zero] at hT
  have hp0 : p ≠ 0 := by simp only [hT, ne_eq, not_false_eq_true]
  have hn0 : n ≠ 0 := by simp only [hT, ne_eq, not_false_eq_true]
  have hg4 : g % 4 = 0 := hT.2.1
  have hnB : n ≠ B.addr := ne_addr hn0 (by simp only [hnd, not_false_eq_true])
  have hpb : chx_rb_is_black s p = false := by
    rw [is_black_of_word (c := .red) hg4 (by simp [hT])]; rfl
  have hUr : ¬(U.addr ≠ 0 ∧ chx_rb_is_red s U.addr = true) := by
    rw [is_red_addr hT.2.2.2.2.2.1 hg4, hU]; simp
  rw [__chx_rb_insert_loop_stores]
  simp only [hp0, hpb, chx_rb_red_parent, hT, if_false, Bool.false_eq_true, ne_eq,
    not_true_eq_false, not_false_eq_true, if_true, hnB]
  rw [if_neg hUr]

theorem insert_stores_step_case23_right (rot : Callback α) {s : State α} {k : Ctx} {L R A U : Tree}
    {n p g : Nat} (fuel : Nat)
    (h : WF s (plug k (.node .black U g (.node .red (.node .red L n R) p A))))
    (hU : U.color = .black) :
    __chx_rb_insert_loop_stores rot (fuel + 1) s n p =
      some (insert_case2_right_stores s n p ++
        insert_case3_right_stores (insert_case2_right rot s n p).1 g n
          (insert_case2_right rot s n p).2) := by
  obtain ⟨hk, hT, hnd⟩ := WF_plug'.1 h
  simp only [Rep, addr_node, bit_red, bit_black, Nat.add_zero] at hT
  have hp0 : p ≠ 0 := by simp only [hT, ne_eq, not_false_eq_true]
  have hg4 : g % 4 = 0 := hT.2.1
  have hpb : chx_rb_is_black s p = false := by
    rw [is_black_of_word (c := .red) hg4 (by simp [hT])]; rfl
  have hUr : ¬(U.addr ≠ 0 ∧ chx_rb_is_red s U.addr = true) := by
    rw [is_red_addr hT.2.2.2.2.2.1 hg4, hU]; simp
  rw [__chx_rb_insert_loop_stores]
  simp only [hp0, hpb, chx_rb_red_parent, hT, if_false, Bool.false_eq_true, ne_eq,
    not_true_eq_false, not_false_eq_true, if_true]
  rw [if_neg hUr]

/-- The insert fix-up loop, started at a red node `n` in a context that
satisfies the colour invariants: after each of its stores to a link the child
links below the root have no cycle. -/
theorem insert_loop_stores_acyclic (rot : Callback α) : ∀ (fuel : Nat) (k : Ctx) (L R : Tree) (n : Nat)
    (s : State α), k.length < 2 * fuel → WF s (plug k (.node .red L n R)) →
    (Tree.node .red L n R).Valid → CtxOK k L.bh →
    ∃ tr, __chx_rb_insert_loop_stores rot fuel s n (ctxAddr 0 k) = some tr ∧
      ∀ σ ∈ tr, Acyclic σ := by
  intro fuel
  induction fuel with
  | zero => intro k L R n s hlen; omega
  | succ fuel ih =>
    intro k L R n s hlen h hv hk
    rw [Valid_node] at hv
    obtain ⟨hv1, hv2, hv3, hv4⟩ := hv
    obtain ⟨hLc, hRc⟩ := hv1 rfl
    cases k with
    | nil =>
      refine ⟨[], ?_, by simp⟩
      simp [__chx_rb_insert_loop_stores, ctxAddr]
    | cons f k =>
      have hparent : ctxAddr 0 (f :: k) = f.addr := rfl
      have hw := WF_plug'.1 h
      obtain ⟨hwk, hwT, hwnd⟩ := hw
      have hf0 : f.addr ≠ 0 := by cases f <;> exact hwk.1
      have hfpc : (s.mem f.addr).__rb_parent_color = ctxAddr 0 k + f.color.bit := by
        cases f <;> exact hwk.2.2.1
      have hk4 : ctxAddr 0 k % 4 = 0 := by
        cases f
        · exact RepCtx_ctxAddr_aligned hwk.2.2.2.2.2.2
        · exact RepCtx_ctxAddr_aligned hwk.2.2.2.2.2.2
      have hblack := is_black_of_word hk4 hfpc
      by_cases hfc : f.color = .black
      · -- the parent is black: nothing to do
        refine ⟨[], ?_, by simp⟩
        rw [__chx_rb_insert_loop_stores]
        simp [hparent, hf0, hblack, hfc]
      · have hfr : f.color = .red := by
          cases hc : f.color
          · rfl
          · exact absurd hc hfc
        cases k with
        | nil =>
          cases f <;> simp only [CtxOK, topColorOK, Frame.color] at hk hfr <;>
            (subst hfr; exact absurd hk.2.2.2.1 (by simp))
        | cons f2 k2 =>
          have hf2b : f2.color = .black := by
            cases f <;> simp only [CtxOK, topColorOK, Frame.color] at hk hfr <;>
              (subst hfr; exact hk.2.2.2.1 rfl)
          simp only [List.length_cons] at hlen
          clear hwk hwT hwnd hblack hfpc hf0 hk4 hparent
          cases f2 with
          | left cg g U =>
            simp only [Frame.color] at hf2b
            subst hf2b
            cases f with
            | left cp p B =>
              simp only [Frame.color] at hfr
              subst hfr
              simp only [CtxOK, bit_red, bit_black, Nat.add_zero] at hk
              obtain ⟨hB1, hB2, hB3, -, hU1, hU2, -, hU4, hU5⟩ := hk
              have hBc := hB3 trivial
              cases hUcol : U.color with
              | red =>
                cases U with
                | nil => simp at hUcol
                | node cu Ul u Ur =>
                  simp only [color_node] at hUcol
                  subst hUcol
                  rw [Valid_node] at hU2
                  obtain ⟨hU2a, hU2b, hU2c, hU2d⟩ := hU2
                  simp only [bh_node, bit_red, Nat.add_zero] at hU1
                  have h' : WF s (plug k2 (.node .black (.node .red (.node .red L n R) p B) g (.node .red Ul u Ur))) := h
                  obtain ⟨hs1, hs2⟩ := insert_case1_left_spec h'
                  have hio : (plug k2 (.node .red (.node .black (.node .red L n R) p B) g (.node .black Ul u Ur))).inorder = (plug k2 (.node .black (.node .red (.node .red L n R) p B) g (.node .red Ul u Ur))).inorder := by
                    simp [inorder_plug, Tree.inorder]
                  obtain ⟨tr, e1, e2⟩ := ih k2 (.node .black (.node .red L n R) p B) (.node .black Ul u Ur) g _ (by omega) hs1
                    (by simp [Valid_node, hv3, hv4, hLc, hRc, hB2, hBc, hU2c, hU2d, hU2a] <;> omega)
                    (by simp only [bh_node, bit_red, bit_black, Nat.add_zero]; first | exact hU5 | (rw [hB1]; exact hU5) | (rw [hU1]; exact hU5))
                  refine ⟨tr, ?_, e2⟩
                  simp only [ctxAddr, Frame.addr]
                  rw [insert_stores_step_case1_left rot fuel h', hs2]
                  exact e1
              | black =>
                have hUc := hUcol
                have h' : WF s (plug k2 (.node .black (.node .red (.node .red L n R) p B) g U)) := h
                have hio : (plug k2 (.node .black (.node .red L n R) p (.node .red B g U))).inorder = (plug k2 (.node .black (.node .red (.node .red L n R) p B) g U)).inorder := by
                  simp [inorder_plug, Tree.inorder]
                exact ⟨_, insert_stores_step_case3_left rot fuel h' hUc,
                  insert_case3_left_acyclic h'⟩
            | right cp B p =>
              simp only [Frame.color] at hfr
              subst hfr
              simp only [CtxOK, bit_red, bit_black, Nat.add_zero] at hk
              obtain ⟨hB1, hB2, hB3, -, hU1, hU2, -, hU4, hU5⟩ := hk
              have hBc := hB3 trivial
              cases hUcol : U.color with
              | red =>
                cases U with
                | nil => simp at hUcol
                | node cu Ul u Ur =>
                  simp only [color_node] at hUcol
                  subst hUcol
                  rw [Valid_node] at hU2
                  obtain ⟨hU2a, hU2b, hU2c, hU2d⟩ := hU2
                  simp only [bh_node, bit_red, Nat.add_zero] at hU1
                  have h' : WF s (plug k2 (.node .black (.node .red B p (.node .red L n R)) g (.node .red Ul u Ur))) := h
                  obtain ⟨hs1, hs2⟩ := insert_case1_left_spec h'
                  have hio : (plug k2 (.node .red (.node .black B p (.node .red L n R)) g (.node .black Ul u Ur))).inorder = (plug k2 (.node .black (.node .red B p (.node .red L n R)) g (.node .red Ul u Ur))).inorder := by
                    simp [inorder_plug, Tree.inorder]
                  obtain ⟨tr, e1, e2⟩ := ih k2 (.node .black B p (.node .red L n R)) (.node .black Ul u Ur) g _ (by omega) hs1
                    (by simp [Valid_node, hv3, hv4, hLc, hRc, hB2, hBc, hU2c, hU2d, hU2a] <;> omega)
                    (by simp only [bh_node, bit_red, bit_black, Nat.add_zero]; first | exact hU5 | (rw [hB1]; exact hU5) | (rw [hU1]; exact hU5))
                  refine ⟨tr, ?_, e2⟩
                  simp only [ctxAddr, Frame.addr]
                  rw [insert_stores_step_case1_left rot fuel h', hs2]
                  exact e1
              | black =>
                have hUc := hUcol
                have h' : WF s (plug k2 (.node .black (.node .red B p (.node .red L n R)) g U)) := h
                have hio : (plug k2 (.node .black (.node .red B p L) n (.node .red R g U))).inorder = (plug k2 (.node .black (.node .red B p (.node .red L n R)) g U)).inorder := by
                  simp [inorder_plug, Tree.inorder]
                exact ⟨_, insert_stores_step_case23_left rot fuel h' hUc,
                  insert_case23_left_acyclic rot h'⟩
          | right cg U g =>
            simp only [Frame.color] at hf2b
            subst hf2b
            cases f with
            | left cp p B =>
              simp only [Frame.color] at hfr
              subst hfr
              simp only [CtxOK, bit_red, bit_black, Nat.add_zero] at hk
              obtain ⟨hB1, hB2, hB3, -, hU1, hU2, -, hU4, hU5⟩ := hk
              have hBc := hB3 trivial
              cases hUcol : U.color with
              | red =>
                cases U with
                | nil => simp at hUcol
                | node cu Ul u Ur =>
                  simp only [color_node] at hUcol
                  subst hUcol
                  rw [Valid_node] at hU2
                  obtain ⟨hU2a, hU2b, hU2c, hU2d⟩ := hU2
                  simp only [bh_node, bit_red, Nat.add_zero] at hU1
                  have h' : WF s (plug k2 (.node .black (.node .red Ul u Ur) g (.node .red (.node .red L n R) p B))) := h
                  obtain ⟨hs1, hs2⟩ := insert_case1_right_spec h'
                  have hio : (plug k2 (.node .red (.node .black Ul u Ur) g (.node .black (.node .red L n R) p B))).inorder = (plug k2 (.node .black (.node .red Ul u Ur) g (.node .red (.node .red L n R) p B))).inorder := by
                    simp [inorder_plug, Tree.inorder]
                  obtain ⟨tr, e1, e2⟩ := ih k2 (.node .black Ul u Ur) (.node .black (.node .red L n R) p B) g _ (by omega) hs1
                    (by simp [Valid_node, hv3, hv4, hLc, hRc, hB2, hBc, hU2c, hU2d, hU2a] <;> omega)
                    (by simp only [bh_node, bit_red, bit_black, Nat.add_zero]; first | exact hU5 | (rw [hB1]; exact hU5) | (rw [hU1]; exact hU5))
                  refine ⟨tr, ?_, e2⟩
                  simp only [ctxAddr, Frame.addr]
                  rw [insert_stores_step_case1_right rot fuel h', hs2]
                  exact e1
              | black =>
                have hUc := hUcol
                have h' : WF s (plug k2 (.node .black U g (.node .red (.node .red L n R) p B))) := h
                have hio : (plug k2 (.node .black (.node .red U g L) n (.node .red R p B))).inorder = (plug k2 (.node .black U g (.node .red (.node .red L n R) p B))).inorder := by
                  simp [inorder_plug, Tree.inorder]
                exact ⟨_, insert_stores_step_case23_right rot fuel h' hUc,
                  insert_case23_right_acyclic rot h'⟩
            | right cp B p =>
              simp only [Frame.color] at hfr
              subst hfr
              simp only [CtxOK, bit_red, bit_black, Nat.add_zero] at hk
              obtain ⟨hB1, hB2, hB3, -, hU1, hU2, -, hU4, hU5⟩ := hk
              have hBc := hB3 trivial
              cases hUcol : U.color with
              | red =>
                cases U with
                | nil => simp at hUcol
                | node cu Ul u Ur =>
                  simp only [color_node] at hUcol
                  subst hUcol
                  rw [Valid_node] at hU2
                  obtain ⟨hU2a, hU2b, hU2c, hU2d⟩ := hU2
                  simp only [bh_node, bit_red, Nat.add_zero] at hU1
                  have h' : WF s (plug k2 (.node .black (.node .red Ul u Ur) g (.node .red B p (.node .red L n R)))) := h
                  obtain ⟨hs1, hs2⟩ := insert_case1_right_spec h'
                  have hio : (plug k2 (.node .red (.node .black Ul u Ur) g (.node .black B p (.node .red L n R)))).inorder = (plug k2 (.node .black (.node .red Ul u Ur) g (.node .red B p (.node .red L n R)))).inorder := by
                    simp [inorder_plug, Tree.inorder]
                  obtain ⟨tr, e1, e2⟩ := ih k2 (.node .black Ul u Ur) (.node .black B p (.node .red L n R)) g _ (by omega) hs1
                    (by simp [Valid_node, hv3, hv4, hLc, hRc, hB2, hBc, hU2c, hU2d, hU2a] <;> omega)
                    (by simp only [bh_node, bit_red, bit_black, Nat.add_zero]; first | exact hU5 | (rw [hB1]; exact hU5) | (rw [hU1]; exact hU5))
                  refine ⟨tr, ?_, e2⟩
                  simp only [ctxAddr, Frame.addr]
                  rw [insert_stores_step_case1_right rot fuel h', hs2]
                  exact e1
              | black =>
                have hUc := hUcol
                have h' : WF s (plug k2 (.node .black U g (.node .red B p (.node .red L n R)))) := h
                have hio : (plug k2 (.node .black (.node .red U g B) p (.node .red L n R))).inorder = (plug k2 (.node .black U g (.node .red B p (.node .red L n R)))).inorder := by
                  simp [inorder_plug, Tree.inorder]
                exact ⟨_, insert_stores_step_case3_right rot fuel h' hUc,
                  insert_case3_right_acyclic h'⟩


/-! ## Erase fix-up: the stores of the loop -/

theorem erase_left_tail_stores_acyclic (rot : Callback α)
    (loop : State α → Nat → Nat → Option (List (State α)))
    {s : State α} {K : Ctx} {c : Color} {N Sn Sf : Tree} {p sx : Nat}
    (h : WF s (plug K (.node c N p (.node .black Sn sx Sf))))
    (hNv : N.Valid) (hSnv : Sn.Valid) (hSfv : Sf.Valid) (hSn : Sn.bh = N.bh) (hSf : Sf.bh = N.bh)
    (htop : topColorOK c K) (hK : CtxOK K (N.bh + 1 + c.bit))
    (hloop : c = .black → K ≠ [] → ∀ s1 N1, WF s1 (plug K N1) → N1.color = .black → N1.Valid →
      N1.bh = N.bh + 1 →
      ∃ tr, loop s1 N1.addr (ctxAddr 0 K) = some tr ∧ ∀ σ ∈ tr, Acyclic σ) :
    ∃ tr, erase_color_left_tail_stores rot loop s p sx = some tr ∧ ∀ σ ∈ tr, Acyclic σ := by
  obtain ⟨hk, hT, hnd⟩ := WF_plug'.1 h
  have hpar := RepCtx_ctxAddr_aligned hk
  have hRepS : Rep s.mem (.node .black Sn sx Sf) p := by
    simp only [Rep] at hT
    simp only [Rep]
    tauto
  have hsx4 : sx % 4 = 0 := hRepS.2.1
  have hRepSn : Rep s.mem Sn sx := by
    simp only [Rep] at hRepS
    tauto
  have hRepSf : Rep s.mem Sf sx := by
    simp only [Rep] at hRepS
    tauto
  have hfar : (s.mem sx).rb_right = Sf.addr := by
    simp only [Rep] at hRepS
    tauto
  have hnear : (s.mem sx).rb_left = Sn.addr := by
    simp only [Rep] at hRepS
    tauto
  have hppc : (s.mem p).__rb_parent_color = ctxAddr 0 K + c.bit := hT.2.2.1
  have hpsx : p ≠ sx := by
    have hnd' := hnd
    simp only [Tree.inorder, List.nodup_append, List.nodup_cons, List.disjoint_append_left,
      List.disjoint_append_right, List.disjoint_cons_left, List.disjoint_cons_right,
      List.mem_append, List.mem_cons, not_or] at hnd'
    first
    | exact (ne_pair (by simp only [hnd', not_false_eq_true])).1
    | exact (ne_pair (by simp only [hnd', not_false_eq_true])).2
  unfold erase_color_left_tail_stores
  simp only [hfar, hnear]
  cases hSfc : Sf.color with
  | red =>
    -- Case 4
    rw [if_neg (by rw [is_black_addr hRepSf hsx4, hSfc]; simp)]
    cases Sf with
    | nil => simp at hSfc
    | node cf Sfl sf Sfr => exact ⟨_, rfl, erase_case4_left_acyclic h⟩
  | black =>
    rw [if_pos (by rw [is_black_addr hRepSf hsx4, hSfc])]
    cases hSnc : Sn.color with
    | red =>
      -- Case 3 then Case 4
      rw [if_neg (by rw [is_black_addr hRepSn hsx4, hSnc]; simp)]
      cases Sn with
      | nil => simp at hSnc
      | node cn Snl sn Snr => exact ⟨_, rfl, erase_case34_left_acyclic rot h⟩
    | black =>
      -- Case 2
      rw [if_pos (by rw [is_black_addr hRepSn hsx4, hSnc])]
      unfold erase_case2_stores
      have hpc2 : ((chx_rb_set_parent_color s sx p CHX_RB_RED).mem p).__rb_parent_color
          = ctxAddr 0 K + c.bit := by
        simp [chx_rb_set_parent_color, hpsx, hppc]
      have hred := is_red_of_word hpar hpc2
      have hparent : chx_rb_parent (chx_rb_set_parent_color s sx p CHX_RB_RED) p
          = ctxAddr 0 K := by
        rw [chx_rb_parent, hpc2, parent_of_word c hpar]
      simp only [hred, hparent]
      cases c with
      | red => exact ⟨[], by simp, by simp⟩
      | black =>
        have hs := erase_case2_left_spec h
        have hN1v : Tree.Valid (.node .black N p (.node .red Sn sx Sf)) := by
          simp [Valid_node, hNv, hSnv, hSfv, hSnc, hSfc] <;> omega
        have hN1bh : Tree.bh (.node .black N p (.node .red Sn sx Sf)) = N.bh + 1 := by
          simp only [bh_node, bit_black, bit_red, Nat.add_zero] <;> omega
        by_cases hK0 : K = []
        · subst hK0
          exact ⟨[], by simp [ctxAddr], by simp⟩
        · have hne : ctxAddr 0 K ≠ 0 := fun e => hK0 ((RepCtx_ctxAddr_ne_zero hk).1 e)
          obtain ⟨tr, e1, e2⟩ := hloop rfl hK0 _ _ hs rfl hN1v hN1bh
          refine ⟨tr, ?_, e2⟩
          simpa [hne] using e1

theorem erase_right_tail_stores_acyclic (rot : Callback α)
    (loop : State α → Nat → Nat → Option (List (State α)))
    {s : State α} {K : Ctx} {c : Color} {N Sn Sf : Tree} {p sx : Nat}
    (h : WF s (plug K (.node c (.node .black Sf sx Sn) p N)))
    (hNv : N.Valid) (hSnv : Sn.Valid) (hSfv : Sf.Valid) (hSn : Sn.bh = N.bh) (hSf : Sf.bh = N.bh)
    (htop : topColorOK c K) (hK : CtxOK K (N.bh + 1 + c.bit))
    (hloop : c = .black → K ≠ [] → ∀ s1 N1, WF s1 (plug K N1) → N1.color = .black → N1.Valid →
      N1.bh = N.bh + 1 →
      ∃ tr, loop s1 N1.addr (ctxAddr 0 K) = some tr ∧ ∀ σ ∈ tr, Acyclic σ) :
    ∃ tr, erase_color_right_tail_stores rot loop s p sx = some tr ∧ ∀ σ ∈ tr, Acyclic σ := by
  obtain ⟨hk, hT, hnd⟩ := WF_plug'.1 h
  have hpar := RepCtx_ctxAddr_aligned hk
  have hRepS : Rep s.mem (.node .black Sf sx Sn) p := by
    simp only [Rep] at hT
    simp only [Rep]
    tauto
  have hsx4 : sx % 4 = 0 := hRepS.2.1
  have hRepSn : Rep s.mem Sn sx := by
    simp only [Rep] at hRepS
    tauto
  have hRepSf : Rep s.mem Sf sx := by
    simp only [Rep] at hRepS
    tauto
  have hfar : (s.mem sx).rb_left = Sf.addr := by
    simp only [Rep] at hRepS
    tauto
  have hnear : (s.mem sx).rb_right = Sn.addr := by
    simp only [Rep] at hRepS
    tauto
  have hppc : (s.mem p).__rb_parent_color = ctxAddr 0 K + c.bit := hT.2.2.1
  have hpsx : p ≠ sx := by
    have hnd' := hnd
    simp only [Tree.inorder, List.nodup_append, List.nodup_cons, List.disjoint_append_left,
      List.disjoint_append_right, List.disjoint_cons_left, List.disjoint_cons_right,
      List.mem_append, List.mem_cons, not_or] at hnd'
    first
    | exact (ne_pair (by simp only [hnd', not_false_eq_true])).1
    | exact (ne_pair (by simp only [hnd', not_false_eq_true])).2
  unfold erase_color_right_tail_stores
  simp only [hfar, hnear]
  cases hSfc : Sf.color with
  | red =>
    -- Case 4
    rw [if_neg (by rw [is_black_addr hRepSf hsx4, hSfc]; simp)]
    cases Sf with
    | nil => simp at hSfc
    | node cf Sfl sf Sfr => exact ⟨_, rfl, erase_case4_right_acyclic h⟩
  | black =>
    rw [if_pos (by rw [is_black_addr hRepSf hsx4, hSfc])]
    cases hSnc : Sn.color with
    | red =>
      -- Case 3 then Case 4
      rw [if_neg (by rw [is_black_addr hRepSn hsx4, hSnc]; simp)]
      cases Sn with
      | nil => simp at hSnc
      | node cn Snl sn Snr => exact ⟨_, rfl, erase_case34_right_acyclic rot h⟩
    | black =>
      -- Case 2
      rw [if_pos (by rw [is_black_addr hRepSn hsx4, hSnc])]
      unfold erase_case2_stores
      have hpc2 : ((chx_rb_set_parent_color s sx p CHX_RB_RED).mem p).__rb_parent_color
          = ctxAddr 0 K + c.bit := by
        simp [chx_rb_set_parent_color, hpsx, hppc]
      have hred := is_red_of_word hpar hpc2
      have hparent : chx_rb_parent (chx_rb_set_parent_color s sx p CHX_RB_RED) p
          = ctxAddr 0 K := by
        rw [chx_rb_parent, hpc2, parent_of_word c hpar]
      simp only [hred, hparent]
      cases c with
      | red => exact ⟨[], by simp, by simp⟩
      | black =>
        have hs := erase_case2_right_spec h
        have hN1v : Tree.Valid (.node .black (.node .red Sf sx Sn) p N) := by
          simp [Valid_node, hNv, hSnv, hSfv, hSnc, hSfc] <;> omega
        have hN1bh : Tree.bh (.node .black (.node .red Sf sx Sn) p N) = N.bh + 1 := by
          simp only [bh_node, bit_black, bit_red, Nat.add_zero] <;> omega
        by_cases hK0 : K = []
        · subst hK0
          exact ⟨[], by simp [ctxAddr], by simp⟩
        · have hne : ctxAddr 0 K ≠ 0 := fun e => hK0 ((RepCtx_ctxAddr_ne_zero hk).1 e)
          obtain ⟨tr, e1, e2⟩ := hloop rfl hK0 _ _ hs rfl hN1v hN1bh
          refine ⟨tr, ?_, e2⟩
          simpa [hne] using e1

theorem erase_stores_step_left_black (rot : Callback α) (fuel : Nat) {s : State α} {K : Ctx}
    {c : Color} {N Sn Sf : Tree} {p sx : Nat}
    (h : WF s (plug K (.node c N p (.node .black Sn sx Sf)))) :
    ____chx_rb_erase_color_loop_stores rot (fuel + 1) s N.addr p =
      erase_color_left_tail_stores rot (____chx_rb_erase_color_loop_stores rot fuel) s p sx := by
  obtain ⟨hk, hT, hnd⟩ := WF_plug'.1 h
  have hRepS : Rep s.mem (.node .black Sn sx Sf) p := by
    simp only [Rep] at hT
    simp only [Rep]
    tauto
  have hp4 : p % 4 = 0 := hT.2.1
  have hsx0 : sx ≠ 0 := hRepS.1
  have hred : chx_rb_is_red s sx = false := by
    rw [is_red_of_word hp4 hRepS.2.2.1]
    rfl
  have hl : (s.mem p).rb_left = N.addr := by
    simp only [Rep, addr_node] at hT
    exact hT.2.2.2.1
  have hr : (s.mem p).rb_right = sx := by
    simp only [Rep, addr_node] at hT
    exact hT.2.2.2.2.1
  have hNsx : N.addr ≠ sx := by
    cases N with
    | nil => exact fun e => hsx0 e.symm
    | node cn Nl n Nr =>
      show n ≠ sx
      simp only [Tree.inorder, List.nodup_append, List.nodup_cons, List.disjoint_append_left,
        List.disjoint_append_right, List.disjoint_cons_left, List.disjoint_cons_right,
        List.mem_append, List.mem_cons, not_or] at hnd
      first
      | exact (ne_pair (by simp only [hnd, not_false_eq_true])).1
      | exact (ne_pair (by simp only [hnd, not_false_eq_true])).2
  rw [____chx_rb_erase_color_loop_stores]
  simp [hl, hr, hNsx, hred]

theorem erase_stores_step_left_red (rot : Callback α) (fuel : Nat) {s : State α} {K : Ctx}
    {c : Color} {N Sn Sf : Tree} {p sx : Nat}
    (h : WF s (plug K (.node c N p (.node .red Sn sx Sf)))) :
    ____chx_rb_erase_color_loop_stores rot (fuel + 1) s N.addr p =
      (erase_color_left_tail_stores rot (____chx_rb_erase_color_loop_stores rot fuel)
        (erase_case1_left rot s p sx).1 p (erase_case1_left rot s p sx).2).map
        (erase_case1_left_stores s p sx ++ ·) := by
  obtain ⟨hk, hT, hnd⟩ := WF_plug'.1 h
  have hRepS : Rep s.mem (.node .red Sn sx Sf) p := by
    simp only [Rep] at hT
    simp only [Rep]
    tauto
  have hp4 : p % 4 = 0 := hT.2.1
  have hsx0 : sx ≠ 0 := hRepS.1
  have hred : chx_rb_is_red s sx = true := by
    rw [is_red_of_word hp4 hRepS.2.2.1]
    rfl
  have hl : (s.mem p).rb_left = N.addr := by
    simp only [Rep, addr_node] at hT
    exact hT.2.2.2.1
  have hr : (s.mem p).rb_right = sx := by
    simp only [Rep, addr_node] at hT
    exact hT.2.2.2.2.1
  have hNsx : N.addr ≠ sx := by
    cases N with
    | nil => exact fun e => hsx0 e.symm
    | node cn Nl n Nr =>
      show n ≠ sx
      simp only [Tree.inorder, List.nodup_append, List.nodup_cons, List.disjoint_append_left,
        List.disjoint_append_right, List.disjoint_cons_left, List.disjoint_cons_right,
        List.mem_append, List.mem_cons, not_or] at hnd
      first
      | exact (ne_pair (by simp only [hnd, not_false_eq_true])).1
      | exact (ne_pair (by simp only [hnd, not_false_eq_true])).2
  rw [____chx_rb_erase_color_loop_stores]
  simp [hl, hr, hNsx, hred]

theorem erase_stores_step_right_black (rot : Callback α) (fuel : Nat) {s : State α} {K : Ctx}
    {c : Color} {N Sn Sf : Tree} {p sx : Nat}
    (h : WF s (plug K (.node c (.node .black Sf sx Sn) p N))) :
    ____chx_rb_erase_color_loop_stores rot (fuel + 1) s N.addr p =
      erase_color_right_tail_stores rot (____chx_rb_erase_color_loop_stores rot fuel) s p sx := by
  obtain ⟨hk, hT, hnd⟩ := WF_plug'.1 h
  have hRepS : Rep s.mem (.node .black Sf sx Sn) p := by
    simp only [Rep] at hT
    simp only [Rep]
    tauto
  have hp4 : p % 4 = 0 := hT.2.1
  have hsx0 : sx ≠ 0 := hRepS.1
  have hred : chx_rb_is_red s sx = false := by
    rw [is_red_of_word hp4 hRepS.2.2.1]
    rfl
  have hl : (s.mem p).rb_left = sx := by
    simp only [Rep, addr_node] at hT
    exact hT.2.2.2.1
  have hr : (s.mem p).rb_right = N.addr := by
    simp only [Rep, addr_node] at hT
    exact hT.2.2.2.2.1
  have hNsx : N.addr ≠ sx := by
    cases N with
    | nil => exact fun e => hsx0 e.symm
    | node cn Nl n Nr =>
      show n ≠ sx
      simp only [Tree.inorder, List.nodup_append, List.nodup_cons, List.disjoint_append_left,
        List.disjoint_append_right, List.disjoint_cons_left, List.disjoint_cons_right,
        List.mem_append, List.mem_cons, not_or] at hnd
      first
      | exact (ne_pair (by simp only [hnd, not_false_eq_true])).1
      | exact (ne_pair (by simp only [hnd, not_false_eq_true])).2
  rw [____chx_rb_erase_color_loop_stores]
  simp [hl, hr, hNsx, hred]

theorem erase_stores_step_right_red (rot : Callback α) (fuel : Nat) {s : State α} {K : Ctx}
    {c : Color} {N Sn Sf : Tree} {p sx : Nat}
    (h : WF s (plug K (.node c (.node .red Sf sx Sn) p N))) :
    ____chx_rb_erase_color_loop_stores rot (fuel + 1) s N.addr p =
      (erase_color_right_tail_stores rot (____chx_rb_erase_color_loop_stores rot fuel)
        (erase_case1_right rot s p sx).1 p (erase_case1_right rot s p sx).2).map
        (erase_case1_right_stores s p sx ++ ·) := by
  obtain ⟨hk, hT, hnd⟩ := WF_plug'.1 h
  have hRepS : Rep s.mem (.node .red Sf sx Sn) p := by
    simp only [Rep] at hT
    simp only [Rep]
    tauto
  have hp4 : p % 4 = 0 := hT.2.1
  have hsx0 : sx ≠ 0 := hRepS.1
  have hred : chx_rb_is_red s sx = true := by
    rw [is_red_of_word hp4 hRepS.2.2.1]
    rfl
  have hl : (s.mem p).rb_left = sx := by
    simp only [Rep, addr_node] at hT
    exact hT.2.2.2.1
  have hr : (s.mem p).rb_right = N.addr := by
    simp only [Rep, addr_node] at hT
    exact hT.2.2.2.2.1
  have hNsx : N.addr ≠ sx := by
    cases N with
    | nil => exact fun e => hsx0 e.symm
    | node cn Nl n Nr =>
      show n ≠ sx
      simp only [Tree.inorder, List.nodup_append, List.nodup_cons, List.disjoint_append_left,
        List.disjoint_append_right, List.disjoint_cons_left, List.disjoint_cons_right,
        List.mem_append, List.mem_cons, not_or] at hnd
      first
      | exact (ne_pair (by simp only [hnd, not_false_eq_true])).1
      | exact (ne_pair (by simp only [hnd, not_false_eq_true])).2
  rw [____chx_rb_erase_color_loop_stores]
  simp [hl, hr, hNsx, hred]

/-- The erase fix-up loop, entered at a subtree `N` whose black height is one
less than its context expects: after each of its stores to a link the child
links below the root have no cycle. -/
theorem erase_loop_stores_acyclic (rot : Callback α) : ∀ (fuel : Nat) (K : Ctx) (N : Tree) (s : State α),
    K ≠ [] → K.length ≤ fuel → WF s (plug K N) → N.Valid → CtxOK K (N.bh + 1) →
    ∃ tr, ____chx_rb_erase_color_loop_stores rot fuel s N.addr (ctxAddr 0 K) = some tr ∧
      ∀ σ ∈ tr, Acyclic σ := by
  intro fuel
  induction fuel with
  | zero =>
    intro K N s hK0 hlen
    cases K with
    | nil => exact absurd rfl hK0
    | cons f K' => simp at hlen
  | succ fuel ih =>
    intro K N s hK0 hlen h hNv hK
    cases K with
    | nil => exact absurd rfl hK0
    | cons f K' =>
      cases f with
      | left c p S =>
        simp only [CtxOK] at hK
        obtain ⟨hS1, hS2, hS3, hS4, hS5⟩ := hK
        cases S with
        | nil => simp at hS1
        | node cs Sn sx Sf =>
          have h' : WF s (plug K' (.node c N p (.node cs Sn sx Sf))) := h
          rw [Valid_node] at hS2
          obtain ⟨hS2a, hS2b, hS2c, hS2d⟩ := hS2
          simp only [bh_node] at hS1
          simp only [ctxAddr, Frame.addr]
          cases cs with
          | red =>
            have hc : c = .black := by
              cases c
              · exact absurd (hS3 rfl) (by simp)
              · rfl
            subst hc
            obtain ⟨hSnc, hSfc⟩ : Sn.color = .black ∧ Sf.color = .black := by
              have := hS2a rfl
              tauto
            simp only [bit_red, Nat.add_zero, bit_black] at hS1 hS5
            cases Sn with
            | nil => exfalso; simp only [bh_nil] at hS1 hS2b; omega
            | node cn Snl sn Snr =>
              simp only [color_node] at hSnc
              subst hSnc
              rw [Valid_node] at hS2c
              obtain ⟨hn1, hn2, hn3, hn4⟩ := hS2c
              simp only [bh_node, bit_black] at hS1 hS2b
              have hs1 := erase_case1_left_spec rot h'
              have hr2 : (erase_case1_left rot s p sx).2 = sn := by
                obtain ⟨-, hT, -⟩ := WF_plug'.1 h'
                simp only [Rep, addr_node] at hT
                simp only [erase_case1_left]
                tauto
              rw [erase_stores_step_left_red rot fuel h', hr2]
              have hs1' : WF (erase_case1_left rot s p sx).1
                  (plug (.left .black sx Sf :: K') (.node .red N p (.node .black Snl sn Snr))) := hs1
              obtain ⟨tr, e1, e2⟩ := erase_left_tail_stores_acyclic rot
                (____chx_rb_erase_color_loop_stores rot fuel) hs1' hNv
                (by first | exact hn3 | exact hn4) (by first | exact hn4 | exact hn3)
                (by omega) (by omega) (fun _ => rfl)
                (by
                  simp only [CtxOK, bit_red, bit_black, Nat.add_zero]
                  refine ⟨by omega, by first | exact hS2d | exact hS2c, by simp,
                    topColorOK_black K', hS5⟩)
                (fun hcc => by cases hcc)
              refine ⟨erase_case1_left_stores s p sx ++ tr, by rw [e1]; rfl, ?_⟩
              intro σ hσ
              rcases List.mem_append.1 hσ with h1 | h2
              · exact erase_case1_left_acyclic h' σ h1
              · exact e2 σ h2
          | black =>
            simp only [bit_black] at hS1
            rw [erase_stores_step_left_black rot fuel h']
            obtain ⟨tr, e1, e2⟩ := erase_left_tail_stores_acyclic rot
              (____chx_rb_erase_color_loop_stores rot fuel) h' hNv
              (by first | exact hS2c | exact hS2d) (by first | exact hS2d | exact hS2c)
              (by omega) (by omega) hS4 hS5
              (fun hcc hKn s1 N1 hw _ hv hb => by
                subst hcc
                exact ih K' N1 s1 hKn (by simp only [List.length_cons] at hlen; omega) hw hv
                  (by rw [hb]; exact hS5))
            exact ⟨tr, e1, e2⟩
      | right c S p =>
        simp only [CtxOK] at hK
        obtain ⟨hS1, hS2, hS3, hS4, hS5⟩ := hK
        cases S with
        | nil => simp at hS1
        | node cs Sf sx Sn =>
          have h' : WF s (plug K' (.node c (.node cs Sf sx Sn) p N)) := h
          rw [Valid_node] at hS2
          obtain ⟨hS2a, hS2b, hS2c, hS2d⟩ := hS2
          simp only [bh_node] at hS1
          simp only [ctxAddr, Frame.addr]
          cases cs with
          | red =>
            have hc : c = .black := by
              cases c
              · exact absurd (hS3 rfl) (by simp)
              · rfl
            subst hc
            obtain ⟨hSnc, hSfc⟩ : Sn.color = .black ∧ Sf.color = .black := by
              have := hS2a rfl
              tauto
            simp only [bit_red, Nat.add_zero, bit_black] at hS1 hS5
            cases Sn with
            | nil => exfalso; simp only [bh_nil] at hS1 hS2b; omega
            | node cn Snl sn Snr =>
              simp only [color_node] at hSnc
              subst hSnc
              rw [Valid_node] at hS2d
              obtain ⟨hn1, hn2, hn3, hn4⟩ := hS2d
              simp only [bh_node, bit_black] at hS1 hS2b
              have hs1 := erase_case1_right_spec rot h'
              have hr2 : (erase_case1_right rot s p sx).2 = sn := by
                obtain ⟨-, hT, -⟩ := WF_plug'.1 h'
                simp only [Rep, addr_node] at hT
                simp only [erase_case1_right]
                tauto
              rw [erase_stores_step_right_red rot fuel h', hr2]
              have hs1' : WF (erase_case1_right rot s p sx).1
                  (plug (.right .black Sf sx :: K') (.node .red (.node .black Snl sn Snr) p N)) := hs1
              obtain ⟨tr, e1, e2⟩ := erase_right_tail_stores_acyclic rot
                (____chx_rb_erase_color_loop_stores rot fuel) hs1' hNv
                (by first | exact hn3 | exact hn4) (by first | exact hn4 | exact hn3)
                (by omega) (by omega) (fun _ => rfl)
                (by
                  simp only [CtxOK, bit_red, bit_black, Nat.add_zero]
                  refine ⟨by omega, by first | exact hS2d | exact hS2c, by simp,
                    topColorOK_black K', hS5⟩)
                (fun hcc => by cases hcc)
              refine ⟨erase_case1_right_stores s p sx ++ tr, by rw [e1]; rfl, ?_⟩
              intro σ hσ
              rcases List.mem_append.1 hσ with h1 | h2
              · exact erase_case1_right_acyclic h' σ h1
              · exact e2 σ h2
          | black =>
            simp only [bit_black] at hS1
            rw [erase_stores_step_right_black rot fuel h']
            obtain ⟨tr, e1, e2⟩ := erase_right_tail_stores_acyclic rot
              (____chx_rb_erase_color_loop_stores rot fuel) h' hNv
              (by first | exact hS2c | exact hS2d) (by first | exact hS2d | exact hS2c)
              (by omega) (by omega) hS4 hS5
              (fun hcc hKn s1 N1 hw _ hv hb => by
                subst hcc
                exact ih K' N1 s1 hKn (by simp only [List.length_cons] at hlen; omega) hw hv
                  (by rw [hb]; exact hS5))
            exact ⟨tr, e1, e2⟩



/-! ## No store leaves a cycle below the root -/

/-- Stores of `chx_rb_insert_color` on a fresh node that `chx_rb_link_node` has
put into the hole of a context. -/
theorem insert_color_stores_acyclic {s : State α} {k : Ctx} {node : Nat} (fuel : Nat)
    (h : WF s (plug k .nil)) (hrb : (plug k .nil).RB)
    (hn0 : node ≠ 0) (hn4 : node % 4 = 0) (hfresh : node ∉ (plug k .nil).inorder)
    (hfuel : (plug k .nil).height < fuel) :
    ∃ tr, chx_rb_insert_color_stores fuel
        (chx_rb_link_node s node (ctxAddr 0 k) (ctxLink k)) node = some tr ∧
      ∀ σ ∈ tr, Acyclic σ := by
  have hl := link_node_spec h hn0 hn4 hfresh
  obtain ⟨hv, hk, -⟩ := (RB_plug k .nil).1 hrb
  have hlen : k.length < 2 * fuel := by
    have := plug_height k .nil
    omega
  obtain ⟨tr, e1, e2⟩ := insert_loop_stores_acyclic dummy_rotate fuel k .nil .nil node _ hlen hl
    (Valid_node.2 ⟨fun _ => ⟨rfl, rfl⟩, rfl, Valid_nil, Valid_nil⟩) hk
  refine ⟨tr, ?_, e2⟩
  rw [chx_rb_insert_color_stores]
  have hpar : chx_rb_red_parent (chx_rb_link_node s node (ctxAddr 0 k) (ctxLink k)) node
      = ctxAddr 0 k := by
    obtain ⟨-, hT, -⟩ := WF_plug'.1 hl
    simpa [chx_rb_red_parent] using hT.2.2.1
  rw [hpar]
  exact e1

/-- Stores of `chx_rb_erase` on a node of a red-black tree. -/
theorem erase_stores_acyclic {s : State α} {t : Tree} {n fuel : Nat}
    (hwf : WF s t) (hrb : t.RB) (hn : n ∈ t.inorder) (hfuel : t.height ≤ fuel) :
    ∃ tr, chx_rb_erase_stores fuel s n = some tr ∧ ∀ σ ∈ tr, Acyclic σ := by
  obtain ⟨k, c, l, r, e⟩ := mem_split_plug t n hn
  subst e
  obtain ⟨σ, reb, K, C, e1, hσ, hlenK, hio, hcase⟩ :=
    splice_spec dummy_callbacks fuel hwf hrb hfuel
  obtain ⟨tr1, f1, f2⟩ := splice_stores_acyclic dummy_callbacks fuel hwf hfuel
  unfold chx_rb_erase_stores
  rw [e1, f1]
  rcases hcase with ⟨h0, -⟩ | ⟨h1, h2, h3, h4, h5⟩
  · subst h0
    exact ⟨tr1, by simp, f2⟩
  · subst h3
    obtain ⟨tr2, g1, g2⟩ :=
      erase_loop_stores_acyclic dummy_rotate fuel K .nil σ h4 hlenK hσ Valid_nil h5
    refine ⟨tr1 ++ tr2, ?_, ?_⟩
    · simp only [ne_eq, h2, not_false_eq_true, if_true]
      rw [h1]
      simp only [addr_nil] at g1
      rw [g1]
      rfl
    · intro τ hτ
      rcases List.mem_append.1 hτ with m1 | m2
      · exact f2 τ m1
      · exact g2 τ m2

/-- A state that differs from a state that holds a tree only at a node outside
the tree has no cycle below the root. -/
theorem Acyclic_of_fresh {s σ : State α} {t : Tree} {new : Nat} (h : WF s t)
    (hfresh : new ∉ t.inorder) (hroot : σ.rb_node = s.rb_node)
    (hmem : ∀ x, x ≠ new → σ.mem x = s.mem x) : Acyclic σ := by
  refine Acyclic_of_Shape (t := t) ?_
  rw [hroot]
  exact (Shape_mem_congr t _ (fun x hx => hmem x (fun e => hfresh (e ▸ hx)))).2 h.shape

/-- Claim C36.  The state holds a red-black tree.  A lookup without a lock
reads the root and then child links only; what it sees is the graph of the
child links below the root.  That graph has no cycle, and every descent along
child links reaches null within a bounded number of steps,

* in the state itself;
* after each store to a left link, a right link or the root that
  `chx_rb_insert_color` does, in program order, on a fresh node that
  `chx_rb_link_node` has attached at a null slot;
* after each such store that `chx_rb_erase` does, in the splice and in the
  fix-up, on a node of the tree;
* after each such store that `chx_rb_replace_node` does on a node of the tree
  and a fresh aligned node, and in every state that differs from the first one
  at the fresh node only, which covers the structure assignment
  `*new_node = *victim` whatever the order of its writes.

The functions return the lists of these states with enough fuel. -/
theorem stores_keep_links_acyclic (s : State α) (t : Tree) (hwf : WF s t) (hrb : t.RB) :
    Acyclic s ∧
    (∀ (node parent fuel : Nat) (link : Link), NullSlot s t parent link → node ≠ 0 →
      node % 4 = 0 → node ∉ t.inorder → t.height < fuel →
      Acyclic (chx_rb_link_node s node parent link) ∧
      ∃ tr, chx_rb_insert_color_stores fuel (chx_rb_link_node s node parent link) node
          = some tr ∧ ∀ σ ∈ tr, Acyclic σ) ∧
    (∀ (n fuel : Nat), n ∈ t.inorder → t.height ≤ fuel →
      ∃ tr, chx_rb_erase_stores fuel s n = some tr ∧ ∀ σ ∈ tr, Acyclic σ) ∧
    (∀ (v new : Nat), v ∈ t.inorder → new ≠ 0 → new % 4 = 0 → new ∉ t.inorder →
      (∀ σ ∈ chx_rb_replace_node_stores s v new, Acyclic σ) ∧
      ∀ σ : State α, σ.rb_node = s.rb_node → (∀ x, x ≠ new → σ.mem x = s.mem x) →
        Acyclic σ) := by
  refine ⟨Acyclic_of_Shape hwf.shape, ?_, ?_, ?_⟩
  · intro node parent fuel link hslot hn0 hn4 hfresh hfuel
    obtain ⟨k, e1, e2, e3⟩ := NullSlot.ctx hwf hslot
    subst e1 e2 e3
    exact ⟨Acyclic_of_Shape (link_node_spec hwf hn0 hn4 hfresh).shape,
      insert_color_stores_acyclic fuel hwf hrb hn0 hn4 hfresh hfuel⟩
  · intro n fuel hn hfuel
    exact erase_stores_acyclic hwf hrb hn hfuel
  · intro v new hv hn0 hn4 hfresh
    exact ⟨replace_stores_acyclic hwf hv hn0 hn4 hfresh,
      fun σ hroot hmem => Acyclic_of_fresh hwf hfresh hroot hmem⟩

theorem stores_keep_links_acyclic_witness :
    WF demo_four demo_four_tree ∧ demo_four_tree.RB ∧
    NullSlot demo_four demo_four_tree 16 (.right 16) ∧
    (chx_rb_insert_color_stores 4 (chx_rb_link_node demo_four 20 16 (.right 16)) 20).map
      List.length = some 3 ∧
    (chx_rb_erase_stores 3 demo_four 4).map List.length = some 4 ∧
    (chx_rb_replace_node_stores demo_four 12 20).length = 2 ∧
    Acyclic demo_four ∧
    (∃ tr, chx_rb_insert_color_stores 4 (chx_rb_link_node demo_four 20 16 (.right 16)) 20
        = some tr ∧ ∀ σ ∈ tr, Acyclic σ) ∧
    (∃ tr, chx_rb_erase_stores 3 demo_four 4 = some tr ∧ ∀ σ ∈ tr, Acyclic σ) ∧
    (∀ σ ∈ chx_rb_replace_node_stores demo_four 12 20, Acyclic σ) :=
  ⟨by decide, by decide, by decide, by decide, by decide, by decide,
    (stores_keep_links_acyclic demo_four demo_four_tree (by decide) (by decide)).1,
    ((stores_keep_links_acyclic demo_four demo_four_tree (by decide) (by decide)).2.1
      20 16 4 (.right 16) (by decide) (by decide) (by decide) (by decide) (by decide)).2,
    (stores_keep_links_acyclic demo_four demo_four_tree (by decide) (by decide)).2.2.1
      4 3 (by decide) (by decide),
    ((stores_keep_links_acyclic demo_four demo_four_tree (by decide) (by decide)).2.2.2
      12 20 (by decide) (by decide) (by decide) (by decide)).1⟩

/-- The last state of the trace of `chx_rb_insert_color` on the demonstration
tree has the root and the child links of the state the function returns. -/
theorem demo_insert_stores_end :
    ((chx_rb_insert_color_stores 4 (chx_rb_link_node demo_four 20 16 (.right 16)) 20).bind
      List.getLast?).map (fun σ => (σ.rb_node, [4, 8, 12, 16, 20].map
        (fun a => ((σ.mem a).rb_left, (σ.mem a).rb_right)))) =
    (chx_rb_insert_color 4 (chx_rb_link_node demo_four 20 16 (.right 16)) 20).map
      (fun σ => (σ.rb_node, [4, 8, 12, 16, 20].map
        (fun a => ((σ.mem a).rb_left, (σ.mem a).rb_right)))) := by
  decide

/-- The last state of the trace of `chx_rb_erase` on the demonstration tree has
the root and the child links of the state the function returns. -/
theorem demo_erase_stores_end :
    ((chx_rb_erase_stores 3 demo_four 4).bind List.getLast?).map
      (fun σ => (σ.rb_node, [4, 8, 12, 16].map
        (fun a => ((σ.mem a).rb_left, (σ.mem a).rb_right)))) =
    (chx_rb_erase 3 demo_four 4).map (fun σ => (σ.rb_node, [4, 8, 12, 16].map
        (fun a => ((σ.mem a).rb_left, (σ.mem a).rb_right)))) := by
  decide

/-- The last state of the trace of `chx_rb_replace_node` on the demonstration
tree has the root and the child links of the state the function returns. -/
theorem demo_replace_stores_end :
    ((chx_rb_replace_node_stores demo_four 12 20).getLast?).map
      (fun σ => (σ.rb_node, [4, 8, 12, 16, 20].map
        (fun a => ((σ.mem a).rb_left, (σ.mem a).rb_right)))) =
    some ((chx_rb_replace_node demo_four 12 20).rb_node, [4, 8, 12, 16, 20].map
        (fun a => (((chx_rb_replace_node demo_four 12 20).mem a).rb_left,
          ((chx_rb_replace_node demo_four 12 20).mem a).rb_right))) := by
  decide

end ChxRb
